import Mathlib

/-!
# Kanzi ROLZ codec: a shallow embedding of `function/ROLZCodec.go`

Conventions of the embedding.

* A byte is a `Nat` below 256; a Go `[]byte` is a `List Nat`.  A conversion
  `byte(x)` of the source is written `x % 256`.
* Go's run-time panic (index or slice bound out of range) is the value `none`
  of `Option`; a Go `error` result is a field of the returned record.
* `uint64` and `uint32` values are `Nat` with an explicit `% 2 ^ 64`,
  `% 2 ^ 32`; an `int32` that is only combined bitwise (a `matches` entry) is
  kept as its 32-bit pattern, an `int32` that is compared or subtracted (a
  counter) is an `Int` wrapped by `i32`.
* A slice handed in by the caller has capacity equal to its length, as the
  buffers allocated with `make` in the repository's tests.
* A Go loop is a recursion on a fuel argument; every caller passes a bound
  the loop cannot exceed.
-/

namespace Kanzi

/-! ## Sequencing -/

/-- Sequencing of two steps the first of which may panic: `Option.bind`, kept
as a function of its own so that long `do` blocks stay small when compiled. -/
@[noinline]
def andThen {α β : Type} (x : Option α) (f : α → Option β) : Option β :=
  match x with
  | none => none
  | some a => f a

/-- The `do` blocks below sequence with `andThen`. -/
instance (priority := 5000) stepMonad : Monad Option where
  pure := some
  bind := andThen

/-! ## Byte buffers and slices -/

/-- Bounds-checked store `buf[i] = v`. -/
def wr (buf : List Nat) (i v : Nat) : Option (List Nat) :=
  if i < buf.length then some (buf.set i v) else none

/-- Bounds-checked load `buf[i]`. -/
def rd (buf : List Nat) (i : Nat) : Option Nat :=
  buf[i]?

/-- Load `buf[i]` for a Go `int` index, which may be negative. -/
def rdI (buf : List Nat) (i : Int) : Option Nat :=
  if 0 ≤ i then buf[i.toNat]? else none

/-- Succeeds exactly when the condition holds; used for the bound checks Go
performs on slice expressions. -/
def chk (c : Prop) [Decidable c] : Option Unit :=
  if c then some () else none

/-- A Go slice seen from its first element: `mem` holds the backing array
from that element up to the capacity, `len` is the slice length. -/
structure Slice where
  mem : List Nat
  len : Nat

/-- Capacity of a slice. -/
def Slice.cap (s : Slice) : Nat := s.mem.length

/-- A whole buffer as a slice (capacity = length). -/
def Slice.ofList (l : List Nat) : Slice := ⟨l, l.length⟩

/-- Load `s[i]`, checked against the length. -/
def Slice.get (s : Slice) (i : Nat) : Option Nat :=
  if i < s.len then s.mem[i]? else none

/-- Slice expression `s[a:]`, legal when `a ≤ len(s)`. -/
def Slice.drop (s : Slice) (a : Nat) : Option Slice :=
  if a ≤ s.len then some ⟨s.mem.drop a, s.len - a⟩ else none

/-- Slice expression `s[a:b]`, legal when `a ≤ b ≤ cap(s)`. -/
def Slice.sub (s : Slice) (a b : Nat) : Option Slice :=
  if a ≤ b ∧ b ≤ s.cap then some ⟨s.mem.drop a, b - a⟩ else none

/-- `binary.LittleEndian.Uint16`. -/
def leUint16 (p : Slice) : Option Nat := do
  let b1 ← p.get 1
  let b0 ← p.get 0
  pure (b0 ||| (b1 <<< 8))

/-- `binary.LittleEndian.Uint32`. -/
def leUint32 (p : Slice) : Option Nat := do
  let b3 ← p.get 3
  let b0 ← p.get 0
  let b1 ← p.get 1
  let b2 ← p.get 2
  pure (b0 ||| (b1 <<< 8) ||| (b2 <<< 16) ||| (b3 <<< 24))

/-- `binary.BigEndian.PutUint32(buf[i:], v)`: four stores, most significant
byte first; fails when fewer than four bytes are left. -/
def putUint32BE (buf : List Nat) (i v : Nat) : Option (List Nat) := do
  chk (i + 4 ≤ buf.length)
  let b ← wr buf i ((v >>> 24) % 256)
  let b ← wr b (i + 1) ((v >>> 16) % 256)
  let b ← wr b (i + 2) ((v >>> 8) % 256)
  wr b (i + 3) (v % 256)

/-- `binary.BigEndian.Uint32(buf[i:i+4])`. -/
def getUint32BE (buf : List Nat) (i : Nat) : Option Nat := do
  chk (i + 4 ≤ buf.length)
  let b0 ← rd buf i
  let b1 ← rd buf (i + 1)
  let b2 ← rd buf (i + 2)
  let b3 ← rd buf (i + 3)
  pure ((b0 <<< 24) ||| (b1 <<< 16) ||| (b2 <<< 8) ||| b3)

/-! ## Machine integers -/

/-- Wrap an integer to `int32`. -/
def i32 (x : Int) : Int := (x + 2147483648) % 4294967296 - 2147483648

/-- The 32-bit pattern of an `int32`. -/
def u32 (x : Int) : Nat := (x % 4294967296).toNat

/-- Bitwise `&` of two `int32` values. -/
def and32 (a b : Int) : Int := i32 ((u32 a &&& u32 b : Nat) : Int)

/-- Conversion `uint64(x)` of a Go `int`. -/
def u64 (x : Int) : Nat := (x % 18446744073709551616).toNat

/-- Subtraction of `uint64`. -/
def sub64 (a b : Nat) : Nat := (a + 2 ^ 64 - b % 2 ^ 64) % 2 ^ 64

/-- Negation of `uint64`. -/
def neg64 (a : Nat) : Nat := sub64 0 a

/-- Complement `^a` of a `uint64`. -/
def not64 (a : Nat) : Nat := a ^^^ (2 ^ 64 - 1)

/-- An array of fixed length whose cells are read and written by index. -/
structure Arr (α : Type) where
  len : Nat
  cell : Nat → α

/-- Checked load. -/
def Arr.get {α : Type} (a : Arr α) (i : Nat) : Option α :=
  if i < a.len then some (a.cell i) else none

/-- Checked store. -/
def Arr.put {α : Type} (a : Arr α) (i : Nat) (v : α) : Option (Arr α) :=
  if i < a.len then some ⟨a.len, fun j => if j = i then v else a.cell j⟩ else none

/-- The loop `for i := range a { a[i] = v }`. -/
def Arr.fill {α : Type} (a : Arr α) (v : α) : Arr α := ⟨a.len, fun _ => v⟩

/-- Result of `make([]T, n)`. -/
def Arr.make {α : Type} (n : Nat) (zero : α) : Arr α := ⟨n, fun _ => zero⟩

/-! ## Constants -/

def ROLZ_HASH_SIZE : Nat := 1 <<< 16
def ROLZ_MIN_MATCH : Nat := 3
def ROLZ_MAX_MATCH : Nat := ROLZ_MIN_MATCH + 255
def ROLZ_LOG_POS_CHECKS1 : Nat := 4
def ROLZ_LOG_POS_CHECKS2 : Nat := 5
def ROLZ_CHUNK_SIZE : Nat := 1 <<< 26
/-- The 32-bit pattern of `int32(^(ROLZ_CHUNK_SIZE - 1))`. -/
def ROLZ_HASH_MASK : Nat := 0xFC000000
/-- The 32-bit pattern of `^ROLZ_HASH_MASK`. -/
def ROLZ_POS_MASK : Nat := 0x03FFFFFF
def ROLZ_LITERAL_FLAG : Nat := 0
def ROLZ_MATCH_FLAG : Nat := 1
def ROLZ_HASH : Nat := 200002979
def ROLZ_TOP : Nat := 0x00FFFFFFFFFFFFFF
def MASK_24_56 : Nat := 0x00FFFFFFFF000000
def MASK_0_24 : Nat := 0x0000000000FFFFFF
def MASK_0_56 : Nat := 0x00FFFFFFFFFFFFFF
def MASK_0_32 : Nat := 0x00000000FFFFFFFF
def MAX_BLOCK_SIZE : Nat := 1 <<< 27

/-- Modelled from the spec: `TC_MAX_BLOCK_SIZE` is declared outside
`ROLZCodec.go`; the specification gives the largest block as 128 MiB. -/
def TC_MAX_BLOCK_SIZE : Nat := 1 <<< 27

/-- Go `getKey(p)`. -/
def getKey (p : Slice) : Option Nat := leUint16 p

/-- Go `hash(p)`, as a 32-bit pattern. -/
def hash (p : Slice) : Option Nat := do
  let v ← leUint32 p
  pure ((((v &&& 0x00FFFFFF) * ROLZ_HASH) % 2 ^ 32) &&& ROLZ_HASH_MASK)

/-! ## `emitCopy` -/

/-- One assignment `buf[d] = buf[r]`. -/
def copyByte (buf : List Nat) (d : Nat) (r : Int) : Option (List Nat) := do
  let v ← rdI buf r
  wr buf d v

/-- The loop `for matchLen >= 8 { ... }` of `emitCopy`: eight assignments per
round. -/
def emitCopy8 : Nat → List Nat → Nat → Int → Nat → Option (List Nat × Nat × Int × Nat)
  | 0, buf, d, r, m => some (buf, d, r, m)
  | fuel + 1, buf, d, r, m =>
    if m ≥ 8 then do
      let b ← copyByte buf d r
      let b ← copyByte b (d + 1) (r + 1)
      let b ← copyByte b (d + 2) (r + 2)
      let b ← copyByte b (d + 3) (r + 3)
      let b ← copyByte b (d + 4) (r + 4)
      let b ← copyByte b (d + 5) (r + 5)
      let b ← copyByte b (d + 6) (r + 6)
      let b ← copyByte b (d + 7) (r + 7)
      emitCopy8 fuel b (d + 8) (r + 8) (m - 8)
    else some (buf, d, r, m)

/-- The loop `for matchLen != 0 { ... }` of `emitCopy`. -/
def emitCopy1 : Nat → List Nat → Nat → Int → Nat → Option (List Nat × Nat)
  | 0, buf, d, _, _ => some (buf, d)
  | fuel + 1, buf, d, r, m =>
    if m ≠ 0 then do
      let b ← copyByte buf d r
      emitCopy1 fuel b (d + 1) (r + 1) (m - 1)
    else some (buf, d)

/-- Go `emitCopy(buf, dstIdx, ref, matchLen)`; returns the buffer and the new
`dstIdx`. -/
def emitCopy (buf : List Nat) (dstIdx : Nat) (ref : Int) (matchLen : Nat) :
    Option (List Nat × Nat) := do
  let b ← copyByte buf dstIdx ref
  let b ← copyByte b (dstIdx + 1) (ref + 1)
  let b ← copyByte b (dstIdx + 2) (ref + 2)
  let (b, d, r, m) ← emitCopy8 matchLen b (dstIdx + 3) (ref + 3) matchLen
  emitCopy1 m b d r m

/-! ## Predictors -/

/-- The interface `kanzi.Predictor` over a state type. -/
structure Predictor (σ : Type) where
  Update : σ → Nat → σ
  Get : σ → Int

/-- Go `rolzPredictor`.  `probs` has `256 * size` cells; every index formed
below is `ctx + c1`. -/
structure rolzPredictor where
  probs : Arr Int
  logSize : Nat
  size : Int
  c1 : Int
  ctx : Int

/-- Go `rolzPredictor.reset`. -/
def rolzPredictor.reset (this : rolzPredictor) : rolzPredictor :=
  { this with c1 := 1, ctx := 0, probs := this.probs.fill (1 <<< 15) }

/-- Go `newRolzPredictor`.  `this.size = 1 << logPosChecks` and the length
`256*this.size` are `int32` values and wrap.  `make` panics on a negative
length, which arises for `logPosChecks = 23` only; the table is then empty
here, and no index passes `rolzPredictor.idxOk`. -/
def newRolzPredictor (logPosChecks : Nat) : rolzPredictor :=
  let size := i32 ((1 <<< logPosChecks : Nat) : Int)
  rolzPredictor.reset
    { probs := Arr.make (i32 (256 * size)).toNat 0, logSize := logPosChecks,
      size := size, c1 := 0, ctx := 0 }

/-- Go `rolzPredictor.Update`.  The cells are a total map; `rolzPredictor.idxOk`
is the bound check Go performs on `probs[idx]`. -/
def rolzPredictor.Update (this : rolzPredictor) (bit : Nat) : rolzPredictor :=
  let idx := (this.ctx + this.c1).toNat
  let b : Int := (bit : Int)
  let p := this.probs.cell idx
  let p2 := i32 (p - i32 ((i32 (p - and32 (-b) 0xFFFF) >>> (5 : Nat)) + b))
  let c := i32 (i32 (this.c1 * 2) + b)
  { this with
    probs := ⟨this.probs.len, fun j => if j = idx then p2 else this.probs.cell j⟩
    c1 := if c ≥ this.size then 1 else c }

/-- Go `rolzPredictor.Get`. -/
def rolzPredictor.Get (this : rolzPredictor) : Int :=
  (this.probs.cell (this.ctx + this.c1).toNat) >>> (4 : Nat)

/-- The index `ctx + c1` used by `Get` and `Update` is inside the table. -/
def rolzPredictor.idxOk (this : rolzPredictor) : Prop :=
  0 ≤ this.ctx + this.c1 ∧ (this.ctx + this.c1).toNat < this.probs.len

/-- Every cell of the table is strictly between 0 and 65536. -/
def rolzPredictor.CellsOk (p : rolzPredictor) : Prop :=
  ∀ i, 0 < p.probs.cell i ∧ p.probs.cell i < 65536

/-- Go `rolzPredictor.setContext`. -/
def rolzPredictor.setContext (this : rolzPredictor) (ctx : Nat) : rolzPredictor :=
  { this with ctx := i32 (((ctx % 256 * 2 ^ this.logSize : Nat) : Int)) }

/-- The `rolzPredictor` as a `kanzi.Predictor`. -/
def rolzPredictor.asPredictor : Predictor rolzPredictor :=
  ⟨rolzPredictor.Update, rolzPredictor.Get⟩

/-- A predictor without state whose `Get` is constant. -/
def fixedPredictor (p : Int) : Predictor Unit :=
  ⟨fun _ _ => (), fun _ => p⟩

/-! ## Binary range coder: `rolzEncoder` -/

/-- Go `rolzEncoder`.  `predictor` is the index in `predictors` that
`setContext` selected; `buf` and `idx` are the caller's output buffer and
output index. -/
structure rolzEncoder (σ : Type) where
  predictors : List σ
  predictor : Nat
  buf : List Nat
  idx : Nat
  low : Nat
  high : Nat

/-- Go `newRolzEncoder`. -/
def newRolzEncoder {σ : Type} (predictors : List σ) (buf : List Nat) (idx : Nat) :
    Option (rolzEncoder σ) := do
  let _ ← predictors[0]?
  pure { predictors := predictors, predictor := 0, buf := buf, idx := idx,
         low := 0, high := ROLZ_TOP }

/-- Go `rolzEncoder.setContext`. -/
def rolzEncoder.setContext {σ : Type} (this : rolzEncoder σ) (n : Nat) :
    Option (rolzEncoder σ) := do
  let _ ← this.predictors[n]?
  pure { this with predictor := n }

/-- One round of the loop of `encodeBit`: the top 32 bits of `high` go out
big-endian, both bounds move up by 32 bits. -/
def rolzEncoder.flush {σ : Type} (this : rolzEncoder σ) : Option (rolzEncoder σ) := do
  let b ← putUint32BE this.buf this.idx ((this.high >>> 32) % 2 ^ 32)
  pure { this with
    buf := b
    idx := this.idx + 4
    low := (this.low <<< 32) % 2 ^ 64
    high := ((this.high <<< 32) % 2 ^ 64) ||| MASK_0_32 }

/-- The loop `for (low^high)&MASK_24_56 == 0 { ... }` of `encodeBit`. -/
def rolzEncoder.flushLoop {σ : Type} : Nat → rolzEncoder σ → Option (rolzEncoder σ)
  | 0, e => some e
  | fuel + 1, e =>
    if (e.low ^^^ e.high) &&& MASK_24_56 = 0 then do
      let e2 ← e.flush
      flushLoop fuel e2
    else some e

/-- Go `rolzEncoder.encodeBit`. -/
def rolzEncoder.encodeBit {σ : Type} (P : Predictor σ) (this : rolzEncoder σ) (bit : Nat) :
    Option (rolzEncoder σ) := do
  let p ← this.predictors[this.predictor]?
  let split := (((sub64 this.high this.low) >>> 4) * u64 (P.Get p) % 2 ^ 64) >>> 8
  let b := neg64 bit
  let high := sub64 this.high (b &&& sub64 (sub64 this.high this.low) split)
  let low := (this.low + (not64 b &&& ((split + 1) % 2 ^ 64))) % 2 ^ 64
  let e : rolzEncoder σ :=
    { this with
      high := high
      low := low
      predictors := this.predictors.set this.predictor (P.Update p bit) }
  e.flushLoop 2

/-- Go `rolzEncoder.encodeByte`: eight bits, most significant first. -/
def rolzEncoder.encodeByte {σ : Type} (P : Predictor σ) (this : rolzEncoder σ) (val : Nat) :
    Option (rolzEncoder σ) := do
  let e ← this.encodeBit P ((val >>> 7) &&& 1)
  let e ← e.encodeBit P ((val >>> 6) &&& 1)
  let e ← e.encodeBit P ((val >>> 5) &&& 1)
  let e ← e.encodeBit P ((val >>> 4) &&& 1)
  let e ← e.encodeBit P ((val >>> 3) &&& 1)
  let e ← e.encodeBit P ((val >>> 2) &&& 1)
  let e ← e.encodeBit P ((val >>> 1) &&& 1)
  e.encodeBit P (val &&& 1)

/-- The loop of `dispose`: `buf[idx+i] = byte(low >> 56); low <<= 8`. -/
def rolzEncoder.disposeLoop {σ : Type} : Nat → Nat → rolzEncoder σ → Option (rolzEncoder σ)
  | 0, _, e => some e
  | fuel + 1, i, e => do
    let b ← wr e.buf (e.idx + i) ((e.low >>> 56) % 256)
    disposeLoop fuel (i + 1) { e with buf := b, low := (e.low <<< 8) % 2 ^ 64 }

/-- Go `rolzEncoder.dispose`. -/
def rolzEncoder.dispose {σ : Type} (this : rolzEncoder σ) : Option (rolzEncoder σ) := do
  let e ← rolzEncoder.disposeLoop 8 0 this
  pure { e with idx := e.idx + 8 }

/-! ## Binary range coder: `rolzDecoder` -/

/-- Go `rolzDecoder`. -/
structure rolzDecoder (σ : Type) where
  predictors : List σ
  predictor : Nat
  buf : List Nat
  idx : Nat
  low : Nat
  high : Nat
  current : Nat

/-- The loop of `newRolzDecoder` reading the first eight bytes. -/
def rolzDecoder.initLoop (buf : List Nat) (idx : Nat) : Nat → Nat → Nat → Option Nat
  | 0, _, cur => some cur
  | fuel + 1, i, cur => do
    let v ← rd buf (idx + i)
    initLoop buf idx fuel (i + 1) (((cur <<< 8) % 2 ^ 64) ||| (v &&& 0xFF))

/-- Go `newRolzDecoder`. -/
def newRolzDecoder {σ : Type} (predictors : List σ) (buf : List Nat) (idx : Nat) :
    Option (rolzDecoder σ) := do
  let cur ← rolzDecoder.initLoop buf idx 8 0 0
  let _ ← predictors[0]?
  pure { predictors := predictors, predictor := 0, buf := buf, idx := idx + 8,
         low := 0, high := ROLZ_TOP, current := cur }

/-- Go `rolzDecoder.setContext`. -/
def rolzDecoder.setContext {σ : Type} (this : rolzDecoder σ) (n : Nat) :
    Option (rolzDecoder σ) := do
  let _ ← this.predictors[n]?
  pure { this with predictor := n }

/-- One round of the loop of `decodeBit`: the window moves up by 32 bits and
takes in the next four bytes. -/
def rolzDecoder.fill {σ : Type} (this : rolzDecoder σ) : Option (rolzDecoder σ) := do
  let val ← getUint32BE this.buf this.idx
  pure { this with
    low := ((this.low <<< 32) % 2 ^ 64) &&& MASK_0_56
    high := (((this.high <<< 32) % 2 ^ 64) ||| MASK_0_32) &&& MASK_0_56
    current := (((this.current <<< 32) % 2 ^ 64) ||| val) &&& MASK_0_56
    idx := this.idx + 4 }

/-- The loop `for (low^high)&MASK_24_56 == 0 { ... }` of `decodeBit`. -/
def rolzDecoder.fillLoop {σ : Type} : Nat → rolzDecoder σ → Option (rolzDecoder σ)
  | 0, d => some d
  | fuel + 1, d =>
    if (d.low ^^^ d.high) &&& MASK_24_56 = 0 then do
      let d2 ← d.fill
      fillLoop fuel d2
    else some d

/-- Go `rolzDecoder.decodeBit`; returns the decoder and the bit. -/
def rolzDecoder.decodeBit {σ : Type} (P : Predictor σ) (this : rolzDecoder σ) :
    Option (rolzDecoder σ × Nat) := do
  let p ← this.predictors[this.predictor]?
  let split :=
    (this.low + ((((sub64 this.high this.low) >>> 4) * u64 (P.Get p) % 2 ^ 64) >>> 8)) % 2 ^ 64
  let (d, bit) : rolzDecoder σ × Nat :=
    if split ≥ this.current then
      ({ this with high := split
                   predictors := this.predictors.set this.predictor (P.Update p 1) }, 1)
    else
      ({ this with low := neg64 (not64 split)
                   predictors := this.predictors.set this.predictor (P.Update p 0) }, 0)
  let d ← d.fillLoop 2
  pure (d, bit)

/-- Go `rolzDecoder.decodeByte`. -/
def rolzDecoder.decodeByte {σ : Type} (P : Predictor σ) (this : rolzDecoder σ) :
    Option (rolzDecoder σ × Nat) := do
  let (d, b7) ← this.decodeBit P
  let (d, b6) ← d.decodeBit P
  let (d, b5) ← d.decodeBit P
  let (d, b4) ← d.decodeBit P
  let (d, b3) ← d.decodeBit P
  let (d, b2) ← d.decodeBit P
  let (d, b1) ← d.decodeBit P
  let (d, b0) ← d.decodeBit P
  pure (d, ((b7 <<< 7) % 256) ||| ((b6 <<< 6) % 256) ||| ((b5 <<< 5) % 256) |||
           ((b4 <<< 4) % 256) ||| ((b3 <<< 3) % 256) ||| ((b2 <<< 2) % 256) |||
           ((b1 <<< 1) % 256) ||| b0)

/-- A call on a `rolzPredictor`: `setContext(ctx)` or `Update(bit)`. -/
inductive PredOp
  | setContext (ctx : Nat)
  | update (bit : Nat)

/-- The effect of one call. -/
def rolzPredictor.step (p : rolzPredictor) : PredOp → rolzPredictor
  | .setContext ctx => p.setContext ctx
  | .update bit => p.Update bit

/-- The effect of a sequence of calls, first call first. -/
def rolzPredictor.run (p : rolzPredictor) (ops : List PredOp) : rolzPredictor :=
  ops.foldl rolzPredictor.step p

/-! ## Length codec of backend 1 (`emitLengths`, `readLengths`) -/

/-- The tail of `emitLengths`: the excess literal length `litLen - 31`
written in 7-bit groups, most significant group first, continuation bit
`0x80` on every group but the last. -/
def emitLitLenExcess (litBuf : List Nat) (idx litLen : Nat) : Option (List Nat × Nat) := do
  let (b1, i1) ←
    if litLen ≥ 1 <<< 7 then do
      let (b2, i2) ←
        if litLen ≥ 1 <<< 14 then do
          let (b3, i3) ←
            if litLen ≥ 1 <<< 21 then do
              let b ← wr litBuf idx ((0x80 ||| ((litLen >>> 21) &&& 0x7F)) % 256)
              pure (b, idx + 1)
            else pure (litBuf, idx)
          let b ← wr b3 i3 ((0x80 ||| ((litLen >>> 14) &&& 0x7F)) % 256)
          pure (b, i3 + 1)
        else pure (litBuf, idx)
      let b ← wr b2 i2 ((0x80 ||| ((litLen >>> 7) &&& 0x7F)) % 256)
      pure (b, i2 + 1)
    else pure (litBuf, idx)
  let b ← wr b1 i1 ((litLen &&& 0x7F) % 256)
  pure (b, i1 + 1)

/-- Go `emitLengths(litBuf, litLen, mLen)`: mode byte `LLLLLMMM`, an optional
byte `mLen - 7`, then the literal-length excess.  Returns the buffer and the
number of bytes written. -/
def emitLengths (litBuf : List Nat) (litLen mLen : Nat) : Option (List Nat × Nat) := do
  let mode := if litLen < 31 then (litLen <<< 3) % 256 else 0xF8
  let (b0, idx) ←
    if mLen ≥ 7 then do
      let b ← wr litBuf 0 (mode ||| 0x07)
      let b ← wr b 1 ((mLen - 7) % 256)
      pure (b, 2)
    else do
      let b ← wr litBuf 0 (mode ||| (mLen % 256))
      pure (b, 1)
  if litLen ≥ 31 then emitLitLenExcess b0 idx (litLen - 31)
  else pure (b0, idx)

/-- The tail of `readLengths`: up to four 7-bit groups. -/
def readLitLenExcess (lenBuf : List Nat) (idx : Nat) : Option (Nat × Nat) := do
  let next ← rd lenBuf idx
  let idx := idx + 1
  let litLen := next &&& 0x7F
  if next &&& 0x80 ≠ 0 then do
    let next ← rd lenBuf idx
    let idx := idx + 1
    let litLen := (litLen <<< 7) ||| (next &&& 0x7F)
    if next &&& 0x80 ≠ 0 then do
      let next ← rd lenBuf idx
      let idx := idx + 1
      let litLen := (litLen <<< 7) ||| (next &&& 0x7F)
      if next &&& 0x80 ≠ 0 then do
        let next ← rd lenBuf idx
        let idx := idx + 1
        let litLen := (litLen <<< 7) ||| (next &&& 0x7F)
        pure (litLen, idx)
      else pure (litLen, idx)
    else pure (litLen, idx)
  else pure (litLen, idx)

/-- Go `rolzCodec1.readLengths(lenBuf)`: returns `(litLen, mLen, idx)`. -/
def readLengths (lenBuf : List Nat) : Option (Nat × Nat × Nat) := do
  let mode ← rd lenBuf 0
  let m0 := mode &&& 0x07
  let (mLen, idx) ←
    if m0 = 7 then do
      let e ← rd lenBuf 1
      pure (m0 + e, 2)
    else pure (m0, 1)
  if mode < 0xF8 then pure (mode >>> 3, mLen, idx)
  else do
    let (l, i) ← readLitLenExcess lenBuf idx
    pure (l + 31, mLen, i)

/-! ## Errors and results -/

/-- The `error` values `ROLZCodec.go` returns. -/
inductive RolzError
  | invalidLogPosChecks
  | sameBuffers
  | outputTooSmall
  | destinationTooSmall
  | invalidLength
  | invalidInput
  | entropyFailure
  deriving DecidableEq, Repr

/-- What `Forward` and `Inverse` leave behind: the codec, the destination
buffer, and the three returned values `(uint(srcIdx), uint(dstIdx), err)`. -/
structure CallResult (σ : Type) where
  this : σ
  dst : List Nat
  srcIdx : Nat
  dstIdx : Nat
  err : Option RolzError

/-- The part of a `CallResult` a caller can observe. -/
def CallResult.view {σ : Type} (r : CallResult σ) : List Nat × Nat × Nat × Option RolzError :=
  (r.dst, r.srcIdx, r.dstIdx, r.err)

/-! ## Match finder -/

/-- Go `rolzCodec1`; the field `matches` of the source is `matches_` here. -/
structure rolzCodec1 where
  matches_ : Arr Nat
  counters : Arr Int
  logPosChecks : Nat
  maskChecks : Int
  posChecks : Int

/-- The assignments of `newROLZCodec1` after the parameter check. -/
def rolzCodec1.alloc (logPosChecks : Nat) : rolzCodec1 :=
  let posChecks := i32 ((1 <<< logPosChecks : Nat) : Int)
  { logPosChecks := logPosChecks
    posChecks := posChecks
    maskChecks := i32 (posChecks - 1)
    counters := Arr.make (1 <<< 16) 0
    matches_ := Arr.make (ROLZ_HASH_SIZE <<< logPosChecks) 0 }

/-- Go `newROLZCodec1`. -/
def newROLZCodec1 (logPosChecks : Nat) : Except RolzError rolzCodec1 :=
  if logPosChecks < 2 ∨ logPosChecks > 8 then .error .invalidLogPosChecks
  else .ok (rolzCodec1.alloc logPosChecks)

/-- The codec has the shape `newROLZCodec1` gives it: `logPosChecks` in
`[2..8]`, `posChecks = 2^logPosChecks`, `maskChecks = posChecks - 1`, 65536
counters and `65536 * posChecks` match slots. -/
def rolzCodec1.Configured (c : rolzCodec1) : Prop :=
  2 ≤ c.logPosChecks ∧ c.logPosChecks ≤ 8 ∧ c.posChecks = 2 ^ c.logPosChecks ∧
  c.maskChecks = 2 ^ c.logPosChecks - 1 ∧ c.counters.len = 65536 ∧
  c.matches_.len = 65536 * 2 ^ c.logPosChecks

/-- Every counter is a count of positions: not negative and below `2^30`. -/
def rolzCodec1.CountersOk (c : rolzCodec1) : Prop :=
  ∀ key, 0 ≤ c.counters.cell key ∧ c.counters.cell key < 1073741824

/-- The loop `for (n < maxMatch) && (refBuf[n] == curBuf[n]) { n++ }`. -/
def matchLenLoop (refBuf curBuf : Slice) (maxMatch : Nat) : Nat → Nat → Option Nat
  | 0, n => some n
  | fuel + 1, n =>
    if n < maxMatch then do
      let r ← refBuf.get n
      let c ← curBuf.get n
      if r = c then matchLenLoop refBuf curBuf maxMatch fuel (n + 1) else some n
    else some n

/-- The loop `for i := counter; i > counter-posChecks; i--` of `findMatch`
over the ring `m = matches[lo : lo+width]`; returns `(bestLen, bestIdx)`. -/
def rolzCodec1.findLoop (this : rolzCodec1) (buf curBuf : Slice) (lo width hash32 : Nat)
    (counter : Int) (maxMatch : Nat) : Nat → Int → Nat → Int → Option (Nat × Int)
  | 0, _, bestLen, bestIdx => some (bestLen, bestIdx)
  | fuel + 1, i, bestLen, bestIdx =>
    if i > i32 (counter - this.posChecks) then do
      let j := and32 i this.maskChecks
      chk (0 ≤ j ∧ j.toNat < width)
      let ref ← this.matches_.get (lo + j.toNat)
      if ref = 0 then some (bestLen, bestIdx)
      else if ref &&& ROLZ_HASH_MASK ≠ hash32 then
        findLoop this buf curBuf lo width hash32 counter maxMatch fuel (i32 (i - 1)) bestLen bestIdx
      else do
        let refBuf ← buf.drop (ref &&& ROLZ_POS_MASK)
        let r0 ← refBuf.get 0
        let c0 ← curBuf.get 0
        if r0 ≠ c0 then
          findLoop this buf curBuf lo width hash32 counter maxMatch fuel (i32 (i - 1)) bestLen
            bestIdx
        else do
          let n ← matchLenLoop refBuf curBuf maxMatch maxMatch 1
          if n > bestLen then
            if n = maxMatch then some (n, i32 (counter - i))
            else
              findLoop this buf curBuf lo width hash32 counter maxMatch fuel (i32 (i - 1)) n
                (i32 (counter - i))
          else
            findLoop this buf curBuf lo width hash32 counter maxMatch fuel (i32 (i - 1)) bestLen
              bestIdx
    else some (bestLen, bestIdx)

/-- Go `rolzCodec1.findMatch(buf, pos)`: returns the codec with `pos`
registered and the pair `(index, length - ROLZ_MIN_MATCH)`, or `(-1, -1)`. -/
def rolzCodec1.findMatch (this : rolzCodec1) (buf : Slice) (pos : Nat) :
    Option (rolzCodec1 × Int × Int) := do
  chk (2 ≤ pos)
  let keyBuf ← buf.drop (pos - 2)
  let key ← getKey keyBuf
  if this.posChecks = 0 then pure (this, -1, -1)
  else do
    let lo := (key <<< this.logPosChecks) % 2 ^ 32
    let hi := ((key + 1) <<< this.logPosChecks) % 2 ^ 32
    chk (lo ≤ hi ∧ hi ≤ this.matches_.len)
    let hashBuf ← buf.sub pos (pos + 4)
    let hash32 ← hash hashBuf
    let counter ← this.counters.get key
    let curBuf ← buf.drop pos
    let maxMatch := if ROLZ_MAX_MATCH > buf.len - pos then buf.len - pos else ROLZ_MAX_MATCH
    let (bestLen, bestIdx) ←
      this.findLoop buf curBuf lo (hi - lo) hash32 counter maxMatch this.posChecks.toNat counter
        (ROLZ_MIN_MATCH - 1) (-1)
    let counters ← this.counters.put key (i32 (counter + 1))
    let j := and32 (i32 (counter + 1)) this.maskChecks
    chk (0 ≤ j ∧ j.toNat < hi - lo)
    let ms ← this.matches_.put (lo + j.toNat) (hash32 ||| (pos % 2 ^ 32))
    let this2 : rolzCodec1 := { this with counters := counters, matches_ := ms }
    if bestLen < ROLZ_MIN_MATCH then pure (this2, -1, -1)
    else pure (this2, bestIdx, ((bestLen - ROLZ_MIN_MATCH : Nat) : Int))

/-- Go `rolzCodec1.MaxEncodedLen`. -/
def rolzCodec1.MaxEncodedLen (srcLen : Nat) : Nat :=
  if srcLen ≤ 512 then srcLen + 32 else srcLen

/-- The ring of `key`: offset and width of `matches[key<<logPosChecks :
(key+1)<<logPosChecks]`, with Go's slice bound check. -/
def rolzCodec1.ring (t : rolzCodec1) (key : Nat) : Option (Nat × Nat) := do
  let lo := (key <<< t.logPosChecks) % 2 ^ 32
  let hi := ((key + 1) <<< t.logPosChecks) % 2 ^ 32
  chk (lo ≤ hi ∧ hi ≤ t.matches_.len)
  pure (lo, hi - lo)

/-- The decoder's update `this.counters[key]++;
m[this.counters[key]&this.maskChecks] = int32(savedIdx)`. -/
def rolzCodec1.register (t : rolzCodec1) (key lo width savedIdx : Nat) : Option rolzCodec1 := do
  let c ← t.counters.get key
  let counters ← t.counters.put key (i32 (c + 1))
  let j := and32 (i32 (c + 1)) t.maskChecks
  chk (0 ≤ j ∧ j.toNat < width)
  let ms ← t.matches_.put (lo + j.toNat) (savedIdx % 2 ^ 32)
  pure { t with counters := counters, matches_ := ms }

/-- The value `int(ref)` of an `int32` given by its pattern. -/
def intOfPattern (ref : Nat) : Int :=
  if ref < 2 ^ 31 then (ref : Int) else (ref : Int) - 4294967296

/-! ## Backend 2 (`rolzCodec2`) -/

/-- Go `rolzCodec2`: the five fields it shares with `rolzCodec1`, grouped as
`tabs`, and the two predictors. -/
structure rolzCodec2 where
  tabs : rolzCodec1
  litPredictor : rolzPredictor
  matchPredictor : rolzPredictor

/-- The assignments of `newROLZCodec2` after the parameter check. -/
def rolzCodec2.alloc (logPosChecks : Nat) : rolzCodec2 :=
  { tabs := rolzCodec1.alloc logPosChecks
    litPredictor := newRolzPredictor 9
    matchPredictor := newRolzPredictor logPosChecks }

/-- Go `newROLZCodec2`. -/
def newROLZCodec2 (logPosChecks : Nat) : Except RolzError rolzCodec2 :=
  if logPosChecks < 2 ∨ logPosChecks > 8 then .error .invalidLogPosChecks
  else .ok (rolzCodec2.alloc logPosChecks)

/-- Go `rolzCodec2.findMatch`; its body repeats `rolzCodec1.findMatch` word
for word. -/
def rolzCodec2.findMatch (this : rolzCodec2) (buf : Slice) (pos : Nat) :
    Option (rolzCodec2 × Int × Int) := do
  let (t, idx, len) ← this.tabs.findMatch buf pos
  pure ({ this with tabs := t }, idx, len)

/-- Go `rolzCodec2.MaxEncodedLen`. -/
def rolzCodec2.MaxEncodedLen (srcLen : Nat) : Nat :=
  if srcLen ≥ ROLZ_CHUNK_SIZE then srcLen
  else if srcLen ≤ 512 then srcLen + 32
  else srcLen + srcLen / 8

/-- The predictors of backend 2 as seen by the coder. -/
abbrev RP : Predictor rolzPredictor := rolzPredictor.asPredictor

/-- `this.litPredictor.setContext(ctx)` (`k = 0`) and
`this.matchPredictor.setContext(ctx)` (`k = 1`): the codec and the coder share
the predictor objects. -/
def setPredictorContext (ps : List rolzPredictor) (k ctx : Nat) :
    Option (List rolzPredictor) := do
  let p ← ps[k]?
  pure (ps.set k (p.setContext ctx))

/-- The pair `re.encodeBit(ROLZ_LITERAL_FLAG); re.encodeByte(val)`. -/
def encodeLiteral (re : rolzEncoder rolzPredictor) (val : Nat) :
    Option (rolzEncoder rolzPredictor) := do
  let re ← re.encodeBit RP ROLZ_LITERAL_FLAG
  re.encodeByte RP val

/-- The loop `for shift := logPosChecks; shift > 0; shift--` writing the match
index, most significant bit first. -/
def encodeIndexBits (matchIdx : Int) :
    Nat → rolzEncoder rolzPredictor → Option (rolzEncoder rolzPredictor)
  | 0, re => some re
  | shift + 1, re => do
    let re ← re.encodeBit RP (((matchIdx >>> shift) % 256).toNat &&& 1)
    encodeIndexBits matchIdx shift re

/-- The loop `for srcIdx < sizeChunk` of `rolzCodec2.Forward`. -/
def rolzCodec2.parseLoop (buf : Slice) (sizeChunk : Nat) :
    Nat → rolzCodec1 → rolzEncoder rolzPredictor → Nat →
      Option (rolzCodec1 × rolzEncoder rolzPredictor × Nat)
  | 0, t, re, srcIdx => some (t, re, srcIdx)
  | fuel + 1, t, re, srcIdx =>
    if srcIdx < sizeChunk then do
      chk (1 ≤ srcIdx)
      let prev ← buf.get (srcIdx - 1)
      let ps ← setPredictorContext re.predictors 0 prev
      let re ← rolzEncoder.setContext { re with predictors := ps } ROLZ_LITERAL_FLAG
      let (t, matchIdx, matchLen) ← t.findMatch buf srcIdx
      if matchIdx = -1 then do
        let v ← buf.get srcIdx
        let re ← encodeLiteral re v
        parseLoop buf sizeChunk fuel t re (srcIdx + 1)
      else do
        let re ← re.encodeBit RP ROLZ_MATCH_FLAG
        let re ← re.encodeByte RP (matchLen % 256).toNat
        let prev ← buf.get (srcIdx - 1)
        let ps ← setPredictorContext re.predictors 1 prev
        let re ← rolzEncoder.setContext { re with predictors := ps } ROLZ_MATCH_FLAG
        let re ← encodeIndexBits matchIdx t.logPosChecks re
        parseLoop buf sizeChunk fuel t re (srcIdx + matchLen + ROLZ_MIN_MATCH).toNat
    else some (t, re, srcIdx)

/-- The state carried round the chunk loop of `rolzCodec2.Forward`. -/
structure Fwd2State where
  tabs : rolzCodec1
  re : rolzEncoder rolzPredictor
  startChunk : Nat
  sizeChunk : Nat
  srcIdx : Nat

/-- The loop `for startChunk < srcEnd` of `rolzCodec2.Forward`. -/
def rolzCodec2.chunkLoop (src : List Nat) (srcEnd : Int) : Nat → Fwd2State → Option Fwd2State
  | 0, s => some s
  | fuel + 1, s =>
    if (s.startChunk : Int) < srcEnd then do
      let t : rolzCodec1 := { s.tabs with matches_ := s.tabs.matches_.fill 0 }
      let endChunk : Nat :=
        if ((s.startChunk + s.sizeChunk : Nat) : Int) ≥ srcEnd then srcEnd.toNat
        else s.startChunk + s.sizeChunk
      let sizeChunk := endChunk - s.startChunk
      let buf ← (Slice.ofList src).sub s.startChunk endChunk
      let ps ← setPredictorContext s.re.predictors 0 0
      let re ← rolzEncoder.setContext { s.re with predictors := ps } ROLZ_LITERAL_FLAG
      let v ← buf.get 0
      let re ← encodeLiteral re v
      let (re, srcIdx) ←
        if ((s.startChunk + 1 : Nat) : Int) < srcEnd then do
          let v ← buf.get 1
          let re ← encodeLiteral re v
          pure (re, 2)
        else pure (re, 1)
      let (t, re, srcIdx) ← rolzCodec2.parseLoop buf sizeChunk sizeChunk t re srcIdx
      chunkLoop src srcEnd fuel
        { tabs := t, re := re, startChunk := endChunk, sizeChunk := sizeChunk, srcIdx := srcIdx }
    else some s

/-- The loop `for i := 0; i < 4; i++` of `rolzCodec2.Forward` coding the last
four bytes as literals. -/
def rolzCodec2.tailLoop (src : List Nat) :
    Nat → rolzEncoder rolzPredictor → Int → Option (rolzEncoder rolzPredictor × Int)
  | 0, re, srcIdx => some (re, srcIdx)
  | fuel + 1, re, srcIdx => do
    let prev ← rdI src (srcIdx - 1)
    let ps ← setPredictorContext re.predictors 0 prev
    let v ← rdI src srcIdx
    let re ← encodeLiteral { re with predictors := ps } v
    tailLoop src fuel re (srcIdx + 1)

/-- Go `rolzCodec2.Forward(src, dst)`. -/
def rolzCodec2.Forward (this : rolzCodec2) (src dst : List Nat) :
    Option (CallResult rolzCodec2) :=
  if dst.length < rolzCodec2.MaxEncodedLen src.length then
    some { this := this, dst := dst, srcIdx := 0, dstIdx := 0, err := some .outputTooSmall }
  else do
    let srcEnd : Int := (src.length : Int) - 4
    let sizeChunk := if src.length > ROLZ_CHUNK_SIZE then ROLZ_CHUNK_SIZE else src.length
    let dst ← putUint32BE dst 0 (src.length % 2 ^ 32)
    let re ← newRolzEncoder [this.litPredictor.reset, this.matchPredictor.reset] dst 4
    let t : rolzCodec1 := { this.tabs with counters := this.tabs.counters.fill 0 }
    let s ← rolzCodec2.chunkLoop src srcEnd (src.length + 1)
      { tabs := t, re := re, startChunk := 0, sizeChunk := sizeChunk, srcIdx := 0 }
    let srcIdx : Int := (s.srcIdx : Int) + ((s.startChunk : Int) - (s.sizeChunk : Int))
    let re ← s.re.setContext ROLZ_LITERAL_FLAG
    let (re, srcIdx) ← rolzCodec2.tailLoop src 4 re srcIdx
    let re ← re.dispose
    let lit ← re.predictors[0]?
    let mp ← re.predictors[1]?
    pure { this := { tabs := s.tabs, litPredictor := lit, matchPredictor := mp }
           dst := re.buf
           srcIdx := u64 srcIdx
           dstIdx := re.idx
           err := if srcIdx ≠ (src.length : Int) then some .destinationTooSmall else none }

/-- The loop `for shift := logPosChecks; shift != 0; shift--` reading the
match index. -/
def decodeIndexBits :
    Nat → rolzDecoder rolzPredictor → Nat → Option (rolzDecoder rolzPredictor × Nat)
  | 0, rd, matchIdx => some (rd, matchIdx)
  | shift + 1, rd, matchIdx => do
    let (rd, bit) ← rd.decodeBit RP
    decodeIndexBits shift rd (matchIdx ||| ((bit <<< shift) % 256))

/-- The match branch of the loop of `rolzCodec2.Inverse` after the sanity
check: index bits, ring lookup, copy. -/
def rolzCodec2.decodeMatch (t : rolzCodec1) (rd : rolzDecoder rolzPredictor)
    (buf : List Nat) (dstIdx key lo width matchLen : Nat) :
    Option (rolzDecoder rolzPredictor × List Nat × Nat) := do
  let prev ← Kanzi.rd buf (dstIdx - 1)
  let ps ← setPredictorContext rd.predictors 1 prev
  let rd ← rolzDecoder.setContext { rd with predictors := ps } ROLZ_MATCH_FLAG
  let (rd, matchIdx) ← decodeIndexBits t.logPosChecks rd 0
  let c ← t.counters.get key
  let j := and32 (i32 (c - (matchIdx : Int))) t.maskChecks
  chk (0 ≤ j ∧ j.toNat < width)
  let ref ← t.matches_.get (lo + j.toNat)
  let (buf, dstIdx) ← emitCopy buf dstIdx (intOfPattern ref) matchLen
  pure (rd, buf, dstIdx)

/-- One token of the loop of `rolzCodec2.Inverse`: flag bit, then a match or
a literal.  The last component is `true` when the sanity check
`matchLen+3 > dstEnd` leaves the loop. -/
def rolzCodec2.decodeToken (t : rolzCodec1) (rd : rolzDecoder rolzPredictor)
    (buf : List Nat) (dstIdx key lo width dstEnd : Nat) :
    Option (rolzDecoder rolzPredictor × List Nat × Nat × Bool) := do
  let prev ← Kanzi.rd buf (dstIdx - 1)
  let ps ← setPredictorContext rd.predictors 0 prev
  let rd ← rolzDecoder.setContext { rd with predictors := ps } ROLZ_LITERAL_FLAG
  let (rd, bit) ← rd.decodeBit RP
  if bit = ROLZ_MATCH_FLAG then do
    let (rd, matchLen) ← rd.decodeByte RP
    if matchLen + 3 > dstEnd then pure (rd, buf, dstIdx, true)
    else do
      let (rd, buf, dstIdx) ← rolzCodec2.decodeMatch t rd buf dstIdx key lo width matchLen
      pure (rd, buf, dstIdx, false)
  else do
    let (rd, v) ← rd.decodeByte RP
    let buf ← wr buf dstIdx v
    pure (rd, buf, dstIdx + 1, false)

/-- The loop `for dstIdx < sizeChunk` of `rolzCodec2.Inverse` over the chunk
`buf = dst[startChunk:endChunk]`. -/
def rolzCodec2.decodeLoop (dstEnd startChunk sizeChunk : Nat) :
    Nat → rolzCodec1 → rolzDecoder rolzPredictor → List Nat → Nat →
      Option (rolzCodec1 × rolzDecoder rolzPredictor × List Nat × Nat)
  | 0, t, rd, buf, dstIdx => some (t, rd, buf, dstIdx)
  | fuel + 1, t, rd, buf, dstIdx =>
    if dstIdx < sizeChunk then do
      chk (2 ≤ dstIdx)
      let keyBuf ← (Slice.ofList buf).drop (dstIdx - 2)
      let key ← getKey keyBuf
      let (lo, width) ← t.ring key
      let (rd, buf2, dstIdx2, brk) ← rolzCodec2.decodeToken t rd buf dstIdx key lo width dstEnd
      if brk then some (t, rd, buf2, dstIdx2 + startChunk)
      else do
        let t ← t.register key lo width dstIdx
        decodeLoop dstEnd startChunk sizeChunk fuel t rd buf2 dstIdx2
    else some (t, rd, buf, dstIdx)

/-- The state carried round the chunk loop of `rolzCodec2.Inverse`. -/
structure Inv2State where
  tabs : rolzCodec1
  rd : rolzDecoder rolzPredictor
  dst : List Nat
  startChunk : Nat
  sizeChunk : Nat
  dstIdx : Nat

/-- The first one or two literals of a chunk in `rolzCodec2.Inverse`;
returns the decoder, the chunk, `dstIdx` and the last flag bit read. -/
def rolzCodec2.decodeHead (rd : rolzDecoder rolzPredictor) (buf : List Nat)
    (startChunk dstEnd : Nat) :
    Option (rolzDecoder rolzPredictor × List Nat × Nat × Nat) := do
  let (rd, bit) ← rd.decodeBit RP
  if bit = ROLZ_LITERAL_FLAG then do
    let (rd, v) ← rd.decodeByte RP
    let buf ← wr buf 0 v
    if startChunk + 1 < dstEnd then do
      let (rd, bit) ← rd.decodeBit RP
      if bit = ROLZ_LITERAL_FLAG then do
        let (rd, v) ← rd.decodeByte RP
        let buf ← wr buf 1 v
        pure (rd, buf, 2, bit)
      else pure (rd, buf, 1, bit)
    else pure (rd, buf, 1, bit)
  else pure (rd, buf, 0, bit)

/-- The loop `for startChunk < dstEnd` of `rolzCodec2.Inverse`. -/
def rolzCodec2.invChunkLoop (dstEnd : Nat) : Nat → Inv2State → Option Inv2State
  | 0, s => some s
  | fuel + 1, s =>
    if s.startChunk < dstEnd then do
      let t : rolzCodec1 := { s.tabs with matches_ := s.tabs.matches_.fill 0 }
      let endChunk := if s.startChunk + s.sizeChunk > dstEnd then dstEnd
                      else s.startChunk + s.sizeChunk
      let sizeChunk := if s.startChunk + s.sizeChunk > dstEnd then endChunk - s.startChunk
                       else s.sizeChunk
      chk (s.startChunk ≤ endChunk ∧ endChunk ≤ s.dst.length)
      let buf := (s.dst.drop s.startChunk).take (endChunk - s.startChunk)
      let ps ← setPredictorContext s.rd.predictors 0 0
      let rd ← rolzDecoder.setContext { s.rd with predictors := ps } ROLZ_LITERAL_FLAG
      let (rd, buf, dstIdx, bit) ← rolzCodec2.decodeHead rd buf s.startChunk dstEnd
      if bit = ROLZ_MATCH_FLAG then
        some { tabs := t, rd := rd
               dst := s.dst.take s.startChunk ++ buf ++ s.dst.drop endChunk
               startChunk := s.startChunk, sizeChunk := sizeChunk
               dstIdx := dstIdx + s.startChunk }
      else do
        let (t, rd, buf, dstIdx) ←
          rolzCodec2.decodeLoop dstEnd s.startChunk sizeChunk sizeChunk t rd buf dstIdx
        invChunkLoop dstEnd fuel
          { tabs := t, rd := rd
            dst := s.dst.take s.startChunk ++ buf ++ s.dst.drop endChunk
            startChunk := endChunk, sizeChunk := sizeChunk, dstIdx := dstIdx }
    else some s

/-- The body of `rolzCodec2.Inverse` after the block size `dstEnd` has been
read from the first four bytes of `src`. -/
def rolzCodec2.decodeBlock (this : rolzCodec2) (src dst : List Nat) (dstEnd : Nat) :
    Option (CallResult rolzCodec2) := do
  let sizeChunk := if dst.length > ROLZ_CHUNK_SIZE then ROLZ_CHUNK_SIZE else dst.length
  let rd ← newRolzDecoder [this.litPredictor.reset, this.matchPredictor.reset] src 4
  let t : rolzCodec1 := { this.tabs with counters := this.tabs.counters.fill 0 }
  let s ← rolzCodec2.invChunkLoop dstEnd (dstEnd + 1)
    { tabs := t, rd := rd, dst := dst, startChunk := 0, sizeChunk := sizeChunk, dstIdx := 0 }
  let dstIdx : Int := (s.dstIdx : Int) + ((s.startChunk : Int) - (s.sizeChunk : Int))
  let lit ← s.rd.predictors[0]?
  let mp ← s.rd.predictors[1]?
  pure { this := { tabs := s.tabs, litPredictor := lit, matchPredictor := mp }
         dst := s.dst
         srcIdx := s.rd.idx
         dstIdx := u64 dstIdx
         err := if s.rd.idx ≠ src.length then some .invalidInput else none }

/-- Go `rolzCodec2.Inverse(src, dst)`:
`dstEnd := int(binary.BigEndian.Uint32(src[srcIdx:]))`, then the body. -/
def rolzCodec2.Inverse (this : rolzCodec2) (src dst : List Nat) :
    Option (CallResult rolzCodec2) := do
  chk (4 ≤ src.length)
  let dstEnd ← getUint32BE src 0
  this.decodeBlock src dst dstEnd
/-! ## Backend 1 (`rolzCodec1`) -/

/-- The bitstream and the ANS coders backend 1 writes its three streams
with.  They live in the packages `bitstream` and `entropy`, outside
`ROLZCodec.go`, and are taken as a parameter: an output stream state `OBS`,
an input stream state `IBS` and the operations `Forward` and `Inverse` call.
`ansWrite` and `ansRead` return `none` when the coder returns an error;
`readBits32` returns `none` when the stream panics. -/
structure EntropyStage where
  OBS : Type
  IBS : Type
  newOBS : OBS
  writeBits32 : OBS → Nat → OBS
  ansWrite : OBS → Nat → List Nat → Option OBS
  closeOBS : OBS → List Nat
  newIBS : List Nat → IBS
  readBits32 : IBS → Option (Nat × IBS)
  ansRead : IBS → Nat → Nat → Option (List Nat × IBS)
  bitsRead : IBS → Nat

/-- How a chunk ends: the loop goes on, or control jumps to the label `End`
with an error. -/
inductive Step (α : Type)
  | next (a : α)
  | stop (a : α) (err : RolzError)

/-- Go `copy(dst[off:], src)`: as many bytes as fit. -/
def goCopy (dst : List Nat) (off : Nat) (src : List Nat) : List Nat :=
  dst.take off ++ src.take (dst.length - off) ++ dst.drop (off + src.length)

/-- The buffers and indices of one chunk in `rolzCodec1.Forward`. -/
structure Fwd1Bufs where
  litBuf : List Nat
  lenBuf : List Nat
  mIdxBuf : List Nat
  litIdx : Nat
  lenIdx : Nat
  mIdx : Nat

/-- The call `lenIdx += emitLengths(lenBuf[lenIdx:], litLen, mLen)`. -/
def emitLengthsAt (b : Fwd1Bufs) (litLen mLen : Nat) : Option Fwd1Bufs := do
  chk (b.lenIdx ≤ b.lenBuf.length)
  let (w, n) ← emitLengths (b.lenBuf.drop b.lenIdx) litLen mLen
  pure { b with lenBuf := b.lenBuf.take b.lenIdx ++ w, lenIdx := b.lenIdx + n }

/-- The match branch of the parse loop of `rolzCodec1.Forward`: lengths,
pending literals, match index. -/
def rolzCodec1.emitMatch (buf : Slice) (b : Fwd1Bufs) (firstLitIdx srcIdx : Nat)
    (matchIdx matchLen : Int) : Option Fwd1Bufs := do
  let litLen := srcIdx - firstLitIdx
  let b ← emitLengthsAt b litLen matchLen.toNat
  let b ←
    if litLen > 0 then do
      chk (b.litIdx ≤ b.litBuf.length)
      let lits ← buf.sub firstLitIdx (firstLitIdx + litLen)
      pure { b with litBuf := goCopy b.litBuf b.litIdx (lits.mem.take lits.len)
                    litIdx := b.litIdx + litLen }
    else pure b
  let m ← wr b.mIdxBuf b.mIdx (matchIdx % 256).toNat
  pure { b with mIdxBuf := m, mIdx := b.mIdx + 1 }

/-- The loop `for srcIdx < sizeChunk` of `rolzCodec1.Forward`; returns the
codec, the buffers, `srcIdx` and `firstLitIdx`. -/
def rolzCodec1.parseLoop (buf : Slice) (sizeChunk : Nat) :
    Nat → rolzCodec1 → Fwd1Bufs → Nat → Nat → Option (rolzCodec1 × Fwd1Bufs × Nat × Nat)
  | 0, t, b, srcIdx, firstLitIdx => some (t, b, srcIdx, firstLitIdx)
  | fuel + 1, t, b, srcIdx, firstLitIdx =>
    if srcIdx < sizeChunk then do
      let (t, matchIdx, matchLen) ← t.findMatch buf srcIdx
      if matchIdx = -1 then parseLoop buf sizeChunk fuel t b (srcIdx + 1) firstLitIdx
      else do
        let b ← rolzCodec1.emitMatch buf b firstLitIdx srcIdx matchIdx matchLen
        let srcIdx := (srcIdx + matchLen + ROLZ_MIN_MATCH).toNat
        parseLoop buf sizeChunk fuel t b srcIdx srcIdx
    else some (t, b, srcIdx, firstLitIdx)

/-- The loop `for i := 0; i < litLen; i++ { litBuf[litIdx+i] = buf[firstLitIdx+i] }`. -/
def copyLastLiterals (buf : Slice) (firstLitIdx litIdx litLen : Nat) :
    Nat → Nat → List Nat → Option (List Nat)
  | 0, _, litBuf => some litBuf
  | fuel + 1, i, litBuf =>
    if i < litLen then do
      let v ← buf.get (firstLitIdx + i)
      let litBuf ← wr litBuf (litIdx + i) v
      copyLastLiterals buf firstLitIdx litIdx litLen fuel (i + 1) litBuf
    else some litBuf

/-- The entropy coding of the three streams of a chunk; `none` when a coder
returns an error. -/
def EntropyStage.encodeChunk (E : EntropyStage) (b : Fwd1Bufs) : Option (List Nat) := do
  let obs := E.writeBits32 E.newOBS b.litIdx
  let obs ← E.ansWrite obs 1 (b.litBuf.take b.litIdx)
  let obs := E.writeBits32 obs b.lenIdx
  let obs ← E.ansWrite obs 0 (b.lenBuf.take b.lenIdx)
  let obs := E.writeBits32 obs b.mIdx
  let obs ← E.ansWrite obs 0 (b.mIdxBuf.take b.mIdx)
  pure (E.closeOBS obs)

/-- The state carried round the chunk loop of `rolzCodec1.Forward`. -/
structure Fwd1State where
  tabs : rolzCodec1
  dst : List Nat
  litBuf : List Nat
  lenBuf : List Nat
  mIdxBuf : List Nat
  startChunk : Nat
  sizeChunk : Nat
  srcIdx : Nat
  dstIdx : Nat

/-- The parse of one chunk in `rolzCodec1.Forward`: the first literals, the
loop, the last literals. -/
def rolzCodec1.parseChunk (src : List Nat) (srcEnd : Int) (s : Fwd1State)
    (t : rolzCodec1) (endChunk sizeChunk : Nat) :
    Option (rolzCodec1 × Fwd1Bufs × Nat) := do
  let buf ← (Slice.ofList src).sub s.startChunk endChunk
  let v ← buf.get 0
  let litBuf ← wr s.litBuf 0 v
  let (litBuf, n) ←
    if ((s.startChunk + 1 : Nat) : Int) < srcEnd then do
      let v ← buf.get 1
      let litBuf ← wr litBuf 1 v
      pure (litBuf, 2)
    else pure (litBuf, 1)
  let b : Fwd1Bufs :=
    { litBuf := litBuf, lenBuf := s.lenBuf, mIdxBuf := s.mIdxBuf, litIdx := n, lenIdx := 0,
      mIdx := 0 }
  let (t, b, srcIdx, firstLitIdx) ← rolzCodec1.parseLoop buf sizeChunk sizeChunk t b n n
  let litLen := srcIdx - firstLitIdx
  let b ← emitLengthsAt b litLen 0
  let litBuf ← copyLastLiterals buf firstLitIdx b.litIdx litLen litLen 0 b.litBuf
  pure (t, { b with litBuf := litBuf, litIdx := b.litIdx + litLen }, srcIdx)

/-- The loop `for startChunk < srcEnd` of `rolzCodec1.Forward`. -/
def rolzCodec1.chunkLoop (E : EntropyStage) (src : List Nat) (srcEnd : Int) :
    Nat → Fwd1State → Option (Step Fwd1State)
  | 0, s => some (.next s)
  | fuel + 1, s =>
    if (s.startChunk : Int) < srcEnd then do
      let t : rolzCodec1 := { s.tabs with matches_ := s.tabs.matches_.fill 0 }
      let over : Bool := ((s.startChunk + s.sizeChunk : Nat) : Int) ≥ srcEnd
      let endChunk : Nat := if over then srcEnd.toNat else s.startChunk + s.sizeChunk
      let sizeChunk : Nat := if over then endChunk - s.startChunk else s.sizeChunk
      let (t, b, srcIdx) ← rolzCodec1.parseChunk src srcEnd s t endChunk sizeChunk
      let s2 : Fwd1State :=
        { s with tabs := t, litBuf := b.litBuf, lenBuf := b.lenBuf, mIdxBuf := b.mIdxBuf
                 sizeChunk := sizeChunk, srcIdx := srcIdx }
      match E.encodeChunk b with
      | none => some (.stop s2 .entropyFailure)
      | some os =>
        if s.dstIdx + os.length > s.dst.length then some (.stop s2 .destinationTooSmall)
        else
          chunkLoop E src srcEnd fuel
            { s2 with dst := goCopy s.dst s.dstIdx os, dstIdx := s.dstIdx + os.length
                      startChunk := endChunk }
    else some (.next s)

/-- The four assignments `dst[dstIdx+i] = src[srcIdx+i]` after the label
`End`, for Go `int` indices. -/
def copyTail (dst src : List Nat) (dstIdx srcIdx : Int) : Option (List Nat) := do
  chk (0 ≤ dstIdx)
  let v ← rdI src srcIdx
  let dst ← wr dst dstIdx.toNat v
  let v ← rdI src (srcIdx + 1)
  let dst ← wr dst (dstIdx.toNat + 1) v
  let v ← rdI src (srcIdx + 2)
  let dst ← wr dst (dstIdx.toNat + 2) v
  let v ← rdI src (srcIdx + 3)
  wr dst (dstIdx.toNat + 3) v

/-- Go `rolzCodec1.Forward(src, dst)`. -/
def rolzCodec1.Forward (E : EntropyStage) (this : rolzCodec1) (src dst : List Nat) :
    Option (CallResult rolzCodec1) :=
  if dst.length < rolzCodec1.MaxEncodedLen src.length then
    some { this := this, dst := dst, srcIdx := 0, dstIdx := 0, err := some .outputTooSmall }
  else do
    let srcEnd : Int := (src.length : Int) - 4
    let dst ← putUint32BE dst 0 (src.length % 2 ^ 32)
    let sizeChunk := if src.length > ROLZ_CHUNK_SIZE then ROLZ_CHUNK_SIZE else src.length
    let s0 : Fwd1State :=
      { tabs := { this with counters := this.counters.fill 0 }
        dst := dst
        litBuf := List.replicate (rolzCodec1.MaxEncodedLen sizeChunk) 0
        lenBuf := List.replicate (sizeChunk / 2) 0
        mIdxBuf := List.replicate (sizeChunk / 2) 0
        startChunk := 0, sizeChunk := sizeChunk, srcIdx := 0, dstIdx := 4 }
    let r ← rolzCodec1.chunkLoop E src srcEnd (src.length + 1) s0
    match r with
    | .stop s err =>
      pure { this := s.tabs, dst := s.dst, srcIdx := s.srcIdx, dstIdx := s.dstIdx
             err := some err }
    | .next s => do
      let srcIdx : Int := (s.srcIdx : Int) + ((s.startChunk : Int) - (s.sizeChunk : Int))
      let dst ← copyTail s.dst src s.dstIdx srcIdx
      pure { this := s.tabs, dst := dst, srcIdx := u64 (srcIdx + 4), dstIdx := s.dstIdx + 4
             err := if srcIdx + 4 ≠ (src.length : Int) then some .destinationTooSmall
                    else none }

/-- Go `rolzCodec1.emitLiterals(litBuf, dst, dstIdx)`: the loop
`for n := range litBuf` registering every literal position. -/
def rolzCodec1.emitLiteralsLoop (d : Slice) (dstIdx : Nat) :
    Nat → Nat → rolzCodec1 → Option rolzCodec1
  | 0, _, t => some t
  | fuel + 1, n, t => do
    let keyBuf ← d.drop n
    let key ← getKey keyBuf
    let (lo, width) ← t.ring key
    let t ← t.register key lo width (dstIdx + n)
    emitLiteralsLoop d dstIdx fuel (n + 1) t

/-- Go `rolzCodec1.emitLiterals(litBuf, dst, dstIdx)`. -/
def rolzCodec1.emitLiterals (t : rolzCodec1) (litBuf dst : List Nat) (dstIdx : Nat) :
    Option (rolzCodec1 × List Nat) := do
  chk (2 ≤ dstIdx ∧ dstIdx ≤ dst.length)
  let dst := goCopy dst dstIdx litBuf
  let d ← (Slice.ofList dst).drop (dstIdx - 2)
  let t ← rolzCodec1.emitLiteralsLoop d dstIdx litBuf.length 0 t
  pure (t, dst)

/-- The buffers and indices of one chunk in `rolzCodec1.Inverse`. -/
structure Inv1Bufs where
  litBuf : List Nat
  lenBuf : List Nat
  mIdxBuf : List Nat
  litIdx : Nat
  lenIdx : Nat
  mIdx : Nat

/-- The match branch of the loop of `rolzCodec1.Inverse`: index byte, ring
lookup, copy, registration. -/
def rolzCodec1.decodeMatch (t : rolzCodec1) (b : Inv1Bufs) (buf : List Nat)
    (dstIdx matchLen : Nat) : Option (rolzCodec1 × Inv1Bufs × List Nat × Nat) := do
  let mi ← rd b.mIdxBuf b.mIdx
  let matchIdx : Int := ((mi &&& 0xFF : Nat) : Int)
  chk (2 ≤ dstIdx)
  let keyBuf ← (Slice.ofList buf).drop (dstIdx - 2)
  let key ← getKey keyBuf
  let (lo, width) ← t.ring key
  let c ← t.counters.get key
  let j := and32 (i32 (c - matchIdx)) t.maskChecks
  chk (0 ≤ j ∧ j.toNat < width)
  let ref ← t.matches_.get (lo + j.toNat)
  let (buf, dstIdx2) ← emitCopy buf dstIdx (intOfPattern ref) matchLen
  let t ← t.register key lo width dstIdx
  pure (t, { b with mIdx := b.mIdx + 1 }, buf, dstIdx2)

/-- The loop `for dstIdx < sizeChunk` of `rolzCodec1.Inverse` over the chunk
`buf = dst[startChunk:endChunk]`. -/
def rolzCodec1.decodeLoop (dstEnd : Int) (endChunk sizeChunk : Nat) :
    Nat → rolzCodec1 → Inv1Bufs → List Nat → Nat →
      Option (Step (rolzCodec1 × Inv1Bufs × List Nat × Nat))
  | 0, t, b, buf, dstIdx => some (.next (t, b, buf, dstIdx))
  | fuel + 1, t, b, buf, dstIdx =>
    if dstIdx < sizeChunk then do
      chk (b.lenIdx ≤ b.lenBuf.length)
      let (litLen, matchLen, deltaIdx) ← readLengths (b.lenBuf.drop b.lenIdx)
      chk (b.litIdx ≤ b.litIdx + litLen ∧ b.litIdx + litLen ≤ b.litBuf.length)
      let (t, buf) ←
        t.emitLiterals ((b.litBuf.drop b.litIdx).take litLen) buf dstIdx
      let b := { b with lenIdx := b.lenIdx + deltaIdx, litIdx := b.litIdx + litLen }
      let dstIdx := dstIdx + litLen
      if dstIdx ≥ endChunk then
        if dstIdx = endChunk then some (.next (t, b, buf, dstIdx))
        else some (.stop (t, b, buf, dstIdx) .invalidInput)
      else if ((dstIdx + matchLen + ROLZ_MIN_MATCH : Nat) : Int) > dstEnd then
        some (.stop (t, b, buf, dstIdx) .invalidInput)
      else do
        let (t, b, buf, dstIdx) ← rolzCodec1.decodeMatch t b buf dstIdx matchLen
        decodeLoop dstEnd endChunk sizeChunk fuel t b buf dstIdx
    else some (.next (t, b, buf, dstIdx))

/-- The state carried round the chunk loop of `rolzCodec1.Inverse`. -/
structure Inv1State where
  tabs : rolzCodec1
  dst : List Nat
  litBuf : List Nat
  lenBuf : List Nat
  mIdxBuf : List Nat
  startChunk : Nat
  sizeChunk : Nat
  srcIdx : Nat
  dstIdx : Nat

/-- One stream of a chunk in `rolzCodec1.Inverse`: when the announced length
fits the chunk, the coder fills `buf[0:length]` and the next length is read.
Returns the buffer, the stream and the current length; `stop` when the coder
returns an error. -/
def EntropyStage.readStream (E : EntropyStage) (ibs : E.IBS) (order length sizeChunk : Nat)
    (buf : List Nat) (more : Bool) : Option (Step (List Nat × E.IBS × Nat)) :=
  if length ≤ sizeChunk then do
    chk (length ≤ buf.length)
    match E.ansRead ibs order length with
    | none => pure (.stop (buf, ibs, length) .entropyFailure)
    | some (block, ibs) =>
      let buf := goCopy buf 0 (block.take length)
      if more then do
        let (length, ibs) ← E.readBits32 ibs
        pure (.next (buf, ibs, length))
      else pure (.next (buf, ibs, length))
  else pure (.next (buf, ibs, length))

/-- The entropy decoding of the three streams of a chunk in
`rolzCodec1.Inverse`; returns the buffers, the number of bytes consumed and
the last length read. -/
def EntropyStage.decodeChunk (E : EntropyStage) (src : List Nat) (s : Inv1State)
    (sizeChunk : Nat) : Option (Step (Inv1Bufs × Nat × Nat)) := do
  let ibs := E.newIBS (src.drop s.srcIdx)
  let (length, ibs) ← E.readBits32 ibs
  let b0 : Inv1Bufs :=
    { litBuf := s.litBuf, lenBuf := s.lenBuf, mIdxBuf := s.mIdxBuf, litIdx := 0, lenIdx := 0,
      mIdx := 0 }
  match (← E.readStream ibs 1 length sizeChunk s.litBuf true) with
  | .stop _ err => pure (.stop (b0, 0, length) err)
  | .next (litBuf, ibs, length) =>
    match (← E.readStream ibs 0 length sizeChunk s.lenBuf true) with
    | .stop _ err => pure (.stop ({ b0 with litBuf := litBuf }, 0, length) err)
    | .next (lenBuf, ibs, length) =>
      match (← E.readStream ibs 0 length sizeChunk s.mIdxBuf false) with
      | .stop _ err =>
        pure (.stop ({ b0 with litBuf := litBuf, lenBuf := lenBuf }, 0, length) err)
      | .next (mIdxBuf, ibs, length) =>
        pure (.next ({ b0 with litBuf := litBuf, lenBuf := lenBuf, mIdxBuf := mIdxBuf },
                     (E.bitsRead ibs + 7) >>> 3, length))

/-- The loop `for startChunk < dstEnd` of `rolzCodec1.Inverse`. -/
def rolzCodec1.invChunkLoop (E : EntropyStage) (src : List Nat) (dstEnd : Int) :
    Nat → Inv1State → Option (Step Inv1State)
  | 0, s => some (.next s)
  | fuel + 1, s =>
    if (s.startChunk : Int) < dstEnd then do
      let t : rolzCodec1 := { s.tabs with matches_ := s.tabs.matches_.fill 0 }
      let endChunk : Nat :=
        if ((s.startChunk + s.sizeChunk : Nat) : Int) > dstEnd then dstEnd.toNat
        else s.startChunk + s.sizeChunk
      let sizeChunk := endChunk - s.startChunk
      chk (s.startChunk ≤ endChunk ∧ endChunk ≤ s.dst.length)
      let buf := (s.dst.drop s.startChunk).take sizeChunk
      match (← E.decodeChunk src s sizeChunk) with
      | .stop (b, _, _) err =>
        pure (.stop { s with tabs := t, litBuf := b.litBuf, lenBuf := b.lenBuf
                             mIdxBuf := b.mIdxBuf, sizeChunk := sizeChunk } err)
      | .next (b, used, length) =>
        let s1 : Inv1State :=
          { s with tabs := t, litBuf := b.litBuf, lenBuf := b.lenBuf, mIdxBuf := b.mIdxBuf
                   sizeChunk := sizeChunk, srcIdx := s.srcIdx + used }
        if length > sizeChunk then pure (.stop s1 .invalidLength)
        else do
          let v ← rd b.litBuf 0
          let buf ← wr buf 0 v
          let (buf, n) ←
            if ((s.startChunk + 1 : Nat) : Int) < dstEnd then do
              let v ← rd b.litBuf 1
              let buf ← wr buf 1 v
              pure (buf, 2)
            else pure (buf, 1)
          let r ← rolzCodec1.decodeLoop dstEnd endChunk sizeChunk sizeChunk t
            { b with litIdx := n } buf n
          match r with
          | .stop (t, _, buf, dstIdx) err =>
            pure (.stop { s1 with tabs := t
                                  dst := s.dst.take s.startChunk ++ buf ++ s.dst.drop endChunk
                                  dstIdx := dstIdx } err)
          | .next (t, _, buf, dstIdx) =>
            invChunkLoop E src dstEnd fuel
              { s1 with tabs := t
                        dst := s.dst.take s.startChunk ++ buf ++ s.dst.drop endChunk
                        dstIdx := dstIdx, startChunk := endChunk }
    else some (.next s)

/-- The body of `rolzCodec1.Inverse` after the header `hdr` has been read
from the first four bytes of `src`; the chunks end at `dstEnd = hdr - 4`. -/
def rolzCodec1.decodeBlock (E : EntropyStage) (this : rolzCodec1) (src dst : List Nat)
    (hdr : Nat) : Option (CallResult rolzCodec1) := do
  let sizeChunk := if dst.length > ROLZ_CHUNK_SIZE then ROLZ_CHUNK_SIZE else dst.length
  let dstEnd : Int := (hdr : Int) - 4
  let s0 : Inv1State :=
    { tabs := { this with counters := this.counters.fill 0 }
      dst := dst
      litBuf := List.replicate (rolzCodec1.MaxEncodedLen sizeChunk) 0
      lenBuf := List.replicate (sizeChunk / 2) 0
      mIdxBuf := List.replicate (sizeChunk / 2) 0
      startChunk := 0, sizeChunk := sizeChunk, srcIdx := 4, dstIdx := 0 }
  let r ← rolzCodec1.invChunkLoop E src dstEnd (hdr + 1) s0
  match r with
  | .stop s err =>
    pure { this := s.tabs, dst := s.dst, srcIdx := s.srcIdx, dstIdx := s.dstIdx
           err := some err }
  | .next s => do
    let dstIdx : Int := (s.dstIdx : Int) + ((s.startChunk : Int) - (s.sizeChunk : Int))
    let dst ← copyTail s.dst src dstIdx s.srcIdx
    pure { this := s.tabs, dst := dst, srcIdx := s.srcIdx + 4, dstIdx := u64 (dstIdx + 4)
           err := if s.srcIdx + 4 ≠ src.length then some .invalidInput else none }

/-- Go `rolzCodec1.Inverse(src, dst)`:
`dstEnd := int(binary.BigEndian.Uint32(src[0:])) - 4`, then the body. -/
def rolzCodec1.Inverse (E : EntropyStage) (this : rolzCodec1) (src dst : List Nat) :
    Option (CallResult rolzCodec1) := do
  chk (4 ≤ src.length)
  let hdr ← getUint32BE src 0
  rolzCodec1.decodeBlock E this src dst hdr

/-! ## The codec `ROLZCodec` -/

/-- The interface `kanzi.ByteFunction` over a state type. -/
structure ByteFunction (σ : Type) where
  Forward : σ → List Nat → List Nat → Option (CallResult σ)
  Inverse : σ → List Nat → List Nat → Option (CallResult σ)
  MaxEncodedLen : Nat → Nat

/-- Backend 1 as a `kanzi.ByteFunction`. -/
def rolzCodec1.asByteFunction (E : EntropyStage) : ByteFunction rolzCodec1 :=
  ⟨rolzCodec1.Forward E, rolzCodec1.Inverse E, rolzCodec1.MaxEncodedLen⟩

/-- Backend 2 as a `kanzi.ByteFunction`. -/
def rolzCodec2.asByteFunction : ByteFunction rolzCodec2 :=
  ⟨rolzCodec2.Forward, rolzCodec2.Inverse, rolzCodec2.MaxEncodedLen⟩

/-- Go `ROLZCodec`: the delegate and its state. -/
structure ROLZCodec (σ : Type) where
  delegate : ByteFunction σ
  state : σ

/-- Go `ROLZCodec.Forward(src, dst)`.  `same` tells whether `&src[0] == &dst[0]`. -/
def ROLZCodec.Forward {σ : Type} (this : ROLZCodec σ) (src dst : List Nat) (same : Bool) :
    Option (CallResult σ) :=
  if src.length = 0 then
    some { this := this.state, dst := dst, srcIdx := 0, dstIdx := 0, err := none }
  else do
    chk (0 < dst.length)
    if same then
      pure { this := this.state, dst := dst, srcIdx := 0, dstIdx := 0, err := some .sameBuffers }
    else do
      chk (src.length ≤ TC_MAX_BLOCK_SIZE)
      this.delegate.Forward this.state src dst

/-- Go `ROLZCodec.Inverse(src, dst)`. -/
def ROLZCodec.Inverse {σ : Type} (this : ROLZCodec σ) (src dst : List Nat) (same : Bool) :
    Option (CallResult σ) :=
  if src.length = 0 then
    some { this := this.state, dst := dst, srcIdx := 0, dstIdx := 0, err := none }
  else do
    chk (0 < dst.length)
    if same then
      pure { this := this.state, dst := dst, srcIdx := 0, dstIdx := 0, err := some .sameBuffers }
    else do
      chk (src.length ≤ TC_MAX_BLOCK_SIZE)
      this.delegate.Inverse this.state src dst

/-- Go `ROLZCodec.MaxEncodedLen`. -/
def ROLZCodec.MaxEncodedLen {σ : Type} (this : ROLZCodec σ) (srcLen : Nat) : Nat :=
  this.delegate.MaxEncodedLen srcLen

/-! ## A plain entropy stage -/

/-- Four bytes, most significant first, of a 32-bit value. -/
def bytes32 (v : Nat) : List Nat :=
  [(v >>> 24) % 256, (v >>> 16) % 256, (v >>> 8) % 256, v % 256]

/-- An `EntropyStage` that stores every length as four bytes and every block
as it is.  It stands in for the bitstream and the ANS coders where backend 1
has to be run on a concrete input. -/
def plainStage : EntropyStage where
  OBS := List Nat
  IBS := List Nat × Nat
  newOBS := []
  writeBits32 := fun obs v => obs ++ bytes32 v
  ansWrite := fun obs _ block => some (obs ++ block)
  closeOBS := fun obs => obs
  newIBS := fun bytes => (bytes, 0)
  readBits32 := fun ibs =>
    match ibs.1 with
    | b0 :: b1 :: b2 :: b3 :: rest =>
      some ((b0 <<< 24) ||| (b1 <<< 16) ||| (b2 <<< 8) ||| b3, (rest, ibs.2 + 32))
    | _ => none
  ansRead := fun ibs _ n =>
    if n ≤ ibs.1.length then some (ibs.1.take n, (ibs.1.drop n, ibs.2 + 8 * n)) else none
  bitsRead := fun ibs => ibs.2

/-! ## Bit sequences through the range coder -/

/-- The calls `encodeBit(s[0]); encodeBit(s[1]); ...` in order. -/
def rolzEncoder.encodeBits {σ : Type} (P : Predictor σ) :
    rolzEncoder σ → List Nat → Option (rolzEncoder σ)
  | e, [] => some e
  | e, b :: bs => do
    let e1 ← e.encodeBit P b
    encodeBits P e1 bs

/-- The call `decodeBit()` repeated `n` times; the bits in the order they
were returned. -/
def rolzDecoder.decodeBits {σ : Type} (P : Predictor σ) :
    Nat → rolzDecoder σ → Option (rolzDecoder σ × List Nat)
  | 0, d => some (d, [])
  | n + 1, d => do
    let (d1, b) ← d.decodeBit P
    let (d2, bs) ← decodeBits P n d1
    pure (d2, b :: bs)

/-- A coding session over one predictor: `newRolzEncoder`, one `encodeBit`
per element of `s`, `dispose`.  Returns the buffer and the output index. -/
def encodeSequence {σ : Type} (P : Predictor σ) (p0 : σ) (buf : List Nat) (idx : Nat)
    (s : List Nat) : Option (List Nat × Nat) := do
  let e ← newRolzEncoder [p0] buf idx
  let e ← e.encodeBits P s
  let e ← e.dispose
  pure (e.buf, e.idx)

/-- A decoding session over one predictor: `newRolzDecoder`, then `n` calls of
`decodeBit`.  Returns the bits and the input index. -/
def decodeSequence {σ : Type} (P : Predictor σ) (p0 : σ) (buf : List Nat) (idx : Nat)
    (n : Nat) : Option (List Nat × Nat) := do
  let d ← newRolzDecoder [p0] buf idx
  let (d, s) ← d.decodeBits P n
  pure (s, d.idx)

/-- The number written big-endian in the `n` bytes of `buf` from index `i`. -/
def beBytes (buf : List Nat) (i : Nat) : Nat → Nat
  | 0 => 0
  | n + 1 => beBytes buf i n * 256 + buf.getD (i + n) 0

/-- Every element of the buffer is a byte. -/
@[reducible]
def Bytes (buf : List Nat) : Prop := ∀ x ∈ buf, x < 256

/-- The interval kept by the encoder between two calls: `low ≤ high`, both
with the same top byte, and different in bits 24..55 (the loop of `encodeBit`
has ended). -/
def EncInv (low high : Nat) : Prop :=
  low ≤ high ∧ high < 2 ^ 64 ∧ low / 2 ^ 56 = high / 2 ^ 56 ∧
    (low / 2 ^ 24) % 2 ^ 32 ≠ (high / 2 ^ 24) % 2 ^ 32

/-- Lower bound after `encodeBit` has narrowed `[l, h]` with prediction `g`. -/
def narrowLow (l h g bit : Nat) : Nat :=
  if bit = 1 then l else l + (h - l) / 16 * g / 256 + 1

/-- Upper bound after `encodeBit` has narrowed `[l, h]` with prediction `g`. -/
def narrowHigh (l h g bit : Nat) : Nat :=
  if bit = 1 then l + (h - l) / 16 * g / 256 else h

/-! ## Adaptive probability maps (`entropy/AdaptiveProbMap.go`) -/

/-- Wrap an integer to `int64`, the Go `int`. -/
def i64 (x : Int) : Int :=
  (x + 9223372036854775808) % 18446744073709551616 - 9223372036854775808

/-- Left shift `x << k` of a Go `int` by an unsigned count: zero from 64 bits
on. -/
def shl64 (x : Int) (k : Nat) : Int :=
  if k < 64 then i64 (x * ((2 ^ k : Nat) : Int)) else 0

/-- The function `kanzi.Squash` and the table `kanzi.STRETCH`.  They are
declared in a file of the package `kanzi` that is not among the sources at
hand, and are taken as a parameter. -/
structure ProbTables where
  Squash : Int → Int
  STRETCH : List Int

/-- Indexing `STRETCH[pr]` with a Go `int`. -/
def ProbTables.stretch (T : ProbTables) (pr : Int) : Option Int :=
  if 0 ≤ pr then T.STRETCH[pr.toNat]? else none

/-- Go `AdaptiveProbMap`; the three named types share this layout. -/
structure AdaptiveProbMap where
  index : Int
  rate : Nat
  data : Arr Int

/-- Load `a[i]` for a Go `int` index. -/
def Arr.getI (a : Arr Int) (i : Int) : Option Int :=
  if 0 ≤ i then a.get i.toNat else none

/-- Store `a[i] = v` for a Go `int` index. -/
def Arr.putI (a : Arr Int) (i : Int) (v : Int) : Option (Arr Int) :=
  if 0 ≤ i then a.put i.toNat v else none

/-- The loop `for j := 0; j <= last; j++ { data[j] = f(j) }` of the three
constructors; the fuel is `last + 1`. -/
def apmInitRow (f : Nat → Int) : Nat → Nat → Arr Int → Option (Arr Int)
  | 0, _, a => some a
  | fuel + 1, j, a => do
    let a ← a.put j (f j)
    apmInitRow f fuel (j + 1) a

/-- The loop `for i := uint(1); i < n; i++ { copy(data[i*w:(i+1)*w], data[0:w]) }`
of the three constructors, in `uint` arithmetic. -/
def apmCopyRows (w n : Nat) : Nat → Nat → Arr Int → Option (Arr Int)
  | 0, _, a => some a
  | fuel + 1, i, a =>
    if i < n then do
      let lo := (i * w) % 2 ^ 64
      let hi := ((i + 1) * w) % 2 ^ 64
      chk (lo ≤ hi ∧ hi ≤ a.len ∧ w ≤ a.len)
      apmCopyRows w n fuel (i + 1)
        ⟨a.len, fun k => if lo ≤ k ∧ k < hi ∧ k - lo < w then a.cell (k - lo) else a.cell k⟩
    else some a

/-- The common shape of the three constructors: `make([]int32, n*w)`, the
first row, the copies. -/
def newAdaptiveProbMap (w : Nat) (f : Nat → Int) (n rate : Nat) : Option AdaptiveProbMap := do
  let data ← apmInitRow f w 0 (Arr.make ((n * w) % 2 ^ 64) 0)
  let data ← apmCopyRows w n n 1 data
  pure { index := 0, rate := rate, data := data }

/-- Go `newLogisticAdaptiveProbMap`: `data[j] = int32(kanzi.Squash((j-16)<<7) << 4)`. -/
def newLogisticAdaptiveProbMap (T : ProbTables) (n rate : Nat) : Option AdaptiveProbMap :=
  newAdaptiveProbMap 33 (fun j => i32 (shl64 (T.Squash (shl64 ((j : Int) - 16) 7)) 4)) n rate

/-- Go `newFastLogisticAdaptiveProbMap`; the same body. -/
def newFastLogisticAdaptiveProbMap (T : ProbTables) (n rate : Nat) : Option AdaptiveProbMap :=
  newAdaptiveProbMap 33 (fun j => i32 (shl64 (T.Squash (shl64 ((j : Int) - 16) 7)) 4)) n rate

/-- Go `newLinearAdaptiveProbMap`: `data[j] = int32(j<<6) << 4`. -/
def newLinearAdaptiveProbMap (n rate : Nat) : Option AdaptiveProbMap :=
  newAdaptiveProbMap 65 (fun j => i32 (i32 (shl64 (j : Int) 6) * 16)) n rate

/-- The value `g := int32((bit << 16) + (bit << this.rate) - (bit << 1))`. -/
def apmTarget (bit : Int) (rate : Nat) : Int :=
  i32 (i64 (i64 (shl64 bit 16 + shl64 bit rate) - shl64 bit 1))

/-- The statement `data[i] += ((g - data[i]) >> rate)` on `int32`. -/
def apmUpdate (data : Arr Int) (i : Int) (g : Int) (rate : Nat) : Option (Arr Int) := do
  let d ← data.getI i
  data.putI i (i32 (d + ((i32 (g - d)) >>> rate)))

/-- The expression `int(data[index+1]*w + data[index]*(128-w)) >> 11` with
`w := int32(pr & 127)`; for a two's complement `pr`, `pr & 127` is the
remainder of `pr` modulo 128. -/
def apmInterpolate (data : Arr Int) (index pr : Int) : Option Int := do
  let w := i32 (pr % 128)
  let d1 ← data.getI (i64 (index + 1))
  let d0 ← data.getI index
  pure ((i32 (i32 (d1 * w) + i32 (d0 * i32 (128 - w)))) >>> (11 : Nat))

/-- Go `LogisticAdaptiveProbMap.get(bit, pr, ctx)`; returns the map and the
prediction. -/
def LogisticAdaptiveProbMap.get (T : ProbTables) (this : AdaptiveProbMap) (bit pr ctx : Int) :
    Option (AdaptiveProbMap × Int) := do
  let g := apmTarget bit this.rate
  let data ← apmUpdate this.data (i64 (this.index + 1)) g this.rate
  let data ← apmUpdate data this.index g this.rate
  let pr ← T.stretch pr
  let index := i64 (i64 ((i64 (pr + 2048) >>> (7 : Nat)) + shl64 ctx 5) + ctx)
  let v ← apmInterpolate data index pr
  pure ({ this with data := data, index := index }, v)

/-- Go `FastLogisticAdaptiveProbMap.get(bit, pr, ctx)`. -/
def FastLogisticAdaptiveProbMap.get (T : ProbTables) (this : AdaptiveProbMap)
    (bit pr ctx : Int) : Option (AdaptiveProbMap × Int) := do
  let g := apmTarget bit this.rate
  let data ← apmUpdate this.data this.index g this.rate
  let s ← T.stretch pr
  let index := i64 (i64 ((i64 (s + 2048) >>> (7 : Nat)) + shl64 ctx 5) + ctx)
  let d ← data.getI index
  pure ({ this with data := data, index := index }, d >>> (4 : Nat))

/-- Go `LinearAdaptiveProbMap.get(bit, pr, ctx)`. -/
def LinearAdaptiveProbMap.get (T : ProbTables) (this : AdaptiveProbMap) (bit pr ctx : Int) :
    Option (AdaptiveProbMap × Int) := do
  let g := apmTarget bit this.rate
  let data ← apmUpdate this.data (i64 (this.index + 1)) g this.rate
  let data ← apmUpdate data this.index g this.rate
  let pr ← T.stretch pr
  let index := i64 (i64 ((pr >>> (6 : Nat)) + shl64 ctx 6) + ctx)
  let v ← apmInterpolate data index pr
  pure ({ this with data := data, index := index }, v)

/-- A sequence of calls `get(bit, pr, ctx)` on one map, first call first;
returns the map and the predictions in order. -/
def apmRun (get : AdaptiveProbMap → Int → Int → Int → Option (AdaptiveProbMap × Int)) :
    AdaptiveProbMap → List (Int × Int × Int) → Option (AdaptiveProbMap × List Int)
  | a, [] => some (a, [])
  | a, (bit, pr, ctx) :: cs => do
    let (a, v) ← get a bit pr ctx
    let (a, vs) ← apmRun get a cs
    pure (a, v :: vs)

/-- The arguments the callers pass: a bit, a probability in `[0..4095]`, a
context below `n`. -/
def ValidCall (n : Nat) (c : Int × Int × Int) : Prop :=
  (c.1 = 0 ∨ c.1 = 1) ∧ (0 ≤ c.2.1 ∧ c.2.1 ≤ 4095) ∧ (0 ≤ c.2.2 ∧ c.2.2 < (n : Int))

/-- The assumption on the tables: `STRETCH` has 4096 entries in
`[-2047..2047]`, `Squash` returns values in `[0..4095]`. -/
def ProbTables.Ok (T : ProbTables) : Prop :=
  T.STRETCH.length = 4096 ∧ (∀ x ∈ T.STRETCH, -2047 ≤ x ∧ x ≤ 2047) ∧
    ∀ x, 0 ≤ T.Squash x ∧ T.Squash x ≤ 4095

/-- The largest value of entry `k` of a Linear map: 65536 in the last column
of a row (`k = 64` modulo 65), 65535 elsewhere. -/
def linBound (k : Nat) : Int := if k % 65 = 64 then 65536 else 65535

/-- The largest value of an entry of a Logistic or FastLogistic map. -/
def logBound (_ : Nat) : Int := 65535

/-- The state of a map of `n` rows of width `w` between two calls: the rate
is at most 30, the table has `n * w` entries, `index` and `index + 1` are
inside it, and every entry `k` lies in `[0..B k]`. -/
def ApmOk (w n : Nat) (B : Nat → Int) (a : AdaptiveProbMap) : Prop :=
  a.rate ≤ 30 ∧ a.data.len = n * w ∧ 0 ≤ a.index ∧ a.index + 1 < ((n * w : Nat) : Int) ∧
    ∀ k, 0 ≤ a.data.cell k ∧ a.data.cell k ≤ B k

/-- The state of a map of `n` rows of width `w` between two calls for every
rate but 31: the table has `n * w` entries, `index` and `index + 1` are
inside it, and every entry `k` lies in `[0..B k]`. -/
def ApmIn (w n : Nat) (B : Nat → Int) (a : AdaptiveProbMap) : Prop :=
  a.rate ≠ 31 ∧ a.data.len = n * w ∧ 0 ≤ a.index ∧ a.index + 1 < ((n * w : Nat) : Int) ∧
    ∀ k, 0 ≤ a.data.cell k ∧ a.data.cell k ≤ B k

/-- Tables with every `STRETCH` entry 0 and `Squash` constantly 0; they meet
`ProbTables.Ok` and serve for concrete values. -/
def zeroTables : ProbTables := ⟨fun _ => 0, List.replicate 4096 0⟩

/-! ## What a call keeps of a codec -/

/-- The shape of a predictor: everything but the probabilities and the two
context registers. -/
def predCfg (p : rolzPredictor) : Nat × Int × Nat := (p.logSize, p.size, p.probs.len)

/-- Two codecs have the same configuration: the fields set by the
constructor and never assigned again, and the sizes of the two tables. -/
def rolzCodec1.SameCfg (a b : rolzCodec1) : Prop :=
  a.logPosChecks = b.logPosChecks ∧ a.maskChecks = b.maskChecks ∧ a.posChecks = b.posChecks ∧
    a.counters.len = b.counters.len ∧ a.matches_.len = b.matches_.len

/-- The same for backend 2, with the shapes of the two predictors. -/
def rolzCodec2.SameCfg (a b : rolzCodec2) : Prop :=
  a.tabs.SameCfg b.tabs ∧ predCfg a.litPredictor = predCfg b.litPredictor ∧
    predCfg a.matchPredictor = predCfg b.matchPredictor

/-- The encoder `e2` continues `e`: the output index has not moved back, the
buffer has its length, the bytes below the index of `e` are untouched, and
the predictors have their shapes. -/
def rolzEncoder.Extends (e e2 : rolzEncoder rolzPredictor) : Prop :=
  e.idx ≤ e2.idx ∧ e2.buf.length = e.buf.length ∧ (∀ j, j < e.idx → rd e2.buf j = rd e.buf j) ∧
    e2.predictors.map predCfg = e.predictors.map predCfg

/-- Every entry of the match table holds a position below `n` in its 26 low
bits. -/
def rolzCodec1.TableBelow (t : rolzCodec1) (n : Nat) : Prop :=
  ∀ i, (t.matches_.cell i &&& ROLZ_POS_MASK) < n

/-- A state of the chunk loop of `rolzCodec1.Forward` after a chunk has been
parsed: the table holds positions of the chunk `[startChunk - sizeChunk,
startChunk)` only, and the chunk ends at or before `srcEnd`. -/
def Fwd1State.Settled (srcEnd : Int) (s : Fwd1State) : Prop :=
  s.tabs.TableBelow s.sizeChunk ∧ s.sizeChunk ≤ s.startChunk ∧ (s.startChunk : Int) ≤ srcEnd


/-- The state a step ends in, whichever way it ends. -/
def Step.val {α : Type} : Step α → α
  | .next a => a
  | .stop a _ => a

/-- The backend 1 codecs a caller can hold: the one `newROLZCodec1` built
with `logPosChecks = k`, or the one left behind by a call of `Forward` or of
`Inverse` that returned, on a codec it could hold before. -/
inductive rolzCodec1.Reachable (E : EntropyStage) (k : Nat) : rolzCodec1 → Prop
  | fresh : rolzCodec1.Reachable E k (rolzCodec1.alloc k)
  | forward (c : rolzCodec1) (src dst : List Nat) (r : CallResult rolzCodec1) :
      rolzCodec1.Reachable E k c → rolzCodec1.Forward E c src dst = some r →
      rolzCodec1.Reachable E k r.this
  | inverse (c : rolzCodec1) (src dst : List Nat) (r : CallResult rolzCodec1) :
      rolzCodec1.Reachable E k c → rolzCodec1.Inverse E c src dst = some r →
      rolzCodec1.Reachable E k r.this

/-- The same for backend 2. -/
inductive rolzCodec2.Reachable (k : Nat) : rolzCodec2 → Prop
  | fresh : rolzCodec2.Reachable k (rolzCodec2.alloc k)
  | forward (c : rolzCodec2) (src dst : List Nat) (r : CallResult rolzCodec2) :
      rolzCodec2.Reachable k c → c.Forward src dst = some r → rolzCodec2.Reachable k r.this
  | inverse (c : rolzCodec2) (src dst : List Nat) (r : CallResult rolzCodec2) :
      rolzCodec2.Reachable k c → c.Inverse src dst = some r → rolzCodec2.Reachable k r.this

/-! ## The entropy codec factory (`entropy/EntropyCodecFactory.go`) -/

def NONE_TYPE : Nat := 0
def HUFFMAN_TYPE : Nat := 1
def FPAQ_TYPE : Nat := 2
def PAQ_TYPE : Nat := 3
def RANGE_TYPE : Nat := 4
def ANS0_TYPE : Nat := 5
def CM_TYPE : Nat := 6
def TPAQ_TYPE : Nat := 7
def ANS1_TYPE : Nat := 8
def TPAQX_TYPE : Nat := 9

/-- Go `unicode.ToUpper` as far as a comparison with an ASCII string can
tell: the letters `a` to `z` go to `A` to `Z`, and the two runes outside
ASCII whose upper case is an ASCII letter, U+0131 (dotless i) and U+017F
(long s), go to `I` and `S`.  The upper case of every other rune outside
ASCII is again outside ASCII; such a rune is kept here. -/
def upperRune (c : Char) : Char :=
  if c.toNat = 0x131 then 'I' else if c.toNat = 0x17F then 'S' else c.toUpper

/-- Go `strings.ToUpper`, rune by rune (see `upperRune`). -/
def ToUpper (s : String) : String := ⟨s.data.map upperRune⟩

/-- Go `GetName(entropyType)`; `none` is the `panic` of the default case. -/
def GetName (entropyType : Nat) : Option String :=
  if entropyType = HUFFMAN_TYPE then some "HUFFMAN"
  else if entropyType = ANS0_TYPE then some "ANS0"
  else if entropyType = ANS1_TYPE then some "ANS1"
  else if entropyType = RANGE_TYPE then some "RANGE"
  else if entropyType = PAQ_TYPE then some "PAQ"
  else if entropyType = FPAQ_TYPE then some "FPAQ"
  else if entropyType = CM_TYPE then some "CM"
  else if entropyType = TPAQ_TYPE then some "TPAQ"
  else if entropyType = TPAQX_TYPE then some "TPAQX"
  else if entropyType = NONE_TYPE then some "NONE"
  else none

/-- Go `GetType(entropyName)`; `none` is the `panic` of the default case.
The switch has nine cases: there is none for `"TPAQX"`. -/
def GetType (entropyName : String) : Option Nat :=
  let u := ToUpper entropyName
  if u = "HUFFMAN" then some HUFFMAN_TYPE
  else if u = "ANS0" then some ANS0_TYPE
  else if u = "ANS1" then some ANS1_TYPE
  else if u = "RANGE" then some RANGE_TYPE
  else if u = "PAQ" then some PAQ_TYPE
  else if u = "FPAQ" then some FPAQ_TYPE
  else if u = "CM" then some CM_TYPE
  else if u = "TPAQ" then some TPAQ_TYPE
  else if u = "NONE" then some NONE_TYPE
  else none

/-- The errors the factory hands back: its own, of the default case, or the
one a constructor returned. -/
inductive FactoryError
  | unsupported (entropyType : Nat)
  | fromConstructor (code : Nat)
  deriving DecidableEq, Repr

/-- The pair `(codec, error)` a Go constructor returns; `none` is `nil`. -/
abbrev Built (C : Type) : Type := Option C × Option FactoryError

/-- The constructors the factory calls.  They are declared in files of the
package `entropy` that are not among the sources at hand and are taken as a
parameter: `B` is the bit stream, `C` the codec, `P` a predictor and `M` a
non-nil map `ctx` (the nil map is `none`); `setExtra` is the assignment
`ctx["extra"] = true` on a non-nil map. -/
structure Constructors (B C P M : Type) where
  NewHuffman : B → Built C
  NewANSRange : B → Nat → Built C
  NewRange : B → Built C
  NewBinaryEntropy : B → P → Built C
  NewNullEntropy : B → Built C
  NewPAQPredictor : P
  NewFPAQPredictor : P
  NewCMPredictor : P
  NewTPAQPredictor : Option M → P
  setExtra : M → M

/-- Go `NewEntropyDecoder(ibs, ctx, entropyType)`, over the decoder
constructors; `none` is a panic: in the case `TPAQX_TYPE` the assignment
`ctx["extra"] = true` panics when `ctx` is the nil map. -/
def NewEntropyDecoder {B C P M : Type} (K : Constructors B C P M) (ibs : B) (ctx : Option M)
    (entropyType : Nat) : Option (Built C) :=
  if entropyType = HUFFMAN_TYPE then some (K.NewHuffman ibs)
  else if entropyType = ANS0_TYPE then some (K.NewANSRange ibs 0)
  else if entropyType = ANS1_TYPE then some (K.NewANSRange ibs 1)
  else if entropyType = RANGE_TYPE then some (K.NewRange ibs)
  else if entropyType = PAQ_TYPE then some (K.NewBinaryEntropy ibs K.NewPAQPredictor)
  else if entropyType = FPAQ_TYPE then some (K.NewBinaryEntropy ibs K.NewFPAQPredictor)
  else if entropyType = CM_TYPE then some (K.NewBinaryEntropy ibs K.NewCMPredictor)
  else if entropyType = TPAQ_TYPE then some (K.NewBinaryEntropy ibs (K.NewTPAQPredictor ctx))
  else if entropyType = TPAQX_TYPE then
    match ctx with
    | none => none
    | some m => some (K.NewBinaryEntropy ibs (K.NewTPAQPredictor (some (K.setExtra m))))
  else if entropyType = NONE_TYPE then some (K.NewNullEntropy ibs)
  else some (none, some (.unsupported entropyType))

/-- Go `NewEntropyEncoder(obs, ctx, entropyType)`, over the encoder
constructors; `none` is a panic, as for `NewEntropyDecoder`. -/
def NewEntropyEncoder {B C P M : Type} (K : Constructors B C P M) (obs : B) (ctx : Option M)
    (entropyType : Nat) : Option (Built C) :=
  if entropyType = HUFFMAN_TYPE then some (K.NewHuffman obs)
  else if entropyType = ANS0_TYPE then some (K.NewANSRange obs 0)
  else if entropyType = ANS1_TYPE then some (K.NewANSRange obs 1)
  else if entropyType = RANGE_TYPE then some (K.NewRange obs)
  else if entropyType = PAQ_TYPE then some (K.NewBinaryEntropy obs K.NewPAQPredictor)
  else if entropyType = FPAQ_TYPE then some (K.NewBinaryEntropy obs K.NewFPAQPredictor)
  else if entropyType = CM_TYPE then some (K.NewBinaryEntropy obs K.NewCMPredictor)
  else if entropyType = TPAQ_TYPE then some (K.NewBinaryEntropy obs (K.NewTPAQPredictor ctx))
  else if entropyType = TPAQX_TYPE then
    match ctx with
    | none => none
    | some m => some (K.NewBinaryEntropy obs (K.NewTPAQPredictor (some (K.setExtra m))))
  else if entropyType = NONE_TYPE then some (K.NewNullEntropy obs)
  else some (none, some (.unsupported entropyType))

/-- A result that is a nil codec together with a non-nil error. -/
def Built.Rejected {C : Type} (r : Built C) : Prop := r.1 = none ∧ r.2 ≠ none

/-- The constructor a type ID in `0..9` selects, applied as the factory
applies it to a non-nil map `m`. -/
def Constructors.selected {B C P M : Type} (K : Constructors B C P M) (bs : B) (m : M)
    (entropyType : Nat) : Built C :=
  if entropyType = HUFFMAN_TYPE then K.NewHuffman bs
  else if entropyType = ANS0_TYPE then K.NewANSRange bs 0
  else if entropyType = ANS1_TYPE then K.NewANSRange bs 1
  else if entropyType = RANGE_TYPE then K.NewRange bs
  else if entropyType = PAQ_TYPE then K.NewBinaryEntropy bs K.NewPAQPredictor
  else if entropyType = FPAQ_TYPE then K.NewBinaryEntropy bs K.NewFPAQPredictor
  else if entropyType = CM_TYPE then K.NewBinaryEntropy bs K.NewCMPredictor
  else if entropyType = TPAQ_TYPE then K.NewBinaryEntropy bs (K.NewTPAQPredictor (some m))
  else if entropyType = TPAQX_TYPE then
    K.NewBinaryEntropy bs (K.NewTPAQPredictor (some (K.setExtra m)))
  else K.NewNullEntropy bs

/-! ## The block decompressor (`app/BlockDecompressor.go`, `v2/app/BlockDecompressor.go`) -/

/-- The loop `for i, e := range this.listeners` of `RemoveListener`, at index
`i` with `rest` still to visit; `all` is the slice the loop ranges over.
The slice expression `this.listeners[:i-1]` panics for `i = 0`. -/
def removeLoop {L : Type} [DecidableEq L] (all : List L) (bl : L) :
    Nat → List L → Option (List L × Bool)
  | _, [] => some (all, false)
  | i, e :: rest =>
    if e = bl then
      if i = 0 then none
      else some (all.take (i - 1) ++ all.drop (i + 1), true)
    else removeLoop all bl (i + 1) rest

/-- Go `BlockDecompressor.RemoveListener(bl)`, the same text in both
versions: returns the new `this.listeners` and the result. -/
def RemoveListener {L : Type} [DecidableEq L] (listeners : List L) (bl : L) :
    Option (List L × Bool) :=
  removeLoop listeners bl 0 listeners

/-- Go `BlockDecompressor.AddListener(bl)`; `none` is the nil listener. -/
def AddListener {L : Type} (listeners : List L) (bl : Option L) : List L × Bool :=
  match bl with
  | none => (listeners, false)
  | some l => (listeners ++ [l], true)

/-- Go `FileDecompressResult`. -/
structure FileDecompressResult where
  code : Int
  read : Nat

/-- The loop `for i := 0; i < nbFiles; i++ { result := <-results ... }` of
both versions over the results in their order of arrival; `read` is a
`uint64`. -/
def waitResults : Int → Nat → List FileDecompressResult → Int × Nat
  | res, read, [] => (res, read)
  | res, read, r :: rs =>
    if r.code ≠ 0 then (r.code, (read + r.read) % 2 ^ 64)
    else waitResults res ((read + r.read) % 2 ^ 64) rs

/-- The exit code of `BlockDecompressor.Call` (`app`) for several files:
`res := 1` at the top of the function, then the loop. -/
def Call_exit (results : List FileDecompressResult) : Int × Nat :=
  waitResults 1 0 results

/-- The exit code of `BlockDecompressor.Decompress` (`v2/app`) for several
files: `res = 0` before the loop. -/
def Decompress_exit (results : List FileDecompressResult) : Int × Nat :=
  waitResults 0 0 results

/-- The exit status the specification asks for: the first nonzero code of
the sequence, 0 when there is none. -/
def firstNonzero : List Int → Int
  | [] => 0
  | c :: cs => if c ≠ 0 then c else firstNonzero cs

/-! ## What the parse of a chunk keeps in the tables -/

/-- The key `getKey(buf[pos-2:])` that `findMatch` computes for `pos`. -/
def keyAt (buf : Slice) (pos : Nat) : Option Nat := do
  chk (2 ≤ pos)
  let keyBuf ← buf.drop (pos - 2)
  getKey keyBuf

/-- The value `hash(buf[pos:pos+4])` that `findMatch` computes for `pos`. -/
def hashAt (buf : Slice) (pos : Nat) : Option Nat := do
  let hashBuf ← buf.sub pos (pos + 4)
  hash hashBuf

/-- The index in `matches` of the slot `(c + 1) & maskChecks` of the ring of
`key`, where `c` is the counter of `key`. -/
def rolzCodec1.slotOf (t : rolzCodec1) (key : Nat) (c : Int) : Nat :=
  (key <<< t.logPosChecks) % 2 ^ 32 + (and32 (i32 (c + 1)) t.maskChecks).toNat

/-- The parse loop `for srcIdx < sizeChunk` of either backend with the output
statements left out: the calls of `findMatch` and the moves of `srcIdx`.
Returns the positions at which `findMatch` was called, in order, the codec
and `srcIdx`. -/
def rolzCodec1.parseSteps (buf : Slice) (sizeChunk : Nat) :
    Nat → rolzCodec1 → Nat → Option (List Nat × rolzCodec1 × Nat)
  | 0, t, srcIdx => some ([], t, srcIdx)
  | fuel + 1, t, srcIdx =>
    if srcIdx < sizeChunk then do
      let (t, matchIdx, matchLen) ← t.findMatch buf srcIdx
      let next := if matchIdx = -1 then srcIdx + 1
        else (srcIdx + matchLen + ROLZ_MIN_MATCH).toNat
      let (ps, t, k) ← parseSteps buf sizeChunk fuel t next
      pure (srcIdx :: ps, t, k)
    else some ([], t, srcIdx)

/-- The number of positions of `ps` whose key is `key`. -/
def keyCount (buf : Slice) (key : Nat) (ps : List Nat) : Nat :=
  (ps.filter (fun q => decide (keyAt buf q = some key))).length

/-- Every non-zero entry of `matches` holds, in its 26 low bits, a position
below `cur`, and in its 6 high bits the hash of the four bytes at that
position. -/
def rolzCodec1.HashConsistent (t : rolzCodec1) (buf : Slice) (cur : Nat) : Prop :=
  ∀ i, t.matches_.cell i ≠ 0 →
    (t.matches_.cell i &&& ROLZ_POS_MASK) < cur ∧
      (hashAt buf (t.matches_.cell i &&& ROLZ_POS_MASK)).map (fun h => h &&& ROLZ_HASH_MASK) =
        some (t.matches_.cell i &&& ROLZ_HASH_MASK)

/-- The effect of a call `findMatch(buf, pos)` that took the codec from `t`
to `t2`: with `key` the key of `pos` and `c` its counter before the call,
the counter of `key` is `c + 1` (as an `int32`), the slot `(c + 1) &
maskChecks` of the ring of `key` holds `hash(buf[pos:pos+4]) | pos`, and every
other counter and every other entry of `matches` is as before. -/
def rolzCodec1.Inserted (t t2 : rolzCodec1) (buf : Slice) (pos : Nat) : Prop :=
  ∃ key h32, 2 ≤ pos ∧ keyAt buf pos = some key ∧ hashAt buf pos = some h32 ∧
    key < t.counters.len ∧ t.slotOf key (t.counters.cell key) < t.matches_.len ∧
    t2.counters.len = t.counters.len ∧ t2.matches_.len = t.matches_.len ∧
    t2.counters.cell key = i32 (t.counters.cell key + 1) ∧
    (-2147483648 ≤ t.counters.cell key → t.counters.cell key < 2147483647 →
      t2.counters.cell key = t.counters.cell key + 1) ∧
    (∀ k, k ≠ key → t2.counters.cell k = t.counters.cell k) ∧
    t2.matches_.cell (t.slotOf key (t.counters.cell key)) = h32 ||| (pos % 2 ^ 32) ∧
    ∀ i, i ≠ t.slotOf key (t.counters.cell key) → t2.matches_.cell i = t.matches_.cell i

/-- The buffers of a chunk of eight bytes before its parse, for concrete
values. -/
def sampleBufs : Fwd1Bufs :=
  { litBuf := List.replicate 40 0, lenBuf := List.replicate 4 0, mIdxBuf := List.replicate 4 0,
    litIdx := 2, lenIdx := 0, mIdx := 0 }

/-! ## The candidates of `findMatch` -/

/-- The entry `m[(counter - d) & maskChecks]` of the ring at offset `lo`: the
candidate at relative index `d`, 0 being the newest. -/
def rolzCodec1.ringEntry (this : rolzCodec1) (lo : Nat) (counter : Int) (d : Nat) :
    Option Nat :=
  this.matches_.get (lo + (and32 (counter - (d : Int)) this.maskChecks).toNat)

/-- The length the body of the loop of `findMatch` computes for a non-zero
ring entry `ref`: 0 when the entry is passed over by the hash check or by the
first byte (`continue`), else the value of `n` after the inner loop. -/
def candLen (buf curBuf : Slice) (hash32 maxMatch ref : Nat) : Option Nat :=
  if ref &&& ROLZ_HASH_MASK ≠ hash32 then some 0
  else do
    let refBuf ← buf.drop (ref &&& ROLZ_POS_MASK)
    let r0 ← refBuf.get 0
    let c0 ← curBuf.get 0
    if r0 ≠ c0 then pure 0
    else matchLenLoop refBuf curBuf maxMatch maxMatch 1

/-- The candidate at relative index `d` is a non-zero entry for which the
loop computes the length `x`. -/
def rolzCodec1.CandAt (this : rolzCodec1) (buf curBuf : Slice) (lo hash32 : Nat)
    (counter : Int) (maxMatch d x : Nat) : Prop :=
  ∃ ref, this.ringEntry lo counter d = some ref ∧ ref ≠ 0 ∧
    candLen buf curBuf hash32 maxMatch ref = some x

/-- The pair `(bestLen, bestIdx)` is the best of the candidates `0..m-1`:
none is longer than `bestLen`; either none reaches `ROLZ_MIN_MATCH` and the
pair is `(2, -1)`, or `bestIdx` is the smallest relative index of a candidate
of length `bestLen`. -/
def rolzCodec1.BestOf (this : rolzCodec1) (buf curBuf : Slice) (lo hash32 : Nat)
    (counter : Int) (maxMatch m bestLen : Nat) (bestIdx : Int) : Prop :=
  (∀ d, d < m → ∃ x, this.CandAt buf curBuf lo hash32 counter maxMatch d x ∧ x ≤ bestLen) ∧
    ((bestLen = 2 ∧ bestIdx = -1) ∨
      (3 ≤ bestLen ∧ ∃ d, d < m ∧ bestIdx = (d : Int) ∧
        this.CandAt buf curBuf lo hash32 counter maxMatch d bestLen ∧
        ∀ e, e < d → ∃ x, this.CandAt buf curBuf lo hash32 counter maxMatch e x ∧ x < bestLen))

/-- The loop of `findMatch` stops after `m` candidates: all `posChecks` have
been examined, or the next entry is zero, or the last one examined reached
`maxMatch`. -/
def rolzCodec1.StopsAt (this : rolzCodec1) (buf curBuf : Slice) (lo hash32 : Nat)
    (counter : Int) (maxMatch m : Nat) : Prop :=
  (m : Int) = this.posChecks ∨ this.ringEntry lo counter m = some 0 ∨
    (3 ≤ maxMatch ∧ ∃ d, m = d + 1 ∧ this.CandAt buf curBuf lo hash32 counter maxMatch d maxMatch)

/-- A chunk of 20 bytes in which the positions 2, 8 and 14 follow the bytes
`1, 2` and start with `5, 6, 7`, for concrete values. -/
def tieBuf : Slice :=
  ⟨[1, 2, 5, 6, 7, 8, 1, 2, 5, 6, 7, 9, 1, 2, 5, 6, 7, 10, 0, 0, 0, 0, 0, 0], 20⟩

/-- The codec of `newROLZCodec1(4)` after the positions 2 and 8 of `tieBuf`
have been registered, for concrete values. -/
def tieCodec : rolzCodec1 :=
  ⟨⟨1048576, fun j => if j = 8209 then 1610612738 else if j = 8210 then 1610612744 else 0⟩,
    ⟨65536, fun j => if j = 513 then 2 else 0⟩, 4, 15, 16⟩

/-! ## The round trip of backend 1 -/

/-- Modelled from the spec: the bitstream and the ANS coders, which are
outside `ROLZCodec.go`, reproduce what they are given.  What `Forward` writes
for a chunk, the three lengths and the three byte arrays, is read back by
`Inverse` in the same order from the bytes written, whatever follows them,
and the number of bytes read is the number written. -/
def EntropyStage.Faithful (E : EntropyStage) : Prop :=
  ∀ (b : Fwd1Bufs) (os rest : List Nat), b.litIdx ≤ b.litBuf.length →
    b.lenIdx ≤ b.lenBuf.length → b.mIdx ≤ b.mIdxBuf.length → b.litIdx < 2 ^ 32 →
    b.lenIdx < 2 ^ 32 → b.mIdx < 2 ^ 32 → E.encodeChunk b = some os →
    ∃ i1 i2 i3 i4 i5 i6,
      E.readBits32 (E.newIBS (os ++ rest)) = some (b.litIdx, i1) ∧
      E.ansRead i1 1 b.litIdx = some (b.litBuf.take b.litIdx, i2) ∧
      E.readBits32 i2 = some (b.lenIdx, i3) ∧
      E.ansRead i3 0 b.lenIdx = some (b.lenBuf.take b.lenIdx, i4) ∧
      E.readBits32 i4 = some (b.mIdx, i5) ∧
      E.ansRead i5 0 b.mIdx = some (b.mIdxBuf.take b.mIdx, i6) ∧
      (E.bitsRead i6 + 7) >>> 3 = os.length

/-- The tables of the decoder hold what the tables of the encoder hold, the
entries of `matches` without their hash bits. -/
def rolzCodec1.Mirrors (d e : rolzCodec1) : Prop :=
  d.SameCfg e ∧ (∀ k, d.counters.cell k = e.counters.cell k) ∧
    ∀ i, d.matches_.cell i = e.matches_.cell i &&& ROLZ_POS_MASK

/-- What the decoder does to its tables for the position `pos` of `buf`: the
key, the ring of the key, the registration of `pos`. -/
def rolzCodec1.registerAt (t : rolzCodec1) (buf : Slice) (pos : Nat) : Option rolzCodec1 := do
  let key ← keyAt buf pos
  let (lo, width) ← t.ring key
  t.register key lo width pos

/-- The registration of the `m` positions from `pos` on, in order. -/
def rolzCodec1.registerRange (buf : Slice) : Nat → Nat → rolzCodec1 → Option rolzCodec1
  | 0, _, t => some t
  | m + 1, pos, t => do
    let t ← t.registerAt buf pos
    registerRange buf m (pos + 1) t

/-- The candidate the loop of `findMatch` returns as `(n, idx)`: the ring
entry at `i2 = counter - idx`, inside the ring, is a non-zero entry `ref`,
and the `n` bytes at its position are the `n` bytes of `curBuf`. -/
def rolzCodec1.MatchAt (this : rolzCodec1) (buf curBuf : Slice) (lo width : Nat)
    (counter : Int) (n : Nat) (idx : Int) : Prop :=
  ∃ i2 ref refBuf, counter - this.posChecks < i2 ∧ i2 ≤ counter ∧ idx = counter - i2 ∧
    (0 ≤ and32 i2 this.maskChecks ∧ (and32 i2 this.maskChecks).toNat < width) ∧
    this.matches_.get (lo + (and32 i2 this.maskChecks).toNat) = some ref ∧ ref ≠ 0 ∧
    buf.drop (ref &&& ROLZ_POS_MASK) = some refBuf ∧
    ∀ k, k < n → ∃ v, refBuf.get k = some v ∧ curBuf.get k = some v

/-- The buffer `X` holds the bytes of `S` at every index below `d`. -/
def Filled (S X : List Nat) (d : Nat) : Prop :=
  ∀ j, j < d → rd X j = rd S j

/-- The buffers `b2` come from `b` by writes at and above the indices of `b`:
same lengths, indices not smaller, the bytes below the indices of `b` kept. -/
def Fwd1Bufs.Extends (b b2 : Fwd1Bufs) : Prop :=
  b2.litBuf.length = b.litBuf.length ∧ b2.lenBuf.length = b.lenBuf.length ∧
    b2.mIdxBuf.length = b.mIdxBuf.length ∧ b.litIdx ≤ b2.litIdx ∧ b.lenIdx ≤ b2.lenIdx ∧
    b.mIdx ≤ b2.mIdx ∧ Filled b.litBuf b2.litBuf b.litIdx ∧ Filled b.lenBuf b2.lenBuf b.lenIdx ∧
    Filled b.mIdxBuf b2.mIdxBuf b.mIdx
/-! ## Further definitions -/

/-- A `STRETCH` table with the sign of the logit: -2047 below 2048, 2047 from
2048 on; `Squash` constantly 0.  It meets `ProbTables.Ok` and serves for
concrete values. -/
def signTables : ProbTables :=
  ⟨fun _ => 0, List.replicate 2048 (-2047) ++ List.replicate 2048 2047⟩

/-- The decoder `d` follows the encoder `e` on the bytes `out`: it reads
`out` eight bytes ahead of the index of `e`, holds the predictors of `e`, the
bounds of `e` in its 56-bit window, and in `current` the eight bytes of `out`
from the index of `e`. -/
def rolzDecoder.Follows {σ : Type} (d : rolzDecoder σ) (e : rolzEncoder σ) (out : List Nat) :
    Prop :=
  d.buf = out ∧ d.idx = e.idx + 8 ∧ d.predictors = e.predictors ∧ d.predictor = e.predictor ∧
    d.low = e.low % 2 ^ 56 ∧ d.high = e.high % 2 ^ 56 ∧
    d.current = beBytes out e.idx 8 % 2 ^ 56

/-- The copy as the specification words it: the assignments
`buf[d] = buf[r]`, `buf[d+1] = buf[r+1]`, ... executed one after the other,
`n` of them, in increasing order of the index. -/
def forwardCopy : Nat → List Nat → Nat → Nat → List Nat
  | 0, buf, _, _ => buf
  | n + 1, buf, d, r => forwardCopy n (buf.set d (buf.getD r 0)) (d + 1) (r + 1)

/-- The call is an `Update`. -/
def PredOp.isUpdate : PredOp → Bool
  | .update _ => true
  | .setContext _ => false

/-- The state of a `rolzPredictor` built with `logSize = k` between two
calls: `size = 2^k`, a table of `256 * 2^k` cells, `1 ≤ c1 < size`, and a
context `ctx` that is a byte shifted left by `k`. -/
def rolzPredictor.Shaped (p : rolzPredictor) (k : Nat) : Prop :=
  p.logSize = k ∧ p.size = ((2 ^ k : Nat) : Int) ∧ p.probs.len = 256 * 2 ^ k ∧ 1 ≤ p.c1 ∧
    p.c1 < p.size ∧ 0 ≤ p.ctx ∧ p.ctx ≤ 255 * ((2 ^ k : Nat) : Int)


/-! ## The calls of `findMatch` in the parse of a chunk -/

/-- One call `findMatch(buf, pos)` of a parse: the position, the codec before
and after the call, and the pair the call returned. -/
structure FindCall where
  pos : Nat
  before : rolzCodec1
  after : rolzCodec1
  idx : Int
  len : Int

/-- The parse loop `for srcIdx < sizeChunk` of either backend with the output
statements left out, as `parseSteps`, recording every call of `findMatch` in
order. -/
def rolzCodec1.parseCalls (buf : Slice) (sizeChunk : Nat) :
    Nat → rolzCodec1 → Nat → Option (List FindCall)
  | 0, _, _ => some []
  | fuel + 1, t, srcIdx =>
    if srcIdx < sizeChunk then do
      let (t2, matchIdx, matchLen) ← t.findMatch buf srcIdx
      let next := if matchIdx = -1 then srcIdx + 1
        else (srcIdx + matchLen + ROLZ_MIN_MATCH).toNat
      let cs ← parseCalls buf sizeChunk fuel t2 next
      pure (⟨srcIdx, t, t2, matchIdx, matchLen⟩ :: cs)
    else some []

/-- The pair `(idx, n)` reported for `pos` is sound for the codec `t` the call
started with: `idx` is a relative index of the ring of the key of `pos`, the
entry at that index (counted back from the counter of the key) is not zero,
the position `ref` in its 26 low bits is below `pos`, and for every
`k < n + 3` the indices `ref + k` and `pos + k` are inside `buf` and hold the
same byte. -/
def rolzCodec1.SoundMatch (t : rolzCodec1) (buf : Slice) (pos : Nat) (idx n : Int) : Prop :=
  0 ≤ idx ∧ idx < t.posChecks ∧ 0 ≤ n ∧
    ∃ key lo width counter entry, keyAt buf pos = some key ∧ t.ring key = some (lo, width) ∧
      t.counters.get key = some counter ∧
      (and32 (counter - idx) t.maskChecks).toNat < width ∧
      t.ringEntry lo counter idx.toNat = some entry ∧ entry ≠ 0 ∧
      (entry &&& ROLZ_POS_MASK) < pos ∧
      ∀ k, k < n.toNat + 3 → (entry &&& ROLZ_POS_MASK) + k < buf.len ∧ pos + k < buf.len ∧
        ∃ v, buf.get ((entry &&& ROLZ_POS_MASK) + k) = some v ∧ buf.get (pos + k) = some v

/-- The bytes the matches of a list of calls cover: the sum of `len + 3` over
the calls that reported a match. -/
def matchedBytes (cs : List FindCall) : Nat :=
  ((cs.filter (fun c => decide (c.idx ≠ -1))).map (fun c => c.len.toNat + 3)).sum

/-- The number of calls that reported a match. -/
def matchCount (cs : List FindCall) : Nat :=
  (cs.filter (fun c => decide (c.idx ≠ -1))).length

/-- A state of the chunk loop of `rolzCodec1.Forward` whose three buffers
have the sizes `Forward` allocates for the first chunk size `S0`:
`MaxEncodedLen(S0)` bytes for the literals, `S0 / 2` for the lengths and
`S0 / 2` for the match indices.  The codec is configured, and `sizeChunk` is
still `S0` as long as a chunk is left. -/
def Fwd1State.Allocated (srcEnd : Int) (S0 : Nat) (s : Fwd1State) : Prop :=
  s.tabs.Configured ∧ s.litBuf.length = rolzCodec1.MaxEncodedLen S0 ∧
    s.lenBuf.length = S0 / 2 ∧ s.mIdxBuf.length = S0 / 2 ∧
    ((s.startChunk : Int) < srcEnd → s.sizeChunk = S0)

/-! ## The tables of encoder and decoder at the tokens of a chunk -/

/-- A point of the parse or of the decoding of a chunk: the start of a token
or the end of the loop (`isMatch = false`, `idx = 0`), or the match of a
token (`isMatch = true`, with the match index), with the position in the
chunk and the codec at that point.  At a match the codec is the one the match
is looked up in: before `findMatch` inserts the position for the encoder,
before the ring is read for the decoder. -/
structure TokenMark where
  isMatch : Bool
  pos : Nat
  tabs : rolzCodec1
  idx : Int

/-- The parse loop of `rolzCodec1.Forward` with the output statements left
out, recording its points: the start of an iteration with
`srcIdx = firstLitIdx`, where a token starts, every match, and the end of the
loop. -/
def rolzCodec1.parseTokens (buf : Slice) (sizeChunk : Nat) :
    Nat → rolzCodec1 → Nat → Nat → Option (List TokenMark)
  | 0, t, srcIdx, _ => some [⟨false, srcIdx, t, 0⟩]
  | fuel + 1, t, srcIdx, firstLitIdx =>
    if srcIdx < sizeChunk then do
      let start : List TokenMark :=
        if srcIdx = firstLitIdx then [⟨false, srcIdx, t, 0⟩] else []
      let (t2, matchIdx, matchLen) ← t.findMatch buf srcIdx
      if matchIdx = -1 then do
        let rest ← parseTokens buf sizeChunk fuel t2 (srcIdx + 1) firstLitIdx
        pure (start ++ rest)
      else do
        let next := (srcIdx + matchLen + ROLZ_MIN_MATCH).toNat
        let rest ← parseTokens buf sizeChunk fuel t2 next next
        pure (start ++ ⟨true, srcIdx, t, matchIdx⟩ :: rest)
    else some [⟨false, srcIdx, t, 0⟩]

/-- The loop `for dstIdx < sizeChunk` of `rolzCodec1.Inverse`, as
`decodeLoop`, recording its points: the start of every iteration, the match
of the token after its literals have been registered, with the index read
from `mIdxBuf`, and the end of the loop. -/
def rolzCodec1.decodeTokens (dstEnd : Int) (endChunk sizeChunk : Nat) :
    Nat → rolzCodec1 → Inv1Bufs → List Nat → Nat → Option (List TokenMark)
  | 0, t, _, _, dstIdx => some [⟨false, dstIdx, t, 0⟩]
  | fuel + 1, t, b, buf, dstIdx =>
    if dstIdx < sizeChunk then do
      chk (b.lenIdx ≤ b.lenBuf.length)
      let (litLen, matchLen, deltaIdx) ← readLengths (b.lenBuf.drop b.lenIdx)
      chk (b.litIdx ≤ b.litIdx + litLen ∧ b.litIdx + litLen ≤ b.litBuf.length)
      let (t1, buf) ←
        t.emitLiterals ((b.litBuf.drop b.litIdx).take litLen) buf dstIdx
      let b := { b with lenIdx := b.lenIdx + deltaIdx, litIdx := b.litIdx + litLen }
      let dstIdx1 := dstIdx + litLen
      if dstIdx1 ≥ endChunk then some [⟨false, dstIdx, t, 0⟩, ⟨false, dstIdx1, t1, 0⟩]
      else if ((dstIdx1 + matchLen + ROLZ_MIN_MATCH : Nat) : Int) > dstEnd then
        some [⟨false, dstIdx, t, 0⟩, ⟨false, dstIdx1, t1, 0⟩]
      else do
        let mi ← rd b.mIdxBuf b.mIdx
        let (t2, b, buf, dstIdx2) ← rolzCodec1.decodeMatch t1 b buf dstIdx1 matchLen
        let rest ← decodeTokens dstEnd endChunk sizeChunk fuel t2 b buf dstIdx2
        pure (⟨false, dstIdx, t, 0⟩ :: ⟨true, dstIdx1, t1, ((mi &&& 0xFF : Nat) : Int)⟩ :: rest)
    else some [⟨false, dstIdx, t, 0⟩]

/-- The bytes `out` complete the encoder state `e`: `out` has the length of
the encoder's buffer, holds bytes, agrees with the buffer below the encoder's
index, and the eight bytes of `out` at that index, read big-endian, lie in
the interval `[low, high]`.  The output of a coding session is such a
completion of every state the session passes. -/
def rolzEncoder.Lands {σ : Type} (e : rolzEncoder σ) (out : List Nat) : Prop :=
  out.length = e.buf.length ∧ Bytes out ∧ e.idx + 8 ≤ out.length ∧
    (∀ j, j < e.idx → rd out j = rd e.buf j) ∧
    e.low ≤ beBytes out e.idx 8 ∧ beBytes out e.idx 8 ≤ e.high

/-- The coder state of backend 2 between two operations: the interval
invariant of the encoder, a buffer of bytes, and two predictors with every
cell in range, one of them selected. -/
def rolzEncoder.Sound (e : rolzEncoder rolzPredictor) : Prop :=
  EncInv e.low e.high ∧ Bytes e.buf ∧ e.predictors.length = 2 ∧ e.predictor < 2 ∧
    ∀ p ∈ e.predictors, p.CellsOk

/-- The parse loop `for srcIdx < sizeChunk` of `rolzCodec2.Forward` with the
calls of the coder left out, recording its points: every iteration, a literal
(`isMatch = false`) or a match with its index, with the codec `findMatch` is
called on, and the end of the loop. -/
def rolzCodec2.parseTokens (buf : Slice) (sizeChunk : Nat) :
    Nat → rolzCodec1 → Nat → Option (List TokenMark)
  | 0, t, srcIdx => some [⟨false, srcIdx, t, 0⟩]
  | fuel + 1, t, srcIdx =>
    if srcIdx < sizeChunk then do
      let (t2, matchIdx, matchLen) ← t.findMatch buf srcIdx
      if matchIdx = -1 then do
        let rest ← parseTokens buf sizeChunk fuel t2 (srcIdx + 1)
        pure (⟨false, srcIdx, t, 0⟩ :: rest)
      else do
        let rest ← parseTokens buf sizeChunk fuel t2 (srcIdx + matchLen + ROLZ_MIN_MATCH).toNat
        pure (⟨true, srcIdx, t, matchIdx⟩ :: rest)
    else some [⟨false, srcIdx, t, 0⟩]

/-- The kind of the token `rolzCodec2.Inverse` decodes at `dstIdx` and, for a
match, the index it reads: the reads of `decodeToken` and `decodeMatch` up to
the index bits, on the same decoder.  A match that fails the sanity check
`matchLen+3 > dstEnd` has no index. -/
def rolzCodec2.decodeMark (t : rolzCodec1) (rd : rolzDecoder rolzPredictor) (buf : List Nat)
    (dstIdx dstEnd : Nat) : Option TokenMark := do
  let prev ← Kanzi.rd buf (dstIdx - 1)
  let ps ← setPredictorContext rd.predictors 0 prev
  let rd ← rolzDecoder.setContext { rd with predictors := ps } ROLZ_LITERAL_FLAG
  let (rd, bit) ← rd.decodeBit RP
  if bit = ROLZ_MATCH_FLAG then do
    let (rd, matchLen) ← rd.decodeByte RP
    if matchLen + 3 > dstEnd then pure ⟨true, dstIdx, t, 0⟩
    else do
      let ps ← setPredictorContext rd.predictors 1 prev
      let rd ← rolzDecoder.setContext { rd with predictors := ps } ROLZ_MATCH_FLAG
      let (_, matchIdx) ← decodeIndexBits t.logPosChecks rd 0
      pure ⟨true, dstIdx, t, (matchIdx : Int)⟩
  else pure ⟨false, dstIdx, t, 0⟩

/-- The loop `for dstIdx < sizeChunk` of `rolzCodec2.Inverse`, as
`rolzCodec2.decodeLoop`, recording its points: every iteration, with the
kind and the index of its token and the codec the ring is read from, and the
end of the loop. -/
def rolzCodec2.decodeTokens (dstEnd startChunk sizeChunk : Nat) :
    Nat → rolzCodec1 → rolzDecoder rolzPredictor → List Nat → Nat → Option (List TokenMark)
  | 0, t, _, _, dstIdx => some [⟨false, dstIdx, t, 0⟩]
  | fuel + 1, t, rd, buf, dstIdx =>
    if dstIdx < sizeChunk then do
      chk (2 ≤ dstIdx)
      let keyBuf ← (Slice.ofList buf).drop (dstIdx - 2)
      let key ← getKey keyBuf
      let (lo, width) ← t.ring key
      let mark ← rolzCodec2.decodeMark t rd buf dstIdx dstEnd
      let (rd, buf2, dstIdx2, brk) ← rolzCodec2.decodeToken t rd buf dstIdx key lo width dstEnd
      if brk then some [mark, ⟨false, dstIdx2 + startChunk, t, 0⟩]
      else do
        let t2 ← t.register key lo width dstIdx
        let rest ← decodeTokens dstEnd startChunk sizeChunk fuel t2 rd buf2 dstIdx2
        pure (mark :: rest)
    else some [⟨false, dstIdx, t, 0⟩]

/-- Whether the encoder lands on `out` is decided by evaluation. -/
instance rolzEncoder.decLands {σ : Type} (e : rolzEncoder σ) (out : List Nat) :
    Decidable (e.Lands out) :=
  inferInstanceAs (Decidable (out.length = e.buf.length ∧ Bytes out ∧ e.idx + 8 ≤ out.length ∧
    (∀ j, j < e.idx → rd out j = rd e.buf j) ∧
    e.low ≤ beBytes out e.idx 8 ∧ beBytes out e.idx 8 ≤ e.high))

/-- The position `q` lies inside a match reported by one of the calls `cs`:
after the position `pos` of the call and before `pos + len + 3`, where the
parse resumes. -/
def Covered (cs : List FindCall) (q : Nat) : Prop :=
  ∃ c ∈ cs, c.idx ≠ -1 ∧ c.pos < q ∧ q < c.pos + (c.len.toNat + 3)

/-- The chunk loop of `rolzCodec1.Forward`, as `rolzCodec1.chunkLoop`,
recording for every chunk its start in `src` and the calls of `findMatch` of
its parse; the positions of the calls are relative to the chunk. -/
def rolzCodec1.chunkCalls (E : EntropyStage) (src : List Nat) (srcEnd : Int) :
    Nat → Fwd1State → Option (List (Nat × List FindCall))
  | 0, _ => some []
  | fuel + 1, s =>
    if (s.startChunk : Int) < srcEnd then do
      let t : rolzCodec1 := { s.tabs with matches_ := s.tabs.matches_.fill 0 }
      let over : Bool := ((s.startChunk + s.sizeChunk : Nat) : Int) ≥ srcEnd
      let endChunk : Nat := if over then srcEnd.toNat else s.startChunk + s.sizeChunk
      let sizeChunk : Nat := if over then endChunk - s.startChunk else s.sizeChunk
      let buf ← (Slice.ofList src).sub s.startChunk endChunk
      let n := if ((s.startChunk + 1 : Nat) : Int) < srcEnd then 2 else 1
      let cs ← rolzCodec1.parseCalls buf sizeChunk sizeChunk t n
      let (t, b, srcIdx) ← rolzCodec1.parseChunk src srcEnd s t endChunk sizeChunk
      let s2 : Fwd1State :=
        { s with tabs := t, litBuf := b.litBuf, lenBuf := b.lenBuf, mIdxBuf := b.mIdxBuf
                 sizeChunk := sizeChunk, srcIdx := srcIdx }
      match E.encodeChunk b with
      | none => some [(s.startChunk, cs)]
      | some os =>
        if s.dstIdx + os.length > s.dst.length then some [(s.startChunk, cs)]
        else do
          let rest ← chunkCalls E src srcEnd fuel
            { s2 with dst := goCopy s.dst s.dstIdx os, dstIdx := s.dstIdx + os.length
                      startChunk := endChunk }
          pure ((s.startChunk, cs) :: rest)
    else some []
/-! # Theorems -/

/-! ## Sequencing and buffers -/

theorem andThen_eq_bind {α β : Type} (x : Option α) (f : α → Option β) :
    andThen x f = Option.bind x f := by
  cases x <;> rfl

theorem andThen_eq_some {α β : Type} {x : Option α} {f : α → Option β} {b : β} :
    andThen x f = some b ↔ ∃ a, x = some a ∧ f a = some b := by
  cases x <;> simp [andThen]

theorem bind_eq_some_iff {α β : Type} {x : Option α} {f : α → Option β} {b : β} :
    (x >>= f) = some b ↔ ∃ a, x = some a ∧ f a = some b :=
  andThen_eq_some

theorem pure_eq_some {α : Type} (a : α) : (pure a : Option α) = some a := rfl

theorem chk_eq_some {c : Prop} [Decidable c] {u : Unit} : chk c = some u ↔ c := by
  unfold chk; split <;> simp_all

theorem wr_eq_some {buf buf2 : List Nat} {i v : Nat} :
    wr buf i v = some buf2 ↔ i < buf.length ∧ buf2 = buf.set i v := by
  unfold wr; split <;> simp_all [eq_comm]

theorem rd_wr {buf buf2 : List Nat} {i v : Nat} (h : wr buf i v = some buf2) (j : Nat) :
    rd buf2 j = if j = i then some v else rd buf j := by
  unfold wr at h
  split at h
  · cases h
    simp only [rd, List.getElem?_set]
    split
    · subst_vars; simp [*]
    · rename_i hne; simp [Ne.symm hne]
  · cases h

theorem wr_length {buf buf2 : List Nat} {i v : Nat} (h : wr buf i v = some buf2) :
    buf2.length = buf.length := by
  obtain ⟨_, rfl⟩ := wr_eq_some.1 h
  simp

/-! ## Length codec -/

theorem byte_or80 (y : Nat) : (0x80 ||| (y % 128)) % 256 = 128 + y % 128 := by
  have h2 : y % 128 < 2 ^ 7 := Nat.mod_lt _ (by norm_num)
  have h3 := Nat.mul_add_lt_is_or h2 1
  simp only [Nat.reducePow, Nat.mul_one] at h3
  rw [← h3]; omega

theorem and7F (y : Nat) : y &&& 0x7F = y % 128 := Nat.and_pow_two_sub_one_eq_mod y 7

theorem and07 (y : Nat) : y &&& 0x07 = y % 8 := Nat.and_pow_two_sub_one_eq_mod y 3

theorem and80 (y : Nat) (h : y < 256) : (y &&& 0x80 ≠ 0) ↔ 128 ≤ y := by
  have : ∀ x : Fin 256, (x.val &&& 0x80 ≠ 0) ↔ 128 ≤ x.val := by decide!
  exact this ⟨y, h⟩

theorem shl7_or (a b : Nat) (h : b < 128) : (a <<< 7) ||| b = a * 128 + b := by
  have h3 := Nat.mul_add_lt_is_or (i := 7) (b := b) (by simpa using h) a
  rw [Nat.shiftLeft_eq]; simp only [Nat.reducePow] at h3 ⊢
  rw [Nat.mul_comm a 128, ← h3]

theorem shl3_or (a b : Nat) (h : b < 8) : (a <<< 3) ||| b = a * 8 + b := by
  have h3 := Nat.mul_add_lt_is_or (i := 3) (b := b) (by simpa using h) a
  rw [Nat.shiftLeft_eq]; simp only [Nat.reducePow] at h3 ⊢
  rw [Nat.mul_comm a 8, ← h3]

theorem F8_or (b : Nat) (h : b < 8) : 0xF8 ||| b = 248 + b := by
  have h3 := Nat.mul_add_lt_is_or (i := 3) (b := b) (by simpa using h) 31
  simp only [Nat.reducePow, Nat.reduceMul] at h3
  omega

theorem tag_and7F (y : Nat) : (128 + y % 128) &&& 0x7F = y % 128 := by
  rw [and7F]; omega

theorem tag_and80 (y : Nat) : (128 + y % 128) &&& 0x80 ≠ 0 :=
  (and80 _ (by omega)).2 (by omega)

theorem low_and80 (y : Nat) : (y % 128) &&& 0x80 = 0 := by
  by_contra h
  have := (and80 (y % 128) (by omega)).1 h
  omega

theorem mode_or (L m : Nat) (hl : L < 31) (hm : m < 8) :
    ((L <<< 3) % 256) ||| m = L * 8 + m := by
  have h1 : L <<< 3 = L * 8 := by rw [Nat.shiftLeft_eq]
  have h2 : (L <<< 3) % 256 = L <<< 3 := by rw [h1]; omega
  rw [h2, shl3_or _ _ hm]

theorem readLitLenExcess_emit (b b2 : List Nat) (idx x k : Nat) (hx : x < 2 ^ 28)
    (h : emitLitLenExcess b idx x = some (b2, k)) :
    readLitLenExcess b2 idx = some (x, k) ∧ ∀ j, j < idx → rd b2 j = rd b j := by
  unfold emitLitLenExcess at h
  simp only [Nat.reduceShiftLeft, ge_iff_le, and7F, byte_or80, Nat.shiftRight_eq_div_pow,
    Nat.reducePow] at h
  have hm : x % 128 % 256 = x % 128 := by omega
  rw [hm] at h
  have e1 : ∀ a c : Nat, c < 128 → (a <<< 7) ||| c = a * 128 + c := shl7_or
  have d1 : idx ≠ idx + 1 := by omega
  have d2 : idx ≠ idx + 1 + 1 := by omega
  have d3 : idx ≠ idx + 1 + 1 + 1 := by omega
  have d4 : idx + 1 ≠ idx + 1 + 1 + 1 := by omega
  by_cases h7 : 128 ≤ x
  · by_cases h14 : 16384 ≤ x
    · by_cases h21 : 2097152 ≤ x
      · simp only [h7, h14, h21, if_true, bind_eq_some_iff, pure_eq_some, Option.some.injEq,
          Prod.mk.injEq, Prod.exists, exists_eq_right_right, exists_and_left] at h
        obtain ⟨a1, hw1, _, _, ⟨rfl, rfl⟩, a2, hw2, _, _, ⟨rfl, rfl⟩, a3, hw3, _, _, ⟨rfl, rfl⟩,
          a4, hw4, rfl, rfl⟩ := h
        constructor
        · unfold readLitLenExcess
          simp only [rd_wr hw4, rd_wr hw3, rd_wr hw2, rd_wr hw1, bind, andThen, pure]
          simp [tag_and7F, tag_and80, low_and80, and7F, e1, Nat.mod_lt, d1, d2, d3, d4]
          omega
        · intro j hj
          simp only [rd_wr hw4, rd_wr hw3, rd_wr hw2, rd_wr hw1]
          simp [show j ≠ idx + 1 + 1 + 1 by omega, show j ≠ idx + 1 + 1 by omega,
            show j ≠ idx + 1 by omega, show j ≠ idx by omega]
      · simp only [h7, h14, h21, if_true, if_false, bind_eq_some_iff, pure_eq_some,
          Option.some.injEq, Prod.mk.injEq, Prod.exists, exists_eq_right_right,
          exists_and_left] at h
        obtain ⟨_, _, ⟨rfl, rfl⟩, a2, hw2, _, _, ⟨rfl, rfl⟩, a3, hw3, _, _, ⟨rfl, rfl⟩,
          a4, hw4, rfl, rfl⟩ := h
        constructor
        · unfold readLitLenExcess
          simp only [rd_wr hw4, rd_wr hw3, rd_wr hw2, bind, andThen, pure]
          simp [tag_and7F, tag_and80, low_and80, and7F, e1, Nat.mod_lt, d1, d2, d3, d4]
          omega
        · intro j hj
          simp only [rd_wr hw4, rd_wr hw3, rd_wr hw2]
          simp [show j ≠ idx + 1 + 1 by omega,
            show j ≠ idx + 1 by omega, show j ≠ idx by omega]
    · simp only [h7, h14, if_true, if_false, bind_eq_some_iff, pure_eq_some,
          Option.some.injEq, Prod.mk.injEq, Prod.exists, exists_eq_right_right,
          exists_and_left] at h
      obtain ⟨_, _, ⟨rfl, rfl⟩, a3, hw3, _, _, ⟨rfl, rfl⟩, a4, hw4, rfl, rfl⟩ := h
      constructor
      · unfold readLitLenExcess
        simp only [rd_wr hw4, rd_wr hw3, bind, andThen, pure]
        simp [tag_and7F, tag_and80, low_and80, and7F, e1, Nat.mod_lt, d1, d2, d3, d4]
        omega
      · intro j hj
        simp only [rd_wr hw4, rd_wr hw3]
        simp [show j ≠ idx + 1 by omega, show j ≠ idx by omega]
  · simp only [h7, if_false, bind_eq_some_iff, pure_eq_some, Option.some.injEq,
          Prod.mk.injEq, Prod.exists, exists_eq_right_right, exists_and_left] at h
    obtain ⟨_, _, ⟨rfl, rfl⟩, a4, hw4, rfl, rfl⟩ := h
    constructor
    · unfold readLitLenExcess
      simp only [rd_wr hw4, bind, andThen, pure]
      simp [tag_and7F, tag_and80, low_and80, and7F, e1, Nat.mod_lt, d1, d2, d3, d4]
      omega
    · intro j hj
      simp only [rd_wr hw4]
      simp [show j ≠ idx by omega]

theorem readLengths_of_emit (buf buf2 : List Nat) (L M k : Nat) (hL : L < 2 ^ 28)
    (hM : M ≤ 262) (h : emitLengths buf L M = some (buf2, k)) :
    readLengths buf2 = some (L, M, k) := by
  unfold emitLengths at h
  have m1 : (M - 7) % 256 = M - 7 := by omega
  have d01 : (0 : Nat) ≠ 1 := by omega
  by_cases hm : 7 ≤ M
  · by_cases hl : L < 31
    · simp only [hm, hl, if_true, ge_iff_le, mode_or L 7 hl (by norm_num), m1,
        bind_eq_some_iff, pure_eq_some,
        Option.some.injEq, Prod.mk.injEq, Prod.exists, exists_eq_right_right, exists_and_left,
        show ¬ (31 ≤ L) by omega, if_false] at h
      obtain ⟨a1, hw1, a2, hw2, _, ⟨rfl, rfl⟩, rfl⟩ := h
      unfold readLengths
      simp only [rd_wr hw2, rd_wr hw1, bind, andThen, pure, and07,
        Nat.shiftRight_eq_div_pow]
      simp [d01, show (L * 8 + 7) % 8 = 7 by omega, show L * 8 + 7 < 248 by omega]
      omega
    · simp only [hm, hl, if_true, if_false, ge_iff_le, F8_or 7 (by norm_num), m1,
        bind_eq_some_iff, pure_eq_some,
        Option.some.injEq, Prod.mk.injEq, Prod.exists, exists_eq_right_right, exists_and_left,
        show (31 ≤ L) by omega] at h
      obtain ⟨a1, hw1, a2, hw2, _, _, ⟨rfl, rfl⟩, hx⟩ := h
      obtain ⟨hr, hk⟩ := readLitLenExcess_emit _ _ _ _ _ (by omega) hx
      unfold readLengths
      simp only [hk 0 (by omega), hk 1 (by omega), rd_wr hw2, rd_wr hw1, bind, andThen,
        pure, and07, Nat.shiftRight_eq_div_pow]
      simp [d01, hr]
      omega
  · by_cases hl : L < 31
    · simp only [hm, hl, if_true, if_false, ge_iff_le, show M % 256 = M by omega,
        mode_or L M hl (by omega), bind_eq_some_iff, pure_eq_some,
        Option.some.injEq, Prod.mk.injEq, Prod.exists, exists_eq_right_right, exists_and_left,
        show ¬ (31 ≤ L) by omega] at h
      obtain ⟨a1, hw1, _, ⟨rfl, rfl⟩, rfl⟩ := h
      unfold readLengths
      simp only [rd_wr hw1, bind, andThen, pure, and07,
        Nat.shiftRight_eq_div_pow]
      simp [show (L * 8 + M) % 8 = M by omega, show L * 8 + M < 248 by omega,
        show M ≠ 7 by omega]
      omega
    · simp only [hm, hl, if_true, if_false, ge_iff_le, show M % 256 = M by omega,
        F8_or M (by omega), bind_eq_some_iff, pure_eq_some,
        Option.some.injEq, Prod.mk.injEq, Prod.exists, exists_eq_right_right, exists_and_left,
        show (31 ≤ L) by omega] at h
      obtain ⟨a1, hw1, _, _, ⟨rfl, rfl⟩, hx⟩ := h
      obtain ⟨hr, hk⟩ := readLitLenExcess_emit _ _ _ _ _ (by omega) hx
      unfold readLengths
      simp only [hk 0 (by omega), rd_wr hw1, bind, andThen,
        pure, and07, Nat.shiftRight_eq_div_pow]
      simp [hr, show (248 + M) % 8 = M by omega, show M ≠ 7 by omega]
      omega

/-- C4. Length codec bijection: when `emitLengths` writes the pair
`(litLen, mLen)` with `litLen < 2^28` and `mLen ≤ 262` in `k` bytes, then
`readLengths` on the written buffer returns `(litLen, mLen, k)`. -/
theorem readLengths_emitLengths (buf buf2 : List Nat) (L M k : Nat) (hL : L < 2 ^ 28)
    (hM : M ≤ 262) (h : emitLengths buf L M = some (buf2, k)) :
    readLengths buf2 = some (L, M, k) :=
  readLengths_of_emit buf buf2 L M k hL hM h

/-- Witness of C4 at `litLen = 158`, `mLen = 9`: three bytes
`[0xFF, 0x02, 0x7F]` are written and read back. -/
theorem readLengths_emitLengths_witness :
    readLengths [0xFF, 0x02, 0x7F, 0] = some (158, 9, 3) :=
  readLengths_emitLengths [0, 0, 0, 0] [0xFF, 0x02, 0x7F, 0] 158 9 3 (by norm_num)
    (by norm_num) (by decide)

/-- C5. Length codec vectors: `(0, 0)` is the one byte `0x00`, `(30, 7)` is
`[0xF7, 0x00]`, `(31, 0)` is `[0xF8, 0x00]` and `(158, 0)` is `[0xF8, 0x7F]`;
each call writes these bytes at the front of the buffer, reports their number
and leaves the rest of the buffer as it was. -/
theorem emitLengths_vectors (a b : Nat) (rest : List Nat) :
    emitLengths (a :: rest) 0 0 = some (0x00 :: rest, 1) ∧
    emitLengths (a :: b :: rest) 30 7 = some (0xF7 :: 0x00 :: rest, 2) ∧
    emitLengths (a :: b :: rest) 31 0 = some (0xF8 :: 0x00 :: rest, 2) ∧
    emitLengths (a :: b :: rest) 158 0 = some (0xF8 :: 0x7F :: rest, 2) := by
  refine ⟨?_, ?_, ?_, ?_⟩ <;>
    simp [emitLengths, emitLitLenExcess, wr, bind, andThen, pure]

/-! ## The wrapper `ROLZCodec` and construction -/

/-- C6. Empty input is the identity: with an empty `src`, `ROLZCodec.Forward`
and `ROLZCodec.Inverse` return `(0, 0, nil)` and leave `dst` and the codec as
they were, for every destination and every delegate (so for both backends). -/
theorem ROLZCodec_empty_src {σ : Type} (this : ROLZCodec σ) (dst : List Nat) (same : Bool) :
    this.Forward [] dst same =
        some { this := this.state, dst := dst, srcIdx := 0, dstIdx := 0, err := none } ∧
    this.Inverse [] dst same =
        some { this := this.state, dst := dst, srcIdx := 0, dstIdx := 0, err := none } := by
  constructor <;> simp [ROLZCodec.Forward, ROLZCodec.Inverse]

theorem i32_two_pow (k : Nat) (hk : k ≤ 8) : i32 ((1 <<< k : Nat) : Int) = 2 ^ k := by
  interval_cases k <;> decide

theorem i32_two_pow_pred (k : Nat) (hk : k ≤ 8) : i32 ((2 : Int) ^ k - 1) = 2 ^ k - 1 := by
  interval_cases k <;> decide

theorem alloc_fields (k : Nat) (hk : k ≤ 8) :
    (rolzCodec1.alloc k).posChecks = 2 ^ k ∧ (rolzCodec1.alloc k).maskChecks = 2 ^ k - 1 ∧
    (rolzCodec1.alloc k).logPosChecks = k ∧
    (rolzCodec1.alloc k).counters.len = 65536 ∧
    (rolzCodec1.alloc k).matches_.len = 65536 * 2 ^ k ∧
    (∀ i, (rolzCodec1.alloc k).counters.cell i = 0) ∧
    (∀ i, (rolzCodec1.alloc k).matches_.cell i = 0) := by
  refine ⟨?_, ?_, rfl, ?_, ?_, ?_, ?_⟩
  · simp only [rolzCodec1.alloc, i32_two_pow k hk]
  · simp only [rolzCodec1.alloc, i32_two_pow k hk, i32_two_pow_pred k hk]
  · simp [rolzCodec1.alloc, Arr.make]
  · simp [rolzCodec1.alloc, Arr.make, ROLZ_HASH_SIZE, Nat.shiftLeft_eq]
  · intro i; rfl
  · intro i; rfl

/-- C11. Construction validation: `newROLZCodec1 k` and `newROLZCodec2 k`
return an error exactly when `k < 2` or `k > 8`; otherwise they return a
codec with `posChecks = 2^k`, `maskChecks = 2^k - 1`, 65536 counters and
`65536 * 2^k` match slots, all zero. -/
theorem newROLZCodec_validation (k : Nat) :
    ((∃ e, newROLZCodec1 k = .error e) ↔ (k < 2 ∨ k > 8)) ∧
    ((∃ e, newROLZCodec2 k = .error e) ↔ (k < 2 ∨ k > 8)) ∧
    (∀ c, newROLZCodec1 k = .ok c →
      c.posChecks = 2 ^ k ∧ c.maskChecks = 2 ^ k - 1 ∧ c.counters.len = 65536 ∧
      c.matches_.len = 65536 * 2 ^ k ∧ (∀ i, c.counters.cell i = 0) ∧
      (∀ i, c.matches_.cell i = 0)) ∧
    (∀ c, newROLZCodec2 k = .ok c →
      c.tabs.posChecks = 2 ^ k ∧ c.tabs.maskChecks = 2 ^ k - 1 ∧ c.tabs.counters.len = 65536 ∧
      c.tabs.matches_.len = 65536 * 2 ^ k ∧ (∀ i, c.tabs.counters.cell i = 0) ∧
      (∀ i, c.tabs.matches_.cell i = 0)) := by
  by_cases h : k < 2 ∨ k > 8
  · simp [newROLZCodec1, newROLZCodec2, h]
  · have hk : k ≤ 8 := by omega
    obtain ⟨h1, h2, _, h4, h5, h6, h7⟩ := alloc_fields k hk
    simp only [newROLZCodec1, newROLZCodec2, h, if_false, Except.ok.injEq, exists_false,
      false_iff, not_false_eq_true, true_and, reduceCtorEq]
    constructor
    · rintro c rfl; exact ⟨h1, h2, h4, h5, h6, h7⟩
    · rintro c rfl; exact ⟨h1, h2, h4, h5, h6, h7⟩

/-- Witness of C11 at `k = 4`, the default of backend 1. -/
theorem newROLZCodec_validation_witness :
    (rolzCodec1.alloc 4).posChecks = 16 ∧ (rolzCodec1.alloc 4).maskChecks = 15 ∧
    (rolzCodec1.alloc 4).counters.len = 65536 ∧
    (rolzCodec1.alloc 4).matches_.len = 1048576 := by
  obtain ⟨h1, h2, h3, h4, _, _⟩ :=
    (newROLZCodec_validation 4).2.2.1 (rolzCodec1.alloc 4) rfl
  exact ⟨by simpa using h1, by simpa using h2, h3, by simpa using h4⟩

/-- C12. Output buffer too small: when `len(dst) < MaxEncodedLen(len(src))`,
`Forward` of either backend returns `(0, 0, error)` and hands back `dst` and
the codec (counters and match table included) exactly as it received them. -/
theorem Forward_output_too_small (E : EntropyStage) (c1 : rolzCodec1) (c2 : rolzCodec2)
    (src dst1 dst2 : List Nat)
    (h1 : dst1.length < rolzCodec1.MaxEncodedLen src.length)
    (h2 : dst2.length < rolzCodec2.MaxEncodedLen src.length) :
    rolzCodec1.Forward E c1 src dst1 =
      some { this := c1, dst := dst1, srcIdx := 0, dstIdx := 0, err := some .outputTooSmall } ∧
    rolzCodec2.Forward c2 src dst2 =
      some { this := c2, dst := dst2, srcIdx := 0, dstIdx := 0, err := some .outputTooSmall } := by
  constructor
  · simp [rolzCodec1.Forward, h1]
  · simp [rolzCodec2.Forward, h2]

/-- Witness of C12: a five-byte block and destinations of 36 bytes, one short
of `MaxEncodedLen(5) = 37`. -/
theorem Forward_output_too_small_witness :
    (rolzCodec1.Forward plainStage (rolzCodec1.alloc 4) [1, 2, 3, 4, 5]
        (List.replicate 36 0)).map CallResult.view =
      some (List.replicate 36 0, 0, 0, some .outputTooSmall) ∧
    (rolzCodec2.Forward (rolzCodec2.alloc 5) [1, 2, 3, 4, 5]
        (List.replicate 36 0)).map CallResult.view =
      some (List.replicate 36 0, 0, 0, some .outputTooSmall) := by
  have h := Forward_output_too_small plainStage (rolzCodec1.alloc 4) (rolzCodec2.alloc 5)
    [1, 2, 3, 4, 5] (List.replicate 36 0) (List.replicate 36 0) (by decide) (by decide)
  rw [h.1, h.2]
  exact ⟨rfl, rfl⟩

/-! ## Inputs shorter than five bytes -/

/-- C7. Single-byte input `(0x41)`: with a destination of at least
`MaxEncodedLen(1)` bytes, `Forward` of either backend does not return: no
chunk is coded (`srcEnd = -3`), and the code after the chunk loop indexes
`src` at a negative position, which is a run-time panic. -/
theorem single_byte_forward_panics (E : EntropyStage) (c1 : rolzCodec1) (c2 : rolzCodec2)
    (dst : List Nat) (h1 : rolzCodec1.MaxEncodedLen 1 ≤ dst.length)
    (h2 : rolzCodec2.MaxEncodedLen 1 ≤ dst.length) :
    rolzCodec1.Forward E c1 [0x41] dst = none ∧ rolzCodec2.Forward c2 [0x41] dst = none := by
  constructor
  · unfold rolzCodec1.Forward
    simp only [List.length_singleton, Nat.not_lt.2 h1, if_false]
    cases putUint32BE dst 0 (1 % 2 ^ 32) <;>
      simp [bind, rolzCodec1.chunkLoop, copyTail, rdI, chk, pure, andThen, ROLZ_CHUNK_SIZE]
  · unfold rolzCodec2.Forward
    simp only [List.length_singleton, Nat.not_lt.2 h2, if_false]
    cases putUint32BE dst 0 (1 % 2 ^ 32) <;>
      simp [bind, rolzCodec2.chunkLoop, rolzCodec2.tailLoop, newRolzEncoder,
        rolzEncoder.setContext, rdI, chk, pure, andThen, ROLZ_CHUNK_SIZE, ROLZ_LITERAL_FLAG]

/-- Witness of C7 through the wrapper `ROLZCodec.Forward`, with the default
codecs and a destination of `MaxEncodedLen(1) = 33` bytes. -/
theorem single_byte_forward_panics_witness :
    (ROLZCodec.Forward ⟨rolzCodec1.asByteFunction plainStage, rolzCodec1.alloc 4⟩ [0x41]
        (List.replicate 33 0) false).isNone = true ∧
    (ROLZCodec.Forward ⟨rolzCodec2.asByteFunction, rolzCodec2.alloc 5⟩ [0x41]
        (List.replicate 33 0) false).isNone = true := by
  have h := single_byte_forward_panics plainStage (rolzCodec1.alloc 4) (rolzCodec2.alloc 5)
    (List.replicate 33 0) (by decide) (by decide)
  constructor
  · show (rolzCodec1.Forward plainStage (rolzCodec1.alloc 4) [0x41]
      (List.replicate 33 0)).isNone = true
    rw [h.1]; rfl
  · show (rolzCodec2.Forward (rolzCodec2.alloc 5) [0x41] (List.replicate 33 0)).isNone = true
    rw [h.2]; rfl

/-! ## Backend 2 on a five-byte block -/

/-- C1, at the block `ABCDE`. `Forward` succeeds with 16 output bytes, and
`Inverse` on these bytes returns without error and reports 5 bytes, but the
bytes it produced are `(65, 64, 67, 38, 1)`: the encoder coded the second byte
among the trailing literals, with the first byte as context, while the decoder
reads it as the second literal of the chunk, with context 0. -/
theorem rolzCodec2_roundtrip_fails_at_five_bytes :
    ((rolzCodec2.alloc 5).Forward [65, 66, 67, 68, 69] (List.replicate 37 0)).map
        (fun r => (r.dst.take r.dstIdx, r.srcIdx, r.dstIdx, r.err)) =
      some ([0, 0, 0, 5, 0, 223, 111, 119, 155, 189, 207, 219, 229, 191, 255, 240], 5, 16, none) ∧
    ((rolzCodec2.alloc 5).Inverse
        [0, 0, 0, 5, 0, 223, 111, 119, 155, 189, 207, 219, 229, 191, 255, 240]
        (List.replicate 5 0)).map CallResult.view =
      some ([65, 64, 67, 38, 1], 16, 5, none) := by
  constructor <;> decide!

/-! ## The ROLZ-local predictor -/

theorem i32_of_range (x : Int) (h0 : -2147483648 ≤ x) (h1 : x < 2147483648) : i32 x = x := by
  unfold i32; omega

theorem update_cell_range (p : Int) (b : Nat) (hb : b ≤ 1) (h0 : 0 < p) (h1 : p < 65536) :
    0 < i32 (p - i32 ((i32 (p - and32 (-(b : Int)) 0xFFFF) >>> (5 : Nat)) + (b : Int))) ∧
    i32 (p - i32 ((i32 (p - and32 (-(b : Int)) 0xFFFF) >>> (5 : Nat)) + (b : Int))) < 65536 := by
  have hb2 : b = 0 ∨ b = 1 := by omega
  rcases hb2 with rfl | rfl
  · have e : and32 (-((0 : Nat) : Int)) 0xFFFF = 0 := by decide
    rw [e, i32_of_range (p - 0) (by omega) (by omega), Int.shiftRight_eq_div_pow]
    have hq : (p - 0) / ((2 ^ 5 : Nat) : Int) = p / 32 := by norm_num
    rw [hq]
    have h2 : 0 ≤ p / 32 ∧ p / 32 ≤ 2047 := by omega
    rw [i32_of_range (p / 32 + ((0 : Nat) : Int)) (by omega) (by omega),
      i32_of_range _ (by omega) (by omega)]
    omega
  · have e : and32 (-((1 : Nat) : Int)) 0xFFFF = 65535 := by decide
    rw [e, i32_of_range (p - 65535) (by omega) (by omega), Int.shiftRight_eq_div_pow]
    have hq : (p - 65535) / ((2 ^ 5 : Nat) : Int) = (p - 65535) / 32 := by norm_num
    rw [hq]
    have h2 : -2048 ≤ (p - 65535) / 32 ∧ (p - 65535) / 32 ≤ 0 := by omega
    rw [i32_of_range ((p - 65535) / 32 + ((1 : Nat) : Int)) (by omega) (by omega),
      i32_of_range _ (by omega) (by omega)]
    omega

theorem CellsOk_reset (p : rolzPredictor) : (p.reset).CellsOk := by
  intro i
  show (0 : Int) < ((1 <<< 15 : Nat) : Int) ∧ ((1 <<< 15 : Nat) : Int) < 65536
  exact ⟨by decide, by decide⟩

theorem CellsOk_setContext (p : rolzPredictor) (ctx : Nat) (h : p.CellsOk) :
    (p.setContext ctx).CellsOk := by
  intro i
  exact h i

theorem CellsOk_Update (p : rolzPredictor) (bit : Nat) (hb : bit ≤ 1) (h : p.CellsOk) :
    (p.Update bit).CellsOk := by
  intro i
  simp only [rolzPredictor.Update]
  split
  · exact update_cell_range _ bit hb (h _).1 (h _).2
  · exact h i

theorem rolzPredictor_run_cons (p : rolzPredictor) (op : PredOp) (ops : List PredOp) :
    p.run (op :: ops) = (p.step op).run ops := by
  simp only [rolzPredictor.run, List.foldl_cons]

theorem CellsOk_run (ops : List PredOp) (p : rolzPredictor) (h : p.CellsOk)
    (hb : ∀ b, PredOp.update b ∈ ops → b ≤ 1) : (p.run ops).CellsOk := by
  induction ops generalizing p with
  | nil => exact h
  | cons op ops ih =>
    have hrest : ∀ b, PredOp.update b ∈ ops → b ≤ 1 :=
      fun b hm => hb b (List.mem_cons_of_mem _ hm)
    cases op with
    | setContext ctx =>
      rw [rolzPredictor_run_cons]
      exact ih (p.setContext ctx) (CellsOk_setContext p ctx h) hrest
    | update bit =>
      rw [rolzPredictor_run_cons]
      exact ih (p.Update bit) (CellsOk_Update p bit (hb bit (List.mem_cons_self _ _)) h) hrest

theorem Get_range_of_CellsOk (p : rolzPredictor) (h : p.CellsOk) :
    0 ≤ p.Get ∧ p.Get ≤ 4095 := by
  have := h (p.ctx + p.c1).toNat
  simp only [rolzPredictor.Get, Int.shiftRight_eq_div_pow]
  omega

/-- C17. Predictor range: after any sequence of `setContext(byte)` and
`Update(bit)` calls with bits 0 or 1 on a freshly built `rolzPredictor` (any
`logSize`, so in particular 2 to 9), `Get()` lies in `[0..4095]` and every
table cell is strictly between 0 and 65536. -/
theorem rolzPredictor_range (logSize : Nat) (ops : List PredOp)
    (hb : ∀ b, PredOp.update b ∈ ops → b ≤ 1) :
    0 ≤ ((newRolzPredictor logSize).run ops).Get ∧
    ((newRolzPredictor logSize).run ops).Get ≤ 4095 ∧
    ∀ i, 0 < ((newRolzPredictor logSize).run ops).probs.cell i ∧
         ((newRolzPredictor logSize).run ops).probs.cell i < 65536 := by
  have h := CellsOk_run ops (newRolzPredictor logSize) (CellsOk_reset _) hb
  exact ⟨(Get_range_of_CellsOk _ h).1, (Get_range_of_CellsOk _ h).2, h⟩

/-- Witness of C17: `logSize = 9`, context `0x41`, then the bits 1, 1, 0. -/
theorem rolzPredictor_range_witness :
    0 ≤ ((newRolzPredictor 9).run
        [.setContext 0x41, .update 1, .update 1, .update 0]).Get ∧
    ((newRolzPredictor 9).run
        [.setContext 0x41, .update 1, .update 1, .update 0]).Get ≤ 4095 :=
  let h := rolzPredictor_range 9 [.setContext 0x41, .update 1, .update 1, .update 0]
    (by
      intro b hm
      simp only [List.mem_cons, PredOp.update.injEq, reduceCtorEq, List.mem_singleton,
        false_or, List.not_mem_nil, or_false] at hm
      omega)
  ⟨h.1, h.2.1⟩

/-! ## The match finder -/

theorem matchLenLoop_bound (refBuf curBuf : Slice) (maxMatch : Nat) :
    ∀ (fuel n n2 : Nat), matchLenLoop refBuf curBuf maxMatch fuel n = some n2 →
      n ≤ n2 ∧ (n2 ≤ maxMatch ∨ n2 = n) := by
  intro fuel
  induction fuel with
  | zero =>
    intro n n2 h
    simp only [matchLenLoop, Option.some.injEq] at h
    subst h; exact ⟨le_refl _, Or.inr rfl⟩
  | succ fuel ih =>
    intro n n2 h
    rw [matchLenLoop] at h
    split at h
    · rename_i hlt
      simp only [bind_eq_some_iff] at h
      obtain ⟨r, _, c, _, h⟩ := h
      split at h
      · obtain ⟨h1, h2⟩ := ih _ _ h
        refine ⟨by omega, ?_⟩
        rcases h2 with h2 | h2
        · exact Or.inl h2
        · left; omega
      · simp only [Option.some.injEq] at h
        subst h; exact ⟨le_refl _, Or.inr rfl⟩
    · simp only [Option.some.injEq] at h
      subst h; exact ⟨le_refl _, Or.inr rfl⟩

theorem findLoop_bestLen (this : rolzCodec1) (buf curBuf : Slice) (lo width hash32 : Nat)
    (counter : Int) (maxMatch : Nat) :
    ∀ (fuel : Nat) (i : Int) (bestLen : Nat) (bestIdx : Int) (r : Nat × Int),
      this.findLoop buf curBuf lo width hash32 counter maxMatch fuel i bestLen bestIdx = some r →
      (bestLen = 2 ∨ (3 ≤ bestLen ∧ bestLen ≤ maxMatch)) →
      (r.1 = 2 ∨ (3 ≤ r.1 ∧ r.1 ≤ maxMatch)) := by
  intro fuel
  induction fuel with
  | zero =>
    intro i bestLen bestIdx r h hinv
    simp only [rolzCodec1.findLoop, Option.some.injEq] at h
    subst h; exact hinv
  | succ fuel ih =>
    intro i bestLen bestIdx r h hinv
    rw [rolzCodec1.findLoop] at h
    split at h
    · simp only [bind_eq_some_iff] at h
      obtain ⟨_, _, ref, _, h⟩ := h
      split at h
      · simp only [Option.some.injEq] at h
        subst h; exact hinv
      · split at h
        · exact ih _ _ _ _ h hinv
        · simp only [bind_eq_some_iff] at h
          obtain ⟨refBuf, _, r0, _, c0, _, h⟩ := h
          split at h
          · exact ih _ _ _ _ h hinv
          · simp only [bind_eq_some_iff] at h
            obtain ⟨n, hn, h⟩ := h
            have hb := matchLenLoop_bound _ _ _ _ _ _ hn
            split at h
            · rename_i hgt
              have hn3 : 3 ≤ n ∧ n ≤ maxMatch := by
                rcases hinv with hinv | hinv <;> omega
              split at h
              · simp only [Option.some.injEq] at h
                subst h; exact Or.inr hn3
              · exact ih _ _ _ _ h (Or.inr hn3)
            · exact ih _ _ _ _ h hinv
    · simp only [Option.some.injEq] at h
      subst h; exact hinv

theorem findMatch_length_bound1 (c : rolzCodec1) (buf : Slice) (pos : Nat)
    (r : rolzCodec1 × Int × Int) (h : c.findMatch buf pos = some r) (hm : r.2.1 ≠ -1) :
    0 ≤ r.2.2 ∧ r.2.2 ≤ 255 ∧ 3 ≤ r.2.2 + 3 ∧
    r.2.2 + 3 ≤ ((min 258 (buf.len - pos) : Nat) : Int) := by
  unfold rolzCodec1.findMatch at h
  simp only [bind_eq_some_iff] at h
  obtain ⟨_, _, keyBuf, _, key, _, h⟩ := h
  split at h
  · simp only [pure_eq_some, Option.some.injEq] at h
    subst h; exact absurd rfl hm
  · simp only [bind_eq_some_iff] at h
    obtain ⟨_, _, hashBuf, _, hash32, _, counter, _, curBuf, _, ⟨bestLen, bestIdx⟩, hfl,
      counters, _, _, _, ms, _, h⟩ := h
    have hb := findLoop_bestLen _ _ _ _ _ _ _ _ _ _ _ _ _ hfl (Or.inl rfl)
    simp only at hb h
    split at h
    · simp only [pure_eq_some, Option.some.injEq] at h
      subst h; exact absurd rfl hm
    · rename_i hge
      simp only [pure_eq_some, Option.some.injEq] at h
      subst h
      simp only [ROLZ_MIN_MATCH, ROLZ_MAX_MATCH] at hb hge ⊢
      have h3 : 3 ≤ bestLen ∧ bestLen ≤ min 258 (buf.len - pos) := by
        rcases hb with hb | hb
        · omega
        · refine ⟨hb.1, ?_⟩
          have := hb.2
          split at this <;> omega
      omega

/-- C9. Match bound: whenever `findMatch` of either backend reports a match
(index other than -1), the returned length code `n` satisfies `0 ≤ n ≤ 255`
and the true length `n + 3` satisfies `3 ≤ n + 3 ≤ min(258, len(buf) - pos)`,
for every buffer, position and state of the match table. -/
theorem findMatch_length_bound :
    (∀ (c : rolzCodec1) (buf : Slice) (pos : Nat) (r : rolzCodec1 × Int × Int),
      c.findMatch buf pos = some r → r.2.1 ≠ -1 →
      0 ≤ r.2.2 ∧ r.2.2 ≤ 255 ∧ 3 ≤ r.2.2 + 3 ∧
      r.2.2 + 3 ≤ ((min 258 (buf.len - pos) : Nat) : Int)) ∧
    (∀ (c : rolzCodec2) (buf : Slice) (pos : Nat) (r : rolzCodec2 × Int × Int),
      c.findMatch buf pos = some r → r.2.1 ≠ -1 →
      0 ≤ r.2.2 ∧ r.2.2 ≤ 255 ∧ 3 ≤ r.2.2 + 3 ∧
      r.2.2 + 3 ≤ ((min 258 (buf.len - pos) : Nat) : Int)) := by
  refine ⟨findMatch_length_bound1, ?_⟩
  intro c buf pos r h hm
  unfold rolzCodec2.findMatch at h
  simp only [bind_eq_some_iff, pure_eq_some, Option.some.injEq] at h
  obtain ⟨⟨t, idx, len⟩, h1, rfl⟩ := h
  exact findMatch_length_bound1 c.tabs buf pos _ h1 hm

/-- Witness of C9: on `buf = (7, 7, 7, 7, 7, 7, 7, 7)` (with four more bytes of
capacity) position 2 is registered, then `findMatch(buf, 3)` reports index 0
and length code 2, a match of `5 = len(buf) - 3` bytes. -/
theorem findMatch_length_bound_witness :
    ∃ (c : rolzCodec1) (r : rolzCodec1 × Int × Int),
      c.findMatch ⟨[7, 7, 7, 7, 7, 7, 7, 7, 7, 7, 7, 7], 8⟩ 3 = some r ∧ r.2.1 = 0 ∧
      r.2.2 = 2 ∧ 3 ≤ r.2.2 + 3 ∧ r.2.2 + 3 ≤ ((min 258 (8 - 3) : Nat) : Int) := by
  have hev : (((rolzCodec1.alloc 4).findMatch ⟨[7, 7, 7, 7, 7, 7, 7, 7, 7, 7, 7, 7], 8⟩ 2).bind
      (fun x => (x.1.findMatch ⟨[7, 7, 7, 7, 7, 7, 7, 7, 7, 7, 7, 7], 8⟩ 3).map
        (fun r => (r.2.1, r.2.2)))) = some (0, 2) := by decide!
  simp only [Option.bind_eq_some, Option.map_eq_some', Prod.mk.injEq] at hev
  obtain ⟨x, _, r, hr, h1, h2⟩ := hev
  have hb := findMatch_length_bound.1 x.1 _ 3 r hr (by rw [h1]; decide)
  exact ⟨x.1, r, hr, h1, h2, hb.2.2.1, hb.2.2.2⟩

theorem Arr_get_eq_some {α : Type} {a : Arr α} {i : Nat} {v : α} :
    a.get i = some v ↔ i < a.len ∧ a.cell i = v := by
  unfold Arr.get; split <;> simp_all

theorem findLoop_bestIdx (this : rolzCodec1) (buf curBuf : Slice) (lo width hash32 : Nat)
    (counter : Int) (maxMatch : Nat) (hp0 : 0 < this.posChecks) (hp1 : this.posChecks ≤ 256)
    (hc0 : 0 ≤ counter) (hc1 : counter < 1073741824) :
    ∀ (fuel : Nat) (i : Int) (bestLen : Nat) (bestIdx : Int) (r : Nat × Int),
      this.findLoop buf curBuf lo width hash32 counter maxMatch fuel i bestLen bestIdx = some r →
      i ≤ counter →
      ((bestIdx = -1 ∧ bestLen = 2) ∨ (3 ≤ bestLen ∧ ∃ i2 ref, counter - this.posChecks < i2 ∧
        i2 ≤ counter ∧ bestIdx = counter - i2 ∧
        this.matches_.get (lo + (and32 i2 this.maskChecks).toNat) = some ref ∧ ref ≠ 0)) →
      ((r.2 = -1 ∧ r.1 = 2) ∨ (3 ≤ r.1 ∧ ∃ i2 ref, counter - this.posChecks < i2 ∧
        i2 ≤ counter ∧ r.2 = counter - i2 ∧
        this.matches_.get (lo + (and32 i2 this.maskChecks).toNat) = some ref ∧ ref ≠ 0)) := by
  intro fuel
  induction fuel with
  | zero =>
    intro i bestLen bestIdx r h _ hinv
    simp only [rolzCodec1.findLoop, Option.some.injEq] at h
    subst h; exact hinv
  | succ fuel ih =>
    intro i bestLen bestIdx r h hi hinv
    rw [rolzCodec1.findLoop] at h
    have hlim : i32 (counter - this.posChecks) = counter - this.posChecks :=
      i32_of_range _ (by omega) (by omega)
    rw [hlim] at h
    split at h
    · rename_i hgt
      have hnext : i32 (i - 1) = i - 1 := i32_of_range _ (by omega) (by omega)
      have hidx : i32 (counter - i) = counter - i := i32_of_range _ (by omega) (by omega)
      rw [hnext, hidx] at h
      simp only [bind_eq_some_iff] at h
      obtain ⟨_, _, ref, href, h⟩ := h
      split at h
      · simp only [Option.some.injEq] at h
        subst h; exact hinv
      · rename_i hne
        split at h
        · exact ih _ _ _ _ h (by omega) hinv
        · simp only [bind_eq_some_iff] at h
          obtain ⟨refBuf, _, r0, _, c0, _, h⟩ := h
          split at h
          · exact ih _ _ _ _ h (by omega) hinv
          · simp only [bind_eq_some_iff] at h
            obtain ⟨n, hn, h⟩ := h
            split at h
            · rename_i hgt2
              have hn3 : 3 ≤ n := by
                rcases hinv with hinv | hinv <;> omega
              have hgood : 3 ≤ n ∧ ∃ i2 ref, counter - this.posChecks < i2 ∧
                  i2 ≤ counter ∧ counter - i = counter - i2 ∧
                  this.matches_.get (lo + (and32 i2 this.maskChecks).toNat) = some ref ∧
                  ref ≠ 0 :=
                ⟨hn3, i, ref, hgt, hi, rfl, href, hne⟩
              split at h
              · simp only [Option.some.injEq] at h
                subst h; exact Or.inr hgood
              · exact ih _ _ _ _ h (by omega) (Or.inr hgood)
            · exact ih _ _ _ _ h (by omega) hinv
    · simp only [Option.some.injEq] at h
      subst h; exact hinv

theorem two_pow_le_256 (k : Nat) (hk : k ≤ 8) : (2 : Int) ^ k ≤ 256 ∧ (0 : Int) < 2 ^ k := by
  interval_cases k <;> decide

/-- C10. Match index range: on a codec shaped by `newROLZCodec1` whose
counters are position counts, whenever `findMatch` reports a match, the
returned index is `counter - i` for a ring position `i` with
`counter - posChecks < i ≤ counter` whose slot `m[i & maskChecks]` is not
empty; so it lies in `[0..posChecks-1]`, fits in `logPosChecks` bits and in
one byte. -/
theorem findMatch_index_range (c : rolzCodec1) (buf : Slice) (pos : Nat)
    (r : rolzCodec1 × Int × Int) (hcfg : c.Configured) (hcnt : c.CountersOk)
    (h : c.findMatch buf pos = some r) (hm : r.2.1 ≠ -1) :
    (∃ (key : Nat) (counter i : Int) (ref : Nat),
      (buf.drop (pos - 2)).bind getKey = some key ∧ c.counters.get key = some counter ∧
      counter - c.posChecks < i ∧ i ≤ counter ∧ r.2.1 = counter - i ∧
      c.matches_.get ((key <<< c.logPosChecks) % 2 ^ 32 + (and32 i c.maskChecks).toNat) =
        some ref ∧ ref ≠ 0) ∧
    0 ≤ r.2.1 ∧ r.2.1 ≤ c.posChecks - 1 ∧ r.2.1 < 2 ^ c.logPosChecks ∧ r.2.1 < 256 := by
  obtain ⟨_, hk8, hpc, _, _, _⟩ := hcfg
  have hp := two_pow_le_256 c.logPosChecks hk8
  unfold rolzCodec1.findMatch at h
  simp only [bind_eq_some_iff] at h
  obtain ⟨_, _, keyBuf, hkb, key, hkey, h⟩ := h
  split at h
  · simp only [pure_eq_some, Option.some.injEq] at h
    subst h; exact absurd rfl hm
  · simp only [bind_eq_some_iff] at h
    obtain ⟨_, _, hashBuf, _, hash32, _, counter, hcounter, curBuf, _, ⟨bestLen, bestIdx⟩, hfl,
      counters, _, _, _, ms, _, h⟩ := h
    have hcr := hcnt key
    have hce := (Arr_get_eq_some.1 hcounter).2
    rw [hce] at hcr
    have hb := findLoop_bestIdx c _ _ _ _ _ counter _ (by omega) (by omega) hcr.1 hcr.2
      _ _ _ _ _ hfl (le_refl _) (Or.inl ⟨rfl, rfl⟩)
    simp only at hb h
    split at h
    · simp only [pure_eq_some, Option.some.injEq] at h
      subst h; exact absurd rfl hm
    · rename_i hge
      simp only [pure_eq_some, Option.some.injEq] at h
      subst h
      simp only [ROLZ_MIN_MATCH] at hge
      rcases hb with hb | ⟨_, i2, ref, h1, h2, h3, h4, h5⟩
      · omega
      · refine ⟨⟨key, counter, i2, ref, ?_, hcounter, h1, h2, h3, h4, h5⟩, ?_⟩
        · simp [hkb, hkey]
        · simp only
          omega

/-- Witness of C10: the codec of `newROLZCodec1(4)` after position 2 of
`buf = (7, 7, 7, 7, 7, 7, 7, 7)` was registered; `findMatch(buf, 3)` reports
the index 0, the newest of the 16 ring slots. -/
theorem findMatch_index_range_witness :
    ∃ (c : rolzCodec1) (r : rolzCodec1 × Int × Int),
      c.findMatch ⟨[7, 7, 7, 7, 7, 7, 7, 7, 7, 7, 7, 7], 8⟩ 3 = some r ∧
      0 ≤ r.2.1 ∧ r.2.1 ≤ c.posChecks - 1 ∧ r.2.1 < 2 ^ c.logPosChecks ∧ r.2.1 < 256 := by
  refine ⟨⟨⟨1048576, fun j => if j = 28785 then 1677721602 else 0⟩,
    ⟨65536, fun j => if j = 1799 then 1 else 0⟩, 4, 15, 16⟩, ?_⟩
  have hev : ((rolzCodec1.findMatch ⟨⟨1048576, fun j => if j = 28785 then 1677721602
      else 0⟩, ⟨65536, fun j => if j = 1799 then 1 else 0⟩, 4, 15, 16⟩
      ⟨[7, 7, 7, 7, 7, 7, 7, 7, 7, 7, 7, 7], 8⟩ 3).map (fun r => (r.2.1, r.2.2))) =
      some (0, 2) := by decide!
  simp only [Option.map_eq_some', Prod.mk.injEq] at hev
  obtain ⟨r, hr, h1, _⟩ := hev
  have hb := findMatch_index_range _ _ 3 r
    ⟨by decide, by decide, by decide, by decide, rfl, rfl⟩
    (by intro key; simp only; split <;> decide) hr (by rw [h1]; decide)
  exact ⟨r, hr, hb.2⟩

/-! ## Bit operations of the range coder in arithmetic form -/

theorem and_mask_24_56 (x : Nat) : x &&& MASK_24_56 = ((x / 2 ^ 24) % 2 ^ 32) * 2 ^ 24 := by
  have hm : MASK_24_56 = (2 ^ 32 - 1) <<< 24 := by decide
  rw [hm, ← Nat.shiftRight_eq_div_pow, ← Nat.shiftLeft_eq]
  apply Nat.eq_of_testBit_eq
  intro i
  simp only [Nat.testBit_and, Nat.testBit_shiftLeft, Nat.testBit_two_pow_sub_one,
    Nat.testBit_mod_two_pow, Nat.testBit_shiftRight]
  by_cases h : 24 ≤ i
  · have e : 24 + (i - 24) = i := by omega
    simp [h, e, Bool.and_comm]
  · simp [h]

theorem flush_cond_iff (l h : Nat) :
    (l ^^^ h) &&& MASK_24_56 = 0 ↔ (l / 2 ^ 24) % 2 ^ 32 = (h / 2 ^ 24) % 2 ^ 32 := by
  rw [Nat.and_xor_distrib_right, Nat.xor_eq_zero, and_mask_24_56, and_mask_24_56]
  omega

theorem not64_eq (x : Nat) (hx : x < 2 ^ 64) : not64 x = 2 ^ 64 - 1 - x := by
  unfold not64
  apply Nat.eq_of_testBit_eq
  intro i
  have e : 2 ^ 64 - 1 - x = 2 ^ 64 - (x + 1) := by omega
  rw [e, Nat.testBit_two_pow_sub_succ hx, Nat.testBit_xor, Nat.testBit_two_pow_sub_one]
  by_cases h : i < 64
  · simp [h]
  · have : x.testBit i = false := Nat.testBit_lt_two_pow (lt_of_lt_of_le hx
      (Nat.pow_le_pow_right (by norm_num) (by omega)))
    simp [h, this]

theorem shl32_or (a b : Nat) (hb : b < 2 ^ 32) :
    ((a <<< 32) % 2 ^ 64) ||| b = (a % 2 ^ 32) * 2 ^ 32 + b := by
  have e : (a <<< 32) % 2 ^ 64 = 2 ^ 32 * (a % 2 ^ 32) := by
    rw [Nat.shiftLeft_eq]; omega
  rw [e, ← Nat.mul_add_lt_is_or hb]; ring

theorem and_mask56 (x : Nat) : x &&& MASK_0_56 = x % 2 ^ 56 :=
  Nat.and_pow_two_sub_one_eq_mod x 56

theorem all64_and (x : Nat) : (2 ^ 64 - 1) &&& x = x % 2 ^ 64 := by
  rw [Nat.and_comm]; exact Nat.and_pow_two_sub_one_eq_mod x 64

theorem split_lt (x g : Nat) (hg : g ≤ 4095) (hx : 1 ≤ x) : x / 16 * g / 256 < x := by
  have h1 : x / 16 * g ≤ x / 16 * 4095 := Nat.mul_le_mul_left _ hg
  have h2 : x / 16 * g / 256 ≤ x / 16 * 4095 / 256 := Nat.div_le_div_right h1
  omega

theorem split_no_overflow (x g : Nat) (hg : g ≤ 4095) (hx : x < 2 ^ 56) :
    x / 16 * g < 2 ^ 64 := by
  have h1 : x / 16 * g ≤ x / 16 * 4095 := Nat.mul_le_mul_left _ hg
  omega

/-- The interval update of `encodeBit` in arithmetic form: the masks select
`[low, low + split]` for bit 1 and `[low + split + 1, high]` for bit 0. -/
theorem encodeBit_core (l h g bit : Nat) (hb : bit ≤ 1) (hl : l < h) (hh : h < 2 ^ 64)
    (hr : h - l < 2 ^ 56) (hg : g ≤ 4095) :
    (((sub64 h l) >>> 4) * g % 2 ^ 64) >>> 8 = (h - l) / 16 * g / 256 ∧
    sub64 h (neg64 bit &&& sub64 (sub64 h l) ((h - l) / 16 * g / 256)) =
      (if bit = 1 then l + (h - l) / 16 * g / 256 else h) ∧
    (l + (not64 (neg64 bit) &&& (((h - l) / 16 * g / 256 + 1) % 2 ^ 64))) % 2 ^ 64 =
      (if bit = 1 then l else l + (h - l) / 16 * g / 256 + 1) := by
  have hs := split_lt (h - l) g hg (by omega)
  have ho := split_no_overflow (h - l) g hg hr
  have e1 : sub64 h l = h - l := by unfold sub64; omega
  generalize hsp : (h - l) / 16 * g / 256 = split at hs ⊢
  refine ⟨?_, ?_, ?_⟩
  · rw [e1, Nat.shiftRight_eq_div_pow, Nat.shiftRight_eq_div_pow, Nat.mod_eq_of_lt ho]
    exact hsp
  · have hb2 : bit = 0 ∨ bit = 1 := by omega
    rcases hb2 with rfl | rfl
    · have e : neg64 0 = 0 := by decide
      rw [e, Nat.zero_and]
      simp only [Nat.zero_ne_one, if_false]
      unfold sub64; omega
    · have e : neg64 1 = 2 ^ 64 - 1 := by decide
      rw [e, all64_and, e1]
      simp only [if_true]
      unfold sub64; omega
  · have hb2 : bit = 0 ∨ bit = 1 := by omega
    rcases hb2 with rfl | rfl
    · have e : not64 (neg64 0) = 2 ^ 64 - 1 := by decide
      rw [e, all64_and]
      simp only [Nat.zero_ne_one, if_false]
      omega
    · have e : not64 (neg64 1) = 0 := by decide
      rw [e, Nat.zero_and]
      simp only [if_true]
      omega

/-! ## Buffers of the range coder -/

theorem Bytes_set {buf : List Nat} {i v : Nat} (hb : Bytes buf) (hv : v < 256) :
    Bytes (buf.set i v) := by
  intro x hx
  rcases List.mem_or_eq_of_mem_set hx with h | h
  · exact hb x h
  · omega

theorem Bytes_wr {buf b : List Nat} {i v : Nat} (h : wr buf i v = some b) (hb : Bytes buf)
    (hv : v < 256) : Bytes b := by
  obtain ⟨_, rfl⟩ := wr_eq_some.1 h
  exact Bytes_set hb hv

theorem getD_lt {buf : List Nat} (hb : Bytes buf) (i : Nat) : buf.getD i 0 < 256 := by
  rw [List.getD_eq_getElem?_getD]
  cases h : buf[i]? with
  | none => simp
  | some v =>
    obtain ⟨hi, hv⟩ := List.getElem?_eq_some_iff.1 h
    have := hb v (hv ▸ List.getElem_mem hi)
    simpa using this

theorem beBytes_lt {buf : List Nat} (hb : Bytes buf) (i n : Nat) :
    beBytes buf i n < 256 ^ n := by
  induction n with
  | zero => simp [beBytes]
  | succ n ih =>
    have := getD_lt hb (i + n)
    simp only [beBytes, pow_succ]
    nlinarith

theorem beBytes_add (buf : List Nat) (i m n : Nat) :
    beBytes buf i (m + n) = beBytes buf i m * 256 ^ n + beBytes buf (i + m) n := by
  induction n with
  | zero => simp [beBytes]
  | succ n ih =>
    rw [← Nat.add_assoc]
    simp only [beBytes, ih, pow_succ, Nat.add_assoc]
    ring

theorem beBytes_congr (b1 b2 : List Nat) (i n : Nat)
    (h : ∀ j, i ≤ j → j < i + n → rd b1 j = rd b2 j) : beBytes b1 i n = beBytes b2 i n := by
  induction n with
  | zero => rfl
  | succ n ih =>
    have h1 := h (i + n) (by omega) (by omega)
    simp only [rd] at h1
    simp only [beBytes, List.getD_eq_getElem?_getD, h1]
    rw [ih (fun j a b => h j a (by omega))]
theorem getD_wr {buf b : List Nat} {i v : Nat} (h : wr buf i v = some b) (j : Nat) :
    b.getD j 0 = if j = i then v else buf.getD j 0 := by
  have := rd_wr h j
  simp only [rd] at this
  simp only [List.getD_eq_getElem?_getD, this]
  split <;> simp

theorem putUint32BE_bound {buf b : List Nat} {i v : Nat} (h : putUint32BE buf i v = some b) :
    i + 4 ≤ buf.length := by
  unfold putUint32BE at h
  obtain ⟨u, hu, -⟩ := bind_eq_some_iff.1 h
  exact chk_eq_some.1 hu

theorem putUint32BE_spec (buf : List Nat) (i v : Nat) (hi : i + 4 ≤ buf.length) :
    ∃ b, putUint32BE buf i v = some b ∧ b.length = buf.length ∧
      (∀ j, j < i ∨ i + 4 ≤ j → rd b j = rd buf j) ∧
      beBytes b i 4 = v % 2 ^ 32 ∧ (Bytes buf → Bytes b) := by
  obtain ⟨b1, h1⟩ : ∃ b1, wr buf i ((v >>> 24) % 256) = some b1 :=
    ⟨_, wr_eq_some.2 ⟨by omega, rfl⟩⟩
  have l1 := wr_length h1
  obtain ⟨b2, h2⟩ : ∃ b2, wr b1 (i + 1) ((v >>> 16) % 256) = some b2 :=
    ⟨_, wr_eq_some.2 ⟨by omega, rfl⟩⟩
  have l2 := wr_length h2
  obtain ⟨b3, h3⟩ : ∃ b3, wr b2 (i + 2) ((v >>> 8) % 256) = some b3 :=
    ⟨_, wr_eq_some.2 ⟨by omega, rfl⟩⟩
  have l3 := wr_length h3
  obtain ⟨b4, h4⟩ : ∃ b4, wr b3 (i + 3) (v % 256) = some b4 :=
    ⟨_, wr_eq_some.2 ⟨by omega, rfl⟩⟩
  have l4 := wr_length h4
  refine ⟨b4, ?_, by omega, ?_, ?_, ?_⟩
  · unfold putUint32BE
    have hc : chk (i + 4 ≤ buf.length) = some () := chk_eq_some.2 hi
    simp only [bind, andThen, hc, h1, h2, h3, h4]
  · intro j hj
    rw [rd_wr h4, rd_wr h3, rd_wr h2, rd_wr h1]
    simp [show j ≠ i + 3 by omega, show j ≠ i + 2 by omega, show j ≠ i + 1 by omega,
      show j ≠ i by omega]
  · simp only [beBytes, getD_wr h4, getD_wr h3, getD_wr h2, getD_wr h1,
      Nat.shiftRight_eq_div_pow]
    simp
    omega
  · intro hb
    exact Bytes_wr h4 (Bytes_wr h3 (Bytes_wr h2 (Bytes_wr h1 hb (Nat.mod_lt _ (by norm_num)))
      (Nat.mod_lt _ (by norm_num))) (Nat.mod_lt _ (by norm_num))) (Nat.mod_lt _ (by norm_num))

theorem shl_or_byte (a k : Nat) : ∀ c, c < 2 ^ k → (a <<< k) ||| c = a * 2 ^ k + c := by
  intro c hc
  rw [Nat.shiftLeft_eq, Nat.mul_comm a, Nat.mul_add_lt_is_or hc]

theorem getUint32BE_spec (buf : List Nat) (i : Nat) (hi : i + 4 ≤ buf.length)
    (hb : Bytes buf) : getUint32BE buf i = some (beBytes buf i 4) := by
  have g : ∀ j, j < buf.length → rd buf j = some (buf.getD j 0) := by
    intro j hj
    simp [rd, List.getD_eq_getElem?_getD, List.getElem?_eq_getElem hj]
  have hc : chk (i + 4 ≤ buf.length) = some () := chk_eq_some.2 hi
  have h0 := getD_lt hb i
  have h1 := getD_lt hb (i + 1)
  have h2 := getD_lt hb (i + 2)
  have h3 := getD_lt hb (i + 3)
  unfold getUint32BE
  simp only [bind, andThen, hc, g i (by omega), g (i + 1) (by omega), g (i + 2) (by omega),
    g (i + 3) (by omega), pure, beBytes, Nat.add_zero, Nat.zero_mul, Nat.zero_add]
  congr 1
  generalize buf.getD i 0 = a0 at *
  generalize buf.getD (i + 1) 0 = a1 at *
  generalize buf.getD (i + 2) 0 = a2 at *
  generalize buf.getD (i + 3) 0 = a3 at *
  have e1 : a0 <<< 24 ||| a1 <<< 16 = 2 ^ 16 * (a0 * 256 + a1) := by
    have := Nat.mul_add_lt_is_or (i := 24) (b := a1 <<< 16)
      (by rw [Nat.shiftLeft_eq]; omega) a0
    rw [Nat.shiftLeft_eq a0, Nat.mul_comm a0, ← this, Nat.shiftLeft_eq]; omega
  have e2 : 2 ^ 16 * (a0 * 256 + a1) ||| a2 <<< 8 = 2 ^ 8 * ((a0 * 256 + a1) * 256 + a2) := by
    have := Nat.mul_add_lt_is_or (i := 16) (b := a2 <<< 8)
      (by rw [Nat.shiftLeft_eq]; omega) (a0 * 256 + a1)
    rw [← this, Nat.shiftLeft_eq]; omega
  have e3 := Nat.mul_add_lt_is_or (i := 8) (b := a3) (by omega) ((a0 * 256 + a1) * 256 + a2)
  rw [e1, e2, ← e3]; omega
theorem rd_eq_getD {buf : List Nat} {j : Nat} (hj : j < buf.length) :
    rd buf j = some (buf.getD j 0) := by
  simp [rd, List.getD_eq_getElem?_getD, List.getElem?_eq_getElem hj]

theorem initLoop_spec (buf : List Nat) (idx : Nat) (hb : Bytes buf) :
    ∀ n i, i + n ≤ 8 → idx + i + n ≤ buf.length →
      rolzDecoder.initLoop buf idx n i (beBytes buf idx i) = some (beBytes buf idx (i + n)) := by
  intro n
  induction n with
  | zero => intro i _ _; rfl
  | succ n ih =>
    intro i h8 hl
    have hv := getD_lt hb (idx + i)
    have hc := beBytes_lt hb idx i
    have hp : 256 ^ i ≤ 256 ^ 7 := Nat.pow_le_pow_right (by norm_num) (by omega)
    norm_num at hp
    have e : ((beBytes buf idx i <<< 8) % 2 ^ 64) ||| (buf.getD (idx + i) 0 &&& 0xFF) =
        beBytes buf idx (i + 1) := by
      have a1 : buf.getD (idx + i) 0 &&& 0xFF = buf.getD (idx + i) 0 := by
        rw [Nat.and_pow_two_sub_one_eq_mod _ 8]; omega
      have a2 : (beBytes buf idx i <<< 8) % 2 ^ 64 = 2 ^ 8 * beBytes buf idx i := by
        rw [Nat.shiftLeft_eq]; omega
      rw [a1, a2, ← Nat.mul_add_lt_is_or (by omega)]
      simp only [beBytes]; omega
    unfold rolzDecoder.initLoop
    simp only [bind, andThen, rd_eq_getD (show idx + i < buf.length by omega), e]
    have := ih (i + 1) (by omega) (by omega)
    rw [this]; congr 2; omega

theorem disposeLoop_spec {σ : Type} (L : Nat) (hL : L < 2 ^ 64) :
    ∀ n i (e : rolzEncoder σ), i + n = 8 → e.idx + 8 ≤ e.buf.length →
      e.low % 2 ^ 64 = (L * 256 ^ i) % 2 ^ 64 → beBytes e.buf e.idx i = L / 256 ^ (8 - i) →
      ∃ ef, rolzEncoder.disposeLoop n i e = some ef ∧
        (ef.idx = e.idx ∧ ef.predictors = e.predictors ∧ ef.predictor = e.predictor) ∧
        ef.buf.length = e.buf.length ∧
        (∀ j, j < e.idx ∨ e.idx + 8 ≤ j → rd ef.buf j = rd e.buf j) ∧
        beBytes ef.buf e.idx 8 = L ∧ (Bytes e.buf → Bytes ef.buf) := by
  intro n
  induction n with
  | zero =>
    intro i e hi _ _ hbe
    have : i = 8 := by omega
    subst this
    exact ⟨e, rfl, ⟨rfl, rfl, rfl⟩, rfl, fun _ _ => rfl, by simpa using hbe, id⟩
  | succ n ih =>
    intro i e hi hlen hlow hbe
    obtain ⟨b, hw⟩ : ∃ b, wr e.buf (e.idx + i) ((e.low >>> 56) % 256) = some b :=
      ⟨_, wr_eq_some.2 ⟨by omega, rfl⟩⟩
    have hbl := wr_length hw
    have hpre : beBytes b e.idx i = beBytes e.buf e.idx i := by
      apply beBytes_congr _ _
      intro j _ hj
      rw [rd_wr hw]; simp [show j ≠ e.idx + i by omega]
    obtain ⟨ef, h1, h2, h3, h4, h5, h6⟩ :=
      ih (i + 1) { e with buf := b, low := (e.low <<< 8) % 2 ^ 64 } (by omega)
        (by simpa [hbl] using hlen)
        (by
          show (e.low <<< 8) % 2 ^ 64 % 2 ^ 64 = _
          have hp : 256 ^ (i + 1) = 256 ^ i * 2 ^ 8 := by rw [pow_succ]; norm_num
          rw [Nat.mod_mod, Nat.shiftLeft_eq, ← Nat.mod_mul_mod, hlow, hp, ← Nat.mul_assoc,
            Nat.mod_mul_mod])
        (by
          show beBytes b e.idx (i + 1) = _
          have hby : (e.low >>> 56) % 256 = ((L * 256 ^ i) % 2 ^ 64 / 2 ^ 56) % 256 := by
            rw [Nat.shiftRight_eq_div_pow, ← hlow]; omega
          simp only [beBytes, hpre, hbe, getD_wr hw, if_true, hby]
          have hi8 : i < 8 := by omega
          interval_cases i <;> norm_num <;> omega)
    refine ⟨ef, ?_, h2, by rw [h3]; exact hbl, ?_, h5, ?_⟩
    · unfold rolzEncoder.disposeLoop
      simp only [bind, andThen, hw]
      exact h1
    · intro j hj
      rw [h4 j hj]
      show rd b j = _
      rw [rd_wr hw]; simp [show j ≠ e.idx + i by omega]
    · intro hb
      exact h6 (Bytes_wr hw hb (Nat.mod_lt _ (by norm_num)))

theorem dispose_spec {σ : Type} (e : rolzEncoder σ) (hlen : e.idx + 8 ≤ e.buf.length) :
    ∃ ef, e.dispose = some ef ∧
      (ef.idx = e.idx + 8 ∧ ef.predictors = e.predictors ∧ ef.predictor = e.predictor) ∧
      ef.buf.length = e.buf.length ∧
      (∀ j, j < e.idx ∨ e.idx + 8 ≤ j → rd ef.buf j = rd e.buf j) ∧
      beBytes ef.buf e.idx 8 = e.low % 2 ^ 64 ∧ (Bytes e.buf → Bytes ef.buf) := by
  obtain ⟨ef, h1, h2, h3, h4, h5, h6⟩ :=
    disposeLoop_spec (e.low % 2 ^ 64) (Nat.mod_lt _ (by norm_num)) 8 0 e rfl hlen
      (by simp) (by simp only [beBytes]; omega)
  refine ⟨{ ef with idx := ef.idx + 8 }, ?_, ⟨by simp [h2.1], h2.2.1, h2.2.2⟩, h3, h4, h5, h6⟩
  unfold rolzEncoder.dispose
  simp only [bind, andThen, h1, pure]

theorem disposeLoop_bound {σ : Type} : ∀ n i (e ef : rolzEncoder σ),
    rolzEncoder.disposeLoop (n + 1) i e = some ef → e.idx + i + n < e.buf.length := by
  intro n
  induction n with
  | zero =>
    intro i e ef h
    unfold rolzEncoder.disposeLoop at h
    obtain ⟨b, hw, -⟩ := bind_eq_some_iff.1 h
    exact (wr_eq_some.1 hw).1
  | succ n ih =>
    intro i e ef h
    unfold rolzEncoder.disposeLoop at h
    obtain ⟨b, hw, h2⟩ := bind_eq_some_iff.1 h
    have := ih (i + 1) _ ef h2
    have hl := wr_length hw
    simp only at this
    omega

theorem dispose_bound {σ : Type} {e ef : rolzEncoder σ} (h : e.dispose = some ef) :
    e.idx + 8 ≤ e.buf.length := by
  unfold rolzEncoder.dispose at h
  obtain ⟨e1, h1, -⟩ := bind_eq_some_iff.1 h
  have := disposeLoop_bound 7 0 e e1 h1
  omega
/-! ## One call of `encodeBit` and of `decodeBit` -/

theorem u64_natCast (g : Nat) (hg : g ≤ 4095) : u64 (g : Int) = g := by
  unfold u64; omega

theorem narrow_facts (l h g bit : Nat) (hg : g ≤ 4095) (hI : EncInv l h) :
    l ≤ narrowLow l h g bit ∧ narrowLow l h g bit ≤ narrowHigh l h g bit ∧
      narrowHigh l h g bit ≤ h := by
  obtain ⟨h1, h2, h3, h4⟩ := hI
  have hlt : l < h := by
    rcases Nat.lt_or_ge l h with h5 | h5
    · exact h5
    · exact absurd (by rw [Nat.le_antisymm h1 h5]) h4
  have hs := split_lt (h - l) g hg (by omega)
  unfold narrowLow narrowHigh
  split <;> omega

theorem flushed_inv (l1 h1 : Nat) (hle : l1 ≤ h1)
    (ht : l1 / 2 ^ 56 = h1 / 2 ^ 56)
    (hc : (l1 / 2 ^ 24) % 2 ^ 32 = (h1 / 2 ^ 24) % 2 ^ 32) :
    EncInv ((l1 % 2 ^ 32) * 2 ^ 32) ((h1 % 2 ^ 32) * 2 ^ 32 + (2 ^ 32 - 1)) := by
  unfold EncInv
  omega

theorem encodeBit_eq {σ : Type} (P : Predictor σ) (e : rolzEncoder σ) (p : σ) (g bit : Nat)
    (hp : e.predictors[e.predictor]? = some p) (hgp : P.Get p = (g : Int)) (hg : g ≤ 4095)
    (hb : bit ≤ 1) (hI : EncInv e.low e.high) :
    e.encodeBit P bit =
      if (narrowLow e.low e.high g bit / 2 ^ 24) % 2 ^ 32 =
          (narrowHigh e.low e.high g bit / 2 ^ 24) % 2 ^ 32 then
        (putUint32BE e.buf e.idx ((narrowHigh e.low e.high g bit / 2 ^ 32) % 2 ^ 32)).bind
          (fun b => some
            { predictors := e.predictors.set e.predictor (P.Update p bit),
              predictor := e.predictor, buf := b, idx := e.idx + 4,
              low := (narrowLow e.low e.high g bit % 2 ^ 32) * 2 ^ 32,
              high := (narrowHigh e.low e.high g bit % 2 ^ 32) * 2 ^ 32 + (2 ^ 32 - 1) })
      else
        some { predictors := e.predictors.set e.predictor (P.Update p bit),
               predictor := e.predictor, buf := e.buf, idx := e.idx,
               low := narrowLow e.low e.high g bit,
               high := narrowHigh e.low e.high g bit } := by
  have hn := narrow_facts e.low e.high g bit hg hI
  obtain ⟨i1, i2, i3, i4⟩ := hI
  have hlt : e.low < e.high := by
    rcases Nat.lt_or_ge e.low e.high with h5 | h5
    · exact h5
    · exact absurd (by rw [Nat.le_antisymm i1 h5]) i4
  obtain ⟨c1, c2, c3⟩ := encodeBit_core e.low e.high g bit hb hlt i2 (by omega) hg
  unfold rolzEncoder.encodeBit
  simp only [bind, andThen, hp, hgp, u64_natCast g hg, c1, c2, c3]
  change rolzEncoder.flushLoop 2
      { predictors := e.predictors.set e.predictor (P.Update p bit),
        predictor := e.predictor, buf := e.buf, idx := e.idx,
        low := narrowLow e.low e.high g bit, high := narrowHigh e.low e.high g bit } = _
  generalize narrowLow e.low e.high g bit = l1 at *
  generalize narrowHigh e.low e.high g bit = h1 at *
  unfold rolzEncoder.flushLoop
  simp only [flush_cond_iff]
  by_cases hc : (l1 / 2 ^ 24) % 2 ^ 32 = (h1 / 2 ^ 24) % 2 ^ 32
  · simp only [hc, if_true, rolzEncoder.flush, bind, andThen, Nat.shiftRight_eq_div_pow]
    cases hput : putUint32BE e.buf e.idx (h1 / 2 ^ 32 % 2 ^ 32) with
    | none => rfl
    | some b =>
      simp only [Option.bind, pure]
      have e1 : (l1 <<< 32) % 2 ^ 64 = (l1 % 2 ^ 32) * 2 ^ 32 := by
        rw [Nat.shiftLeft_eq]; omega
      have e2 : ((h1 <<< 32) % 2 ^ 64) ||| MASK_0_32 = (h1 % 2 ^ 32) * 2 ^ 32 + (2 ^ 32 - 1) :=
        shl32_or h1 _ (by decide)
      rw [e1, e2]
      unfold rolzEncoder.flushLoop
      simp only [flush_cond_iff]
      have hne := (flushed_inv l1 h1 (by omega) (by omega) hc).2.2.2
      simp only [hne, if_false]
  · simp only [hc, if_false]
theorem neg_not64 (s : Nat) (hs : s + 1 < 2 ^ 64) : neg64 (not64 s) = s + 1 := by
  rw [not64_eq s (by omega)]
  unfold neg64 sub64
  omega

theorem decodeBit_eq {σ : Type} (P : Predictor σ) (d : rolzDecoder σ) (p : σ) (g : Nat)
    (hp : d.predictors[d.predictor]? = some p) (hgp : P.Get p = (g : Int)) (hg : g ≤ 4095)
    (hlt : d.low < d.high) (hh : d.high < 2 ^ 56) (hbuf : Bytes d.buf) :
    d.decodeBit P =
      let bit := if d.low + (d.high - d.low) / 16 * g / 256 ≥ d.current then 1 else 0
      if (narrowLow d.low d.high g bit / 2 ^ 24) % 2 ^ 32 =
          (narrowHigh d.low d.high g bit / 2 ^ 24) % 2 ^ 32 then
        if d.idx + 4 ≤ d.buf.length then
          some ({ predictors := d.predictors.set d.predictor (P.Update p bit),
                  predictor := d.predictor, buf := d.buf, idx := d.idx + 4,
                  low := (narrowLow d.low d.high g bit * 2 ^ 32) % 2 ^ 56,
                  high := (narrowHigh d.low d.high g bit * 2 ^ 32 + (2 ^ 32 - 1)) % 2 ^ 56,
                  current := (d.current * 2 ^ 32 + beBytes d.buf d.idx 4) % 2 ^ 56 }, bit)
        else none
      else
        some ({ predictors := d.predictors.set d.predictor (P.Update p bit),
                predictor := d.predictor, buf := d.buf, idx := d.idx,
                low := narrowLow d.low d.high g bit,
                high := narrowHigh d.low d.high g bit, current := d.current }, bit) := by
  have hs := split_lt (d.high - d.low) g hg (by omega)
  have ho := split_no_overflow (d.high - d.low) g hg (by omega)
  have e1 : sub64 d.high d.low = d.high - d.low := by unfold sub64; omega
  have e2 : (d.low + ((d.high - d.low) / 16 * g % 2 ^ 64) / 2 ^ 8) % 2 ^ 64 =
      d.low + (d.high - d.low) / 16 * g / 256 := by
    rw [Nat.mod_eq_of_lt ho]
    have : (d.high - d.low) / 16 * g / 2 ^ 8 = (d.high - d.low) / 16 * g / 256 := by norm_num
    rw [this]; omega
  have fin : ∀ (l1 h1 : Nat) (q : List σ) (bit : Nat), l1 ≤ h1 → h1 < 2 ^ 56 →
      (do let d2 ← rolzDecoder.fillLoop 2
            ({ predictors := q, predictor := d.predictor, buf := d.buf, idx := d.idx,
               low := l1, high := h1, current := d.current } : rolzDecoder σ)
          pure (d2, bit)) =
      if (l1 / 2 ^ 24) % 2 ^ 32 = (h1 / 2 ^ 24) % 2 ^ 32 then
        if d.idx + 4 ≤ d.buf.length then
          some ({ predictors := q, predictor := d.predictor, buf := d.buf, idx := d.idx + 4,
                  low := (l1 * 2 ^ 32) % 2 ^ 56,
                  high := (h1 * 2 ^ 32 + (2 ^ 32 - 1)) % 2 ^ 56,
                  current := (d.current * 2 ^ 32 + beBytes d.buf d.idx 4) % 2 ^ 56 }, bit)
        else none
      else
        some ({ predictors := q, predictor := d.predictor, buf := d.buf, idx := d.idx,
                low := l1, high := h1, current := d.current }, bit) := by
    intro l1 h1 q bit hle hh1
    unfold rolzDecoder.fillLoop
    simp only [flush_cond_iff]
    by_cases hc : (l1 / 2 ^ 24) % 2 ^ 32 = (h1 / 2 ^ 24) % 2 ^ 32
    · simp only [hc, if_true, rolzDecoder.fill]
      by_cases hi : d.idx + 4 ≤ d.buf.length
      · have hv := beBytes_lt hbuf d.idx 4
        norm_num at hv
        have a1 : ((l1 <<< 32) % 2 ^ 64) &&& MASK_0_56 = (l1 * 2 ^ 32) % 2 ^ 56 := by
          rw [and_mask56, Nat.shiftLeft_eq]; omega
        have a2 : (((h1 <<< 32) % 2 ^ 64) ||| MASK_0_32) &&& MASK_0_56 =
            (h1 * 2 ^ 32 + (2 ^ 32 - 1)) % 2 ^ 56 := by
          have e : ((h1 <<< 32) % 2 ^ 64) ||| MASK_0_32 = (h1 % 2 ^ 32) * 2 ^ 32 + (2 ^ 32 - 1) :=
            shl32_or h1 _ (by decide)
          rw [and_mask56, e]; omega
        have a3 : (((d.current <<< 32) % 2 ^ 64) ||| beBytes d.buf d.idx 4) &&& MASK_0_56 =
            (d.current * 2 ^ 32 + beBytes d.buf d.idx 4) % 2 ^ 56 := by
          rw [and_mask56, shl32_or d.current _ (by omega)]; omega
        simp only [hi, if_true, getUint32BE_spec d.buf d.idx hi hbuf, bind, andThen, pure,
          a1, a2, a3]
        unfold rolzDecoder.fillLoop
        simp only [flush_cond_iff]
        have hne : ¬ ((l1 * 2 ^ 32) % 2 ^ 56 / 2 ^ 24) % 2 ^ 32 =
            ((h1 * 2 ^ 32 + (2 ^ 32 - 1)) % 2 ^ 56 / 2 ^ 24) % 2 ^ 32 := by omega
        simp only [hne, if_false]
      · have hn : getUint32BE d.buf d.idx = none := by
          unfold getUint32BE chk
          simp only [hi, if_false, bind, andThen]
        simp only [hi, if_false, hn, bind, andThen]
    · simp only [hc, if_false, bind, andThen, pure]
  unfold rolzDecoder.decodeBit
  simp only [bind, andThen, hp, hgp, u64_natCast g hg, e1, Nat.shiftRight_eq_div_pow, e2]
  by_cases hc : d.low + (d.high - d.low) / 16 * g / 256 ≥ d.current
  · have nl : narrowLow d.low d.high g 1 = d.low := by simp [narrowLow]
    have nh : narrowHigh d.low d.high g 1 = d.low + (d.high - d.low) / 16 * g / 256 := by
      simp [narrowHigh]
    simp only [hc, if_true, nl, nh]
    exact fin _ _ _ 1 (by omega) (by omega)
  · have nl : narrowLow d.low d.high g 0 = d.low + (d.high - d.low) / 16 * g / 256 + 1 := by
      simp [narrowLow]
    have nh : narrowHigh d.low d.high g 0 = d.high := by simp [narrowHigh]
    simp only [hc, if_false, nl, nh, neg_not64 _ (show d.low + (d.high - d.low) / 16 * g / 256
      + 1 < 2 ^ 64 by omega)]
    exact fin _ _ _ 0 (by omega) (by omega)
theorem narrow_dec (l h g bit V : Nat) (hg : g ≤ 4095) (hI : EncInv l h) (hb : bit ≤ 1)
    (hV1 : narrowLow l h g bit ≤ V) (hV2 : V ≤ narrowHigh l h g bit) :
    (if l % 2 ^ 56 + (h % 2 ^ 56 - l % 2 ^ 56) / 16 * g / 256 ≥ V % 2 ^ 56 then 1 else 0) = bit ∧
    narrowLow (l % 2 ^ 56) (h % 2 ^ 56) g bit = narrowLow l h g bit % 2 ^ 56 ∧
    narrowHigh (l % 2 ^ 56) (h % 2 ^ 56) g bit = narrowHigh l h g bit % 2 ^ 56 := by
  obtain ⟨h1, h2, h3, h4⟩ := hI
  have hlt : l < h := by
    rcases Nat.lt_or_ge l h with h5 | h5
    · exact h5
    · exact absurd (by rw [Nat.le_antisymm h1 h5]) h4
  have hs := split_lt (h - l) g hg (by omega)
  have hd : h % 2 ^ 56 - l % 2 ^ 56 = h - l := by omega
  rw [hd]
  unfold narrowLow narrowHigh at *
  rw [hd]
  generalize (h - l) / 16 * g / 256 = s at *
  have hb2 : bit = 0 ∨ bit = 1 := by omega
  rcases hb2 with rfl | rfl
  · simp only [Nat.zero_ne_one, if_false] at hV1 hV2 ⊢
    refine ⟨?_, ?_, ?_⟩
    · have : ¬ (l % 2 ^ 56 + s ≥ V % 2 ^ 56) := by omega
      simp only [this, if_false]
    · omega
    · trivial
  · simp only [if_true] at hV1 hV2 ⊢
    refine ⟨?_, ?_, ?_⟩
    · have : l % 2 ^ 56 + s ≥ V % 2 ^ 56 := by omega
      simp only [this, if_true]
    · trivial
    · omega

theorem narrowed_inv (l h g bit : Nat) (hg : g ≤ 4095) (hI : EncInv l h)
    (hc : ¬ (narrowLow l h g bit / 2 ^ 24) % 2 ^ 32 = (narrowHigh l h g bit / 2 ^ 24) % 2 ^ 32) :
    EncInv (narrowLow l h g bit) (narrowHigh l h g bit) := by
  have hn := narrow_facts l h g bit hg hI
  obtain ⟨h1, h2, h3, h4⟩ := hI
  exact ⟨hn.2.1, by omega, by omega, hc⟩

theorem getElem?_of_lt {σ : Type} (l : List σ) (i : Nat) (h : i < l.length) :
    ∃ p, l[i]? = some p := ⟨l[i], List.getElem?_eq_getElem h⟩
theorem flush_window (l1 h1 B C V V2 : Nat) (hle : l1 ≤ h1) (hh : h1 < 2 ^ 64)
    (ht : l1 / 2 ^ 56 = h1 / 2 ^ 56)
    (hc : (l1 / 2 ^ 24) % 2 ^ 32 = (h1 / 2 ^ 24) % 2 ^ 32)
    (hV : V = (h1 / 2 ^ 32) % 2 ^ 32 * 2 ^ 32 + B) (hV2 : V2 = B * 2 ^ 32 + C)
    (hC : C < 4294967296)
    (r6 : l1 % 2 ^ 32 * 2 ^ 32 ≤ V2) (r7 : V2 ≤ h1 % 2 ^ 32 * 2 ^ 32 + (2 ^ 32 - 1)) :
    l1 ≤ V ∧ V ≤ h1 ∧ (V % 2 ^ 56 * 2 ^ 32 + C) % 2 ^ 56 = V2 % 2 ^ 56 := by
  subst hV hV2
  have e : l1 / 2 ^ 32 = h1 / 2 ^ 32 := by omega
  refine ⟨by omega, by omega, by omega⟩

theorem flush_low_mod (l1 : Nat) :
    l1 % 2 ^ 56 * 2 ^ 32 % 2 ^ 56 = l1 % 2 ^ 32 * 2 ^ 32 % 2 ^ 56 := by omega

theorem flush_high_mod (h1 : Nat) :
    (h1 % 2 ^ 56 * 2 ^ 32 + (2 ^ 32 - 1)) % 2 ^ 56 =
      (h1 % 2 ^ 32 * 2 ^ 32 + (2 ^ 32 - 1)) % 2 ^ 56 := by omega

theorem cond_mod (l1 h1 : Nat) :
    ((l1 % 2 ^ 56 / 2 ^ 24) % 2 ^ 32 = (h1 % 2 ^ 56 / 2 ^ 24) % 2 ^ 32) ↔
      ((l1 / 2 ^ 24) % 2 ^ 32 = (h1 / 2 ^ 24) % 2 ^ 32) := by omega
/-- Lock step of encoder and decoder: after `encodeBits` and `dispose` the
eight bytes at the encoder's index lie in its interval, and a decoder that
agrees with the encoder modulo `2^56` returns the bits that were coded. -/
theorem coder_lockstep {σ : Type} (P : Predictor σ)
    (hP : ∀ s, ∃ g : Nat, g ≤ 4095 ∧ P.Get s = (g : Int)) :
    ∀ (bits : List Nat) (e ef : rolzEncoder σ),
      (∀ b ∈ bits, b ≤ 1) → EncInv e.low e.high → e.predictor < e.predictors.length →
      Bytes e.buf → (e.encodeBits P bits).bind rolzEncoder.dispose = some ef →
      ef.buf.length = e.buf.length ∧ Bytes ef.buf ∧ e.idx + 8 ≤ ef.idx ∧
      ef.idx ≤ ef.buf.length ∧ (∀ j, j < e.idx → rd ef.buf j = rd e.buf j) ∧
      e.low ≤ beBytes ef.buf e.idx 8 ∧ beBytes ef.buf e.idx 8 ≤ e.high ∧
      ∀ d : rolzDecoder σ, d.buf = ef.buf → d.idx = e.idx + 8 →
        d.predictors = e.predictors → d.predictor = e.predictor →
        d.low = e.low % 2 ^ 56 → d.high = e.high % 2 ^ 56 →
        d.current = beBytes ef.buf e.idx 8 % 2 ^ 56 →
        ∃ df, d.decodeBits P bits.length = some (df, bits) ∧ df.idx = ef.idx := by
  intro bits
  induction bits with
  | nil =>
    intro e ef _ hI _ hB h
    simp only [rolzEncoder.encodeBits, Option.bind] at h
    have hlen := dispose_bound h
    obtain ⟨ef2, g1, ⟨g2, -, -⟩, g3, g4, g5, g6⟩ := dispose_spec e hlen
    rw [h] at g1
    cases g1
    have hl : e.low % 2 ^ 64 = e.low := Nat.mod_eq_of_lt (by unfold EncInv at hI; omega)
    rw [hl] at g5
    refine ⟨g3, g6 hB, by omega, by omega, fun j hj => g4 j (Or.inl hj), by omega,
      by unfold EncInv at hI; omega, ?_⟩
    intro d _ hdi _ _ _ _ _
    exact ⟨d, rfl, by omega⟩
  | cons b bs ih =>
    intro e ef hbits hI hpi hB h
    have hb : b ≤ 1 := hbits b (List.mem_cons_self _ _)
    have hbs : ∀ x ∈ bs, x ≤ 1 := fun x hx => hbits x (List.mem_cons_of_mem _ hx)
    obtain ⟨p, hp⟩ := getElem?_of_lt e.predictors e.predictor hpi
    obtain ⟨g, hg, hgp⟩ := hP p
    have hn := narrow_facts e.low e.high g b hg hI
    have heq := encodeBit_eq P e p g b hp hgp hg hb hI
    simp only [rolzEncoder.encodeBits, bind, andThen_eq_bind] at h
    obtain ⟨e1, he1, hrest⟩ : ∃ e1, e.encodeBit P b = some e1 ∧
        (e1.encodeBits P bs).bind rolzEncoder.dispose = some ef := by
      cases hx : e.encodeBit P b with
      | none => rw [hx] at h; cases h
      | some e1 => rw [hx] at h; exact ⟨e1, rfl, h⟩
    rw [he1] at heq
    have hI2 := hI
    obtain ⟨i1, i2, i3, i4⟩ := hI2
    by_cases hc : (narrowLow e.low e.high g b / 2 ^ 24) % 2 ^ 32 =
        (narrowHigh e.low e.high g b / 2 ^ 24) % 2 ^ 32
    · -- the four top bytes of the interval are written
      simp only [hc, if_true] at heq
      cases hput : putUint32BE e.buf e.idx ((narrowHigh e.low e.high g b / 2 ^ 32) % 2 ^ 32) with
      | none => rw [hput] at heq; cases heq
      | some b1 =>
        rw [hput] at heq
        simp only [Option.bind, Option.some.injEq] at heq
        have hbound := putUint32BE_bound hput
        obtain ⟨b2, q1, q2, q3, q4, q5⟩ := putUint32BE_spec e.buf e.idx
          ((narrowHigh e.low e.high g b / 2 ^ 32) % 2 ^ 32) hbound
        rw [hput] at q1
        cases q1
        have hI1 := flushed_inv _ _ hn.2.1 (by omega) hc
        subst heq
        obtain ⟨r1, r2, r3, r4, r5, r6, r7, r8⟩ := ih _ ef hbs hI1
          (by simpa using hpi) (q5 hB) hrest
        simp only at r1 r3 r5 r6 r7 r8
        have hA : beBytes ef.buf e.idx 4 = (narrowHigh e.low e.high g b / 2 ^ 32) % 2 ^ 32 := by
          rw [beBytes_congr ef.buf b1 e.idx 4 (fun j _ hj => r5 j (by omega)), q4]
          omega
        have hV : beBytes ef.buf e.idx 8 =
            beBytes ef.buf e.idx 4 * 2 ^ 32 + beBytes ef.buf (e.idx + 4) 4 := by
          have := beBytes_add ef.buf e.idx 4 4
          norm_num at this ⊢
          exact this
        have hV2 : beBytes ef.buf (e.idx + 4) 8 =
            beBytes ef.buf (e.idx + 4) 4 * 2 ^ 32 + beBytes ef.buf (e.idx + 4 + 4) 4 := by
          have := beBytes_add ef.buf (e.idx + 4) 4 4
          norm_num at this ⊢
          exact this
        rw [show e.idx + 4 + 4 = e.idx + 8 by omega] at hV2
        have hCl := beBytes_lt r2 (e.idx + 8) 4
        norm_num at hCl
        rw [hA] at hV
        obtain ⟨hVl, hVh, hVc⟩ := flush_window _ _ _ _ _ _ hn.2.1 (by omega) (by omega) hc
          hV hV2 hCl r6 r7
        refine ⟨by rw [r1, q2], r2, by omega, r4, ?_, by omega, by omega, ?_⟩
        · intro j hj
          rw [r5 j (by omega), q3 j (Or.inl hj)]
        · intro d hd1 hd2 hd3 hd4 hd5 hd6 hd7
          obtain ⟨n1, n2, n3⟩ := narrow_dec e.low e.high g b _ hg hI hb hVl hVh
          have hdeq := decodeBit_eq P d p g (by rw [hd3, hd4]; exact hp) hgp hg
            (by omega) (by omega) (by rw [hd1]; exact r2)
          rw [hd5, hd6, hd7] at hdeq
          have hc2 : (narrowLow e.low e.high g b % 2 ^ 56 / 2 ^ 24) % 2 ^ 32 =
              (narrowHigh e.low e.high g b % 2 ^ 56 / 2 ^ 24) % 2 ^ 32 := (cond_mod _ _).2 hc
          have hsp : d.idx + 4 ≤ d.buf.length := by rw [hd1, hd2]; omega
          simp only [n1, n2, n3, hc2, hsp, if_true] at hdeq
          obtain ⟨d1, hdeq, f1, f2, f3, f4, f5, f6, f7⟩ : ∃ d1 : rolzDecoder σ,
              d.decodeBit P = some (d1, b) ∧ d1.buf = d.buf ∧ d1.idx = d.idx + 4 ∧
              d1.predictors = d.predictors.set d.predictor (P.Update p b) ∧
              d1.predictor = d.predictor ∧
              d1.low = narrowLow e.low e.high g b % 2 ^ 56 * 2 ^ 32 % 2 ^ 56 ∧
              d1.high = (narrowHigh e.low e.high g b % 2 ^ 56 * 2 ^ 32 + (2 ^ 32 - 1)) % 2 ^ 56 ∧
              d1.current =
                (beBytes ef.buf e.idx 8 % 2 ^ 56 * 2 ^ 32 + beBytes d.buf d.idx 4) % 2 ^ 56 :=
            ⟨_, hdeq, rfl, rfl, rfl, rfl, rfl, rfl, rfl⟩
          obtain ⟨df, hdf, hdi⟩ := r8 d1 (by rw [f1, hd1]) (by rw [f2, hd2])
            (by rw [f3, hd3, hd4]) (by rw [f4, hd4]) (by rw [f5]; exact flush_low_mod _)
            (by rw [f6]; exact flush_high_mod _) (by rw [f7, hd1, hd2]; exact hVc)
          refine ⟨df, ?_, hdi⟩
          simp only [List.length_cons, rolzDecoder.decodeBits, bind, andThen, hdeq, hdf, pure]
    · -- no byte is written
      simp only [hc, if_false, Option.some.injEq] at heq
      have hI1 := narrowed_inv e.low e.high g b hg hI hc
      have R := ih e1 ef hbs (by rw [heq]; exact hI1) (by rw [heq]; simpa using hpi)
        (by rw [heq]; exact hB) hrest
      rw [heq] at R
      obtain ⟨r1, r2, r3, r4, r5, r6, r7, r8⟩ := R
      simp only at r1 r3 r5 r6 r7 r8
      refine ⟨r1, r2, r3, r4, r5, by omega, by omega, ?_⟩
      intro d hd1 hd2 hd3 hd4 hd5 hd6 hd7
      obtain ⟨n1, n2, n3⟩ := narrow_dec e.low e.high g b _ hg hI hb r6 r7
      have hdeq := decodeBit_eq P d p g (by rw [hd3, hd4]; exact hp) hgp hg
        (by omega) (by omega) (by rw [hd1]; exact r2)
      rw [hd5, hd6, hd7] at hdeq
      have hc2 : ¬ (narrowLow e.low e.high g b % 2 ^ 56 / 2 ^ 24) % 2 ^ 32 =
          (narrowHigh e.low e.high g b % 2 ^ 56 / 2 ^ 24) % 2 ^ 32 :=
        fun hx => hc ((cond_mod _ _).1 hx)
      simp only [n1, n2, n3, hc2, if_false] at hdeq
      obtain ⟨d1, hdeq, f1, f2, f3, f4, f5, f6, f7⟩ : ∃ d1 : rolzDecoder σ,
          d.decodeBit P = some (d1, b) ∧ d1.buf = d.buf ∧ d1.idx = d.idx ∧
          d1.predictors = d.predictors.set d.predictor (P.Update p b) ∧
          d1.predictor = d.predictor ∧
          d1.low = narrowLow e.low e.high g b % 2 ^ 56 ∧
          d1.high = narrowHigh e.low e.high g b % 2 ^ 56 ∧
          d1.current = beBytes ef.buf e.idx 8 % 2 ^ 56 :=
        ⟨_, hdeq, rfl, rfl, rfl, rfl, rfl, rfl, rfl⟩
      obtain ⟨df, hdf, hdi⟩ := r8 d1 (by rw [f1, hd1]) (by rw [f2, hd2])
        (by rw [f3, hd3, hd4]) (by rw [f4, hd4]) f5 f6 f7
      refine ⟨df, ?_, hdi⟩
      simp only [List.length_cons, rolzDecoder.decodeBits, bind, andThen, hdeq, hdf, pure]
/-- With room for four bytes per bit and the eight bytes of `dispose`, the
encoder does not run out of the buffer. -/
theorem encode_succeeds {σ : Type} (P : Predictor σ)
    (hP : ∀ s, ∃ g : Nat, g ≤ 4095 ∧ P.Get s = (g : Int)) :
    ∀ (bits : List Nat) (e : rolzEncoder σ),
      (∀ b ∈ bits, b ≤ 1) → EncInv e.low e.high → e.predictor < e.predictors.length →
      e.idx + 4 * bits.length + 8 ≤ e.buf.length →
      ∃ ef, (e.encodeBits P bits).bind rolzEncoder.dispose = some ef := by
  intro bits
  induction bits with
  | nil =>
    intro e _ hI _ hlen
    obtain ⟨ef, g1, -⟩ := dispose_spec e (by simpa using hlen)
    exact ⟨ef, by simpa only [rolzEncoder.encodeBits, Option.bind] using g1⟩
  | cons b bs ih =>
    intro e hbits hI hpi hlen
    have hb : b ≤ 1 := hbits b (List.mem_cons_self _ _)
    have hbs : ∀ x ∈ bs, x ≤ 1 := fun x hx => hbits x (List.mem_cons_of_mem _ hx)
    obtain ⟨p, hp⟩ := getElem?_of_lt e.predictors e.predictor hpi
    obtain ⟨g, hg, hgp⟩ := hP p
    have hn := narrow_facts e.low e.high g b hg hI
    have heq := encodeBit_eq P e p g b hp hgp hg hb hI
    simp only [List.length_cons] at hlen
    have key : ∃ e1, e.encodeBit P b = some e1 ∧ EncInv e1.low e1.high ∧
        e1.predictor < e1.predictors.length ∧ e1.idx ≤ e.idx + 4 ∧
        e1.buf.length = e.buf.length := by
      by_cases hc : (narrowLow e.low e.high g b / 2 ^ 24) % 2 ^ 32 =
          (narrowHigh e.low e.high g b / 2 ^ 24) % 2 ^ 32
      · obtain ⟨b2, q1, q2, -⟩ := putUint32BE_spec e.buf e.idx
          ((narrowHigh e.low e.high g b / 2 ^ 32) % 2 ^ 32) (by omega)
        simp only [hc, if_true, q1, Option.bind] at heq
        have i3 := hI.2.2.1
        exact ⟨_, heq, flushed_inv _ _ hn.2.1 (by omega) hc, by simpa using hpi,
          Nat.le_refl _, q2⟩
      · simp only [hc, if_false] at heq
        exact ⟨_, heq, narrowed_inv e.low e.high g b hg hI hc, by simpa using hpi,
          by simp, rfl⟩
    obtain ⟨e1, k1, k2, k3, k4, k5⟩ := key
    obtain ⟨ef, hef⟩ := ih e1 hbs k2 k3 (by omega)
    exact ⟨ef, by simpa only [rolzEncoder.encodeBits, bind, andThen_eq_bind, k1,
      Option.bind] using hef⟩

/-- Round trip of the binary coder for a predictor with values in
`[0..4095]`: a session that encodes `s` succeeds when the buffer has room, and
whenever it succeeds the decoding session returns `s` and stops at the index
the encoder reached. -/
theorem coder_roundtrip {σ : Type} (P : Predictor σ)
    (hP : ∀ s, ∃ g : Nat, g ≤ 4095 ∧ P.Get s = (g : Int)) (p0 : σ)
    (s : List Nat) (hs : ∀ b ∈ s, b ≤ 1) (buf : List Nat) (idx : Nat) (hbuf : Bytes buf) :
    (idx + 4 * s.length + 8 ≤ buf.length →
      ∃ out n, encodeSequence P p0 buf idx s = some (out, n)) ∧
    (∀ out n, encodeSequence P p0 buf idx s = some (out, n) →
      decodeSequence P p0 out idx s.length = some (s, n)) := by
  have hI0 : EncInv 0 ROLZ_TOP := by unfold EncInv ROLZ_TOP; omega
  have hnew : newRolzEncoder [p0] buf idx =
      some { predictors := [p0], predictor := 0, buf := buf, idx := idx, low := 0,
             high := ROLZ_TOP } := rfl
  constructor
  · intro hlen
    obtain ⟨ef, hef⟩ := encode_succeeds P hP s
      { predictors := [p0], predictor := 0, buf := buf, idx := idx, low := 0,
        high := ROLZ_TOP } hs hI0 (by simp) hlen
    refine ⟨ef.buf, ef.idx, ?_⟩
    unfold encodeSequence
    simp only [hnew, bind, andThen_eq_bind, Option.bind] at hef ⊢
    cases hx : rolzEncoder.encodeBits P
        { predictors := [p0], predictor := 0, buf := buf, idx := idx, low := 0,
          high := ROLZ_TOP } s with
    | none => rw [hx] at hef; cases hef
    | some e1 =>
      rw [hx] at hef
      simp only at hef ⊢
      rw [hef]; rfl
  · intro out n h
    unfold encodeSequence at h
    simp only [hnew, bind, andThen_eq_bind] at h
    obtain ⟨ef, hef, rfl, rfl⟩ : ∃ ef, (rolzEncoder.encodeBits P
        { predictors := [p0], predictor := 0, buf := buf, idx := idx, low := 0,
          high := ROLZ_TOP } s).bind rolzEncoder.dispose = some ef ∧ ef.buf = out ∧
        ef.idx = n := by
      simp only [Option.bind] at h ⊢
      cases hx : rolzEncoder.encodeBits P
          { predictors := [p0], predictor := 0, buf := buf, idx := idx, low := 0,
            high := ROLZ_TOP } s with
      | none => rw [hx] at h; cases h
      | some e1 =>
        rw [hx] at h
        simp only at h ⊢
        cases hy : e1.dispose with
        | none => rw [hy] at h; cases h
        | some e2 =>
          rw [hy] at h
          simp only [pure, Option.some.injEq, Prod.mk.injEq] at h
          exact ⟨e2, rfl, h.1, h.2⟩
    obtain ⟨r1, r2, r3, r4, r5, r6, r7, r8⟩ := coder_lockstep P hP s _ ef hs hI0 (by simp)
      hbuf hef
    simp only at r3 r6 r7 r8
    have hV : beBytes ef.buf idx 8 % 2 ^ 56 = beBytes ef.buf idx 8 := by
      unfold ROLZ_TOP at r7; omega
    have hinit : rolzDecoder.initLoop ef.buf idx 8 0 0 = some (beBytes ef.buf idx 8) :=
      initLoop_spec ef.buf idx r2 8 0 (by omega) (by omega)
    obtain ⟨df, hdf, hdi⟩ := r8
      { predictors := [p0], predictor := 0, buf := ef.buf, idx := idx + 8, low := 0,
        high := ROLZ_TOP, current := beBytes ef.buf idx 8 } rfl rfl rfl rfl rfl
      (by rfl) hV.symm
    unfold decodeSequence newRolzDecoder
    simp only [bind, andThen, hinit, List.getElem?_cons_zero, pure, hdf, hdi]

/-- C3. Binary coder round trip: with a predictor whose `Get` is always 2048,
for every bit sequence `s` and every byte buffer, the session
`newRolzEncoder`, `encodeBit` for each bit of `s`, `dispose` succeeds when
the buffer has `4 * len(s) + 8` bytes from `idx` on; and whenever it succeeds
with output `out` and final index `n`, the session `newRolzDecoder` followed
by `len(s)` calls of `decodeBit` on `out` with an identical predictor returns
exactly `s` and has consumed the bytes up to `n`. -/
theorem binary_coder_roundtrip (s : List Nat) (hs : ∀ b ∈ s, b ≤ 1) (buf : List Nat)
    (idx : Nat) (hbuf : Bytes buf) :
    (idx + 4 * s.length + 8 ≤ buf.length →
      ∃ out n, encodeSequence (fixedPredictor 2048) () buf idx s = some (out, n)) ∧
    (∀ out n, encodeSequence (fixedPredictor 2048) () buf idx s = some (out, n) →
      decodeSequence (fixedPredictor 2048) () out idx s.length = some (s, n)) :=
  coder_roundtrip (fixedPredictor 2048) (fun _ => ⟨2048, by omega, rfl⟩) () s hs buf idx hbuf

/-- Witness of C3: the alternating sequence `0,1,0,1,0,1,0,1` in a buffer of
48 zero bytes. -/
theorem binary_coder_roundtrip_witness :
    ∃ out n,
      encodeSequence (fixedPredictor 2048) () (List.replicate 48 0) 0 [0, 1, 0, 1, 0, 1, 0, 1] =
        some (out, n) ∧
      decodeSequence (fixedPredictor 2048) () out 0 8 = some ([0, 1, 0, 1, 0, 1, 0, 1], n) := by
  have h := binary_coder_roundtrip [0, 1, 0, 1, 0, 1, 0, 1] (by decide)
    (List.replicate 48 0) 0 (by decide)
  obtain ⟨out, n, he⟩ := h.1 (by decide)
  exact ⟨out, n, he, h.2 out n he⟩

/-! ## Corrupt input to `rolzCodec2.Inverse` -/

/-- C13, backend 2, at two corrupt inputs.  Both are the output of `Forward`
on the block `1,2,3,4` four times followed by `9,9,9,9`, whose seventh token
is a match of length `7 + 3` starting at position 6, with another block size
in the header.
(1) Header 12, destination of 12 bytes: `7 + 3 ≤ 12` passes the check
`matchLen+3 > dstEnd`, and `emitCopy` indexes the chunk at 12: `Inverse`
panics instead of returning an error.
(2) Header 9, input cut after 16 bytes: the check `matchLen+3 > dstEnd` leaves
the loop, all 16 input bytes have been read, and `Inverse` returns
`(16, 6, nil)`: no error, with 6 of the 9 announced bytes produced. -/
theorem rolzCodec2_inverse_match_past_end :
    ((rolzCodec2.alloc 5).Inverse
        [0, 0, 0, 12, 0, 255, 127, 91, 210, 26, 89, 124, 244, 221, 122, 237, 192, 200, 33, 146,
          167, 205, 70, 244]
        (List.replicate 12 0)).map CallResult.view = none ∧
    ((rolzCodec2.alloc 5).Inverse
        [0, 0, 0, 9, 0, 255, 127, 91, 210, 26, 89, 124, 244, 221, 122, 237]
        (List.replicate 9 0)).map CallResult.view =
      some ([1, 2, 3, 4, 1, 2, 0, 0, 0], 16, 6, none) := by
  constructor <;> decide!
/-! ## Adaptive probability maps -/

theorem i64_of_range (x : Int) (h1 : -9223372036854775808 ≤ x) (h2 : x < 9223372036854775808) :
    i64 x = x := by
  unfold i64; omega

theorem two_pow_rate (rate : Nat) (hr : rate ≤ 30) :
    1 ≤ ((2 ^ rate : Nat) : Int) ∧ ((2 ^ rate : Nat) : Int) ≤ 1073741824 := by
  have h1 : 1 ≤ 2 ^ rate := Nat.one_le_two_pow
  have h2 : 2 ^ rate ≤ 2 ^ 30 := Nat.pow_le_pow_right (by norm_num) hr
  norm_num at h2
  constructor <;> exact_mod_cast (by assumption)

theorem apmTarget_zero (rate : Nat) : apmTarget 0 rate = 0 := by
  unfold apmTarget shl64
  split <;> simp [i64, i32]

theorem apmTarget_one (rate : Nat) (hr : rate ≤ 30) :
    apmTarget 1 rate = 65534 + ((2 ^ rate : Nat) : Int) := by
  obtain ⟨h1, h2⟩ := two_pow_rate rate hr
  unfold apmTarget shl64
  simp only [show rate < 64 by omega, if_true, show (16 : Nat) < 64 by omega,
    show (1 : Nat) < 64 by omega, one_mul]
  generalize ((2 ^ rate : Nat) : Int) = m at *
  have e1 : i64 (((2 ^ 16 : Nat) : Int)) = 65536 := by decide
  have e2 : i64 (((2 ^ 1 : Nat) : Int)) = 2 := by decide
  rw [e1, e2, i64_of_range m (by omega) (by omega),
    i64_of_range (65536 + m) (by omega) (by omega),
    i64_of_range (65536 + m - 2) (by omega) (by omega),
    i32_of_range (65536 + m - 2) (by omega) (by omega)]
  omega

theorem apm_update_low (d B : Int) (bit : Int) (rate : Nat) (hr : rate ≤ 30)
    (hbit : bit = 0 ∨ bit = 1) (hB1 : 65535 ≤ B) (hB2 : B ≤ 65536) (hd0 : 0 ≤ d) (hd1 : d ≤ B) :
    0 ≤ i32 (d + ((i32 (apmTarget bit rate - d)) >>> rate)) ∧
      i32 (d + ((i32 (apmTarget bit rate - d)) >>> rate)) ≤ B := by
  obtain ⟨h1, h2⟩ := two_pow_rate rate hr
  have hg : apmTarget bit rate = 0 ∨ apmTarget bit rate = 65534 + ((2 ^ rate : Nat) : Int) := by
    rcases hbit with rfl | rfl
    · exact Or.inl (apmTarget_zero rate)
    · exact Or.inr (apmTarget_one rate hr)
  rw [Int.shiftRight_eq_div_pow]
  generalize apmTarget bit rate = g at *
  push_cast
  have hm : ((2 : Int) ^ rate) = ((2 ^ rate : Nat) : Int) := by push_cast; rfl
  rw [hm]
  generalize ((2 ^ rate : Nat) : Int) = m at *
  have hx : i32 (g - d) = g - d := i32_of_range _ (by omega) (by omega)
  rw [hx]
  have q1 := Int.ediv_mul_le (g - d) (show m ≠ 0 by omega)
  have q2 := Int.lt_ediv_add_one_mul_self (g - d) (show 0 < m by omega)
  generalize (g - d) / m = q at *
  have hq : -d ≤ q ∧ d + q ≤ B := by
    rcases hg with rfl | rfl
    · constructor
      · by_contra hc
        have : (q + 1) * m ≤ (q + 1) * 1 := by
          apply Int.mul_le_mul_of_nonpos_left <;> omega
        omega
      · by_contra hc
        have : 1 * m ≤ q * m := by
          apply Int.mul_le_mul_of_nonneg_right <;> omega
        omega
    · constructor
      · by_contra hc
        have : (q + 1) * m ≤ (q + 1) * 1 := by
          apply Int.mul_le_mul_of_nonpos_left <;> omega
        omega
      · by_contra hc
        have : (q - 1) * 1 ≤ (q - 1) * m := by
          apply Int.mul_le_mul_of_nonneg_left <;> omega
        have e : (q - 1) * m = q * m - m := by ring
        omega
  rw [i32_of_range _ (by omega) (by omega)]
  omega

theorem apmTarget_one_high (rate : Nat) (hr : 32 ≤ rate) : apmTarget 1 rate = 65534 := by
  unfold apmTarget shl64
  have e1 : i64 (1 * ((2 ^ 16 : Nat) : Int)) = 65536 := by decide
  have e2 : i64 (1 * ((2 ^ 1 : Nat) : Int)) = 2 := by decide
  simp only [show (16 : Nat) < 64 by omega, show (1 : Nat) < 64 by omega, if_true, e1, e2]
  split
  · obtain ⟨m, hm⟩ : ∃ m : Int, ((2 ^ rate : Nat) : Int) = 4294967296 * m := by
      refine ⟨((2 ^ (rate - 32) : Nat) : Int), ?_⟩
      have : 2 ^ rate = 2 ^ 32 * 2 ^ (rate - 32) := by
        rw [← Nat.pow_add]
        congr 1
        omega
      rw [this]
      push_cast
      norm_num
    rw [one_mul, hm]
    unfold i64 i32
    omega
  · unfold i64 i32
    omega

theorem apm_update_high (d B : Int) (bit : Int) (rate : Nat) (hr : 32 ≤ rate)
    (hbit : bit = 0 ∨ bit = 1) (hB1 : 65535 ≤ B) (hB2 : B ≤ 65536) (hd0 : 0 ≤ d) (hd1 : d ≤ B) :
    0 ≤ i32 (d + ((i32 (apmTarget bit rate - d)) >>> rate)) ∧
      i32 (d + ((i32 (apmTarget bit rate - d)) >>> rate)) ≤ B := by
  have hg : apmTarget bit rate = 0 ∨ apmTarget bit rate = 65534 := by
    rcases hbit with rfl | rfl
    · exact Or.inl (apmTarget_zero rate)
    · exact Or.inr (apmTarget_one_high rate hr)
  have h2 : 2 ^ 32 ≤ 2 ^ rate := Nat.pow_le_pow_right (by norm_num) hr
  have h3 : (4294967296 : Int) ≤ ((2 ^ rate : Nat) : Int) := by
    have : (2 ^ 32 : Nat) = 4294967296 := by norm_num
    rw [this] at h2
    exact_mod_cast h2
  rw [Int.shiftRight_eq_div_pow]
  generalize apmTarget bit rate = g at *
  push_cast
  have hm : ((2 : Int) ^ rate) = ((2 ^ rate : Nat) : Int) := by push_cast; rfl
  rw [hm]
  generalize ((2 ^ rate : Nat) : Int) = m at *
  have hx : i32 (g - d) = g - d := i32_of_range _ (by omega) (by omega)
  rw [hx]
  have q1 := Int.ediv_mul_le (g - d) (show m ≠ 0 by omega)
  have q2 := Int.lt_ediv_add_one_mul_self (g - d) (show 0 < m by omega)
  generalize (g - d) / m = q at *
  have hq : -1 ≤ q ∧ q ≤ 0 ∧ (0 ≤ g - d → q = 0) ∧ (g - d < 0 → q = -1) := by
    have a1 : -1 ≤ q := by
      by_contra hc
      have : (q + 1) * m ≤ (-1) * m := by
        apply Int.mul_le_mul_of_nonneg_right <;> omega
      omega
    have a2 : q ≤ 0 := by
      by_contra hc
      have : 1 * m ≤ q * m := by
        apply Int.mul_le_mul_of_nonneg_right <;> omega
      omega
    refine ⟨a1, a2, ?_, ?_⟩
    · intro h
      by_contra hc
      have e : q = -1 := by omega
      subst e
      omega
    · intro h
      by_contra hc
      have e : q = 0 := by omega
      subst e
      omega
  rw [i32_of_range _ (by omega) (by omega)]
  omega

/-- One update keeps an entry between 0 and its bound, for every rate but 31. -/
theorem apm_update_range (d B : Int) (bit : Int) (rate : Nat) (hr : rate ≠ 31)
    (hbit : bit = 0 ∨ bit = 1) (hB1 : 65535 ≤ B) (hB2 : B ≤ 65536) (hd0 : 0 ≤ d) (hd1 : d ≤ B) :
    0 ≤ i32 (d + ((i32 (apmTarget bit rate - d)) >>> rate)) ∧
      i32 (d + ((i32 (apmTarget bit rate - d)) >>> rate)) ≤ B := by
  by_cases h : rate ≤ 30
  · exact apm_update_low d B bit rate h hbit hB1 hB2 hd0 hd1
  · exact apm_update_high d B bit rate (by omega) hbit hB1 hB2 hd0 hd1

theorem apmUpdate_eq (data : Arr Int) (i g : Int) (rate : Nat) (h0 : 0 ≤ i)
    (h1 : i.toNat < data.len) :
    apmUpdate data i g rate =
      some ⟨data.len, fun j => if j = i.toNat then
        i32 (data.cell i.toNat + ((i32 (g - data.cell i.toNat)) >>> rate)) else data.cell j⟩ := by
  unfold apmUpdate Arr.getI Arr.putI Arr.get Arr.put
  simp only [h0, h1, if_true, bind, andThen]

theorem apmUpdate_entries (B : Nat → Int) (hB : ∀ k, 65535 ≤ B k ∧ B k ≤ 65536)
    (data : Arr Int) (i bit : Int) (rate : Nat) (hr : rate ≠ 31) (hbit : bit = 0 ∨ bit = 1)
    (h0 : 0 ≤ i) (h1 : i.toNat < data.len) (hd : ∀ k, 0 ≤ data.cell k ∧ data.cell k ≤ B k) :
    ∃ d2, apmUpdate data i (apmTarget bit rate) rate = some d2 ∧ d2.len = data.len ∧
      ∀ k, 0 ≤ d2.cell k ∧ d2.cell k ≤ B k := by
  refine ⟨_, apmUpdate_eq data i _ rate h0 h1, rfl, ?_⟩
  intro k
  show 0 ≤ (if k = i.toNat then _ else _) ∧ (if k = i.toNat then _ else _) ≤ B k
  split
  · rename_i hk
    subst hk
    exact apm_update_range _ _ bit rate hr hbit (hB _).1 (hB _).2 (hd _).1 (hd _).2
  · exact hd k

theorem apmInitRow_spec (f : Nat → Int) (B : Nat → Int) :
    ∀ fuel j (a : Arr Int), j + fuel ≤ a.len → (∀ k, 0 ≤ a.cell k ∧ a.cell k ≤ B k) →
      (∀ i, j ≤ i → i < j + fuel → 0 ≤ f i ∧ f i ≤ B i) →
      ∃ a2, apmInitRow f fuel j a = some a2 ∧ a2.len = a.len ∧
        (∀ k, 0 ≤ a2.cell k ∧ a2.cell k ≤ B k) ∧
        ∀ k, a2.cell k = if j ≤ k ∧ k < j + fuel then f k else a.cell k := by
  intro fuel
  induction fuel with
  | zero =>
    intro j a _ ha _
    exact ⟨a, rfl, rfl, ha, fun k => by rw [if_neg (by omega)]⟩
  | succ fuel ih =>
    intro j a hlen ha hf
    obtain ⟨a2, h1, h2, h3, h4⟩ := ih (j + 1)
      ⟨a.len, fun k => if k = j then f j else a.cell k⟩ (by simpa using by omega)
      (by
        intro k
        show 0 ≤ (if k = j then _ else _) ∧ (if k = j then _ else _) ≤ B k
        split
        · rename_i hk; subst hk; exact hf k (Nat.le_refl _) (by omega)
        · exact ha k)
      (fun i hi1 hi2 => hf i (by omega) (by omega))
    refine ⟨a2, ?_, h2, h3, ?_⟩
    · unfold apmInitRow Arr.put
      simp only [show j < a.len by omega, if_true, bind, andThen]
      exact h1
    · intro k
      rw [h4 k]
      by_cases hk : k = j
      · subst hk; simp
      · simp only [hk, if_false]
        by_cases hk2 : j + 1 ≤ k ∧ k < j + 1 + fuel
        · simp [hk2, show j ≤ k ∧ k < j + (fuel + 1) by omega]
        · simp [hk2, show ¬ (j ≤ k ∧ k < j + (fuel + 1)) by omega]

theorem apmCopyRows_spec (w n : Nat) (B : Nat → Int) (hsz : n * w < 2 ^ 63)
    (hshift : ∀ k i, B (k + i * w) = B k) :
    ∀ fuel i (a : Arr Int), 1 ≤ i → a.len = n * w →
      (∀ k, 0 ≤ a.cell k ∧ a.cell k ≤ B k) →
      ∃ a2, apmCopyRows w n fuel i a = some a2 ∧ a2.len = a.len ∧
        (∀ k, 0 ≤ a2.cell k ∧ a2.cell k ≤ B k) ∧ ∀ k, k < w → a2.cell k = a.cell k := by
  intro fuel
  induction fuel with
  | zero => intro i a _ _ ha; exact ⟨a, rfl, rfl, ha, fun _ _ => rfl⟩
  | succ fuel ih =>
    intro i a hi hlen ha
    unfold apmCopyRows
    by_cases hin : i < n
    · have h1 : (i + 1) * w ≤ n * w := Nat.mul_le_mul_right w (by omega)
      have h2 : i * w ≤ (i + 1) * w := Nat.mul_le_mul_right w (by omega)
      have h3 : w ≤ n * w := by
        calc w = 1 * w := (Nat.one_mul w).symm
          _ ≤ n * w := Nat.mul_le_mul_right w (by omega)
      have e1 : (i * w) % 2 ^ 64 = i * w := Nat.mod_eq_of_lt (by omega)
      have e2 : ((i + 1) * w) % 2 ^ 64 = (i + 1) * w := Nat.mod_eq_of_lt (by omega)
      have hc : chk (i * w ≤ (i + 1) * w ∧ (i + 1) * w ≤ a.len ∧ w ≤ a.len) = some () :=
        chk_eq_some.2 ⟨h2, by omega, by omega⟩
      simp only [hin, if_true, e1, e2, hc, bind, andThen]
      have h4 : w ≤ i * w := by
        calc w = 1 * w := (Nat.one_mul w).symm
          _ ≤ i * w := Nat.mul_le_mul_right w hi
      obtain ⟨a2, g1, g2, g3, g4⟩ := ih (i + 1)
        ⟨a.len, fun k => if i * w ≤ k ∧ k < (i + 1) * w ∧ k - i * w < w then a.cell (k - i * w)
          else a.cell k⟩ (by omega) hlen
        (by
          intro k
          show 0 ≤ (if i * w ≤ k ∧ k < (i + 1) * w ∧ k - i * w < w then a.cell (k - i * w)
              else a.cell k) ∧
            (if i * w ≤ k ∧ k < (i + 1) * w ∧ k - i * w < w then a.cell (k - i * w)
              else a.cell k) ≤ B k
          split
          · rename_i hk
            have := ha (k - i * w)
            have e := hshift (k - i * w) i
            rw [show k - i * w + i * w = k by omega] at e
            rw [e]; exact this
          · exact ha k)
      refine ⟨a2, g1, g2, g3, ?_⟩
      intro k hk
      rw [g4 k hk]
      show (if i * w ≤ k ∧ k < (i + 1) * w ∧ k - i * w < w then a.cell (k - i * w)
        else a.cell k) = a.cell k
      rw [if_neg (by omega)]
    · simp only [hin, if_false]
      exact ⟨a, rfl, rfl, ha, fun _ _ => rfl⟩

theorem newAdaptiveProbMap_spec (w : Nat) (f : Nat → Int) (n rate : Nat) (B : Nat → Int)
    (hn : 1 ≤ n) (hw : 2 ≤ w) (hsz : n * w < 2 ^ 63) (hr : rate ≠ 31)
    (hB : ∀ k, 0 ≤ B k) (hshift : ∀ k i, B (k + i * w) = B k)
    (hf : ∀ j, j < w → 0 ≤ f j ∧ f j ≤ B j) :
    ∃ a, newAdaptiveProbMap w f n rate = some a ∧ ApmIn w n B a ∧ a.rate = rate ∧
      ∀ k, k < w → a.data.cell k = f k := by
  have h3 : w ≤ n * w := by
    calc w = 1 * w := (Nat.one_mul w).symm
      _ ≤ n * w := Nat.mul_le_mul_right w (by omega)
  have e0 : (n * w) % 2 ^ 64 = n * w := Nat.mod_eq_of_lt (by omega)
  obtain ⟨a1, p1, p2, p3, p4⟩ := apmInitRow_spec f B w 0 (Arr.make (n * w) 0)
    (by simpa [Arr.make] using h3) (fun k => ⟨Int.le_refl _, hB k⟩)
    (fun i _ hi => hf i (by omega))
  obtain ⟨a2, q1, q2, q3, q4⟩ : ∃ a2, apmCopyRows w n n 1 a1 = some a2 ∧ a2.len = a1.len ∧
      (∀ k, 0 ≤ a2.cell k ∧ a2.cell k ≤ B k) ∧ ∀ k, k < w → a2.cell k = a1.cell k :=
    apmCopyRows_spec w n B hsz hshift n 1 a1 (Nat.le_refl _) (by rw [p2]; rfl) p3
  refine ⟨⟨0, rate, a2⟩, ?_, ⟨hr, by rw [q2, p2]; rfl, Int.le_refl _, ?_, q3⟩, rfl, ?_⟩
  · unfold newAdaptiveProbMap
    simp only [e0, p1, q1, bind, andThen, pure]
  · show (0 : Int) + 1 < ((n * w : Nat) : Int)
    omega
  · intro k hk
    rw [q4 k hk, p4 k]
    simp [hk]
theorem stretch_ok (T : ProbTables) (hT : T.Ok) (pr : Int) (h0 : 0 ≤ pr) (h1 : pr ≤ 4095) :
    ∃ s, T.stretch pr = some s ∧ -2047 ≤ s ∧ s ≤ 2047 := by
  obtain ⟨hl, hv, -⟩ := hT
  have hlt : pr.toNat < T.STRETCH.length := by omega
  refine ⟨T.STRETCH[pr.toNat], ?_, hv _ (List.getElem_mem hlt)⟩
  unfold ProbTables.stretch
  simp only [h0, if_true, List.getElem?_eq_getElem hlt]

theorem getI_eq (a : Arr Int) (i : Int) (h0 : 0 ≤ i) (h1 : i.toNat < a.len) :
    a.getI i = some (a.cell i.toNat) := by
  unfold Arr.getI Arr.get
  simp only [h0, h1, if_true]

theorem getI_some {a : Arr Int} {i v : Int} (h : a.getI i = some v) :
    0 ≤ i ∧ i.toNat < a.len ∧ v = a.cell i.toNat := by
  unfold Arr.getI Arr.get at h
  split at h
  · split at h
    · cases h; exact ⟨by assumption, by assumption, rfl⟩
    · cases h
  · cases h

theorem interpolate_range (d0 d1 w : Int) (h00 : 0 ≤ d0) (h01 : d0 ≤ 65536) (h10 : 0 ≤ d1)
    (h11 : d1 ≤ 65536) (hw0 : 0 ≤ w) (hw1 : w ≤ 127)
    (hc : d0 = 65536 → d1 ≤ 65535 ∧ 1 ≤ w) :
    0 ≤ (i32 (i32 (d1 * i32 w) + i32 (d0 * i32 (128 - i32 w)))) >>> (11 : Nat) ∧
      (i32 (i32 (d1 * i32 w) + i32 (d0 * i32 (128 - i32 w)))) >>> (11 : Nat) ≤ 4095 := by
  have a1 : 0 ≤ d1 * w := Int.mul_nonneg h10 hw0
  have a2 : d1 * w ≤ 65536 * w := Int.mul_le_mul_of_nonneg_right h11 hw0
  have a3 : 0 ≤ d0 * (128 - w) := Int.mul_nonneg h00 (by omega)
  have a4 : d0 * (128 - w) ≤ 65536 * (128 - w) := Int.mul_le_mul_of_nonneg_right h01 (by omega)
  have a5 : d1 * w + d0 * (128 - w) ≤ 8388607 := by
    by_cases h : d0 = 65536
    · obtain ⟨h5, h6⟩ := hc h
      have : d1 * w ≤ 65535 * w := Int.mul_le_mul_of_nonneg_right h5 hw0
      omega
    · have : d0 * (128 - w) ≤ 65535 * (128 - w) :=
        Int.mul_le_mul_of_nonneg_right (by omega) (by omega)
      omega
  have a6 : 0 ≤ d1 * w + d0 * (128 - w) := by omega
  rw [i32_of_range w (by omega) (by omega), i32_of_range (128 - w) (by omega) (by omega),
    i32_of_range (d1 * w) (by omega) (by omega),
    i32_of_range (d0 * (128 - w)) (by omega) (by omega),
    i32_of_range (d1 * w + d0 * (128 - w)) (by omega) (by omega),
    Int.shiftRight_eq_div_pow]
  generalize d1 * w + d0 * (128 - w) = x at *
  norm_num
  omega

theorem apmInterpolate_spec (data : Arr Int) (index pr : Int) (h0 : 0 ≤ index)
    (h1 : index + 1 < (data.len : Int)) (hlen : data.len < 2 ^ 63)
    (hd : ∀ k, 0 ≤ data.cell k ∧ data.cell k ≤ 65536)
    (hc : data.cell index.toNat = 65536 →
      data.cell (index + 1).toNat ≤ 65535 ∧ 1 ≤ pr % 128) :
    ∃ v, apmInterpolate data index pr = some v ∧ 0 ≤ v ∧ v ≤ 4095 := by
  have e : i64 (index + 1) = index + 1 := i64_of_range _ (by omega) (by omega)
  unfold apmInterpolate
  simp only [e, getI_eq data index h0 (by omega),
    getI_eq data (index + 1) (by omega) (by omega), bind, andThen, pure]
  have hw : i32 (pr % 128) = pr % 128 := i32_of_range _ (by omega) (by omega)
  have := interpolate_range (data.cell index.toNat) (data.cell (index + 1).toNat) (pr % 128)
    (hd _).1 (hd _).2 (hd _).1 (hd _).2 (by omega) (by omega) hc
  rw [hw] at this
  exact ⟨_, rfl, by rw [hw]; exact this⟩
theorem logBound_ok (k : Nat) : 65535 ≤ logBound k ∧ logBound k ≤ 65536 := by
  unfold logBound; omega

theorem linBound_ok (k : Nat) : 65535 ≤ linBound k ∧ linBound k ≤ 65536 := by
  unfold linBound; split <;> omega

theorem shl64_ctx (ctx : Int) (k : Nat) (hk : k ≤ 6) (h0 : 0 ≤ ctx)
    (h1 : ctx < 2 ^ 56) : shl64 ctx k = ctx * ((2 ^ k : Nat) : Int) := by
  unfold shl64
  simp only [show k < 64 by omega, if_true]
  apply i64_of_range <;> interval_cases k <;> norm_num <;> omega

theorem logistic_index (s ctx : Int) (n : Nat) (hs0 : -2047 ≤ s) (hs1 : s ≤ 2047)
    (h0 : 0 ≤ ctx) (h1 : ctx < (n : Int)) (hsz : n * 33 < 2 ^ 56) :
    i64 (i64 ((i64 (s + 2048) >>> (7 : Nat)) + shl64 ctx 5) + ctx) =
      (s + 2048) / 128 + 33 * ctx ∧
    0 ≤ (s + 2048) / 128 + 33 * ctx ∧
    (s + 2048) / 128 + 33 * ctx + 1 < ((n * 33 : Nat) : Int) := by
  rw [shl64_ctx ctx 5 (by omega) h0 (by omega), i64_of_range (s + 2048) (by omega) (by omega),
    Int.shiftRight_eq_div_pow]
  norm_num
  rw [i64_of_range ((s + 2048) / 128 + ctx * 32) (by omega) (by omega),
    i64_of_range _ (by omega) (by omega)]
  omega

theorem Logistic_get_spec (T : ProbTables) (hT : T.Ok) (n : Nat) (hsz : n * 33 < 2 ^ 56)
    (a : AdaptiveProbMap) (ha : ApmIn 33 n logBound a) (bit pr ctx : Int)
    (hc : ValidCall n (bit, pr, ctx)) :
    ∃ a2 v, LogisticAdaptiveProbMap.get T a bit pr ctx = some (a2, v) ∧
      ApmIn 33 n logBound a2 ∧ 0 ≤ v ∧ v ≤ 4095 := by
  obtain ⟨hr, hlen, hi0, hi1, hd⟩ := ha
  obtain ⟨hbit, ⟨hp0, hp1⟩, hc0, hc1⟩ := hc
  simp only at hbit hp0 hp1 hc0 hc1
  have e1 : i64 (a.index + 1) = a.index + 1 := i64_of_range _ (by omega) (by omega)
  obtain ⟨d2, u1, u2, u3⟩ := apmUpdate_entries logBound logBound_ok a.data (a.index + 1) bit
    a.rate hr hbit (by omega) (by omega) hd
  obtain ⟨d3, v1, v2, v3⟩ := apmUpdate_entries logBound logBound_ok d2 a.index bit
    a.rate hr hbit hi0 (by omega) u3
  obtain ⟨s, hs, hs0, hs1⟩ := stretch_ok T hT pr hp0 hp1
  obtain ⟨x1, x2, x3⟩ := logistic_index s ctx n hs0 hs1 hc0 hc1 hsz
  obtain ⟨v, w1, w2, w3⟩ := apmInterpolate_spec d3 ((s + 2048) / 128 + 33 * ctx) s x2
    (by rw [v2, u2, hlen]; exact x3) (by omega)
    (fun k => ⟨(v3 k).1, by have := (v3 k).2; unfold logBound at this; omega⟩)
    (fun h => by have := (v3 ((s + 2048) / 128 + 33 * ctx).toNat).2; unfold logBound at this; omega)
  refine ⟨{ a with data := d3, index := (s + 2048) / 128 + 33 * ctx }, v, ?_,
    ⟨hr, by show d3.len = n * 33; rw [v2, u2, hlen], x2, x3, v3⟩, w2, w3⟩
  unfold LogisticAdaptiveProbMap.get
  simp only [e1, u1, v1, hs, x1, w1, bind, andThen, pure]

theorem FastLogistic_get_spec (T : ProbTables) (hT : T.Ok) (n : Nat) (hsz : n * 33 < 2 ^ 56)
    (a : AdaptiveProbMap) (ha : ApmIn 33 n logBound a) (bit pr ctx : Int)
    (hc : ValidCall n (bit, pr, ctx)) :
    ∃ a2 v, FastLogisticAdaptiveProbMap.get T a bit pr ctx = some (a2, v) ∧
      ApmIn 33 n logBound a2 ∧ 0 ≤ v ∧ v ≤ 4095 := by
  obtain ⟨hr, hlen, hi0, hi1, hd⟩ := ha
  obtain ⟨hbit, ⟨hp0, hp1⟩, hc0, hc1⟩ := hc
  simp only at hbit hp0 hp1 hc0 hc1
  obtain ⟨d3, v1, v2, v3⟩ := apmUpdate_entries logBound logBound_ok a.data a.index bit
    a.rate hr hbit hi0 (by omega) hd
  obtain ⟨s, hs, hs0, hs1⟩ := stretch_ok T hT pr hp0 hp1
  obtain ⟨x1, x2, x3⟩ := logistic_index s ctx n hs0 hs1 hc0 hc1 hsz
  have hg := getI_eq d3 ((s + 2048) / 128 + 33 * ctx) x2 (by omega)
  have hb := v3 ((s + 2048) / 128 + 33 * ctx).toNat
  unfold logBound at hb
  refine ⟨{ a with data := d3, index := (s + 2048) / 128 + 33 * ctx },
    (d3.cell ((s + 2048) / 128 + 33 * ctx).toNat) >>> (4 : Nat), ?_,
    ⟨hr, by show d3.len = n * 33; rw [v2, hlen], x2, x3, v3⟩, ?_, ?_⟩
  · unfold FastLogisticAdaptiveProbMap.get
    simp only [v1, hs, x1, hg, bind, andThen, pure]
  · rw [Int.shiftRight_eq_div_pow]; norm_num; omega
  · rw [Int.shiftRight_eq_div_pow]; norm_num; omega
theorem linear_index (s ctx : Int) (n : Nat) (hs0 : -2047 ≤ s) (hs1 : s ≤ 2047)
    (h0 : 0 ≤ ctx) (h1 : ctx < (n : Int)) (hsz : n * 65 < 2 ^ 56) :
    i64 (i64 ((s >>> (6 : Nat)) + shl64 ctx 6) + ctx) = s / 64 + 65 * ctx := by
  rw [shl64_ctx ctx 6 (by omega) h0 (by omega), Int.shiftRight_eq_div_pow]
  norm_num
  rw [i64_of_range (s / 64 + ctx * 64) (by omega) (by omega),
    i64_of_range _ (by omega) (by omega)]
  omega

theorem Linear_get_spec (T : ProbTables) (hT : T.Ok) (n : Nat) (hsz : n * 65 < 2 ^ 56)
    (a : AdaptiveProbMap) (ha : ApmIn 65 n linBound a) (bit pr ctx : Int)
    (hc : ValidCall n (bit, pr, ctx)) (a2 : AdaptiveProbMap) (v : Int)
    (h : LinearAdaptiveProbMap.get T a bit pr ctx = some (a2, v)) :
    ApmIn 65 n linBound a2 ∧ 0 ≤ v ∧ v ≤ 4095 := by
  obtain ⟨hr, hlen, hi0, hi1, hd⟩ := ha
  obtain ⟨hbit, ⟨hp0, hp1⟩, hc0, hc1⟩ := hc
  simp only at hbit hp0 hp1 hc0 hc1
  have e1 : i64 (a.index + 1) = a.index + 1 := i64_of_range _ (by omega) (by omega)
  obtain ⟨d2, u1, u2, u3⟩ := apmUpdate_entries linBound linBound_ok a.data (a.index + 1) bit
    a.rate hr hbit (by omega) (by omega) hd
  obtain ⟨d3, v1, v2, v3⟩ := apmUpdate_entries linBound linBound_ok d2 a.index bit
    a.rate hr hbit hi0 (by omega) u3
  obtain ⟨s, hs, hs0, hs1⟩ := stretch_ok T hT pr hp0 hp1
  have x1 := linear_index s ctx n hs0 hs1 hc0 hc1 hsz
  unfold LinearAdaptiveProbMap.get at h
  simp only [e1, u1, v1, hs, x1, bind, andThen, pure] at h
  cases hv : apmInterpolate d3 (s / 64 + 65 * ctx) s with
  | none => rw [hv] at h; cases h
  | some vv =>
    rw [hv] at h
    simp only [Option.some.injEq, Prod.mk.injEq] at h
    obtain ⟨rfl, rfl⟩ := h
    have hv2 := hv
    unfold apmInterpolate at hv2
    obtain ⟨c1, g1, hv3⟩ := bind_eq_some_iff.1 hv2
    obtain ⟨c0, g0, -⟩ := bind_eq_some_iff.1 hv3
    obtain ⟨k1, k2, -⟩ := getI_some g1
    obtain ⟨k3, k4, -⟩ := getI_some g0
    have hlen3 : d3.len = n * 65 := by rw [v2, u2, hlen]
    have k5 : i64 (s / 64 + 65 * ctx + 1) = s / 64 + 65 * ctx + 1 :=
      i64_of_range _ (by omega) (by omega)
    rw [k5] at k1 k2
    have x3 : s / 64 + 65 * ctx + 1 < (d3.len : Int) := by omega
    obtain ⟨v', w1, w2, w3⟩ := apmInterpolate_spec d3 (s / 64 + 65 * ctx) s k3 x3 (by omega)
      (fun k => ⟨(v3 k).1, le_trans (v3 k).2 (linBound_ok k).2⟩)
      (by
        intro h6
        have b0 := (v3 (s / 64 + 65 * ctx).toNat).2
        have b1 := (v3 (s / 64 + 65 * ctx + 1).toNat).2
        unfold linBound at b0 b1
        split at b0
        · rename_i hm
          rw [if_neg (by omega)] at b1
          exact ⟨b1, by omega⟩
        · omega)
    rw [hv] at w1
    cases w1
    exact ⟨⟨hr, hlen3, k3, by rw [← hlen3]; exact x3, v3⟩, w2, w3⟩

/-- A Linear map returns from `get` when the context is not the first one or
the stretched probability is not negative. -/
theorem Linear_get_returns (T : ProbTables) (n : Nat) (hsz : n * 65 < 2 ^ 56)
    (a : AdaptiveProbMap) (ha : ApmIn 65 n linBound a) (bit pr ctx s : Int)
    (hbit : bit = 0 ∨ bit = 1) (hs : T.stretch pr = some s) (hs0 : -2047 ≤ s) (hs1 : s ≤ 2047)
    (hc0 : 0 ≤ ctx) (hc1 : ctx < (n : Int)) (hpos : 1 ≤ ctx ∨ 0 ≤ s) :
    ∃ r, LinearAdaptiveProbMap.get T a bit pr ctx = some r := by
  obtain ⟨hr, hlen, hi0, hi1, hd⟩ := ha
  have e1 : i64 (a.index + 1) = a.index + 1 := i64_of_range _ (by omega) (by omega)
  obtain ⟨d2, u1, u2, u3⟩ := apmUpdate_entries linBound linBound_ok a.data (a.index + 1) bit
    a.rate hr hbit (by omega) (by omega) hd
  obtain ⟨d3, v1, v2, v3⟩ := apmUpdate_entries linBound linBound_ok d2 a.index bit
    a.rate hr hbit hi0 (by omega) u3
  have x1 := linear_index s ctx n hs0 hs1 hc0 hc1 hsz
  have hlen3 : d3.len = n * 65 := by rw [v2, u2, hlen]
  have k3 : 0 ≤ s / 64 + 65 * ctx := by omega
  have k5 : i64 (s / 64 + 65 * ctx + 1) = s / 64 + 65 * ctx + 1 :=
    i64_of_range _ (by omega) (by omega)
  unfold LinearAdaptiveProbMap.get apmInterpolate
  simp only [e1, u1, v1, hs, x1, k5, getI_eq d3 _ k3 (by omega),
    getI_eq d3 (s / 64 + 65 * ctx + 1) (by omega) (by omega), bind, andThen, pure]
  exact ⟨_, rfl⟩

/-- A Linear map panics in `get` when the context is 0 and the stretched
probability is negative: the index `(pr >> 6) + 65*ctx` is negative. -/
theorem Linear_get_panics (T : ProbTables) (a : AdaptiveProbMap) (bit pr s : Int)
    (hs : T.stretch pr = some s) (hs0 : -2047 ≤ s) (hneg : s < 0) :
    LinearAdaptiveProbMap.get T a bit pr 0 = none := by
  have x1 : i64 (i64 ((s >>> (6 : Nat)) + shl64 0 6) + 0) = s / 64 := by
    have e : shl64 0 6 = 0 := by decide
    rw [e, Int.shiftRight_eq_div_pow]
    norm_num
    rw [i64_of_range (s / 64) (by omega) (by omega), i64_of_range (s / 64) (by omega) (by omega)]
  have hg : ∀ d : Arr Int, d.getI (s / 64) = none := by
    intro d
    unfold Arr.getI
    rw [if_neg (by omega)]
  unfold LinearAdaptiveProbMap.get
  simp only [bind, andThen]
  cases h1 : apmUpdate a.data (i64 (a.index + 1)) (apmTarget bit a.rate) a.rate with
  | none => rfl
  | some d2 =>
    simp only []
    cases h2 : apmUpdate d2 a.index (apmTarget bit a.rate) a.rate with
    | none => rfl
    | some d3 =>
      simp only [hs, x1, apmInterpolate, bind, andThen]
      cases h3 : d3.getI (i64 (s / 64 + 1)) with
      | none => rfl
      | some c => simp only [hg d3]
theorem apmRun_total
    (get : AdaptiveProbMap → Int → Int → Int → Option (AdaptiveProbMap × Int))
    (Ok : AdaptiveProbMap → Prop) (n : Nat)
    (hstep : ∀ a bit pr ctx, Ok a → ValidCall n (bit, pr, ctx) →
      ∃ a2 v, get a bit pr ctx = some (a2, v) ∧ Ok a2 ∧ 0 ≤ v ∧ v ≤ 4095) :
    ∀ (calls : List (Int × Int × Int)) (a : AdaptiveProbMap), Ok a →
      (∀ c ∈ calls, ValidCall n c) →
      ∃ a2 vs, apmRun get a calls = some (a2, vs) ∧ Ok a2 ∧ vs.length = calls.length ∧
        ∀ v ∈ vs, 0 ≤ v ∧ v ≤ 4095 := by
  intro calls
  induction calls with
  | nil => intro a ha _; exact ⟨a, [], rfl, ha, rfl, by simp⟩
  | cons c cs ih =>
    intro a ha hc
    obtain ⟨bit, pr, ctx⟩ := c
    obtain ⟨a1, v, g1, g2, g3⟩ := hstep a bit pr ctx ha (hc _ (List.mem_cons_self _ _))
    obtain ⟨a2, vs, r1, r2, r3, r4⟩ := ih a1 g2 (fun c h => hc c (List.mem_cons_of_mem _ h))
    refine ⟨a2, v :: vs, ?_, r2, by simp [r3], ?_⟩
    · unfold apmRun
      simp only [g1, r1, bind, andThen, pure]
    · intro x hx
      rcases List.mem_cons.1 hx with rfl | hx
      · exact g3
      · exact r4 x hx

theorem apmRun_sound
    (get : AdaptiveProbMap → Int → Int → Int → Option (AdaptiveProbMap × Int))
    (Ok : AdaptiveProbMap → Prop) (n : Nat)
    (hstep : ∀ a bit pr ctx a2 v, Ok a → ValidCall n (bit, pr, ctx) →
      get a bit pr ctx = some (a2, v) → Ok a2 ∧ 0 ≤ v ∧ v ≤ 4095) :
    ∀ (calls : List (Int × Int × Int)) (a a2 : AdaptiveProbMap) (vs : List Int), Ok a →
      (∀ c ∈ calls, ValidCall n c) → apmRun get a calls = some (a2, vs) →
      Ok a2 ∧ ∀ v ∈ vs, 0 ≤ v ∧ v ≤ 4095 := by
  intro calls
  induction calls with
  | nil =>
    intro a a2 vs ha _ h
    simp only [apmRun, Option.some.injEq, Prod.mk.injEq] at h
    obtain ⟨rfl, rfl⟩ := h
    exact ⟨ha, by simp⟩
  | cons c cs ih =>
    intro a a2 vs ha hc h
    obtain ⟨bit, pr, ctx⟩ := c
    unfold apmRun at h
    obtain ⟨⟨a1, v⟩, g1, h2⟩ := bind_eq_some_iff.1 h
    obtain ⟨⟨a3, ws⟩, r1, h3⟩ := bind_eq_some_iff.1 h2
    simp only [pure, Option.some.injEq, Prod.mk.injEq] at h3
    obtain ⟨rfl, rfl⟩ := h3
    obtain ⟨k1, k2⟩ := hstep a bit pr ctx a1 v ha (hc _ (List.mem_cons_self _ _)) g1
    obtain ⟨k3, k4⟩ := ih a1 a3 ws k1 (fun c h => hc c (List.mem_cons_of_mem _ h)) r1
    refine ⟨k3, ?_⟩
    intro x hx
    rcases List.mem_cons.1 hx with rfl | hx
    · exact k2
    · exact k4 x hx

theorem zeroTables_ok : zeroTables.Ok := by
  refine ⟨List.length_replicate _ _, ?_, ?_⟩
  · intro x hx
    have : x = 0 := List.eq_of_mem_replicate hx
    omega
  · intro x; show (0 : Int) ≤ 0 ∧ (0 : Int) ≤ 4095; omega

theorem logistic_row (T : ProbTables) (hT : T.Ok) (j : Nat) :
    0 ≤ i32 (shl64 (T.Squash (shl64 ((j : Int) - 16) 7)) 4) ∧
      i32 (shl64 (T.Squash (shl64 ((j : Int) - 16) 7)) 4) ≤ logBound j := by
  obtain ⟨q0, q1⟩ := hT.2.2 (shl64 ((j : Int) - 16) 7)
  generalize T.Squash (shl64 ((j : Int) - 16) 7) = q at *
  have e : shl64 q 4 = q * 16 := by
    unfold shl64
    simp only [show (4 : Nat) < 64 by omega, if_true]
    rw [i64_of_range _ (by norm_num; omega) (by norm_num; omega)]
    norm_num
  rw [e, i32_of_range _ (by omega) (by omega)]
  unfold logBound
  omega

theorem linear_row (j : Nat) (hj : j < 65) :
    i32 (i32 (shl64 (j : Int) 6) * 16) = 1024 * (j : Int) := by
  have e : shl64 (j : Int) 6 = (j : Int) * 64 := by
    unfold shl64
    simp only [show (6 : Nat) < 64 by omega, if_true]
    rw [i64_of_range _ (by norm_num; omega) (by norm_num; omega)]
    norm_num
  rw [e, i32_of_range ((j : Int) * 64) (by omega) (by omega),
    i32_of_range ((j : Int) * 64 * 16) (by omega) (by omega)]
  omega

theorem newLogistic_in (T : ProbTables) (hT : T.Ok) (n rate : Nat) (hn : 1 ≤ n)
    (hsz : n < 2 ^ 48) (hr : rate ≠ 31) :
    ∃ a, newLogisticAdaptiveProbMap T n rate = some a ∧ ApmIn 33 n logBound a ∧
      a.rate = rate := by
  obtain ⟨a, h1, h2, h3, -⟩ := newAdaptiveProbMap_spec 33
    (fun j => i32 (shl64 (T.Squash (shl64 ((j : Int) - 16) 7)) 4)) n rate logBound hn
    (by omega) (by omega) hr (fun k => by unfold logBound; omega) (fun _ _ => rfl)
    (fun j _ => logistic_row T hT j)
  exact ⟨a, h1, h2, h3⟩

theorem newLinear_in (n rate : Nat) (hn : 1 ≤ n) (hsz : n < 2 ^ 48) (hr : rate ≠ 31) :
    ∃ a, newLinearAdaptiveProbMap n rate = some a ∧ ApmIn 65 n linBound a ∧
      a.data.cell 64 = 65536 ∧ a.rate = rate := by
  obtain ⟨a, h1, h2, h3, h4⟩ := newAdaptiveProbMap_spec 65
    (fun j => i32 (i32 (shl64 (j : Int) 6) * 16)) n rate linBound hn
    (by omega) (by omega) hr (fun k => by unfold linBound; split <;> omega)
    (fun k i => by unfold linBound; rw [Nat.add_mul_mod_self_right])
    (fun j hj => by
      show 0 ≤ i32 (i32 (shl64 (j : Int) 6) * 16) ∧ i32 (i32 (shl64 (j : Int) 6) * 16) ≤ _
      rw [linear_row j hj]
      unfold linBound
      split <;> omega)
  refine ⟨a, h1, h2, ?_, h3⟩
  rw [h4 64 (by omega)]
  exact linear_row 64 (by omega)

theorem newLogistic_ok (T : ProbTables) (hT : T.Ok) (n rate : Nat) (hn : 1 ≤ n)
    (hsz : n < 2 ^ 48) (hr : rate ≤ 30) :
    ∃ a, newLogisticAdaptiveProbMap T n rate = some a ∧ ApmOk 33 n logBound a := by
  obtain ⟨a, h1, h2, h3⟩ := newLogistic_in T hT n rate hn hsz (by omega)
  exact ⟨a, h1, by rw [h3]; exact hr, h2.2⟩

theorem newLinear_ok (n rate : Nat) (hn : 1 ≤ n) (hsz : n < 2 ^ 48) (hr : rate ≤ 30) :
    ∃ a, newLinearAdaptiveProbMap n rate = some a ∧ ApmOk 65 n linBound a ∧
      a.data.cell 64 = 65536 := by
  obtain ⟨a, h1, h2, h3, h4⟩ := newLinear_in n rate hn hsz (by omega)
  exact ⟨a, h1, ⟨by rw [h4]; exact hr, h2.2⟩, h3⟩

/-- C18, refuted as stated (every rate): rate 31. With rate 31 the value
`g = int32(65536 + 2^31 - 2)` wraps to a negative number: the first call
`get(1, 0, 0)` on a new Linear map of one row, with a `STRETCH` table of
zeros, lowers entry 0 from 0 to -1 and returns -1. -/
theorem apm_get_rate_31_negative :
    zeroTables.Ok ∧ ValidCall 1 (1, 0, 0) ∧
    (newLinearAdaptiveProbMap 1 31).bind
        (fun a => (LinearAdaptiveProbMap.get zeroTables a 1 0 0).map
          (fun r => (r.2, r.1.data.cell 0))) = some (-1, -1) := by
  refine ⟨zeroTables_ok, ?_, ?_⟩
  · unfold ValidCall; decide
  · decide!

/-- C18, amended. With `STRETCH` of 4096 entries in `[-2047..2047]` and
`Squash` in `[0..4095]`, for every `n ≥ 1` (below `2^48`), every rate other
than 31 and every sequence of calls `get(bit, pr, ctx)` with `bit` in `{0,1}`,
`pr` in `[0..4095]`, `ctx` in `[0..n-1]`: a Logistic and a FastLogistic map
return from every call with a value in `[0..4095]`; every value a Linear map
returns lies in `[0..4095]`. -/
theorem apm_get_range (T : ProbTables) (hT : T.Ok) (n rate : Nat) (hn : 1 ≤ n)
    (hsz : n < 2 ^ 48) (hr : rate ≠ 31) (calls : List (Int × Int × Int))
    (hc : ∀ c ∈ calls, ValidCall n c) :
    (∃ a a2 vs, newLogisticAdaptiveProbMap T n rate = some a ∧
      apmRun (LogisticAdaptiveProbMap.get T) a calls = some (a2, vs) ∧
      vs.length = calls.length ∧ ∀ v ∈ vs, 0 ≤ v ∧ v ≤ 4095) ∧
    (∃ a a2 vs, newFastLogisticAdaptiveProbMap T n rate = some a ∧
      apmRun (FastLogisticAdaptiveProbMap.get T) a calls = some (a2, vs) ∧
      vs.length = calls.length ∧ ∀ v ∈ vs, 0 ≤ v ∧ v ≤ 4095) ∧
    (∃ a, newLinearAdaptiveProbMap n rate = some a ∧
      ∀ a2 vs, apmRun (LinearAdaptiveProbMap.get T) a calls = some (a2, vs) →
        ∀ v ∈ vs, 0 ≤ v ∧ v ≤ 4095) := by
  obtain ⟨a, h1, h2, -⟩ := newLogistic_in T hT n rate hn hsz hr
  obtain ⟨b, g1, g2, -, -⟩ := newLinear_in n rate hn hsz hr
  refine ⟨?_, ?_, ?_⟩
  · obtain ⟨a2, vs, r1, -, r3, r4⟩ := apmRun_total (LogisticAdaptiveProbMap.get T)
      (ApmIn 33 n logBound) n
      (fun a bit pr ctx ha hv => Logistic_get_spec T hT n (by omega) a ha bit pr ctx hv)
      calls a h2 hc
    exact ⟨a, a2, vs, h1, r1, r3, r4⟩
  · obtain ⟨a2, vs, r1, -, r3, r4⟩ := apmRun_total (FastLogisticAdaptiveProbMap.get T)
      (ApmIn 33 n logBound) n
      (fun a bit pr ctx ha hv => FastLogistic_get_spec T hT n (by omega) a ha bit pr ctx hv)
      calls a h2 hc
    exact ⟨a, a2, vs, h1, r1, r3, r4⟩
  · refine ⟨b, g1, ?_⟩
    intro a2 vs hrun
    exact (apmRun_sound (LinearAdaptiveProbMap.get T) (ApmIn 65 n linBound) n
      (fun a bit pr ctx a2 v ha hv h => Linear_get_spec T hT n (by omega) a ha bit pr ctx hv a2 v h)
      calls b a2 vs g2 hc hrun).2

/-- Witness of C18 (amended): one row, rate 5, the calls `get(1, 2048, 0)` and
`get(0, 100, 0)` with the tables of zeros. -/
theorem apm_get_range_witness :
    (∃ a a2 vs, newLogisticAdaptiveProbMap zeroTables 1 5 = some a ∧
      apmRun (LogisticAdaptiveProbMap.get zeroTables) a [(1, 2048, 0), (0, 100, 0)] =
        some (a2, vs) ∧
      vs.length = [((1 : Int), (2048 : Int), (0 : Int)), (0, 100, 0)].length ∧
      ∀ v ∈ vs, 0 ≤ v ∧ v ≤ 4095) ∧
    (∃ a a2 vs, newFastLogisticAdaptiveProbMap zeroTables 1 5 = some a ∧
      apmRun (FastLogisticAdaptiveProbMap.get zeroTables) a [(1, 2048, 0), (0, 100, 0)] =
        some (a2, vs) ∧
      vs.length = [((1 : Int), (2048 : Int), (0 : Int)), (0, 100, 0)].length ∧
      ∀ v ∈ vs, 0 ≤ v ∧ v ≤ 4095) ∧
    (∃ a, newLinearAdaptiveProbMap 1 5 = some a ∧
      ∀ a2 vs, apmRun (LinearAdaptiveProbMap.get zeroTables) a [(1, 2048, 0), (0, 100, 0)] =
          some (a2, vs) →
        ∀ v ∈ vs, 0 ≤ v ∧ v ≤ 4095) :=
  apm_get_range zeroTables zeroTables_ok 1 5 (by decide) (by decide) (by decide)
    [(1, 2048, 0), (0, 100, 0)]
    (by
      intro c hc
      simp only [List.mem_cons, List.mem_singleton, List.not_mem_nil, or_false] at hc
      rcases hc with rfl | rfl <;> (unfold ValidCall; decide))

/-- C19, refuted as stated. The entries are `int32` and exceed the signed
16-bit range from construction on: a new Linear map of one row has 65 entries
and entry 64 is `int32(64<<6) << 4 = 65536`, entry 32 is 32768.  The rate 31
is apart: there the first call `get(1, 0, 0)` on a new Linear map, with a
`STRETCH` table of zeros, takes entry 0 from 0 to -1. -/
theorem apm_linear_entry_exceeds_int16 :
    (newLinearAdaptiveProbMap 1 5).map (fun a => (a.data.len, a.data.cell 64, a.data.cell 32)) =
      some (65, 65536, 32768) ∧
    (newLinearAdaptiveProbMap 1 31).bind
        (fun a => (LinearAdaptiveProbMap.get zeroTables a 1 0 0).map
          (fun r => r.1.data.cell 0)) = some (-1) := by
  constructor <;> decide!

/-- C19, amended. Under the assumptions of C18 (every rate other than 31),
after construction and after every sequence of valid calls of `get`, every entry of
a Logistic or FastLogistic map lies in `[0..65535]`, and every entry of a
Linear map lies in `[0..65536]`. -/
theorem apm_entries_range (T : ProbTables) (hT : T.Ok) (n rate : Nat) (hn : 1 ≤ n)
    (hsz : n < 2 ^ 48) (hr : rate ≠ 31) (calls : List (Int × Int × Int))
    (hc : ∀ c ∈ calls, ValidCall n c) :
    (∃ a a2 vs, newLogisticAdaptiveProbMap T n rate = some a ∧
      apmRun (LogisticAdaptiveProbMap.get T) a calls = some (a2, vs) ∧
      ∀ k, 0 ≤ a2.data.cell k ∧ a2.data.cell k ≤ 65535) ∧
    (∃ a a2 vs, newFastLogisticAdaptiveProbMap T n rate = some a ∧
      apmRun (FastLogisticAdaptiveProbMap.get T) a calls = some (a2, vs) ∧
      ∀ k, 0 ≤ a2.data.cell k ∧ a2.data.cell k ≤ 65535) ∧
    (∃ a, newLinearAdaptiveProbMap n rate = some a ∧
      ∀ a2 vs, apmRun (LinearAdaptiveProbMap.get T) a calls = some (a2, vs) →
        ∀ k, 0 ≤ a2.data.cell k ∧ a2.data.cell k ≤ 65536) := by
  obtain ⟨a, h1, h2, -⟩ := newLogistic_in T hT n rate hn hsz hr
  obtain ⟨b, g1, g2, -, -⟩ := newLinear_in n rate hn hsz hr
  refine ⟨?_, ?_, ?_⟩
  · obtain ⟨a2, vs, r1, r2, -, -⟩ := apmRun_total (LogisticAdaptiveProbMap.get T)
      (ApmIn 33 n logBound) n
      (fun a bit pr ctx ha hv => Logistic_get_spec T hT n (by omega) a ha bit pr ctx hv)
      calls a h2 hc
    exact ⟨a, a2, vs, h1, r1, r2.2.2.2.2⟩
  · obtain ⟨a2, vs, r1, r2, -, -⟩ := apmRun_total (FastLogisticAdaptiveProbMap.get T)
      (ApmIn 33 n logBound) n
      (fun a bit pr ctx ha hv => FastLogistic_get_spec T hT n (by omega) a ha bit pr ctx hv)
      calls a h2 hc
    exact ⟨a, a2, vs, h1, r1, r2.2.2.2.2⟩
  · refine ⟨b, g1, ?_⟩
    intro a2 vs hrun k
    have := (apmRun_sound (LinearAdaptiveProbMap.get T) (ApmIn 65 n linBound) n
      (fun a bit pr ctx a2 v ha hv h => Linear_get_spec T hT n (by omega) a ha bit pr ctx hv a2 v h)
      calls b a2 vs g2 hc hrun).1.2.2.2.2 k
    exact ⟨this.1, le_trans this.2 (linBound_ok k).2⟩

/-- Witness of C19 (amended): two rows, rate 32, the calls `get(1, 4095, 1)`
and `get(0, 0, 1)` with the tables of zeros. -/
theorem apm_entries_range_witness :
    (∃ a a2 vs, newLogisticAdaptiveProbMap zeroTables 2 32 = some a ∧
      apmRun (LogisticAdaptiveProbMap.get zeroTables) a [(1, 4095, 1), (0, 0, 1)] =
        some (a2, vs) ∧
      ∀ k, 0 ≤ a2.data.cell k ∧ a2.data.cell k ≤ 65535) ∧
    (∃ a a2 vs, newFastLogisticAdaptiveProbMap zeroTables 2 32 = some a ∧
      apmRun (FastLogisticAdaptiveProbMap.get zeroTables) a [(1, 4095, 1), (0, 0, 1)] =
        some (a2, vs) ∧
      ∀ k, 0 ≤ a2.data.cell k ∧ a2.data.cell k ≤ 65535) ∧
    (∃ a, newLinearAdaptiveProbMap 2 32 = some a ∧
      ∀ a2 vs, apmRun (LinearAdaptiveProbMap.get zeroTables) a [(1, 4095, 1), (0, 0, 1)] =
          some (a2, vs) →
        ∀ k, 0 ≤ a2.data.cell k ∧ a2.data.cell k ≤ 65536) :=
  apm_entries_range zeroTables zeroTables_ok 2 32 (by decide) (by decide) (by decide)
    [(1, 4095, 1), (0, 0, 1)]
    (by
      intro c hc
      simp only [List.mem_cons, List.mem_singleton, List.not_mem_nil, or_false] at hc
      rcases hc with rfl | rfl <;> (unfold ValidCall; decide))
/-! ## Invariants of the encoder of backend 2 -/

theorem Extends_refl (e : rolzEncoder rolzPredictor) : e.Extends e :=
  ⟨Nat.le_refl _, rfl, fun _ _ => rfl, rfl⟩

theorem Extends_trans {a b c : rolzEncoder rolzPredictor} (h1 : a.Extends b)
    (h2 : b.Extends c) : a.Extends c := by
  obtain ⟨p1, p2, p3, p4⟩ := h1
  obtain ⟨q1, q2, q3, q4⟩ := h2
  exact ⟨by omega, by rw [q2, p2], fun j hj => by rw [q3 j (by omega), p3 j hj], by rw [q4, p4]⟩

theorem flushLoop_keeps {σ : Type} : ∀ n (e e2 : rolzEncoder σ),
    rolzEncoder.flushLoop n e = some e2 →
    e.idx ≤ e2.idx ∧ e2.buf.length = e.buf.length ∧
      (∀ j, j < e.idx → rd e2.buf j = rd e.buf j) ∧ e2.predictors = e.predictors ∧
      e2.predictor = e.predictor := by
  intro n
  induction n with
  | zero =>
    intro e e2 h
    cases h
    exact ⟨Nat.le_refl _, rfl, fun _ _ => rfl, rfl, rfl⟩
  | succ n ih =>
    intro e e2 h
    unfold rolzEncoder.flushLoop at h
    split at h
    · obtain ⟨e1, h1, h2⟩ := bind_eq_some_iff.1 h
      unfold rolzEncoder.flush at h1
      obtain ⟨b, hb, h3⟩ := bind_eq_some_iff.1 h1
      cases h3
      have hbound := putUint32BE_bound hb
      obtain ⟨b2, q1, q2, q3, -⟩ := putUint32BE_spec e.buf e.idx
        ((e.high >>> 32) % 2 ^ 32) hbound
      rw [hb] at q1
      cases q1
      obtain ⟨r1, r2, r3, r4, r5⟩ := ih _ e2 h2
      simp only at r1 r2 r3 r4 r5
      exact ⟨by omega, by rw [r2, q2], fun j hj => by rw [r3 j (by omega), q3 j (Or.inl hj)],
        r4, r5⟩
    · cases h
      exact ⟨Nat.le_refl _, rfl, fun _ _ => rfl, rfl, rfl⟩

theorem predCfg_Update (p : rolzPredictor) (bit : Nat) :
    predCfg (p.Update bit) = predCfg p := by
  unfold predCfg rolzPredictor.Update
  exact rfl

theorem predCfg_setContext (p : rolzPredictor) (ctx : Nat) :
    predCfg (p.setContext ctx) = predCfg p := by
  unfold predCfg rolzPredictor.setContext
  exact rfl

theorem map_set_same {α β : Type} (f : α → β) (l : List α) (i : Nat) (p q : α)
    (hp : l[i]? = some p) (hq : f q = f p) : (l.set i q).map f = l.map f := by
  apply List.ext_getElem?
  intro j
  simp only [List.getElem?_map, List.getElem?_set]
  split
  · rename_i hij
    subst hij
    split
    · simp [hp, hq]
    · rename_i hlen
      simp [List.getElem?_eq_none (by omega : l.length ≤ i)]
  · rfl

theorem encodeBit_extends (e e2 : rolzEncoder rolzPredictor) (bit : Nat)
    (h : e.encodeBit RP bit = some e2) : e.Extends e2 ∧ e2.predictor = e.predictor := by
  unfold rolzEncoder.encodeBit at h
  obtain ⟨p, hp, h2⟩ := bind_eq_some_iff.1 h
  obtain ⟨r1, r2, r3, r4, r5⟩ := flushLoop_keeps 2 _ e2 h2
  simp only at r1 r2 r3 r4 r5
  refine ⟨⟨r1, r2, r3, ?_⟩, r5⟩
  rw [r4]
  exact map_set_same predCfg _ _ p _ hp (predCfg_Update p bit)

theorem encodeByte_extends (e e2 : rolzEncoder rolzPredictor) (val : Nat)
    (h : e.encodeByte RP val = some e2) : e.Extends e2 ∧ e2.predictor = e.predictor := by
  unfold rolzEncoder.encodeByte at h
  obtain ⟨a1, h1, h⟩ := bind_eq_some_iff.1 h
  obtain ⟨a2, h2, h⟩ := bind_eq_some_iff.1 h
  obtain ⟨a3, h3, h⟩ := bind_eq_some_iff.1 h
  obtain ⟨a4, h4, h⟩ := bind_eq_some_iff.1 h
  obtain ⟨a5, h5, h⟩ := bind_eq_some_iff.1 h
  obtain ⟨a6, h6, h⟩ := bind_eq_some_iff.1 h
  obtain ⟨a7, h7, h8⟩ := bind_eq_some_iff.1 h
  obtain ⟨x1, y1⟩ := encodeBit_extends _ _ _ h1
  obtain ⟨x2, y2⟩ := encodeBit_extends _ _ _ h2
  obtain ⟨x3, y3⟩ := encodeBit_extends _ _ _ h3
  obtain ⟨x4, y4⟩ := encodeBit_extends _ _ _ h4
  obtain ⟨x5, y5⟩ := encodeBit_extends _ _ _ h5
  obtain ⟨x6, y6⟩ := encodeBit_extends _ _ _ h6
  obtain ⟨x7, y7⟩ := encodeBit_extends _ _ _ h7
  obtain ⟨x8, y8⟩ := encodeBit_extends _ _ _ h8
  exact ⟨Extends_trans x1 (Extends_trans x2 (Extends_trans x3 (Extends_trans x4
    (Extends_trans x5 (Extends_trans x6 (Extends_trans x7 x8)))))),
    by rw [y8, y7, y6, y5, y4, y3, y2, y1]⟩

theorem encodeLiteral_extends (e e2 : rolzEncoder rolzPredictor) (val : Nat)
    (h : encodeLiteral e val = some e2) : e.Extends e2 ∧ e2.predictor = e.predictor := by
  unfold encodeLiteral at h
  obtain ⟨a1, h1, h2⟩ := bind_eq_some_iff.1 h
  obtain ⟨x1, y1⟩ := encodeBit_extends _ _ _ h1
  obtain ⟨x2, y2⟩ := encodeByte_extends _ _ _ h2
  exact ⟨Extends_trans x1 x2, by rw [y2, y1]⟩

theorem encodeIndexBits_extends (matchIdx : Int) : ∀ n (e e2 : rolzEncoder rolzPredictor),
    encodeIndexBits matchIdx n e = some e2 → e.Extends e2 ∧ e2.predictor = e.predictor := by
  intro n
  induction n with
  | zero => intro e e2 h; cases h; exact ⟨Extends_refl e, rfl⟩
  | succ n ih =>
    intro e e2 h
    unfold encodeIndexBits at h
    obtain ⟨a1, h1, h2⟩ := bind_eq_some_iff.1 h
    obtain ⟨x1, y1⟩ := encodeBit_extends _ _ _ h1
    obtain ⟨x2, y2⟩ := ih _ _ h2
    exact ⟨Extends_trans x1 x2, by rw [y2, y1]⟩

theorem setPredictorContext_cfg (ps ps2 : List rolzPredictor) (k ctx : Nat)
    (h : setPredictorContext ps k ctx = some ps2) : ps2.map predCfg = ps.map predCfg := by
  unfold setPredictorContext at h
  obtain ⟨p, hp, h2⟩ := bind_eq_some_iff.1 h
  cases h2
  exact map_set_same predCfg _ _ p _ hp (predCfg_setContext p ctx)

theorem setContext_fields {σ : Type} (e e2 : rolzEncoder σ) (n : Nat)
    (h : e.setContext n = some e2) :
    e2.predictors = e.predictors ∧ e2.buf = e.buf ∧ e2.idx = e.idx ∧ e2.low = e.low ∧
      e2.high = e.high := by
  unfold rolzEncoder.setContext at h
  obtain ⟨p, hp, h2⟩ := bind_eq_some_iff.1 h
  cases h2
  exact ⟨rfl, rfl, rfl, rfl, rfl⟩
theorem SameCfg_refl (t : rolzCodec1) : t.SameCfg t := ⟨rfl, rfl, rfl, rfl, rfl⟩

theorem SameCfg_trans {a b c : rolzCodec1} (h1 : a.SameCfg b) (h2 : b.SameCfg c) :
    a.SameCfg c := by
  obtain ⟨p1, p2, p3, p4, p5⟩ := h1
  obtain ⟨q1, q2, q3, q4, q5⟩ := h2
  exact ⟨p1.trans q1, p2.trans q2, p3.trans q3, p4.trans q4, p5.trans q5⟩

theorem SameCfg_symm {a b : rolzCodec1} (h : a.SameCfg b) : b.SameCfg a := by
  obtain ⟨p1, p2, p3, p4, p5⟩ := h
  exact ⟨p1.symm, p2.symm, p3.symm, p4.symm, p5.symm⟩

theorem Arr_put_some {α : Type} {a a2 : Arr α} {i : Nat} {v : α} (h : a.put i v = some a2) :
    i < a.len ∧ a2.len = a.len ∧ ∀ j, a2.cell j = if j = i then v else a.cell j := by
  unfold Arr.put at h
  split at h
  · cases h; exact ⟨by assumption, rfl, fun _ => rfl⟩
  · cases h

theorem pos_entry (x pos : Nat) (hp : pos < 2 ^ 26) :
    ((x &&& ROLZ_HASH_MASK) ||| (pos % 2 ^ 32)) &&& ROLZ_POS_MASK = pos := by
  have e1 : pos % 2 ^ 32 = pos := Nat.mod_eq_of_lt (by omega)
  have e2 : pos &&& ROLZ_POS_MASK = pos := by
    have : ROLZ_POS_MASK = 2 ^ 26 - 1 := by decide
    rw [this, Nat.and_pow_two_sub_one_eq_mod]; omega
  have e3 : (x &&& ROLZ_HASH_MASK) &&& ROLZ_POS_MASK = 0 := by
    rw [Nat.and_assoc]
    have : ROLZ_HASH_MASK &&& ROLZ_POS_MASK = 0 := by decide
    rw [this, Nat.and_zero]
  rw [e1]
  apply Nat.eq_of_testBit_eq
  intro i
  have h2 := congrArg (fun y => y.testBit i) e2
  have h3 := congrArg (fun y => y.testBit i) e3
  simp only [Nat.testBit_and, Nat.testBit_or, Nat.zero_testBit] at h2 h3 ⊢
  cases hx : (x.testBit i) <;> cases hy : (pos.testBit i) <;>
    cases hz : (ROLZ_POS_MASK.testBit i) <;> cases hw : (ROLZ_HASH_MASK.testBit i) <;>
    simp_all

theorem findMatch_keeps (t t2 : rolzCodec1) (buf : Slice) (pos : Nat) (mi ml : Int)
    (h : t.findMatch buf pos = some (t2, mi, ml)) :
    t2.SameCfg t ∧ ∀ n, pos < n → pos < 2 ^ 26 → t.TableBelow n → t2.TableBelow n := by
  unfold rolzCodec1.findMatch at h
  obtain ⟨_, -, h1⟩ := bind_eq_some_iff.1 h
  clear h
  obtain ⟨keyBuf, -, h2⟩ := bind_eq_some_iff.1 h1
  clear h1
  obtain ⟨key, -, h3⟩ := bind_eq_some_iff.1 h2
  clear h2
  split at h3
  · cases h3
    exact ⟨SameCfg_refl _, fun _ _ _ hT => hT⟩
  · obtain ⟨_, -, h4⟩ := bind_eq_some_iff.1 h3
    clear h3
    obtain ⟨hashBuf, -, h5⟩ := bind_eq_some_iff.1 h4
    clear h4
    obtain ⟨hash32, hh, h6⟩ := bind_eq_some_iff.1 h5
    clear h5
    unfold hash at hh
    obtain ⟨v, -, hh2⟩ := bind_eq_some_iff.1 hh
    clear hh
    cases hh2
    obtain ⟨counter, -, h7⟩ := bind_eq_some_iff.1 h6
    clear h6
    obtain ⟨curBuf, -, h8⟩ := bind_eq_some_iff.1 h7
    clear h7
    obtain ⟨⟨bestLen, bestIdx⟩, -, h9⟩ := bind_eq_some_iff.1 h8
    clear h8
    obtain ⟨counters, hc, h10⟩ := bind_eq_some_iff.1 h9
    clear h9
    obtain ⟨_, -, h11⟩ := bind_eq_some_iff.1 h10
    clear h10
    obtain ⟨ms, hm, h12⟩ := bind_eq_some_iff.1 h11
    clear h11
    obtain ⟨c1, c2, -⟩ := Arr_put_some hc
    obtain ⟨m1, m2, m3⟩ := Arr_put_some hm
    have key : ({ t with counters := counters, matches_ := ms } : rolzCodec1).SameCfg t ∧
        ∀ n, pos < n → pos < 2 ^ 26 → t.TableBelow n →
          ({ t with counters := counters, matches_ := ms } : rolzCodec1).TableBelow n := by
      refine ⟨⟨rfl, rfl, rfl, c2, m2⟩, ?_⟩
      intro n hn hp hT i
      show (ms.cell i &&& ROLZ_POS_MASK) < n
      rw [m3 i]
      split
      · rw [pos_entry _ pos hp]; exact hn
      · exact hT i
    split at h12 <;> cases h12 <;> exact key
theorem ctx_extends (re re1 : rolzEncoder rolzPredictor) (ps : List rolzPredictor)
    (k ctx n : Nat) (h1 : setPredictorContext re.predictors k ctx = some ps)
    (h2 : rolzEncoder.setContext { re with predictors := ps } n = some re1) :
    re.Extends re1 := by
  obtain ⟨q1, q2, q3, -, -⟩ := setContext_fields _ _ _ h2
  have hc := setPredictorContext_cfg _ _ _ _ h1
  simp only at q1 q2 q3
  exact ⟨by omega, by rw [q2], fun j _ => by rw [q2], by rw [q1, hc]⟩

theorem parseLoop2_keeps (buf : Slice) (sizeChunk : Nat) :
    ∀ fuel (t : rolzCodec1) (re : rolzEncoder rolzPredictor) (srcIdx : Nat)
      (t2 : rolzCodec1) (re2 : rolzEncoder rolzPredictor) (k : Nat),
      rolzCodec2.parseLoop buf sizeChunk fuel t re srcIdx = some (t2, re2, k) →
      t2.SameCfg t ∧ re.Extends re2 := by
  intro fuel
  induction fuel with
  | zero =>
    intro t re srcIdx t2 re2 k h
    cases h
    exact ⟨SameCfg_refl _, Extends_refl _⟩
  | succ fuel ih =>
    intro t re srcIdx t2 re2 k h
    unfold rolzCodec2.parseLoop at h
    split at h
    · obtain ⟨_, -, h1⟩ := bind_eq_some_iff.1 h
      clear h
      obtain ⟨prev, -, h2⟩ := bind_eq_some_iff.1 h1
      clear h1
      obtain ⟨ps, hps, h3⟩ := bind_eq_some_iff.1 h2
      clear h2
      obtain ⟨re1, hre1, h4⟩ := bind_eq_some_iff.1 h3
      clear h3
      obtain ⟨⟨t1, matchIdx, matchLen⟩, hfm, h5⟩ := bind_eq_some_iff.1 h4
      clear h4
      have e1 := ctx_extends re re1 ps _ _ _ hps hre1
      have c1 := (findMatch_keeps _ _ _ _ _ _ hfm).1
      simp only at h5
      split at h5
      · obtain ⟨v, -, h6⟩ := bind_eq_some_iff.1 h5
        clear h5
        obtain ⟨re3, hre3, h7⟩ := bind_eq_some_iff.1 h6
        clear h6
        obtain ⟨c2, e2⟩ := ih _ _ _ _ _ _ h7
        exact ⟨SameCfg_trans c2 c1,
          Extends_trans e1 (Extends_trans (encodeLiteral_extends _ _ _ hre3).1 e2)⟩
      · obtain ⟨re3, hre3, h6⟩ := bind_eq_some_iff.1 h5
        clear h5
        obtain ⟨re4, hre4, h7⟩ := bind_eq_some_iff.1 h6
        clear h6
        obtain ⟨prev2, -, h8⟩ := bind_eq_some_iff.1 h7
        clear h7
        obtain ⟨ps2, hps2, h9⟩ := bind_eq_some_iff.1 h8
        clear h8
        obtain ⟨re5, hre5, h10⟩ := bind_eq_some_iff.1 h9
        clear h9
        obtain ⟨re6, hre6, h11⟩ := bind_eq_some_iff.1 h10
        clear h10
        obtain ⟨c2, e2⟩ := ih _ _ _ _ _ _ h11
        exact ⟨SameCfg_trans c2 c1,
          Extends_trans e1 (Extends_trans (encodeBit_extends _ _ _ hre3).1
            (Extends_trans (encodeByte_extends _ _ _ hre4).1
              (Extends_trans (ctx_extends re4 re5 ps2 _ _ _ hps2 hre5)
                (Extends_trans (encodeIndexBits_extends _ _ _ _ hre6).1 e2))))⟩
    · cases h
      exact ⟨SameCfg_refl _, Extends_refl _⟩

theorem chunkLoop2_keeps (src : List Nat) (srcEnd : Int) :
    ∀ fuel (s s2 : Fwd2State), rolzCodec2.chunkLoop src srcEnd fuel s = some s2 →
      s2.tabs.SameCfg s.tabs ∧ s.re.Extends s2.re := by
  intro fuel
  induction fuel with
  | zero =>
    intro s s2 h
    cases h
    exact ⟨SameCfg_refl _, Extends_refl _⟩
  | succ fuel ih =>
    intro s s2 h
    unfold rolzCodec2.chunkLoop at h
    split at h
    · simp only at h
      obtain ⟨buf, -, h1⟩ := bind_eq_some_iff.1 h
      clear h
      obtain ⟨ps, hps, h2⟩ := bind_eq_some_iff.1 h1
      clear h1
      obtain ⟨re1, hre1, h3⟩ := bind_eq_some_iff.1 h2
      clear h2
      obtain ⟨v, -, h4⟩ := bind_eq_some_iff.1 h3
      clear h3
      obtain ⟨re2, hre2, h5⟩ := bind_eq_some_iff.1 h4
      clear h4
      have e1 := ctx_extends s.re re1 ps _ _ _ hps hre1
      have e2 := (encodeLiteral_extends _ _ _ hre2).1
      have fin : ∀ (y : rolzEncoder rolzPredictor × Nat), re2.Extends y.1 →
          (do
            let d ← rolzCodec2.parseLoop buf
              ((if ((s.startChunk + s.sizeChunk : Nat) : Int) ≥ srcEnd then srcEnd.toNat
                else s.startChunk + s.sizeChunk) - s.startChunk)
              ((if ((s.startChunk + s.sizeChunk : Nat) : Int) ≥ srcEnd then srcEnd.toNat
                else s.startChunk + s.sizeChunk) - s.startChunk)
              { s.tabs with matches_ := s.tabs.matches_.fill 0 } y.1 y.2
            rolzCodec2.chunkLoop src srcEnd fuel
              { tabs := d.1, re := d.2.1,
                startChunk := if ((s.startChunk + s.sizeChunk : Nat) : Int) ≥ srcEnd
                  then srcEnd.toNat else s.startChunk + s.sizeChunk,
                sizeChunk := (if ((s.startChunk + s.sizeChunk : Nat) : Int) ≥ srcEnd
                  then srcEnd.toNat else s.startChunk + s.sizeChunk) - s.startChunk,
                srcIdx := d.2.2 }) = some s2 →
          s2.tabs.SameCfg s.tabs ∧ s.re.Extends s2.re := by
        intro y e3 hx
        obtain ⟨⟨t1, re4, srcIdx2⟩, hpl, h7⟩ := bind_eq_some_iff.1 hx
        obtain ⟨c4, e4⟩ := parseLoop2_keeps _ _ _ _ _ _ _ _ _ hpl
        obtain ⟨c5, e5⟩ := ih _ _ h7
        exact ⟨SameCfg_trans c5 (SameCfg_trans c4 ⟨rfl, rfl, rfl, rfl, rfl⟩),
          Extends_trans e1 (Extends_trans e2 (Extends_trans e3 (Extends_trans e4 e5)))⟩
      split at h5
      · obtain ⟨v2, -, g1⟩ := bind_eq_some_iff.1 h5
        clear h5
        obtain ⟨re5, g2, g3⟩ := bind_eq_some_iff.1 g1
        clear g1
        obtain ⟨y, hy, g4⟩ := bind_eq_some_iff.1 g3
        clear g3
        simp only [pure, Option.some.injEq] at hy
        subst hy
        exact fin _ (encodeLiteral_extends _ _ _ g2).1 g4
      · obtain ⟨y, hy, g4⟩ := bind_eq_some_iff.1 h5
        clear h5
        simp only [pure, Option.some.injEq] at hy
        subst hy
        exact fin _ (Extends_refl _) g4
    · cases h
      exact ⟨SameCfg_refl _, Extends_refl _⟩

theorem tailLoop2_keeps (src : List Nat) :
    ∀ fuel (re re2 : rolzEncoder rolzPredictor) (k k2 : Int),
      rolzCodec2.tailLoop src fuel re k = some (re2, k2) →
      re.Extends re2 ∧ k2 = k + fuel := by
  intro fuel
  induction fuel with
  | zero =>
    intro re re2 k k2 h
    cases h
    exact ⟨Extends_refl _, by simp⟩
  | succ fuel ih =>
    intro re re2 k k2 h
    unfold rolzCodec2.tailLoop at h
    obtain ⟨prev, -, h1⟩ := bind_eq_some_iff.1 h
    clear h
    obtain ⟨ps, hps, h2⟩ := bind_eq_some_iff.1 h1
    clear h1
    obtain ⟨v, -, h3⟩ := bind_eq_some_iff.1 h2
    clear h2
    obtain ⟨re1, hre1, h4⟩ := bind_eq_some_iff.1 h3
    clear h3
    obtain ⟨e2, hk⟩ := ih _ _ _ _ h4
    obtain ⟨x1, x2, x3, x4⟩ := (encodeLiteral_extends _ _ _ hre1).1
    have hc := setPredictorContext_cfg _ _ _ _ hps
    simp only at x1 x2 x3 x4
    have e1 : re.Extends re1 := ⟨x1, x2, x3, by rw [x4, hc]⟩
    exact ⟨Extends_trans e1 e2, by rw [hk]; push_cast; ring⟩
theorem predCfg_reset (p : rolzPredictor) : predCfg p.reset = predCfg p := by
  unfold predCfg rolzPredictor.reset
  exact rfl

theorem map_pair_get {α β : Type} (f : α → β) (l : List α) (a b : β) (x y : α)
    (h : l.map f = [a, b]) (hx : l[0]? = some x) (hy : l[1]? = some y) : f x = a ∧ f y = b := by
  match l, h with
  | [p, q], h =>
    simp only [List.map_cons, List.map_nil, List.cons.injEq, and_true] at h
    simp only [List.getElem?_cons_zero, List.getElem?_cons_succ, Option.some.injEq] at hx hy
    subst hx hy
    exact h

/-- What `rolzCodec2.Forward` does after the size check: header, chunks,
the four last literals, `dispose`. -/
theorem Forward2_trace (this : rolzCodec2) (src dst : List Nat) (r : CallResult rolzCodec2)
    (hsz : rolzCodec2.MaxEncodedLen src.length ≤ dst.length)
    (h : this.Forward src dst = some r) :
    ∃ dst1 s re0 re1,
      putUint32BE dst 0 (src.length % 2 ^ 32) = some dst1 ∧
      rolzCodec2.chunkLoop src ((src.length : Int) - 4) (src.length + 1)
        { tabs := { this.tabs with counters := this.tabs.counters.fill 0 },
          re := { predictors := [this.litPredictor.reset, this.matchPredictor.reset],
                  predictor := 0, buf := dst1, idx := 4, low := 0, high := ROLZ_TOP },
          startChunk := 0,
          sizeChunk := if src.length > ROLZ_CHUNK_SIZE then ROLZ_CHUNK_SIZE else src.length,
          srcIdx := 0 } = some s ∧
      s.re.setContext ROLZ_LITERAL_FLAG = some re0 ∧
      rolzCodec2.tailLoop src 4 re0
        ((s.srcIdx : Int) + ((s.startChunk : Int) - (s.sizeChunk : Int))) =
          some (re1, (s.srcIdx : Int) + ((s.startChunk : Int) - (s.sizeChunk : Int)) + 4) ∧
      r.dstIdx = re1.idx + 8 ∧ 4 ≤ re1.idx ∧ r.dstIdx ≤ r.dst.length ∧
      r.dst.length = dst.length ∧
      beBytes r.dst re1.idx 8 = re1.low % 2 ^ 64 ∧
      (∀ j, j < re1.idx → rd r.dst j = rd re1.buf j) ∧
      (∀ j, j < 4 → rd r.dst j = rd dst1 j) ∧
      r.this.SameCfg this ∧
      r.srcIdx = u64 ((s.srcIdx : Int) + ((s.startChunk : Int) - (s.sizeChunk : Int)) + 4) ∧
      r.err = (if (s.srcIdx : Int) + ((s.startChunk : Int) - (s.sizeChunk : Int)) + 4 ≠
        (src.length : Int) then some .destinationTooSmall else none) := by
  unfold rolzCodec2.Forward at h
  rw [if_neg (by omega)] at h
  obtain ⟨dst1, hd, h1⟩ := bind_eq_some_iff.1 h
  clear h
  obtain ⟨re, hre, h2⟩ := bind_eq_some_iff.1 h1
  clear h1
  have hre2 : re = ⟨[this.litPredictor.reset, this.matchPredictor.reset], 0, dst1, 4, 0,
      ROLZ_TOP⟩ := by
    unfold newRolzEncoder at hre
    simp only [List.getElem?_cons_zero, bind, andThen, pure, Option.some.injEq] at hre
    exact hre.symm
  subst hre2
  clear hre
  obtain ⟨s, hs, h3⟩ := bind_eq_some_iff.1 h2
  clear h2
  obtain ⟨re0, h0, h4⟩ := bind_eq_some_iff.1 h3
  clear h3
  obtain ⟨⟨re1, k⟩, ht, h5⟩ := bind_eq_some_iff.1 h4
  clear h4
  obtain ⟨re2, hdis, h6⟩ := bind_eq_some_iff.1 h5
  clear h5
  obtain ⟨lit, hlit, h7⟩ := bind_eq_some_iff.1 h6
  clear h6
  obtain ⟨mp, hmp, h8⟩ := bind_eq_some_iff.1 h7
  clear h7
  simp only [pure, Option.some.injEq] at h8
  subst h8
  obtain ⟨c1, e1⟩ := chunkLoop2_keeps _ _ _ _ _ hs
  obtain ⟨f1, f2, f3, -, -⟩ := setContext_fields _ _ _ h0
  obtain ⟨e2, hk⟩ := tailLoop2_keeps _ _ _ _ _ _ ht
  have hb := dispose_bound hdis
  obtain ⟨re3, g1, ⟨g2, g3, -⟩, g4, g5, g6, -⟩ := dispose_spec re1 hb
  rw [hdis] at g1
  cases g1
  have e0 : s.re.Extends re0 := ⟨by omega, by rw [f2], fun j _ => by rw [f2], by rw [f1]⟩
  obtain ⟨x1, x2, x3, x4⟩ := Extends_trans e1 (Extends_trans e0 e2)
  simp only at x1 x2 x3 x4 c1
  obtain ⟨b, p1, p2, -, -, -⟩ := putUint32BE_spec dst 0 (src.length % 2 ^ 32)
    (putUint32BE_bound hd)
  rw [hd] at p1
  cases p1
  subst hk
  have hcfg := map_pair_get predCfg re2.predictors _ _ lit mp (by rw [g3, x4]; rfl) hlit hmp
  have ht2 : rolzCodec2.tailLoop src 4 re0
      ((s.srcIdx : Int) + ((s.startChunk : Int) - (s.sizeChunk : Int))) =
      some (re1, (s.srcIdx : Int) + ((s.startChunk : Int) - (s.sizeChunk : Int)) + 4) := by
    rw [ht]; norm_num
  have l1 : re2.idx ≤ re2.buf.length := by omega
  have l2 : re2.buf.length = dst.length := by rw [g4, x2, p2]
  refine ⟨dst1, s, re0, re1, hd, hs, h0, ht2, g2, x1, l1, l2,
    g6, fun j hj => g5 j (Or.inl hj), ?_, ⟨c1, ?_, ?_⟩, ?_, ?_⟩
  · intro j hj
    show rd re2.buf j = rd dst1 j
    rw [g5 j (Or.inl (by omega)), x3 j hj]
  · show predCfg lit = predCfg this.litPredictor
    rw [hcfg.1, predCfg_reset]
  · show predCfg mp = predCfg this.matchPredictor
    rw [hcfg.2, predCfg_reset]
  · show u64 _ = u64 _
    norm_num
  · show (if _ then _ else _) = (if _ then _ else _)
    norm_num
/-! ## Invariants of `rolzCodec1.Forward` -/

theorem parseLoop1_keeps (buf : Slice) (sizeChunk : Nat) (hsz : sizeChunk ≤ 2 ^ 26) :
    ∀ fuel (t : rolzCodec1) (b : Fwd1Bufs) (srcIdx fl : Nat)
      (t2 : rolzCodec1) (b2 : Fwd1Bufs) (k k2 : Nat),
      rolzCodec1.parseLoop buf sizeChunk fuel t b srcIdx fl = some (t2, b2, k, k2) →
      t2.SameCfg t ∧ (t.TableBelow sizeChunk → t2.TableBelow sizeChunk) := by
  intro fuel
  induction fuel with
  | zero =>
    intro t b srcIdx fl t2 b2 k k2 h
    cases h
    exact ⟨SameCfg_refl _, id⟩
  | succ fuel ih =>
    intro t b srcIdx fl t2 b2 k k2 h
    unfold rolzCodec1.parseLoop at h
    split at h
    · rename_i hlt
      obtain ⟨⟨t1, matchIdx, matchLen⟩, hfm, h1⟩ := bind_eq_some_iff.1 h
      clear h
      obtain ⟨c1, q1⟩ := findMatch_keeps _ _ _ _ _ _ hfm
      simp only at h1
      split at h1
      · obtain ⟨c2, q2⟩ := ih _ _ _ _ _ _ _ _ h1
        exact ⟨SameCfg_trans c2 c1, fun hT => q2 (q1 _ hlt (by omega) hT)⟩
      · obtain ⟨b1, -, h2⟩ := bind_eq_some_iff.1 h1
        clear h1
        obtain ⟨c2, q2⟩ := ih _ _ _ _ _ _ _ _ h2
        exact ⟨SameCfg_trans c2 c1, fun hT => q2 (q1 _ hlt (by omega) hT)⟩
    · cases h
      exact ⟨SameCfg_refl _, id⟩

theorem parseChunk1_keeps (src : List Nat) (srcEnd : Int) (s : Fwd1State) (t : rolzCodec1)
    (endChunk sizeChunk : Nat) (hsz : sizeChunk ≤ 2 ^ 26) (t2 : rolzCodec1) (b : Fwd1Bufs)
    (k : Nat) (h : rolzCodec1.parseChunk src srcEnd s t endChunk sizeChunk = some (t2, b, k)) :
    t2.SameCfg t ∧ (t.TableBelow sizeChunk → t2.TableBelow sizeChunk) ∧
      s.startChunk < endChunk := by
  unfold rolzCodec1.parseChunk at h
  obtain ⟨buf, hbuf, h1⟩ := bind_eq_some_iff.1 h
  clear h
  obtain ⟨v, hv, h2⟩ := bind_eq_some_iff.1 h1
  clear h1
  have hpos : s.startChunk < endChunk := by
    unfold Slice.sub at hbuf
    split at hbuf
    · cases hbuf
      unfold Slice.get at hv
      split at hv
      · rename_i h0
        simp only at h0
        omega
      · cases hv
    · cases hbuf
  obtain ⟨litBuf, -, h3⟩ := bind_eq_some_iff.1 h2
  clear h2
  have fin : ∀ (y : List Nat × Nat),
      (do
        let d ← rolzCodec1.parseLoop buf sizeChunk sizeChunk t
          { litBuf := y.1, lenBuf := s.lenBuf, mIdxBuf := s.mIdxBuf, litIdx := y.2, lenIdx := 0,
            mIdx := 0 } y.2 y.2
        let b ← emitLengthsAt d.2.1 (d.2.2.1 - d.2.2.2) 0
        let litBuf ← copyLastLiterals buf d.2.2.2 b.litIdx (d.2.2.1 - d.2.2.2)
          (d.2.2.1 - d.2.2.2) 0 b.litBuf
        pure (d.1, { b with litBuf := litBuf, litIdx := b.litIdx + (d.2.2.1 - d.2.2.2) },
          d.2.2.1)) = some (t2, b, k) →
      t2.SameCfg t ∧ (t.TableBelow sizeChunk → t2.TableBelow sizeChunk) := by
    intro y hx
    obtain ⟨⟨t1, b1, k1, k2⟩, hpl, g1⟩ := bind_eq_some_iff.1 hx
    obtain ⟨b3, -, g2⟩ := bind_eq_some_iff.1 g1
    obtain ⟨lb, -, g3⟩ := bind_eq_some_iff.1 g2
    simp only [pure, Option.some.injEq, Prod.mk.injEq] at g3
    obtain ⟨rfl, -, -⟩ := g3
    exact parseLoop1_keeps buf sizeChunk hsz _ _ _ _ _ _ _ _ _ hpl
  simp only at h3
  split at h3
  · obtain ⟨v2, -, g1⟩ := bind_eq_some_iff.1 h3
    clear h3
    obtain ⟨lb2, -, g2⟩ := bind_eq_some_iff.1 g1
    clear g1
    obtain ⟨y, hy, g3⟩ := bind_eq_some_iff.1 g2
    clear g2
    simp only [pure, Option.some.injEq] at hy
    subst hy
    obtain ⟨a1, a2⟩ := fin _ g3
    exact ⟨a1, a2, hpos⟩
  · obtain ⟨y, hy, g3⟩ := bind_eq_some_iff.1 h3
    clear h3
    simp only [pure, Option.some.injEq] at hy
    subst hy
    obtain ⟨a1, a2⟩ := fin _ g3
    exact ⟨a1, a2, hpos⟩
theorem goCopy_length (dst : List Nat) (off : Nat) (src : List Nat)
    (h : off + src.length ≤ dst.length) : (goCopy dst off src).length = dst.length := by
  unfold goCopy
  simp only [List.length_append, List.length_take, List.length_drop]
  omega

theorem goCopy_prefix (dst : List Nat) (off : Nat) (src : List Nat) (j : Nat) (hj : j < off)
    (h : off ≤ dst.length) : rd (goCopy dst off src) j = rd dst j := by
  unfold goCopy rd
  rw [List.append_assoc, List.getElem?_append_left (by simp; omega), List.getElem?_take_of_lt hj]

theorem chunkLoop1_keeps (E : EntropyStage) (src : List Nat) (srcEnd : Int) :
    ∀ fuel (s : Fwd1State) (r : Step Fwd1State),
      rolzCodec1.chunkLoop E src srcEnd fuel s = some r → s.sizeChunk ≤ 2 ^ 26 →
      (∀ s2 err, r = .stop s2 err → s2.tabs.SameCfg s.tabs) ∧
      (∀ s2, r = .next s2 →
        s2.tabs.SameCfg s.tabs ∧ s.dstIdx ≤ s2.dstIdx ∧ s2.dst.length = s.dst.length ∧
        (∀ j, j < s.dstIdx → rd s2.dst j = rd s.dst j) ∧
        ((s.Settled srcEnd ∨ ((s.startChunk : Int) < srcEnd ∧ 0 < fuel)) →
          s2.Settled srcEnd)) := by
  intro fuel
  induction fuel with
  | zero =>
    intro s r h _
    cases h
    refine ⟨(fun _ _ hr => by cases hr), fun s2 hr => ?_⟩
    cases hr
    exact ⟨SameCfg_refl _, Nat.le_refl _, rfl, fun _ _ => rfl,
      fun hq => hq.elim id (fun hx => absurd hx.2 (by omega))⟩
  | succ fuel ih =>
    intro s r h hsz
    unfold rolzCodec1.chunkLoop at h
    split at h
    · rename_i hlt
      have step : ∀ (endChunk sizeChunk : Nat), sizeChunk ≤ 2 ^ 26 →
          sizeChunk = endChunk - s.startChunk → (endChunk : Int) ≤ srcEnd →
          (do
            let d ← rolzCodec1.parseChunk src srcEnd s
              { s.tabs with matches_ := s.tabs.matches_.fill 0 } endChunk sizeChunk
            match E.encodeChunk d.2.1 with
            | none =>
              some (Step.stop
                { s with tabs := d.1, litBuf := d.2.1.litBuf, lenBuf := d.2.1.lenBuf,
                         mIdxBuf := d.2.1.mIdxBuf, sizeChunk := sizeChunk, srcIdx := d.2.2 }
                RolzError.entropyFailure)
            | some os =>
              if s.dstIdx + os.length > s.dst.length then
                some (Step.stop
                  { s with tabs := d.1, litBuf := d.2.1.litBuf, lenBuf := d.2.1.lenBuf,
                           mIdxBuf := d.2.1.mIdxBuf, sizeChunk := sizeChunk, srcIdx := d.2.2 }
                  RolzError.destinationTooSmall)
              else
                rolzCodec1.chunkLoop E src srcEnd fuel
                  { s with tabs := d.1, litBuf := d.2.1.litBuf, lenBuf := d.2.1.lenBuf,
                           mIdxBuf := d.2.1.mIdxBuf, sizeChunk := sizeChunk, srcIdx := d.2.2,
                           dst := goCopy s.dst s.dstIdx os, dstIdx := s.dstIdx + os.length,
                           startChunk := endChunk }) = some r →
          (∀ s2 err, r = .stop s2 err → s2.tabs.SameCfg s.tabs) ∧
          (∀ s2, r = .next s2 →
            s2.tabs.SameCfg s.tabs ∧ s.dstIdx ≤ s2.dstIdx ∧ s2.dst.length = s.dst.length ∧
            (∀ j, j < s.dstIdx → rd s2.dst j = rd s.dst j) ∧
            ((s.Settled srcEnd ∨ ((s.startChunk : Int) < srcEnd ∧ 0 < fuel + 1)) →
              s2.Settled srcEnd)) := by
        intro endChunk sizeChunk hsz2 hsize hend hx
        obtain ⟨⟨t1, b, k⟩, hpc, h1⟩ := bind_eq_some_iff.1 hx
        clear hx
        obtain ⟨c1, q1, hpos⟩ := parseChunk1_keeps _ _ _ _ _ _ hsz2 _ _ _ hpc
        have c0 : t1.SameCfg s.tabs := SameCfg_trans c1 ⟨rfl, rfl, rfl, rfl, rfl⟩
        have hT : t1.TableBelow sizeChunk := by
          apply q1
          intro i
          show ((0 : Nat) &&& ROLZ_POS_MASK) < sizeChunk
          rw [Nat.zero_and]; omega
        simp only at h1
        cases hec : E.encodeChunk b with
        | none =>
          rw [hec] at h1
          simp only [Option.some.injEq] at h1
          subst h1
          refine ⟨fun s2 err hr => ?_, fun s2 hr => by cases hr⟩
          cases hr
          exact c0
        | some os =>
          rw [hec] at h1
          simp only at h1
          split at h1
          · simp only [Option.some.injEq] at h1
            subst h1
            refine ⟨fun s2 err hr => ?_, fun s2 hr => by cases hr⟩
            cases hr
            exact c0
          · rename_i hfit
            obtain ⟨r1, r2⟩ := ih _ r h1 hsz2
            refine ⟨fun s2 err hr => SameCfg_trans (r1 s2 err hr) c0, fun s2 hr => ?_⟩
            obtain ⟨a1, a2, a3, a4, a5⟩ := r2 s2 hr
            simp only at a1 a2 a3 a4 a5
            refine ⟨SameCfg_trans a1 c0, by omega, ?_, ?_, fun _ => a5 (Or.inl ⟨hT, ?_, hend⟩)⟩
            · rw [a3, goCopy_length _ _ _ (by omega)]
            · intro j hj
              rw [a4 j (by omega), goCopy_prefix _ _ _ _ hj (by omega)]
            · show sizeChunk ≤ endChunk
              omega
      refine step _ _ ?_ ?_ ?_ h
      · show (if decide (((s.startChunk + s.sizeChunk : Nat) : Int) ≥ srcEnd) = true then _
          else s.sizeChunk) ≤ 2 ^ 26
        split
        · rename_i hov
          simp only [decide_eq_true_eq] at hov
          omega
        · exact hsz
      · show (if decide (((s.startChunk + s.sizeChunk : Nat) : Int) ≥ srcEnd) = true then _
          else s.sizeChunk) = _
        split
        · rfl
        · rename_i hov
          omega
      · show (((if decide (((s.startChunk + s.sizeChunk : Nat) : Int) ≥ srcEnd) = true then
          srcEnd.toNat else s.startChunk + s.sizeChunk : Nat)) : Int) ≤ srcEnd
        split
        · omega
        · rename_i hov
          simp only [decide_eq_true_eq] at hov
          omega
    · cases h
      refine ⟨(fun _ _ hr => by cases hr), fun s2 hr => ?_⟩
      cases hr
      exact ⟨SameCfg_refl _, Nat.le_refl _, rfl, fun _ _ => rfl,
        fun hq => hq.elim id (fun hx => absurd hx.1 (by assumption))⟩
theorem rdI_some {buf : List Nat} {i : Int} {v : Nat} (h : rdI buf i = some v) :
    0 ≤ i ∧ rd buf i.toNat = some v := by
  unfold rdI at h
  split at h
  · exact ⟨by assumption, h⟩
  · cases h

theorem copyTail_spec (dst src dst2 : List Nat) (dstIdx srcIdx : Int)
    (h : copyTail dst src dstIdx srcIdx = some dst2) :
    0 ≤ dstIdx ∧ 0 ≤ srcIdx ∧ dst2.length = dst.length ∧ dstIdx.toNat + 4 ≤ dst.length ∧
      srcIdx.toNat + 4 ≤ src.length ∧
      (∀ j, j < dstIdx.toNat → rd dst2 j = rd dst j) ∧
      ∀ i, i < 4 → rd dst2 (dstIdx.toNat + i) = rd src (srcIdx.toNat + i) := by
  unfold copyTail at h
  obtain ⟨_, hc, h1⟩ := bind_eq_some_iff.1 h
  clear h
  have hd0 := chk_eq_some.1 hc
  obtain ⟨v0, hv0, h2⟩ := bind_eq_some_iff.1 h1
  clear h1
  obtain ⟨b0, hb0, h3⟩ := bind_eq_some_iff.1 h2
  clear h2
  obtain ⟨v1, hv1, h4⟩ := bind_eq_some_iff.1 h3
  clear h3
  obtain ⟨b1, hb1, h5⟩ := bind_eq_some_iff.1 h4
  clear h4
  obtain ⟨v2, hv2, h6⟩ := bind_eq_some_iff.1 h5
  clear h5
  obtain ⟨b2, hb2, h7⟩ := bind_eq_some_iff.1 h6
  clear h6
  obtain ⟨v3, hv3, hb3⟩ := bind_eq_some_iff.1 h7
  clear h7
  obtain ⟨s0, r0⟩ := rdI_some hv0
  obtain ⟨-, r1⟩ := rdI_some hv1
  obtain ⟨-, r2⟩ := rdI_some hv2
  obtain ⟨-, r3⟩ := rdI_some hv3
  have l0 := wr_length hb0
  have l1 := wr_length hb1
  have l2 := wr_length hb2
  have l3 := wr_length hb3
  have w3 := (wr_eq_some.1 hb3).1
  have e1 : (srcIdx + 1).toNat = srcIdx.toNat + 1 := by omega
  have e2 : (srcIdx + 2).toNat = srcIdx.toNat + 2 := by omega
  have e3 : (srcIdx + 3).toNat = srcIdx.toNat + 3 := by omega
  rw [e1] at r1
  rw [e2] at r2
  rw [e3] at r3
  have hs3 : srcIdx.toNat + 3 < src.length := by
    unfold rd at r3
    exact (List.getElem?_eq_some_iff.1 r3).1
  refine ⟨hd0, s0, by omega, by omega, by omega, ?_, ?_⟩
  · intro j hj
    rw [rd_wr hb3, rd_wr hb2, rd_wr hb1, rd_wr hb0]
    simp [show j ≠ dstIdx.toNat + 3 by omega, show j ≠ dstIdx.toNat + 2 by omega,
      show j ≠ dstIdx.toNat + 1 by omega, show j ≠ dstIdx.toNat by omega]
  · intro i hi
    rw [rd_wr hb3, rd_wr hb2, rd_wr hb1, rd_wr hb0]
    have hi4 : i = 0 ∨ i = 1 ∨ i = 2 ∨ i = 3 := by omega
    rcases hi4 with rfl | rfl | rfl | rfl
    · simp [r0]
    · simp [r1]
    · simp [r2]
    · simp [r3]

/-- What `rolzCodec1.Forward` does after the size check. -/
theorem Forward1_trace (E : EntropyStage) (this : rolzCodec1) (src dst : List Nat)
    (r : CallResult rolzCodec1) (hsz : rolzCodec1.MaxEncodedLen src.length ≤ dst.length)
    (h : rolzCodec1.Forward E this src dst = some r) :
    r.this.SameCfg this ∧
    (r.err = none → 5 ≤ src.length → src.length < 2 ^ 63 →
      ∃ (dst1 : List Nat) (s : Fwd1State), putUint32BE dst 0 (src.length % 2 ^ 32) = some dst1 ∧
        r.this = s.tabs ∧ s.Settled ((src.length : Int) - 4) ∧
        4 ≤ s.dstIdx ∧ r.dstIdx = s.dstIdx + 4 ∧ r.dstIdx ≤ r.dst.length ∧
        r.dst.length = dst.length ∧ r.srcIdx = src.length ∧
        (∀ j, j < 4 → rd r.dst j = rd dst1 j) ∧
        ∀ i, i < 4 → rd r.dst (s.dstIdx + i) = rd src (src.length - 4 + i)) := by
  unfold rolzCodec1.Forward at h
  rw [if_neg (by omega)] at h
  obtain ⟨dst1, hd, h1⟩ := bind_eq_some_iff.1 h
  clear h
  obtain ⟨b, p1, p2, -, -, -⟩ := putUint32BE_spec dst 0 (src.length % 2 ^ 32)
    (putUint32BE_bound hd)
  rw [hd] at p1
  cases p1
  simp only at h1
  obtain ⟨st, hst, h2⟩ := bind_eq_some_iff.1 h1
  clear h1
  have hcs : (if src.length > ROLZ_CHUNK_SIZE then ROLZ_CHUNK_SIZE else src.length) ≤ 2 ^ 26 := by
    unfold ROLZ_CHUNK_SIZE
    split <;> norm_num at * <;> omega
  obtain ⟨k1, k2⟩ := chunkLoop1_keeps E src _ _ _ _ hst hcs
  cases st with
  | stop s err =>
    simp only [pure, Option.some.injEq] at h2
    subst h2
    refine ⟨SameCfg_trans (k1 s err rfl) ⟨rfl, rfl, rfl, rfl, rfl⟩, ?_⟩
    intro he
    cases he
  | next s =>
    simp only at h2
    obtain ⟨dst2, hct, h3⟩ := bind_eq_some_iff.1 h2
    clear h2
    simp only [pure, Option.some.injEq] at h3
    subst h3
    obtain ⟨a1, a2, a3, a4, a5⟩ := k2 s rfl
    simp only at a1 a2 a3 a4 a5
    refine ⟨SameCfg_trans a1 ⟨rfl, rfl, rfl, rfl, rfl⟩, ?_⟩
    intro he h5 h63
    have he2 : (s.srcIdx : Int) + ((s.startChunk : Int) - (s.sizeChunk : Int)) + 4 =
        (src.length : Int) := by
      by_contra hne
      simp only [ne_eq, hne, not_false_eq_true, if_true] at he
      cases he
    obtain ⟨t0, t1, t2, t3, t4, t5, t6⟩ := copyTail_spec _ _ _ _ _ hct
    have hset := a5 (Or.inr ⟨by simp only [Nat.cast_zero]; omega, by omega⟩)
    have e1 : ((s.dstIdx : Nat) : Int).toNat = s.dstIdx := by omega
    have e2 : ((s.srcIdx : Int) + ((s.startChunk : Int) - (s.sizeChunk : Int))).toNat =
        src.length - 4 := by omega
    rw [e1] at t3 t5 t6
    rw [e2] at t6
    refine ⟨dst1, s, hd, rfl, hset, a2, rfl, ?_, ?_, ?_, ?_, t6⟩
    · show s.dstIdx + 4 ≤ dst2.length
      omega
    · show dst2.length = dst.length
      rw [t2, a3, p2]
    · show u64 _ = src.length
      rw [he2]
      unfold u64
      omega
    · intro j hj
      show rd dst2 j = rd dst1 j
      rw [t5 j (by omega), a4 j (by omega)]
theorem be32_or (a0 a1 a2 a3 : Nat) (h1 : a1 < 256) (h2 : a2 < 256) (h3 : a3 < 256) :
    (a0 <<< 24) ||| (a1 <<< 16) ||| (a2 <<< 8) ||| a3 = ((a0 * 256 + a1) * 256 + a2) * 256 + a3 := by
  have e1 : a0 <<< 24 ||| a1 <<< 16 = 2 ^ 16 * (a0 * 256 + a1) := by
    have := Nat.mul_add_lt_is_or (i := 24) (b := a1 <<< 16)
      (by rw [Nat.shiftLeft_eq]; omega) a0
    rw [Nat.shiftLeft_eq a0, Nat.mul_comm a0, ← this, Nat.shiftLeft_eq]; omega
  have e2 : 2 ^ 16 * (a0 * 256 + a1) ||| a2 <<< 8 = 2 ^ 8 * ((a0 * 256 + a1) * 256 + a2) := by
    have := Nat.mul_add_lt_is_or (i := 16) (b := a2 <<< 8)
      (by rw [Nat.shiftLeft_eq]; omega) (a0 * 256 + a1)
    rw [← this, Nat.shiftLeft_eq]; omega
  have e3 := Nat.mul_add_lt_is_or (i := 8) (b := a3) (by omega) ((a0 * 256 + a1) * 256 + a2)
  rw [e1, e2, ← e3]; omega

theorem getUint32BE_of_bytes (buf : List Nat) (i a0 a1 a2 a3 : Nat) (hl : i + 4 ≤ buf.length)
    (r0 : rd buf i = some a0) (r1 : rd buf (i + 1) = some a1) (r2 : rd buf (i + 2) = some a2)
    (r3 : rd buf (i + 3) = some a3) (h1 : a1 < 256) (h2 : a2 < 256) (h3 : a3 < 256) :
    getUint32BE buf i = some (((a0 * 256 + a1) * 256 + a2) * 256 + a3) := by
  have hc : chk (i + 4 ≤ buf.length) = some () := chk_eq_some.2 hl
  unfold getUint32BE
  simp only [bind, andThen, hc, r0, r1, r2, r3, pure, be32_or a0 a1 a2 a3 h1 h2 h3]

theorem putUint32BE_bytes (buf b : List Nat) (i v : Nat) (h : putUint32BE buf i v = some b) :
    rd b i = some ((v >>> 24) % 256) ∧ rd b (i + 1) = some ((v >>> 16) % 256) ∧
      rd b (i + 2) = some ((v >>> 8) % 256) ∧ rd b (i + 3) = some (v % 256) := by
  unfold putUint32BE at h
  obtain ⟨_, -, h1⟩ := bind_eq_some_iff.1 h
  obtain ⟨b1, w1, h2⟩ := bind_eq_some_iff.1 h1
  obtain ⟨b2, w2, h3⟩ := bind_eq_some_iff.1 h2
  obtain ⟨b3, w3, w4⟩ := bind_eq_some_iff.1 h3
  refine ⟨?_, ?_, ?_, ?_⟩
  · rw [rd_wr w4, rd_wr w3, rd_wr w2, rd_wr w1]; simp
  · rw [rd_wr w4, rd_wr w3, rd_wr w2]; simp
  · rw [rd_wr w4, rd_wr w3]; simp
  · rw [rd_wr w4]; simp

/-- The header of a block: when the first four bytes of `out` are the ones
`putUint32BE` stored for `n < 2^32`, they are `n` big-endian and
`getUint32BE` on any prefix of `out` of at least four bytes reads `n`. -/
theorem header_read (dst dst1 out : List Nat) (n : Nat) (hn : n < 2 ^ 32)
    (hp : putUint32BE dst 0 (n % 2 ^ 32) = some dst1) (hlen : 4 ≤ out.length)
    (hpre : ∀ j, j < 4 → rd out j = rd dst1 j) :
    out.take 4 = [n / 2 ^ 24 % 256, n / 2 ^ 16 % 256, n / 2 ^ 8 % 256, n % 256] ∧
      ∀ k, 4 ≤ k → getUint32BE (out.take k) 0 = some n := by
  obtain ⟨b0, b1, b2, b3⟩ := putUint32BE_bytes _ _ _ _ hp
  rw [Nat.mod_eq_of_lt hn] at b0 b1 b2 b3
  simp only [Nat.shiftRight_eq_div_pow, Nat.zero_add] at b0 b1 b2 b3
  rw [← hpre 0 (by omega)] at b0
  rw [← hpre 1 (by omega)] at b1
  rw [← hpre 2 (by omega)] at b2
  rw [← hpre 3 (by omega)] at b3
  constructor
  · apply List.ext_getElem?
    intro j
    by_cases hj : j < 4
    · rw [List.getElem?_take_of_lt hj]
      unfold rd at b0 b1 b2 b3
      have hj4 : j = 0 ∨ j = 1 ∨ j = 2 ∨ j = 3 := by omega
      rcases hj4 with rfl | rfl | rfl | rfl
      · rw [b0]; rfl
      · rw [b1]; rfl
      · rw [b2]; rfl
      · rw [b3]; rfl
    · rw [List.getElem?_eq_none (by simp; omega), List.getElem?_eq_none (by simp; omega)]
  · intro k hk
    have g : ∀ j, j < 4 → rd (out.take k) j = rd out j := by
      intro j hj
      unfold rd
      rw [List.getElem?_take_of_lt (by omega)]
    have := getUint32BE_of_bytes (out.take k) 0 _ _ _ _ (by simp; omega)
      (by rw [g 0 (by omega)]; exact b0) (by rw [g 1 (by omega)]; exact b1)
      (by rw [g 2 (by omega)]; exact b2) (by rw [g 3 (by omega)]; exact b3)
      (Nat.mod_lt _ (by norm_num)) (Nat.mod_lt _ (by norm_num)) (Nat.mod_lt _ (by norm_num))
    rw [this]
    congr 1
    omega
theorem Forward1_fits (E : EntropyStage) (this : rolzCodec1) (src dst : List Nat)
    (r : CallResult rolzCodec1) (h : rolzCodec1.Forward E this src dst = some r)
    (he : r.err = none) : rolzCodec1.MaxEncodedLen src.length ≤ dst.length := by
  by_contra hc
  unfold rolzCodec1.Forward at h
  rw [if_pos (by omega)] at h
  cases h
  cases he

theorem Forward2_fits (this : rolzCodec2) (src dst : List Nat)
    (r : CallResult rolzCodec2) (h : this.Forward src dst = some r)
    (he : r.err = none) : rolzCodec2.MaxEncodedLen src.length ≤ dst.length := by
  by_contra hc
  unfold rolzCodec2.Forward at h
  rw [if_pos (by omega)] at h
  cases h
  cases he

theorem MaxEncodedLen1_ge (n : Nat) : n ≤ rolzCodec1.MaxEncodedLen n := by
  unfold rolzCodec1.MaxEncodedLen; split <;> omega

theorem MaxEncodedLen2_ge (n : Nat) : n ≤ rolzCodec2.MaxEncodedLen n := by
  unfold rolzCodec2.MaxEncodedLen; split
  · omega
  · split <;> omega

/-- C14. Size header: for both backends and every `src` with
`5 ≤ len(src) < 2^32` on which `Forward` succeeds, the first four output
bytes are `len(src)` as a big-endian 32-bit value, and `Inverse` on the
output (any prefix of it of at least four bytes) runs its block body with
exactly this value as the header: `dstEnd = len(src)` in backend 2,
`dstEnd = len(src) - 4` in backend 1. -/
theorem size_header (E : EntropyStage) (c1 : rolzCodec1) (c2 : rolzCodec2) (src dst : List Nat)
    (h5 : 5 ≤ src.length) (h32 : src.length < 2 ^ 32) :
    (∀ r, rolzCodec1.Forward E c1 src dst = some r → r.err = none →
      r.dst.take 4 = [src.length / 2 ^ 24 % 256, src.length / 2 ^ 16 % 256,
        src.length / 2 ^ 8 % 256, src.length % 256] ∧
      ∀ (c : rolzCodec1) (out : List Nat) (n : Nat), 4 ≤ n →
        rolzCodec1.Inverse E c (r.dst.take n) out =
          rolzCodec1.decodeBlock E c (r.dst.take n) out src.length) ∧
    (∀ r, c2.Forward src dst = some r → r.err = none →
      r.dst.take 4 = [src.length / 2 ^ 24 % 256, src.length / 2 ^ 16 % 256,
        src.length / 2 ^ 8 % 256, src.length % 256] ∧
      ∀ (c : rolzCodec2) (out : List Nat) (n : Nat), 4 ≤ n →
        c.Inverse (r.dst.take n) out = c.decodeBlock (r.dst.take n) out src.length) := by
  constructor
  · intro r h he
    have hfit := Forward1_fits E c1 src dst r h he
    have hge := MaxEncodedLen1_ge src.length
    obtain ⟨-, k⟩ := Forward1_trace E c1 src dst r hfit h
    obtain ⟨dst1, s, hp, -, -, -, -, -, hl, -, hpre, -⟩ := k he h5 (by omega)
    obtain ⟨t1, t2⟩ := header_read dst dst1 r.dst src.length h32 hp (by omega) hpre
    refine ⟨t1, ?_⟩
    intro c out n hn
    have hc : chk (4 ≤ (r.dst.take n).length) = some () :=
      chk_eq_some.2 (by simp; omega)
    unfold rolzCodec1.Inverse
    simp only [bind, andThen, hc, t2 n hn]
  · intro r h he
    have hfit := Forward2_fits c2 src dst r h he
    have hge := MaxEncodedLen2_ge src.length
    obtain ⟨dst1, s, re0, re1, hp, -, -, -, -, -, -, hl, -, -, hpre, -⟩ :=
      Forward2_trace c2 src dst r hfit h
    obtain ⟨t1, t2⟩ := header_read dst dst1 r.dst src.length h32 hp (by omega) hpre
    refine ⟨t1, ?_⟩
    intro c out n hn
    have hc : chk (4 ≤ (r.dst.take n).length) = some () :=
      chk_eq_some.2 (by simp; omega)
    unfold rolzCodec2.Inverse
    simp only [bind, andThen, hc, t2 n hn]

/-- Witness of C14: the block `ABCDE` with a destination of 37 bytes; both
backends succeed and their output starts with `0, 0, 0, 5`. -/
theorem size_header_witness :
    (∃ r, rolzCodec1.Forward plainStage (rolzCodec1.alloc 4) [65, 66, 67, 68, 69]
        (List.replicate 37 0) = some r ∧ r.err = none ∧ r.dst.take 4 = [0, 0, 0, 5]) ∧
    (∃ r, (rolzCodec2.alloc 5).Forward [65, 66, 67, 68, 69] (List.replicate 37 0) = some r ∧
        r.err = none ∧ r.dst.take 4 = [0, 0, 0, 5]) := by
  have h := size_header plainStage (rolzCodec1.alloc 4) (rolzCodec2.alloc 5)
    [65, 66, 67, 68, 69] (List.replicate 37 0) (by decide) (by decide)
  have e1 : (rolzCodec1.Forward plainStage (rolzCodec1.alloc 4) [65, 66, 67, 68, 69]
      (List.replicate 37 0)).map (fun r => r.err) = some none := by decide!
  have e2 : ((rolzCodec2.alloc 5).Forward [65, 66, 67, 68, 69]
      (List.replicate 37 0)).map (fun r => r.err) = some none := by decide!
  constructor
  · cases hr : rolzCodec1.Forward plainStage (rolzCodec1.alloc 4) [65, 66, 67, 68, 69]
        (List.replicate 37 0) with
    | none => rw [hr] at e1; cases e1
    | some r =>
      rw [hr] at e1
      have he : r.err = none := by simpa using e1
      exact ⟨r, rfl, he, (h.1 r hr he).1⟩
  · cases hr : (rolzCodec2.alloc 5).Forward [65, 66, 67, 68, 69] (List.replicate 37 0) with
    | none => rw [hr] at e2; cases e2
    | some r =>
      rw [hr] at e2
      have he : r.err = none := by simpa using e2
      exact ⟨r, rfl, he, (h.2 r hr he).1⟩


/-- C16, refuted as stated. Backend 2 does not store the last four bytes
verbatim: for the block `1,2,3,4` four times followed by `9,9,9,9`,
`Forward` returns 24 output bytes none of which is 9. -/
theorem rolzCodec2_tail_not_verbatim :
    ((rolzCodec2.alloc 5).Forward [1, 2, 3, 4, 1, 2, 3, 4, 1, 2, 3, 4, 1, 2, 3, 4, 9, 9, 9, 9]
        (List.replicate 52 0)).map (fun r => (r.dst.take r.dstIdx, r.srcIdx, r.dstIdx, r.err)) =
      some ([0, 0, 0, 20, 0, 255, 127, 91, 210, 26, 89, 124, 244, 221, 122, 237, 192, 200, 33,
        146, 167, 205, 70, 244], 20, 24, none) ∧
    9 ∉ [0, 0, 0, 20, 0, 255, 127, 91, 210, 26, 89, 124, 244, 221, 122, 237, 192, 200, 33,
        146, 167, 205, 70, 244] := by
  constructor
  · decide!
  · decide
/-! ## Invariants of the decoders -/

theorem fillLoop_keeps {σ : Type} : ∀ n (d d2 : rolzDecoder σ),
    rolzDecoder.fillLoop n d = some d2 →
    d2.predictors = d.predictors ∧ d2.predictor = d.predictor ∧ d2.buf = d.buf := by
  intro n
  induction n with
  | zero => intro d d2 h; cases h; exact ⟨rfl, rfl, rfl⟩
  | succ n ih =>
    intro d d2 h
    unfold rolzDecoder.fillLoop at h
    split at h
    · obtain ⟨d1, h1, h2⟩ := bind_eq_some_iff.1 h
      unfold rolzDecoder.fill at h1
      obtain ⟨v, -, h3⟩ := bind_eq_some_iff.1 h1
      cases h3
      obtain ⟨a1, a2, a3⟩ := ih _ d2 h2
      exact ⟨a1, a2, a3⟩
    · cases h; exact ⟨rfl, rfl, rfl⟩

theorem decodeBit_cfg (d d2 : rolzDecoder rolzPredictor) (bit : Nat)
    (h : d.decodeBit RP = some (d2, bit)) :
    d2.predictors.map predCfg = d.predictors.map predCfg := by
  unfold rolzDecoder.decodeBit at h
  obtain ⟨p, hp, h1⟩ := bind_eq_some_iff.1 h
  clear h
  simp only at h1
  split at h1
  · obtain ⟨d1, hf, h2⟩ := bind_eq_some_iff.1 h1
    simp only [pure, Option.some.injEq, Prod.mk.injEq] at h2
    obtain ⟨rfl, -⟩ := h2
    rw [(fillLoop_keeps 2 _ _ hf).1]
    exact map_set_same predCfg _ _ p _ hp (predCfg_Update p 1)
  · obtain ⟨d1, hf, h2⟩ := bind_eq_some_iff.1 h1
    simp only [pure, Option.some.injEq, Prod.mk.injEq] at h2
    obtain ⟨rfl, -⟩ := h2
    rw [(fillLoop_keeps 2 _ _ hf).1]
    exact map_set_same predCfg _ _ p _ hp (predCfg_Update p 0)

theorem decodeByte_cfg (d d2 : rolzDecoder rolzPredictor) (v : Nat)
    (h : d.decodeByte RP = some (d2, v)) :
    d2.predictors.map predCfg = d.predictors.map predCfg := by
  unfold rolzDecoder.decodeByte at h
  obtain ⟨⟨a1, b1⟩, h1, h⟩ := bind_eq_some_iff.1 h
  obtain ⟨⟨a2, b2⟩, h2, h⟩ := bind_eq_some_iff.1 h
  obtain ⟨⟨a3, b3⟩, h3, h⟩ := bind_eq_some_iff.1 h
  obtain ⟨⟨a4, b4⟩, h4, h⟩ := bind_eq_some_iff.1 h
  obtain ⟨⟨a5, b5⟩, h5, h⟩ := bind_eq_some_iff.1 h
  obtain ⟨⟨a6, b6⟩, h6, h⟩ := bind_eq_some_iff.1 h
  obtain ⟨⟨a7, b7⟩, h7, h⟩ := bind_eq_some_iff.1 h
  obtain ⟨⟨a8, b8⟩, h8, h⟩ := bind_eq_some_iff.1 h
  simp only [pure, Option.some.injEq, Prod.mk.injEq] at h
  obtain ⟨rfl, -⟩ := h
  rw [decodeBit_cfg _ _ _ h8, decodeBit_cfg _ _ _ h7, decodeBit_cfg _ _ _ h6,
    decodeBit_cfg _ _ _ h5, decodeBit_cfg _ _ _ h4, decodeBit_cfg _ _ _ h3,
    decodeBit_cfg _ _ _ h2, decodeBit_cfg _ _ _ h1]

theorem decodeIndexBits_cfg : ∀ n (d d2 : rolzDecoder rolzPredictor) (m m2 : Nat),
    decodeIndexBits n d m = some (d2, m2) →
    d2.predictors.map predCfg = d.predictors.map predCfg := by
  intro n
  induction n with
  | zero => intro d d2 m m2 h; cases h; rfl
  | succ n ih =>
    intro d d2 m m2 h
    unfold decodeIndexBits at h
    obtain ⟨⟨d1, bit⟩, h1, h2⟩ := bind_eq_some_iff.1 h
    rw [ih _ _ _ _ h2, decodeBit_cfg _ _ _ h1]

theorem dctx_cfg (d d1 : rolzDecoder rolzPredictor) (ps : List rolzPredictor)
    (k ctx n : Nat) (h1 : setPredictorContext d.predictors k ctx = some ps)
    (h2 : rolzDecoder.setContext { d with predictors := ps } n = some d1) :
    d1.predictors.map predCfg = d.predictors.map predCfg := by
  unfold rolzDecoder.setContext at h2
  obtain ⟨p, -, h3⟩ := bind_eq_some_iff.1 h2
  cases h3
  exact setPredictorContext_cfg _ _ _ _ h1

theorem register_cfg (t t2 : rolzCodec1) (key lo width savedIdx : Nat)
    (h : t.register key lo width savedIdx = some t2) : t2.SameCfg t := by
  unfold rolzCodec1.register at h
  obtain ⟨c, -, h1⟩ := bind_eq_some_iff.1 h
  obtain ⟨counters, hc, h2⟩ := bind_eq_some_iff.1 h1
  obtain ⟨_, -, h3⟩ := bind_eq_some_iff.1 h2
  obtain ⟨ms, hm, h4⟩ := bind_eq_some_iff.1 h3
  cases h4
  exact ⟨rfl, rfl, rfl, (Arr_put_some hc).2.1, (Arr_put_some hm).2.1⟩

theorem decodeMatch2_cfg (t : rolzCodec1) (d d2 : rolzDecoder rolzPredictor)
    (buf buf2 : List Nat) (dstIdx key lo width matchLen k : Nat)
    (h : rolzCodec2.decodeMatch t d buf dstIdx key lo width matchLen = some (d2, buf2, k)) :
    d2.predictors.map predCfg = d.predictors.map predCfg := by
  unfold rolzCodec2.decodeMatch at h
  obtain ⟨prev, -, h1⟩ := bind_eq_some_iff.1 h
  clear h
  obtain ⟨ps, hps, h2⟩ := bind_eq_some_iff.1 h1
  clear h1
  obtain ⟨d1, hd1, h3⟩ := bind_eq_some_iff.1 h2
  clear h2
  obtain ⟨⟨d3, mi⟩, hib, h4⟩ := bind_eq_some_iff.1 h3
  clear h3
  obtain ⟨c, -, h5⟩ := bind_eq_some_iff.1 h4
  clear h4
  obtain ⟨_, -, h6⟩ := bind_eq_some_iff.1 h5
  clear h5
  obtain ⟨ref, -, h7⟩ := bind_eq_some_iff.1 h6
  clear h6
  obtain ⟨⟨b3, k3⟩, -, h8⟩ := bind_eq_some_iff.1 h7
  clear h7
  simp only [pure, Option.some.injEq, Prod.mk.injEq] at h8
  obtain ⟨rfl, -, -⟩ := h8
  rw [decodeIndexBits_cfg _ _ _ _ _ hib, dctx_cfg _ _ _ _ _ _ hps hd1]

theorem decodeToken2_cfg (t : rolzCodec1) (d d2 : rolzDecoder rolzPredictor)
    (buf buf2 : List Nat) (dstIdx key lo width dstEnd k : Nat) (brk : Bool)
    (h : rolzCodec2.decodeToken t d buf dstIdx key lo width dstEnd = some (d2, buf2, k, brk)) :
    d2.predictors.map predCfg = d.predictors.map predCfg := by
  unfold rolzCodec2.decodeToken at h
  obtain ⟨prev, -, h1⟩ := bind_eq_some_iff.1 h
  clear h
  obtain ⟨ps, hps, h2⟩ := bind_eq_some_iff.1 h1
  clear h1
  obtain ⟨d1, hd1, h3⟩ := bind_eq_some_iff.1 h2
  clear h2
  obtain ⟨⟨d3, bit⟩, hbit, h4⟩ := bind_eq_some_iff.1 h3
  clear h3
  have e1 := dctx_cfg _ _ _ _ _ _ hps hd1
  have e2 := decodeBit_cfg _ _ _ hbit
  simp only at h4
  split at h4
  · obtain ⟨⟨d4, ml⟩, hby, h5⟩ := bind_eq_some_iff.1 h4
    clear h4
    have e3 := decodeByte_cfg _ _ _ hby
    simp only at h5
    split at h5
    · simp only [pure, Option.some.injEq, Prod.mk.injEq] at h5
      obtain ⟨rfl, -, -, -⟩ := h5
      rw [e3, e2, e1]
    · obtain ⟨⟨d5, b5, k5⟩, hm, h6⟩ := bind_eq_some_iff.1 h5
      clear h5
      simp only [pure, Option.some.injEq, Prod.mk.injEq] at h6
      obtain ⟨rfl, -, -, -⟩ := h6
      rw [decodeMatch2_cfg _ _ _ _ _ _ _ _ _ _ _ hm, e3, e2, e1]
  · obtain ⟨⟨d4, v⟩, hby, h5⟩ := bind_eq_some_iff.1 h4
    clear h4
    obtain ⟨b5, -, h6⟩ := bind_eq_some_iff.1 h5
    clear h5
    simp only [pure, Option.some.injEq, Prod.mk.injEq] at h6
    obtain ⟨rfl, -, -, -⟩ := h6
    rw [decodeByte_cfg _ _ _ hby, e2, e1]

theorem decodeLoop2_cfg (dstEnd startChunk sizeChunk : Nat) :
    ∀ fuel (t : rolzCodec1) (d : rolzDecoder rolzPredictor) (buf : List Nat) (dstIdx : Nat)
      (t2 : rolzCodec1) (d2 : rolzDecoder rolzPredictor) (buf2 : List Nat) (k : Nat),
      rolzCodec2.decodeLoop dstEnd startChunk sizeChunk fuel t d buf dstIdx =
        some (t2, d2, buf2, k) →
      t2.SameCfg t ∧ d2.predictors.map predCfg = d.predictors.map predCfg := by
  intro fuel
  induction fuel with
  | zero =>
    intro t d buf dstIdx t2 d2 buf2 k h
    cases h
    exact ⟨SameCfg_refl _, rfl⟩
  | succ fuel ih =>
    intro t d buf dstIdx t2 d2 buf2 k h
    unfold rolzCodec2.decodeLoop at h
    split at h
    · obtain ⟨_, -, h1⟩ := bind_eq_some_iff.1 h
      clear h
      obtain ⟨keyBuf, -, h2⟩ := bind_eq_some_iff.1 h1
      clear h1
      obtain ⟨key, -, h3⟩ := bind_eq_some_iff.1 h2
      clear h2
      obtain ⟨⟨lo, width⟩, -, h4⟩ := bind_eq_some_iff.1 h3
      clear h3
      obtain ⟨⟨d1, b1, k1, brk⟩, htok, h5⟩ := bind_eq_some_iff.1 h4
      clear h4
      have e1 := decodeToken2_cfg _ _ _ _ _ _ _ _ _ _ _ _ htok
      simp only at h5
      split at h5
      · simp only [Option.some.injEq, Prod.mk.injEq] at h5
        obtain ⟨rfl, rfl, -, -⟩ := h5
        exact ⟨SameCfg_refl _, e1⟩
      · obtain ⟨t1, hreg, h6⟩ := bind_eq_some_iff.1 h5
        clear h5
        obtain ⟨c2, e2⟩ := ih _ _ _ _ _ _ _ _ h6
        exact ⟨SameCfg_trans c2 (register_cfg _ _ _ _ _ _ hreg), by rw [e2, e1]⟩
    · cases h
      exact ⟨SameCfg_refl _, rfl⟩
theorem decodeHead_cfg (d d2 : rolzDecoder rolzPredictor) (buf buf2 : List Nat)
    (startChunk dstEnd k bit : Nat)
    (h : rolzCodec2.decodeHead d buf startChunk dstEnd = some (d2, buf2, k, bit)) :
    d2.predictors.map predCfg = d.predictors.map predCfg := by
  unfold rolzCodec2.decodeHead at h
  obtain ⟨⟨d1, b1⟩, hb1, h1⟩ := bind_eq_some_iff.1 h
  clear h
  have e1 := decodeBit_cfg _ _ _ hb1
  simp only at h1
  split at h1
  · obtain ⟨⟨d3, v⟩, hby, h2⟩ := bind_eq_some_iff.1 h1
    clear h1
    have e2 := decodeByte_cfg _ _ _ hby
    obtain ⟨bf, -, h3⟩ := bind_eq_some_iff.1 h2
    clear h2
    simp only at h3
    split at h3
    · obtain ⟨⟨d4, b4⟩, hb4, h4⟩ := bind_eq_some_iff.1 h3
      clear h3
      have e3 := decodeBit_cfg _ _ _ hb4
      simp only at h4
      split at h4
      · obtain ⟨⟨d5, v5⟩, hby5, h5⟩ := bind_eq_some_iff.1 h4
        clear h4
        obtain ⟨bf2, -, h6⟩ := bind_eq_some_iff.1 h5
        clear h5
        simp only [pure, Option.some.injEq, Prod.mk.injEq] at h6
        obtain ⟨rfl, -, -, -⟩ := h6
        rw [decodeByte_cfg _ _ _ hby5, e3, e2, e1]
      · simp only [pure, Option.some.injEq, Prod.mk.injEq] at h4
        obtain ⟨rfl, -, -, -⟩ := h4
        rw [e3, e2, e1]
    · simp only [pure, Option.some.injEq, Prod.mk.injEq] at h3
      obtain ⟨rfl, -, -, -⟩ := h3
      rw [e2, e1]
  · simp only [pure, Option.some.injEq, Prod.mk.injEq] at h1
    obtain ⟨rfl, -, -, -⟩ := h1
    exact e1

theorem invChunkLoop2_cfg (dstEnd : Nat) :
    ∀ fuel (s s2 : Inv2State), rolzCodec2.invChunkLoop dstEnd fuel s = some s2 →
      s2.tabs.SameCfg s.tabs ∧ s2.rd.predictors.map predCfg = s.rd.predictors.map predCfg := by
  intro fuel
  induction fuel with
  | zero =>
    intro s s2 h
    cases h
    exact ⟨SameCfg_refl _, rfl⟩
  | succ fuel ih =>
    intro s s2 h
    unfold rolzCodec2.invChunkLoop at h
    split at h
    · simp only at h
      obtain ⟨_, -, h1⟩ := bind_eq_some_iff.1 h
      clear h
      obtain ⟨ps, hps, h2⟩ := bind_eq_some_iff.1 h1
      clear h1
      obtain ⟨d1, hd1, h3⟩ := bind_eq_some_iff.1 h2
      clear h2
      obtain ⟨⟨d2, b2, k2, bit⟩, hhead, h4⟩ := bind_eq_some_iff.1 h3
      clear h3
      have e1 := dctx_cfg _ _ _ _ _ _ hps hd1
      have e2 := decodeHead_cfg _ _ _ _ _ _ _ _ hhead
      simp only at h4
      split at h4
      · simp only [Option.some.injEq] at h4
        subst h4
        exact ⟨⟨rfl, rfl, rfl, rfl, rfl⟩, by rw [e2, e1]⟩
      · obtain ⟨⟨t3, d3, b3, k3⟩, hloop, h5⟩ := bind_eq_some_iff.1 h4
        clear h4
        obtain ⟨c3, e3⟩ := decodeLoop2_cfg _ _ _ _ _ _ _ _ _ _ _ _ hloop
        obtain ⟨c4, e4⟩ := ih _ _ h5
        exact ⟨SameCfg_trans c4 (SameCfg_trans c3 ⟨rfl, rfl, rfl, rfl, rfl⟩),
          by rw [e4, e3, e2, e1]⟩
    · cases h
      exact ⟨SameCfg_refl _, rfl⟩

theorem decodeBlock2_cfg (this : rolzCodec2) (src dst : List Nat) (dstEnd : Nat)
    (r : CallResult rolzCodec2) (h : this.decodeBlock src dst dstEnd = some r) :
    r.this.SameCfg this := by
  unfold rolzCodec2.decodeBlock at h
  simp only at h
  obtain ⟨d, hd, h1⟩ := bind_eq_some_iff.1 h
  clear h
  obtain ⟨s, hs, h2⟩ := bind_eq_some_iff.1 h1
  clear h1
  obtain ⟨lit, hlit, h3⟩ := bind_eq_some_iff.1 h2
  clear h2
  obtain ⟨mp, hmp, h4⟩ := bind_eq_some_iff.1 h3
  clear h3
  simp only [pure, Option.some.injEq] at h4
  subst h4
  have hdp : d.predictors = [this.litPredictor.reset, this.matchPredictor.reset] := by
    unfold newRolzDecoder at hd
    obtain ⟨cur, -, g1⟩ := bind_eq_some_iff.1 hd
    obtain ⟨p, -, g2⟩ := bind_eq_some_iff.1 g1
    cases g2
    rfl
  obtain ⟨c1, e1⟩ := invChunkLoop2_cfg _ _ _ _ hs
  simp only at c1 e1
  have hcfg := map_pair_get predCfg s.rd.predictors _ _ lit mp (by rw [e1, hdp]; rfl) hlit hmp
  refine ⟨SameCfg_trans c1 ⟨rfl, rfl, rfl, rfl, rfl⟩, ?_, ?_⟩
  · show predCfg lit = predCfg this.litPredictor
    rw [hcfg.1, predCfg_reset]
  · show predCfg mp = predCfg this.matchPredictor
    rw [hcfg.2, predCfg_reset]

theorem Inverse2_cfg (this : rolzCodec2) (src dst : List Nat)
    (r : CallResult rolzCodec2) (h : this.Inverse src dst = some r) : r.this.SameCfg this := by
  unfold rolzCodec2.Inverse at h
  obtain ⟨_, -, h1⟩ := bind_eq_some_iff.1 h
  obtain ⟨dstEnd, -, h2⟩ := bind_eq_some_iff.1 h1
  exact decodeBlock2_cfg _ _ _ _ _ h2

theorem SameCfg2_refl (c : rolzCodec2) : c.SameCfg c := ⟨SameCfg_refl _, rfl, rfl⟩

theorem SameCfg2_trans {a b c : rolzCodec2} (h1 : a.SameCfg b) (h2 : b.SameCfg c) :
    a.SameCfg c :=
  ⟨SameCfg_trans h1.1 h2.1, h1.2.1.trans h2.2.1, h1.2.2.trans h2.2.2⟩

theorem Forward2_cfg (this : rolzCodec2) (src dst : List Nat)
    (r : CallResult rolzCodec2) (h : this.Forward src dst = some r) : r.this.SameCfg this := by
  by_cases hfit : rolzCodec2.MaxEncodedLen src.length ≤ dst.length
  · obtain ⟨_, _, _, _, -, -, -, -, -, -, -, -, -, -, -, hc, -, -⟩ :=
      Forward2_trace this src dst r hfit h
    exact hc
  · unfold rolzCodec2.Forward at h
    rw [if_pos (by omega)] at h
    cases h
    exact SameCfg2_refl _

theorem Forward1_cfg (E : EntropyStage) (this : rolzCodec1) (src dst : List Nat)
    (r : CallResult rolzCodec1) (h : rolzCodec1.Forward E this src dst = some r) :
    r.this.SameCfg this := by
  by_cases hfit : rolzCodec1.MaxEncodedLen src.length ≤ dst.length
  · exact (Forward1_trace E this src dst r hfit h).1
  · unfold rolzCodec1.Forward at h
    rw [if_pos (by omega)] at h
    cases h
    exact SameCfg_refl _
theorem emitLiteralsLoop_cfg (d : Slice) (dstIdx : Nat) :
    ∀ fuel n (t t2 : rolzCodec1), rolzCodec1.emitLiteralsLoop d dstIdx fuel n t = some t2 →
      t2.SameCfg t := by
  intro fuel
  induction fuel with
  | zero =>
    intro n t t2 h
    cases h
    exact SameCfg_refl _
  | succ fuel ih =>
    intro n t t2 h
    unfold rolzCodec1.emitLiteralsLoop at h
    obtain ⟨keyBuf, -, h1⟩ := bind_eq_some_iff.1 h
    clear h
    obtain ⟨key, -, h2⟩ := bind_eq_some_iff.1 h1
    clear h1
    obtain ⟨⟨lo, width⟩, -, h3⟩ := bind_eq_some_iff.1 h2
    clear h2
    obtain ⟨t1, ht1, h4⟩ := bind_eq_some_iff.1 h3
    clear h3
    exact SameCfg_trans (ih _ _ _ h4) (register_cfg _ _ _ _ _ _ ht1)

theorem emitLiterals_cfg (t t2 : rolzCodec1) (litBuf dst dst2 : List Nat) (dstIdx : Nat)
    (h : t.emitLiterals litBuf dst dstIdx = some (t2, dst2)) : t2.SameCfg t := by
  unfold rolzCodec1.emitLiterals at h
  obtain ⟨_, -, h1⟩ := bind_eq_some_iff.1 h
  clear h
  obtain ⟨d, -, h2⟩ := bind_eq_some_iff.1 h1
  clear h1
  obtain ⟨t1, ht1, h3⟩ := bind_eq_some_iff.1 h2
  clear h2
  cases h3
  exact emitLiteralsLoop_cfg _ _ _ _ _ _ ht1

theorem decodeMatch1_cfg (t t2 : rolzCodec1) (b b2 : Inv1Bufs) (buf buf2 : List Nat)
    (dstIdx matchLen k : Nat)
    (h : rolzCodec1.decodeMatch t b buf dstIdx matchLen = some (t2, b2, buf2, k)) :
    t2.SameCfg t := by
  unfold rolzCodec1.decodeMatch at h
  obtain ⟨mi, -, h1⟩ := bind_eq_some_iff.1 h
  clear h
  obtain ⟨_, -, h2⟩ := bind_eq_some_iff.1 h1
  clear h1
  obtain ⟨keyBuf, -, h3⟩ := bind_eq_some_iff.1 h2
  clear h2
  obtain ⟨key, -, h4⟩ := bind_eq_some_iff.1 h3
  clear h3
  obtain ⟨⟨lo, width⟩, -, h5⟩ := bind_eq_some_iff.1 h4
  clear h4
  obtain ⟨c, -, h6⟩ := bind_eq_some_iff.1 h5
  clear h5
  obtain ⟨_, -, h7⟩ := bind_eq_some_iff.1 h6
  clear h6
  obtain ⟨ref, -, h8⟩ := bind_eq_some_iff.1 h7
  clear h7
  obtain ⟨⟨bf, di⟩, -, h9⟩ := bind_eq_some_iff.1 h8
  clear h8
  obtain ⟨t1, ht1, h10⟩ := bind_eq_some_iff.1 h9
  clear h9
  cases h10
  exact register_cfg _ _ _ _ _ _ ht1

theorem decodeLoop1_cfg (dstEnd : Int) (endChunk sizeChunk : Nat) :
    ∀ fuel (t : rolzCodec1) (b : Inv1Bufs) (buf : List Nat) (dstIdx : Nat)
      (r : Step (rolzCodec1 × Inv1Bufs × List Nat × Nat)),
      rolzCodec1.decodeLoop dstEnd endChunk sizeChunk fuel t b buf dstIdx = some r →
      r.val.1.SameCfg t := by
  intro fuel
  induction fuel with
  | zero =>
    intro t b buf dstIdx r h
    cases h
    exact SameCfg_refl _
  | succ fuel ih =>
    intro t b buf dstIdx r h
    unfold rolzCodec1.decodeLoop at h
    split at h
    · obtain ⟨_, -, h1⟩ := bind_eq_some_iff.1 h
      clear h
      obtain ⟨⟨litLen, matchLen, deltaIdx⟩, -, h2⟩ := bind_eq_some_iff.1 h1
      clear h1
      obtain ⟨_, -, h3⟩ := bind_eq_some_iff.1 h2
      clear h2
      obtain ⟨⟨t1, buf1⟩, hlit, h4⟩ := bind_eq_some_iff.1 h3
      clear h3
      have c1 := emitLiterals_cfg _ _ _ _ _ _ hlit
      simp only at h4
      split at h4
      · split at h4
        · cases h4
          exact c1
        · cases h4
          exact c1
      · split at h4
        · cases h4
          exact c1
        · obtain ⟨⟨t2, b2, buf2, k2⟩, hm, h5⟩ := bind_eq_some_iff.1 h4
          clear h4
          exact SameCfg_trans (ih _ _ _ _ _ h5) (SameCfg_trans (decodeMatch1_cfg _ _ _ _ _ _ _ _ _ hm) c1)
    · cases h
      exact SameCfg_refl _
theorem invChunkLoop1_cfg (E : EntropyStage) (src : List Nat) (dstEnd : Int) :
    ∀ fuel (s : Inv1State) (r : Step Inv1State),
      rolzCodec1.invChunkLoop E src dstEnd fuel s = some r → r.val.tabs.SameCfg s.tabs := by
  intro fuel
  induction fuel with
  | zero =>
    intro s r h
    cases h
    exact SameCfg_refl _
  | succ fuel ih =>
    intro s r h
    have c0 : ({ s.tabs with matches_ := s.tabs.matches_.fill 0 } : rolzCodec1).SameCfg s.tabs :=
      ⟨rfl, rfl, rfl, rfl, rfl⟩
    unfold rolzCodec1.invChunkLoop at h
    split at h
    · simp only at h
      obtain ⟨_, -, h1⟩ := bind_eq_some_iff.1 h
      clear h
      obtain ⟨dc, -, h2⟩ := bind_eq_some_iff.1 h1
      clear h1
      match dc, h2 with
      | .stop (b, _, _) err, h2 =>
        cases h2
        exact c0
      | .next (b, used, length), h2 =>
        simp only at h2
        split at h2 <;> split at h2 <;>
          first
          | (cases h2
             exact c0)
          | (obtain ⟨v, -, h3⟩ := bind_eq_some_iff.1 h2
             clear h2
             obtain ⟨buf1, -, h4⟩ := bind_eq_some_iff.1 h3
             clear h3
             split at h4
             · obtain ⟨v1, -, h5⟩ := bind_eq_some_iff.1 h4
               clear h4
               obtain ⟨buf2, -, h6⟩ := bind_eq_some_iff.1 h5
               clear h5
               obtain ⟨y, hy, h7⟩ := bind_eq_some_iff.1 h6
               clear h6
               obtain ⟨rr, hloop, h8⟩ := bind_eq_some_iff.1 h7
               clear h7
               have c1 := decodeLoop1_cfg _ _ _ _ _ _ _ _ _ hloop
               rcases rr with ⟨t, b1, bf, di⟩ | ⟨⟨t, b1, bf, di⟩, err⟩
               · exact SameCfg_trans (ih _ _ h8) (SameCfg_trans c1 c0)
               · cases h8
                 exact SameCfg_trans c1 c0
             · obtain ⟨y, hy, h7⟩ := bind_eq_some_iff.1 h4
               clear h4
               obtain ⟨rr, hloop, h8⟩ := bind_eq_some_iff.1 h7
               clear h7
               have c1 := decodeLoop1_cfg _ _ _ _ _ _ _ _ _ hloop
               rcases rr with ⟨t, b1, bf, di⟩ | ⟨⟨t, b1, bf, di⟩, err⟩
               · exact SameCfg_trans (ih _ _ h8) (SameCfg_trans c1 c0)
               · cases h8
                 exact SameCfg_trans c1 c0)
    · cases h
      exact SameCfg_refl _

theorem decodeBlock1_cfg (E : EntropyStage) (this : rolzCodec1) (src dst : List Nat) (hdr : Nat)
    (r : CallResult rolzCodec1) (h : rolzCodec1.decodeBlock E this src dst hdr = some r) :
    r.this.SameCfg this := by
  unfold rolzCodec1.decodeBlock at h
  simp only at h
  obtain ⟨st, hst, h1⟩ := bind_eq_some_iff.1 h
  clear h
  have c1 := invChunkLoop1_cfg _ _ _ _ _ _ hst
  have c0 : ({ this with counters := this.counters.fill 0 } : rolzCodec1).SameCfg this :=
    ⟨rfl, rfl, rfl, rfl, rfl⟩
  match st, h1, c1 with
  | .stop s err, h1, c1 =>
    cases h1
    exact SameCfg_trans c1 c0
  | .next s, h1, c1 =>
    obtain ⟨d2, -, h2⟩ := bind_eq_some_iff.1 h1
    cases h2
    exact SameCfg_trans c1 c0

theorem Inverse1_cfg (E : EntropyStage) (this : rolzCodec1) (src dst : List Nat)
    (r : CallResult rolzCodec1) (h : rolzCodec1.Inverse E this src dst = some r) :
    r.this.SameCfg this := by
  unfold rolzCodec1.Inverse at h
  obtain ⟨_, -, h1⟩ := bind_eq_some_iff.1 h
  obtain ⟨hdr, -, h2⟩ := bind_eq_some_iff.1 h1
  exact decodeBlock1_cfg _ _ _ _ _ _ h2
theorem cleared_eq (a b : rolzCodec1) (h : a.SameCfg b) :
    ({ ({ a with counters := a.counters.fill 0 } : rolzCodec1) with
        matches_ := a.matches_.fill 0 } : rolzCodec1) =
      { ({ b with counters := b.counters.fill 0 } : rolzCodec1) with
        matches_ := b.matches_.fill 0 } := by
  obtain ⟨h1, h2, h3, h4, h5⟩ := h
  cases a
  cases b
  simp only at h1 h2 h3 h4 h5
  subst h1 h2 h3
  simp only [Arr.fill, h4, h5]

theorem reset_eq (p q : rolzPredictor) (h : predCfg p = predCfg q) : p.reset = q.reset := by
  cases p
  cases q
  simp only [predCfg, Prod.mk.injEq] at h
  obtain ⟨h1, h2, h3⟩ := h
  subst h1 h2
  simp only [rolzPredictor.reset, Arr.fill, h3]

theorem chunkLoop1_congr (E : EntropyStage) (src : List Nat) (srcEnd : Int) (fuel : Nat)
    (t u : rolzCodec1) (dst litBuf lenBuf mIdxBuf : List Nat)
    (startChunk sizeChunk srcIdx dstIdx : Nat) (hs : (startChunk : Int) < srcEnd)
    (ht : ({ t with matches_ := t.matches_.fill 0 } : rolzCodec1) =
      { u with matches_ := u.matches_.fill 0 }) :
    rolzCodec1.chunkLoop E src srcEnd (fuel + 1)
        ⟨t, dst, litBuf, lenBuf, mIdxBuf, startChunk, sizeChunk, srcIdx, dstIdx⟩ =
      rolzCodec1.chunkLoop E src srcEnd (fuel + 1)
        ⟨u, dst, litBuf, lenBuf, mIdxBuf, startChunk, sizeChunk, srcIdx, dstIdx⟩ := by
  unfold rolzCodec1.chunkLoop
  rw [if_pos hs, if_pos hs]
  simp only [ht]
  rfl

theorem invChunkLoop1_congr (E : EntropyStage) (src : List Nat) (dstEnd : Int) (fuel : Nat)
    (t u : rolzCodec1) (dst litBuf lenBuf mIdxBuf : List Nat)
    (startChunk sizeChunk srcIdx dstIdx : Nat) (hs : (startChunk : Int) < dstEnd)
    (ht : ({ t with matches_ := t.matches_.fill 0 } : rolzCodec1) =
      { u with matches_ := u.matches_.fill 0 }) :
    rolzCodec1.invChunkLoop E src dstEnd (fuel + 1)
        ⟨t, dst, litBuf, lenBuf, mIdxBuf, startChunk, sizeChunk, srcIdx, dstIdx⟩ =
      rolzCodec1.invChunkLoop E src dstEnd (fuel + 1)
        ⟨u, dst, litBuf, lenBuf, mIdxBuf, startChunk, sizeChunk, srcIdx, dstIdx⟩ := by
  unfold rolzCodec1.invChunkLoop
  rw [if_pos hs, if_pos hs]
  simp only [ht]
  rfl
theorem Forward1_congr (E : EntropyStage) (c u : rolzCodec1) (src dst : List Nat)
    (h : c.SameCfg u) (h5 : 5 ≤ src.length) :
    (rolzCodec1.Forward E c src dst).map CallResult.view =
      (rolzCodec1.Forward E u src dst).map CallResult.view := by
  have hs : ((0 : Nat) : Int) < (src.length : Int) - 4 := by omega
  have key := fun d l1 l2 l3 sz a b =>
    chunkLoop1_congr E src ((src.length : Int) - 4) src.length
      { c with counters := c.counters.fill 0 } { u with counters := u.counters.fill 0 }
      d l1 l2 l3 0 sz a b hs (cleared_eq c u h)
  unfold rolzCodec1.Forward
  split
  · rfl
  · simp only [key]

theorem decodeBlock1_congr (E : EntropyStage) (c u : rolzCodec1) (src dst : List Nat)
    (hdr : Nat) (h : c.SameCfg u) :
    (rolzCodec1.decodeBlock E c src dst hdr).map CallResult.view =
      (rolzCodec1.decodeBlock E u src dst hdr).map CallResult.view := by
  by_cases hs : ((0 : Nat) : Int) < (hdr : Int) - 4
  · have key := fun d l1 l2 l3 sz a b =>
      invChunkLoop1_congr E src ((hdr : Int) - 4) hdr
        { c with counters := c.counters.fill 0 } { u with counters := u.counters.fill 0 }
        d l1 l2 l3 0 sz a b hs (cleared_eq c u h)
    unfold rolzCodec1.decodeBlock
    simp only [key]
  · have stay : ∀ t d l1 l2 l3 sz a b,
        rolzCodec1.invChunkLoop E src ((hdr : Int) - 4) (hdr + 1)
          ⟨t, d, l1, l2, l3, 0, sz, a, b⟩ = some (.next ⟨t, d, l1, l2, l3, 0, sz, a, b⟩) := by
      intro t d l1 l2 l3 sz a b
      unfold rolzCodec1.invChunkLoop
      rw [if_neg hs]
    unfold rolzCodec1.decodeBlock
    simp only [stay, bind, andThen]
    cases copyTail dst src ((0 : Nat) + (((0 : Nat) : Int) -
      ((if dst.length > ROLZ_CHUNK_SIZE then ROLZ_CHUNK_SIZE else dst.length : Nat) : Int))) 4 <;> rfl

theorem Inverse1_congr (E : EntropyStage) (c u : rolzCodec1) (src dst : List Nat)
    (h : c.SameCfg u) :
    (rolzCodec1.Inverse E c src dst).map CallResult.view =
      (rolzCodec1.Inverse E u src dst).map CallResult.view := by
  unfold rolzCodec1.Inverse
  cases h1 : chk (4 ≤ src.length) with
  | none => rfl
  | some x =>
    cases h2 : getUint32BE src 0 with
    | none => rfl
    | some hdr => exact decodeBlock1_congr E c u src dst hdr h
theorem chunkLoop2_congr (src : List Nat) (srcEnd : Int) (fuel : Nat)
    (t u : rolzCodec1) (re : rolzEncoder rolzPredictor) (startChunk sizeChunk srcIdx : Nat)
    (hs : (startChunk : Int) < srcEnd)
    (ht : ({ t with matches_ := t.matches_.fill 0 } : rolzCodec1) =
      { u with matches_ := u.matches_.fill 0 }) :
    rolzCodec2.chunkLoop src srcEnd (fuel + 1) ⟨t, re, startChunk, sizeChunk, srcIdx⟩ =
      rolzCodec2.chunkLoop src srcEnd (fuel + 1) ⟨u, re, startChunk, sizeChunk, srcIdx⟩ := by
  unfold rolzCodec2.chunkLoop
  rw [if_pos hs, if_pos hs]
  simp only [ht]

theorem invChunkLoop2_congr (dstEnd fuel : Nat)
    (t u : rolzCodec1) (d : rolzDecoder rolzPredictor) (dst : List Nat)
    (startChunk sizeChunk dstIdx : Nat) (hs : startChunk < dstEnd)
    (ht : ({ t with matches_ := t.matches_.fill 0 } : rolzCodec1) =
      { u with matches_ := u.matches_.fill 0 }) :
    rolzCodec2.invChunkLoop dstEnd (fuel + 1) ⟨t, d, dst, startChunk, sizeChunk, dstIdx⟩ =
      rolzCodec2.invChunkLoop dstEnd (fuel + 1) ⟨u, d, dst, startChunk, sizeChunk, dstIdx⟩ := by
  unfold rolzCodec2.invChunkLoop
  rw [if_pos hs, if_pos hs]
  simp only [ht]

theorem Forward2_congr (c u : rolzCodec2) (src dst : List Nat)
    (h : c.SameCfg u) (h5 : 5 ≤ src.length) :
    (rolzCodec2.Forward c src dst).map CallResult.view =
      (rolzCodec2.Forward u src dst).map CallResult.view := by
  have hs : ((0 : Nat) : Int) < (src.length : Int) - 4 := by omega
  have key := fun re sz a =>
    chunkLoop2_congr src ((src.length : Int) - 4) src.length
      { c.tabs with counters := c.tabs.counters.fill 0 }
      { u.tabs with counters := u.tabs.counters.fill 0 }
      re 0 sz a hs (cleared_eq c.tabs u.tabs h.1)
  unfold rolzCodec2.Forward
  split
  · rfl
  · simp only [key, reset_eq _ _ h.2.1, reset_eq _ _ h.2.2]

theorem decodeBlock2_congr (c u : rolzCodec2) (src dst : List Nat) (dstEnd : Nat)
    (h : c.SameCfg u) :
    (rolzCodec2.decodeBlock c src dst dstEnd).map CallResult.view =
      (rolzCodec2.decodeBlock u src dst dstEnd).map CallResult.view := by
  by_cases hs : 0 < dstEnd
  · have key := fun d ds sz a =>
      invChunkLoop2_congr dstEnd dstEnd
        { c.tabs with counters := c.tabs.counters.fill 0 }
        { u.tabs with counters := u.tabs.counters.fill 0 }
        d ds 0 sz a hs (cleared_eq c.tabs u.tabs h.1)
    unfold rolzCodec2.decodeBlock
    simp only [key, reset_eq _ _ h.2.1, reset_eq _ _ h.2.2]
  · have stay : ∀ t d ds sz a,
        rolzCodec2.invChunkLoop dstEnd (dstEnd + 1) ⟨t, d, ds, 0, sz, a⟩ =
          some ⟨t, d, ds, 0, sz, a⟩ := by
      intro t d ds sz a
      unfold rolzCodec2.invChunkLoop
      rw [if_neg hs]
    unfold rolzCodec2.decodeBlock
    simp only [stay, bind, andThen, reset_eq _ _ h.2.1, reset_eq _ _ h.2.2]
    cases newRolzDecoder [u.litPredictor.reset, u.matchPredictor.reset] src 4 with
    | none => rfl
    | some d =>
      simp only
      cases d.predictors[0]? with
      | none => rfl
      | some lit =>
        simp only
        cases d.predictors[1]? <;> rfl

theorem Inverse2_congr (c u : rolzCodec2) (src dst : List Nat) (h : c.SameCfg u) :
    (rolzCodec2.Inverse c src dst).map CallResult.view =
      (rolzCodec2.Inverse u src dst).map CallResult.view := by
  unfold rolzCodec2.Inverse
  cases h1 : chk (4 ≤ src.length) with
  | none => rfl
  | some x =>
    cases h2 : getUint32BE src 0 with
    | none => rfl
    | some hdr => exact decodeBlock2_congr c u src dst hdr h

/-! ## Nothing is kept from one block to the next -/

theorem Reachable1_cfg (E : EntropyStage) (k : Nat) (c : rolzCodec1)
    (h : rolzCodec1.Reachable E k c) : c.SameCfg (rolzCodec1.alloc k) := by
  induction h with
  | fresh => exact SameCfg_refl _
  | forward c src dst r _ hr ih => exact SameCfg_trans (Forward1_cfg E c src dst r hr) ih
  | inverse c src dst r _ hr ih => exact SameCfg_trans (Inverse1_cfg E c src dst r hr) ih

theorem Reachable2_cfg (k : Nat) (c : rolzCodec2)
    (h : rolzCodec2.Reachable k c) : c.SameCfg (rolzCodec2.alloc k) := by
  induction h with
  | fresh => exact SameCfg2_refl _
  | forward c src dst r _ hr ih => exact SameCfg2_trans (Forward2_cfg c src dst r hr) ih
  | inverse c src dst r _ hr ih => exact SameCfg2_trans (Inverse2_cfg c src dst r hr) ih

/-- C20: no state persists from one block to the next.  For either backend
and every codec a caller can hold after any sequence of earlier `Forward` and
`Inverse` calls that returned, `Forward` on a block of at least 5 bytes and
`Inverse` on any input give exactly what they give on a freshly constructed
codec with the same `logPosChecks`: the same panic, or the same destination
bytes, the same two returned indices and the same error.  The counters, the
match table and the two predictors are rebuilt before they are first read. -/
theorem no_persisted_state (E : EntropyStage) (k1 k2 : Nat) (c1 : rolzCodec1)
    (c2 : rolzCodec2) (h1 : rolzCodec1.Reachable E k1 c1) (h2 : rolzCodec2.Reachable k2 c2) :
    (∀ b dst, 5 ≤ b.length →
      (rolzCodec1.Forward E c1 b dst).map CallResult.view =
        (rolzCodec1.Forward E (rolzCodec1.alloc k1) b dst).map CallResult.view) ∧
    (∀ s out,
      (rolzCodec1.Inverse E c1 s out).map CallResult.view =
        (rolzCodec1.Inverse E (rolzCodec1.alloc k1) s out).map CallResult.view) ∧
    (∀ b dst, 5 ≤ b.length →
      (rolzCodec2.Forward c2 b dst).map CallResult.view =
        (rolzCodec2.Forward (rolzCodec2.alloc k2) b dst).map CallResult.view) ∧
    (∀ s out,
      (rolzCodec2.Inverse c2 s out).map CallResult.view =
        (rolzCodec2.Inverse (rolzCodec2.alloc k2) s out).map CallResult.view) :=
  ⟨fun b dst h5 => Forward1_congr E c1 _ b dst (Reachable1_cfg E k1 c1 h1) h5,
   fun s out => Inverse1_congr E c1 _ s out (Reachable1_cfg E k1 c1 h1),
   fun b dst h5 => Forward2_congr c2 _ b dst (Reachable2_cfg k2 c2 h2) h5,
   fun s out => Inverse2_congr c2 _ s out (Reachable2_cfg k2 c2 h2)⟩

/-- Backend 2 with `logPosChecks = 2`: after `Forward` on the block
`[1, 2, 3, 4, 5]`, `Forward` on `[5, 4, 3, 2, 1, 0]` gives what it gives on a
fresh codec. -/
theorem no_persisted_state_witness :
    ((rolzCodec2.Forward (rolzCodec2.alloc 2) [1, 2, 3, 4, 5] (List.replicate 64 0)).bind
        fun r => (rolzCodec2.Forward r.this [5, 4, 3, 2, 1, 0] (List.replicate 64 0)).map
          CallResult.view) =
      (rolzCodec2.Forward (rolzCodec2.alloc 2) [5, 4, 3, 2, 1, 0] (List.replicate 64 0)).map
        CallResult.view := by
  have hsome : (rolzCodec2.Forward (rolzCodec2.alloc 2) [1, 2, 3, 4, 5]
      (List.replicate 64 0)).isSome = true := by decide!
  cases hr : rolzCodec2.Forward (rolzCodec2.alloc 2) [1, 2, 3, 4, 5] (List.replicate 64 0) with
  | none =>
    rw [hr] at hsome
    cases hsome
  | some r =>
    rw [Option.some_bind]
    exact (no_persisted_state plainStage 2 2 (rolzCodec1.alloc 2) r.this
      rolzCodec1.Reachable.fresh
      (rolzCodec2.Reachable.forward (rolzCodec2.alloc 2) [1, 2, 3, 4, 5] (List.replicate 64 0) r
        rolzCodec2.Reachable.fresh hr)).2.2.1 [5, 4, 3, 2, 1, 0] (List.replicate 64 0)
      (by decide)

/-! ## The codec factory and the block decompressor -/

/-- C21: the name of a type ID does not always map back to it. `GetName`
answers for every ID in `0..9`, and `GetType(GetName(t)) = t` for `t` in
`0..8`; but `GetName(9)` is `"TPAQX"`, for which `GetType` has no case, so
`GetType(GetName(9))` panics. -/
theorem GetType_GetName_fails_for_TPAQX :
    GetName TPAQX_TYPE = some "TPAQX" ∧ GetType "TPAQX" = none ∧
      (GetName 9).bind GetType = none ∧
      ∀ t, t ≤ 8 → (GetName t).bind GetType = some t := by
  refine ⟨by decide, by decide, by decide, ?_⟩
  intro t ht
  interval_cases t <;> decide

/-- The upper case is taken on runes: `an`, U+017F, `0` is read as `ANS0`. -/
theorem GetType_long_s : GetType ⟨['a', 'n', Char.ofNat 0x17F, '0']⟩ = some ANS0_TYPE := by
  decide

theorem Rejected_unsupported {C : Type} (t : Nat) :
    Built.Rejected ((none, some (FactoryError.unsupported t)) : Built C) :=
  ⟨rfl, by simp⟩

/-- The default case of `NewEntropyDecoder`: a type ID outside `0..9` gives
a nil codec and the error of the factory, whatever the constructors are. -/
theorem NewEntropyDecoder_default {B C P M : Type} (K : Constructors B C P M) (ibs : B)
    (ctx : Option M) (t : Nat) (h : ¬ t ≤ 9) :
    NewEntropyDecoder K ibs ctx t = some (none, some (.unsupported t)) := by
  unfold NewEntropyDecoder HUFFMAN_TYPE ANS0_TYPE ANS1_TYPE RANGE_TYPE PAQ_TYPE FPAQ_TYPE
    CM_TYPE TPAQ_TYPE TPAQX_TYPE NONE_TYPE
  simp only [show t ≠ 0 by omega, show t ≠ 1 by omega, show t ≠ 2 by omega,
    show t ≠ 3 by omega, show t ≠ 4 by omega, show t ≠ 5 by omega, show t ≠ 6 by omega,
    show t ≠ 7 by omega, show t ≠ 8 by omega, show t ≠ 9 by omega, if_false]

/-- The default case of `NewEntropyEncoder`. -/
theorem NewEntropyEncoder_default {B C P M : Type} (K : Constructors B C P M) (obs : B)
    (ctx : Option M) (t : Nat) (h : ¬ t ≤ 9) :
    NewEntropyEncoder K obs ctx t = some (none, some (.unsupported t)) := by
  unfold NewEntropyEncoder HUFFMAN_TYPE ANS0_TYPE ANS1_TYPE RANGE_TYPE PAQ_TYPE FPAQ_TYPE
    CM_TYPE TPAQ_TYPE TPAQX_TYPE NONE_TYPE
  simp only [show t ≠ 0 by omega, show t ≠ 1 by omega, show t ≠ 2 by omega,
    show t ≠ 3 by omega, show t ≠ 4 by omega, show t ≠ 5 by omega, show t ≠ 6 by omega,
    show t ≠ 7 by omega, show t ≠ 8 by omega, show t ≠ 9 by omega, if_false]

/-- For a type ID in `0..9` and a non-nil map both factories hand back what
the selected constructor returns, codec and error unchanged. -/
theorem factory_returns_selected {B C P M : Type} (K : Constructors B C P M) (bs : B)
    (m : M) (t : Nat) (h : t ≤ 9) :
    NewEntropyDecoder K bs (some m) t = some (K.selected bs m t) ∧
      NewEntropyEncoder K bs (some m) t = some (K.selected bs m t) := by
  unfold NewEntropyDecoder NewEntropyEncoder Constructors.selected HUFFMAN_TYPE ANS0_TYPE
    ANS1_TYPE RANGE_TYPE PAQ_TYPE FPAQ_TYPE CM_TYPE TPAQ_TYPE TPAQX_TYPE NONE_TYPE
  interval_cases t <;> exact ⟨rfl, rfl⟩

/-- With the nil map the type `TPAQX_TYPE` makes both factories panic at
`ctx["extra"] = true`; the other types in `0..8` do not touch the map. -/
theorem factory_nil_map {B C P M : Type} (K : Constructors B C P M) (bs : B) :
    NewEntropyDecoder K bs none TPAQX_TYPE = none ∧
      NewEntropyEncoder K bs none TPAQX_TYPE = none ∧
      ∀ t, t ≤ 8 → (NewEntropyDecoder K bs none t).isSome ∧
        (NewEntropyEncoder K bs none t).isSome := by
  refine ⟨rfl, rfl, ?_⟩
  intro t ht
  unfold NewEntropyDecoder NewEntropyEncoder HUFFMAN_TYPE ANS0_TYPE
    ANS1_TYPE RANGE_TYPE PAQ_TYPE FPAQ_TYPE CM_TYPE TPAQ_TYPE TPAQX_TYPE NONE_TYPE
  interval_cases t <;> exact ⟨rfl, rfl⟩

theorem GetName_none_iff (t : Nat) : GetName t = none ↔ ¬ t ≤ 9 := by
  constructor
  · intro h hle
    interval_cases t <;> revert h <;> decide
  · intro h
    unfold GetName HUFFMAN_TYPE ANS0_TYPE ANS1_TYPE RANGE_TYPE PAQ_TYPE FPAQ_TYPE
      CM_TYPE TPAQ_TYPE TPAQX_TYPE NONE_TYPE
    simp only [show t ≠ 0 by omega, show t ≠ 1 by omega, show t ≠ 2 by omega,
      show t ≠ 3 by omega, show t ≠ 4 by omega, show t ≠ 5 by omega, show t ≠ 6 by omega,
      show t ≠ 7 by omega, show t ≠ 8 by omega, show t ≠ 9 by omega, if_false]

theorem removeLoop_absent {L : Type} [DecidableEq L] (all : List L) (bl : L) :
    ∀ (rest : List L) (i : Nat), bl ∉ rest → removeLoop all bl i rest = some (all, false) := by
  intro rest
  induction rest with
  | nil => intro i _; rfl
  | cons e rest ih =>
    intro i h
    have h1 : e ≠ bl := fun he => h (by simp [he])
    have h2 : bl ∉ rest := fun hm => h (List.mem_cons_of_mem _ hm)
    unfold removeLoop
    rw [if_neg h1]
    exact ih _ h2

theorem removeLoop_found {L : Type} [DecidableEq L] (all : List L) (bl : L) :
    ∀ (pre rest : List L) (i : Nat), bl ∉ pre →
      removeLoop all bl i (pre ++ bl :: rest) =
        if i + pre.length = 0 then none
        else some (all.take (i + pre.length - 1) ++ all.drop (i + pre.length + 1), true) := by
  intro pre
  induction pre with
  | nil =>
    intro rest i _
    simp only [List.nil_append, List.length_nil, Nat.add_zero]
    unfold removeLoop
    rw [if_pos rfl]
  | cons e pre ih =>
    intro rest i h
    have h1 : e ≠ bl := fun he => h (by simp [he])
    have h2 : bl ∉ pre := fun hm => h (List.mem_cons_of_mem _ hm)
    simp only [List.cons_append, List.length_cons]
    unfold removeLoop
    rw [if_neg h1, ih rest (i + 1) h2]
    have e1 : i + 1 + pre.length = i + (pre.length + 1) := by omega
    rw [e1]

/-- C23: `RemoveListener` does not remove the listener it is given.  When
`bl` is absent the list is unchanged and the result is `false`, as claimed.
When the first occurrence of `bl` is the first element, the slice expression
`this.listeners[:i-1]` is `this.listeners[:-1]` and the call panics.  When the
first occurrence is at index `i ≥ 1`, the result is `true` and the new list
is `listeners[:i-1]` followed by `listeners[i+1:]`: the listener before `bl`
is removed with it, so that the list is two shorter.  For instance removing
2 from `[1, 2, 3]` leaves `[3]`. -/
theorem RemoveListener_drops_neighbour {L : Type} [DecidableEq L] (bl : L) :
    (∀ l : List L, bl ∉ l → RemoveListener l bl = some (l, false)) ∧
    (∀ rest : List L, RemoveListener (bl :: rest) bl = none) ∧
    (∀ (pre rest : List L) (e : L), bl ∉ pre → e ≠ bl →
      RemoveListener (pre ++ e :: bl :: rest) bl = some (pre ++ rest, true)) ∧
    RemoveListener [1, 2, 3] 2 = some ([3], true) ∧ RemoveListener [1] 1 = none := by
  refine ⟨fun l h => removeLoop_absent l bl l 0 h, fun rest => ?_, fun pre rest e hp he => ?_,
    by decide, by decide⟩
  · have := removeLoop_found (bl :: rest) bl [] rest 0 (by simp)
    simpa [RemoveListener] using this
  · have hne : bl ∉ pre ++ [e] := by
      simp only [List.mem_append, List.mem_singleton, not_or]
      exact ⟨hp, fun h => he h.symm⟩
    have := removeLoop_found (pre ++ e :: bl :: rest) bl (pre ++ [e]) rest 0 hne
    simp only [List.append_assoc, List.singleton_append, List.length_append,
      List.length_singleton, Nat.zero_add] at this
    unfold RemoveListener
    rw [this, if_neg (by omega)]
    have e1 : pre.length + 1 - 1 = pre.length := by omega
    have e2 : pre.length + 1 + 1 = pre.length + 2 := by omega
    rw [e1, e2, List.take_left, List.drop_append_eq_append_drop]
    simp

theorem waitResults_nonzero (res : Int) :
    ∀ (rs : List FileDecompressResult) (read : Nat),
      (waitResults res read rs).1 =
        if firstNonzero (rs.map (fun r => r.code)) ≠ 0 then
          firstNonzero (rs.map (fun r => r.code)) else res := by
  intro rs
  induction rs with
  | nil => intro read; simp [waitResults, firstNonzero]
  | cons r rs ih =>
    intro read
    unfold waitResults
    by_cases h : r.code ≠ 0
    · simp only [List.map_cons, firstNonzero]
      rw [if_pos h, if_pos h, if_pos h]
    · have h0 : r.code = 0 := by simpa using h
      simp only [h, List.map_cons, firstNonzero, if_false]
      exact ih _

/-- C24: the exit code for several files.  In `v2/app` the code returned by
`Decompress` is the first nonzero code of the results in arrival order, and
0 when every code is 0.  In `app` the code returned by `Call` is the first
nonzero code when there is one, but 1 when every file returned 0: `res` is
initialised to 1 and the loop assigns it only on a nonzero code. -/
theorem exit_status_aggregation :
    (∀ rs, (Decompress_exit rs).1 = firstNonzero (rs.map (fun r => r.code))) ∧
    (∀ rs, firstNonzero (rs.map (fun r => r.code)) ≠ 0 →
      (Call_exit rs).1 = firstNonzero (rs.map (fun r => r.code))) ∧
    (∀ rs, firstNonzero (rs.map (fun r => r.code)) = 0 → (Call_exit rs).1 = 1) ∧
    (Call_exit [⟨0, 10⟩, ⟨0, 20⟩]).1 = 1 := by
  refine ⟨fun rs => ?_, fun rs h => ?_, fun rs h => ?_, by decide⟩
  · unfold Decompress_exit
    rw [waitResults_nonzero]
    split
    · rfl
    · rename_i h
      have h0 : firstNonzero (rs.map (fun r => r.code)) = 0 := by simpa using h
      exact h0.symm
  · unfold Call_exit
    rw [waitResults_nonzero, if_pos h]
  · unfold Call_exit
    rw [waitResults_nonzero, if_neg (by simpa using h)]

/-! ## One step of an adaptive probability map -/

theorem apm_update_exact (d B : Int) (bit : Int) (rate : Nat) (hr : rate ≤ 30)
    (hbit : bit = 0 ∨ bit = 1) (hB1 : 65535 ≤ B) (hB2 : B ≤ 65536) (hd0 : 0 ≤ d) (hd1 : d ≤ B) :
    i32 (d + ((i32 (apmTarget bit rate - d)) >>> rate)) =
      d + (apmTarget bit rate - d) / ((2 ^ rate : Nat) : Int) := by
  obtain ⟨h1, h2⟩ := two_pow_rate rate hr
  have hg : apmTarget bit rate = 0 ∨ apmTarget bit rate = 65534 + ((2 ^ rate : Nat) : Int) := by
    rcases hbit with rfl | rfl
    · exact Or.inl (apmTarget_zero rate)
    · exact Or.inr (apmTarget_one rate hr)
  rw [Int.shiftRight_eq_div_pow]
  generalize apmTarget bit rate = g at *
  push_cast
  have hm : ((2 : Int) ^ rate) = ((2 ^ rate : Nat) : Int) := by push_cast; rfl
  rw [hm]
  generalize ((2 ^ rate : Nat) : Int) = m at *
  have hx : i32 (g - d) = g - d := i32_of_range _ (by omega) (by omega)
  rw [hx]
  have q1 := Int.ediv_mul_le (g - d) (show m ≠ 0 by omega)
  have q2 := Int.lt_ediv_add_one_mul_self (g - d) (show 0 < m by omega)
  generalize (g - d) / m = q at *
  have hq : -d ≤ q ∧ d + q ≤ B := by
    rcases hg with rfl | rfl
    · constructor
      · by_contra hc
        have : (q + 1) * m ≤ (q + 1) * 1 := by
          apply Int.mul_le_mul_of_nonpos_left <;> omega
        omega
      · by_contra hc
        have : 1 * m ≤ q * m := by
          apply Int.mul_le_mul_of_nonneg_right <;> omega
        omega
    · constructor
      · by_contra hc
        have : (q + 1) * m ≤ (q + 1) * 1 := by
          apply Int.mul_le_mul_of_nonpos_left <;> omega
        omega
      · by_contra hc
        have : (q - 1) * 1 ≤ (q - 1) * m := by
          apply Int.mul_le_mul_of_nonneg_left <;> omega
        have e : (q - 1) * m = q * m - m := by ring
        omega
  rw [i32_of_range _ (by omega) (by omega)]

theorem interpolate_exact (d0 d1 w : Int) (h00 : 0 ≤ d0) (h01 : d0 ≤ 65535) (h10 : 0 ≤ d1)
    (h11 : d1 ≤ 65535) (hw0 : 0 ≤ w) (hw1 : w ≤ 127) :
    (i32 (i32 (d1 * i32 w) + i32 (d0 * i32 (128 - i32 w)))) >>> (11 : Nat) =
      (d1 * w + d0 * (128 - w)) / 2048 := by
  have a1 : 0 ≤ d1 * w := Int.mul_nonneg h10 hw0
  have a2 : d1 * w ≤ 65535 * w := Int.mul_le_mul_of_nonneg_right h11 hw0
  have a3 : 0 ≤ d0 * (128 - w) := Int.mul_nonneg h00 (by omega)
  have a4 : d0 * (128 - w) ≤ 65535 * (128 - w) :=
    Int.mul_le_mul_of_nonneg_right h01 (by omega)
  rw [i32_of_range w (by omega) (by omega), i32_of_range (128 - w) (by omega) (by omega),
    i32_of_range (d1 * w) (by omega) (by omega),
    i32_of_range (d0 * (128 - w)) (by omega) (by omega),
    i32_of_range (d1 * w + d0 * (128 - w)) (by omega) (by omega),
    Int.shiftRight_eq_div_pow]
  norm_num

theorem apmUpdate_exact (data : Arr Int) (i bit : Int) (rate : Nat) (hr : rate ≤ 30)
    (hbit : bit = 0 ∨ bit = 1) (h0 : 0 ≤ i) (h1 : i.toNat < data.len)
    (hd : ∀ k, 0 ≤ data.cell k ∧ data.cell k ≤ 65535) :
    ∃ d2, apmUpdate data i (apmTarget bit rate) rate = some d2 ∧ d2.len = data.len ∧
      (∀ k, 0 ≤ d2.cell k ∧ d2.cell k ≤ 65535) ∧
      ∀ k, d2.cell k = if k = i.toNat then
        data.cell k + (apmTarget bit rate - data.cell k) / ((2 ^ rate : Nat) : Int)
        else data.cell k := by
  refine ⟨_, apmUpdate_eq data i _ rate h0 h1, rfl, ?_, ?_⟩
  · intro k
    show 0 ≤ (if k = i.toNat then _ else _) ∧ (if k = i.toNat then _ else _) ≤ 65535
    split
    · exact apm_update_range _ 65535 bit rate (by omega) hbit (by omega) (by omega) (hd _).1 (hd _).2
    · exact hd k
  · intro k
    show (if k = i.toNat then _ else _) = _
    split
    · rename_i hk
      subst hk
      exact apm_update_exact _ 65535 bit rate hr hbit (by omega) (by omega) (hd _).1 (hd _).2
    · rfl

/-- C29, refuted as stated: the two entries updated are not those at the
index of the current `(pr, ctx)`.  On a new Logistic map of one row (rate 7,
tables of zeros, whose entries are all 0) the call `get(1, 0, 0)` computes the
index 16, but it is the entries 0 and 1, at the index the map held before the
call, that become 512; the entries 16 and 17 are still 0. -/
theorem logistic_get_updates_previous_index :
    (newLogisticAdaptiveProbMap zeroTables 1 7).map
        (fun a => (a.index, a.data.cell 0, a.data.cell 1, a.data.cell 16, a.data.cell 17)) =
      some (0, 0, 0, 0, 0) ∧
    (newLogisticAdaptiveProbMap zeroTables 1 7).bind
        (fun a => (LogisticAdaptiveProbMap.get zeroTables a 1 0 0).map
          (fun r => (r.1.index, r.1.data.cell 0, r.1.data.cell 1, r.1.data.cell 16,
            r.1.data.cell 17))) =
      some (16, 512, 512, 0, 0) := by
  constructor <;> decide!

/-- C29, amended.  With `STRETCH` of 4096 entries in `[-2047..2047]`, on a map
of `n` rows of 33 entries in `[0..65535]` with rate at most 30, a call
`get(bit, pr, ctx)` with `bit` in `{0,1}`, `pr` in `[0..4095]` and `ctx` below
`n` returns, and with `s = STRETCH[pr]` and `g = (bit<<16) + (bit<<rate) -
(bit<<1)`: first the two entries at `i` and `i + 1`, where `i` is the index
the map held before the call (0 on a new map, else the index of the previous
call), are replaced by `entry + ((g - entry) >> rate)` and every other entry
is kept; then the index becomes `((s + 2048) >> 7) + 33*ctx`; and the value
returned is `(entry[index+1]*w + entry[index]*(128-w)) >> 11` with
`w = s & 127`, read in the updated table at the new index. -/
theorem logistic_get_step (T : ProbTables) (hT : T.Ok) (n : Nat) (hsz : n * 33 < 2 ^ 56)
    (a : AdaptiveProbMap) (ha : ApmOk 33 n logBound a) (bit pr ctx : Int)
    (hc : ValidCall n (bit, pr, ctx)) :
    ∃ a2 v s, LogisticAdaptiveProbMap.get T a bit pr ctx = some (a2, v) ∧
      T.stretch pr = some s ∧
      a2.index = (s + 2048) / 128 + 33 * ctx ∧ a2.rate = a.rate ∧ a2.data.len = a.data.len ∧
      (∀ k, a2.data.cell k =
        if k = a.index.toNat ∨ k = a.index.toNat + 1 then
          a.data.cell k +
            (bit * 65536 + bit * ((2 ^ a.rate : Nat) : Int) - bit * 2 - a.data.cell k) /
              ((2 ^ a.rate : Nat) : Int)
        else a.data.cell k) ∧
      v = (a2.data.cell (a2.index.toNat + 1) * (s % 128) +
        a2.data.cell a2.index.toNat * (128 - s % 128)) / 2048 := by
  obtain ⟨hr, hlen, hi0, hi1, hd⟩ := ha
  obtain ⟨hbit, ⟨hp0, hp1⟩, hc0, hc1⟩ := hc
  simp only at hbit hp0 hp1 hc0 hc1
  have hd5 : ∀ k, 0 ≤ a.data.cell k ∧ a.data.cell k ≤ 65535 := hd
  have e1 : i64 (a.index + 1) = a.index + 1 := i64_of_range _ (by omega) (by omega)
  obtain ⟨d2, u1, u2, u3, u4⟩ := apmUpdate_exact a.data (a.index + 1) bit a.rate hr hbit
    (by omega) (by omega) hd5
  obtain ⟨d3, v1, v2, v3, v4⟩ := apmUpdate_exact d2 a.index bit a.rate hr hbit hi0
    (by omega) u3
  obtain ⟨s, hs, hs0, hs1⟩ := stretch_ok T hT pr hp0 hp1
  obtain ⟨x1, x2, x3⟩ := logistic_index s ctx n hs0 hs1 hc0 hc1 hsz
  have hg : apmTarget bit a.rate =
      bit * 65536 + bit * ((2 ^ a.rate : Nat) : Int) - bit * 2 := by
    rcases hbit with rfl | rfl
    · rw [apmTarget_zero]; ring
    · rw [apmTarget_one _ hr]; ring
  have e2 : i64 ((s + 2048) / 128 + 33 * ctx + 1) = (s + 2048) / 128 + 33 * ctx + 1 :=
    i64_of_range _ (by omega) (by omega)
  have hlen3 : d3.len = n * 33 := by rw [v2, u2, hlen]
  have g1 := getI_eq d3 ((s + 2048) / 128 + 33 * ctx + 1) (by omega) (by omega)
  have g0 := getI_eq d3 ((s + 2048) / 128 + 33 * ctx) x2 (by omega)
  have et : ((s + 2048) / 128 + 33 * ctx + 1).toNat =
      ((s + 2048) / 128 + 33 * ctx).toNat + 1 := by omega
  refine ⟨{ a with data := d3, index := (s + 2048) / 128 + 33 * ctx }, _, s, ?_, hs, rfl, rfl,
    by show d3.len = a.data.len; rw [v2, u2], ?_, rfl⟩
  · unfold LogisticAdaptiveProbMap.get apmInterpolate
    simp only [e1, u1, v1, hs, x1, e2, g1, g0, bind, andThen, pure]
    rw [et, i32_of_range (s % 128) (by omega) (by omega)]
    have := interpolate_exact (d3.cell ((s + 2048) / 128 + 33 * ctx).toNat)
      (d3.cell (((s + 2048) / 128 + 33 * ctx).toNat + 1)) (s % 128)
      (v3 _).1 (v3 _).2 (v3 _).1 (v3 _).2 (by omega) (by omega)
    rw [i32_of_range (s % 128) (by omega) (by omega)] at this
    rw [this]
  · intro k
    show d3.cell k = _
    rw [v4 k, u4 k, hg]
    have ek : (a.index + 1).toNat = a.index.toNat + 1 := by omega
    rw [ek]
    by_cases k0 : k = a.index.toNat
    · have k1 : ¬ k = a.index.toNat + 1 := by omega
      simp only [k0, true_or, if_true]
      rw [if_neg (by omega)]
    · by_cases k1 : k = a.index.toNat + 1
      · simp only [k1, or_true, if_true]
        rw [if_neg (by omega)]
      · simp only [k0, k1, or_self, if_false]

/-- Witness of C29 (amended): a new map of one row with rate 7 and the call
`get(1, 0, 0)`, with the tables of zeros. -/
theorem logistic_get_step_witness :
    ∃ a, newLogisticAdaptiveProbMap zeroTables 1 7 = some a ∧
      ∃ a2 v s, LogisticAdaptiveProbMap.get zeroTables a 1 0 0 = some (a2, v) ∧
        zeroTables.stretch 0 = some s ∧
        a2.index = (s + 2048) / 128 + 33 * 0 ∧ a2.rate = a.rate ∧
        a2.data.len = a.data.len ∧
        (∀ k, a2.data.cell k =
          if k = a.index.toNat ∨ k = a.index.toNat + 1 then
            a.data.cell k +
              (1 * 65536 + 1 * ((2 ^ a.rate : Nat) : Int) - 1 * 2 - a.data.cell k) /
                ((2 ^ a.rate : Nat) : Int)
          else a.data.cell k) ∧
        v = (a2.data.cell (a2.index.toNat + 1) * (s % 128) +
          a2.data.cell a2.index.toNat * (128 - s % 128)) / 2048 := by
  obtain ⟨a, h1, h2⟩ := newLogistic_ok zeroTables zeroTables_ok 1 7 (by decide) (by decide)
    (by decide)
  exact ⟨a, h1, logistic_get_step zeroTables zeroTables_ok 1 (by decide) a h2 1 0 0
    (by unfold ValidCall; decide)⟩

theorem hash_entry (x pos : Nat) (hp : pos < 2 ^ 26) :
    ((x &&& ROLZ_HASH_MASK) ||| (pos % 2 ^ 32)) &&& ROLZ_HASH_MASK = x &&& ROLZ_HASH_MASK := by
  have e1 : pos % 2 ^ 32 = pos := Nat.mod_eq_of_lt (by omega)
  have e2 : pos &&& ROLZ_HASH_MASK = 0 := by
    have e3 : pos &&& ROLZ_POS_MASK = pos := by
      have : ROLZ_POS_MASK = 2 ^ 26 - 1 := by decide
      rw [this, Nat.and_pow_two_sub_one_eq_mod]; omega
    rw [← e3, Nat.and_assoc]
    have : ROLZ_POS_MASK &&& ROLZ_HASH_MASK = 0 := by decide
    rw [this, Nat.and_zero]
  rw [e1]
  apply Nat.eq_of_testBit_eq
  intro i
  have h2 := congrArg (fun y => y.testBit i) e2
  simp only [Nat.testBit_and, Nat.testBit_or, Nat.zero_testBit] at h2 ⊢
  cases hx : (x.testBit i) <;> cases hy : (pos.testBit i) <;>
    cases hw : (ROLZ_HASH_MASK.testBit i) <;> simp_all

theorem entry_ne_zero (x pos : Nat) (hp : pos < 2 ^ 26) (h2 : 2 ≤ pos) :
    (x &&& ROLZ_HASH_MASK) ||| (pos % 2 ^ 32) ≠ 0 := by
  intro h
  have := pos_entry x pos hp
  rw [h] at this
  simp at this
  omega

theorem findMatch_spec (t t2 : rolzCodec1) (buf : Slice) (pos : Nat) (mi ml : Int)
    (hp : t.posChecks ≠ 0) (h : t.findMatch buf pos = some (t2, mi, ml)) :
    ∃ key h32, keyAt buf pos = some key ∧ hashAt buf pos = some h32 ∧
      h32 &&& ROLZ_HASH_MASK = h32 ∧ key < t.counters.len ∧
      t.slotOf key (t.counters.cell key) < t.matches_.len ∧
      t2.SameCfg t ∧
      (∀ k, t2.counters.cell k =
        if k = key then i32 (t.counters.cell key + 1) else t.counters.cell k) ∧
      (∀ i, t2.matches_.cell i =
        if i = t.slotOf key (t.counters.cell key) then h32 ||| (pos % 2 ^ 32)
        else t.matches_.cell i) ∧
      ((mi = -1 ∧ ml = -1) ∨ 0 ≤ ml) := by
  unfold rolzCodec1.findMatch at h
  obtain ⟨_, hk0, h1⟩ := bind_eq_some_iff.1 h
  clear h
  obtain ⟨keyBuf, hk1, h2⟩ := bind_eq_some_iff.1 h1
  clear h1
  obtain ⟨key, hk2, h3⟩ := bind_eq_some_iff.1 h2
  clear h2
  have hkey : keyAt buf pos = some key := by
    unfold keyAt
    simp only [hk0, hk1, hk2, bind, andThen]
  rw [if_neg hp] at h3
  obtain ⟨_, -, h4⟩ := bind_eq_some_iff.1 h3
  clear h3
  obtain ⟨hashBuf, hb1, h5⟩ := bind_eq_some_iff.1 h4
  clear h4
  obtain ⟨hash32, hh, h6⟩ := bind_eq_some_iff.1 h5
  clear h5
  have hhash : hashAt buf pos = some hash32 := by
    unfold hashAt
    simp only [hb1, hh, bind, andThen]
  have hidem : hash32 &&& ROLZ_HASH_MASK = hash32 := by
    unfold hash at hh
    obtain ⟨v, -, hh2⟩ := bind_eq_some_iff.1 hh
    cases hh2
    rw [Nat.and_assoc, Nat.and_self]
  obtain ⟨counter, hcnt, h7⟩ := bind_eq_some_iff.1 h6
  clear h6
  obtain ⟨curBuf, -, h8⟩ := bind_eq_some_iff.1 h7
  clear h7
  obtain ⟨⟨bestLen, bestIdx⟩, -, h9⟩ := bind_eq_some_iff.1 h8
  clear h8
  obtain ⟨counters, hc, h10⟩ := bind_eq_some_iff.1 h9
  clear h9
  obtain ⟨_, -, h11⟩ := bind_eq_some_iff.1 h10
  clear h10
  obtain ⟨ms, hm, h12⟩ := bind_eq_some_iff.1 h11
  clear h11
  obtain ⟨c1, c2, c3⟩ := Arr_put_some hc
  obtain ⟨m1, m2, m3⟩ := Arr_put_some hm
  obtain ⟨g1, g2⟩ := Arr_get_eq_some.1 hcnt
  subst g2
  have fin : ({ t with counters := counters, matches_ := ms } : rolzCodec1).SameCfg t ∧
      (∀ k, counters.cell k =
        if k = key then i32 (t.counters.cell key + 1) else t.counters.cell k) ∧
      (∀ i, ms.cell i =
        if i = t.slotOf key (t.counters.cell key) then hash32 ||| (pos % 2 ^ 32)
        else t.matches_.cell i) :=
    ⟨⟨rfl, rfl, rfl, c2, m2⟩, c3, m3⟩
  split at h12
  · cases h12
    exact ⟨key, hash32, hkey, hhash, hidem, g1, m1, fin.1, fin.2.1, fin.2.2, Or.inl ⟨rfl, rfl⟩⟩
  · cases h12
    exact ⟨key, hash32, hkey, hhash, hidem, g1, m1, fin.1, fin.2.1, fin.2.2,
      Or.inr (Int.natCast_nonneg _)⟩

theorem parseSteps_step (buf : Slice) (sizeChunk fuel : Nat) (t t1 t2 : rolzCodec1)
    (srcIdx k : Nat) (mi ml : Int) (ps : List Nat) (hlt : srcIdx < sizeChunk)
    (hfm : t.findMatch buf srcIdx = some (t1, mi, ml))
    (hrest : rolzCodec1.parseSteps buf sizeChunk fuel t1
      (if mi = -1 then srcIdx + 1 else (srcIdx + ml + ROLZ_MIN_MATCH).toNat) = some (ps, t2, k)) :
    rolzCodec1.parseSteps buf sizeChunk (fuel + 1) t srcIdx = some (srcIdx :: ps, t2, k) := by
  unfold rolzCodec1.parseSteps
  rw [if_pos hlt]
  simp only [hfm, hrest, bind, andThen, pure]

theorem parseLoop1_steps (buf : Slice) (sizeChunk : Nat) :
    ∀ fuel (t : rolzCodec1) (b : Fwd1Bufs) (srcIdx fl : Nat)
      (t2 : rolzCodec1) (b2 : Fwd1Bufs) (k k2 : Nat),
      rolzCodec1.parseLoop buf sizeChunk fuel t b srcIdx fl = some (t2, b2, k, k2) →
      ∃ ps, rolzCodec1.parseSteps buf sizeChunk fuel t srcIdx = some (ps, t2, k) := by
  intro fuel
  induction fuel with
  | zero =>
    intro t b srcIdx fl t2 b2 k k2 h
    cases h
    exact ⟨[], rfl⟩
  | succ fuel ih =>
    intro t b srcIdx fl t2 b2 k k2 h
    unfold rolzCodec1.parseLoop at h
    split at h
    · rename_i hlt
      obtain ⟨⟨t1, matchIdx, matchLen⟩, hfm, h1⟩ := bind_eq_some_iff.1 h
      clear h
      simp only at h1
      split at h1
      · rename_i hm
        obtain ⟨ps, hps⟩ := ih _ _ _ _ _ _ _ _ h1
        exact ⟨_, parseSteps_step buf sizeChunk fuel t t1 t2 srcIdx k matchIdx matchLen ps hlt
          hfm (by rw [if_pos hm]; exact hps)⟩
      · rename_i hm
        obtain ⟨b1, -, h2⟩ := bind_eq_some_iff.1 h1
        clear h1
        obtain ⟨ps, hps⟩ := ih _ _ _ _ _ _ _ _ h2
        exact ⟨_, parseSteps_step buf sizeChunk fuel t t1 t2 srcIdx k matchIdx matchLen ps hlt
          hfm (by rw [if_neg hm]; exact hps)⟩
    · rename_i hlt
      cases h
      refine ⟨[], ?_⟩
      unfold rolzCodec1.parseSteps
      rw [if_neg hlt]

theorem parseLoop2_steps (buf : Slice) (sizeChunk : Nat) :
    ∀ fuel (t : rolzCodec1) (re : rolzEncoder rolzPredictor) (srcIdx : Nat)
      (t2 : rolzCodec1) (re2 : rolzEncoder rolzPredictor) (k : Nat),
      rolzCodec2.parseLoop buf sizeChunk fuel t re srcIdx = some (t2, re2, k) →
      ∃ ps, rolzCodec1.parseSteps buf sizeChunk fuel t srcIdx = some (ps, t2, k) := by
  intro fuel
  induction fuel with
  | zero =>
    intro t re srcIdx t2 re2 k h
    cases h
    exact ⟨[], rfl⟩
  | succ fuel ih =>
    intro t re srcIdx t2 re2 k h
    unfold rolzCodec2.parseLoop at h
    split at h
    · rename_i hlt
      obtain ⟨_, -, h1⟩ := bind_eq_some_iff.1 h
      clear h
      obtain ⟨prev, -, h2⟩ := bind_eq_some_iff.1 h1
      clear h1
      obtain ⟨ps0, -, h3⟩ := bind_eq_some_iff.1 h2
      clear h2
      obtain ⟨re1, -, h4⟩ := bind_eq_some_iff.1 h3
      clear h3
      obtain ⟨⟨t1, matchIdx, matchLen⟩, hfm, h5⟩ := bind_eq_some_iff.1 h4
      clear h4
      simp only at h5
      split at h5
      · rename_i hm
        obtain ⟨v, -, h6⟩ := bind_eq_some_iff.1 h5
        clear h5
        obtain ⟨re3, -, h7⟩ := bind_eq_some_iff.1 h6
        clear h6
        obtain ⟨ps, hps⟩ := ih _ _ _ _ _ _ h7
        exact ⟨_, parseSteps_step buf sizeChunk fuel t t1 t2 srcIdx k matchIdx matchLen ps hlt
          hfm (by rw [if_pos hm]; exact hps)⟩
      · rename_i hm
        obtain ⟨re3, -, h6⟩ := bind_eq_some_iff.1 h5
        clear h5
        obtain ⟨re4, -, h7⟩ := bind_eq_some_iff.1 h6
        clear h6
        obtain ⟨prev2, -, h8⟩ := bind_eq_some_iff.1 h7
        clear h7
        obtain ⟨ps2, -, h9⟩ := bind_eq_some_iff.1 h8
        clear h8
        obtain ⟨re5, -, h10⟩ := bind_eq_some_iff.1 h9
        clear h9
        obtain ⟨re6, -, h11⟩ := bind_eq_some_iff.1 h10
        clear h10
        obtain ⟨ps, hps⟩ := ih _ _ _ _ _ _ h11
        exact ⟨_, parseSteps_step buf sizeChunk fuel t t1 t2 srcIdx k matchIdx matchLen ps hlt
          hfm (by rw [if_neg hm]; exact hps)⟩
    · rename_i hlt
      cases h
      refine ⟨[], ?_⟩
      unfold rolzCodec1.parseSteps
      rw [if_neg hlt]

theorem parseSteps_cases (buf : Slice) (sizeChunk fuel : Nat) (t t2 : rolzCodec1)
    (srcIdx k : Nat) (ps : List Nat)
    (h : rolzCodec1.parseSteps buf sizeChunk (fuel + 1) t srcIdx = some (ps, t2, k)) :
    (ps = [] ∧ t2 = t ∧ k = srcIdx ∧ ¬ srcIdx < sizeChunk) ∨
    ∃ t1 mi ml ps1, srcIdx < sizeChunk ∧ t.findMatch buf srcIdx = some (t1, mi, ml) ∧
      rolzCodec1.parseSteps buf sizeChunk fuel t1
        (if mi = -1 then srcIdx + 1 else (srcIdx + ml + ROLZ_MIN_MATCH).toNat) =
          some (ps1, t2, k) ∧ ps = srcIdx :: ps1 := by
  unfold rolzCodec1.parseSteps at h
  split at h
  · rename_i hlt
    obtain ⟨⟨t1, mi, ml⟩, hfm, h1⟩ := bind_eq_some_iff.1 h
    clear h
    simp only at h1
    obtain ⟨⟨ps1, t3, k3⟩, hr, h2⟩ := bind_eq_some_iff.1 h1
    clear h1
    cases h2
    exact Or.inr ⟨t1, mi, ml, ps1, hlt, hfm, hr, rfl⟩
  · rename_i hlt
    cases h
    exact Or.inl ⟨rfl, rfl, rfl, hlt⟩

theorem next_gt (srcIdx : Nat) (mi ml : Int) (h : (mi = -1 ∧ ml = -1) ∨ 0 ≤ ml) :
    srcIdx < (if mi = -1 then srcIdx + 1 else (srcIdx + ml + ROLZ_MIN_MATCH).toNat) := by
  have e : ((ROLZ_MIN_MATCH : Nat) : Int) = 3 := rfl
  split
  · omega
  · rename_i hm
    rcases h with ⟨h1, -⟩ | h
    · exact absurd h1 hm
    · omega

theorem parseSteps_range (buf : Slice) (sizeChunk : Nat) :
    ∀ fuel (t : rolzCodec1) (srcIdx : Nat) (ps : List Nat) (t2 : rolzCodec1) (k : Nat),
      t.posChecks ≠ 0 →
      rolzCodec1.parseSteps buf sizeChunk fuel t srcIdx = some (ps, t2, k) →
      t2.SameCfg t ∧ srcIdx ≤ k ∧ ps.Sublist (List.range' srcIdx (k - srcIdx)) ∧
        ∀ q ∈ ps, q < sizeChunk ∧ 2 ≤ q := by
  intro fuel
  induction fuel with
  | zero =>
    intro t srcIdx ps t2 k _ h
    cases h
    exact ⟨SameCfg_refl _, le_refl _, by simp, by simp⟩
  | succ fuel ih =>
    intro t srcIdx ps t2 k hp h
    rcases parseSteps_cases buf sizeChunk fuel t t2 srcIdx k ps h with
      ⟨rfl, rfl, rfl, -⟩ | ⟨t1, mi, ml, ps1, hlt, hfm, hr, rfl⟩
    · exact ⟨SameCfg_refl _, le_refl _, by simp, by simp⟩
    · obtain ⟨key, h32, hkey, -, -, -, -, c1, -, -, hml⟩ := findMatch_spec t t1 buf srcIdx mi ml hp hfm
      have hgt := next_gt srcIdx mi ml hml
      obtain ⟨c2, r1, r2, r3⟩ := ih t1 _ ps1 t2 k (by rw [c1.2.2.1]; exact hp) hr
      generalize (if mi = -1 then srcIdx + 1 else (srcIdx + ml + ROLZ_MIN_MATCH).toNat) = next
        at hgt r1 r2 hr
      have h2 : 2 ≤ srcIdx := by
        unfold keyAt at hkey
        obtain ⟨_, hc, -⟩ := bind_eq_some_iff.1 hkey
        unfold chk at hc
        split at hc
        · assumption
        · cases hc
      refine ⟨SameCfg_trans c2 c1, by omega, ?_, ?_⟩
      · have e2 : List.range' (srcIdx + 1) (k - srcIdx - 1) =
            List.range' (srcIdx + 1) (next - (srcIdx + 1)) ++ List.range' next (k - next) := by
          have e3 := List.range'_append_1 (srcIdx + 1) (next - (srcIdx + 1)) (k - next)
          rw [show srcIdx + 1 + (next - (srcIdx + 1)) = next by omega,
            show k - next + (next - (srcIdx + 1)) = k - srcIdx - 1 by omega] at e3
          exact e3.symm
        have e1 : k - srcIdx = (k - srcIdx - 1) + 1 := by omega
        rw [e1, List.range'_succ, e2]
        exact List.Sublist.cons₂ _ (r2.trans (List.sublist_append_right _ _))
      · intro q hq
        rcases List.mem_cons.1 hq with rfl | hq
        · exact ⟨hlt, h2⟩
        · exact r3 q hq

theorem parseSteps_hash (buf : Slice) (sizeChunk : Nat) (hsz : sizeChunk ≤ 2 ^ 26) :
    ∀ fuel (t : rolzCodec1) (srcIdx : Nat) (ps : List Nat) (t2 : rolzCodec1) (k : Nat),
      t.posChecks ≠ 0 →
      rolzCodec1.parseSteps buf sizeChunk fuel t srcIdx = some (ps, t2, k) →
      t.HashConsistent buf srcIdx → t2.HashConsistent buf k := by
  intro fuel
  induction fuel with
  | zero =>
    intro t srcIdx ps t2 k _ h hT
    cases h
    exact hT
  | succ fuel ih =>
    intro t srcIdx ps t2 k hp h hT
    rcases parseSteps_cases buf sizeChunk fuel t t2 srcIdx k ps h with
      ⟨rfl, rfl, rfl, -⟩ | ⟨t1, mi, ml, ps1, hlt, hfm, hr, rfl⟩
    · exact hT
    · obtain ⟨key, h32, hkey, hhash, hidem, -, -, c1, -, m3, hml⟩ :=
        findMatch_spec t t1 buf srcIdx mi ml hp hfm
      have hgt := next_gt srcIdx mi ml hml
      refine ih t1 _ ps1 t2 k (by rw [c1.2.2.1]; exact hp) hr ?_
      intro i hi
      rw [m3 i] at hi ⊢
      split
      · rw [← hidem, pos_entry _ srcIdx (by omega), hash_entry _ srcIdx (by omega), hidem]
        refine ⟨hgt, ?_⟩
        rw [hhash]
        show some (h32 &&& ROLZ_HASH_MASK) = some h32
        rw [hidem]
      · rename_i hne
        rw [if_neg hne] at hi
        exact ⟨lt_trans (hT i hi).1 hgt, (hT i hi).2⟩

theorem keyCount_cons (buf : Slice) (key q : Nat) (ps : List Nat) :
    keyCount buf key (q :: ps) =
      (if keyAt buf q = some key then 1 else 0) + keyCount buf key ps := by
  unfold keyCount
  rw [List.filter_cons]
  by_cases h : keyAt buf q = some key
  · simp only [h, decide_True, if_true, List.length_cons]
    omega
  · simp only [h, decide_False, if_false]
    simp

theorem parseSteps_counters (buf : Slice) (sizeChunk : Nat) (hsz : sizeChunk ≤ 2 ^ 26) :
    ∀ fuel (t : rolzCodec1) (srcIdx : Nat) (ps : List Nat) (t2 : rolzCodec1) (k : Nat),
      t.posChecks ≠ 0 →
      rolzCodec1.parseSteps buf sizeChunk fuel t srcIdx = some (ps, t2, k) →
      (∀ key, 0 ≤ t.counters.cell key ∧ t.counters.cell key ≤ (srcIdx : Int)) →
      ∀ key, t2.counters.cell key = t.counters.cell key + (keyCount buf key ps : Nat) := by
  intro fuel
  induction fuel with
  | zero =>
    intro t srcIdx ps t2 k _ h _ key
    cases h
    simp [keyCount]
  | succ fuel ih =>
    intro t srcIdx ps t2 k hp h hT key
    rcases parseSteps_cases buf sizeChunk fuel t t2 srcIdx k ps h with
      ⟨rfl, rfl, rfl, -⟩ | ⟨t1, mi, ml, ps1, hlt, hfm, hr, rfl⟩
    · simp [keyCount]
    · obtain ⟨key0, h32, hkey, -, -, -, -, c1, c3, -, hml⟩ :=
        findMatch_spec t t1 buf srcIdx mi ml hp hfm
      have hgt := next_gt srcIdx mi ml hml
      have hc0 := hT key0
      have e32 : i32 (t.counters.cell key0 + 1) = t.counters.cell key0 + 1 :=
        i32_of_range _ (by omega) (by omega)
      have hT1 : ∀ key, 0 ≤ t1.counters.cell key ∧ t1.counters.cell key ≤
          ((if mi = -1 then srcIdx + 1 else (srcIdx + ml + ROLZ_MIN_MATCH).toNat : Nat) : Int) := by
        intro key1
        rw [c3 key1]
        have := hT key1
        split
        · rw [e32]; omega
        · omega
      have := ih t1 _ ps1 t2 k (by rw [c1.2.2.1]; exact hp) hr hT1 key
      rw [this, c3 key, keyCount_cons, hkey]
      by_cases hk : key = key0
      · subst hk
        simp only [if_true, e32]
        push_cast
        ring
      · have : ¬ (some key0 = some key) := fun h => hk (Option.some.inj h).symm
        simp only [hk, this, if_false]
        push_cast
        ring

theorem Inserted_of_findMatch (t t2 : rolzCodec1) (buf : Slice) (pos : Nat) (mi ml : Int)
    (hp : t.posChecks ≠ 0) (h : t.findMatch buf pos = some (t2, mi, ml)) :
    t.Inserted t2 buf pos := by
  obtain ⟨key, h32, hkey, hhash, -, g1, m1, c1, c3, m3, -⟩ := findMatch_spec t t2 buf pos mi ml hp h
  have h2 : 2 ≤ pos := by
    unfold keyAt at hkey
    obtain ⟨_, hc, -⟩ := bind_eq_some_iff.1 hkey
    unfold chk at hc
    split at hc
    · assumption
    · cases hc
  refine ⟨key, h32, h2, hkey, hhash, g1, m1, c1.2.2.2.1, c1.2.2.2.2, ?_, ?_, ?_, ?_, ?_⟩
  · rw [c3 key, if_pos rfl]
  · intro a1 a2
    rw [c3 key, if_pos rfl, i32_of_range _ (by omega) (by omega)]
  · intro k hk
    rw [c3 k, if_neg hk]
  · rw [m3, if_pos rfl]
  · intro i hi
    rw [m3 i, if_neg hi]

/-- C27: `findMatch` inserts the position whether or not it reports a match.
For both backends, every `buf` and `pos` and every state of the tables (with
`posChecks ≠ 0`, as the constructor leaves it): when `findMatch(buf, pos)`
returns, with any result, then `pos ≥ 2` and, with `key` the little-endian 16
bits at `buf[pos-2]` and `c = counters[key]` before the call,
`counters[key]` is `c + 1`, the slot `(c + 1) & maskChecks` of the ring of
`key` holds `hash(buf[pos:pos+4]) | pos`, and every other counter and every
other entry of `matches` is unchanged; backend 2 leaves its predictors
unchanged too. -/
theorem findMatch_inserts (t : rolzCodec1) (c : rolzCodec2) (buf : Slice) (pos : Nat)
    (hp : t.posChecks ≠ 0) (hc : c.tabs.posChecks ≠ 0) :
    (∀ r, t.findMatch buf pos = some r → t.Inserted r.1 buf pos) ∧
    (∀ r, c.findMatch buf pos = some r →
      c.tabs.Inserted r.1.tabs buf pos ∧ r.1.litPredictor = c.litPredictor ∧
        r.1.matchPredictor = c.matchPredictor) := by
  constructor
  · intro r h
    exact Inserted_of_findMatch t r.1 buf pos r.2.1 r.2.2 hp h
  · intro r h
    unfold rolzCodec2.findMatch at h
    obtain ⟨⟨t2, mi, ml⟩, hfm, h1⟩ := bind_eq_some_iff.1 h
    cases h1
    exact ⟨Inserted_of_findMatch c.tabs t2 buf pos mi ml hc hfm, rfl, rfl⟩

/-- Witness of C27: position 2 of the chunk `1, 2, 3, 4, 5, 6, 7, 8` on new
codecs with `logPosChecks = 5`; both calls return. -/
theorem findMatch_inserts_witness :
    (∃ r, (rolzCodec1.alloc 5).findMatch (Slice.ofList [1, 2, 3, 4, 5, 6, 7, 8]) 2 = some r ∧
      (rolzCodec1.alloc 5).Inserted r.1 (Slice.ofList [1, 2, 3, 4, 5, 6, 7, 8]) 2) ∧
    (∃ r, (rolzCodec2.alloc 5).findMatch (Slice.ofList [1, 2, 3, 4, 5, 6, 7, 8]) 2 = some r ∧
      (rolzCodec2.alloc 5).tabs.Inserted r.1.tabs (Slice.ofList [1, 2, 3, 4, 5, 6, 7, 8]) 2) := by
  have h := findMatch_inserts (rolzCodec1.alloc 5) (rolzCodec2.alloc 5)
    (Slice.ofList [1, 2, 3, 4, 5, 6, 7, 8]) 2 (by decide) (by decide)
  have s1 : ((rolzCodec1.alloc 5).findMatch (Slice.ofList [1, 2, 3, 4, 5, 6, 7, 8]) 2).isSome =
      true := by decide!
  have s2 : ((rolzCodec2.alloc 5).findMatch (Slice.ofList [1, 2, 3, 4, 5, 6, 7, 8]) 2).isSome =
      true := by decide!
  constructor
  · cases hr : (rolzCodec1.alloc 5).findMatch (Slice.ofList [1, 2, 3, 4, 5, 6, 7, 8]) 2 with
    | none => rw [hr] at s1; cases s1
    | some r => exact ⟨r, rfl, h.1 r hr⟩
  · cases hr : (rolzCodec2.alloc 5).findMatch (Slice.ofList [1, 2, 3, 4, 5, 6, 7, 8]) 2 with
    | none => rw [hr] at s2; cases s2
    | some r => exact ⟨r, rfl, (h.2 r hr).1⟩

theorem HashConsistent_fill (t : rolzCodec1) (buf : Slice) (cur : Nat) :
    ({ t with matches_ := t.matches_.fill 0 } : rolzCodec1).HashConsistent buf cur := by
  intro i hi
  exact absurd rfl hi

/-- C26: hash consistency.  In the parse of a chunk `buf` of at most
`ROLZ_CHUNK_SIZE` bytes by either backend, started at position `n` with a
table that is consistent (in particular the table of zeros the chunk starts
with), after any number `fuel` of iterations of the loop, at position `k`:
every non-zero entry `slot` of `matches` has `pos = slot & ~HASH_MASK` below
`k`, the four bytes `buf[pos:pos+4]` exist, and `slot & HASH_MASK` is
`hash(buf[pos:pos+4]) & HASH_MASK`. -/
theorem hash_consistency (buf : Slice) (sizeChunk : Nat) (hsz : sizeChunk ≤ ROLZ_CHUNK_SIZE)
    (t : rolzCodec1) (hp : t.posChecks ≠ 0) (n : Nat) :
    (∀ cur, ({ t with matches_ := t.matches_.fill 0 } : rolzCodec1).HashConsistent buf cur) ∧
    (∀ fuel b r, t.HashConsistent buf n →
      rolzCodec1.parseLoop buf sizeChunk fuel t b n n = some r →
      r.1.HashConsistent buf r.2.2.1) ∧
    (∀ fuel re r, t.HashConsistent buf n →
      rolzCodec2.parseLoop buf sizeChunk fuel t re n = some r →
      r.1.HashConsistent buf r.2.2) := by
  have hsz2 : sizeChunk ≤ 2 ^ 26 := hsz
  refine ⟨fun cur => HashConsistent_fill t buf cur, ?_, ?_⟩
  · intro fuel b r hT h
    obtain ⟨ps, hps⟩ := parseLoop1_steps buf sizeChunk fuel t b n n r.1 r.2.1 r.2.2.1 r.2.2.2 h
    exact parseSteps_hash buf sizeChunk hsz2 fuel t n ps r.1 r.2.2.1 hp hps hT
  · intro fuel re r hT h
    obtain ⟨ps, hps⟩ := parseLoop2_steps buf sizeChunk fuel t re n r.1 r.2.1 r.2.2 h
    exact parseSteps_hash buf sizeChunk hsz2 fuel t n ps r.1 r.2.2 hp hps hT

/-- Witness of C26: the parse by backend 1 of the chunk
`1, 2, 3, 1, 2, 3, 1, 2` from position 2 on a new codec. -/
theorem hash_consistency_witness :
    ∃ r, rolzCodec1.parseLoop ⟨[1, 2, 3, 1, 2, 3, 1, 2, 3, 1, 2, 3], 8⟩ 8 8
        (rolzCodec1.alloc 5) sampleBufs 2 2 = some r ∧
      r.1.HashConsistent ⟨[1, 2, 3, 1, 2, 3, 1, 2, 3, 1, 2, 3], 8⟩ r.2.2.1 := by
  have h := hash_consistency ⟨[1, 2, 3, 1, 2, 3, 1, 2, 3, 1, 2, 3], 8⟩ 8 (by decide)
    (rolzCodec1.alloc 5) (by decide) 2
  have s1 : (rolzCodec1.parseLoop ⟨[1, 2, 3, 1, 2, 3, 1, 2, 3, 1, 2, 3], 8⟩ 8 8
      (rolzCodec1.alloc 5) sampleBufs 2 2).isSome = true := by decide!
  cases hr : rolzCodec1.parseLoop ⟨[1, 2, 3, 1, 2, 3, 1, 2, 3, 1, 2, 3], 8⟩ 8 8
      (rolzCodec1.alloc 5) sampleBufs 2 2 with
  | none => rw [hr] at s1; cases s1
  | some r =>
    refine ⟨r, rfl, h.2.1 8 sampleBufs r ?_ hr⟩
    intro i hi
    exact absurd rfl hi

theorem keyCount_sublist (buf : Slice) (key : Nat) (ps qs : List Nat) (h : ps.Sublist qs) :
    keyCount buf key ps ≤ keyCount buf key qs := by
  unfold keyCount
  exact (h.filter _).length_le

/-- C25, refuted as stated: positions covered by a match are not counted.
Backend 2 on the block `1, 2, 3, 1, 2, 3, 1, 2, 3, 1, 2, 3, 9, 9, 9, 9`: the
chunk is the first 12 bytes; the key of the bytes `1, 2` is 513 and is the key
of the four positions 2, 5, 8 and 11, but `findMatch` runs at the positions 2,
3, 4 and 5 only (position 5 starts a match that covers the rest of the chunk),
and `counters[513]` is 2 when `Forward` returns. -/
theorem counters_skip_matched_positions :
    ((rolzCodec2.alloc 5).Forward [1, 2, 3, 1, 2, 3, 1, 2, 3, 1, 2, 3, 9, 9, 9, 9]
        (List.replicate 48 0)).map (fun r => (r.err, r.this.tabs.counters.cell 513)) =
      some (none, 2) ∧
    keyCount ⟨[1, 2, 3, 1, 2, 3, 1, 2, 3, 1, 2, 3, 9, 9, 9, 9], 12⟩ 513 (List.range 12) = 4 ∧
    (rolzCodec1.parseSteps ⟨[1, 2, 3, 1, 2, 3, 1, 2, 3, 1, 2, 3, 9, 9, 9, 9], 12⟩ 12 12
        (rolzCodec1.alloc 5) 2).map (fun r => (r.1, r.2.2)) = some ([2, 3, 4, 5], 12) := by
  refine ⟨by decide!, by decide!, by decide!⟩

/-! ## The candidates examined by the match finder -/

theorem BestOf_skip (this : rolzCodec1) (buf curBuf : Slice) (lo hash32 : Nat)
    (counter : Int) (maxMatch m bestLen x : Nat) (bestIdx : Int)
    (hb : this.BestOf buf curBuf lo hash32 counter maxMatch m bestLen bestIdx)
    (hc : this.CandAt buf curBuf lo hash32 counter maxMatch m x) (hx : x ≤ bestLen) :
    this.BestOf buf curBuf lo hash32 counter maxMatch (m + 1) bestLen bestIdx := by
  obtain ⟨a, b⟩ := hb
  refine ⟨?_, ?_⟩
  · intro d hd
    by_cases h : d < m
    · exact a d h
    · have : d = m := by omega
      subst this
      exact ⟨x, hc, hx⟩
  · rcases b with b | ⟨b1, d, b2, b3, b4, b5⟩
    · exact Or.inl b
    · exact Or.inr ⟨b1, d, by omega, b3, b4, b5⟩

theorem BestOf_better (this : rolzCodec1) (buf curBuf : Slice) (lo hash32 : Nat)
    (counter : Int) (maxMatch m bestLen n : Nat) (bestIdx : Int)
    (hb : this.BestOf buf curBuf lo hash32 counter maxMatch m bestLen bestIdx)
    (hc : this.CandAt buf curBuf lo hash32 counter maxMatch m n) (hn : n > bestLen) :
    this.BestOf buf curBuf lo hash32 counter maxMatch (m + 1) n (m : Int) := by
  obtain ⟨a, b⟩ := hb
  have h2 : 2 ≤ bestLen := by
    rcases b with ⟨b, -⟩ | ⟨b, -⟩ <;> omega
  refine ⟨?_, Or.inr ⟨by omega, m, by omega, rfl, hc, ?_⟩⟩
  · intro d hd
    by_cases h : d < m
    · obtain ⟨x, x1, x2⟩ := a d h
      exact ⟨x, x1, by omega⟩
    · have : d = m := by omega
      subst this
      exact ⟨n, hc, le_refl _⟩
  · intro e he
    obtain ⟨x, x1, x2⟩ := a e he
    exact ⟨x, x1, by omega⟩

theorem findLoop_best (this : rolzCodec1) (buf curBuf : Slice) (lo width hash32 : Nat)
    (counter : Int) (maxMatch : Nat) (hp0 : 0 < this.posChecks) (hp1 : this.posChecks ≤ 256)
    (hc0 : 0 ≤ counter) (hc1 : counter < 1073741824) :
    ∀ (fuel : Nat) (i : Int) (bestLen : Nat) (bestIdx : Int) (r : Nat × Int) (m : Nat),
      this.findLoop buf curBuf lo width hash32 counter maxMatch fuel i bestLen bestIdx = some r →
      i = counter - (m : Int) → (fuel : Int) + m = this.posChecks →
      this.BestOf buf curBuf lo hash32 counter maxMatch m bestLen bestIdx →
      ∃ m2, m ≤ m2 ∧ (m2 : Int) ≤ this.posChecks ∧
        this.BestOf buf curBuf lo hash32 counter maxMatch m2 r.1 r.2 ∧
        this.StopsAt buf curBuf lo hash32 counter maxMatch m2 := by
  intro fuel
  induction fuel with
  | zero =>
    intro i bestLen bestIdx r m h hi hf hinv
    simp only [rolzCodec1.findLoop, Option.some.injEq] at h
    subst h
    exact ⟨m, le_refl _, by omega, hinv, Or.inl (by omega)⟩
  | succ fuel ih =>
    intro i bestLen bestIdx r m h hi hf hinv
    rw [rolzCodec1.findLoop] at h
    have hlim : i32 (counter - this.posChecks) = counter - this.posChecks :=
      i32_of_range _ (by omega) (by omega)
    rw [hlim] at h
    split at h
    · rename_i hgt
      have hnext : i32 (i - 1) = i - 1 := i32_of_range _ (by omega) (by omega)
      have hidx : i32 (counter - i) = counter - i := i32_of_range _ (by omega) (by omega)
      rw [hnext, hidx] at h
      have hi1 : i - 1 = counter - ((m + 1 : Nat) : Int) := by push_cast; omega
      have hf1 : (fuel : Int) + ((m + 1 : Nat) : Int) = this.posChecks := by push_cast; omega
      have hd : counter - i = (m : Int) := by omega
      simp only [bind_eq_some_iff] at h
      obtain ⟨_, _, ref, href, h⟩ := h
      have hent : this.ringEntry lo counter m = some ref := by
        unfold rolzCodec1.ringEntry
        rw [← hi]
        exact href
      split at h
      · rename_i hz
        simp only [Option.some.injEq] at h
        subst h
        subst hz
        exact ⟨m, le_refl _, by omega, hinv, Or.inr (Or.inl hent)⟩
      · rename_i hne
        split at h
        · rename_i hh
          have hc : this.CandAt buf curBuf lo hash32 counter maxMatch m 0 :=
            ⟨ref, hent, hne, by unfold candLen; rw [if_pos hh]⟩
          obtain ⟨m2, q1, q2, q3, q4⟩ := ih _ _ _ _ (m + 1) h hi1 hf1
            (BestOf_skip this buf curBuf lo hash32 counter maxMatch m bestLen 0 bestIdx hinv hc
              (by omega))
          exact ⟨m2, by omega, q2, q3, q4⟩
        · rename_i hh
          simp only [bind_eq_some_iff] at h
          obtain ⟨refBuf, hrb, r0, hr0, c0, hc0', h⟩ := h
          split at h
          · rename_i hb
            have hc : this.CandAt buf curBuf lo hash32 counter maxMatch m 0 :=
              ⟨ref, hent, hne, by
                unfold candLen
                rw [if_neg hh]
                simp only [hrb, hr0, hc0', bind, andThen]
                rw [if_pos hb]
                rfl⟩
            obtain ⟨m2, q1, q2, q3, q4⟩ := ih _ _ _ _ (m + 1) h hi1 hf1
              (BestOf_skip this buf curBuf lo hash32 counter maxMatch m bestLen 0 bestIdx hinv hc
                (by omega))
            exact ⟨m2, by omega, q2, q3, q4⟩
          · rename_i hb
            simp only [bind_eq_some_iff] at h
            obtain ⟨n, hn, h⟩ := h
            have hc : this.CandAt buf curBuf lo hash32 counter maxMatch m n :=
              ⟨ref, hent, hne, by
                unfold candLen
                rw [if_neg hh]
                simp only [hrb, hr0, hc0', bind, andThen]
                rw [if_neg hb]
                exact hn⟩
            split at h
            · rename_i hgt2
              have hbetter := BestOf_better this buf curBuf lo hash32 counter maxMatch m bestLen n
                bestIdx hinv hc hgt2
              have h2 : 2 ≤ bestLen := by
                rcases hinv.2 with ⟨b, -⟩ | ⟨b, -⟩ <;> omega
              rw [hd] at h
              split at h
              · rename_i hmax
                simp only [Option.some.injEq] at h
                subst h
                refine ⟨m + 1, by omega, by push_cast; omega, hbetter, Or.inr (Or.inr ?_)⟩
                have hc2 := hc
                rw [hmax] at hc2
                exact ⟨by omega, m, rfl, hc2⟩
              · obtain ⟨m2, q1, q2, q3, q4⟩ := ih _ _ _ _ (m + 1) h hi1 hf1 hbetter
                exact ⟨m2, by omega, q2, q3, q4⟩
            · rename_i hle
              obtain ⟨m2, q1, q2, q3, q4⟩ := ih _ _ _ _ (m + 1) h hi1 hf1
                (BestOf_skip this buf curBuf lo hash32 counter maxMatch m bestLen n bestIdx hinv
                  hc (by omega))
              exact ⟨m2, by omega, q2, q3, q4⟩
    · rename_i hle
      simp only [Option.some.injEq] at h
      subst h
      exact ⟨m, le_refl _, by omega, hinv, Or.inl (by omega)⟩

theorem findMatch_best (c : rolzCodec1) (buf : Slice) (pos : Nat)
    (r : rolzCodec1 × Int × Int) (hcfg : c.Configured) (hcnt : c.CountersOk)
    (h : c.findMatch buf pos = some r) :
    ∃ (key h32 : Nat) (curBuf : Slice) (m bestLen : Nat) (bestIdx : Int), keyAt buf pos = some key ∧ hashAt buf pos = some h32 ∧
      buf.drop pos = some curBuf ∧ (m : Int) ≤ c.posChecks ∧
      c.BestOf buf curBuf ((key <<< c.logPosChecks) % 2 ^ 32) h32 (c.counters.cell key)
        (if ROLZ_MAX_MATCH > buf.len - pos then buf.len - pos else ROLZ_MAX_MATCH) m
        bestLen bestIdx ∧
      c.StopsAt buf curBuf ((key <<< c.logPosChecks) % 2 ^ 32) h32 (c.counters.cell key)
        (if ROLZ_MAX_MATCH > buf.len - pos then buf.len - pos else ROLZ_MAX_MATCH) m ∧
      ((bestLen < 3 ∧ r.2.1 = -1 ∧ r.2.2 = -1) ∨
        (3 ≤ bestLen ∧ r.2.1 = bestIdx ∧ r.2.2 = ((bestLen - 3 : Nat) : Int))) := by
  obtain ⟨_, hk8, hpc, _, _, _⟩ := hcfg
  have hp := two_pow_le_256 c.logPosChecks hk8
  have hp0 : c.posChecks ≠ 0 := by omega
  unfold rolzCodec1.findMatch at h
  obtain ⟨_, hk0, h1⟩ := bind_eq_some_iff.1 h
  clear h
  obtain ⟨keyBuf, hk1, h2⟩ := bind_eq_some_iff.1 h1
  clear h1
  obtain ⟨key, hk2, h3⟩ := bind_eq_some_iff.1 h2
  clear h2
  have hkey : keyAt buf pos = some key := by
    unfold keyAt
    simp only [hk0, hk1, hk2, bind, andThen]
  rw [if_neg hp0] at h3
  obtain ⟨_, -, h4⟩ := bind_eq_some_iff.1 h3
  clear h3
  obtain ⟨hashBuf, hb1, h5⟩ := bind_eq_some_iff.1 h4
  clear h4
  obtain ⟨hash32, hh, h6⟩ := bind_eq_some_iff.1 h5
  clear h5
  have hhash : hashAt buf pos = some hash32 := by
    unfold hashAt
    simp only [hb1, hh, bind, andThen]
  obtain ⟨counter, hcounter, h7⟩ := bind_eq_some_iff.1 h6
  clear h6
  obtain ⟨curBuf, hcur, h8⟩ := bind_eq_some_iff.1 h7
  clear h7
  obtain ⟨⟨bestLen, bestIdx⟩, hfl, h9⟩ := bind_eq_some_iff.1 h8
  clear h8
  obtain ⟨counters, -, h10⟩ := bind_eq_some_iff.1 h9
  clear h9
  obtain ⟨_, -, h11⟩ := bind_eq_some_iff.1 h10
  clear h10
  obtain ⟨ms, -, h12⟩ := bind_eq_some_iff.1 h11
  clear h11
  have hcr := hcnt key
  have hce := (Arr_get_eq_some.1 hcounter).2
  subst hce
  have hfuel : ((c.posChecks.toNat : Nat) : Int) + ((0 : Nat) : Int) = c.posChecks := by
    rw [Int.toNat_of_nonneg (by omega)]
    simp
  have h0 : c.BestOf buf curBuf ((key <<< c.logPosChecks) % 2 ^ 32) hash32
      (c.counters.cell key)
      (if ROLZ_MAX_MATCH > buf.len - pos then buf.len - pos else ROLZ_MAX_MATCH) 0
      (ROLZ_MIN_MATCH - 1) (-1) :=
    ⟨fun d hd => absurd hd (by omega), Or.inl ⟨rfl, rfl⟩⟩
  obtain ⟨m, -, q2, q3, q4⟩ := findLoop_best c buf curBuf _ _ hash32 (c.counters.cell key) _
    (by omega) (by omega) hcr.1 hcr.2 _ _ _ _ _ 0 hfl (by simp) hfuel h0
  refine ⟨key, hash32, curBuf, m, bestLen, bestIdx, hkey, hhash, hcur, q2, q3, q4, ?_⟩
  split at h12
  · rename_i hlt
    cases h12
    exact Or.inl ⟨hlt, rfl, rfl⟩
  · rename_i hge
    cases h12
    exact Or.inr ⟨by simpa [ROLZ_MIN_MATCH] using hge, rfl, rfl⟩

/-- C28: the tie-break of `findMatch`.  On a codec shaped by `newROLZCodec1`
whose counters are position counts, when `findMatch(buf, pos)` returns, let
the `m` candidates examined be the non-zero ring entries at the relative
indexes `0..m-1`, newest first (the walk stops after `posChecks` entries, at
the first zero entry, or after an entry of length `maxMatch`), each with the
length the loop computes for it (0 when it is passed over).  Then no
candidate is longer than `bestLen`, the longest; when `bestLen < 3` the result
is `(-1, -1)`; otherwise the result is `(bestIdx, bestLen - 3)` where
`bestIdx` is the smallest relative index, that is the most recently inserted,
of the candidates of length `bestLen`.  The same holds for backend 2. -/
theorem findMatch_tie_break (c : rolzCodec1) (c2 : rolzCodec2) (buf : Slice) (pos : Nat)
    (hcfg : c.Configured) (hcnt : c.CountersOk) (hcfg2 : c2.tabs.Configured)
    (hcnt2 : c2.tabs.CountersOk) :
    (∀ r, c.findMatch buf pos = some r →
      ∃ (key h32 : Nat) (curBuf : Slice) (m bestLen : Nat) (bestIdx : Int), keyAt buf pos = some key ∧
        hashAt buf pos = some h32 ∧ buf.drop pos = some curBuf ∧ (m : Int) ≤ c.posChecks ∧
        c.BestOf buf curBuf ((key <<< c.logPosChecks) % 2 ^ 32) h32 (c.counters.cell key)
          (if ROLZ_MAX_MATCH > buf.len - pos then buf.len - pos else ROLZ_MAX_MATCH) m
          bestLen bestIdx ∧
        c.StopsAt buf curBuf ((key <<< c.logPosChecks) % 2 ^ 32) h32 (c.counters.cell key)
          (if ROLZ_MAX_MATCH > buf.len - pos then buf.len - pos else ROLZ_MAX_MATCH) m ∧
        ((bestLen < 3 ∧ r.2.1 = -1 ∧ r.2.2 = -1) ∨
          (3 ≤ bestLen ∧ r.2.1 = bestIdx ∧ r.2.2 = ((bestLen - 3 : Nat) : Int)))) ∧
    (∀ r, c2.findMatch buf pos = some r →
      ∃ (key h32 : Nat) (curBuf : Slice) (m bestLen : Nat) (bestIdx : Int), keyAt buf pos = some key ∧
        hashAt buf pos = some h32 ∧ buf.drop pos = some curBuf ∧
        (m : Int) ≤ c2.tabs.posChecks ∧
        c2.tabs.BestOf buf curBuf ((key <<< c2.tabs.logPosChecks) % 2 ^ 32) h32
          (c2.tabs.counters.cell key)
          (if ROLZ_MAX_MATCH > buf.len - pos then buf.len - pos else ROLZ_MAX_MATCH) m
          bestLen bestIdx ∧
        c2.tabs.StopsAt buf curBuf ((key <<< c2.tabs.logPosChecks) % 2 ^ 32) h32
          (c2.tabs.counters.cell key)
          (if ROLZ_MAX_MATCH > buf.len - pos then buf.len - pos else ROLZ_MAX_MATCH) m ∧
        ((bestLen < 3 ∧ r.2.1 = -1 ∧ r.2.2 = -1) ∨
          (3 ≤ bestLen ∧ r.2.1 = bestIdx ∧ r.2.2 = ((bestLen - 3 : Nat) : Int)))) := by
  constructor
  · intro r h
    exact findMatch_best c buf pos r hcfg hcnt h
  · intro r h
    unfold rolzCodec2.findMatch at h
    obtain ⟨⟨t2, mi, ml⟩, hfm, h1⟩ := bind_eq_some_iff.1 h
    cases h1
    exact findMatch_best c2.tabs buf pos (t2, mi, ml) hcfg2 hcnt2 hfm

/-- Witness of C28: in `tieBuf`, with the positions 2 and 8 registered,
`findMatch(buf, 14)` examines two candidates, both of length 3, and reports
the relative index 0, the newer one (position 8), with the length code 0. -/
theorem findMatch_tie_break_witness :
    ∃ r, tieCodec.findMatch tieBuf 14 = some r ∧ r.2.1 = 0 ∧ r.2.2 = 0 ∧
      tieCodec.CandAt tieBuf ⟨tieBuf.mem.drop 14, 6⟩ 8208 1610612736 2 6 0 3 ∧
      tieCodec.CandAt tieBuf ⟨tieBuf.mem.drop 14, 6⟩ 8208 1610612736 2 6 1 3 ∧
      ∃ (key h32 : Nat) (curBuf : Slice) (m bestLen : Nat) (bestIdx : Int),
        keyAt tieBuf 14 = some key ∧
        hashAt tieBuf 14 = some h32 ∧ tieBuf.drop 14 = some curBuf ∧
        (m : Int) ≤ tieCodec.posChecks ∧
        tieCodec.BestOf tieBuf curBuf ((key <<< tieCodec.logPosChecks) % 2 ^ 32) h32
          (tieCodec.counters.cell key)
          (if ROLZ_MAX_MATCH > tieBuf.len - 14 then tieBuf.len - 14 else ROLZ_MAX_MATCH) m
          bestLen bestIdx ∧
        tieCodec.StopsAt tieBuf curBuf ((key <<< tieCodec.logPosChecks) % 2 ^ 32) h32
          (tieCodec.counters.cell key)
          (if ROLZ_MAX_MATCH > tieBuf.len - 14 then tieBuf.len - 14 else ROLZ_MAX_MATCH) m ∧
        ((bestLen < 3 ∧ r.2.1 = -1 ∧ r.2.2 = -1) ∨
          (3 ≤ bestLen ∧ r.2.1 = bestIdx ∧ r.2.2 = ((bestLen - 3 : Nat) : Int))) := by
  have hev : (tieCodec.findMatch tieBuf 14).map (fun r => (r.2.1, r.2.2)) = some (0, 0) := by
    decide!
  simp only [Option.map_eq_some', Prod.mk.injEq] at hev
  obtain ⟨r, hr, h1, h2⟩ := hev
  have hcfg : tieCodec.Configured := ⟨by decide, by decide, by decide, by decide, rfl, rfl⟩
  have hcnt : tieCodec.CountersOk := by
    intro key
    show (0 : Int) ≤ (if key = 513 then 2 else 0) ∧ (if key = 513 then (2 : Int) else 0) < _
    split <;> decide
  have h := findMatch_tie_break tieCodec { rolzCodec2.alloc 4 with tabs := tieCodec } tieBuf 14
    hcfg hcnt hcfg hcnt
  refine ⟨r, hr, h1, h2, ⟨1610612744, by decide!, by decide, by decide!⟩,
    ⟨1610612738, by decide!, by decide, by decide!⟩, h.1 r hr⟩
/-! ## The round trip of backend 1: keys, lengths, candidates, copies -/

theorem Slice_drop_get (s : Slice) (a i : Nat) (s2 : Slice) (h : s.drop a = some s2) :
    s2.get i = if i < s.len - a then s.mem[a + i]? else none := by
  unfold Slice.drop at h
  split at h
  · cases h
    unfold Slice.get
    simp only [List.getElem?_drop]
  · cases h

theorem keyAt_eq (s : Slice) (p : Nat) :
    keyAt s p =
      if 2 ≤ p ∧ p ≤ s.len then
        (do
          let b1 ← s.mem[p - 1]?
          let b0 ← s.mem[p - 2]?
          pure (b0 ||| (b1 <<< 8)))
      else none := by
  unfold keyAt chk
  by_cases h2 : 2 ≤ p
  · simp only [h2, if_true, true_and]
    show andThen (some ()) _ = _
    unfold andThen
    simp only
    unfold Slice.drop
    by_cases hle : p - 2 ≤ s.len
    · simp only [hle, if_true]
      show andThen (some _) _ = _
      unfold andThen
      simp only
      unfold getKey leUint16 Slice.get
      simp only [List.getElem?_drop]
      by_cases hp : p ≤ s.len
      · have e1 : (1 : Nat) < s.len - (p - 2) := by omega
        have e0 : (0 : Nat) < s.len - (p - 2) := by omega
        have a1 : p - 2 + 1 = p - 1 := by omega
        simp only [e1, e0, hp, if_true, a1, Nat.add_zero]
      · have e1 : ¬ (1 : Nat) < s.len - (p - 2) := by omega
        simp only [e1, hp, if_false]
        rfl
    · have hp : ¬ p ≤ s.len := by omega
      simp only [hle, hp, if_false]
      rfl
  · simp only [h2, if_false, false_and]
    rfl

theorem keyAt_congr (s1 s2 : Slice) (p : Nat) (hl : s1.len = s2.len)
    (hb : ∀ j, j < p → s1.mem[j]? = s2.mem[j]?) : keyAt s1 p = keyAt s2 p := by
  rw [keyAt_eq, keyAt_eq, hl]
  by_cases h : 2 ≤ p ∧ p ≤ s2.len
  · rw [if_pos h, if_pos h, hb (p - 1) (by omega), hb (p - 2) (by omega)]
  · rw [if_neg h, if_neg h]

theorem registerAt_congr (t : rolzCodec1) (s1 s2 : Slice) (p : Nat)
    (h : keyAt s1 p = keyAt s2 p) : t.registerAt s1 p = t.registerAt s2 p := by
  unfold rolzCodec1.registerAt
  rw [h]

theorem registerRange_congr (s1 s2 : Slice) :
    ∀ (m pos : Nat) (t : rolzCodec1),
      (∀ p, pos ≤ p → p < pos + m → keyAt s1 p = keyAt s2 p) →
      rolzCodec1.registerRange s1 m pos t = rolzCodec1.registerRange s2 m pos t := by
  intro m
  induction m with
  | zero => intro pos t _; rfl
  | succ m ih =>
    intro pos t h
    unfold rolzCodec1.registerRange
    rw [registerAt_congr t s1 s2 pos (h pos (le_refl _) (by omega))]
    cases t.registerAt s2 pos with
    | none => rfl
    | some t1 =>
      show rolzCodec1.registerRange s1 m (pos + 1) t1 = rolzCodec1.registerRange s2 m (pos + 1) t1
      exact ih (pos + 1) t1 (fun p h1 h2 => h p (by omega) (by omega))

theorem registerRange_snoc (s : Slice) :
    ∀ (m pos : Nat) (t : rolzCodec1),
      rolzCodec1.registerRange s (m + 1) pos t =
        (rolzCodec1.registerRange s m pos t).bind (fun t1 => t1.registerAt s (pos + m)) := by
  intro m
  induction m with
  | zero =>
    intro pos t
    unfold rolzCodec1.registerRange rolzCodec1.registerRange
    show _ = t.registerAt s pos
    cases t.registerAt s pos <;> rfl
  | succ m ih =>
    intro pos t
    unfold rolzCodec1.registerRange
    cases t.registerAt s pos with
    | none => rfl
    | some t1 =>
      show rolzCodec1.registerRange s (m + 1) (pos + 1) t1 = _
      rw [ih (pos + 1) t1]
      have e : pos + 1 + m = pos + (m + 1) := by omega
      rw [e]
      rfl

theorem bind_eq_bind {α β : Type} (x : Option α) (f : α → Option β) :
    (x >>= f) = x.bind f := andThen_eq_bind x f

theorem drop_getKey (s d : Slice) (a n : Nat) (h2 : 2 ≤ a) (hd : s.drop (a - 2) = some d) :
    (d.drop n).bind getKey = keyAt s (a + n) := by
  unfold Slice.drop at hd
  split at hd
  · rename_i hle
    cases hd
    rw [keyAt_eq]
    unfold Slice.drop
    by_cases hn : n ≤ s.len - (a - 2)
    · simp only [hn, if_true, Option.bind]
      unfold getKey leUint16 Slice.get
      simp only [List.getElem?_drop]
      by_cases hp : a + n ≤ s.len
      · have e1 : (1 : Nat) < s.len - (a - 2) - n := by omega
        have e0 : (0 : Nat) < s.len - (a - 2) - n := by omega
        have a1 : a - 2 + (n + 1) = a + n - 1 := by omega
        have a0 : a - 2 + (n + 0) = a + n - 2 := by omega
        have a2 : 2 ≤ a + n ∧ a + n ≤ s.len := ⟨by omega, hp⟩
        simp only [e1, e0, a2, if_true, a1, a0, and_self]
      · have e1 : ¬ (1 : Nat) < s.len - (a - 2) - n := by omega
        have a2 : ¬ (2 ≤ a + n ∧ a + n ≤ s.len) := by omega
        simp only [e1, a2, if_false]
        rfl
    · have a2 : ¬ (2 ≤ a + n ∧ a + n ≤ s.len) := by omega
      simp only [hn, a2, if_false, Option.bind]
  · cases hd

theorem emitLiteralsLoop_eq (s d : Slice) (dstIdx : Nat) (h2 : 2 ≤ dstIdx)
    (hd : s.drop (dstIdx - 2) = some d) :
    ∀ (fuel n : Nat) (t : rolzCodec1),
      rolzCodec1.emitLiteralsLoop d dstIdx fuel n t =
        rolzCodec1.registerRange s fuel (dstIdx + n) t := by
  intro fuel
  induction fuel with
  | zero => intro n t; rfl
  | succ fuel ih =>
    intro n t
    unfold rolzCodec1.emitLiteralsLoop rolzCodec1.registerRange rolzCodec1.registerAt
    rw [← drop_getKey s d dstIdx n h2 hd]
    simp only [bind_eq_bind]
    cases h1 : d.drop n with
    | none => rfl
    | some keyBuf =>
      simp only [Option.some_bind]
      cases h2 : getKey keyBuf with
      | none => rfl
      | some key =>
        simp only [Option.some_bind]
        cases h3 : t.ring key with
        | none => rfl
        | some lw =>
          obtain ⟨lo, width⟩ := lw
          simp only [Option.some_bind]
          cases h4 : t.register key lo width (dstIdx + n) with
          | none => rfl
          | some t1 =>
            simp only [Option.some_bind]
            have e5 : dstIdx + (n + 1) = dstIdx + n + 1 := by omega
            rw [ih (n + 1) t1, e5]

theorem readLitLenExcess_idx (b2 : List Nat) (idx x k : Nat)
    (h : readLitLenExcess b2 idx = some (x, k)) : idx < k ∧ k ≤ idx + 4 := by
  unfold readLitLenExcess at h
  obtain ⟨n1, h1, h⟩ := bind_eq_some_iff.1 h
  split at h
  · obtain ⟨n2, h2, h⟩ := bind_eq_some_iff.1 h
    split at h
    · obtain ⟨n3, h3, h⟩ := bind_eq_some_iff.1 h
      split at h
      · obtain ⟨n4, h4, h⟩ := bind_eq_some_iff.1 h
        cases h
        omega
      · cases h
        omega
    · cases h
      omega
  · cases h
    omega

theorem readLitLenExcess_congr (b2 b3 : List Nat) (idx x k : Nat)
    (h : readLitLenExcess b2 idx = some (x, k))
    (hb : ∀ j, idx ≤ j → j < k → rd b3 j = rd b2 j) :
    readLitLenExcess b3 idx = some (x, k) := by
  unfold readLitLenExcess at h
  obtain ⟨n1, h1, h⟩ := bind_eq_some_iff.1 h
  split at h
  · rename_i c1
    obtain ⟨n2, h2, h⟩ := bind_eq_some_iff.1 h
    split at h
    · rename_i c2
      obtain ⟨n3, h3, h⟩ := bind_eq_some_iff.1 h
      split at h
      · rename_i c3
        obtain ⟨n4, h4, h⟩ := bind_eq_some_iff.1 h
        cases h
        have e1 := (hb idx (le_refl _) (by omega)).trans h1
        have e2 := (hb (idx + 1) (by omega) (by omega)).trans h2
        have e3 := (hb (idx + 1 + 1) (by omega) (by omega)).trans h3
        have e4 := (hb (idx + 1 + 1 + 1) (by omega) (by omega)).trans h4
        unfold readLitLenExcess
        simp only [e1, e2, e3, e4, bind_eq_bind, Option.some_bind, if_pos c1, if_pos c2,
          if_pos c3]
        rfl
      · rename_i c3
        cases h
        have e1 := (hb idx (le_refl _) (by omega)).trans h1
        have e2 := (hb (idx + 1) (by omega) (by omega)).trans h2
        have e3 := (hb (idx + 1 + 1) (by omega) (by omega)).trans h3
        unfold readLitLenExcess
        simp only [e1, e2, e3, bind_eq_bind, Option.some_bind, if_pos c1, if_pos c2,
          if_neg c3]
        rfl
    · rename_i c2
      cases h
      have e1 := (hb idx (le_refl _) (by omega)).trans h1
      have e2 := (hb (idx + 1) (by omega) (by omega)).trans h2
      unfold readLitLenExcess
      simp only [e1, e2, bind_eq_bind, Option.some_bind, if_pos c1, if_neg c2]
      rfl
  · rename_i c1
    cases h
    have e1 := (hb idx (le_refl _) (by omega)).trans h1
    unfold readLitLenExcess
    simp only [e1, bind_eq_bind, Option.some_bind, if_neg c1]
    rfl

theorem readLengths_congr (b2 b3 : List Nat) (L M k : Nat)
    (h : readLengths b2 = some (L, M, k)) (hb : ∀ j, j < k → rd b3 j = rd b2 j) :
    readLengths b3 = some (L, M, k) ∧ 1 ≤ k ∧ k ≤ 6 := by
  unfold readLengths at h
  obtain ⟨mode, h0, h⟩ := bind_eq_some_iff.1 h
  simp only at h
  split at h
  · rename_i c0
    obtain ⟨e, he, h⟩ := bind_eq_some_iff.1 h
    simp only [pure_eq_some, bind_eq_bind, Option.some_bind] at h
    split at h
    · rename_i c1
      cases h
      have e0 := (hb 0 (by omega)).trans h0
      have e1 := (hb 1 (by omega)).trans he
      refine ⟨?_, by omega, by omega⟩
      unfold readLengths
      simp only [e0, e1, bind_eq_bind, Option.some_bind, if_pos c0, if_pos c1, pure_eq_some]
    · rename_i c1
      obtain ⟨⟨l, i⟩, hx, h⟩ := Option.bind_eq_some.1 h
      cases h
      have hi := readLitLenExcess_idx _ _ _ _ hx
      have e0 := (hb 0 (by omega)).trans h0
      have e1 := (hb 1 (by omega)).trans he
      have e2 := readLitLenExcess_congr b2 b3 2 l i hx (fun j _ hj => hb j hj)
      refine ⟨?_, by omega, by omega⟩
      unfold readLengths
      simp only [e0, e1, e2, bind_eq_bind, Option.some_bind, if_pos c0, if_neg c1,
        pure_eq_some]
  · rename_i c0
    simp only [pure_eq_some, bind_eq_bind, Option.some_bind] at h
    split at h
    · rename_i c1
      cases h
      have e0 := (hb 0 (by omega)).trans h0
      refine ⟨?_, by omega, by omega⟩
      unfold readLengths
      simp only [e0, bind_eq_bind, Option.some_bind, if_neg c0, if_pos c1, pure_eq_some]
    · rename_i c1
      obtain ⟨⟨l, i⟩, hx, h⟩ := Option.bind_eq_some.1 h
      cases h
      have hi := readLitLenExcess_idx _ _ _ _ hx
      have e0 := (hb 0 (by omega)).trans h0
      have e2 := readLitLenExcess_congr b2 b3 1 l i hx (fun j _ hj => hb j hj)
      refine ⟨?_, by omega, by omega⟩
      unfold readLengths
      simp only [e0, e2, bind_eq_bind, Option.some_bind, if_neg c0, if_neg c1,
        pure_eq_some]

theorem matchLenLoop_eq (refBuf curBuf : Slice) (maxMatch : Nat) :
    ∀ (fuel n n2 : Nat), matchLenLoop refBuf curBuf maxMatch fuel n = some n2 →
      (∀ i, i < n → ∃ v, refBuf.get i = some v ∧ curBuf.get i = some v) →
      ∀ i, i < n2 → ∃ v, refBuf.get i = some v ∧ curBuf.get i = some v := by
  intro fuel
  induction fuel with
  | zero =>
    intro n n2 h hp
    simp only [matchLenLoop, Option.some.injEq] at h
    subst h; exact hp
  | succ fuel ih =>
    intro n n2 h hp
    rw [matchLenLoop] at h
    split at h
    · simp only [bind_eq_some_iff] at h
      obtain ⟨r, hr, c, hc, h⟩ := h
      split at h
      · rename_i hrc
        refine ih _ _ h ?_
        intro i hi
        by_cases hin : i < n
        · exact hp i hin
        · have : i = n := by omega
          subst this
          exact ⟨r, hr, hrc ▸ hc⟩
      · simp only [Option.some.injEq] at h
        subst h; exact hp
    · simp only [Option.some.injEq] at h
      subst h; exact hp

theorem findLoop_match (this : rolzCodec1) (buf curBuf : Slice) (lo width hash32 : Nat)
    (counter : Int) (maxMatch : Nat) (hp0 : 0 < this.posChecks) (hp1 : this.posChecks ≤ 256)
    (hc0 : 0 ≤ counter) (hc1 : counter < 1073741824) :
    ∀ (fuel : Nat) (i : Int) (bestLen : Nat) (bestIdx : Int) (r : Nat × Int),
      this.findLoop buf curBuf lo width hash32 counter maxMatch fuel i bestLen bestIdx = some r →
      i ≤ counter →
      ((bestIdx = -1 ∧ bestLen = 2) ∨
        (3 ≤ bestLen ∧ this.MatchAt buf curBuf lo width counter bestLen bestIdx)) →
      ((r.2 = -1 ∧ r.1 = 2) ∨ (3 ≤ r.1 ∧ this.MatchAt buf curBuf lo width counter r.1 r.2)) := by
  intro fuel
  induction fuel with
  | zero =>
    intro i bestLen bestIdx r h _ hinv
    simp only [rolzCodec1.findLoop, Option.some.injEq] at h
    subst h; exact hinv
  | succ fuel ih =>
    intro i bestLen bestIdx r h hi hinv
    rw [rolzCodec1.findLoop] at h
    have hlim : i32 (counter - this.posChecks) = counter - this.posChecks :=
      i32_of_range _ (by omega) (by omega)
    rw [hlim] at h
    split at h
    · rename_i hgt
      have hnext : i32 (i - 1) = i - 1 := i32_of_range _ (by omega) (by omega)
      have hidx : i32 (counter - i) = counter - i := i32_of_range _ (by omega) (by omega)
      rw [hnext, hidx] at h
      simp only [bind_eq_some_iff] at h
      obtain ⟨_, hchk, ref, href, h⟩ := h
      have hchk2 := chk_eq_some.1 hchk
      split at h
      · simp only [Option.some.injEq] at h
        subst h; exact hinv
      · rename_i hne
        split at h
        · exact ih _ _ _ _ h (by omega) hinv
        · simp only [bind_eq_some_iff] at h
          obtain ⟨refBuf, hrb, r0, hr0, c0, hc0', h⟩ := h
          split at h
          · exact ih _ _ _ _ h (by omega) hinv
          · rename_i hrc
            have hrc2 : r0 = c0 := by
              by_contra hx
              exact hrc hx
            simp only [bind_eq_some_iff] at h
            obtain ⟨n, hn, h⟩ := h
            have heq := matchLenLoop_eq refBuf curBuf maxMatch maxMatch 1 n hn (by
              intro k hk
              have : k = 0 := by omega
              subst this
              exact ⟨r0, hr0, hrc2 ▸ hc0'⟩)
            split at h
            · rename_i hgt2
              have hn3 : 3 ≤ n := by
                rcases hinv with hinv | hinv <;> omega
              have hgood : 3 ≤ n ∧ this.MatchAt buf curBuf lo width counter n (counter - i) :=
                ⟨hn3, i, ref, refBuf, hgt, hi, rfl, hchk2, href, hne, hrb, heq⟩
              split at h
              · simp only [Option.some.injEq] at h
                subst h; exact Or.inr hgood
              · exact ih _ _ _ _ h (by omega) (Or.inr hgood)
            · exact ih _ _ _ _ h (by omega) hinv
    · simp only [Option.some.injEq] at h
      subst h; exact hinv

theorem findMatch_mirror (te te2 tv : rolzCodec1) (buf : Slice) (pos : Nat) (mi ml : Int)
    (hM : tv.Mirrors te) (hp0 : 0 < te.posChecks) (hp1 : te.posChecks ≤ 256)
    (hcnt : ∀ k, 0 ≤ te.counters.cell k ∧ te.counters.cell k < 1073741824)
    (hpos : pos < 2 ^ 26) (h : te.findMatch buf pos = some (te2, mi, ml)) :
    ∃ key lo width c curBuf tv2, keyAt buf pos = some key ∧ tv.ring key = some (lo, width) ∧
      tv.counters.get key = some c ∧ buf.drop pos = some curBuf ∧
      tv.register key lo width pos = some tv2 ∧ tv2.Mirrors te2 ∧
      (∀ k, te2.counters.cell k =
        if k = key then te.counters.cell key + 1 else te.counters.cell k) ∧
      (mi = -1 ∨ (0 ≤ ml ∧ ml ≤ 255 ∧ pos + ml.toNat + 3 ≤ buf.len ∧
        te.MatchAt buf curBuf lo width c (ml.toNat + 3) mi)) := by
  have hlen := findMatch_length_bound1 te buf pos (te2, mi, ml) h
  obtain ⟨⟨m1, m2, m3, m4, m5⟩, mc, mm⟩ := hM
  unfold rolzCodec1.findMatch at h
  obtain ⟨_, hk0, h1⟩ := bind_eq_some_iff.1 h
  clear h
  obtain ⟨keyBuf, hk1, h2⟩ := bind_eq_some_iff.1 h1
  clear h1
  obtain ⟨key, hk2, h3⟩ := bind_eq_some_iff.1 h2
  clear h2
  have hkey : keyAt buf pos = some key := by
    unfold keyAt
    simp only [hk0, hk1, hk2, bind, andThen]
  have hp : te.posChecks ≠ 0 := by omega
  rw [if_neg hp] at h3
  obtain ⟨_, hring, h4⟩ := bind_eq_some_iff.1 h3
  clear h3
  obtain ⟨hashBuf, hb1, h5⟩ := bind_eq_some_iff.1 h4
  clear h4
  obtain ⟨hash32, hh, h6⟩ := bind_eq_some_iff.1 h5
  clear h5
  have hidem : hash32 &&& ROLZ_HASH_MASK = hash32 := by
    unfold hash at hh
    obtain ⟨v, -, hh2⟩ := bind_eq_some_iff.1 hh
    cases hh2
    rw [Nat.and_assoc, Nat.and_self]
  obtain ⟨counter, hcnt1, h7⟩ := bind_eq_some_iff.1 h6
  clear h6
  obtain ⟨curBuf, hcur, h8⟩ := bind_eq_some_iff.1 h7
  clear h7
  obtain ⟨⟨bestLen, bestIdx⟩, hfl, h9⟩ := bind_eq_some_iff.1 h8
  clear h8
  obtain ⟨counters, hc, h10⟩ := bind_eq_some_iff.1 h9
  clear h9
  obtain ⟨_, hslot, h11⟩ := bind_eq_some_iff.1 h10
  clear h10
  obtain ⟨ms, hm, h12⟩ := bind_eq_some_iff.1 h11
  clear h11
  obtain ⟨c1, c2, c3⟩ := Arr_put_some hc
  obtain ⟨q1, q2, q3⟩ := Arr_put_some hm
  obtain ⟨g1, g2⟩ := Arr_get_eq_some.1 hcnt1
  subst g2
  have hring2 := chk_eq_some.1 hring
  have hslot2 := chk_eq_some.1 hslot
  have hcr := hcnt key
  have hinc : i32 (te.counters.cell key + 1) = te.counters.cell key + 1 :=
    i32_of_range _ (by omega) (by omega)
  have hfm := findLoop_match te buf curBuf _ _ hash32 (te.counters.cell key) _ hp0 hp1 hcr.1 hcr.2
    _ _ _ _ _ hfl (le_refl _) (Or.inl ⟨rfl, rfl⟩)
  -- the decoder side
  have vring : tv.ring key = some ((key <<< te.logPosChecks) % 2 ^ 32,
      ((key + 1) <<< te.logPosChecks) % 2 ^ 32 - (key <<< te.logPosChecks) % 2 ^ 32) := by
    unfold rolzCodec1.ring
    rw [m1, m5]
    simp only [hring, bind, andThen, pure]
  have vget : tv.counters.get key = some (te.counters.cell key) :=
    Arr_get_eq_some.2 ⟨by rw [m4]; exact g1, mc key⟩
  have vreg : tv.register key ((key <<< te.logPosChecks) % 2 ^ 32)
      (((key + 1) <<< te.logPosChecks) % 2 ^ 32 - (key <<< te.logPosChecks) % 2 ^ 32) pos =
      some { tv with
        counters := ⟨tv.counters.len, fun j =>
          if j = key then i32 (te.counters.cell key + 1) else tv.counters.cell j⟩
        matches_ := ⟨tv.matches_.len, fun j =>
          if j = (key <<< te.logPosChecks) % 2 ^ 32 +
              (and32 (i32 (te.counters.cell key + 1)) te.maskChecks).toNat
          then pos % 2 ^ 32 else tv.matches_.cell j⟩ } := by
    unfold rolzCodec1.register
    have p1 : tv.counters.put key (i32 (te.counters.cell key + 1)) =
        some ⟨tv.counters.len, fun j =>
          if j = key then i32 (te.counters.cell key + 1) else tv.counters.cell j⟩ := by
      have hk : key < tv.counters.len := by rw [m4]; exact g1
      unfold Arr.put
      rw [if_pos hk]
    have p2 : tv.matches_.put ((key <<< te.logPosChecks) % 2 ^ 32 +
        (and32 (i32 (te.counters.cell key + 1)) te.maskChecks).toNat) (pos % 2 ^ 32) =
        some ⟨tv.matches_.len, fun j =>
          if j = (key <<< te.logPosChecks) % 2 ^ 32 +
              (and32 (i32 (te.counters.cell key + 1)) te.maskChecks).toNat
          then pos % 2 ^ 32 else tv.matches_.cell j⟩ := by
      have hk : (key <<< te.logPosChecks) % 2 ^ 32 +
          (and32 (i32 (te.counters.cell key + 1)) te.maskChecks).toNat < tv.matches_.len := by
        rw [m5]; exact q1
      unfold Arr.put
      rw [if_pos hk]
    rw [m2]
    simp only [vget, bind_eq_bind, Option.some_bind, p1, hslot, p2, pure_eq_some]
  have hmir : ∀ (x : rolzCodec1), x = ({ te with counters := counters, matches_ := ms } :
      rolzCodec1) →
      ({ tv with
        counters := ⟨tv.counters.len, fun j =>
          if j = key then i32 (te.counters.cell key + 1) else tv.counters.cell j⟩
        matches_ := ⟨tv.matches_.len, fun j =>
          if j = (key <<< te.logPosChecks) % 2 ^ 32 +
              (and32 (i32 (te.counters.cell key + 1)) te.maskChecks).toNat
          then pos % 2 ^ 32 else tv.matches_.cell j⟩ } : rolzCodec1).Mirrors x ∧
      ∀ k, x.counters.cell k =
        if k = key then te.counters.cell key + 1 else te.counters.cell k := by
    intro x hx
    subst hx
    refine ⟨⟨⟨m1, m2, m3, ?_, ?_⟩, ?_, ?_⟩, ?_⟩
    · show tv.counters.len = counters.len
      rw [c2, m4]
    · show tv.matches_.len = ms.len
      rw [q2, m5]
    · intro k
      show (if k = key then _ else _) = counters.cell k
      rw [c3 k]
      by_cases hk : k = key
      · rw [if_pos hk, if_pos hk]
      · rw [if_neg hk, if_neg hk, mc k]
    · intro i
      show (if i = _ then _ else _) = ms.cell i &&& ROLZ_POS_MASK
      rw [q3 i]
      by_cases hi : i = (key <<< te.logPosChecks) % 2 ^ 32 +
          (and32 (i32 (te.counters.cell key + 1)) te.maskChecks).toNat
      · rw [if_pos hi, if_pos hi, ← hidem, pos_entry _ _ hpos]
        omega
      · rw [if_neg hi, if_neg hi, mm i]
    · intro k
      show counters.cell k = _
      rw [c3 k, hinc]
  split at h12
  · cases h12
    obtain ⟨x1, x2⟩ := hmir _ rfl
    exact ⟨key, _, _, _, curBuf, _, hkey, vring, vget, hcur, vreg, x1, x2, Or.inl rfl⟩
  · rename_i hge
    cases h12
    obtain ⟨x1, x2⟩ := hmir _ rfl
    refine ⟨key, _, _, _, curBuf, _, hkey, vring, vget, hcur, vreg, x1, x2, ?_⟩
    by_cases hmi : mi = -1
    · exact Or.inl hmi
    · right
      have hl := hlen hmi
      simp only at hl
      have hb3 : 3 ≤ bestLen := by
        simp only [ROLZ_MIN_MATCH] at hge
        omega
      have e : (((bestLen - ROLZ_MIN_MATCH : Nat) : Int)).toNat + 3 = bestLen := by
        simp only [ROLZ_MIN_MATCH, Int.toNat_ofNat]
        omega
      refine ⟨hl.1, hl.2.1, ?_, ?_⟩
      · rw [Nat.add_assoc, e]
        have := hl.2.2.2
        simp only [ROLZ_MIN_MATCH] at this
        omega
      · rw [e]
        rcases hfm with hfm | hfm
        · exact absurd hfm.1 hmi
        · exact hfm.2

theorem copyByte_step (S X : List Nat) (d : Nat) (r : Int) (p2 : Nat) (hr : r = (p2 : Int))
    (hpd : p2 < d) (hd : d < X.length) (hS : rd S p2 = rd S d) (hSd : d < S.length)
    (hX : Filled S X d) :
    ∃ X2, copyByte X d r = some X2 ∧ X2.length = X.length ∧ Filled S X2 (d + 1) := by
  subst hr
  have hv : rd S d = some (S.getD d 0) := rd_eq_getD hSd
  have h1 : rdI X (p2 : Int) = some (S.getD d 0) := by
    unfold rdI
    rw [if_pos (Int.natCast_nonneg _), Int.toNat_ofNat]
    have := hX p2 hpd
    unfold rd at this hS hv
    rw [this, hS, hv]
  have h2 : wr X d (S.getD d 0) = some (X.set d (S.getD d 0)) := wr_eq_some.2 ⟨hd, rfl⟩
  refine ⟨X.set d (S.getD d 0), ?_, by simp, ?_⟩
  · unfold copyByte
    simp only [h1, h2, bind_eq_bind, Option.some_bind]
  · intro j hj
    rw [rd_wr h2 j]
    by_cases hjd : j = d
    · rw [if_pos hjd, hjd, hv]
    · rw [if_neg hjd]
      exact hX j (by omega)

theorem emitCopy1_spec (S : List Nat) :
    ∀ (fuel : Nat) (X : List Nat) (d : Nat) (r : Int) (m p2 : Nat), r = (p2 : Int) → p2 < d →
      d + m ≤ X.length → d + m ≤ S.length → m ≤ fuel → Filled S X d →
      (∀ i, i < m → rd S (p2 + i) = rd S (d + i)) →
      ∃ X2, emitCopy1 fuel X d r m = some (X2, d + m) ∧ X2.length = X.length ∧
        Filled S X2 (d + m) := by
  intro fuel
  induction fuel with
  | zero =>
    intro X d r m p2 _ _ _ _ hm hX _
    have : m = 0 := by omega
    subst this
    exact ⟨X, rfl, rfl, hX⟩
  | succ fuel ih =>
    intro X d r m p2 hr hpd hXl hSl hm hX hS
    rw [emitCopy1]
    by_cases h0 : m ≠ 0
    · rw [if_pos h0]
      obtain ⟨X1, e1, l1, f1⟩ := copyByte_step S X d r p2 hr hpd (by omega) (hS 0 (by omega))
        (by omega) hX
      obtain ⟨X2, e2, l2, f2⟩ := ih X1 (d + 1) (r + 1) (m - 1) (p2 + 1) (by omega) (by omega)
        (by omega) (by omega) (by omega) f1 (by
          intro i hi
          have := hS (i + 1) (by omega)
          rw [show p2 + 1 + i = p2 + (i + 1) by omega, show d + 1 + i = d + (i + 1) by omega]
          exact this)
      refine ⟨X2, ?_, by omega, ?_⟩
      · simp only [e1, bind_eq_bind, Option.some_bind, e2]
        rw [show d + 1 + (m - 1) = d + m by omega]
      · rw [show d + m = d + 1 + (m - 1) by omega]
        exact f2
    · have : m = 0 := by omega
      subst this
      rw [if_neg h0]
      exact ⟨X, rfl, rfl, hX⟩

theorem emitCopy8_spec (S : List Nat) :
    ∀ (fuel : Nat) (X : List Nat) (d : Nat) (r : Int) (m p2 : Nat), r = (p2 : Int) → p2 < d →
      d + m ≤ X.length → d + m ≤ S.length → m ≤ 8 * fuel + 7 → Filled S X d →
      (∀ i, i < m → rd S (p2 + i) = rd S (d + i)) →
      ∃ X2 k, emitCopy8 fuel X d r m = some (X2, d + k, r + (k : Int), m - k) ∧ k ≤ m ∧
        m - k < 8 ∧ X2.length = X.length ∧ Filled S X2 (d + k) := by
  intro fuel
  induction fuel with
  | zero =>
    intro X d r m p2 _ _ _ _ hm hX _
    refine ⟨X, 0, ?_, by omega, by omega, rfl, hX⟩
    simp only [emitCopy8, Nat.add_zero, Nat.sub_zero, Int.add_zero, Nat.cast_zero]
  | succ fuel ih =>
    intro X d r m p2 hr hpd hXl hSl hm hX hS
    rw [emitCopy8]
    by_cases h8 : m ≥ 8
    · rw [if_pos h8]
      obtain ⟨X1, e1, l1, f1⟩ := copyByte_step S X d r p2 hr hpd (by omega) (hS 0 (by omega))
        (by omega) hX
      obtain ⟨X2, e2, l2, f2⟩ := copyByte_step S X1 (d + 1) (r + 1) (p2 + 1) (by omega)
        (by omega) (by omega) (hS 1 (by omega)) (by omega) f1
      obtain ⟨X3, e3, l3, f3⟩ := copyByte_step S X2 (d + 2) (r + 2) (p2 + 2) (by omega)
        (by omega) (by omega) (hS 2 (by omega)) (by omega) f2
      obtain ⟨X4, e4, l4, f4⟩ := copyByte_step S X3 (d + 3) (r + 3) (p2 + 3) (by omega)
        (by omega) (by omega) (hS 3 (by omega)) (by omega) f3
      obtain ⟨X5, e5, l5, f5⟩ := copyByte_step S X4 (d + 4) (r + 4) (p2 + 4) (by omega)
        (by omega) (by omega) (hS 4 (by omega)) (by omega) f4
      obtain ⟨X6, e6, l6, f6⟩ := copyByte_step S X5 (d + 5) (r + 5) (p2 + 5) (by omega)
        (by omega) (by omega) (hS 5 (by omega)) (by omega) f5
      obtain ⟨X7, e7, l7, f7⟩ := copyByte_step S X6 (d + 6) (r + 6) (p2 + 6) (by omega)
        (by omega) (by omega) (hS 6 (by omega)) (by omega) f6
      obtain ⟨X8, e8, l8, f8⟩ := copyByte_step S X7 (d + 7) (r + 7) (p2 + 7) (by omega)
        (by omega) (by omega) (hS 7 (by omega)) (by omega) f7
      obtain ⟨X9, k, e9, hk, hk8, l9, f9⟩ := ih X8 (d + 8) (r + 8) (m - 8) (p2 + 8) (by omega)
        (by omega) (by omega) (by omega) (by omega) f8 (by
          intro i hi
          have := hS (i + 8) (by omega)
          rw [show p2 + 8 + i = p2 + (i + 8) by omega, show d + 8 + i = d + (i + 8) by omega]
          exact this)
      refine ⟨X9, k + 8, ?_, by omega, by omega, by omega, ?_⟩
      · simp only [e1, e2, e3, e4, e5, e6, e7, e8, bind_eq_bind, Option.some_bind, e9]
        rw [show d + 8 + k = d + (k + 8) by omega, show m - 8 - k = m - (k + 8) by omega,
          show r + 8 + (k : Int) = r + ((k + 8 : Nat) : Int) by push_cast; ring]
      · rw [show d + (k + 8) = d + 8 + k by omega]
        exact f9
    · rw [if_neg h8]
      refine ⟨X, 0, ?_, by omega, by omega, rfl, hX⟩
      simp only [Nat.add_zero, Nat.sub_zero, Int.add_zero, Nat.cast_zero]

theorem emitCopy_spec (S X : List Nat) (q p2 M : Nat) (hpd : p2 < q)
    (hXl : q + M + 3 ≤ X.length) (hSl : q + M + 3 ≤ S.length) (hX : Filled S X q)
    (hS : ∀ i, i < M + 3 → rd S (p2 + i) = rd S (q + i)) :
    ∃ X2, emitCopy X q (p2 : Int) M = some (X2, q + M + 3) ∧ X2.length = X.length ∧
      Filled S X2 (q + M + 3) := by
  obtain ⟨X1, e1, l1, f1⟩ := copyByte_step S X q p2 p2 rfl hpd (by omega) (hS 0 (by omega))
    (by omega) hX
  obtain ⟨X2, e2, l2, f2⟩ := copyByte_step S X1 (q + 1) (p2 + 1) (p2 + 1) (by omega)
    (by omega) (by omega) (hS 1 (by omega)) (by omega) f1
  obtain ⟨X3, e3, l3, f3⟩ := copyByte_step S X2 (q + 2) (p2 + 2) (p2 + 2) (by omega)
    (by omega) (by omega) (hS 2 (by omega)) (by omega) f2
  obtain ⟨X4, k, e4, hk, hk8, l4, f4⟩ := emitCopy8_spec S M X3 (q + 3) (p2 + 3) M (p2 + 3)
    (by omega) (by omega) (by omega) (by omega) (by omega) f3 (by
      intro i hi
      have := hS (i + 3) (by omega)
      rw [show p2 + 3 + i = p2 + (i + 3) by omega, show q + 3 + i = q + (i + 3) by omega]
      exact this)
  obtain ⟨X5, e5, l5, f5⟩ := emitCopy1_spec S (M - k) X4 (q + 3 + k) (p2 + 3 + (k : Int)) (M - k)
    (p2 + 3 + k) (by push_cast; ring) (by omega) (by omega) (by omega) (le_refl _) f4 (by
      intro i hi
      have := hS (i + 3 + k) (by omega)
      rw [show p2 + 3 + k + i = p2 + (i + 3 + k) by omega,
        show q + 3 + k + i = q + (i + 3 + k) by omega]
      exact this)
  refine ⟨X5, ?_, by omega, ?_⟩
  · unfold emitCopy
    simp only [e1, e2, e3, e4, bind_eq_bind, Option.some_bind, e5]
    rw [show q + 3 + k + (M - k) = q + M + 3 by omega]
  · rw [show q + M + 3 = q + 3 + k + (M - k) by omega]
    exact f5
/-! ## The round trip of backend 1: what the parse writes and what the decoder reads -/

theorem emitLitLenExcess_frame (b b2 : List Nat) (idx x k : Nat)
    (h : emitLitLenExcess b idx x = some (b2, k)) :
    b2.length = b.length ∧ idx < k ∧ k ≤ idx + 4 ∧ k ≤ b.length ∧
      ∀ j, k ≤ j → rd b2 j = rd b j := by
  unfold emitLitLenExcess at h
  simp only [Nat.reduceShiftLeft, ge_iff_le] at h
  by_cases h7 : 128 ≤ x
  · by_cases h14 : 16384 ≤ x
    · by_cases h21 : 2097152 ≤ x
      · simp only [h7, h14, h21, if_true, bind_eq_some_iff, pure_eq_some, Option.some.injEq,
          Prod.mk.injEq, Prod.exists, exists_eq_right_right, exists_and_left] at h
        obtain ⟨a1, hw1, _, _, ⟨rfl, rfl⟩, a2, hw2, _, _, ⟨rfl, rfl⟩, a3, hw3, _, _, ⟨rfl, rfl⟩,
          a4, hw4, rfl, rfl⟩ := h
        have l1 := wr_length hw1
        have l2 := wr_length hw2
        have l3 := wr_length hw3
        have l4 := wr_length hw4
        have i4 := (wr_eq_some.1 hw4).1
        refine ⟨by omega, by omega, by omega, by omega, ?_⟩
        intro j hj
        rw [rd_wr hw4, rd_wr hw3, rd_wr hw2, rd_wr hw1, if_neg (by omega), if_neg (by omega),
          if_neg (by omega), if_neg (by omega)]
      · simp only [h7, h14, h21, if_true, if_false, bind_eq_some_iff, pure_eq_some,
          Option.some.injEq, Prod.mk.injEq, Prod.exists, exists_eq_right_right,
          exists_and_left] at h
        obtain ⟨_, _, ⟨rfl, rfl⟩, a2, hw2, _, _, ⟨rfl, rfl⟩, a3, hw3, _, _, ⟨rfl, rfl⟩,
          a4, hw4, rfl, rfl⟩ := h
        have l2 := wr_length hw2
        have l3 := wr_length hw3
        have l4 := wr_length hw4
        have i4 := (wr_eq_some.1 hw4).1
        refine ⟨by omega, by omega, by omega, by omega, ?_⟩
        intro j hj
        rw [rd_wr hw4, rd_wr hw3, rd_wr hw2, if_neg (by omega), if_neg (by omega),
          if_neg (by omega)]
    · simp only [h7, h14, if_true, if_false, bind_eq_some_iff, pure_eq_some,
          Option.some.injEq, Prod.mk.injEq, Prod.exists, exists_eq_right_right,
          exists_and_left] at h
      obtain ⟨_, _, ⟨rfl, rfl⟩, a3, hw3, _, _, ⟨rfl, rfl⟩, a4, hw4, rfl, rfl⟩ := h
      have l3 := wr_length hw3
      have l4 := wr_length hw4
      have i4 := (wr_eq_some.1 hw4).1
      refine ⟨by omega, by omega, by omega, by omega, ?_⟩
      intro j hj
      rw [rd_wr hw4, rd_wr hw3, if_neg (by omega), if_neg (by omega)]
  · simp only [h7, if_false, bind_eq_some_iff, pure_eq_some, Option.some.injEq,
          Prod.mk.injEq, Prod.exists, exists_eq_right_right, exists_and_left] at h
    obtain ⟨_, _, ⟨rfl, rfl⟩, a4, hw4, rfl, rfl⟩ := h
    have l4 := wr_length hw4
    have i4 := (wr_eq_some.1 hw4).1
    refine ⟨by omega, by omega, by omega, by omega, ?_⟩
    intro j hj
    rw [rd_wr hw4, if_neg (by omega)]

theorem emitLengths_frame (buf buf2 : List Nat) (L M k : Nat)
    (h : emitLengths buf L M = some (buf2, k)) :
    buf2.length = buf.length ∧ 1 ≤ k ∧ k ≤ buf.length ∧ k ≤ 6 ∧ (L < 31 → k ≤ 2) ∧
      (M < 7 → k ≤ 5) ∧ (M < 7 → L < 31 → k = 1) ∧ ∀ j, k ≤ j → rd buf2 j = rd buf j := by
  unfold emitLengths at h
  by_cases hm : 7 ≤ M
  · by_cases hl : L < 31
    · simp only [hm, hl, if_true, ge_iff_le, bind_eq_some_iff, pure_eq_some,
        Option.some.injEq, Prod.mk.injEq, Prod.exists, exists_eq_right_right, exists_and_left,
        show ¬ (31 ≤ L) by omega, if_false] at h
      obtain ⟨a1, hw1, a2, hw2, _, ⟨rfl, rfl⟩, rfl⟩ := h
      have l1 := wr_length hw1
      have l2 := wr_length hw2
      have i2 := (wr_eq_some.1 hw2).1
      refine ⟨by omega, by omega, by omega, by omega, fun _ => by omega, fun _ => by omega,
        fun _ => by omega, ?_⟩
      intro j hj
      rw [rd_wr hw2, rd_wr hw1, if_neg (by omega), if_neg (by omega)]
    · simp only [hm, hl, if_true, if_false, ge_iff_le, bind_eq_some_iff, pure_eq_some,
        Option.some.injEq, Prod.mk.injEq, Prod.exists, exists_eq_right_right, exists_and_left,
        show (31 ≤ L) by omega] at h
      obtain ⟨a1, hw1, a2, hw2, _, _, ⟨rfl, rfl⟩, hx⟩ := h
      have l1 := wr_length hw1
      have l2 := wr_length hw2
      obtain ⟨f1, f2, f3, f4, f5⟩ := emitLitLenExcess_frame _ _ _ _ _ hx
      refine ⟨by omega, by omega, by omega, by omega, fun _ => by omega, fun _ => by omega,
        fun _ => by omega, ?_⟩
      intro j hj
      rw [f5 j hj, rd_wr hw2, rd_wr hw1, if_neg (by omega), if_neg (by omega)]
  · by_cases hl : L < 31
    · simp only [hm, hl, if_true, if_false, ge_iff_le, bind_eq_some_iff, pure_eq_some,
        Option.some.injEq, Prod.mk.injEq, Prod.exists, exists_eq_right_right, exists_and_left,
        show ¬ (31 ≤ L) by omega] at h
      obtain ⟨a1, hw1, _, ⟨rfl, rfl⟩, rfl⟩ := h
      have l1 := wr_length hw1
      have i1 := (wr_eq_some.1 hw1).1
      refine ⟨by omega, by omega, by omega, by omega, fun _ => by omega, fun _ => by omega,
        fun _ _ => rfl, ?_⟩
      intro j hj
      rw [rd_wr hw1, if_neg (by omega)]
    · simp only [hm, hl, if_true, if_false, ge_iff_le, bind_eq_some_iff, pure_eq_some,
        Option.some.injEq, Prod.mk.injEq, Prod.exists, exists_eq_right_right, exists_and_left,
        show (31 ≤ L) by omega] at h
      obtain ⟨a1, hw1, _, _, ⟨rfl, rfl⟩, hx⟩ := h
      have l1 := wr_length hw1
      obtain ⟨f1, f2, f3, f4, f5⟩ := emitLitLenExcess_frame _ _ _ _ _ hx
      refine ⟨by omega, by omega, by omega, by omega, fun _ => by omega, fun _ => by omega,
        fun _ _ => by omega, ?_⟩
      intro j hj
      rw [f5 j hj, rd_wr hw1, if_neg (by omega)]

theorem emitLengthsAt_spec (b b2 : Fwd1Bufs) (L M : Nat) (hL : L < 2 ^ 28) (hM : M ≤ 262)
    (h : emitLengthsAt b L M = some b2) :
    b2.litBuf = b.litBuf ∧ b2.mIdxBuf = b.mIdxBuf ∧ b2.litIdx = b.litIdx ∧ b2.mIdx = b.mIdx ∧
      b2.lenBuf.length = b.lenBuf.length ∧ b.lenIdx ≤ b.lenBuf.length ∧
      Filled b.lenBuf b2.lenBuf b.lenIdx ∧
      ∃ n, b2.lenIdx = b.lenIdx + n ∧ 1 ≤ n ∧ b2.lenIdx ≤ b2.lenBuf.length ∧ n ≤ 6 ∧
        (L < 31 → n ≤ 2) ∧ (M < 7 → n ≤ 5) ∧ (M < 7 → L < 31 → n = 1) ∧
        ∀ b3, (∀ j, j < n → rd b3 j = rd b2.lenBuf (b.lenIdx + j)) →
          readLengths b3 = some (L, M, n) := by
  unfold emitLengthsAt at h
  obtain ⟨_, hc, h⟩ := bind_eq_some_iff.1 h
  have hc2 := chk_eq_some.1 hc
  obtain ⟨⟨w, n⟩, he, h⟩ := bind_eq_some_iff.1 h
  cases h
  obtain ⟨f1, f2, f3, f4, f5, f6, f7, f8⟩ := emitLengths_frame _ _ _ _ _ he
  have hr := readLengths_of_emit _ _ _ _ _ hL hM he
  have hlen : (b.lenBuf.take b.lenIdx).length = b.lenIdx := by
    rw [List.length_take]; omega
  simp only [List.length_drop] at f1 f3
  refine ⟨rfl, rfl, rfl, rfl, ?_, hc2, ?_, n, rfl, f2, ?_, f4, f5, f6, f7, ?_⟩
  · show (b.lenBuf.take b.lenIdx ++ w).length = _
    rw [List.length_append, hlen, f1]; omega
  · intro j hj
    show rd (b.lenBuf.take b.lenIdx ++ w) j = _
    unfold rd
    rw [List.getElem?_append_left (by omega), List.getElem?_take_of_lt hj]
  · show b.lenIdx + n ≤ (b.lenBuf.take b.lenIdx ++ w).length
    rw [List.length_append, hlen, f1]; omega
  · intro b3 hb3
    refine (readLengths_congr w b3 L M n hr ?_).1
    intro j hj
    rw [hb3 j hj]
    show rd (b.lenBuf.take b.lenIdx ++ w) (b.lenIdx + j) = _
    unfold rd
    rw [List.getElem?_append_right (by omega), hlen, Nat.add_sub_cancel_left]

theorem goCopy_mid (dst : List Nat) (off : Nat) (src : List Nat) (i : Nat)
    (h : off + src.length ≤ dst.length) (hi : i < src.length) :
    rd (goCopy dst off src) (off + i) = rd src i := by
  unfold goCopy rd
  have l1 : (dst.take off).length = off := by rw [List.length_take]; omega
  have l2 : (src.take (dst.length - off)).length = src.length := by
    rw [List.length_take]; omega
  rw [List.getElem?_append_left (by rw [List.length_append, l1, l2]; omega),
    List.getElem?_append_right (by omega), l1, Nat.add_sub_cancel_left,
    List.getElem?_take_of_lt (by omega)]

theorem Extends_refl1 (b : Fwd1Bufs) : b.Extends b :=
  ⟨rfl, rfl, rfl, le_refl _, le_refl _, le_refl _, fun _ _ => rfl, fun _ _ => rfl,
    fun _ _ => rfl⟩

theorem Extends_trans1 {a b c : Fwd1Bufs} (h1 : a.Extends b) (h2 : b.Extends c) :
    a.Extends c := by
  obtain ⟨a1, a2, a3, a4, a5, a6, a7, a8, a9⟩ := h1
  obtain ⟨b1, b2, b3, b4, b5, b6, b7, b8, b9⟩ := h2
  refine ⟨by omega, by omega, by omega, by omega, by omega, by omega, ?_, ?_, ?_⟩
  · intro j hj
    rw [b7 j (by omega), a7 j hj]
  · intro j hj
    rw [b8 j (by omega), a8 j hj]
  · intro j hj
    rw [b9 j (by omega), a9 j hj]

theorem emitMatch_spec (buf : Slice) (b b2 : Fwd1Bufs) (fl q : Nat) (mi ml : Int)
    (hq : q < 2 ^ 28) (hml0 : 0 ≤ ml) (hml : ml ≤ 255)
    (hlit : b.litIdx + (q - fl) ≤ b.litBuf.length)
    (h : rolzCodec1.emitMatch buf b fl q mi ml = some b2) :
    b.Extends b2 ∧ b2.litIdx = b.litIdx + (q - fl) ∧ b2.mIdx = b.mIdx + 1 ∧
      rd b2.mIdxBuf b.mIdx = some (mi % 256).toNat ∧ b.mIdx < b.mIdxBuf.length ∧
      (∀ i, i < q - fl → rd b2.litBuf (b.litIdx + i) = rd buf.mem (fl + i)) ∧
      b.lenIdx ≤ b.lenBuf.length ∧
      ∃ n, b2.lenIdx = b.lenIdx + n ∧ 1 ≤ n ∧ n ≤ (q - fl) + ml.toNat + 3 ∧
        b2.lenIdx ≤ b2.lenBuf.length ∧
        ∀ b3, (∀ j, j < n → rd b3 j = rd b2.lenBuf (b.lenIdx + j)) →
          readLengths b3 = some (q - fl, ml.toNat, n) := by
  unfold rolzCodec1.emitMatch at h
  obtain ⟨b1, h1, h⟩ := bind_eq_some_iff.1 h
  obtain ⟨s1, s2, s3, s4, s5, s6, s7, n, s8, s9, s10, s11, s12, s13, s14, s15⟩ :=
    emitLengthsAt_spec b b1 (q - fl) ml.toNat (by omega) (by omega) h1
  simp only at h
  have hbm : ∃ (bm : Fwd1Bufs) (m : List Nat),
      wr bm.mIdxBuf bm.mIdx (mi % 256).toNat = some m ∧
      b2 = { bm with mIdxBuf := m, mIdx := bm.mIdx + 1 } ∧
      bm.lenBuf = b1.lenBuf ∧ bm.lenIdx = b1.lenIdx ∧ bm.mIdxBuf = b1.mIdxBuf ∧
      bm.mIdx = b1.mIdx ∧ bm.litIdx = b1.litIdx + (q - fl) ∧
      bm.litBuf.length = b1.litBuf.length ∧ Filled b1.litBuf bm.litBuf b1.litIdx ∧
      ∀ i, i < q - fl → rd bm.litBuf (b1.litIdx + i) = rd buf.mem (fl + i) := by
    split at h
    · rename_i hpos
      obtain ⟨_, hc, h⟩ := bind_eq_some_iff.1 h
      obtain ⟨lits, hs, h⟩ := bind_eq_some_iff.1 h
      unfold Slice.sub at hs
      split at hs
      · rename_i hcap
        cases hs
        unfold Slice.cap at hcap
        simp only [pure_eq_some, bind_eq_bind, Option.some_bind] at h
        obtain ⟨m, hw, h⟩ := Option.bind_eq_some.1 h
        cases h
        have ll : ((buf.mem.drop fl).take (fl + (q - fl) - fl)).length = q - fl := by
          rw [List.length_take, List.length_drop]; omega
        refine ⟨{ b1 with
          litBuf := goCopy b1.litBuf b1.litIdx ((buf.mem.drop fl).take (fl + (q - fl) - fl))
          litIdx := b1.litIdx + (q - fl) }, m, hw, rfl, rfl, rfl, rfl, rfl, rfl, ?_, ?_, ?_⟩
        · show (goCopy b1.litBuf b1.litIdx _).length = _
          exact goCopy_length _ _ _ (by rw [ll, s1, s3]; omega)
        · intro j hj
          show rd (goCopy b1.litBuf b1.litIdx _) j = _
          exact goCopy_prefix _ _ _ j hj (by rw [s1, s3]; omega)
        · intro i hi
          show rd (goCopy b1.litBuf b1.litIdx _) (b1.litIdx + i) = _
          rw [goCopy_mid _ _ _ i (by rw [ll, s1, s3]; omega) (by rw [ll]; exact hi)]
          unfold rd
          rw [List.getElem?_take_of_lt (by omega), List.getElem?_drop]
      · cases hs
    · rename_i hpos
      simp only [pure_eq_some, bind_eq_bind, Option.some_bind] at h
      obtain ⟨m, hw, h⟩ := Option.bind_eq_some.1 h
      cases h
      have : q - fl = 0 := by omega
      refine ⟨b1, m, hw, rfl, rfl, rfl, rfl, rfl, by omega, rfl, fun _ _ => rfl, ?_⟩
      intro i hi
      omega
  obtain ⟨bm, m, hw, rfl, t1, t2, t3, t4, t5, t6, t7, t8⟩ := hbm
  have hml2 : ml.toNat ≤ 255 := by omega
  have wl := wr_length hw
  have wi := (wr_eq_some.1 hw).1
  refine ⟨⟨?_, ?_, ?_, ?_, ?_, ?_, ?_, ?_, ?_⟩, ?_, ?_, ?_, ?_, ?_, s6, n, ?_, s9, ?_, ?_, ?_⟩
  · show bm.litBuf.length = _
    rw [t6, s1]
  · show bm.lenBuf.length = _
    rw [t1, s5]
  · show m.length = _
    rw [wl, t3, s2]
  · show b.litIdx ≤ bm.litIdx
    rw [t5, s3]; omega
  · show b.lenIdx ≤ bm.lenIdx
    rw [t2, s8]; omega
  · show b.mIdx ≤ bm.mIdx + 1
    rw [t4, s4]; omega
  · intro j hj
    show rd bm.litBuf j = _
    rw [t7 j (by rw [s3]; exact hj), s1]
  · intro j hj
    show rd bm.lenBuf j = _
    rw [t1]
    exact s7 j hj
  · intro j hj
    show rd m j = _
    rw [rd_wr hw, if_neg (by rw [t4, s4]; omega), t3, s2]
  · show bm.litIdx = _
    rw [t5, s3]
  · show bm.mIdx + 1 = _
    rw [t4, s4]
  · show rd m b.mIdx = _
    rw [rd_wr hw, if_pos (by rw [t4, s4])]
  · rw [t3, s2, t4, s4] at wi
    exact wi
  · intro i hi
    show rd bm.litBuf (b.litIdx + i) = _
    rw [← s3]
    exact t8 i hi
  · show bm.lenIdx = _
    rw [t2, s8]
  · by_cases hl : q - fl < 31
    · have := s12 hl
      omega
    · omega
  · show bm.lenIdx ≤ bm.lenBuf.length
    rw [t1, t2]
    exact s10
  · intro b3 hb3
    refine s15 b3 ?_
    intro j hj
    rw [hb3 j hj]
    show rd bm.lenBuf _ = _
    rw [t1]

theorem copyLastLiterals_spec (buf : Slice) (fl litIdx L : Nat) :
    ∀ (fuel i : Nat) (litBuf lb : List Nat),
      copyLastLiterals buf fl litIdx L fuel i litBuf = some lb → L - i ≤ fuel →
      lb.length = litBuf.length ∧ (∀ j, j < litIdx + i → rd lb j = rd litBuf j) ∧
        ∀ k, i ≤ k → k < L → rd lb (litIdx + k) = rd buf.mem (fl + k) := by
  intro fuel
  induction fuel with
  | zero =>
    intro i litBuf lb h hf
    simp only [copyLastLiterals, Option.some.injEq] at h
    subst h
    exact ⟨rfl, fun _ _ => rfl, fun k h1 h2 => by omega⟩
  | succ fuel ih =>
    intro i litBuf lb h hf
    rw [copyLastLiterals] at h
    split at h
    · rename_i hi
      obtain ⟨v, hv, h⟩ := bind_eq_some_iff.1 h
      obtain ⟨l1, hw, h⟩ := bind_eq_some_iff.1 h
      obtain ⟨a1, a2, a3⟩ := ih (i + 1) l1 lb h (by omega)
      have wl := wr_length hw
      refine ⟨by omega, ?_, ?_⟩
      · intro j hj
        rw [a2 j (by omega), rd_wr hw, if_neg (by omega)]
      · intro k hk1 hk2
        by_cases hki : k = i
        · subst hki
          rw [a2 (litIdx + k) (by omega), rd_wr hw, if_pos rfl]
          unfold Slice.get at hv
          split at hv
          · unfold rd
            exact hv.symm
          · cases hv
        · exact a3 k (by omega) hk2
    · simp only [Option.some.injEq] at h
      subst h
      exact ⟨rfl, fun _ _ => rfl, fun k h1 h2 => by omega⟩

theorem lastLiterals_spec (buf : Slice) (b b1 : Fwd1Bufs) (fl q : Nat) (lb : List Nat)
    (hq : q < 2 ^ 28) (h1 : emitLengthsAt b (q - fl) 0 = some b1)
    (h2 : copyLastLiterals buf fl b1.litIdx (q - fl) (q - fl) 0 b1.litBuf = some lb) :
    b.Extends { b1 with litBuf := lb, litIdx := b1.litIdx + (q - fl) } ∧
      b1.litIdx = b.litIdx ∧ b1.mIdx = b.mIdx ∧
      (∀ i, i < q - fl → rd lb (b.litIdx + i) = rd buf.mem (fl + i)) ∧
      b.lenIdx ≤ b.lenBuf.length ∧
      ∃ n, b1.lenIdx = b.lenIdx + n ∧ 1 ≤ n ∧ n ≤ (q - fl) + 1 ∧
        b1.lenIdx ≤ b1.lenBuf.length ∧
        ∀ b3, (∀ j, j < n → rd b3 j = rd b1.lenBuf (b.lenIdx + j)) →
          readLengths b3 = some (q - fl, 0, n) := by
  obtain ⟨s1, s2, s3, s4, s5, s6, s7, n, s8, s9, s10, s11, s12, s13, s14, s15⟩ :=
    emitLengthsAt_spec b b1 (q - fl) 0 (by omega) (by omega) h1
  obtain ⟨a1, a2, a3⟩ := copyLastLiterals_spec buf fl b1.litIdx (q - fl) (q - fl) 0 b1.litBuf lb
    h2 (by omega)
  refine ⟨⟨?_, s5, ?_, ?_, ?_, ?_, ?_, s7, ?_⟩, s3, s4, ?_, s6, n, s8, s9, ?_, s10, s15⟩
  · show lb.length = _
    rw [a1, s1]
  · show b1.mIdxBuf.length = _
    rw [s2]
  · show b.litIdx ≤ b1.litIdx + (q - fl)
    omega
  · show b.lenIdx ≤ b1.lenIdx
    omega
  · show b.mIdx ≤ b1.mIdx
    omega
  · intro j hj
    show rd lb j = _
    rw [a2 j (by omega), s1]
  · intro j hj
    show rd b1.mIdxBuf j = _
    rw [s2]
  · intro i hi
    rw [← s3]
    exact a3 i (by omega) hi
  · by_cases hl : q - fl < 31
    · have := s14 (by omega) hl
      omega
    · have := s13 (by omega)
      omega

theorem parseLoop_bounds (buf : Slice) (N : Nat) (hbuf : buf.len = N) (hN : N ≤ 2 ^ 26) :
    ∀ (fuel : Nat) (t : rolzCodec1) (b : Fwd1Bufs) (q fl : Nat) (t2 : rolzCodec1)
      (b2 : Fwd1Bufs) (q2 fl2 : Nat),
      rolzCodec1.parseLoop buf N fuel t b q fl = some (t2, b2, q2, fl2) →
      fl ≤ q → q ≤ N → b.litIdx ≤ fl → b.lenIdx + 1 ≤ fl → b.mIdx ≤ fl →
      N ≤ b.litBuf.length →
      b.Extends b2 ∧ fl2 ≤ q2 ∧ q2 ≤ N ∧ b2.litIdx ≤ fl2 ∧ b2.lenIdx + 1 ≤ fl2 ∧
        b2.mIdx ≤ fl2 ∧ (N - q ≤ fuel → q2 = N) := by
  intro fuel
  induction fuel with
  | zero =>
    intro t b q fl t2 b2 q2 fl2 h h1 h2 h3 h4 h5 h6
    simp only [rolzCodec1.parseLoop, Option.some.injEq, Prod.mk.injEq] at h
    obtain ⟨rfl, rfl, rfl, rfl⟩ := h
    exact ⟨Extends_refl1 _, h1, h2, h3, h4, h5, fun _ => by omega⟩
  | succ fuel ih =>
    intro t b q fl t2 b2 q2 fl2 h h1 h2 h3 h4 h5 h6
    rw [rolzCodec1.parseLoop] at h
    split at h
    · rename_i hlt
      obtain ⟨⟨t1, mi, ml⟩, hf, h⟩ := bind_eq_some_iff.1 h
      simp only at h
      split at h
      · obtain ⟨a1, a2, a3, a4, a5, a6, a7⟩ := ih _ _ _ _ _ _ _ _ h (by omega) (by omega) h3 h4
          h5 h6
        exact ⟨a1, a2, a3, a4, a5, a6, fun _ => a7 (by omega)⟩
      · rename_i hmi
        obtain ⟨bm, he, h⟩ := bind_eq_some_iff.1 h
        have hl := findMatch_length_bound1 t buf q (t1, mi, ml) hf hmi
        simp only at hl
        obtain ⟨e1, e2, e3, e4, e5, e6, e7, n, e8, e9, e10, e11, e12⟩ :=
          emitMatch_spec buf b bm fl q mi ml (by omega) hl.1 hl.2.1 (by omega) he
        have hq2 : ((q : Int) + ml + (ROLZ_MIN_MATCH : Nat)).toNat = q + ml.toNat + 3 := by
          simp only [ROLZ_MIN_MATCH]
          omega
        rw [hq2] at h
        have hle : q + ml.toNat + 3 ≤ N := by
          have := hl.2.2.2
          omega
        obtain ⟨a1, a2, a3, a4, a5, a6, a7⟩ := ih _ _ _ _ _ _ _ _ h (le_refl _) hle (by omega)
          (by omega) (by omega) (by rw [e1.1]; exact h6)
        exact ⟨Extends_trans1 e1 a1, a2, a3, a4, a5, a6, fun _ => a7 (by omega)⟩
    · simp only [Option.some.injEq, Prod.mk.injEq] at h
      obtain ⟨rfl, rfl, rfl, rfl⟩ := h
      exact ⟨Extends_refl1 _, h1, h2, h3, h4, h5, fun _ => by omega⟩

theorem emitLiterals_step (buf : Slice) (X lits : List Nat) (fl : Nat) (tb tv : rolzCodec1)
    (h2 : 2 ≤ fl) (hl : fl + lits.length ≤ X.length) (hXl : X.length = buf.len)
    (hX : Filled buf.mem X fl) (hlits : ∀ i, i < lits.length → rd lits i = rd buf.mem (fl + i))
    (hreg : rolzCodec1.registerRange buf lits.length fl tb = some tv) :
    tb.emitLiterals lits X fl = some (tv, goCopy X fl lits) ∧
      (goCopy X fl lits).length = X.length ∧
      Filled buf.mem (goCopy X fl lits) (fl + lits.length) := by
  have hlen := goCopy_length X fl lits hl
  have hfill : Filled buf.mem (goCopy X fl lits) (fl + lits.length) := by
    intro j hj
    by_cases hjf : j < fl
    · rw [ goCopy_prefix _ _ _ j hjf (by omega)]
      exact hX j hjf
    · have e : j = fl + (j - fl) := by omega
      rw [e, goCopy_mid _ _ _ (j - fl) hl (by omega)]
      exact hlits (j - fl) (by omega)
  refine ⟨?_, hlen, hfill⟩
  have hc : chk (2 ≤ fl ∧ fl ≤ X.length) = some () := by
    unfold chk
    rw [if_pos ⟨h2, by omega⟩]
  have hd : (Slice.ofList (goCopy X fl lits)).drop (fl - 2) =
      some ⟨(goCopy X fl lits).drop (fl - 2), (goCopy X fl lits).length - (fl - 2)⟩ := by
    unfold Slice.drop Slice.ofList
    rw [if_pos (by simp only; omega)]
  have hloop := emitLiteralsLoop_eq (Slice.ofList (goCopy X fl lits)) _ fl h2 hd lits.length 0 tb
  have hcongr := registerRange_congr (Slice.ofList (goCopy X fl lits)) buf lits.length fl tb (by
    intro p hp1 hp2
    refine keyAt_congr _ _ p ?_ ?_
    · show (goCopy X fl lits).length = buf.len
      rw [hlen, hXl]
    · intro j hj
      exact hfill j (by omega))
  rw [Nat.add_zero, hcongr, hreg] at hloop
  unfold rolzCodec1.emitLiterals
  simp only [hc, hd, hloop, bind_eq_bind, Option.some_bind, pure_eq_some]

theorem and_255 (v : Nat) : v &&& 0xFF = v % 256 := Nat.and_pow_two_sub_one_eq_mod v 8

theorem decodeMatch_core (buf : Slice) (te tv tv2 : rolzCodec1) (X DL DN DM : List Nat)
    (li ni mx q : Nat) (mi : Int) (M key lo width : Nat) (c : Int) (curBuf : Slice)
    (hM : tv.Mirrors te) (hkey : keyAt buf q = some key) (hring : tv.ring key = some (lo, width))
    (hget : tv.counters.get key = some c) (hcur : buf.drop q = some curBuf)
    (hreg : tv.register key lo width q = some tv2)
    (hmatch : te.MatchAt buf curBuf lo width c (M + 3) mi) (hlen : q + M + 3 ≤ buf.len)
    (hp1 : te.posChecks ≤ 256) (hc0 : 0 ≤ c) (hc1 : c < 1073741824) (hTB : te.TableBelow q)
    (hq : q < 2 ^ 26) (hXl : X.length = buf.len) (hcap : buf.len ≤ buf.mem.length)
    (hX : Filled buf.mem X q) (hDM : rd DM mx = some (mi % 256).toNat) :
    ∃ X2, rolzCodec1.decodeMatch tv ⟨DL, DN, DM, li, ni, mx⟩ X q M =
        some (tv2, ⟨DL, DN, DM, li, ni, mx + 1⟩, X2, q + M + 3) ∧
      X2.length = X.length ∧ Filled buf.mem X2 (q + M + 3) := by
  obtain ⟨⟨m1, m2, m3, m4, m5⟩, mc, mm⟩ := hM
  obtain ⟨i2, ref, refBuf, g1, g2, g3, g4, g5, g6, g7, g8⟩ := hmatch
  have hmi0 : 0 ≤ mi := by omega
  have hmi1 : mi < 256 := by omega
  have hv : (((mi % 256).toNat &&& 0xFF : Nat) : Int) = mi := by
    rw [and_255]
    omega
  have hi2 : i32 (c - mi) = i2 := by
    rw [i32_of_range _ (by omega) (by omega)]
    omega
  have hkX : keyAt (Slice.ofList X) q = some key := by
    rw [keyAt_congr (Slice.ofList X) buf q hXl (fun j hj => hX j hj)]
    exact hkey
  unfold keyAt at hkX
  obtain ⟨_, k1, hkX⟩ := bind_eq_some_iff.1 hkX
  obtain ⟨keyBuf, k2, k3⟩ := bind_eq_some_iff.1 hkX
  obtain ⟨r1, r2⟩ := Arr_get_eq_some.1 g5
  have href : tv.matches_.get (lo + (and32 i2 te.maskChecks).toNat) =
      some (ref &&& ROLZ_POS_MASK) :=
    Arr_get_eq_some.2 ⟨by rw [m5]; exact r1, by rw [mm, r2]⟩
  have hpq : ref &&& ROLZ_POS_MASK < q := by
    have := hTB (lo + (and32 i2 te.maskChecks).toNat)
    rw [r2] at this
    exact this
  have hpat : intOfPattern (ref &&& ROLZ_POS_MASK) = ((ref &&& ROLZ_POS_MASK : Nat) : Int) := by
    unfold intOfPattern
    rw [if_pos (by omega)]
  have hS : ∀ i, i < M + 3 → rd buf.mem ((ref &&& ROLZ_POS_MASK) + i) = rd buf.mem (q + i) := by
    intro i hi
    obtain ⟨v, v1, v2⟩ := g8 i hi
    rw [Slice_drop_get buf _ i refBuf g7] at v1
    rw [Slice_drop_get buf _ i curBuf hcur] at v2
    split at v1
    · split at v2
      · unfold rd
        rw [v1, v2]
      · cases v2
    · cases v1
  obtain ⟨X2, c1, c2, c3⟩ := emitCopy_spec buf.mem X q (ref &&& ROLZ_POS_MASK) M hpq (by omega)
    (by omega) hX hS
  refine ⟨X2, ?_, c2, c3⟩
  unfold rolzCodec1.decodeMatch
  have hchk : chk (0 ≤ and32 i2 te.maskChecks ∧ (and32 i2 te.maskChecks).toNat < width) =
      some () := by
    unfold chk
    rw [if_pos g4]
  refine bind_eq_some_iff.2 ⟨_, hDM, ?_⟩
  refine bind_eq_some_iff.2 ⟨_, k1, ?_⟩
  refine bind_eq_some_iff.2 ⟨_, k2, ?_⟩
  refine bind_eq_some_iff.2 ⟨_, k3, ?_⟩
  refine bind_eq_some_iff.2 ⟨_, hring, ?_⟩
  refine bind_eq_some_iff.2 ⟨_, hget, ?_⟩
  dsimp only
  rw [hv, hi2, m2]
  refine bind_eq_some_iff.2 ⟨_, hchk, ?_⟩
  refine bind_eq_some_iff.2 ⟨_, href, ?_⟩
  rw [hpat]
  refine bind_eq_some_iff.2 ⟨_, c1, ?_⟩
  refine bind_eq_some_iff.2 ⟨_, hreg, ?_⟩
  rfl

theorem decodeLoop_token (dstEnd : Int) (N fuel : Nat) (tb tv : rolzCodec1)
    (DL DN DM X X1 : List Nat) (li ni mx fl L M n : Nat) (hfl : fl < N) (hni : ni ≤ DN.length)
    (hread : readLengths (DN.drop ni) = some (L, M, n)) (hli : li + L ≤ DL.length)
    (hlit : tb.emitLiterals ((DL.drop li).take L) X fl = some (tv, X1)) :
    rolzCodec1.decodeLoop dstEnd N N (fuel + 1) tb ⟨DL, DN, DM, li, ni, mx⟩ X fl =
      if fl + L ≥ N then
        if fl + L = N then some (.next (tv, ⟨DL, DN, DM, li + L, ni + n, mx⟩, X1, fl + L))
        else some (.stop (tv, ⟨DL, DN, DM, li + L, ni + n, mx⟩, X1, fl + L) .invalidInput)
      else if ((fl + L + M + ROLZ_MIN_MATCH : Nat) : Int) > dstEnd then
        some (.stop (tv, ⟨DL, DN, DM, li + L, ni + n, mx⟩, X1, fl + L) .invalidInput)
      else
        (rolzCodec1.decodeMatch tv ⟨DL, DN, DM, li + L, ni + n, mx⟩ X1 (fl + L) M).bind
          (fun r => rolzCodec1.decodeLoop dstEnd N N fuel r.1 r.2.1 r.2.2.1 r.2.2.2) := by
  rw [rolzCodec1.decodeLoop]
  have hc1 : chk (ni ≤ DN.length) = some () := by
    unfold chk
    rw [if_pos hni]
  have hc2 : chk (li ≤ li + L ∧ li + L ≤ DL.length) = some () := by
    unfold chk
    rw [if_pos ⟨by omega, hli⟩]
  simp only [if_pos hfl, hc1, hread, hc2, hlit, bind_eq_bind, Option.some_bind]
/-! ## The round trip of backend 1: the parse and the decoder in lock step -/

theorem registerAt_some (tv tv2 : rolzCodec1) (buf : Slice) (q key lo width : Nat)
    (hkey : keyAt buf q = some key) (hring : tv.ring key = some (lo, width))
    (hreg : tv.register key lo width q = some tv2) : tv.registerAt buf q = some tv2 := by
  unfold rolzCodec1.registerAt
  refine bind_eq_some_iff.2 ⟨_, hkey, ?_⟩
  refine bind_eq_some_iff.2 ⟨_, hring, ?_⟩
  exact hreg

theorem rd_drop (l : List Nat) (a j : Nat) : rd (l.drop a) j = rd l (a + j) := by
  unfold rd
  rw [List.getElem?_drop]

theorem rd_take (l : List Nat) (n j : Nat) (h : j < n) : rd (l.take n) j = rd l j := by
  unfold rd
  rw [List.getElem?_take_of_lt h]

theorem decode_last (buf : Slice) (N : Nat) (DL DN DM : List Nat) (G : Fwd1Bufs)
    (hbuf : buf.len = N) (hDL : Filled G.litBuf DL G.litIdx) (hDN : Filled G.lenBuf DN G.lenIdx)
    (hDLl : DL.length = G.litBuf.length) (hDNl : DN.length = G.lenBuf.length)
    (be b1 : Fwd1Bufs) (lb : List Nat) (fl : Nat) (hN : N ≤ 2 ^ 26)
    (h1 : emitLengthsAt be (N - fl) 0 = some b1)
    (h2 : copyLastLiterals buf fl b1.litIdx (N - fl) (N - fl) 0 b1.litBuf = some lb)
    (hG : G = { b1 with litBuf := lb, litIdx := b1.litIdx + (N - fl) }) (hfl : fl ≤ N)
    (hfl2 : fl < N → 2 ≤ fl) (hli : be.litIdx ≤ fl) (hlen : N ≤ be.litBuf.length)
    (tb tv : rolzCodec1) (X : List Nat) (fd : Nat) (hXl : X.length = N)
    (hX : Filled buf.mem X fl) (hreg : rolzCodec1.registerRange buf (N - fl) fl tb = some tv)
    (hfd : N - fl ≤ fd) :
    ∃ t2 b2 X2, rolzCodec1.decodeLoop (N : Int) N N fd tb
        ⟨DL, DN, DM, be.litIdx, be.lenIdx, be.mIdx⟩ X fl = some (.next (t2, b2, X2, N)) ∧
      X2.length = N ∧ Filled buf.mem X2 N := by
  by_cases hlt : fl < N
  · obtain ⟨fd2, rfl⟩ : ∃ k, fd = k + 1 := ⟨fd - 1, by omega⟩
    obtain ⟨ext, s3, s4, hlits, hle, n, e8, e9, e10, e11, hread⟩ :=
      lastLiterals_spec buf be b1 fl N lb (by omega) h1 h2
    subst hG
    obtain ⟨x1, x2, x3, x4, x5, x6, x7, x8, x9⟩ := ext
    have hread2 : readLengths (DN.drop be.lenIdx) = some (N - fl, 0, n) := by
      refine hread _ ?_
      intro j hj
      rw [rd_drop]
      exact hDN (be.lenIdx + j) (by show be.lenIdx + j < b1.lenIdx; omega)
    have hll : ((DL.drop be.litIdx).take (N - fl)).length = N - fl := by
      rw [List.length_take, List.length_drop, hDLl]
      have : lb.length = be.litBuf.length := x1
      show min (N - fl) (lb.length - be.litIdx) = N - fl
      omega
    have hlits2 : ∀ i, i < ((DL.drop be.litIdx).take (N - fl)).length →
        rd ((DL.drop be.litIdx).take (N - fl)) i = rd buf.mem (fl + i) := by
      intro i hi
      rw [hll] at hi
      rw [rd_take _ _ _ hi, rd_drop, ← hlits i hi]
      exact hDL (be.litIdx + i) (by show be.litIdx + i < b1.litIdx + (N - fl); omega)
    obtain ⟨y1, y2, y3⟩ := emitLiterals_step buf X _ fl tb tv (hfl2 hlt)
      (by rw [hll]; omega) (by rw [hXl, hbuf]) hX hlits2 (by rw [hll]; exact hreg)
    have htok := decodeLoop_token (N : Int) N fd2 tb tv DL DN DM X _ be.litIdx be.lenIdx be.mIdx
      fl (N - fl) 0 n hlt (by rw [hDNl, x2]; exact hle) hread2
      (by
        rw [hDLl]
        have : lb.length = be.litBuf.length := x1
        show be.litIdx + (N - fl) ≤ lb.length
        omega) y1
    have hfn : fl + (N - fl) = N := by omega
    rw [if_pos (by omega), if_pos hfn, hfn] at htok
    rw [hll, hfn] at y3
    exact ⟨_, _, _, htok, by rw [y2, hXl], y3⟩
  · have hfn : fl = N := by omega
    subst hfn
    refine ⟨tb, ⟨DL, DN, DM, be.litIdx, be.lenIdx, be.mIdx⟩, X, ?_, hXl, hX⟩
    cases fd with
    | zero => rfl
    | succ k =>
      rw [rolzCodec1.decodeLoop, if_neg (by omega)]

theorem agree_match (buf : Slice) (N : Nat) (DL DN DM : List Nat) (G be bm : Fwd1Bufs)
    (fl q : Nat) (mi ml : Int) (hDL : Filled G.litBuf DL G.litIdx)
    (hDN : Filled G.lenBuf DN G.lenIdx) (hDM : Filled G.mIdxBuf DM G.mIdx)
    (hDLl : DL.length = G.litBuf.length) (hDNl : DN.length = G.lenBuf.length)
    (hq : q ≤ N) (hN : N ≤ 2 ^ 26) (hflq : fl ≤ q) (ml0 : 0 ≤ ml) (ml255 : ml ≤ 255)
    (hli : be.litIdx ≤ fl) (hlen : N ≤ be.litBuf.length)
    (he : rolzCodec1.emitMatch buf be fl q mi ml = some bm) (hbG : bm.Extends G) :
    bm.litIdx = be.litIdx + (q - fl) ∧ bm.mIdx = be.mIdx + 1 ∧ be.lenIdx ≤ DN.length ∧
      be.litIdx + (q - fl) ≤ DL.length ∧ rd DM be.mIdx = some (mi % 256).toNat ∧
      bm.litBuf.length = be.litBuf.length ∧
      (∀ i, i < q - fl → rd DL (be.litIdx + i) = rd buf.mem (fl + i)) ∧
      ∃ n, bm.lenIdx = be.lenIdx + n ∧ n ≤ (q - fl) + ml.toNat + 3 ∧
        readLengths (DN.drop be.lenIdx) = some (q - fl, ml.toNat, n) := by
  obtain ⟨e1, e2, e3, e4, e5, e6, e7, n, e8, e9, e10, e11, hread⟩ :=
    emitMatch_spec buf be bm fl q mi ml (by omega) ml0 ml255 (by omega) he
  obtain ⟨x1, x2, x3, x4, x5, x6, x7, x8, x9⟩ := hbG
  have k1 := e1.1
  have k2 := e1.2.1
  refine ⟨e2, e3, ?_, ?_, ?_, k1, ?_, n, e8, e10, ?_⟩
  · rw [hDNl, x2, k2]
    exact e7
  · rw [hDLl, x1, k1]
    omega
  · rw [hDM be.mIdx (by omega), x9 be.mIdx (by omega)]
    exact e4
  · intro i hi
    rw [← e6 i hi, hDL (be.litIdx + i) (by omega)]
    exact x7 (be.litIdx + i) (by omega)
  · refine hread _ ?_
    intro j hj
    rw [rd_drop, hDN (be.lenIdx + j) (by omega)]
    exact x8 (be.lenIdx + j) (by omega)

theorem token_match (buf : Slice) (N : Nat) (DL DN DM X : List Nat) (te tv tv2 tb : rolzCodec1)
    (li ni mx fl q M n : Nat) (mi : Int) (key lo width : Nat) (c : Int) (curBuf : Slice)
    (hbuf : buf.len = N) (hcap : N ≤ buf.mem.length) (hN : N ≤ 2 ^ 26)
    (hread : readLengths (DN.drop ni) = some (q - fl, M, n)) (hni : ni ≤ DN.length)
    (hliL : li + (q - fl) ≤ DL.length)
    (hlits : ∀ i, i < q - fl → rd DL (li + i) = rd buf.mem (fl + i))
    (hDM2 : rd DM mx = some (mi % 256).toNat) (hflq : fl ≤ q) (hfl2 : 2 ≤ fl)
    (hqM : q + M + 3 ≤ N) (hXl : X.length = N) (hX : Filled buf.mem X fl)
    (hreg : rolzCodec1.registerRange buf (q - fl) fl tb = some tv) (hM : tv.Mirrors te)
    (hkey : keyAt buf q = some key) (hring : tv.ring key = some (lo, width))
    (hget : tv.counters.get key = some c) (hcur : buf.drop q = some curBuf)
    (hreg2 : tv.register key lo width q = some tv2)
    (hmatch : te.MatchAt buf curBuf lo width c (M + 3) mi) (hp1 : te.posChecks ≤ 256)
    (hc0 : 0 ≤ c) (hc1 : c < 1073741824) (hTB : te.TableBelow q) :
    ∃ X2, X2.length = N ∧ Filled buf.mem X2 (q + M + 3) ∧
      ∀ fd, rolzCodec1.decodeLoop (N : Int) N N (fd + 1) tb ⟨DL, DN, DM, li, ni, mx⟩ X fl =
        rolzCodec1.decodeLoop (N : Int) N N fd tv2
          ⟨DL, DN, DM, li + (q - fl), ni + n, mx + 1⟩ X2 (q + M + 3) := by
  have hll : ((DL.drop li).take (q - fl)).length = q - fl := by
    rw [List.length_take, List.length_drop]
    omega
  have hlits2 : ∀ i, i < ((DL.drop li).take (q - fl)).length →
      rd ((DL.drop li).take (q - fl)) i = rd buf.mem (fl + i) := by
    intro i hi
    rw [hll] at hi
    rw [rd_take _ _ _ hi, rd_drop]
    exact hlits i hi
  have hfq : fl + (q - fl) = q := by omega
  obtain ⟨y1, y2, y3⟩ := emitLiterals_step buf X _ fl tb tv hfl2
    (by rw [hll]; omega) (by rw [hXl, hbuf]) hX hlits2 (by rw [hll]; exact hreg)
  rw [hll, hfq] at y3
  obtain ⟨X2, z1, z2, z3⟩ := decodeMatch_core buf te tv tv2 _ DL DN DM
    (li + (q - fl)) (ni + n) mx q mi M key lo width c curBuf hM
    hkey hring hget hcur hreg2 hmatch (by omega) hp1 hc0 hc1 hTB (by omega)
    (by rw [y2, hXl, hbuf]) (by omega) y3 hDM2
  refine ⟨X2, by rw [z2, y2, hXl], z3, ?_⟩
  intro fd
  have htok := decodeLoop_token (N : Int) N fd tb tv DL DN DM X _ li ni mx fl (q - fl) M n
    (by omega) hni hread hliL y1
  rw [if_neg (by omega), hfq, if_neg (by simp only [ROLZ_MIN_MATCH]; omega)] at htok
  rw [htok, z1]
  rfl

theorem findMatch_next (te t1 : rolzCodec1) (buf : Slice) (q : Nat) (mi ml : Int) (key : Nat)
    (hq : q < 2 ^ 26) (hp0 : 0 < te.posChecks) (hp1 : te.posChecks ≤ 256)
    (hcnt : ∀ k, 0 ≤ te.counters.cell k ∧ te.counters.cell k ≤ q) (hTB : te.TableBelow q)
    (hf : te.findMatch buf q = some (t1, mi, ml))
    (hcf : ∀ k, t1.counters.cell k =
      if k = key then te.counters.cell key + 1 else te.counters.cell k) :
    0 < t1.posChecks ∧ t1.posChecks ≤ 256 ∧
      (∀ n, q < n → (∀ k, 0 ≤ t1.counters.cell k ∧ t1.counters.cell k ≤ n) ∧ t1.TableBelow n) := by
  obtain ⟨hsame, hkeep⟩ := findMatch_keeps te t1 buf q mi ml hf
  refine ⟨by rw [hsame.2.2.1]; exact hp0, by rw [hsame.2.2.1]; exact hp1, ?_⟩
  intro n hn
  constructor
  · intro k
    rw [hcf k]
    have a := hcnt k
    have b := hcnt key
    split <;> omega
  · exact hkeep n hn hq (fun i => by have := hTB i; omega)

theorem match_encoder (buf : Slice) (N : Nat) (hbuf : buf.len = N) (hN : N ≤ 2 ^ 26)
    (fuel : Nat) (t1 tf : rolzCodec1) (be bm bf b1 G : Fwd1Bufs) (fl q qf flf : Nat)
    (mi ml : Int) (lb : List Nat) (he : rolzCodec1.emitMatch buf be fl q mi ml = some bm)
    (h : rolzCodec1.parseLoop buf N fuel t1 bm (q + ml.toNat + 3) (q + ml.toNat + 3) =
      some (tf, bf, qf, flf))
    (h1 : emitLengthsAt bf (qf - flf) 0 = some b1)
    (h2 : copyLastLiterals buf flf b1.litIdx (qf - flf) (qf - flf) 0 b1.litBuf = some lb)
    (hG : G = { b1 with litBuf := lb, litIdx := b1.litIdx + (qf - flf) }) (hflq : fl ≤ q)
    (hle : q + ml.toNat + 3 ≤ N) (ml0 : 0 ≤ ml) (ml255 : ml ≤ 255) (hli : be.litIdx ≤ fl)
    (hni : be.lenIdx + 1 ≤ fl) (hmx : be.mIdx ≤ fl) (hlen : N ≤ be.litBuf.length) :
    bm.Extends G ∧ bm.litIdx ≤ q + ml.toNat + 3 ∧ bm.lenIdx + 1 ≤ q + ml.toNat + 3 ∧
      bm.mIdx ≤ q + ml.toNat + 3 ∧ N ≤ bm.litBuf.length := by
  obtain ⟨e1, e2, e3, e4, e5, e6, e7, n, e8, e9, e10, e11, hread⟩ :=
    emitMatch_spec buf be bm fl q mi ml (by omega) ml0 ml255 (by omega) he
  have k1 := e1.1
  have i1 : bm.litIdx ≤ q + ml.toNat + 3 := by omega
  have i2 : bm.lenIdx + 1 ≤ q + ml.toNat + 3 := by omega
  have i3 : bm.mIdx ≤ q + ml.toNat + 3 := by omega
  have i4 : N ≤ bm.litBuf.length := by omega
  obtain ⟨a1, a2, a3, -⟩ := parseLoop_bounds buf N hbuf hN _ _ _ _ _ _ _ _ _ h (le_refl _) hle
    i1 i2 i3 i4
  have hqf : qf < 2 ^ 28 := by omega
  obtain ⟨ext, -⟩ := lastLiterals_spec buf bf b1 flf qf lb hqf h1 h2
  rw [← hG] at ext
  exact ⟨Extends_trans1 a1 ext, i1, i2, i3, i4⟩

theorem lockstep (buf : Slice) (N : Nat) (DL DN DM : List Nat) (G : Fwd1Bufs)
    (hbuf : buf.len = N) (hcap : N ≤ buf.mem.length) (hN : N ≤ 2 ^ 26)
    (hDL : Filled G.litBuf DL G.litIdx) (hDN : Filled G.lenBuf DN G.lenIdx)
    (hDM : Filled G.mIdxBuf DM G.mIdx) (hDLl : DL.length = G.litBuf.length)
    (hDNl : DN.length = G.lenBuf.length) :
    ∀ (fuel : Nat) (te : rolzCodec1) (be : Fwd1Bufs) (q fl : Nat) (tf : rolzCodec1)
      (bf : Fwd1Bufs) (qf flf : Nat) (b1 : Fwd1Bufs) (lb : List Nat),
      rolzCodec1.parseLoop buf N fuel te be q fl = some (tf, bf, qf, flf) →
      emitLengthsAt bf (qf - flf) 0 = some b1 →
      copyLastLiterals buf flf b1.litIdx (qf - flf) (qf - flf) 0 b1.litBuf = some lb →
      G = { b1 with litBuf := lb, litIdx := b1.litIdx + (qf - flf) } →
      N - q ≤ fuel → fl ≤ q → q ≤ N → (fl < N → 2 ≤ fl) → 1 ≤ q → be.litIdx ≤ fl →
      be.lenIdx + 1 ≤ fl → be.mIdx ≤ fl → N ≤ be.litBuf.length → 0 < te.posChecks →
      te.posChecks ≤ 256 → (∀ k, 0 ≤ te.counters.cell k ∧ te.counters.cell k ≤ q) →
      te.TableBelow q →
      ∀ (tb tv : rolzCodec1) (X : List Nat) (fd : Nat), X.length = N → Filled buf.mem X fl →
        rolzCodec1.registerRange buf (q - fl) fl tb = some tv → tv.Mirrors te → N - fl ≤ fd →
        ∃ t2 b2 X2, rolzCodec1.decodeLoop (N : Int) N N fd tb
            ⟨DL, DN, DM, be.litIdx, be.lenIdx, be.mIdx⟩ X fl = some (.next (t2, b2, X2, N)) ∧
          X2.length = N ∧ Filled buf.mem X2 N := by
  intro fuel
  induction fuel with
  | zero =>
    intro te be q fl tf bf qf flf b1 lb h h1 h2 hG hfu hflq hqN hfl2 hq1 hli hni hmx hlen hp0 hp1
      hcnt hTB tb tv X fd hXl hX hreg hM hfd
    simp only [rolzCodec1.parseLoop, Option.some.injEq, Prod.mk.injEq] at h
    obtain ⟨rfl, rfl, rfl, rfl⟩ := h
    have hq : q = N := by omega
    subst hq
    exact decode_last buf q DL DN DM G hbuf hDL hDN hDLl hDNl be b1 lb fl hN h1 h2 hG hflq hfl2
      hli hlen tb tv X fd hXl hX hreg hfd
  | succ fuel ih =>
    intro te be q fl tf bf qf flf b1 lb h h1 h2 hG hfu hflq hqN hfl2 hq1 hli hni hmx hlen hp0 hp1
      hcnt hTB tb tv X fd hXl hX hreg hM hfd
    rw [rolzCodec1.parseLoop] at h
    split at h
    · rename_i hlt
      obtain ⟨⟨t1, mi, ml⟩, hf, h⟩ := bind_eq_some_iff.1 h
      simp only at h
      have hq26 : q < 2 ^ 26 := by omega
      obtain ⟨key, lo, width, c, curBuf, tv2, hkey, hring, hget, hcur, hreg2, hM2, hcf, hmatch⟩ :=
        findMatch_mirror te t1 tv buf q mi ml hM hp0 hp1
          (fun k => ⟨(hcnt k).1, by have := (hcnt k).2; omega⟩) hq26 hf
      obtain ⟨hp0n, hp1n, hnext⟩ := findMatch_next te t1 buf q mi ml key hq26 hp0 hp1 hcnt hTB hf
        hcf
      split at h
      · -- a literal: the decoder has not moved
        have hsn : q - fl + 1 = q + 1 - fl := by omega
        have hfq : fl + (q - fl) = q := by omega
        have hq1n : q < q + 1 := by omega
        refine ih t1 be (q + 1) fl tf bf qf flf b1 lb h h1 h2 hG (by omega) (by omega) (by omega)
          hfl2 (by omega) hli hni hmx hlen hp0n hp1n (hnext (q + 1) hq1n).1 (hnext (q + 1) hq1n).2
          tb tv2 X fd hXl hX ?_ hM2 hfd
        rw [← hsn, registerRange_snoc, hreg]
        show tv.registerAt buf (fl + (q - fl)) = some tv2
        rw [hfq]
        exact registerAt_some tv tv2 buf q key lo width hkey hring hreg2
      · rename_i hmi
        obtain ⟨bm, he, h⟩ := bind_eq_some_iff.1 h
        rcases hmatch with hmatch | ⟨ml0, ml255, hlen3, hMatchAt⟩
        · exact absurd hmatch hmi
        · have hq2 : ((q : Int) + ml + (ROLZ_MIN_MATCH : Nat)).toNat = q + ml.toNat + 3 := by
            simp only [ROLZ_MIN_MATCH]
            omega
          rw [hq2] at h
          have hle : q + ml.toNat + 3 ≤ N := by omega
          have hgetc : c = te.counters.cell key := by
            obtain ⟨_, g2⟩ := Arr_get_eq_some.1 hget
            rw [← g2]
            exact hM.2.1 key
          have hc0 : 0 ≤ c := by rw [hgetc]; exact (hcnt key).1
          have hc1 : c < 1073741824 := by rw [hgetc]; have := (hcnt key).2; omega
          have hfl22 : 2 ≤ fl := hfl2 (by omega)
          obtain ⟨hbG, i1, i2, i3, i4⟩ := match_encoder buf N hbuf hN fuel t1 tf be bm bf b1 G fl q
            qf flf mi ml lb he h h1 h2 hG hflq hle ml0 ml255 hli hni hmx hlen
          obtain ⟨f1, f2, f3, f4, f5, f6, f7, n, f8, f9, f10⟩ := agree_match buf N DL DN DM G be bm
            fl q mi ml hDL hDN hDM hDLl hDNl hqN hN hflq ml0 ml255 hli hlen he hbG
          obtain ⟨X2, z1, z2, z3⟩ := token_match buf N DL DN DM X te tv tv2 tb be.litIdx be.lenIdx
            be.mIdx fl q ml.toNat n mi key lo width c curBuf hbuf hcap hN f10 f3 f4 f7 f5 hflq
            hfl22 hle hXl hX hreg hM hkey hring hget hcur hreg2 hMatchAt hp1 hc0 hc1 hTB
          obtain ⟨fd2, rfl⟩ : ∃ k, fd = k + 1 := ⟨fd - 1, by omega⟩
          have hqn : q < q + ml.toNat + 3 := by omega
          have hfu2 : N - (q + ml.toNat + 3) ≤ fuel := by omega
          have hfd2 : N - (q + ml.toNat + 3) ≤ fd2 := by omega
          have h1q : 1 ≤ q + ml.toNat + 3 := by omega
          have hreg0 : rolzCodec1.registerRange buf (q + ml.toNat + 3 - (q + ml.toNat + 3))
              (q + ml.toNat + 3) tv2 = some tv2 := by
            rw [Nat.sub_self]
            rfl
          have hih := ih t1 bm (q + ml.toNat + 3) (q + ml.toNat + 3) tf bf qf flf b1 lb h h1 h2 hG
            hfu2 (le_refl _) hle (fun _ => by omega) h1q i1 i2 i3 i4 hp0n hp1n
            (hnext _ hqn).1 (hnext _ hqn).2 tv2 tv2 X2 fd2 z1 z2 hreg0 hM2 hfd2
          rw [f1, f8, f2] at hih
          rw [z3 fd2]
          exact hih
    · have hq : q = N := by omega
      simp only [Option.some.injEq, Prod.mk.injEq] at h
      obtain ⟨rfl, rfl, rfl, rfl⟩ := h
      subst hq
      exact decode_last buf q DL DN DM G hbuf hDL hDN hDLl hDNl be b1 lb fl hN h1 h2 hG hflq hfl2
        hli hlen tb tv X fd hXl hX hreg hfd
/-! ## The round trip of backend 1: one chunk of `Forward` and of `Inverse` -/

theorem chunkLoop1_done (E : EntropyStage) (src : List Nat) (srcEnd : Int) (fuel : Nat)
    (s : Fwd1State) (h : ¬ ((s.startChunk : Int) < srcEnd)) :
    rolzCodec1.chunkLoop E src srcEnd fuel s = some (.next s) := by
  cases fuel with
  | zero => rfl
  | succ k => rw [rolzCodec1.chunkLoop, if_neg h]

theorem Forward1_single (E : EntropyStage) (this : rolzCodec1) (src dst : List Nat)
    (r : CallResult rolzCodec1) (h5 : 5 ≤ src.length) (h26 : src.length ≤ 2 ^ 26)
    (h : rolzCodec1.Forward E this src dst = some r) (herr : r.err = none) :
    ∃ (dst1 : List Nat) (s : Fwd1State) (t : rolzCodec1) (b : Fwd1Bufs) (os dst2 : List Nat),
      putUint32BE dst 0 (src.length % 2 ^ 32) = some dst1 ∧ s.startChunk = 0 ∧
      s.litBuf = List.replicate (rolzCodec1.MaxEncodedLen src.length) 0 ∧
      s.lenBuf = List.replicate (src.length / 2) 0 ∧
      s.mIdxBuf = List.replicate (src.length / 2) 0 ∧
      rolzCodec1.parseChunk src ((src.length : Int) - 4) s
        { this with counters := this.counters.fill 0, matches_ := this.matches_.fill 0 }
        (src.length - 4) (src.length - 4) = some (t, b, src.length - 4) ∧
      E.encodeChunk b = some os ∧ 4 + os.length ≤ dst1.length ∧
      copyTail (goCopy dst1 4 os) src ((4 + os.length : Nat) : Int)
        ((src.length - 4 : Nat) : Int) = some dst2 ∧
      r.dst = dst2 ∧ r.dstIdx = 4 + os.length + 4 ∧ r.srcIdx = src.length := by
  unfold rolzCodec1.Forward at h
  split at h
  · cases h
    cases herr
  · obtain ⟨dst1, hd, h1⟩ := bind_eq_some_iff.1 h
    clear h
    have hsz : (if src.length > ROLZ_CHUNK_SIZE then ROLZ_CHUNK_SIZE else src.length) =
        src.length := by
      unfold ROLZ_CHUNK_SIZE
      rw [if_neg (by norm_num; omega)]
    simp only [hsz] at h1
    obtain ⟨st, hst, h2⟩ := bind_eq_some_iff.1 h1
    clear h1
    rw [rolzCodec1.chunkLoop] at hst
    have hover : (((0 + src.length : Nat) : Int) ≥ (src.length : Int) - 4) := by omega
    have hc0 : (((0 : Nat) : Int) < (src.length : Int) - 4) := by omega
    simp only [hc0, if_true, hover, decide_True] at hst
    have hN : ((src.length : Int) - 4).toNat = src.length - 4 := by omega
    simp only [hN, Nat.sub_zero] at hst
    obtain ⟨⟨t, b, k⟩, hpc, hst⟩ := bind_eq_some_iff.1 hst
    simp only at hst
    cases henc : E.encodeChunk b with
    | none =>
      rw [henc] at hst
      cases hst
      cases h2
      cases herr
    | some os =>
      rw [henc] at hst
      simp only at hst
      split at hst
      · cases hst
        cases h2
        cases herr
      · rename_i hfit
        rw [chunkLoop1_done E src _ _ _ (by simp only; omega)] at hst
        cases hst
        simp only at h2
        obtain ⟨dst2, hct, h3⟩ := bind_eq_some_iff.1 h2
        cases h3
        have hk : (k : Int) + (((src.length - 4 : Nat) : Int) - ((src.length - 4 : Nat) : Int)) + 4 =
            (src.length : Int) := by
          by_contra hne
          simp only [ne_eq, hne, not_false_eq_true, if_true] at herr
          cases herr
        have hk2 : k = src.length - 4 := by omega
        subst hk2
        have e1 : ((src.length - 4 : Nat) : Int) + (((src.length - 4 : Nat) : Int) -
            ((src.length - 4 : Nat) : Int)) = ((src.length - 4 : Nat) : Int) := by omega
        rw [e1] at hct
        refine ⟨dst1, _, t, b, os, dst2, hd, rfl, rfl, rfl, rfl, hpc, henc, by omega, hct, rfl,
          rfl, ?_⟩
        show u64 _ = src.length
        rw [e1]
        unfold u64
        omega

theorem emitMatch_mIdx (buf : Slice) (b b2 : Fwd1Bufs) (fl q : Nat) (mi ml : Int)
    (h : rolzCodec1.emitMatch buf b fl q mi ml = some b2) : b2.mIdx ≤ b2.mIdxBuf.length := by
  unfold rolzCodec1.emitMatch at h
  obtain ⟨b1, h1, h⟩ := bind_eq_some_iff.1 h
  simp only at h
  split at h
  · obtain ⟨_, hc, h⟩ := bind_eq_some_iff.1 h
    obtain ⟨lits, hs, h⟩ := bind_eq_some_iff.1 h
    simp only [pure_eq_some, bind_eq_bind, Option.some_bind] at h
    obtain ⟨m, hw, h⟩ := Option.bind_eq_some.1 h
    cases h
    have := (wr_eq_some.1 hw).1
    have := wr_length hw
    show b1.mIdx + 1 ≤ m.length
    omega
  · simp only [pure_eq_some, bind_eq_bind, Option.some_bind] at h
    obtain ⟨m, hw, h⟩ := Option.bind_eq_some.1 h
    cases h
    have := (wr_eq_some.1 hw).1
    have := wr_length hw
    show b1.mIdx + 1 ≤ m.length
    omega

theorem parseLoop_mIdx (buf : Slice) (N : Nat) :
    ∀ (fuel : Nat) (t : rolzCodec1) (b : Fwd1Bufs) (q fl : Nat) (t2 : rolzCodec1)
      (b2 : Fwd1Bufs) (q2 fl2 : Nat),
      rolzCodec1.parseLoop buf N fuel t b q fl = some (t2, b2, q2, fl2) →
      b.mIdx ≤ b.mIdxBuf.length → b2.mIdx ≤ b2.mIdxBuf.length := by
  intro fuel
  induction fuel with
  | zero =>
    intro t b q fl t2 b2 q2 fl2 h h1
    simp only [rolzCodec1.parseLoop, Option.some.injEq, Prod.mk.injEq] at h
    obtain ⟨rfl, rfl, rfl, rfl⟩ := h
    exact h1
  | succ fuel ih =>
    intro t b q fl t2 b2 q2 fl2 h h1
    rw [rolzCodec1.parseLoop] at h
    split at h
    · obtain ⟨⟨t1, mi, ml⟩, hf, h⟩ := bind_eq_some_iff.1 h
      simp only at h
      split at h
      · exact ih _ _ _ _ _ _ _ _ h h1
      · obtain ⟨bm, he, h⟩ := bind_eq_some_iff.1 h
        exact ih _ _ _ _ _ _ _ _ h (emitMatch_mIdx buf b bm fl q mi ml he)
    · simp only [Option.some.injEq, Prod.mk.injEq] at h
      obtain ⟨rfl, rfl, rfl, rfl⟩ := h
      exact h1

theorem parseChunk_single (src : List Nat) (s : Fwd1State) (t0 t : rolzCodec1) (G : Fwd1Bufs)
    (k : Nat) (hs0 : s.startChunk = 0) (h5 : 5 ≤ src.length)
    (h : rolzCodec1.parseChunk src ((src.length : Int) - 4) s t0 (src.length - 4)
      (src.length - 4) = some (t, G, k)) :
    ∃ (be : Fwd1Bufs) (tf : rolzCodec1) (bf : Fwd1Bufs) (flf : Nat) (b1 : Fwd1Bufs)
      (lb : List Nat),
      be.litIdx = (if 2 ≤ src.length - 4 then 2 else 1) ∧ be.lenIdx = 0 ∧ be.mIdx = 0 ∧
      be.litBuf.length = s.litBuf.length ∧ be.lenBuf = s.lenBuf ∧ be.mIdxBuf = s.mIdxBuf ∧
      (∀ i, i < be.litIdx → rd be.litBuf i = rd src i) ∧
      rolzCodec1.parseLoop ⟨src, src.length - 4⟩ (src.length - 4) (src.length - 4) t0 be
        be.litIdx be.litIdx = some (tf, bf, k, flf) ∧
      emitLengthsAt bf (k - flf) 0 = some b1 ∧
      copyLastLiterals ⟨src, src.length - 4⟩ flf b1.litIdx (k - flf) (k - flf) 0 b1.litBuf =
        some lb ∧
      G = { b1 with litBuf := lb, litIdx := b1.litIdx + (k - flf) } ∧ t = tf := by
  unfold rolzCodec1.parseChunk at h
  obtain ⟨buf, hb, h⟩ := bind_eq_some_iff.1 h
  rw [hs0] at hb h
  unfold Slice.sub Slice.ofList at hb
  split at hb
  · simp only [List.drop_zero, Nat.sub_zero, Option.some.injEq] at hb
    subst hb
    obtain ⟨v0, hv0, h⟩ := bind_eq_some_iff.1 h
    obtain ⟨l0, hw0, h⟩ := bind_eq_some_iff.1 h
    have g0 : rd src 0 = some v0 := by
      unfold Slice.get at hv0
      split at hv0
      · exact hv0
      · cases hv0
    simp only at h
    split at h
    · rename_i hc
      obtain ⟨v1, hv1, h⟩ := bind_eq_some_iff.1 h
      obtain ⟨l2, hw1, h⟩ := bind_eq_some_iff.1 h
      simp only [pure_eq_some, bind_eq_bind, Option.some_bind] at h
      obtain ⟨⟨tf, bf, qf, flf⟩, hpl, h⟩ := Option.bind_eq_some.1 h
      simp only at h
      obtain ⟨b1, hel, h⟩ := Option.bind_eq_some.1 h
      obtain ⟨lb, hcl, h⟩ := Option.bind_eq_some.1 h
      cases h
      have g1 : rd src 1 = some v1 := by
        unfold Slice.get at hv1
        split at hv1
        · exact hv1
        · cases hv1
      have c1 : 2 ≤ src.length - 4 := by omega
      refine ⟨⟨l2, s.lenBuf, s.mIdxBuf, 2, 0, 0⟩, t, bf, flf, b1, lb, ?_, rfl, rfl, ?_, rfl, rfl, ?_, ?_,
        hel, hcl, rfl, rfl⟩
      · show 2 = _
        rw [if_pos c1]
      · show l2.length = _
        rw [wr_length hw1, wr_length hw0]
      · intro i hi
        show rd l2 i = _
        have hi2 : i < 2 := hi
        rw [rd_wr hw1, rd_wr hw0]
        by_cases hi1 : i = 1
        · rw [if_pos hi1, hi1, g1]
        · have hi0 : i = 0 := by omega
          rw [if_neg hi1, if_pos hi0, hi0, g0]
      · exact hpl
    · rename_i hc
      simp only [pure_eq_some, bind_eq_bind, Option.some_bind] at h
      obtain ⟨⟨tf, bf, qf, flf⟩, hpl, h⟩ := Option.bind_eq_some.1 h
      simp only at h
      obtain ⟨b1, hel, h⟩ := Option.bind_eq_some.1 h
      obtain ⟨lb, hcl, h⟩ := Option.bind_eq_some.1 h
      cases h
      have c1 : ¬ 2 ≤ src.length - 4 := by omega
      refine ⟨⟨l0, s.lenBuf, s.mIdxBuf, 1, 0, 0⟩, t, bf, flf, b1, lb, ?_, rfl, rfl, ?_, rfl, rfl, ?_, ?_,
        hel, hcl, rfl, rfl⟩
      · show 1 = _
        rw [if_neg c1]
      · show l0.length = _
        rw [wr_length hw0]
      · intro i hi
        show rd l0 i = _
        have hi2 : i < 1 := hi
        have hi0 : i = 0 := by omega
        rw [rd_wr hw0, if_pos hi0, hi0, g0]
      · exact hpl
  · cases hb

theorem readStream_more (E : EntropyStage) (ibs ibs2 ibs3 : E.IBS) (order length sizeChunk : Nat)
    (buf block : List Nat) (len2 : Nat) (h1 : length ≤ sizeChunk) (h2 : length ≤ buf.length)
    (h3 : E.ansRead ibs order length = some (block, ibs2))
    (h4 : E.readBits32 ibs2 = some (len2, ibs3)) :
    E.readStream ibs order length sizeChunk buf true =
      some (.next (goCopy buf 0 (block.take length), ibs3, len2)) := by
  unfold EntropyStage.readStream
  have hc : chk (length ≤ buf.length) = some () := by
    unfold chk
    rw [if_pos h2]
  rw [if_pos h1]
  refine bind_eq_some_iff.2 ⟨_, hc, ?_⟩
  rw [h3]
  simp only [if_true]
  refine bind_eq_some_iff.2 ⟨_, h4, ?_⟩
  rfl

theorem readStream_last (E : EntropyStage) (ibs ibs2 : E.IBS) (order length sizeChunk : Nat)
    (buf block : List Nat) (h1 : length ≤ sizeChunk) (h2 : length ≤ buf.length)
    (h3 : E.ansRead ibs order length = some (block, ibs2)) :
    E.readStream ibs order length sizeChunk buf false =
      some (.next (goCopy buf 0 (block.take length), ibs2, length)) := by
  unfold EntropyStage.readStream
  have hc : chk (length ≤ buf.length) = some () := by
    unfold chk
    rw [if_pos h2]
  rw [if_pos h1]
  refine bind_eq_some_iff.2 ⟨_, hc, ?_⟩
  rw [h3]
  rfl

theorem decodeChunk_ok (E : EntropyStage) (hE : E.Faithful) (G : Fwd1Bufs)
    (os rest srcd : List Nat) (s : Inv1State) (N : Nat) (h1 : G.litIdx ≤ G.litBuf.length)
    (h2 : G.lenIdx ≤ G.lenBuf.length) (h3 : G.mIdx ≤ G.mIdxBuf.length) (hN : N ≤ 2 ^ 26)
    (hLN : G.litIdx ≤ N) (hNN : G.lenIdx ≤ N) (hMN : G.mIdx ≤ N)
    (hsl : G.litIdx ≤ s.litBuf.length) (hsn : G.lenIdx ≤ s.lenBuf.length)
    (hsm : G.mIdx ≤ s.mIdxBuf.length) (henc : E.encodeChunk G = some os)
    (hdrop : srcd.drop s.srcIdx = os ++ rest) :
    E.decodeChunk srcd s N =
      some (.next (⟨goCopy s.litBuf 0 ((G.litBuf.take G.litIdx).take G.litIdx),
        goCopy s.lenBuf 0 ((G.lenBuf.take G.lenIdx).take G.lenIdx),
        goCopy s.mIdxBuf 0 ((G.mIdxBuf.take G.mIdx).take G.mIdx), 0, 0, 0⟩, os.length,
        G.mIdx)) := by
  obtain ⟨i1, i2, i3, i4, i5, i6, f1, f2, f3, f4, f5, f6, f7⟩ := hE G os rest h1 h2 h3
    (by omega) (by omega) (by omega) henc
  have r1 := readStream_more E i1 i2 i3 1 G.litIdx N s.litBuf _ G.lenIdx hLN hsl f2 f3
  have r2 := readStream_more E i3 i4 i5 0 G.lenIdx N s.lenBuf _ G.mIdx hNN hsn f4 f5
  have r3 := readStream_last E i5 i6 0 G.mIdx N s.mIdxBuf _ hMN hsm f6
  unfold EntropyStage.decodeChunk
  rw [hdrop]
  refine bind_eq_some_iff.2 ⟨_, f1, ?_⟩
  dsimp only
  refine bind_eq_some_iff.2 ⟨_, r1, ?_⟩
  dsimp only
  refine bind_eq_some_iff.2 ⟨_, r2, ?_⟩
  dsimp only
  refine bind_eq_some_iff.2 ⟨_, r3, ?_⟩
  dsimp only
  rw [f7]
  rfl

theorem goCopy_front (dst src : List Nat) (n : Nat) (hn : n ≤ src.length)
    (hd : n ≤ dst.length) :
    (goCopy dst 0 ((src.take n).take n)).length = dst.length ∧
      Filled src (goCopy dst 0 ((src.take n).take n)) n := by
  have hl : ((src.take n).take n).length = n := by
    rw [List.length_take, List.length_take]
    omega
  refine ⟨goCopy_length _ _ _ (by rw [hl]; omega), ?_⟩
  intro j hj
  have := goCopy_mid dst 0 ((src.take n).take n) j (by rw [hl]; omega) (by rw [hl]; exact hj)
  rw [Nat.zero_add] at this
  rw [this, rd_take _ _ _ hj, rd_take _ _ _ hj]

theorem invChunkLoop1_done (E : EntropyStage) (src : List Nat) (dstEnd : Int) (fuel : Nat)
    (s : Inv1State) (h : ¬ ((s.startChunk : Int) < dstEnd)) :
    rolzCodec1.invChunkLoop E src dstEnd fuel s = some (.next s) := by
  cases fuel with
  | zero => rfl
  | succ k => rw [rolzCodec1.invChunkLoop, if_neg h]

theorem rdI_nat (src : List Nat) (s : Nat) (z : Int) (hz : z = (s : Int))
    (h : s < src.length) : rdI src z = some (src.getD s 0) := by
  subst hz
  unfold rdI
  rw [if_pos (Int.natCast_nonneg _), Int.toNat_ofNat]
  exact rd_eq_getD h

theorem copyTail_some (dst src : List Nat) (d s : Nat) (hd : d + 4 ≤ dst.length)
    (hs : s + 4 ≤ src.length) : ∃ dst2, copyTail dst src (d : Int) (s : Int) = some dst2 := by
  have hc : chk (0 ≤ (d : Int)) = some () := by
    unfold chk
    rw [if_pos (Int.natCast_nonneg _)]
  have r0 := rdI_nat src s (s : Int) rfl (by omega)
  have r1 := rdI_nat src (s + 1) ((s : Int) + 1) (by omega) (by omega)
  have r2 := rdI_nat src (s + 2) ((s : Int) + 2) (by omega) (by omega)
  have r3 := rdI_nat src (s + 3) ((s : Int) + 3) (by omega) (by omega)
  have w0 : wr dst d (src.getD s 0) = some (dst.set d (src.getD s 0)) :=
    wr_eq_some.2 ⟨by omega, rfl⟩
  have w1 : wr (dst.set d (src.getD s 0)) (d + 1) (src.getD (s + 1) 0) =
      some ((dst.set d (src.getD s 0)).set (d + 1) (src.getD (s + 1) 0)) :=
    wr_eq_some.2 ⟨by simp only [List.length_set]; omega, rfl⟩
  have w2 : wr ((dst.set d (src.getD s 0)).set (d + 1) (src.getD (s + 1) 0)) (d + 2)
      (src.getD (s + 2) 0) =
      some (((dst.set d (src.getD s 0)).set (d + 1) (src.getD (s + 1) 0)).set (d + 2)
        (src.getD (s + 2) 0)) :=
    wr_eq_some.2 ⟨by simp only [List.length_set]; omega, rfl⟩
  have w3 : wr (((dst.set d (src.getD s 0)).set (d + 1) (src.getD (s + 1) 0)).set (d + 2)
      (src.getD (s + 2) 0)) (d + 3) (src.getD (s + 3) 0) =
      some ((((dst.set d (src.getD s 0)).set (d + 1) (src.getD (s + 1) 0)).set (d + 2)
        (src.getD (s + 2) 0)).set (d + 3) (src.getD (s + 3) 0)) :=
    wr_eq_some.2 ⟨by simp only [List.length_set]; omega, rfl⟩
  refine ⟨(((dst.set d (src.getD s 0)).set (d + 1) (src.getD (s + 1) 0)).set (d + 2)
    (src.getD (s + 2) 0)).set (d + 3) (src.getD (s + 3) 0), ?_⟩
  unfold copyTail
  rw [Int.toNat_ofNat]
  refine bind_eq_some_iff.2 ⟨_, hc, ?_⟩
  refine bind_eq_some_iff.2 ⟨_, r0, ?_⟩
  refine bind_eq_some_iff.2 ⟨_, w0, ?_⟩
  refine bind_eq_some_iff.2 ⟨_, r1, ?_⟩
  refine bind_eq_some_iff.2 ⟨_, w1, ?_⟩
  refine bind_eq_some_iff.2 ⟨_, r2, ?_⟩
  refine bind_eq_some_iff.2 ⟨_, w2, ?_⟩
  refine bind_eq_some_iff.2 ⟨_, r3, ?_⟩
  exact w3

theorem tail_restores (srcd out S X2 : List Nat) (len used : Nat) (h5 : 5 ≤ len)
    (hout : out.length = len) (hS : S.length = len) (l2 : X2.length = len - 4)
    (l3 : Filled S X2 (len - 4))
    (htail : ∀ i, i < 4 → rd srcd (4 + used + i) = rd S (len - 4 + i))
    (hsd : srcd.length = 4 + used + 4) :
    copyTail (List.take 0 out ++ X2 ++ List.drop (len - 4) out) srcd ((len - 4 : Nat) : Int)
      ((4 + used : Nat) : Int) = some S := by
  have hl : (List.take 0 out ++ X2 ++ List.drop (len - 4) out).length = len := by
    simp only [List.take_zero, List.nil_append, List.length_append, List.length_drop]
    omega
  obtain ⟨dst2, hct⟩ := copyTail_some (List.take 0 out ++ X2 ++ List.drop (len - 4) out) srcd
    (len - 4) (4 + used) (by omega) (by omega)
  rw [hct]
  obtain ⟨t0, t1, t2, t3, t4, t5, t6⟩ := copyTail_spec _ _ _ _ _ hct
  rw [Int.toNat_ofNat] at t5 t6
  rw [Int.toNat_ofNat] at t6
  congr 1
  apply List.ext_getElem?
  intro j
  by_cases hj : j < len - 4
  · have := t5 j hj
    unfold rd at this
    rw [this]
    simp only [List.take_zero, List.nil_append]
    rw [List.getElem?_append_left (by omega)]
    exact l3 j hj
  · by_cases hj2 : j < len
    · have e : j = len - 4 + (j - (len - 4)) := by omega
      have := t6 (j - (len - 4)) (by omega)
      rw [htail _ (by omega), ← e] at this
      exact this
    · rw [List.getElem?_eq_none (by omega), List.getElem?_eq_none (by omega)]

theorem Inverse1_single (E : EntropyStage) (cd : rolzCodec1) (srcd out S : List Nat) (len : Nat)
    (h5 : 5 ≤ len) (h26 : len ≤ 2 ^ 26) (hout : out.length = len) (hS : S.length = len)
    (hhdr : getUint32BE srcd 0 = some len) (DL DN DM : List Nat) (used lenM : Nat)
    (hdc : ∀ (tabs : rolzCodec1) (dst : List Nat) (c1 c2 c3 : Nat),
      E.decodeChunk srcd ⟨tabs, dst, List.replicate (rolzCodec1.MaxEncodedLen len) 0,
        List.replicate (len / 2) 0, List.replicate (len / 2) 0, c1, c2, 4, c3⟩ (len - 4) =
          some (.next (⟨DL, DN, DM, 0, 0, 0⟩, used, lenM)))
    (hlenM : lenM ≤ len - 4) (h0 : rd DL 0 = rd S 0) (h1 : 2 ≤ len - 4 → rd DL 1 = rd S 1)
    (hloop : ∀ X, X.length = len - 4 → Filled S X (if 2 ≤ len - 4 then 2 else 1) →
      ∃ t2 b2 X2, rolzCodec1.decodeLoop ((len - 4 : Nat) : Int) (len - 4) (len - 4) (len - 4)
          { cd with counters := cd.counters.fill 0, matches_ := cd.matches_.fill 0 }
          ⟨DL, DN, DM, if 2 ≤ len - 4 then 2 else 1, 0, 0⟩ X (if 2 ≤ len - 4 then 2 else 1) =
            some (.next (t2, b2, X2, len - 4)) ∧
        X2.length = len - 4 ∧ Filled S X2 (len - 4))
    (htail : ∀ i, i < 4 → rd srcd (4 + used + i) = rd S (len - 4 + i))
    (hsd : srcd.length = 4 + used + 4) :
    ∃ r2, rolzCodec1.Inverse E cd srcd out = some r2 ∧ r2.err = none ∧
      r2.srcIdx = 4 + used + 4 ∧ r2.dstIdx = len ∧ r2.dst = S := by
  have hc : chk (4 ≤ srcd.length) = some () := by
    unfold chk
    rw [if_pos (by omega)]
  unfold rolzCodec1.Inverse
  simp only [hc, hhdr, bind_eq_bind, Option.some_bind]
  unfold rolzCodec1.decodeBlock
  have hsz : (if out.length > ROLZ_CHUNK_SIZE then ROLZ_CHUNK_SIZE else out.length) = len := by
    unfold ROLZ_CHUNK_SIZE
    rw [if_neg (by norm_num; omega), hout]
  simp only [hsz]
  rw [rolzCodec1.invChunkLoop]
  have hc0 : (((0 : Nat) : Int) < (len : Int) - 4) := by omega
  have hover : (((0 + len : Nat) : Int) > (len : Int) - 4) := by omega
  have hN : ((len : Int) - 4).toNat = len - 4 := by omega
  simp only [hc0, if_true, hover, hN, Nat.sub_zero]
  have hc2 : chk (0 ≤ len - 4 ∧ len - 4 ≤ out.length) = some () := by
    unfold chk
    rw [if_pos ⟨by omega, by omega⟩]
  have hcast : ((len : Int) - 4) = ((len - 4 : Nat) : Int) := by omega
  have hv0 : rd DL 0 = some (S.getD 0 0) := by
    rw [h0]
    exact rd_eq_getD (by omega)
  have hw0 : wr (List.take (len - 4) (List.drop 0 out)) 0 (S.getD 0 0) =
      some ((List.take (len - 4) (List.drop 0 out)).set 0 (S.getD 0 0)) :=
    wr_eq_some.2 ⟨by simp only [List.drop_zero, List.length_take]; omega, rfl⟩
  simp only [hc2, hdc, bind_eq_bind, Option.some_bind,
    if_neg (show ¬ lenM > len - 4 by omega), hv0, hw0, hcast]
  by_cases h2N : 2 ≤ len - 4
  · have hc1 : (((0 + 1 : Nat) : Int) < ((len - 4 : Nat) : Int)) := by omega
    have hv1 : rd DL 1 = some (S.getD 1 0) := by
      rw [h1 h2N]
      exact rd_eq_getD (by omega)
    have hw1 : wr ((List.take (len - 4) (List.drop 0 out)).set 0 (S.getD 0 0)) 1 (S.getD 1 0) =
        some (((List.take (len - 4) (List.drop 0 out)).set 0 (S.getD 0 0)).set 1 (S.getD 1 0)) :=
      wr_eq_some.2 ⟨by simp only [List.drop_zero, List.length_take, List.length_set]; omega, rfl⟩
    rw [if_pos h2N] at hloop
    obtain ⟨t2, b2, X2, l1, l2, l3⟩ := hloop
      (((List.take (len - 4) (List.drop 0 out)).set 0 (S.getD 0 0)).set 1 (S.getD 1 0))
      (by simp only [List.drop_zero, List.length_take, List.length_set]; omega) (by
        intro j hj
        rw [rd_wr hw1, rd_wr hw0]
        by_cases hj1 : j = 1
        · rw [if_pos hj1, hj1]
          exact (rd_eq_getD (by omega)).symm
        · have hj0 : j = 0 := by omega
          rw [if_neg hj1, if_pos hj0, hj0]
          exact (rd_eq_getD (by omega)).symm)
    simp only [if_pos hc1, hv1, hw1, Option.some_bind, pure_eq_some, l1]
    rw [invChunkLoop1_done E srcd _ _ _ (by simp only; omega)]
    simp only [Option.some_bind]
    have e1 : ((len - 4 : Nat) : Int) + (((len - 4 : Nat) : Int) - ((len - 4 : Nat) : Int)) =
        ((len - 4 : Nat) : Int) := by omega
    rw [e1, tail_restores srcd out S X2 len used h5 hout hS l2 l3 htail hsd]
    refine ⟨_, rfl, ?_, rfl, ?_, rfl⟩
    · show (if 4 + used + 4 ≠ srcd.length then _ else _) = _
      rw [if_neg (by omega)]
    · dsimp only
      unfold u64
      omega
  · have hc1 : ¬ (((0 + 1 : Nat) : Int) < ((len - 4 : Nat) : Int)) := by omega
    rw [if_neg h2N] at hloop
    obtain ⟨t2, b2, X2, l1, l2, l3⟩ := hloop
      ((List.take (len - 4) (List.drop 0 out)).set 0 (S.getD 0 0))
      (by simp only [List.drop_zero, List.length_take, List.length_set]; omega) (by
        intro j hj
        have hj0 : j = 0 := by omega
        rw [rd_wr hw0, if_pos hj0, hj0]
        exact (rd_eq_getD (by omega)).symm)
    simp only [if_neg hc1, Option.some_bind, pure_eq_some, l1]
    rw [invChunkLoop1_done E srcd _ _ _ (by simp only; omega)]
    simp only [Option.some_bind]
    have e1 : ((len - 4 : Nat) : Int) + (((len - 4 : Nat) : Int) - ((len - 4 : Nat) : Int)) =
        ((len - 4 : Nat) : Int) := by omega
    rw [e1, tail_restores srcd out S X2 len used h5 hout hS l2 l3 htail hsd]
    refine ⟨_, rfl, ?_, rfl, ?_, rfl⟩
    · show (if 4 + used + 4 ≠ srcd.length then _ else _) = _
      rw [if_neg (by omega)]
    · dsimp only
      unfold u64
      omega

theorem encoded_layout (b dst dst1 dst2 os : List Nat) (h5 : 5 ≤ b.length)
    (h26 : b.length ≤ 2 ^ 26) (hput : putUint32BE dst 0 (b.length % 2 ^ 32) = some dst1)
    (hfit : 4 + os.length ≤ dst1.length)
    (hct : copyTail (goCopy dst1 4 os) b ((4 + os.length : Nat) : Int)
      ((b.length - 4 : Nat) : Int) = some dst2) :
    (dst2.take (4 + os.length + 4)).length = 4 + os.length + 4 ∧
      getUint32BE (dst2.take (4 + os.length + 4)) 0 = some b.length ∧
      (dst2.take (4 + os.length + 4)).drop 4 =
        os ++ (dst2.take (4 + os.length + 4)).drop (4 + os.length) ∧
      ∀ i, i < 4 → rd (dst2.take (4 + os.length + 4)) (4 + os.length + i) =
        rd b (b.length - 4 + i) := by
  obtain ⟨t0, t1, t2, t3, t4, t5, t6⟩ := copyTail_spec _ _ _ _ _ hct
  rw [Int.toNat_ofNat] at t3 t5 t6
  rw [Int.toNat_ofNat] at t6
  have hgl := goCopy_length dst1 4 os hfit
  have hl : (dst2.take (4 + os.length + 4)).length = 4 + os.length + 4 := by
    rw [List.length_take]
    omega
  refine ⟨hl, ?_, ?_, ?_⟩
  · refine (header_read dst dst1 dst2 b.length (by omega) hput (by omega) ?_).2 _ (by omega)
    intro j hj
    rw [t5 j (by omega)]
    exact goCopy_prefix _ _ _ j hj (by omega)
  · apply List.ext_getElem?
    intro i
    rw [List.getElem?_drop]
    by_cases hi : i < os.length
    · rw [List.getElem?_append_left hi, List.getElem?_take_of_lt (by omega)]
      have e1 := t5 (4 + i) (by omega)
      have e2 := goCopy_mid dst1 4 os i hfit hi
      unfold rd at e1 e2
      rw [e1, e2]
    · rw [List.getElem?_append_right (by omega), List.getElem?_drop]
      congr 1
      omega
  · intro i hi
    rw [rd_take _ _ _ (by omega)]
    exact t6 i hi

theorem chunk_bounds (buf : Slice) (N : Nat) (hbuf : buf.len = N) (hN : N ≤ 2 ^ 26)
    (t0 tf : rolzCodec1) (be bf b1 G : Fwd1Bufs) (flf : Nat) (lb : List Nat)
    (hpl : rolzCodec1.parseLoop buf N N t0 be be.litIdx be.litIdx = some (tf, bf, N, flf))
    (hel : emitLengthsAt bf (N - flf) 0 = some b1)
    (hcl : copyLastLiterals buf flf b1.litIdx (N - flf) (N - flf) 0 b1.litBuf = some lb)
    (hG : G = { b1 with litBuf := lb, litIdx := b1.litIdx + (N - flf) })
    (h1 : 1 ≤ be.litIdx) (h2 : be.litIdx ≤ N) (h3 : be.lenIdx = 0) (h4 : be.mIdx = 0)
    (h5 : N ≤ be.litBuf.length) :
    be.Extends G ∧ G.litIdx ≤ N ∧ G.lenIdx ≤ N ∧ G.mIdx ≤ N ∧ G.litIdx ≤ G.litBuf.length ∧
      G.lenIdx ≤ G.lenBuf.length ∧ G.mIdx ≤ G.mIdxBuf.length := by
  obtain ⟨a1, a2, a3, a4, a5, a6, -⟩ := parseLoop_bounds buf N hbuf hN _ _ _ _ _ _ _ _ _ hpl
    (le_refl _) h2 (le_refl _) (by omega) (by omega) h5
  have am := parseLoop_mIdx buf N _ _ _ _ _ _ _ _ _ hpl (by omega)
  obtain ⟨ext, s3, s4, -, -, n, e8, e9, e10, e11, -⟩ :=
    lastLiterals_spec buf bf b1 flf N lb (by omega) hel hcl
  rw [← hG] at ext
  have hx := Extends_trans1 a1 ext
  obtain ⟨x1, x2, x3, x4, x5, x6, x7, x8, x9⟩ := ext
  have g1 : G.litIdx = b1.litIdx + (N - flf) := by rw [hG]
  have g2 : G.lenIdx = b1.lenIdx := by rw [hG]
  have g3 : G.mIdx = b1.mIdx := by rw [hG]
  have g4 : G.lenBuf = b1.lenBuf := by rw [hG]
  have k1 := a1.1
  refine ⟨hx, by omega, by omega, by omega, by omega, ?_, by omega⟩
  rw [g2, g4]
  exact e11
/-! ## The round trip of backend 1 -/

theorem plain_readBits32 (v c : Nat) (tail : List Nat) (hv : v < 2 ^ 32) :
    plainStage.readBits32 (bytes32 v ++ tail, c) = some (v, (tail, c + 32)) := by
  show some (_, _) = _
  have e := be32_or ((v >>> 24) % 256) ((v >>> 16) % 256) ((v >>> 8) % 256) (v % 256)
    (Nat.mod_lt _ (by norm_num)) (Nat.mod_lt _ (by norm_num)) (Nat.mod_lt _ (by norm_num))
  simp only [Nat.shiftRight_eq_div_pow] at e ⊢
  rw [e]
  congr 2
  omega

theorem plain_ansRead (block tail : List Nat) (c order : Nat) :
    plainStage.ansRead (block ++ tail, c) order block.length =
      some (block, (tail, c + 8 * block.length)) := by
  show (if block.length ≤ (block ++ tail).length then _ else _) = _
  rw [if_pos (by rw [List.length_append]; omega)]
  simp only [List.take_left', List.drop_left']

theorem plainStage_Faithful : plainStage.Faithful := by
  intro b os rest h1 h2 h3 h4 h5 h6 henc
  have e : os = bytes32 b.litIdx ++ (b.litBuf.take b.litIdx ++ (bytes32 b.lenIdx ++
      (b.lenBuf.take b.lenIdx ++ (bytes32 b.mIdx ++ b.mIdxBuf.take b.mIdx)))) := by
    have : some ((((((([] : List Nat) ++ bytes32 b.litIdx) ++ b.litBuf.take b.litIdx) ++
        bytes32 b.lenIdx) ++ b.lenBuf.take b.lenIdx) ++ bytes32 b.mIdx) ++
        b.mIdxBuf.take b.mIdx) = some os := henc
    simp only [Option.some.injEq, List.nil_append, List.append_assoc] at this
    exact this.symm
  have l1 : (b.litBuf.take b.litIdx).length = b.litIdx := by rw [List.length_take]; omega
  have l2 : (b.lenBuf.take b.lenIdx).length = b.lenIdx := by rw [List.length_take]; omega
  have l3 : (b.mIdxBuf.take b.mIdx).length = b.mIdx := by rw [List.length_take]; omega
  have a1 := plain_ansRead (b.litBuf.take b.litIdx) (bytes32 b.lenIdx ++
    (b.lenBuf.take b.lenIdx ++ (bytes32 b.mIdx ++ (b.mIdxBuf.take b.mIdx ++ rest)))) (0 + 32) 1
  have a2 := plain_ansRead (b.lenBuf.take b.lenIdx)
    (bytes32 b.mIdx ++ (b.mIdxBuf.take b.mIdx ++ rest)) (0 + 32 + 8 * b.litIdx + 32) 0
  have a3 := plain_ansRead (b.mIdxBuf.take b.mIdx) rest
    (0 + 32 + 8 * b.litIdx + 32 + 8 * b.lenIdx + 32) 0
  rw [l1] at a1
  rw [l2] at a2
  rw [l3] at a3
  refine ⟨_, _, _, _, _, _, ?_, a1, ?_, a2, ?_, a3, ?_⟩
  · show plainStage.readBits32 (os ++ rest, 0) = _
    rw [e]
    simp only [List.append_assoc]
    exact plain_readBits32 b.litIdx 0 _ h4
  · exact plain_readBits32 b.lenIdx _ _ h5
  · exact plain_readBits32 b.mIdx _ _ h6
  · show (0 + 32 + 8 * b.litIdx + 32 + 8 * b.lenIdx + 32 + 8 * b.mIdx + 7) >>> 3 = os.length
    rw [e]
    simp only [List.length_append, l1, l2, l3, bytes32, List.length_cons, List.length_nil,
      Nat.shiftRight_eq_div_pow]
    omega

theorem fresh_tables (ce cd : rolzCodec1) (k : Nat) (hk : k ≤ 8)
    (hce : ce.SameCfg (rolzCodec1.alloc k)) (hcd : cd.SameCfg (rolzCodec1.alloc k)) (n : Nat)
    (hn : 1 ≤ n) :
    ({ cd with counters := cd.counters.fill 0, matches_ := cd.matches_.fill 0 } :
      rolzCodec1).Mirrors
        { ce with counters := ce.counters.fill 0, matches_ := ce.matches_.fill 0 } ∧
      0 < ce.posChecks ∧ ce.posChecks ≤ 256 ∧
      ({ ce with counters := ce.counters.fill 0, matches_ := ce.matches_.fill 0 } :
        rolzCodec1).TableBelow n := by
  obtain ⟨c1, c2, c3, c4, c5⟩ := hce
  obtain ⟨d1, d2, d3, d4, d5⟩ := hcd
  obtain ⟨a1, -⟩ := alloc_fields k hk
  obtain ⟨p1, p2⟩ := two_pow_le_256 k hk
  refine ⟨⟨⟨?_, ?_, ?_, ?_, ?_⟩, ?_, ?_⟩, ?_, ?_, ?_⟩
  · show cd.logPosChecks = ce.logPosChecks
    rw [c1, d1]
  · show cd.maskChecks = ce.maskChecks
    rw [c2, d2]
  · show cd.posChecks = ce.posChecks
    rw [c3, d3]
  · show cd.counters.len = ce.counters.len
    rw [c4, d4]
  · show cd.matches_.len = ce.matches_.len
    rw [c5, d5]
  · intro i
    rfl
  · intro i
    show (0 : Nat) = 0 &&& ROLZ_POS_MASK
    rw [Nat.zero_and]
  · rw [c3, a1]
    exact p2
  · rw [c3, a1]
    exact p1
  · intro i
    show (0 : Nat) &&& ROLZ_POS_MASK < n
    rw [Nat.zero_and]
    omega

/-- C2. Round trip of backend 1, for an entropy stage that reads back what
it wrote (`EntropyStage.Faithful`): for every block `b` of 5 to `2^26` bytes
and every `logPosChecks` up to 8 (`newROLZCodec1` accepts 2 to 8), whatever
tables the two codecs hold,
when `Forward(b, dst)` returns without an error, having written `n` bytes,
`Inverse(dst[0:n], out)` with `len(out) = len(b)` returns without an error,
reports `n` bytes read and `len(b)` bytes written, and leaves `out = b`. -/
theorem rolzCodec1_roundtrip (E : EntropyStage) (hE : E.Faithful) (k : Nat) (hk8 : k ≤ 8)
    (ce cd : rolzCodec1) (hce : ce.SameCfg (rolzCodec1.alloc k))
    (hcd : cd.SameCfg (rolzCodec1.alloc k)) (b dst out : List Nat) (h5 : 5 ≤ b.length)
    (h26 : b.length ≤ 2 ^ 26) (hout : out.length = b.length) (r : CallResult rolzCodec1)
    (hF : rolzCodec1.Forward E ce b dst = some r) (herr : r.err = none) :
    ∃ r2, rolzCodec1.Inverse E cd (r.dst.take r.dstIdx) out = some r2 ∧ r2.err = none ∧
      r2.srcIdx = r.dstIdx ∧ r2.dstIdx = b.length ∧ r2.dst = b := by
  obtain ⟨dst1, s, t, G, os, dst2, hput, s0, sl, sn, sm, hpc, henc, hfit, hct, hrd, hri, hrs⟩ :=
    Forward1_single E ce b dst r h5 h26 hF herr
  obtain ⟨be, tf, bf, flf, b1, lb, i1, i2, i3, i4, i5, i6, i7, hpl, hel, hcl, hG, -⟩ :=
    parseChunk_single b s _ t G _ s0 h5 hpc
  have hN : b.length - 4 ≤ 2 ^ 26 := by omega
  have hn1 : 1 ≤ be.litIdx := by rw [i1]; split <;> omega
  have hn2 : be.litIdx ≤ b.length - 4 := by rw [i1]; split <;> omega
  have hn3 : be.litIdx < b.length - 4 → 2 ≤ be.litIdx := by rw [i1]; split <;> omega
  have hml : rolzCodec1.MaxEncodedLen b.length ≥ b.length := by
    unfold rolzCodec1.MaxEncodedLen
    split <;> omega
  have hbl : b.length - 4 ≤ be.litBuf.length := by
    rw [i4, sl, List.length_replicate]
    omega
  obtain ⟨hx, g1, g2, g3, g4, g5, g6⟩ := chunk_bounds ⟨b, b.length - 4⟩ (b.length - 4) rfl hN _ tf
    be bf b1 G flf lb hpl hel hcl hG hn1 hn2 i2 i3 hbl
  obtain ⟨x1, x2, x3, x4, x5, x6, x7, x8, x9⟩ := hx
  have ll : G.litBuf.length = rolzCodec1.MaxEncodedLen b.length := by
    rw [x1, i4, sl, List.length_replicate]
  have ln : G.lenBuf.length = b.length / 2 := by
    rw [x2, i5, sn, List.length_replicate]
  have lm : G.mIdxBuf.length = b.length / 2 := by
    rw [x3, i6, sm, List.length_replicate]
  obtain ⟨y1, y2, y3, y4⟩ := encoded_layout b dst dst1 dst2 os h5 h26 hput hfit hct
  obtain ⟨dl1, dl2⟩ := goCopy_front (List.replicate (rolzCodec1.MaxEncodedLen b.length) 0)
    G.litBuf G.litIdx g4 (by rw [List.length_replicate, ← ll]; exact g4)
  obtain ⟨dn1, dn2⟩ := goCopy_front (List.replicate (b.length / 2) 0)
    G.lenBuf G.lenIdx g5 (by rw [List.length_replicate, ← ln]; exact g5)
  obtain ⟨dm1, dm2⟩ := goCopy_front (List.replicate (b.length / 2) 0)
    G.mIdxBuf G.mIdx g6 (by rw [List.length_replicate, ← lm]; exact g6)
  obtain ⟨f1, f2, f3, f4⟩ := fresh_tables ce cd k hk8 hce hcd be.litIdx hn1
  have hfin := Inverse1_single E cd (dst2.take (4 + os.length + 4)) out b b.length h5 h26 hout rfl
    y2 _ _ _ os.length G.mIdx
    (fun tabs d c1 c2 c3 => decodeChunk_ok E hE G os _ _ _ (b.length - 4) g4 g5 g6 hN g1 g2 g3
      (by rw [List.length_replicate, ← ll]; exact g4)
      (by rw [List.length_replicate, ← ln]; exact g5)
      (by rw [List.length_replicate, ← lm]; exact g6) henc y3)
    g3
    (by rw [dl2 0 (by omega), x7 0 (by omega)]; exact i7 0 (by omega))
    (fun h2 => by
      have hb2 : be.litIdx = 2 := by rw [i1, if_pos h2]
      rw [dl2 1 (by omega), x7 1 (by omega)]
      exact i7 1 (by omega))
    (fun X hXl hX => by
      rw [← i1]
      have hls := lockstep ⟨b, b.length - 4⟩ (b.length - 4) _ _ _ G rfl
        (by show b.length - 4 ≤ b.length; omega) hN dl2 dn2 dm2
        (by rw [dl1, List.length_replicate, ll]) (by rw [dn1, List.length_replicate, ln])
        (b.length - 4) _ be be.litIdx be.litIdx tf bf (b.length - 4) flf b1 lb hpl hel hcl hG
        (by omega) (le_refl _) hn2 hn3 hn1 (le_refl _) (by omega) (by omega) hbl f2 f3
        (fun _ => ⟨le_refl _, by show (0 : Int) ≤ _; omega⟩) f4 _ _ X (b.length - 4) hXl
        (by rw [← i1] at hX; exact hX) (by rw [Nat.sub_self]; rfl) f1 (by omega)
      rw [i2, i3] at hls
      exact hls)
    y4 y1
  rw [hrd, hri]
  exact hfin

/-- Witness of C2: the block `1, 2, 3, 4, 1, 2, 3, 4, 1, 2, 3, 4, 5, 6, 7, 8`
with `logPosChecks = 4`, a destination of 48 bytes and the plain entropy
stage: `Forward` succeeds and `Inverse` gives the block back. -/
theorem rolzCodec1_roundtrip_witness :
    ∃ r r2, rolzCodec1.Forward plainStage (rolzCodec1.alloc 4)
        [1, 2, 3, 4, 1, 2, 3, 4, 1, 2, 3, 4, 5, 6, 7, 8] (List.replicate 48 0) = some r ∧
      r.err = none ∧
      rolzCodec1.Inverse plainStage (rolzCodec1.alloc 4) (r.dst.take r.dstIdx)
        (List.replicate 16 0) = some r2 ∧
      r2.err = none ∧ r2.srcIdx = r.dstIdx ∧ r2.dstIdx = 16 ∧
      r2.dst = [1, 2, 3, 4, 1, 2, 3, 4, 1, 2, 3, 4, 5, 6, 7, 8] := by
  have e1 : (rolzCodec1.Forward plainStage (rolzCodec1.alloc 4)
      [1, 2, 3, 4, 1, 2, 3, 4, 1, 2, 3, 4, 5, 6, 7, 8] (List.replicate 48 0)).map
      (fun r => r.err) = some none := by decide!
  cases hr : rolzCodec1.Forward plainStage (rolzCodec1.alloc 4)
      [1, 2, 3, 4, 1, 2, 3, 4, 1, 2, 3, 4, 5, 6, 7, 8] (List.replicate 48 0) with
  | none => rw [hr] at e1; cases e1
  | some r =>
    rw [hr] at e1
    have he : r.err = none := by simpa using e1
    obtain ⟨r2, h1, h2, h3, h4, h5⟩ := rolzCodec1_roundtrip plainStage plainStage_Faithful 4
      (by decide) (rolzCodec1.alloc 4) (rolzCodec1.alloc 4) (SameCfg_refl _) (SameCfg_refl _)
      [1, 2, 3, 4, 1, 2, 3, 4, 1, 2, 3, 4, 5, 6, 7, 8] (List.replicate 48 0)
      (List.replicate 16 0) (by decide) (by norm_num) (by decide) r hr he
    exact ⟨r, r2, rfl, he, h1, h2, h3, h4, h5⟩
/-! ## The index of the Linear map and the range of the entries -/

theorem signTables_ok : signTables.Ok := by
  refine ⟨by
    show (List.replicate 2048 (-2047 : Int) ++ List.replicate 2048 2047).length = 4096
    rw [List.length_append, List.length_replicate, List.length_replicate], ?_, ?_⟩
  · intro x hx
    simp only [signTables, List.mem_append] at hx
    rcases hx with hx | hx
    · have : x = -2047 := List.eq_of_mem_replicate hx
      omega
    · have : x = 2047 := List.eq_of_mem_replicate hx
      omega
  · intro x; show (0 : Int) ≤ 0 ∧ (0 : Int) ≤ 4095; omega

/-- C31, refuted as stated. `LinearAdaptiveProbMap.get` replaces `pr` by
`STRETCH[pr]` before it forms the index. With `STRETCH` of 4096 entries in
`[-2047..2047]`, for every call with `pr` in `[0..4095]` and `ctx` in
`[0..n-1]`, with `s = STRETCH[pr]`: a call that returns has stored the index
`(s >> 6) + 65*ctx`; this is below the index `(pr >> 6) + 65*ctx` of the claim
whenever `pr ≥ 2048`; when `s` is negative it is below `65*ctx`, outside the
65 rows of `ctx`, and for `ctx = 0` the call does not return (the index is
negative). -/
theorem linear_get_index_is_stretched (T : ProbTables) (hT : T.Ok) (n : Nat)
    (hsz : n * 65 < 2 ^ 56) (a : AdaptiveProbMap) (bit pr ctx : Int)
    (hc : ValidCall n (bit, pr, ctx)) :
    ∃ s, T.stretch pr = some s ∧
      (∀ a2 v, LinearAdaptiveProbMap.get T a bit pr ctx = some (a2, v) →
        a2.index = s / 64 + 65 * ctx ∧ (2048 ≤ pr → a2.index < pr / 64 + 65 * ctx) ∧
          (s < 0 → a2.index < 65 * ctx)) ∧
      (s < 0 → ctx = 0 → LinearAdaptiveProbMap.get T a bit pr ctx = none) := by
  obtain ⟨-, ⟨hp0, hp1⟩, hc0, hc1⟩ := hc
  simp only at hp0 hp1 hc0 hc1
  obtain ⟨s, hs, hs0, hs1⟩ := stretch_ok T hT pr hp0 hp1
  have x1 := linear_index s ctx n hs0 hs1 hc0 hc1 hsz
  refine ⟨s, hs, ?_, ?_⟩
  · intro a2 v h
    unfold LinearAdaptiveProbMap.get at h
    obtain ⟨d2, -, h⟩ := bind_eq_some_iff.1 h
    obtain ⟨d3, -, h⟩ := bind_eq_some_iff.1 h
    obtain ⟨s2, hs2, h⟩ := bind_eq_some_iff.1 h
    rw [hs] at hs2
    cases hs2
    obtain ⟨v2, -, h⟩ := bind_eq_some_iff.1 h
    simp only [pure_eq_some, Option.some.injEq, Prod.mk.injEq] at h
    obtain ⟨rfl, -⟩ := h
    simp only [x1]
    refine ⟨trivial, ?_, ?_⟩
    · intro hp; omega
    · intro hn; omega
  · intro hn hz
    subst hz
    exact Linear_get_panics T a bit pr s hs hs0 hn

/-- Witness of C31: the table `signTables`, one row, `get(1, 0, 0)` on an
empty map; `STRETCH[0] = -2047` and the call does not return. -/
theorem linear_get_index_is_stretched_witness :
    ∃ s, signTables.stretch 0 = some s ∧
      (∀ a2 v, LinearAdaptiveProbMap.get signTables ⟨0, 5, Arr.make 65 0⟩ 1 0 0 = some (a2, v) →
        a2.index = s / 64 + 65 * 0 ∧ ((2048 : Int) ≤ 0 → a2.index < 0 / 64 + 65 * 0) ∧
          (s < 0 → a2.index < 65 * 0)) ∧
      (s < 0 → (0 : Int) = 0 →
        LinearAdaptiveProbMap.get signTables ⟨0, 5, Arr.make 65 0⟩ 1 0 0 = none) :=
  linear_get_index_is_stretched signTables signTables_ok 1 (by norm_num) ⟨0, 5, Arr.make 65 0⟩
    1 0 0 (by unfold ValidCall; decide)

/-- C39, refuted as stated (every rate, Linear rows in `[0..65535]`). With
rate 31 the target `int32(65536 + 2^31 - 2)` is negative and the update takes
the entry 0 to -1; and a new Linear map holds `int32(64<<6) << 4 = 65536` in
the last column of each row (entry 129 of a map of two rows). -/
theorem apm_update_leaves_range :
    (apmUpdate (Arr.make 1 0) 0 (apmTarget 1 31) 31).map (fun d => d.cell 0) = some (-1) ∧
    (newLinearAdaptiveProbMap 2 7).map (fun a => a.data.cell 129) = some 65536 := by
  constructor <;> decide!

/-- C39, amended. For every rate other than 31 the statement
`data[i] += (g - data[i]) >> rate` with `g` the target of a bit 0 or 1 takes an
entry of `[0..65535]` to an entry of `[0..65535]` and leaves the other entries
as they are. The rows of a new Logistic or FastLogistic map lie in
`[0..65535]`, and so does every entry after every sequence of valid calls of
`get`; a new Linear map has 65536 in entry 64, and after every sequence of
valid calls that return its entries lie in `[0..65536]`, in `[0..65535]`
outside the last column of each row. -/
theorem apm_update_keeps_range (T : ProbTables) (hT : T.Ok) (n rate : Nat) (hn : 1 ≤ n)
    (hsz : n < 2 ^ 48) (hr : rate ≠ 31) (calls : List (Int × Int × Int))
    (hc : ∀ c ∈ calls, ValidCall n c) :
    (∀ (data : Arr Int) (i bit : Int), (bit = 0 ∨ bit = 1) → 0 ≤ i → i.toNat < data.len →
      0 ≤ data.cell i.toNat → data.cell i.toNat ≤ 65535 →
      ∃ d2, apmUpdate data i (apmTarget bit rate) rate = some d2 ∧
        0 ≤ d2.cell i.toNat ∧ d2.cell i.toNat ≤ 65535 ∧
        ∀ k, k ≠ i.toNat → d2.cell k = data.cell k) ∧
    (∃ a a2 vs, newLogisticAdaptiveProbMap T n rate = some a ∧
      (∀ k, 0 ≤ a.data.cell k ∧ a.data.cell k ≤ 65535) ∧
      apmRun (LogisticAdaptiveProbMap.get T) a calls = some (a2, vs) ∧
      ∀ k, 0 ≤ a2.data.cell k ∧ a2.data.cell k ≤ 65535) ∧
    (∃ a a2 vs, newFastLogisticAdaptiveProbMap T n rate = some a ∧
      (∀ k, 0 ≤ a.data.cell k ∧ a.data.cell k ≤ 65535) ∧
      apmRun (FastLogisticAdaptiveProbMap.get T) a calls = some (a2, vs) ∧
      ∀ k, 0 ≤ a2.data.cell k ∧ a2.data.cell k ≤ 65535) ∧
    (∃ a, newLinearAdaptiveProbMap n rate = some a ∧ a.data.cell 64 = 65536 ∧
      ∀ a2 vs, apmRun (LinearAdaptiveProbMap.get T) a calls = some (a2, vs) →
        ∀ k, 0 ≤ a2.data.cell k ∧ a2.data.cell k ≤ 65536 ∧
          (k % 65 ≠ 64 → a2.data.cell k ≤ 65535)) := by
  obtain ⟨a, h1, h2, -⟩ := newLogistic_in T hT n rate hn hsz hr
  obtain ⟨b, g1, g2, g3, -⟩ := newLinear_in n rate hn hsz hr
  refine ⟨?_, ?_, ?_, ?_⟩
  · intro data i bit hbit h0 h1 hd0 hd1
    refine ⟨_, apmUpdate_eq data i _ rate h0 h1, ?_, ?_, ?_⟩
    · show 0 ≤ (if i.toNat = i.toNat then _ else _)
      rw [if_pos rfl]
      exact (apm_update_range _ 65535 bit rate hr hbit (by omega) (by omega) hd0 hd1).1
    · show (if i.toNat = i.toNat then _ else _) ≤ (65535 : Int)
      rw [if_pos rfl]
      exact (apm_update_range _ 65535 bit rate hr hbit (by omega) (by omega) hd0 hd1).2
    · intro k hk
      show (if k = i.toNat then _ else _) = _
      rw [if_neg hk]
  · obtain ⟨a2, vs, r1, r2, -, -⟩ := apmRun_total (LogisticAdaptiveProbMap.get T)
      (ApmIn 33 n logBound) n
      (fun a bit pr ctx ha hv => Logistic_get_spec T hT n (by omega) a ha bit pr ctx hv)
      calls a h2 hc
    exact ⟨a, a2, vs, h1, h2.2.2.2.2, r1, r2.2.2.2.2⟩
  · obtain ⟨a2, vs, r1, r2, -, -⟩ := apmRun_total (FastLogisticAdaptiveProbMap.get T)
      (ApmIn 33 n logBound) n
      (fun a bit pr ctx ha hv => FastLogistic_get_spec T hT n (by omega) a ha bit pr ctx hv)
      calls a h2 hc
    exact ⟨a, a2, vs, h1, h2.2.2.2.2, r1, r2.2.2.2.2⟩
  · refine ⟨b, g1, g3, ?_⟩
    intro a2 vs hrun k
    have := (apmRun_sound (LinearAdaptiveProbMap.get T) (ApmIn 65 n linBound) n
      (fun a bit pr ctx a2 v ha hv h => Linear_get_spec T hT n (by omega) a ha bit pr ctx hv a2 v h)
      calls b a2 vs g2 hc hrun).1.2.2.2.2 k
    refine ⟨this.1, le_trans this.2 (linBound_ok k).2, ?_⟩
    intro hk
    have h2 := this.2
    unfold linBound at h2
    rw [if_neg hk] at h2
    exact h2

/-- Witness of C39 (amended): two rows, rate 40, the calls `get(1, 4095, 1)`
and `get(0, 2048, 0)` with the tables of zeros. -/
theorem apm_update_keeps_range_witness :
    (∀ (data : Arr Int) (i bit : Int), (bit = 0 ∨ bit = 1) → 0 ≤ i → i.toNat < data.len →
      0 ≤ data.cell i.toNat → data.cell i.toNat ≤ 65535 →
      ∃ d2, apmUpdate data i (apmTarget bit 40) 40 = some d2 ∧
        0 ≤ d2.cell i.toNat ∧ d2.cell i.toNat ≤ 65535 ∧
        ∀ k, k ≠ i.toNat → d2.cell k = data.cell k) ∧
    (∃ a a2 vs, newLogisticAdaptiveProbMap zeroTables 2 40 = some a ∧
      (∀ k, 0 ≤ a.data.cell k ∧ a.data.cell k ≤ 65535) ∧
      apmRun (LogisticAdaptiveProbMap.get zeroTables) a [(1, 4095, 1), (0, 2048, 0)] =
        some (a2, vs) ∧
      ∀ k, 0 ≤ a2.data.cell k ∧ a2.data.cell k ≤ 65535) ∧
    (∃ a a2 vs, newFastLogisticAdaptiveProbMap zeroTables 2 40 = some a ∧
      (∀ k, 0 ≤ a.data.cell k ∧ a.data.cell k ≤ 65535) ∧
      apmRun (FastLogisticAdaptiveProbMap.get zeroTables) a [(1, 4095, 1), (0, 2048, 0)] =
        some (a2, vs) ∧
      ∀ k, 0 ≤ a2.data.cell k ∧ a2.data.cell k ≤ 65535) ∧
    (∃ a, newLinearAdaptiveProbMap 2 40 = some a ∧ a.data.cell 64 = 65536 ∧
      ∀ a2 vs, apmRun (LinearAdaptiveProbMap.get zeroTables) a [(1, 4095, 1), (0, 2048, 0)] =
          some (a2, vs) →
        ∀ k, 0 ≤ a2.data.cell k ∧ a2.data.cell k ≤ 65536 ∧
          (k % 65 ≠ 64 → a2.data.cell k ≤ 65535)) :=
  apm_update_keeps_range zeroTables zeroTables_ok 2 40 (by decide) (by decide) (by decide)
    [(1, 4095, 1), (0, 2048, 0)]
    (by
      intro c hc
      simp only [List.mem_cons, List.mem_singleton, List.not_mem_nil, or_false] at hc
      rcases hc with rfl | rfl <;> (unfold ValidCall; decide))
/-! ## The interval of the range coder -/

theorem encodeBit_core_le (l h g bit : Nat) (hb : bit ≤ 1) (hl : l ≤ h) (hh : h < 2 ^ 64)
    (hr : h - l < 2 ^ 56) (hg : g ≤ 4095) (h1 : l + 1 < 2 ^ 64) :
    (((sub64 h l) >>> 4) * g % 2 ^ 64) >>> 8 = (h - l) / 16 * g / 256 ∧
    sub64 h (neg64 bit &&& sub64 (sub64 h l) ((h - l) / 16 * g / 256)) = narrowHigh l h g bit ∧
    (l + (not64 (neg64 bit) &&& (((h - l) / 16 * g / 256 + 1) % 2 ^ 64))) % 2 ^ 64 =
      narrowLow l h g bit := by
  rcases Nat.lt_or_ge l h with hlt | hge
  · exact encodeBit_core l h g bit hb hlt hh hr hg
  · have e : h = l := by omega
    subst e
    have e1 : sub64 h h = 0 := by unfold sub64; omega
    have e2 : (h - h) / 16 * g / 256 = 0 := by simp
    unfold narrowLow narrowHigh
    rw [e1, e2]
    have hb2 : bit = 0 ∨ bit = 1 := by omega
    refine ⟨by simp, ?_, ?_⟩
    · rcases hb2 with rfl | rfl
      · have e : neg64 0 = 0 := by decide
        rw [e, Nat.zero_and]
        simp only [Nat.zero_ne_one, if_false]
        unfold sub64; omega
      · have e : neg64 1 = 2 ^ 64 - 1 := by decide
        rw [e, all64_and]
        simp only [if_true]
        unfold sub64; omega
    · rcases hb2 with rfl | rfl
      · have e : not64 (neg64 0) = 2 ^ 64 - 1 := by decide
        rw [e, all64_and]
        simp only [Nat.zero_ne_one, if_false]
        omega
      · have e : not64 (neg64 1) = 0 := by decide
        rw [e, Nat.zero_and]
        simp only [if_true]
        omega

/-- A call of `encodeBit` is the interval update, the update of the
predictor, and the loop. -/
theorem encodeBit_narrow {σ : Type} (P : Predictor σ) (e : rolzEncoder σ) (p : σ) (g bit : Nat)
    (hp : e.predictors[e.predictor]? = some p) (hgp : P.Get p = (g : Int)) (hg : g ≤ 4095)
    (hb : bit ≤ 1) (hle : e.low ≤ e.high) (hh : e.high < 2 ^ 64)
    (hr : e.high - e.low < 2 ^ 56) (hl : e.low + 1 < 2 ^ 64) :
    e.encodeBit P bit =
      rolzEncoder.flushLoop 2
        { predictors := e.predictors.set e.predictor (P.Update p bit),
          predictor := e.predictor, buf := e.buf, idx := e.idx,
          low := narrowLow e.low e.high g bit, high := narrowHigh e.low e.high g bit } := by
  obtain ⟨c1, c2, c3⟩ := encodeBit_core_le e.low e.high g bit hb hle hh hr hg hl
  unfold rolzEncoder.encodeBit
  simp only [bind, andThen, hp, hgp, u64_natCast g hg, c1, c2, c3]

theorem flush_ends (l h : Nat) :
    ¬ ((((l <<< 32) % 2 ^ 64) ^^^ (((h <<< 32) % 2 ^ 64) ||| MASK_0_32)) &&& MASK_24_56 = 0) := by
  have hm : MASK_0_32 = 2 ^ 32 - 1 := by decide
  rw [flush_cond_iff, shl32_or h _ (by decide), Nat.shiftLeft_eq, hm]
  omega

/-- The loop of `encodeBit` makes at most one round. -/
theorem flushLoop_once {σ : Type} (fuel : Nat) (e : rolzEncoder σ) :
    rolzEncoder.flushLoop (fuel + 1) e =
      if (e.low ^^^ e.high) &&& MASK_24_56 = 0 then e.flush else some e := by
  unfold rolzEncoder.flushLoop
  by_cases hc : (e.low ^^^ e.high) &&& MASK_24_56 = 0
  · simp only [hc, if_true]
    cases hf : e.flush with
    | none => rfl
    | some e2 =>
      show rolzEncoder.flushLoop fuel e2 = some e2
      have h2 : ¬ ((e2.low ^^^ e2.high) &&& MASK_24_56 = 0) := by
        unfold rolzEncoder.flush at hf
        obtain ⟨b, -, hf⟩ := bind_eq_some_iff.1 hf
        cases hf
        exact flush_ends e.low e.high
      cases fuel with
      | zero => rfl
      | succ n =>
        unfold rolzEncoder.flushLoop
        simp only [h2, if_false]
  · simp only [hc, if_false]

theorem encodeBit_inv {σ : Type} (P : Predictor σ) (e e1 : rolzEncoder σ) (p : σ) (g bit : Nat)
    (hp : e.predictors[e.predictor]? = some p) (hgp : P.Get p = (g : Int)) (hg : g ≤ 4095)
    (hb : bit ≤ 1) (hI : EncInv e.low e.high) (h : e.encodeBit P bit = some e1) :
    EncInv e1.low e1.high ∧ e1.predictor = e.predictor ∧
      e1.predictors.length = e.predictors.length := by
  have hn := narrow_facts e.low e.high g bit hg hI
  have heq := encodeBit_eq P e p g bit hp hgp hg hb hI
  rw [h] at heq
  by_cases hc : (narrowLow e.low e.high g bit / 2 ^ 24) % 2 ^ 32 =
      (narrowHigh e.low e.high g bit / 2 ^ 24) % 2 ^ 32
  · simp only [hc, if_true] at heq
    cases hput : putUint32BE e.buf e.idx ((narrowHigh e.low e.high g bit / 2 ^ 32) % 2 ^ 32) with
    | none => rw [hput] at heq; cases heq
    | some b1 =>
      rw [hput] at heq
      simp only [Option.bind, Option.some.injEq] at heq
      subst heq
      have i3 := hI.2.2.1
      have i2 := hI.2.1
      exact ⟨flushed_inv _ _ hn.2.1 (by omega) hc, rfl, by simp⟩
  · simp only [hc, if_false, Option.some.injEq] at heq
    subst heq
    exact ⟨narrowed_inv e.low e.high g bit hg hI hc, rfl, by simp⟩

theorem encodeBits_inv {σ : Type} (P : Predictor σ)
    (hP : ∀ s, ∃ g : Nat, g ≤ 4095 ∧ P.Get s = (g : Int)) :
    ∀ (bits : List Nat) (e e2 : rolzEncoder σ), (∀ b ∈ bits, b ≤ 1) → EncInv e.low e.high →
      e.predictor < e.predictors.length → e.encodeBits P bits = some e2 →
      EncInv e2.low e2.high ∧ e2.predictor < e2.predictors.length := by
  intro bits
  induction bits with
  | nil =>
    intro e e2 _ hI hpi h
    simp only [rolzEncoder.encodeBits, Option.some.injEq] at h
    subst h
    exact ⟨hI, hpi⟩
  | cons b bs ih =>
    intro e e2 hbits hI hpi h
    have hb : b ≤ 1 := hbits b (List.mem_cons_self _ _)
    have hbs : ∀ x ∈ bs, x ≤ 1 := fun x hx => hbits x (List.mem_cons_of_mem _ hx)
    obtain ⟨p, hp⟩ := getElem?_of_lt e.predictors e.predictor hpi
    obtain ⟨g, hg, hgp⟩ := hP p
    unfold rolzEncoder.encodeBits at h
    obtain ⟨e1, he1, h⟩ := bind_eq_some_iff.1 h
    obtain ⟨k1, k2, k3⟩ := encodeBit_inv P e e1 p g b hp hgp hg hb hI he1
    exact ih e1 e2 hbs k1 (by rw [k2, k3]; exact hpi) h

theorem EncInv_lt {l h : Nat} (hI : EncInv l h) : l < h := by
  obtain ⟨h1, -, -, h4⟩ := hI
  rcases Nat.lt_or_ge l h with h5 | h5
  · exact h5
  · exact absurd (by rw [Nat.le_antisymm h1 h5]) h4

/-- C32. Encoder interval update. A new encoder has `low = 0` and
`high = 0x00FFFFFFFFFFFFFF`. In every state `e` reached from it by a
sequence of `encodeBit` calls (bits 0 or 1, a predictor with values in
`[0..4095]`), `low ≤ high`, and a call `encodeBit(bit)` with predictor value
`g` is: `split = (((high - low) >> 4) * g) >> 8` without overflow; the bounds
become `(low, low + split)` for bit 1 and `(low + split + 1, high)` for bit 0
(`narrowLow`, `narrowHigh`), which is what the mask arithmetic of the source
computes; the predictor is updated with `bit`; then the loop runs on that
state. -/
theorem encodeBit_interval_update {σ : Type} (P : Predictor σ)
    (hP : ∀ s, ∃ g : Nat, g ≤ 4095 ∧ P.Get s = (g : Int)) (ps : List σ) (buf : List Nat)
    (idx : Nat) (bits : List Nat) (hbits : ∀ b ∈ bits, b ≤ 1) (e0 e : rolzEncoder σ)
    (h0 : newRolzEncoder ps buf idx = some e0) (he : e0.encodeBits P bits = some e)
    (bit : Nat) (hb : bit ≤ 1) :
    e0.low = 0 ∧ e0.high = 0x00FFFFFFFFFFFFFF ∧ e.low ≤ e.high ∧
    ∃ (p : σ) (g : Nat), e.predictors[e.predictor]? = some p ∧ P.Get p = (g : Int) ∧ g ≤ 4095 ∧
      (((e.high - e.low) >>> 4) * g) >>> 8 = (e.high - e.low) / 16 * g / 256 ∧
      ((e.high - e.low) >>> 4) * g < 2 ^ 64 ∧
      narrowLow e.low e.high g bit =
        (if bit = 1 then e.low else e.low + (((e.high - e.low) >>> 4) * g) >>> 8 + 1) ∧
      narrowHigh e.low e.high g bit =
        (if bit = 1 then e.low + (((e.high - e.low) >>> 4) * g) >>> 8 else e.high) ∧
      e.encodeBit P bit =
        rolzEncoder.flushLoop 2
          { predictors := e.predictors.set e.predictor (P.Update p bit),
            predictor := e.predictor, buf := e.buf, idx := e.idx,
            low := narrowLow e.low e.high g bit, high := narrowHigh e.low e.high g bit } := by
  unfold newRolzEncoder at h0
  obtain ⟨q, hq, h0⟩ := bind_eq_some_iff.1 h0
  simp only [pure_eq_some, Option.some.injEq] at h0
  subst h0
  have hlen : 0 < ps.length := by
    rcases Nat.lt_or_ge 0 ps.length with h | h
    · exact h
    · rw [List.getElem?_eq_none (by omega)] at hq; cases hq
  have hI0 : EncInv 0 ROLZ_TOP := by unfold EncInv ROLZ_TOP; omega
  obtain ⟨hI, hpi⟩ := encodeBits_inv P hP bits _ e hbits hI0 hlen he
  obtain ⟨p, hp⟩ := getElem?_of_lt e.predictors e.predictor hpi
  obtain ⟨g, hg, hgp⟩ := hP p
  have hlt := EncInv_lt hI
  obtain ⟨i1, i2, i3, i4⟩ := hI
  have e8 : (((e.high - e.low) >>> 4) * g) >>> 8 = (e.high - e.low) / 16 * g / 256 := by
    rw [Nat.shiftRight_eq_div_pow, Nat.shiftRight_eq_div_pow]
  refine ⟨rfl, rfl, i1, p, g, hp, hgp, hg, e8, ?_, ?_, ?_, ?_⟩
  · rw [Nat.shiftRight_eq_div_pow]
    exact split_no_overflow (e.high - e.low) g hg (by omega)
  · rw [e8]; rfl
  · rw [e8]; rfl
  · exact encodeBit_narrow P e p g bit hp hgp hg hb i1 i2 (by omega) (by omega)

/-- Witness of C32: the state reached by the bits 1, 0 with a predictor
constantly 2048 in a buffer of 16 bytes, and the bit 1. -/
theorem encodeBit_interval_update_witness :
    ∃ e0 e : rolzEncoder Unit, newRolzEncoder [()] (List.replicate 16 0) 0 = some e0 ∧
      e0.encodeBits (fixedPredictor 2048) [1, 0] = some e ∧
      e0.low = 0 ∧ e0.high = 0x00FFFFFFFFFFFFFF ∧ e.low ≤ e.high ∧
      ∃ (p : Unit) (g : Nat), e.predictors[e.predictor]? = some p ∧
        (fixedPredictor 2048).Get p = (g : Int) ∧ g ≤ 4095 ∧
        (((e.high - e.low) >>> 4) * g) >>> 8 = (e.high - e.low) / 16 * g / 256 ∧
        ((e.high - e.low) >>> 4) * g < 2 ^ 64 ∧
        narrowLow e.low e.high g 1 =
          (if 1 = 1 then e.low else e.low + (((e.high - e.low) >>> 4) * g) >>> 8 + 1) ∧
        narrowHigh e.low e.high g 1 =
          (if 1 = 1 then e.low + (((e.high - e.low) >>> 4) * g) >>> 8 else e.high) ∧
        e.encodeBit (fixedPredictor 2048) 1 =
          rolzEncoder.flushLoop 2
            { predictors := e.predictors.set e.predictor ((fixedPredictor 2048).Update p 1),
              predictor := e.predictor, buf := e.buf, idx := e.idx,
              low := narrowLow e.low e.high g 1, high := narrowHigh e.low e.high g 1 } := by
  have hP : ∀ s : Unit, ∃ g : Nat, g ≤ 4095 ∧ (fixedPredictor 2048).Get s = (g : Int) :=
    fun _ => ⟨2048, by decide, rfl⟩
  have h0 : newRolzEncoder [()] (List.replicate 16 0) 0 =
      some ⟨[()], 0, List.replicate 16 0, 0, 0, ROLZ_TOP⟩ := rfl
  have h1 : ((⟨[()], 0, List.replicate 16 0, 0, 0, ROLZ_TOP⟩ : rolzEncoder Unit).encodeBits
      (fixedPredictor 2048) [1, 0]).isSome = true := by decide
  obtain ⟨e, he⟩ := Option.isSome_iff_exists.1 h1
  exact ⟨_, e, h0, he,
    encodeBit_interval_update (fixedPredictor 2048) hP [()] (List.replicate 16 0) 0 [1, 0]
      (by decide) _ e h0 he 1 (by decide)⟩
theorem flush_none_iff {σ : Type} (x : rolzEncoder σ) :
    x.flush = none ↔ x.buf.length < x.idx + 4 := by
  constructor
  · intro h
    by_contra hc
    obtain ⟨b, hb, -⟩ := putUint32BE_spec x.buf x.idx ((x.high >>> 32) % 2 ^ 32) (by omega)
    unfold rolzEncoder.flush at h
    simp only [hb, bind, andThen, pure] at h
    cases h
  · intro h
    cases hf : x.flush with
    | none => rfl
    | some x2 =>
      unfold rolzEncoder.flush at hf
      obtain ⟨b, hb, -⟩ := bind_eq_some_iff.1 hf
      have := putUint32BE_bound hb
      omega

theorem flush_spec {σ : Type} (x x2 : rolzEncoder σ) (h : x.flush = some x2) :
    x2.idx = x.idx + 4 ∧ x2.buf.length = x.buf.length ∧
      rd x2.buf x.idx = some ((x.high >>> 56) % 256) ∧
      rd x2.buf (x.idx + 1) = some ((x.high >>> 48) % 256) ∧
      rd x2.buf (x.idx + 2) = some ((x.high >>> 40) % 256) ∧
      rd x2.buf (x.idx + 3) = some ((x.high >>> 32) % 256) ∧
      (∀ j, j < x.idx ∨ x.idx + 4 ≤ j → rd x2.buf j = rd x.buf j) ∧
      x2.low = (x.low <<< 32) % 2 ^ 64 ∧
      x2.high = ((x.high <<< 32) % 2 ^ 64) ||| 0x00000000FFFFFFFF ∧
      x2.predictors = x.predictors ∧ x2.predictor = x.predictor ∧
      ¬ ((x2.low ^^^ x2.high) &&& 0x00FFFFFFFF000000 = 0) := by
  unfold rolzEncoder.flush at h
  obtain ⟨b, hb, h⟩ := bind_eq_some_iff.1 h
  cases h
  obtain ⟨b2, q1, q2, q3, -, -⟩ := putUint32BE_spec x.buf x.idx ((x.high >>> 32) % 2 ^ 32)
    (putUint32BE_bound hb)
  rw [hb] at q1
  cases q1
  obtain ⟨r0, r1, r2, r3⟩ := putUint32BE_bytes x.buf b x.idx _ hb
  simp only [Nat.shiftRight_eq_div_pow] at r0 r1 r2 r3
  refine ⟨rfl, q2, ?_, ?_, ?_, ?_, q3, rfl, rfl, rfl, rfl, flush_ends x.low x.high⟩
  · show rd b x.idx = _
    rw [r0, Nat.shiftRight_eq_div_pow]; congr 1; omega
  · show rd b (x.idx + 1) = _
    rw [r1, Nat.shiftRight_eq_div_pow]; congr 1; omega
  · show rd b (x.idx + 2) = _
    rw [r2, Nat.shiftRight_eq_div_pow]; congr 1; omega
  · show rd b (x.idx + 3) = _
    rw [r3, Nat.shiftRight_eq_div_pow]; congr 1; omega

/-- C33, refuted as stated (the mask `0x00FFFFFF000000`). From a new encoder,
`encodeBit(0)` with predictor value 272 leaves `low = 0x0010FFFFFFFFFFFF`,
`high = 0x00FFFFFFFFFFFFFF` and appends nothing (`idx` stays 0): the bounds
differ in bits 48..55, which the loop of the source tests, although
`(low XOR high) & 0x00FFFFFF000000` is 0. -/
theorem renormalisation_tests_bits_24_to_55 :
    ((newRolzEncoder [()] (List.replicate 16 0) 0).bind
        (fun e => e.encodeBit (fixedPredictor 272) 0)).map
      (fun e => (e.low, e.high, e.idx, (e.low ^^^ e.high) &&& 0x00FFFFFF000000,
        (e.low ^^^ e.high) &&& MASK_24_56)) =
      some (0x0010FFFFFFFFFFFF, 0x00FFFFFFFFFFFFFF, 0, 0, 0x00EF000000000000) := by
  decide!

/-- C33, amended. A call `encodeBit(bit)` is the loop of the source run on
the state `e1` left by the interval update and the update of the predictor.
For every state `x` the loop
`for (low ^ high) & 0x00FFFFFFFF000000 == 0` (`MASK_24_56`, bits 24..55) ends
after at most one round, whatever bound is put on the number of rounds: when
the condition holds it makes one step `flush`, after which the condition is
false. The step does not return when fewer than four bytes are left from
`idx`; otherwise it stores the top 32 bits of `high` big-endian at `idx`,
adds 4 to `idx`, shifts `low` and `high` left by 32 (in 64 bits) and fills the
low 32 bits of `high` with ones. -/
theorem encodeBit_renormalisation {σ : Type} (P : Predictor σ) (e : rolzEncoder σ) (p : σ)
    (bit : Nat) (hp : e.predictors[e.predictor]? = some p) :
    (∃ e1 : rolzEncoder σ, e.encodeBit P bit = rolzEncoder.flushLoop 2 e1 ∧ e1.buf = e.buf ∧
      e1.idx = e.idx ∧ e1.predictors = e.predictors.set e.predictor (P.Update p bit)) ∧
    ∀ x : rolzEncoder σ,
      (∀ fuel, rolzEncoder.flushLoop (fuel + 1) x =
        if (x.low ^^^ x.high) &&& 0x00FFFFFFFF000000 = 0 then x.flush else some x) ∧
      (x.flush = none ↔ x.buf.length < x.idx + 4) ∧
      ∀ x2, x.flush = some x2 →
        x2.idx = x.idx + 4 ∧ x2.buf.length = x.buf.length ∧
        rd x2.buf x.idx = some ((x.high >>> 56) % 256) ∧
        rd x2.buf (x.idx + 1) = some ((x.high >>> 48) % 256) ∧
        rd x2.buf (x.idx + 2) = some ((x.high >>> 40) % 256) ∧
        rd x2.buf (x.idx + 3) = some ((x.high >>> 32) % 256) ∧
        (∀ j, j < x.idx ∨ x.idx + 4 ≤ j → rd x2.buf j = rd x.buf j) ∧
        x2.low = (x.low <<< 32) % 2 ^ 64 ∧
        x2.high = ((x.high <<< 32) % 2 ^ 64) ||| 0x00000000FFFFFFFF ∧
        x2.predictors = x.predictors ∧ x2.predictor = x.predictor ∧
        ¬ ((x2.low ^^^ x2.high) &&& 0x00FFFFFFFF000000 = 0) := by
  refine ⟨?_, ?_⟩
  · unfold rolzEncoder.encodeBit
    simp only [bind, andThen, hp]
    exact ⟨_, rfl, rfl, rfl, rfl⟩
  · intro x
    exact ⟨fun fuel => flushLoop_once fuel x, flush_none_iff x, fun x2 h => flush_spec x x2 h⟩

/-- Witness of C33 (amended): a new encoder over a buffer of 16 bytes with a
predictor constantly 2048, and the bit 1. -/
theorem encodeBit_renormalisation_witness :
    (∃ e1 : rolzEncoder Unit,
      (⟨[()], 0, List.replicate 16 0, 0, 0, ROLZ_TOP⟩ : rolzEncoder Unit).encodeBit
        (fixedPredictor 2048) 1 = rolzEncoder.flushLoop 2 e1 ∧
      e1.buf = List.replicate 16 0 ∧ e1.idx = 0 ∧
      e1.predictors = [()].set 0 ((fixedPredictor 2048).Update () 1)) ∧
    ∀ x : rolzEncoder Unit,
      (∀ fuel, rolzEncoder.flushLoop (fuel + 1) x =
        if (x.low ^^^ x.high) &&& 0x00FFFFFFFF000000 = 0 then x.flush else some x) ∧
      (x.flush = none ↔ x.buf.length < x.idx + 4) ∧
      ∀ x2, x.flush = some x2 →
        x2.idx = x.idx + 4 ∧ x2.buf.length = x.buf.length ∧
        rd x2.buf x.idx = some ((x.high >>> 56) % 256) ∧
        rd x2.buf (x.idx + 1) = some ((x.high >>> 48) % 256) ∧
        rd x2.buf (x.idx + 2) = some ((x.high >>> 40) % 256) ∧
        rd x2.buf (x.idx + 3) = some ((x.high >>> 32) % 256) ∧
        (∀ j, j < x.idx ∨ x.idx + 4 ≤ j → rd x2.buf j = rd x.buf j) ∧
        x2.low = (x.low <<< 32) % 2 ^ 64 ∧
        x2.high = ((x.high <<< 32) % 2 ^ 64) ||| 0x00000000FFFFFFFF ∧
        x2.predictors = x.predictors ∧ x2.predictor = x.predictor ∧
        ¬ ((x2.low ^^^ x2.high) &&& 0x00FFFFFFFF000000 = 0) :=
  encodeBit_renormalisation (fixedPredictor 2048)
    (⟨[()], 0, List.replicate 16 0, 0, 0, ROLZ_TOP⟩ : rolzEncoder Unit) () 1 rfl
/-- One step of the lock step of `coder_lockstep`: the decoder that follows
the encoder before a call of `encodeBit` returns the bit and follows the
encoder after the call. -/
theorem follow_step {σ : Type} (P : Predictor σ)
    (hP : ∀ s, ∃ g : Nat, g ≤ 4095 ∧ P.Get s = (g : Int)) (b : Nat) (bs : List Nat)
    (e e1 ef : rolzEncoder σ) (hb : b ≤ 1) (hbs : ∀ x ∈ bs, x ≤ 1) (hI : EncInv e.low e.high)
    (hpi : e.predictor < e.predictors.length) (hB : Bytes e.buf)
    (he1 : e.encodeBit P b = some e1)
    (hrest : (e1.encodeBits P bs).bind rolzEncoder.dispose = some ef)
    (d : rolzDecoder σ) (hd : d.Follows e ef.buf) :
    ∃ d1, d.decodeBit P = some (d1, b) ∧ d1.Follows e1 ef.buf ∧ EncInv e1.low e1.high ∧
      e1.predictor < e1.predictors.length ∧ Bytes e1.buf := by
  obtain ⟨hd1, hd2, hd3, hd4, hd5, hd6, hd7⟩ := hd
  obtain ⟨p, hp⟩ := getElem?_of_lt e.predictors e.predictor hpi
  obtain ⟨g, hg, hgp⟩ := hP p
  have hn := narrow_facts e.low e.high g b hg hI
  have heq := encodeBit_eq P e p g b hp hgp hg hb hI
  rw [he1] at heq
  have hI2 := hI
  obtain ⟨i1, i2, i3, i4⟩ := hI2
  by_cases hc : (narrowLow e.low e.high g b / 2 ^ 24) % 2 ^ 32 =
      (narrowHigh e.low e.high g b / 2 ^ 24) % 2 ^ 32
  · simp only [hc, if_true] at heq
    cases hput : putUint32BE e.buf e.idx ((narrowHigh e.low e.high g b / 2 ^ 32) % 2 ^ 32) with
    | none => rw [hput] at heq; cases heq
    | some b1 =>
      rw [hput] at heq
      simp only [Option.bind, Option.some.injEq] at heq
      have hbound := putUint32BE_bound hput
      obtain ⟨b2, q1, q2, q3, q4, q5⟩ := putUint32BE_spec e.buf e.idx
        ((narrowHigh e.low e.high g b / 2 ^ 32) % 2 ^ 32) hbound
      rw [hput] at q1
      cases q1
      have hI1 := flushed_inv _ _ hn.2.1 (by omega) hc
      subst heq
      obtain ⟨r1, r2, r3, r4, r5, r6, r7, -⟩ := coder_lockstep P hP bs _ ef hbs hI1
        (by simpa using hpi) (q5 hB) hrest
      simp only at r1 r3 r5 r6 r7
      have hA : beBytes ef.buf e.idx 4 = (narrowHigh e.low e.high g b / 2 ^ 32) % 2 ^ 32 := by
        rw [beBytes_congr ef.buf b1 e.idx 4 (fun j _ hj => r5 j (by omega)), q4]
        omega
      have hV : beBytes ef.buf e.idx 8 =
          beBytes ef.buf e.idx 4 * 2 ^ 32 + beBytes ef.buf (e.idx + 4) 4 := by
        have := beBytes_add ef.buf e.idx 4 4
        norm_num at this ⊢
        exact this
      have hV2 : beBytes ef.buf (e.idx + 4) 8 =
          beBytes ef.buf (e.idx + 4) 4 * 2 ^ 32 + beBytes ef.buf (e.idx + 4 + 4) 4 := by
        have := beBytes_add ef.buf (e.idx + 4) 4 4
        norm_num at this ⊢
        exact this
      rw [show e.idx + 4 + 4 = e.idx + 8 by omega] at hV2
      have hCl := beBytes_lt r2 (e.idx + 8) 4
      norm_num at hCl
      rw [hA] at hV
      obtain ⟨hVl, hVh, hVc⟩ := flush_window _ _ _ _ _ _ hn.2.1 (by omega) (by omega) hc
        hV hV2 hCl r6 r7
      obtain ⟨n1, n2, n3⟩ := narrow_dec e.low e.high g b _ hg hI hb hVl hVh
      have hdeq := decodeBit_eq P d p g (by rw [hd3, hd4]; exact hp) hgp hg
        (by omega) (by omega) (by rw [hd1]; exact r2)
      rw [hd5, hd6, hd7] at hdeq
      have hc2 : (narrowLow e.low e.high g b % 2 ^ 56 / 2 ^ 24) % 2 ^ 32 =
          (narrowHigh e.low e.high g b % 2 ^ 56 / 2 ^ 24) % 2 ^ 32 := (cond_mod _ _).2 hc
      have hsp : d.idx + 4 ≤ d.buf.length := by rw [hd1, hd2]; omega
      simp only [n1, n2, n3, hc2, hsp, if_true] at hdeq
      refine ⟨_, hdeq, ⟨hd1, ?_, ?_, hd4, ?_, ?_, ?_⟩, hI1, by simpa using hpi, q5 hB⟩
      · show d.idx + 4 = e.idx + 4 + 8
        omega
      · show d.predictors.set d.predictor (P.Update p b) = _
        rw [hd3, hd4]
      · exact flush_low_mod _
      · exact flush_high_mod _
      · show (beBytes ef.buf e.idx 8 % 2 ^ 56 * 2 ^ 32 + beBytes d.buf d.idx 4) % 2 ^ 56 =
          beBytes ef.buf (e.idx + 4) 8 % 2 ^ 56
        rw [hd1, hd2]
        exact hVc
  · simp only [hc, if_false, Option.some.injEq] at heq
    have hI1 := narrowed_inv e.low e.high g b hg hI hc
    subst heq
    obtain ⟨r1, r2, r3, r4, r5, r6, r7, -⟩ := coder_lockstep P hP bs
      { predictors := e.predictors.set e.predictor (P.Update p b), predictor := e.predictor,
        buf := e.buf, idx := e.idx, low := narrowLow e.low e.high g b,
        high := narrowHigh e.low e.high g b } ef hbs hI1
      (by simpa using hpi) hB hrest
    simp only at r1 r3 r5 r6 r7
    obtain ⟨n1, n2, n3⟩ := narrow_dec e.low e.high g b _ hg hI hb r6 r7
    have hdeq := decodeBit_eq P d p g (by rw [hd3, hd4]; exact hp) hgp hg
      (by omega) (by omega) (by rw [hd1]; exact r2)
    rw [hd5, hd6, hd7] at hdeq
    have hc2 : ¬ (narrowLow e.low e.high g b % 2 ^ 56 / 2 ^ 24) % 2 ^ 32 =
        (narrowHigh e.low e.high g b % 2 ^ 56 / 2 ^ 24) % 2 ^ 32 :=
      fun hx => hc ((cond_mod _ _).1 hx)
    simp only [n1, n2, n3, hc2, if_false] at hdeq
    refine ⟨_, hdeq, ⟨hd1, hd2, ?_, hd4, rfl, rfl, rfl⟩, hI1, by simpa using hpi, hB⟩
    show d.predictors.set d.predictor (P.Update p b) = _
    rw [hd3, hd4]

/-- The decoder that follows the encoder keeps `low ≤ current ≤ high` below
`2^56` after every bit it returns. -/
theorem decoder_tracks {σ : Type} (P : Predictor σ)
    (hP : ∀ s, ∃ g : Nat, g ≤ 4095 ∧ P.Get s = (g : Int)) :
    ∀ (bits : List Nat) (e ef : rolzEncoder σ) (d : rolzDecoder σ),
      (∀ b ∈ bits, b ≤ 1) → EncInv e.low e.high → e.predictor < e.predictors.length →
      Bytes e.buf → (e.encodeBits P bits).bind rolzEncoder.dispose = some ef →
      d.Follows e ef.buf → ∀ k, k ≤ bits.length →
      ∃ dk, d.decodeBits P k = some (dk, bits.take k) ∧ dk.low ≤ dk.current ∧
        dk.current ≤ dk.high ∧ dk.high < 2 ^ 56 := by
  intro bits
  induction bits with
  | nil =>
    intro e ef d hbits hI hpi hB h hd k hk
    have hk0 : k = 0 := by simpa using hk
    subst hk0
    obtain ⟨-, -, -, -, -, r6, r7, -⟩ := coder_lockstep P hP [] e ef hbits hI hpi hB h
    obtain ⟨-, -, -, -, hd5, hd6, hd7⟩ := hd
    obtain ⟨i1, i2, i3, i4⟩ := hI
    refine ⟨d, rfl, ?_, ?_, ?_⟩
    · rw [hd5, hd7]; omega
    · rw [hd6, hd7]; omega
    · rw [hd6]; omega
  | cons b bs ih =>
    intro e ef d hbits hI hpi hB h hd k hk
    cases k with
    | zero =>
      obtain ⟨-, -, -, -, -, r6, r7, -⟩ := coder_lockstep P hP (b :: bs) e ef hbits hI hpi hB h
      obtain ⟨-, -, -, -, hd5, hd6, hd7⟩ := hd
      obtain ⟨i1, i2, i3, i4⟩ := hI
      refine ⟨d, rfl, ?_, ?_, ?_⟩
      · rw [hd5, hd7]; omega
      · rw [hd6, hd7]; omega
      · rw [hd6]; omega
    | succ k =>
      have hb : b ≤ 1 := hbits b (List.mem_cons_self _ _)
      have hbs : ∀ x ∈ bs, x ≤ 1 := fun x hx => hbits x (List.mem_cons_of_mem _ hx)
      simp only [rolzEncoder.encodeBits, bind, andThen_eq_bind] at h
      obtain ⟨e1, he1, hrest⟩ : ∃ e1, e.encodeBit P b = some e1 ∧
          (e1.encodeBits P bs).bind rolzEncoder.dispose = some ef := by
        cases hx : e.encodeBit P b with
        | none => rw [hx] at h; cases h
        | some e1 => rw [hx] at h; exact ⟨e1, rfl, h⟩
      obtain ⟨d1, g1, g2, g3, g4, g5⟩ := follow_step P hP b bs e e1 ef hb hbs hI hpi hB he1
        hrest d hd
      obtain ⟨dk, f1, f2, f3, f4⟩ := ih e1 ef d1 hbs g3 g4 g5 hrest g2 k
        (by simpa using hk)
      refine ⟨dk, ?_, f2, f3, f4⟩
      simp only [rolzDecoder.decodeBits, bind, andThen, g1, f1, pure, List.take_succ_cons]

/-- C38. Range-coder interval invariant, for a predictor with values in
`[0..4095]` and every sequence `s` of bits. Encoder: after each `encodeBit`
(the state `e` reached by any number `k` of the bits, the loop included)
`low ≤ high`, `low` and `high` agree on bits 56..63 and differ in bits 24..55,
and for every `g` in `[0..4095]` the interval `[low + split + 1, high]` is not
empty (`[low, low + split]` never is). Decoder: on the bytes a coding session
of `s` wrote, after each of the `k ≤ len(s)` calls of `decodeBit` (which
return the first `k` bits of `s`) `low ≤ current ≤ high` inside the 56-bit
window. -/
theorem coder_interval_invariant {σ : Type} (P : Predictor σ)
    (hP : ∀ s, ∃ g : Nat, g ≤ 4095 ∧ P.Get s = (g : Int)) (p0 : σ) (s : List Nat)
    (hs : ∀ b ∈ s, b ≤ 1) (buf : List Nat) (idx : Nat) (hbuf : Bytes buf) :
    (∀ k e, (newRolzEncoder [p0] buf idx).bind (fun e0 => e0.encodeBits P (s.take k)) = some e →
      e.low ≤ e.high ∧ e.high < 2 ^ 64 ∧ e.low >>> 56 = e.high >>> 56 ∧
      (e.low ^^^ e.high) &&& 0x00FFFFFFFF000000 ≠ 0 ∧
      ∀ g, g ≤ 4095 → e.low + ((((e.high - e.low) >>> 4) * g) >>> 8) + 1 ≤ e.high) ∧
    (∀ out n, encodeSequence P p0 buf idx s = some (out, n) → ∀ k, k ≤ s.length →
      ∃ d, (newRolzDecoder [p0] out idx).bind (fun d0 => d0.decodeBits P k) =
          some (d, s.take k) ∧
        d.low ≤ d.current ∧ d.current ≤ d.high ∧ d.high ≤ 0x00FFFFFFFFFFFFFF) := by
  have hI0 : EncInv 0 ROLZ_TOP := by unfold EncInv ROLZ_TOP; omega
  have hnew : newRolzEncoder [p0] buf idx =
      some { predictors := [p0], predictor := 0, buf := buf, idx := idx, low := 0,
             high := ROLZ_TOP } := rfl
  constructor
  · intro k e h
    rw [hnew] at h
    have h2 : rolzEncoder.encodeBits P
        { predictors := [p0], predictor := 0, buf := buf, idx := idx, low := 0,
          high := ROLZ_TOP } (s.take k) = some e := h
    obtain ⟨hI, -⟩ := encodeBits_inv P hP (s.take k) _ e
      (fun b hb => hs b (List.mem_of_mem_take hb)) hI0 (by simp) h2
    have hlt := EncInv_lt hI
    obtain ⟨i1, i2, i3, i4⟩ := hI
    refine ⟨i1, i2, ?_, ?_, ?_⟩
    · rw [Nat.shiftRight_eq_div_pow, Nat.shiftRight_eq_div_pow]; exact i3
    · intro hc
      exact i4 ((flush_cond_iff e.low e.high).1 hc)
    · intro g hg
      have hsl := split_lt (e.high - e.low) g hg (by omega)
      rw [Nat.shiftRight_eq_div_pow, Nat.shiftRight_eq_div_pow]
      have e8 : (e.high - e.low) / 2 ^ 4 * g / 2 ^ 8 = (e.high - e.low) / 16 * g / 256 := by
        norm_num
      rw [e8]
      omega
  · intro out n h k hk
    unfold encodeSequence at h
    simp only [hnew, bind, andThen_eq_bind] at h
    obtain ⟨ef, hef, rfl, rfl⟩ : ∃ ef, (rolzEncoder.encodeBits P
        { predictors := [p0], predictor := 0, buf := buf, idx := idx, low := 0,
          high := ROLZ_TOP } s).bind rolzEncoder.dispose = some ef ∧ ef.buf = out ∧
        ef.idx = n := by
      simp only [Option.bind] at h ⊢
      cases hx : rolzEncoder.encodeBits P
          { predictors := [p0], predictor := 0, buf := buf, idx := idx, low := 0,
            high := ROLZ_TOP } s with
      | none => rw [hx] at h; cases h
      | some e1 =>
        rw [hx] at h
        simp only at h ⊢
        cases hy : e1.dispose with
        | none => rw [hy] at h; cases h
        | some e2 =>
          rw [hy] at h
          simp only [pure, Option.some.injEq, Prod.mk.injEq] at h
          exact ⟨e2, rfl, h.1, h.2⟩
    obtain ⟨r1, r2, r3, r4, r5, r6, r7, -⟩ := coder_lockstep P hP s _ ef hs hI0 (by simp)
      hbuf hef
    simp only at r3 r6 r7
    have hV : beBytes ef.buf idx 8 % 2 ^ 56 = beBytes ef.buf idx 8 := by
      unfold ROLZ_TOP at r7; omega
    have hinit : rolzDecoder.initLoop ef.buf idx 8 0 0 = some (beBytes ef.buf idx 8) :=
      initLoop_spec ef.buf idx r2 8 0 (by omega) (by omega)
    obtain ⟨dk, f1, f2, f3, f4⟩ := decoder_tracks P hP s
      { predictors := [p0], predictor := 0, buf := buf, idx := idx, low := 0,
        high := ROLZ_TOP } ef
      { predictors := [p0], predictor := 0, buf := ef.buf, idx := idx + 8, low := 0,
        high := ROLZ_TOP, current := beBytes ef.buf idx 8 }
      hs hI0 (by simp) hbuf hef ⟨rfl, rfl, rfl, rfl, rfl, by rfl, hV.symm⟩ k hk
    refine ⟨dk, ?_, f2, f3, by omega⟩
    unfold newRolzDecoder
    simp only [bind, andThen, hinit, List.getElem?_cons_zero, pure]
    exact f1

/-- Witness of C38: the bits `1, 0, 1, 1, 0, 0, 1, 0` in a buffer of 48 zero
bytes with a predictor constantly 2048. -/
theorem coder_interval_invariant_witness :
    (∀ k e, (newRolzEncoder [()] (List.replicate 48 0) 0).bind
        (fun e0 => e0.encodeBits (fixedPredictor 2048) ([1, 0, 1, 1, 0, 0, 1, 0].take k)) =
          some e →
      e.low ≤ e.high ∧ e.high < 2 ^ 64 ∧ e.low >>> 56 = e.high >>> 56 ∧
      (e.low ^^^ e.high) &&& 0x00FFFFFFFF000000 ≠ 0 ∧
      ∀ g, g ≤ 4095 → e.low + ((((e.high - e.low) >>> 4) * g) >>> 8) + 1 ≤ e.high) ∧
    (∀ out n, encodeSequence (fixedPredictor 2048) () (List.replicate 48 0) 0
        [1, 0, 1, 1, 0, 0, 1, 0] = some (out, n) →
      ∀ k, k ≤ [1, 0, 1, 1, 0, 0, 1, 0].length →
      ∃ d, (newRolzDecoder [()] out 0).bind
          (fun d0 => d0.decodeBits (fixedPredictor 2048) k) =
          some (d, [1, 0, 1, 1, 0, 0, 1, 0].take k) ∧
        d.low ≤ d.current ∧ d.current ≤ d.high ∧ d.high ≤ 0x00FFFFFFFFFFFFFF) :=
  coder_interval_invariant (fixedPredictor 2048) (fun _ => ⟨2048, by decide, rfl⟩) ()
    [1, 0, 1, 1, 0, 0, 1, 0] (by decide) (List.replicate 48 0) 0
    (by intro x hx; have : x = 0 := List.eq_of_mem_replicate hx; omega)
/-! ## `emitCopy` and the byte-by-byte copy -/

theorem forwardCopy_length : ∀ (n : Nat) (buf : List Nat) (d r : Nat),
    (forwardCopy n buf d r).length = buf.length := by
  intro n
  induction n with
  | zero => intro buf d r; rfl
  | succ n ih =>
    intro buf d r
    rw [forwardCopy, ih, List.length_set]

theorem forwardCopy_outside : ∀ (n : Nat) (buf : List Nat) (d r j : Nat),
    j < d ∨ d + n ≤ j → rd (forwardCopy n buf d r) j = rd buf j := by
  intro n
  induction n with
  | zero => intro buf d r j _; rfl
  | succ n ih =>
    intro buf d r j hj
    rw [forwardCopy, ih _ _ _ _ (by omega)]
    unfold rd
    rw [List.getElem?_set_ne (by omega)]

theorem forwardCopy_add : ∀ (a b : Nat) (buf : List Nat) (d r : Nat),
    forwardCopy (a + b) buf d r = forwardCopy b (forwardCopy a buf d r) (d + a) (r + a) := by
  intro a
  induction a with
  | zero => intro b buf d r; simp only [Nat.zero_add, forwardCopy, Nat.add_zero]
  | succ a ih =>
    intro b buf d r
    rw [show a + 1 + b = (a + b) + 1 by omega, forwardCopy, ih, forwardCopy,
      show d + 1 + a = d + (a + 1) by omega, show r + 1 + a = r + (a + 1) by omega]

theorem copyByte_eq (buf : List Nat) (d p2 : Nat) (hr : p2 < buf.length) (hd : d < buf.length) :
    copyByte buf d (p2 : Int) = some (buf.set d (buf.getD p2 0)) := by
  have h1 : rdI buf (p2 : Int) = some (buf.getD p2 0) := by
    unfold rdI
    rw [if_pos (Int.natCast_nonneg _), Int.toNat_ofNat]
    exact rd_eq_getD hr
  have h2 : wr buf d (buf.getD p2 0) = some (buf.set d (buf.getD p2 0)) :=
    wr_eq_some.2 ⟨hd, rfl⟩
  unfold copyByte
  simp only [h1, h2, bind_eq_bind, Option.some_bind]

theorem copyByte_forward (buf : List Nat) (d p2 : Nat) (r : Int) (hrr : r = (p2 : Int))
    (hr : p2 < buf.length) (hd : d < buf.length) :
    copyByte buf d r = some (forwardCopy 1 buf d p2) := by
  subst hrr
  exact copyByte_eq buf d p2 hr hd

theorem emitCopy1_forward : ∀ (fuel : Nat) (buf : List Nat) (d : Nat) (r : Int) (m p2 : Nat),
    r = (p2 : Int) → p2 + m ≤ buf.length → d + m ≤ buf.length → m ≤ fuel →
    emitCopy1 fuel buf d r m = some (forwardCopy m buf d p2, d + m) := by
  intro fuel
  induction fuel with
  | zero =>
    intro buf d r m p2 _ _ _ hm
    have : m = 0 := by omega
    subst this
    rfl
  | succ fuel ih =>
    intro buf d r m p2 hr h1 h2 hm
    rw [emitCopy1]
    by_cases h0 : m ≠ 0
    · rw [if_pos h0]
      subst hr
      have e1 := copyByte_eq buf d p2 (by omega) (by omega)
      have e2 := ih (buf.set d (buf.getD p2 0)) (d + 1) ((p2 : Int) + 1) (m - 1) (p2 + 1)
        (by push_cast; rfl) (by rw [List.length_set]; omega) (by rw [List.length_set]; omega)
        (by omega)
      simp only [e1, bind_eq_bind, Option.some_bind, e2]
      obtain ⟨m', rfl⟩ : ∃ m', m = m' + 1 := ⟨m - 1, by omega⟩
      rw [forwardCopy, Nat.add_sub_cancel, show d + 1 + m' = d + (m' + 1) by omega]
    · have : m = 0 := by omega
      subst this
      rw [if_neg h0]
      rfl

theorem forwardCopy_one_more (n : Nat) (buf : List Nat) (d r : Nat) :
    forwardCopy 1 (forwardCopy n buf d r) (d + n) (r + n) = forwardCopy (n + 1) buf d r :=
  (forwardCopy_add n 1 buf d r).symm

theorem copy_steps (buf : List Nat) (d p2 n : Nat) (r : Int) (hr : r = (p2 : Int))
    (h1 : p2 + n < buf.length) (h2 : d + n < buf.length) :
    copyByte (forwardCopy n buf d p2) (d + n) (r + (n : Int)) =
      some (forwardCopy (n + 1) buf d p2) := by
  rw [← forwardCopy_one_more]
  exact copyByte_forward _ _ (p2 + n) _ (by rw [hr]; push_cast; rfl)
    (by rw [forwardCopy_length]; exact h1) (by rw [forwardCopy_length]; exact h2)

theorem emitCopy8_forward : ∀ (fuel : Nat) (buf : List Nat) (d : Nat) (r : Int) (m p2 : Nat),
    r = (p2 : Int) → p2 + m ≤ buf.length → d + m ≤ buf.length → m ≤ 8 * fuel + 7 →
    emitCopy8 fuel buf d r m =
      some (forwardCopy (m / 8 * 8) buf d p2, d + m / 8 * 8, r + ((m / 8 * 8 : Nat) : Int),
        m % 8) := by
  intro fuel
  induction fuel with
  | zero =>
    intro buf d r m p2 _ _ _ hm
    have e : m / 8 * 8 = 0 := by omega
    have e2 : m % 8 = m := by omega
    rw [e, e2]
    simp only [emitCopy8, forwardCopy, Nat.add_zero, Nat.cast_zero, Int.add_zero]
  | succ fuel ih =>
    intro buf d r m p2 hr h1 h2 hm
    rw [emitCopy8]
    by_cases h8 : m ≥ 8
    · rw [if_pos h8]
      have s0 := copyByte_forward buf d p2 r hr (by omega) (by omega)
      have s1 := copy_steps buf d p2 1 r hr (by omega) (by omega)
      have s2 := copy_steps buf d p2 2 r hr (by omega) (by omega)
      have s3 := copy_steps buf d p2 3 r hr (by omega) (by omega)
      have s4 := copy_steps buf d p2 4 r hr (by omega) (by omega)
      have s5 := copy_steps buf d p2 5 r hr (by omega) (by omega)
      have s6 := copy_steps buf d p2 6 r hr (by omega) (by omega)
      have s7 := copy_steps buf d p2 7 r hr (by omega) (by omega)
      simp only [Nat.cast_ofNat, Nat.cast_one, Nat.reduceAdd] at s1 s2 s3 s4 s5 s6 s7
      have e9 := ih (forwardCopy 8 buf d p2) (d + 8) (r + 8) (m - 8) (p2 + 8)
        (by rw [hr]; push_cast; rfl) (by rw [forwardCopy_length]; omega)
        (by rw [forwardCopy_length]; omega) (by omega)
      simp only [s0, s1, s2, s3, s4, s5, s6, s7, bind_eq_bind, Option.some_bind, e9]
      have ea : m / 8 * 8 = 8 + (m - 8) / 8 * 8 := by omega
      rw [ea, forwardCopy_add 8 ((m - 8) / 8 * 8) buf d p2]
      have eb : (m - 8) % 8 = m % 8 := by omega
      rw [eb, show d + 8 + (m - 8) / 8 * 8 = d + (8 + (m - 8) / 8 * 8) by omega]
      have ec : r + 8 + (((m - 8) / 8 * 8 : Nat) : Int) =
          r + ((8 + (m - 8) / 8 * 8 : Nat) : Int) := by push_cast; ring
      rw [ec]
    · rw [if_neg h8]
      have e : m / 8 * 8 = 0 := by omega
      have e2 : m % 8 = m := by omega
      rw [e, e2]
      simp only [forwardCopy, Nat.add_zero, Nat.cast_zero, Int.add_zero]

/-- C36. `emitCopy` equals the forward byte-by-byte copy: for every buffer,
`0 ≤ ref < dstIdx` and `matchLen ≥ 0` with `dstIdx + matchLen + 3 ≤ len(buf)`,
`emitCopy(buf, dstIdx, ref, matchLen)` returns `dstIdx + matchLen + 3` and
leaves the buffer `forwardCopy` gives: the assignments
`buf[dstIdx+k] = buf[ref+k]` for `k = 0, ..., matchLen+2` in increasing order,
whether or not the two ranges overlap. The length of the buffer and the bytes
outside `[dstIdx, dstIdx+matchLen+3)` are unchanged. -/
theorem emitCopy_is_forward_copy (buf : List Nat) (dstIdx ref matchLen : Nat)
    (href : ref < dstIdx) (hlen : dstIdx + matchLen + 3 ≤ buf.length) :
    emitCopy buf dstIdx (ref : Int) matchLen =
      some (forwardCopy (matchLen + 3) buf dstIdx ref, dstIdx + matchLen + 3) ∧
    (forwardCopy (matchLen + 3) buf dstIdx ref).length = buf.length ∧
    ∀ j, j < dstIdx ∨ dstIdx + matchLen + 3 ≤ j →
      rd (forwardCopy (matchLen + 3) buf dstIdx ref) j = rd buf j := by
  refine ⟨?_, forwardCopy_length _ _ _ _, fun j hj => forwardCopy_outside _ _ _ _ j (by omega)⟩
  have s0 := copyByte_forward buf dstIdx ref (ref : Int) rfl (by omega) (by omega)
  have s1 := copy_steps buf dstIdx ref 1 (ref : Int) rfl (by omega) (by omega)
  have s2 := copy_steps buf dstIdx ref 2 (ref : Int) rfl (by omega) (by omega)
  simp only [Nat.cast_ofNat, Nat.cast_one, Nat.reduceAdd] at s1 s2
  have e8 := emitCopy8_forward matchLen (forwardCopy 3 buf dstIdx ref) (dstIdx + 3)
    ((ref : Int) + 3) matchLen (ref + 3) (by push_cast; rfl)
    (by rw [forwardCopy_length]; omega) (by rw [forwardCopy_length]; omega) (by omega)
  have e1 := emitCopy1_forward (matchLen % 8)
    (forwardCopy (matchLen / 8 * 8) (forwardCopy 3 buf dstIdx ref) (dstIdx + 3) (ref + 3))
    (dstIdx + 3 + matchLen / 8 * 8) ((ref : Int) + 3 + ((matchLen / 8 * 8 : Nat) : Int))
    (matchLen % 8) (ref + 3 + matchLen / 8 * 8) (by push_cast; rfl)
    (by rw [forwardCopy_length, forwardCopy_length]; omega)
    (by rw [forwardCopy_length, forwardCopy_length]; omega) (le_refl _)
  unfold emitCopy
  simp only [s0, s1, s2, e8, bind_eq_bind, Option.some_bind, e1]
  rw [← forwardCopy_add, ← forwardCopy_add]
  rw [show 3 + (matchLen / 8 * 8 + matchLen % 8) = matchLen + 3 by omega,
    show dstIdx + 3 + matchLen / 8 * 8 + matchLen % 8 = dstIdx + matchLen + 3 by omega]

/-- Witness of C36: an overlapping copy, `ref = 1`, `dstIdx = 2`,
`matchLen = 9` in a buffer of 16 bytes. -/
theorem emitCopy_is_forward_copy_witness :
    emitCopy [7, 8, 0, 0, 0, 0, 0, 0, 0, 0, 0, 0, 0, 0, 5, 6] 2 ((1 : Nat) : Int) 9 =
      some (forwardCopy (9 + 3) [7, 8, 0, 0, 0, 0, 0, 0, 0, 0, 0, 0, 0, 0, 5, 6] 2 1,
        2 + 9 + 3) ∧
    (forwardCopy (9 + 3) [7, 8, 0, 0, 0, 0, 0, 0, 0, 0, 0, 0, 0, 0, 5, 6] 2 1).length =
      [7, 8, 0, 0, 0, 0, 0, 0, 0, 0, 0, 0, 0, 0, 5, 6].length ∧
    ∀ j, j < 2 ∨ 2 + 9 + 3 ≤ j →
      rd (forwardCopy (9 + 3) [7, 8, 0, 0, 0, 0, 0, 0, 0, 0, 0, 0, 0, 0, 5, 6] 2 1) j =
        rd [7, 8, 0, 0, 0, 0, 0, 0, 0, 0, 0, 0, 0, 0, 5, 6] j :=
  emitCopy_is_forward_copy [7, 8, 0, 0, 0, 0, 0, 0, 0, 0, 0, 0, 0, 0, 5, 6] 2 1 9
    (by decide) (by decide)
/-! ## The bit context of the ROLZ-local predictor -/

theorem pw_succ (n : Nat) : ((2 ^ (n + 1) : Nat) : Int) = 2 * ((2 ^ n : Nat) : Int) := by
  rw [Nat.pow_succ, Nat.cast_mul]
  rw [Int.mul_comm]
  rfl

theorem pw_pos (n : Nat) : 1 ≤ ((2 ^ n : Nat) : Int) := by
  have : 1 ≤ 2 ^ n := Nat.one_le_two_pow
  exact Int.ofNat_le.2 this

theorem pw_mono (a b : Nat) (h : a ≤ b) : ((2 ^ a : Nat) : Int) ≤ ((2 ^ b : Nat) : Int) :=
  Int.ofNat_le.2 (Nat.pow_le_pow_right (by norm_num) h)

theorem pw_22 (k : Nat) (h : k ≤ 22) : ((2 ^ k : Nat) : Int) ≤ 4194304 :=
  pw_mono k 22 h

theorem pw_ge_2 (k : Nat) (h : 1 ≤ k) : 2 ≤ ((2 ^ k : Nat) : Int) :=
  pw_mono 1 k h

theorem newRolzPredictor_fields (k : Nat) :
    (newRolzPredictor k).logSize = k ∧
    (newRolzPredictor k).size = i32 ((1 <<< k : Nat) : Int) ∧
    (newRolzPredictor k).probs.len = (i32 ((256 : Int) * i32 ((1 <<< k : Nat) : Int))).toNat ∧
    (newRolzPredictor k).c1 = 1 ∧ (newRolzPredictor k).ctx = 0 := by
  refine ⟨rfl, rfl, ?_, rfl, rfl⟩
  unfold newRolzPredictor rolzPredictor.reset Arr.fill Arr.make
  dsimp only

theorem step_setContext (p : rolzPredictor) (ctx : Nat) :
    p.step (PredOp.setContext ctx) = p.setContext ctx := rfl

theorem step_update (p : rolzPredictor) (bit : Nat) :
    p.step (PredOp.update bit) = p.Update bit := rfl

theorem setContext_parts (p : rolzPredictor) (ctx : Nat) :
    (p.setContext ctx).logSize = p.logSize ∧ (p.setContext ctx).size = p.size ∧
    (p.setContext ctx).probs = p.probs ∧ (p.setContext ctx).c1 = p.c1 ∧
    (p.setContext ctx).ctx = i32 (((ctx % 256 * 2 ^ p.logSize : Nat) : Int)) := by
  cases p
  exact ⟨rfl, rfl, rfl, rfl, rfl⟩

theorem i32_small (K : Int) (hp : 0 ≤ K) (hq : K ≤ 4194304) :
    i32 K = K ∧ i32 (256 * K) = 256 * K :=
  ⟨i32_of_range _ (by omega) (by omega), i32_of_range _ (by omega) (by omega)⟩

theorem Shaped_new (k : Nat) (h1k : 1 ≤ k) (h22 : k ≤ 22) : (newRolzPredictor k).Shaped k := by
  have hp := pw_ge_2 k h1k
  have hq := pw_22 k h22
  have e1 : ((1 <<< k : Nat) : Int) = ((2 ^ k : Nat) : Int) := by
    rw [Nat.shiftLeft_eq, Nat.one_mul]
  have e3 : (256 * ((2 ^ k : Nat) : Int)).toNat = 256 * 2 ^ k := by
    have : ((256 * 2 ^ k : Nat) : Int) = 256 * ((2 ^ k : Nat) : Int) := by
      rw [Nat.cast_mul, Nat.cast_ofNat]
    rw [← this, Int.toNat_ofNat]
  obtain ⟨e2, e4⟩ := i32_small ((2 ^ k : Nat) : Int) (le_trans (by decide) hp) hq
  have h4 : (1 : Int) < ((2 ^ k : Nat) : Int) := lt_of_lt_of_le (by decide) hp
  have h7 : (0 : Int) ≤ 255 * ((2 ^ k : Nat) : Int) :=
    Int.mul_nonneg (by decide) (le_trans (by decide) hp)
  obtain ⟨f1, f2, f3, f4, f5⟩ := newRolzPredictor_fields k
  rw [e1, e2] at f2
  rw [e1, e2, e4, e3] at f3
  unfold rolzPredictor.Shaped
  rw [f1, f2, f3, f4, f5]
  exact ⟨rfl, rfl, rfl, le_refl _, h4, le_refl _, h7⟩

theorem Shaped_setContext (p : rolzPredictor) (k ctx : Nat) (h22 : k ≤ 22) (h : p.Shaped k) :
    (p.setContext ctx).Shaped k := by
  obtain ⟨h1, h2, h3, h4, h5, h6, h7⟩ := h
  obtain ⟨g1, g2, g3, g4, e⟩ := setContext_parts p ctx
  have hp := pw_pos k
  have hq := pw_22 k h22
  have hm : ((ctx % 256 * 2 ^ k : Nat) : Int) =
      ((ctx % 256 : Nat) : Int) * ((2 ^ k : Nat) : Int) := Nat.cast_mul _ _
  have hc0 : (0 : Int) ≤ ((ctx % 256 : Nat) : Int) := Int.natCast_nonneg _
  have hc1 : ((ctx % 256 : Nat) : Int) ≤ 255 := by
    have : ctx % 256 ≤ 255 := by omega
    exact Int.ofNat_le.2 this
  rw [h1, hm] at e
  unfold rolzPredictor.Shaped
  rw [g1, g2, g3, g4, e]
  generalize ((ctx % 256 : Nat) : Int) = c at *
  generalize ((2 ^ k : Nat) : Int) = K at *
  have hle : c * K ≤ 255 * K := Int.mul_le_mul_of_nonneg_right hc1 (by omega)
  have hge : 0 ≤ c * K := Int.mul_nonneg hc0 (by omega)
  generalize c * K = X at *
  rw [i32_of_range X (by omega) (by omega)]
  exact ⟨h1, h2, h3, h4, h5, hge, hle⟩

theorem Update_c1 (p : rolzPredictor) (bit : Nat) :
    (p.Update bit).c1 =
      (if i32 (i32 (p.c1 * 2) + (bit : Int)) ≥ p.size then 1
       else i32 (i32 (p.c1 * 2) + (bit : Int))) ∧
    (p.Update bit).size = p.size ∧ (p.Update bit).logSize = p.logSize ∧
    (p.Update bit).ctx = p.ctx ∧ (p.Update bit).probs.len = p.probs.len :=
  ⟨rfl, rfl, rfl, rfl, rfl⟩

theorem Update_c1_of_Shaped (p : rolzPredictor) (k bit : Nat) (h22 : k ≤ 22) (hb : bit < 256)
    (h : p.Shaped k) :
    (p.Update bit).c1 =
      (if p.c1 * 2 + (bit : Int) ≥ ((2 ^ k : Nat) : Int) then 1 else p.c1 * 2 + (bit : Int)) := by
  obtain ⟨h1, h2, h3, h4, h5, h6, h7⟩ := h
  have hq := pw_22 k h22
  obtain ⟨u1, -⟩ := Update_c1 p bit
  have ec : i32 (i32 (p.c1 * 2) + (bit : Int)) = p.c1 * 2 + (bit : Int) := by
    rw [i32_of_range (p.c1 * 2) (by omega) (by omega), i32_of_range _ (by omega) (by omega)]
  rw [ec, h2] at u1
  exact u1

theorem Shaped_Update (p : rolzPredictor) (k bit : Nat) (h1k : 1 ≤ k) (h22 : k ≤ 22)
    (hb : bit < 256) (h : p.Shaped k) : (p.Update bit).Shaped k := by
  have u1 := Update_c1_of_Shaped p k bit h22 hb h
  obtain ⟨h1, h2, h3, h4, h5, h6, h7⟩ := h
  have h2le := pw_ge_2 k h1k
  obtain ⟨-, u2, u3, u4, u5⟩ := Update_c1 p bit
  refine ⟨by rw [u3]; exact h1, by rw [u2]; exact h2, by rw [u5]; exact h3, ?_, ?_,
    by rw [u4]; exact h6, by rw [u4]; exact h7⟩
  · rw [u1]; split <;> omega
  · rw [u1, u2, h2]; split <;> omega

theorem Shaped_run (k : Nat) (h1k : 1 ≤ k) (h22 : k ≤ 22) :
    ∀ (ops : List PredOp) (p : rolzPredictor), p.Shaped k →
      (∀ b, PredOp.update b ∈ ops → b < 256) → (p.run ops).Shaped k := by
  intro ops
  induction ops with
  | nil => intro p h _; exact h
  | cons op ops ih =>
    intro p h hb
    have hrest : ∀ b, PredOp.update b ∈ ops → b < 256 :=
      fun b hm => hb b (List.mem_cons_of_mem _ hm)
    rw [rolzPredictor_run_cons]
    cases op with
    | setContext ctx =>
      rw [step_setContext]
      exact ih _ (Shaped_setContext p k ctx h22 h) hrest
    | update bit =>
      rw [step_update]
      exact ih _ (Shaped_Update p k bit h1k h22 (hb bit (List.mem_cons_self _ _)) h) hrest

theorem Shaped_idxOk (p : rolzPredictor) (k : Nat) (h : p.Shaped k) : p.idxOk := by
  obtain ⟨h1, h2, h3, h4, h5, h6, h7⟩ := h
  unfold rolzPredictor.idxOk
  refine ⟨by omega, ?_⟩
  rw [h3]
  have e : ((256 * 2 ^ k : Nat) : Int) = 256 * ((2 ^ k : Nat) : Int) := by
    rw [Nat.cast_mul, Nat.cast_ofNat]
  have : ((p.ctx + p.c1).toNat : Int) < ((256 * 2 ^ k : Nat) : Int) := by
    rw [Int.toNat_of_nonneg (by omega), e]; omega
  exact Int.ofNat_lt.1 this

theorem filter_setContext (ctx : Nat) (ops : List PredOp) :
    (PredOp.setContext ctx :: ops).filter PredOp.isUpdate = ops.filter PredOp.isUpdate := rfl

theorem filter_update (bit : Nat) (ops : List PredOp) :
    ((PredOp.update bit :: ops).filter PredOp.isUpdate).length =
      (ops.filter PredOp.isUpdate).length + 1 := rfl

theorem run_no_update : ∀ (ops : List PredOp) (p : rolzPredictor),
    (ops.filter PredOp.isUpdate).length = 0 → (p.run ops).c1 = p.c1 := by
  intro ops
  induction ops with
  | nil => intro p _; rfl
  | cons op ops ih =>
    intro p h
    rw [rolzPredictor_run_cons]
    cases op with
    | setContext ctx =>
      rw [filter_setContext] at h
      rw [ih _ h, step_setContext]
      exact (setContext_parts p ctx).2.2.2.1
    | update bit =>
      rw [filter_update] at h
      omega

/-- From `2^i ≤ c1 < 2^(i+1)` with `i < k`, calls with `j` updates in all,
`i + j ≤ k`, lead to `2^(i+j) ≤ c1 < 2^(i+j+1)` when `i + j < k` and to
`c1 = 1` when `i + j = k`. -/
theorem c1_cycle (k : Nat) (h1k : 1 ≤ k) (h22 : k ≤ 22) :
    ∀ (ops : List PredOp) (p : rolzPredictor) (i : Nat), p.Shaped k →
      (∀ b, PredOp.update b ∈ ops → b ≤ 1) → i < k → ((2 ^ i : Nat) : Int) ≤ p.c1 →
      p.c1 < ((2 ^ (i + 1) : Nat) : Int) → i + (ops.filter PredOp.isUpdate).length ≤ k →
      (i + (ops.filter PredOp.isUpdate).length < k →
        ((2 ^ (i + (ops.filter PredOp.isUpdate).length) : Nat) : Int) ≤ (p.run ops).c1 ∧
        (p.run ops).c1 < ((2 ^ (i + (ops.filter PredOp.isUpdate).length + 1) : Nat) : Int)) ∧
      (i + (ops.filter PredOp.isUpdate).length = k → (p.run ops).c1 = 1) := by
  intro ops
  induction ops with
  | nil =>
    intro p i _ _ hi h1 h2 _
    simp only [List.filter_nil, List.length_nil, Nat.add_zero]
    exact ⟨fun _ => ⟨h1, h2⟩, fun h => absurd h (by omega)⟩
  | cons op ops ih =>
    intro p i hS hb hi h1 h2 hj
    have hrest : ∀ b, PredOp.update b ∈ ops → b ≤ 1 :=
      fun b hm => hb b (List.mem_cons_of_mem _ hm)
    rw [rolzPredictor_run_cons]
    cases op with
    | setContext ctx =>
      rw [filter_setContext] at hj ⊢
      have e := (setContext_parts p ctx).2.2.2.1
      rw [step_setContext]
      exact ih _ i (Shaped_setContext p k ctx h22 hS) hrest hi (by rw [e]; exact h1)
        (by rw [e]; exact h2) hj
    | update bit =>
      have hbit : bit ≤ 1 := hb bit (List.mem_cons_self _ _)
      rw [filter_update] at hj ⊢
      rw [step_update]
      have hS2 : (p.Update bit).Shaped k :=
        Shaped_Update p k bit h1k h22 (by omega) hS
      have u1 := Update_c1_of_Shaped p k bit h22 (by omega) hS
      have hbi : (0 : Int) ≤ (bit : Int) ∧ (bit : Int) ≤ 1 :=
        ⟨Int.natCast_nonneg _, Int.ofNat_le.2 hbit⟩
      have p1 := pw_succ i
      have p2 := pw_succ (i + 1)
      by_cases hik : i + 1 < k
      · have hm := pw_mono (i + 1 + 1) k (by omega)
        have e : (p.Update bit).c1 = p.c1 * 2 + (bit : Int) := by
          rw [u1, if_neg (by omega)]
        have := ih (p.Update bit) (i + 1) hS2 hrest hik (by rw [e]; omega)
          (by rw [e]; omega) (by omega)
        rw [show i + 1 + (ops.filter PredOp.isUpdate).length =
          i + ((ops.filter PredOp.isUpdate).length + 1) by omega] at this
        exact this
      · have hk : i + 1 = k := by omega
        have hz : (ops.filter PredOp.isUpdate).length = 0 := by omega
        have e : (p.Update bit).c1 = 1 := by
          rw [u1, if_pos (by rw [← hk]; omega)]
        refine ⟨fun h => absurd h (by omega), fun _ => ?_⟩
        rw [run_no_update ops _ hz, e]

/-- C37, refuted as stated (every `logSize ≥ 1`). The size of the table is the
`int32` product `256*size`: for `logSize = 24` it wraps to 0, so a new
predictor has `c1 = 1 < size = 2^24` and an empty table, and the index
`ctx + c1 = 1` is outside it; for `logSize = 31`, `size = 1 << 31` is
`-2147483648` and `c1 = 1` is not below it. -/
theorem rolzPredictor_table_wraps :
    (newRolzPredictor 24).size = 16777216 ∧ (newRolzPredictor 24).c1 = 1 ∧
    (newRolzPredictor 24).ctx = 0 ∧ (newRolzPredictor 24).probs.len = 0 ∧
    ¬ (newRolzPredictor 24).idxOk ∧
    (newRolzPredictor 31).size = -2147483648 ∧ (newRolzPredictor 31).c1 = 1 := by
  obtain ⟨-, f2, f3, f4, f5⟩ := newRolzPredictor_fields 24
  obtain ⟨-, g2, -, g4, -⟩ := newRolzPredictor_fields 31
  have e1 : i32 ((1 <<< 24 : Nat) : Int) = 16777216 := by decide
  have e2 : (i32 ((256 : Int) * i32 ((1 <<< 24 : Nat) : Int))).toNat = 0 := by decide
  have e3 : i32 ((1 <<< 31 : Nat) : Int) = -2147483648 := by decide
  rw [e1] at f2
  rw [e2] at f3
  rw [e3] at g2
  refine ⟨f2, f4, f5, f3, ?_, g2, g4⟩
  unfold rolzPredictor.idxOk
  rw [f3, f4, f5]
  decide

/-- C37, amended: `logSize` in `[1..22]`, which covers the values 2 to 9 the
codecs use. After any sequence of `setContext` and `Update` calls on a new
predictor, `1 ≤ c1 < size = 2^logSize`, the table has `256 * 2^logSize` cells
and the index `ctx + c1` is inside it. From a state with `c1 = 1`, calls
with bits 0 or 1 among which `j` are updates leave `2^j ≤ c1 < 2^(j+1)`, so
`c1 ≠ 1`, for `1 ≤ j < logSize`, and `c1 = 1` for `j = logSize`. -/
theorem rolzPredictor_bit_context (logSize : Nat) (h1 : 1 ≤ logSize) (h22 : logSize ≤ 22)
    (ops : List PredOp) (hb : ∀ b, PredOp.update b ∈ ops → b < 256) :
    1 ≤ ((newRolzPredictor logSize).run ops).c1 ∧
    ((newRolzPredictor logSize).run ops).c1 < ((newRolzPredictor logSize).run ops).size ∧
    ((newRolzPredictor logSize).run ops).size = ((2 ^ logSize : Nat) : Int) ∧
    ((newRolzPredictor logSize).run ops).probs.len = 256 * 2 ^ logSize ∧
    ((newRolzPredictor logSize).run ops).idxOk ∧
    ∀ ops2 : List PredOp, (∀ b, PredOp.update b ∈ ops2 → b ≤ 1) →
      ((newRolzPredictor logSize).run ops).c1 = 1 →
      (1 ≤ (ops2.filter PredOp.isUpdate).length →
        (ops2.filter PredOp.isUpdate).length < logSize →
        ((2 ^ (ops2.filter PredOp.isUpdate).length : Nat) : Int) ≤
            (((newRolzPredictor logSize).run ops).run ops2).c1 ∧
          (((newRolzPredictor logSize).run ops).run ops2).c1 <
            ((2 ^ ((ops2.filter PredOp.isUpdate).length + 1) : Nat) : Int) ∧
          (((newRolzPredictor logSize).run ops).run ops2).c1 ≠ 1) ∧
      ((ops2.filter PredOp.isUpdate).length = logSize →
        (((newRolzPredictor logSize).run ops).run ops2).c1 = 1) := by
  have hS := Shaped_run logSize h1 h22 ops _ (Shaped_new logSize h1 h22) hb
  have hidx := Shaped_idxOk _ logSize hS
  generalize (newRolzPredictor logSize).run ops = p at *
  have hS2 := hS
  obtain ⟨s1, s2, s3, s4, s5, s6, s7⟩ := hS2
  refine ⟨s4, s5, s2, s3, hidx, ?_⟩
  intro ops2 hb2 hc1
  have hlt : (0 : Nat) < logSize := by omega
  have h20 : ((2 ^ 0 : Nat) : Int) ≤ p.c1 := by rw [hc1]; decide
  have h21 : p.c1 < ((2 ^ (0 + 1) : Nat) : Int) := by rw [hc1]; decide
  constructor
  · intro hj1 hj2
    have hc := c1_cycle logSize h1 h22 ops2 p 0 hS hb2 hlt h20 h21 (by omega)
    rw [Nat.zero_add] at hc
    obtain ⟨c1, c2⟩ := hc.1 hj2
    refine ⟨c1, c2, ?_⟩
    have hm := pw_mono 1 (ops2.filter PredOp.isUpdate).length hj1
    have h2 : (2 : Int) ≤ ((2 ^ 1 : Nat) : Int) := by decide
    intro h
    rw [h] at c1
    exact absurd (le_trans (le_trans h2 hm) c1) (by decide)
  · intro hj
    have hc := c1_cycle logSize h1 h22 ops2 p 0 hS hb2 hlt h20 h21 (by omega)
    rw [Nat.zero_add] at hc
    exact hc.2 hj

/-- Witness of C37 (amended): `logSize = 9`, the calls `setContext(0x41)`,
`Update(1)`, `Update(0)`. -/
theorem rolzPredictor_bit_context_witness :
    1 ≤ ((newRolzPredictor 9).run [.setContext 0x41, .update 1, .update 0]).c1 ∧
    ((newRolzPredictor 9).run [.setContext 0x41, .update 1, .update 0]).c1 <
      ((newRolzPredictor 9).run [.setContext 0x41, .update 1, .update 0]).size ∧
    ((newRolzPredictor 9).run [.setContext 0x41, .update 1, .update 0]).size =
      ((2 ^ 9 : Nat) : Int) ∧
    ((newRolzPredictor 9).run [.setContext 0x41, .update 1, .update 0]).probs.len =
      256 * 2 ^ 9 ∧
    ((newRolzPredictor 9).run [.setContext 0x41, .update 1, .update 0]).idxOk :=
  let h := rolzPredictor_bit_context 9 (by decide) (by decide)
    [.setContext 0x41, .update 1, .update 0]
    (by
      intro b hm
      simp only [List.mem_cons, PredOp.update.injEq, reduceCtorEq, List.mem_singleton,
        false_or, List.not_mem_nil, or_false] at hm
      omega)
  ⟨h.1, h.2.1, h.2.2.1, h.2.2.2.1, h.2.2.2.2.1⟩

/-! ## Soundness of the matches `findMatch` reports -/

theorem findMatch_hash (t t1 : rolzCodec1) (buf : Slice) (pos : Nat) (mi ml : Int)
    (hp : t.posChecks ≠ 0) (hpos : pos < 2 ^ 26)
    (hf : t.findMatch buf pos = some (t1, mi, ml)) (hT : t.HashConsistent buf pos) :
    ∀ n, pos < n → t1.HashConsistent buf n := by
  obtain ⟨key, h32, hkey, hhash, hidem, -, -, c1, -, m3, hml⟩ :=
    findMatch_spec t t1 buf pos mi ml hp hf
  intro n hn i hi
  rw [m3 i] at hi ⊢
  split
  · rw [← hidem, pos_entry _ pos hpos, hash_entry _ pos hpos, hidem]
    refine ⟨hn, ?_⟩
    rw [hhash]
    show some (h32 &&& ROLZ_HASH_MASK) = some h32
    rw [hidem]
  · rename_i hne
    rw [if_neg hne] at hi
    exact ⟨lt_trans (hT i hi).1 hn, (hT i hi).2⟩

theorem findMatch_sound (t t2 : rolzCodec1) (buf : Slice) (pos : Nat) (mi ml : Int)
    (hp0 : 0 < t.posChecks) (hp1 : t.posChecks ≤ 256)
    (hcnt : ∀ k, 0 ≤ t.counters.cell k ∧ t.counters.cell k < 1073741824)
    (hpos : pos < 2 ^ 26) (hT : t.HashConsistent buf pos)
    (h : t.findMatch buf pos = some (t2, mi, ml)) (hmi : mi ≠ -1) :
    t.SoundMatch buf pos mi ml := by
  have hM : rolzCodec1.Mirrors
      { t with matches_ := ⟨t.matches_.len, fun i => t.matches_.cell i &&& ROLZ_POS_MASK⟩ } t :=
    ⟨⟨rfl, rfl, rfl, rfl, rfl⟩, fun _ => rfl, fun _ => rfl⟩
  obtain ⟨key, lo, width, c, curBuf, tv2, hkey, hring, hget, hcur, -, -, -, hm⟩ :=
    findMatch_mirror t t2 _ buf pos mi ml hM hp0 hp1 hcnt hpos h
  rcases hm with hm | ⟨ml0, -, hlen, i2, ref, refBuf, a1, a2, a3, a4, a5, a6, a7, a8⟩
  · exact absurd hm hmi
  have hring2 : t.ring key = some (lo, width) := hring
  have hget2 : t.counters.get key = some c := hget
  have hi2 : c - mi = i2 := by omega
  have hmi0 : 0 ≤ mi := by omega
  obtain ⟨b1, b2⟩ := Arr_get_eq_some.1 a5
  have hne : t.matches_.cell (lo + (and32 i2 t.maskChecks).toNat) ≠ 0 := by rw [b2]; exact a6
  have hlt := (hT _ hne).1
  rw [b2] at hlt
  refine ⟨hmi0, by omega, ml0, key, lo, width, c, ref, hkey, hring2, hget2, ?_, ?_, a6, hlt, ?_⟩
  · rw [hi2]; exact a4.2
  · unfold rolzCodec1.ringEntry
    rw [Int.toNat_of_nonneg hmi0, hi2]
    exact a5
  · intro k hk
    obtain ⟨v, r1, r2⟩ := a8 k hk
    rw [Slice_drop_get buf _ k refBuf a7] at r1
    rw [Slice_drop_get buf _ k curBuf hcur] at r2
    split at r1
    · split at r2
      · rename_i k1 k2
        refine ⟨by omega, by omega, v, ?_, ?_⟩
        · unfold Slice.get; rw [if_pos (by omega)]; exact r1
        · unfold Slice.get; rw [if_pos (by omega)]; exact r2
      · cases r2
    · cases r1

theorem parseCalls_cases (buf : Slice) (sizeChunk fuel : Nat) (t : rolzCodec1)
    (srcIdx : Nat) (cs : List FindCall)
    (h : rolzCodec1.parseCalls buf sizeChunk (fuel + 1) t srcIdx = some cs) :
    (cs = [] ∧ ¬ srcIdx < sizeChunk) ∨
    ∃ t1 mi ml cs1, srcIdx < sizeChunk ∧ t.findMatch buf srcIdx = some (t1, mi, ml) ∧
      rolzCodec1.parseCalls buf sizeChunk fuel t1
        (if mi = -1 then srcIdx + 1 else (srcIdx + ml + ROLZ_MIN_MATCH).toNat) = some cs1 ∧
      cs = ⟨srcIdx, t, t1, mi, ml⟩ :: cs1 := by
  rw [rolzCodec1.parseCalls] at h
  split at h
  · rename_i hlt
    right
    obtain ⟨⟨t1, mi, ml⟩, hf, h⟩ := bind_eq_some_iff.1 h
    obtain ⟨cs1, hr, h⟩ := bind_eq_some_iff.1 h
    cases h
    exact ⟨t1, mi, ml, cs1, hlt, hf, hr, rfl⟩
  · rename_i hlt
    cases h
    exact Or.inl ⟨rfl, hlt⟩

theorem parseCalls_sound (buf : Slice) (sizeChunk : Nat) (hsz : sizeChunk ≤ 2 ^ 26) (B : Int)
    (hB : B + 2 ^ 26 < 1073741824) :
    ∀ fuel (t : rolzCodec1) (q : Nat) (cs : List FindCall), 0 < t.posChecks →
      t.posChecks ≤ 256 → (∀ k, 0 ≤ t.counters.cell k ∧ t.counters.cell k ≤ B + q) →
      t.HashConsistent buf q → rolzCodec1.parseCalls buf sizeChunk fuel t q = some cs →
      ∀ c ∈ cs, c.idx ≠ -1 → c.before.SoundMatch buf c.pos c.idx c.len := by
  intro fuel
  induction fuel with
  | zero =>
    intro t q cs _ _ _ _ h c hc
    cases h
    cases hc
  | succ fuel ih =>
    intro t q cs hp0 hp1 hcnt hT h c hc
    rcases parseCalls_cases buf sizeChunk fuel t q cs h with
      ⟨rfl, -⟩ | ⟨t1, mi, ml, cs1, hlt, hf, hr, rfl⟩
    · cases hc
    · have hq : q < 2 ^ 26 := by omega
      have hcnt2 : ∀ k, 0 ≤ t.counters.cell k ∧ t.counters.cell k < 1073741824 := by
        intro k
        have := hcnt k
        have hq2 : (q : Int) < 2 ^ 26 := by exact_mod_cast hq
        omega
      rcases List.mem_cons.1 hc with rfl | hc
      · intro hmi
        exact findMatch_sound t t1 buf q mi ml hp0 hp1 hcnt2 hq hT hf hmi
      · obtain ⟨key, h32, -, -, -, -, -, c1, c2, -, hml⟩ :=
          findMatch_spec t t1 buf q mi ml (by omega) hf
        have hgt := next_gt q mi ml hml
        refine ih t1 _ cs1 (by rw [c1.2.2.1]; exact hp0) (by rw [c1.2.2.1]; exact hp1) ?_
          (findMatch_hash t t1 buf q mi ml (by omega) hq hf hT _ hgt) hr c hc
        intro k
        rw [c2 k]
        have a := hcnt k
        have b := hcnt2 key
        have e : i32 (t.counters.cell key + 1) = t.counters.cell key + 1 := by
          unfold i32; omega
        have hgt2 : ((q : Int)) + 1 ≤
            ((if mi = -1 then q + 1 else (q + ml + ROLZ_MIN_MATCH).toNat : Nat) : Int) := by
          exact_mod_cast hgt
        have a2 := hcnt key
        split
        · rw [e]; omega
        · omega

theorem parseSteps_calls (buf : Slice) (sizeChunk : Nat) :
    ∀ fuel (t : rolzCodec1) (srcIdx : Nat) (ps : List Nat) (t2 : rolzCodec1) (k : Nat),
      rolzCodec1.parseSteps buf sizeChunk fuel t srcIdx = some (ps, t2, k) →
      ∃ cs, rolzCodec1.parseCalls buf sizeChunk fuel t srcIdx = some cs ∧
        cs.map (fun c => c.pos) = ps := by
  intro fuel
  induction fuel with
  | zero =>
    intro t srcIdx ps t2 k h
    cases h
    exact ⟨[], rfl, rfl⟩
  | succ fuel ih =>
    intro t srcIdx ps t2 k h
    rcases parseSteps_cases buf sizeChunk fuel t t2 srcIdx k ps h with
      ⟨rfl, rfl, rfl, hlt⟩ | ⟨t1, mi, ml, ps1, hlt, hfm, hr, rfl⟩
    · refine ⟨[], ?_, rfl⟩
      rw [rolzCodec1.parseCalls, if_neg hlt]
    · obtain ⟨cs1, h1, h2⟩ := ih t1 _ ps1 t2 k hr
      refine ⟨⟨srcIdx, t, t1, mi, ml⟩ :: cs1, ?_, by rw [List.map_cons, h2]⟩
      rw [rolzCodec1.parseCalls, if_pos hlt]
      simp only [hfm, h1, bind_eq_bind, Option.some_bind]
      rfl

/-- C34: match soundness.  In the parse of a chunk `buf` of at most
`ROLZ_CHUNK_SIZE` bytes by either backend, started at position `n` with a
consistent table (the table of zeros a chunk starts with is consistent) and
counters in `[0..2^29]`, after any number `fuel` of iterations: the calls of
`findMatch` are the ones `parseCalls` lists, and whenever a call
`findMatch(buf, pos)` reports `(idx, len)` with `idx ≠ -1`, the ring of the
key of `pos` held at relative index `idx`, before the insertion of `pos`, a
non-zero entry with a position `ref < pos` such that `buf[ref + k]` equals
`buf[pos + k]` for every `k < len + 3`, every such index being inside `buf`. -/
theorem match_soundness (buf : Slice) (sizeChunk : Nat) (hsz : sizeChunk ≤ ROLZ_CHUNK_SIZE)
    (t : rolzCodec1) (hp0 : 0 < t.posChecks) (hp1 : t.posChecks ≤ 256)
    (hcnt : ∀ k, 0 ≤ t.counters.cell k ∧ t.counters.cell k ≤ 2 ^ 29) (n : Nat)
    (hT : t.HashConsistent buf n) (fuel : Nat) :
    (∀ cur, ({ t with matches_ := t.matches_.fill 0 } : rolzCodec1).HashConsistent buf cur) ∧
    (∀ cs, rolzCodec1.parseCalls buf sizeChunk fuel t n = some cs →
      ∀ c ∈ cs, c.idx ≠ -1 → c.before.SoundMatch buf c.pos c.idx c.len) ∧
    (∀ b fl r, rolzCodec1.parseLoop buf sizeChunk fuel t b n fl = some r →
      ∃ cs, rolzCodec1.parseCalls buf sizeChunk fuel t n = some cs ∧
        ∀ c ∈ cs, c.idx ≠ -1 → c.before.SoundMatch buf c.pos c.idx c.len) ∧
    (∀ re r, rolzCodec2.parseLoop buf sizeChunk fuel t re n = some r →
      ∃ cs, rolzCodec1.parseCalls buf sizeChunk fuel t n = some cs ∧
        ∀ c ∈ cs, c.idx ≠ -1 → c.before.SoundMatch buf c.pos c.idx c.len) := by
  have hsz2 : sizeChunk ≤ 2 ^ 26 := hsz
  have key : ∀ cs, rolzCodec1.parseCalls buf sizeChunk fuel t n = some cs →
      ∀ c ∈ cs, c.idx ≠ -1 → c.before.SoundMatch buf c.pos c.idx c.len := by
    intro cs h
    refine parseCalls_sound buf sizeChunk hsz2 (2 ^ 29) (by decide) fuel t n cs hp0 hp1 ?_ hT h
    intro k
    have := hcnt k
    omega
  refine ⟨fun cur => HashConsistent_fill t buf cur, key, ?_, ?_⟩
  · intro b fl r h
    obtain ⟨ps, hps⟩ := parseLoop1_steps buf sizeChunk fuel t b n fl r.1 r.2.1 r.2.2.1 r.2.2.2 h
    obtain ⟨cs, hcs, -⟩ := parseSteps_calls buf sizeChunk fuel t n ps r.1 r.2.2.1 hps
    exact ⟨cs, hcs, key cs hcs⟩
  · intro re r h
    obtain ⟨ps, hps⟩ := parseLoop2_steps buf sizeChunk fuel t re n r.1 r.2.1 r.2.2 h
    obtain ⟨cs, hcs, -⟩ := parseSteps_calls buf sizeChunk fuel t n ps r.1 r.2.2 hps
    exact ⟨cs, hcs, key cs hcs⟩

/-- Witness of C34: the parse of the chunk `1, 2, 3, 1, 2, 3, 1, 2` from
position 2 on a new codec; the call at position 5 reports `(0, 0)`, the
three bytes at position 2. -/
theorem match_soundness_witness :
    ∃ cs, rolzCodec1.parseCalls ⟨[1, 2, 3, 1, 2, 3, 1, 2, 3, 1, 2, 3], 8⟩ 8 8
        (rolzCodec1.alloc 5) 2 = some cs ∧
      cs.map (fun c => (c.pos, c.idx, c.len)) = [(2, -1, -1), (3, -1, -1), (4, -1, -1), (5, 0, 0)] ∧
      ∀ c ∈ cs, c.idx ≠ -1 →
        c.before.SoundMatch ⟨[1, 2, 3, 1, 2, 3, 1, 2, 3, 1, 2, 3], 8⟩ c.pos c.idx c.len := by
  have h := match_soundness ⟨[1, 2, 3, 1, 2, 3, 1, 2, 3, 1, 2, 3], 8⟩ 8 (by decide)
    (rolzCodec1.alloc 5) (by decide) (by decide)
    (fun _ => ⟨le_refl (0 : Int), by show (0 : Int) ≤ 2 ^ 29; decide⟩) 2
    (fun i hi => absurd rfl hi) 8
  have s1 : (rolzCodec1.parseCalls ⟨[1, 2, 3, 1, 2, 3, 1, 2, 3, 1, 2, 3], 8⟩ 8 8
      (rolzCodec1.alloc 5) 2).map (fun cs => cs.map (fun c => (c.pos, c.idx, c.len))) =
      some [(2, -1, -1), (3, -1, -1), (4, -1, -1), (5, 0, 0)] := by decide!
  cases hr : rolzCodec1.parseCalls ⟨[1, 2, 3, 1, 2, 3, 1, 2, 3, 1, 2, 3], 8⟩ 8 8
      (rolzCodec1.alloc 5) 2 with
  | none => rw [hr] at s1; cases s1
  | some cs =>
    rw [hr] at s1
    exact ⟨cs, rfl, Option.some.inj s1, h.2.1 cs hr⟩

/-! ## The parse of a chunk by backend 1 returns -/

theorem bind_ex {α β : Type} {a : Option α} {f : α → Option β} (x : α) (h : a = some x)
    (h2 : ∃ r, f x = some r) : ∃ r, (a >>= f) = some r := by
  subst h
  exact h2

theorem chk_ex {β : Type} {c : Prop} [Decidable c] {f : Unit → Option β} (h : c)
    (h2 : ∃ r, f () = some r) : ∃ r, (chk c >>= f) = some r := by
  have : chk c = some () := if_pos h
  rw [this]
  exact h2

theorem and32_mask (a m : Int) (h0 : 0 ≤ m) (h1 : m < 2147483648) :
    0 ≤ and32 a m ∧ and32 a m ≤ m := by
  unfold and32
  have e : u32 m = m.toNat := by
    unfold u32
    rw [Int.emod_eq_of_lt h0 (by omega)]
  have hle : u32 a &&& u32 m ≤ m.toNat := by
    rw [e]
    exact Nat.and_le_right
  have hz : ((u32 a &&& u32 m : Nat) : Int) ≤ m := by
    have : ((u32 a &&& u32 m : Nat) : Int) ≤ (m.toNat : Int) := by exact_mod_cast hle
    omega
  have hz0 : (0 : Int) ≤ ((u32 a &&& u32 m : Nat) : Int) := Int.ofNat_nonneg _
  generalize ((u32 a &&& u32 m : Nat) : Int) = z at hz hz0
  unfold i32
  omega

theorem and32_slot (a m : Int) (width : Nat) (h0 : 0 ≤ m) (h1 : m < 2147483648)
    (hw : m < (width : Int)) : 0 ≤ and32 a m ∧ (and32 a m).toNat < width := by
  obtain ⟨j0, j1⟩ := and32_mask a m h0 h1
  generalize and32 a m = j at j0 j1
  omega

theorem Slice_get_some (s : Slice) (i : Nat) (h1 : i < s.len) (h2 : i < s.mem.length) :
    s.get i = some (s.mem.get ⟨i, h2⟩) := by
  unfold Slice.get
  rw [if_pos h1, List.getElem?_eq_getElem h2]
  rfl

theorem Bytes_get (l : List Nat) (hB : Bytes l) (i : Nat) (h : i < l.length) :
    l.get ⟨i, h⟩ < 256 := hB _ (List.get_mem l i h)

theorem keyAt_some (buf : Slice) (pos : Nat) (h2 : 2 ≤ pos) (hp : pos ≤ buf.len)
    (hcap : buf.len ≤ buf.mem.length) (hB : Bytes buf.mem) :
    ∃ key, keyAt buf pos = some key ∧ key < 65536 := by
  rw [keyAt_eq, if_pos ⟨h2, hp⟩]
  have l1 : pos - 1 < buf.mem.length := by omega
  have l2 : pos - 2 < buf.mem.length := by omega
  rw [List.getElem?_eq_getElem l1, List.getElem?_eq_getElem l2]
  refine ⟨_, rfl, ?_⟩
  have b1 := Bytes_get buf.mem hB (pos - 1) l1
  have b2 := Bytes_get buf.mem hB (pos - 2) l2
  have e1 : buf.mem[pos - 1] <<< 8 < 2 ^ 16 := by
    rw [Nat.shiftLeft_eq]
    have : buf.mem[pos - 1] < 256 := b1
    omega
  have e2 : buf.mem[pos - 2] < 2 ^ 16 := by
    have : buf.mem[pos - 2] < 256 := b2
    omega
  exact Nat.or_lt_two_pow e2 e1

theorem hashAt_some (buf : Slice) (pos : Nat) (hcap : pos + 4 ≤ buf.mem.length) :
    ∃ h, hashAt buf pos = some h := by
  unfold hashAt Slice.sub Slice.cap
  rw [if_pos ⟨by omega, hcap⟩]
  refine bind_ex _ rfl ?_
  unfold hash leUint32
  have g : ∀ i, i < 4 → ∃ v, (⟨buf.mem.drop pos, pos + 4 - pos⟩ : Slice).get i = some v := by
    intro i hi
    refine ⟨_, Slice_get_some _ i (by show i < pos + 4 - pos; omega) ?_⟩
    show i < (buf.mem.drop pos).length
    rw [List.length_drop]
    omega
  obtain ⟨v3, h3⟩ := g 3 (by omega)
  obtain ⟨v0, h0⟩ := g 0 (by omega)
  obtain ⟨v1, h1⟩ := g 1 (by omega)
  obtain ⟨v2, h2⟩ := g 2 (by omega)
  refine bind_ex (v0 ||| (v1 <<< 8) ||| (v2 <<< 16) ||| (v3 <<< 24)) ?_ ⟨_, rfl⟩
  simp only [h0, h1, h2, h3, bind_eq_bind, Option.some_bind]
  rfl

theorem matchLenLoop_some (refBuf curBuf : Slice) (maxMatch : Nat)
    (hr : ∀ i, i < maxMatch → ∃ v, refBuf.get i = some v)
    (hc : ∀ i, i < maxMatch → ∃ v, curBuf.get i = some v) :
    ∀ fuel n, ∃ r, matchLenLoop refBuf curBuf maxMatch fuel n = some r := by
  intro fuel
  induction fuel with
  | zero => intro n; exact ⟨n, rfl⟩
  | succ fuel ih =>
    intro n
    rw [matchLenLoop]
    by_cases hn : n < maxMatch
    · rw [if_pos hn]
      obtain ⟨v, hv⟩ := hr n hn
      obtain ⟨w, hw⟩ := hc n hn
      refine bind_ex v hv (bind_ex w hw ?_)
      by_cases e : v = w
      · rw [if_pos e]; exact ih (n + 1)
      · rw [if_neg e]; exact ⟨n, rfl⟩
    · rw [if_neg hn]; exact ⟨n, rfl⟩

theorem findLoop_some (this : rolzCodec1) (buf curBuf : Slice) (lo width hash32 : Nat)
    (counter : Int) (maxMatch pos : Nat) (hm0 : 0 ≤ this.maskChecks)
    (hm1 : this.maskChecks < (width : Int)) (hm2 : this.maskChecks < 2147483648)
    (hlen : lo + width ≤ this.matches_.len) (hTB : this.TableBelow pos) (hpos : pos < buf.len)
    (hcap : buf.len ≤ buf.mem.length) (hcur : buf.drop pos = some curBuf)
    (hmax : maxMatch ≤ buf.len - pos) :
    ∀ fuel i bestLen bestIdx, ∃ r,
      this.findLoop buf curBuf lo width hash32 counter maxMatch fuel i bestLen bestIdx =
        some r := by
  have hcg : ∀ i, i < buf.len - pos → ∃ v, curBuf.get i = some v := by
    intro i hi
    rw [Slice_drop_get buf pos i curBuf hcur, if_pos hi, List.getElem?_eq_getElem (by omega)]
    exact ⟨_, rfl⟩
  intro fuel
  induction fuel with
  | zero =>
    intro i bestLen bestIdx
    rw [rolzCodec1.findLoop]
    exact ⟨_, rfl⟩
  | succ fuel ih =>
    intro i bestLen bestIdx
    rw [rolzCodec1.findLoop]
    by_cases hi : i > i32 (counter - this.posChecks)
    · rw [if_pos hi]
      clear hi
      have hj := and32_slot i this.maskChecks width hm0 hm2 hm1
      have hj2 := hj.2
      have hlt : lo + (and32 i this.maskChecks).toNat < this.matches_.len := by
        generalize (and32 i this.maskChecks).toNat = j at hj2
        omega
      have hget : this.matches_.get (lo + (and32 i this.maskChecks).toNat) =
          some (this.matches_.cell (lo + (and32 i this.maskChecks).toNat)) :=
        Arr_get_eq_some.2 ⟨hlt, rfl⟩
      have hb := hTB (lo + (and32 i this.maskChecks).toNat)
      generalize this.matches_.cell (lo + (and32 i this.maskChecks).toNat) = ref at hget hb
      dsimp only
      refine chk_ex hj (bind_ex _ hget ?_)
      by_cases hz : ref = 0
      · rw [if_pos hz]; exact ⟨_, rfl⟩
      rw [if_neg hz]
      by_cases hh : ref &&& ROLZ_HASH_MASK ≠ hash32
      · rw [if_pos hh]; exact ih _ _ _
      rw [if_neg hh]
      generalize ref &&& ROLZ_POS_MASK = rp at hb
      have hdrop : buf.drop rp = some ⟨buf.mem.drop rp, buf.len - rp⟩ := by
        unfold Slice.drop; rw [if_pos (by omega)]
      have hrg : ∀ k, k < buf.len - pos →
          ∃ v, (⟨buf.mem.drop rp, buf.len - rp⟩ : Slice).get k = some v := by
        intro k hk
        rw [Slice_drop_get buf rp k _ hdrop, if_pos (by omega),
          List.getElem?_eq_getElem (by omega)]
        exact ⟨_, rfl⟩
      obtain ⟨r0, hr0⟩ := hrg 0 (by omega)
      obtain ⟨c0, hc0⟩ := hcg 0 (by omega)
      refine bind_ex _ hdrop (bind_ex r0 hr0 (bind_ex c0 hc0 ?_))
      by_cases hrc : r0 ≠ c0
      · rw [if_pos hrc]; exact ih _ _ _
      rw [if_neg hrc]
      obtain ⟨n, hn⟩ := matchLenLoop_some ⟨buf.mem.drop rp, buf.len - rp⟩ curBuf maxMatch
        (fun k hk => hrg k (by omega)) (fun k hk => hcg k (by omega)) maxMatch 1
      refine bind_ex n hn ?_
      by_cases hgt : n > bestLen
      · rw [if_pos hgt]
        by_cases hmx : n = maxMatch
        · rw [if_pos hmx]; exact ⟨_, rfl⟩
        · rw [if_neg hmx]; exact ih _ _ _
      · rw [if_neg hgt]; exact ih _ _ _
    · rw [if_neg hi]; exact ⟨_, rfl⟩

theorem ring_bounds (key lp : Nat) (hk : key < 65536) (hlp : lp ≤ 8) :
    (key <<< lp) % 2 ^ 32 = key * 2 ^ lp ∧ ((key + 1) <<< lp) % 2 ^ 32 = key * 2 ^ lp + 2 ^ lp ∧
      key * 2 ^ lp + 2 ^ lp ≤ 65536 * 2 ^ lp ∧ 0 < 2 ^ lp := by
  have hP : 2 ^ lp ≤ 2 ^ 8 := Nat.pow_le_pow_right (by decide) hlp
  have hP0 : 0 < 2 ^ lp := Nat.two_pow_pos lp
  have e1 : key * 2 ^ lp + 2 ^ lp = (key + 1) * 2 ^ lp := (Nat.succ_mul key (2 ^ lp)).symm
  have e2 : (key + 1) * 2 ^ lp ≤ 65536 * 2 ^ lp := Nat.mul_le_mul_right _ (by omega)
  have e3 : 65536 * 2 ^ lp ≤ 65536 * 2 ^ 8 := Nat.mul_le_mul_left _ hP
  rw [Nat.shiftLeft_eq, Nat.shiftLeft_eq, ← e1]
  generalize key * 2 ^ lp = A at *
  generalize 2 ^ lp = P at *
  refine ⟨?_, ?_, ?_, hP0⟩
  · exact Nat.mod_eq_of_lt (by omega)
  · exact Nat.mod_eq_of_lt (by omega)
  · omega

theorem findMatch_some (t : rolzCodec1) (hcfg : t.Configured) (buf : Slice) (pos : Nat)
    (h2 : 2 ≤ pos) (hpos : pos < buf.len) (hcap : buf.len + 4 ≤ buf.mem.length)
    (hB : Bytes buf.mem) (hTB : t.TableBelow pos) : ∃ r, t.findMatch buf pos = some r := by
  obtain ⟨c1, c2, c3, c4, c5, c6⟩ := hcfg
  obtain ⟨key, hkey, hk⟩ := keyAt_some buf pos h2 (by omega) (by omega) hB
  unfold keyAt at hkey
  obtain ⟨_, -, hkey⟩ := bind_eq_some_iff.1 hkey
  obtain ⟨keyBuf, hkb, hkey⟩ := bind_eq_some_iff.1 hkey
  obtain ⟨h32, hh⟩ := hashAt_some buf pos (by omega)
  unfold hashAt at hh
  obtain ⟨hashBuf, hhb, hh⟩ := bind_eq_some_iff.1 hh
  obtain ⟨r1, r2, r3, r4⟩ := ring_bounds key t.logPosChecks hk c2
  have hpw := two_pow_le_256 t.logPosChecks c2
  have hp : t.posChecks ≠ 0 := by rw [c3]; omega
  have hm0 : 0 ≤ t.maskChecks := by rw [c4]; omega
  have hm2 : t.maskChecks < 2147483648 := by rw [c4]; omega
  have hcast : ((2 ^ t.logPosChecks : Nat) : Int) = 2 ^ t.logPosChecks := by
    rw [Nat.cast_pow]; rfl
  have hm1 : t.maskChecks < ((2 ^ t.logPosChecks : Nat) : Int) := by rw [c4, hcast]; omega
  have hcur : buf.drop pos = some ⟨buf.mem.drop pos, buf.len - pos⟩ := by
    unfold Slice.drop; rw [if_pos (by omega)]
  unfold rolzCodec1.findMatch
  refine chk_ex h2 (bind_ex keyBuf hkb (bind_ex key hkey ?_))
  rw [if_neg hp]
  dsimp only
  rw [r1, r2]
  have hwidth : key * 2 ^ t.logPosChecks + 2 ^ t.logPosChecks - key * 2 ^ t.logPosChecks =
      2 ^ t.logPosChecks := by omega
  rw [hwidth]
  refine chk_ex ⟨by omega, by rw [c6]; exact r3⟩ (bind_ex hashBuf hhb (bind_ex h32 hh ?_))
  have hcnt : t.counters.get key = some (t.counters.cell key) :=
    Arr_get_eq_some.2 ⟨by rw [c5]; exact hk, rfl⟩
  refine bind_ex _ hcnt (bind_ex _ hcur ?_)
  obtain ⟨⟨bl, bi⟩, hfl⟩ := findLoop_some t buf ⟨buf.mem.drop pos, buf.len - pos⟩
    (key * 2 ^ t.logPosChecks) (2 ^ t.logPosChecks) h32 (t.counters.cell key)
    (if ROLZ_MAX_MATCH > buf.len - pos then buf.len - pos else ROLZ_MAX_MATCH) pos hm0 hm1 hm2
    (by rw [c6]; exact r3) hTB hpos (by omega) hcur (by split <;> omega) t.posChecks.toNat
    (t.counters.cell key) (ROLZ_MIN_MATCH - 1) (-1)
  refine bind_ex _ hfl ?_
  dsimp only
  have hput : t.counters.put key (i32 (t.counters.cell key + 1)) =
      some ⟨t.counters.len,
        fun j => if j = key then i32 (t.counters.cell key + 1) else t.counters.cell j⟩ := by
    unfold Arr.put
    rw [if_pos (by rw [c5]; exact hk)]
  refine bind_ex _ hput ?_
  have hj := and32_slot (i32 (t.counters.cell key + 1)) t.maskChecks (2 ^ t.logPosChecks) hm0 hm2
    hm1
  refine chk_ex hj ?_
  have hj2 := hj.2
  have hlt : key * 2 ^ t.logPosChecks +
      (and32 (i32 (t.counters.cell key + 1)) t.maskChecks).toNat < t.matches_.len := by
    rw [c6]
    generalize (and32 (i32 (t.counters.cell key + 1)) t.maskChecks).toNat = j at hj2
    omega
  have hput2 : ∀ v, t.matches_.put (key * 2 ^ t.logPosChecks +
      (and32 (i32 (t.counters.cell key + 1)) t.maskChecks).toNat) v =
      some ⟨t.matches_.len, fun j => if j = key * 2 ^ t.logPosChecks +
        (and32 (i32 (t.counters.cell key + 1)) t.maskChecks).toNat then v
        else t.matches_.cell j⟩ := by
    intro v
    unfold Arr.put
    rw [if_pos hlt]
  refine bind_ex _ (hput2 _) ?_
  by_cases hb : bl < ROLZ_MIN_MATCH
  · rw [if_pos hb]; exact ⟨_, rfl⟩
  · rw [if_neg hb]; exact ⟨_, rfl⟩

theorem wr_ex {β : Type} (buf : List Nat) (i v : Nat) {f : List Nat → Option β}
    (h : i < buf.length) (h2 : ∀ b : List Nat, b.length = buf.length → ∃ r, f b = some r) :
    ∃ r, (wr buf i v >>= f) = some r := by
  have : wr buf i v = some (buf.set i v) := if_pos h
  rw [this]
  exact h2 _ (List.length_set _ _ _)

theorem emitLitLenExcess_some (b : List Nat) (idx x : Nat)
    (hroom : idx + 4 ≤ b.length ∨ (x < 2 ^ 21 ∧ idx + 3 ≤ b.length) ∨
      (x < 2 ^ 14 ∧ idx + 2 ≤ b.length) ∨ (x < 2 ^ 7 ∧ idx + 1 ≤ b.length)) :
    ∃ r, emitLitLenExcess b idx x = some r ∧ r.2 ≤ idx + 4 ∧ (x < 2 ^ 21 → r.2 ≤ idx + 3) ∧
      (x < 2 ^ 14 → r.2 ≤ idx + 2) ∧ (x < 2 ^ 7 → r.2 = idx + 1) := by
  unfold emitLitLenExcess
  simp only [Nat.reduceShiftLeft, Nat.reducePow, ge_iff_le] at hroom ⊢
  by_cases h7 : 128 ≤ x
  · by_cases h14 : 16384 ≤ x
    · by_cases h21 : 2097152 ≤ x
      · have l0 : idx < b.length := by omega
        have l1 : idx + 1 < b.length := by omega
        have l2 : idx + 1 + 1 < b.length := by omega
        have l3 : idx + 1 + 1 + 1 < b.length := by omega
        simp [h7, h14, h21, wr, l0, l1, l2, l3, bind_eq_bind, List.length_set]
      · have l0 : idx < b.length := by omega
        have l1 : idx + 1 < b.length := by omega
        have l2 : idx + 1 + 1 < b.length := by omega
        simp [h7, h14, h21, wr, l0, l1, l2, bind_eq_bind, List.length_set]
    · have l0 : idx < b.length := by omega
      have l1 : idx + 1 < b.length := by omega
      simp [h7, h14, wr, l0, l1, bind_eq_bind, List.length_set]
  · have l0 : idx < b.length := by omega
    simp [h7, wr, l0, bind_eq_bind, List.length_set]

theorem emitLengths_some (buf : List Nat) (L M : Nat) (h : (L + M + 3) / 3 ≤ buf.length) :
    ∃ r, emitLengths buf L M = some r ∧ 3 * r.2 ≤ L + M + 3 := by
  unfold emitLengths
  have l0 : 0 < buf.length := by omega
  by_cases hm : M ≥ 7
  · have l1 : 1 < buf.length := by omega
    by_cases hl : L ≥ 31
    · obtain ⟨r, hr, k1, k2, k3, k4⟩ := emitLitLenExcess_some
        ((buf.set 0 (0xF8 ||| 0x07)).set 1 ((M - 7) % 256)) 2 (L - 31)
        (by simp only [List.length_set]; omega)
      refine ⟨r, ?_, by omega⟩
      simp only [hm, hl, wr, l0, l1, if_true, List.length_set, bind_eq_bind,
        Option.some_bind, pure, show ¬ L < 31 by omega, if_false]
      exact hr
    · refine ⟨((buf.set 0 (((L <<< 3) % 256) ||| 0x07)).set 1 ((M - 7) % 256), 2), ?_, ?_⟩
      · simp only [hm, hl, wr, l0, l1, if_true, List.length_set, bind_eq_bind,
          Option.some_bind, pure, show L < 31 by omega, if_false]
      · show 3 * 2 ≤ L + M + 3
        omega
  · by_cases hl : L ≥ 31
    · obtain ⟨r, hr, k1, k2, k3, k4⟩ := emitLitLenExcess_some
        (buf.set 0 (0xF8 ||| (M % 256))) 1 (L - 31)
        (by simp only [List.length_set]; omega)
      refine ⟨r, ?_, by omega⟩
      simp only [hm, hl, wr, l0, if_true, List.length_set, bind_eq_bind,
        Option.some_bind, pure, show ¬ L < 31 by omega, if_false]
      exact hr
    · refine ⟨(buf.set 0 (((L <<< 3) % 256) ||| (M % 256)), 1), ?_, ?_⟩
      · simp only [hm, hl, wr, l0, if_true, List.length_set, bind_eq_bind,
          Option.some_bind, pure, show L < 31 by omega, if_false]
      · show 3 * 1 ≤ L + M + 3
        omega

theorem emitLengthsAt_some (b : Fwd1Bufs) (L M : Nat)
    (h : b.lenIdx + (L + M + 3) / 3 ≤ b.lenBuf.length) :
    ∃ w n, emitLengthsAt b L M =
        some { b with lenBuf := b.lenBuf.take b.lenIdx ++ w, lenIdx := b.lenIdx + n } ∧
      3 * n ≤ L + M + 3 := by
  obtain ⟨⟨w, n⟩, hr, hn⟩ := emitLengths_some (b.lenBuf.drop b.lenIdx) L M
    (by rw [List.length_drop]; omega)
  refine ⟨w, n, ?_, hn⟩
  unfold emitLengthsAt
  have hc : chk (b.lenIdx ≤ b.lenBuf.length) = some () := if_pos (by omega)
  simp only [hc, hr, bind_eq_bind, Option.some_bind]
  rfl

theorem bind_exP {α β : Type} {a : Option α} {f : α → Option β} {P : β → Prop} (x : α)
    (h : a = some x) (h2 : ∃ r, f x = some r ∧ P r) : ∃ r, (a >>= f) = some r ∧ P r := by
  subst h
  exact h2

theorem chk_exP {β : Type} {c : Prop} [Decidable c] {f : Unit → Option β} {P : β → Prop}
    (h : c) (h2 : ∃ r, f () = some r ∧ P r) : ∃ r, (chk c >>= f) = some r ∧ P r := by
  have : chk c = some () := if_pos h
  rw [this]
  exact h2

theorem emitMatch_some (buf : Slice) (b : Fwd1Bufs) (fl q : Nat) (mi ml : Int) (hflq : fl ≤ q)
    (hq : q ≤ buf.mem.length)
    (hlen : b.lenIdx + ((q - fl) + ml.toNat + 3) / 3 ≤ b.lenBuf.length)
    (hlit : b.litIdx ≤ b.litBuf.length) (hm : b.mIdx < b.mIdxBuf.length) :
    ∃ b2, rolzCodec1.emitMatch buf b fl q mi ml = some b2 ∧
      3 * b2.lenIdx ≤ 3 * b.lenIdx + (q - fl) + ml.toNat + 3 := by
  obtain ⟨w, n, h1, hn⟩ := emitLengthsAt_some b (q - fl) ml.toNat hlen
  unfold rolzCodec1.emitMatch
  dsimp only
  refine bind_exP _ h1 ?_
  have hw : ∀ v, wr b.mIdxBuf b.mIdx v = some (b.mIdxBuf.set b.mIdx v) := fun v => if_pos hm
  by_cases hl : q - fl > 0
  · rw [if_pos hl]
    have hs : buf.sub fl (fl + (q - fl)) = some ⟨buf.mem.drop fl, fl + (q - fl) - fl⟩ := by
      unfold Slice.sub Slice.cap
      rw [if_pos ⟨by omega, by omega⟩]
    refine chk_exP hlit (bind_exP _ hs (bind_exP _ rfl (bind_exP _ (hw _) ⟨_, rfl, ?_⟩)))
    show 3 * (b.lenIdx + n) ≤ _
    omega
  · rw [if_neg hl]
    refine bind_exP _ rfl (bind_exP _ (hw _) ⟨_, rfl, ?_⟩)
    show 3 * (b.lenIdx + n) ≤ _
    omega

theorem copyLastLiterals_some (buf : Slice) (fl litIdx L : Nat) (h1 : fl + L ≤ buf.len)
    (h2 : buf.len ≤ buf.mem.length) :
    ∀ (fuel i : Nat) (litBuf : List Nat), litIdx + L ≤ litBuf.length →
      ∃ lb, copyLastLiterals buf fl litIdx L fuel i litBuf = some lb := by
  intro fuel
  induction fuel with
  | zero =>
    intro i litBuf _
    rw [copyLastLiterals]
    exact ⟨_, rfl⟩
  | succ fuel ih =>
    intro i litBuf hl
    rw [copyLastLiterals]
    by_cases hi : i < L
    · rw [if_pos hi]
      refine bind_ex _ (Slice_get_some buf (fl + i) (by omega) (by omega)) ?_
      refine wr_ex _ _ _ (by omega) ?_
      intro b hb
      exact ih (i + 1) b (by omega)
    · rw [if_neg hi]
      exact ⟨_, rfl⟩

theorem matched_cons_lit (c : FindCall) (cs : List FindCall) (h : c.idx = -1) :
    matchedBytes (c :: cs) = matchedBytes cs ∧ matchCount (c :: cs) = matchCount cs := by
  unfold matchedBytes matchCount
  rw [List.filter_cons_of_neg (by simp [h])]
  exact ⟨rfl, rfl⟩

theorem matched_cons_match (c : FindCall) (cs : List FindCall) (h : c.idx ≠ -1) :
    matchedBytes (c :: cs) = c.len.toNat + 3 + matchedBytes cs ∧
      matchCount (c :: cs) = matchCount cs + 1 := by
  unfold matchedBytes matchCount
  rw [List.filter_cons_of_pos (by simp [h])]
  exact ⟨by rw [List.map_cons, List.sum_cons], by rw [List.length_cons]⟩

theorem Configured_of_SameCfg (t t2 : rolzCodec1) (h : t2.SameCfg t) (hc : t.Configured) :
    t2.Configured := by
  obtain ⟨a1, a2, a3, a4, a5⟩ := h
  obtain ⟨c1, c2, c3, c4, c5, c6⟩ := hc
  exact ⟨by rw [a1]; exact c1, by rw [a1]; exact c2, by rw [a1, a3]; exact c3,
    by rw [a1, a2]; exact c4, by rw [a4]; exact c5, by rw [a1, a5]; exact c6⟩

theorem parse_room (N S n0 q fl M li ln mx : Nat) (h1 : fl ≤ q) (h0 : n0 ≤ fl) (h4 : li ≤ fl)
    (h8 : 3 * ln ≤ fl - n0) (h9 : 3 * mx ≤ fl - n0) (hM : M + 3 ≤ N - q)
    (hS : (N - n0) / 3 ≤ S) (hq : q < N) :
    ln + ((q - fl) + M + 3) / 3 ≤ S ∧ mx < S ∧ li + (q - fl) ≤ N := by
  omega

theorem parse_next (N n0 q fl M li ln mx ln2 : Nat) (h1 : fl ≤ q) (h0 : n0 ≤ fl)
    (h4 : li ≤ fl) (h8 : 3 * ln ≤ fl - n0) (h9 : 3 * mx ≤ fl - n0) (hM : M + 3 ≤ N - q)
    (hq : q < N) (hle : 3 * ln2 ≤ 3 * ln + (q - fl) + M + 3) :
    n0 ≤ q + M + 3 ∧ q + M + 3 ≤ N ∧ li + (q - fl) ≤ q + M + 3 ∧
      3 * ln2 ≤ q + M + 3 - n0 ∧ 3 * (mx + 1) ≤ q + M + 3 - n0 ∧
      q + M + 3 - (li + (q - fl)) = (fl - li) + (M + 3) ∧ q < q + M + 3 ∧ 2 ≤ q + M + 3 := by
  omega

theorem parse_fuel (N q q2 fuel : Nat) (hlt : q < q2) (h : N - q ≤ fuel + 1) :
    N - q2 ≤ fuel := by
  omega

theorem parse_acct (a x y z : Nat) : a + x + (y + z) = a + (x + y) + z := by
  omega

theorem parseLoop_some (buf : Slice) (N S n0 : Nat) (hbuf : buf.len = N) (hN : N ≤ 2 ^ 26)
    (hcap : N + 4 ≤ buf.mem.length) (hB : Bytes buf.mem) (hS : (N - n0) / 3 ≤ S) :
    ∀ (fuel : Nat) (t : rolzCodec1) (b : Fwd1Bufs) (q fl : Nat), t.Configured →
      t.TableBelow q → n0 ≤ fl → fl ≤ q → q ≤ N → (q < N → 2 ≤ q) → b.litIdx ≤ fl →
      N ≤ b.litBuf.length → b.lenBuf.length = S → b.mIdxBuf.length = S →
      3 * b.lenIdx ≤ fl - n0 → 3 * b.mIdx ≤ fl - n0 →
      ∃ t2 b2 q2 fl2 cs, rolzCodec1.parseLoop buf N fuel t b q fl = some (t2, b2, q2, fl2) ∧
        rolzCodec1.parseCalls buf N fuel t q = some cs ∧
        t2.Configured ∧ n0 ≤ fl2 ∧ fl2 ≤ q2 ∧ q2 ≤ N ∧ (N - q ≤ fuel → q2 = N) ∧
        b2.litIdx ≤ fl2 ∧ b2.litBuf.length = b.litBuf.length ∧ b2.lenBuf.length = S ∧
        b2.mIdxBuf.length = S ∧ 3 * b2.lenIdx ≤ fl2 - n0 ∧ 3 * b2.mIdx ≤ fl2 - n0 ∧
        b2.litIdx + (fl - b.litIdx) + matchedBytes cs = fl2 ∧
        b2.mIdx = b.mIdx + matchCount cs := by
  have hcapN : N ≤ buf.mem.length := by omega
  have hcap4 : buf.len + 4 ≤ buf.mem.length := by omega
  have hN28 : N < 2 ^ 28 := by omega
  intro fuel
  induction fuel with
  | zero =>
    intro t b q fl hc hTB h0 h1 h2 h3 h4 h5 h6 h7 h8 h9
    refine ⟨t, b, q, fl, [], rfl, rfl, hc, h0, h1, h2, fun h => by omega, h4, rfl, h6, h7, h8,
      h9, ?_, rfl⟩
    show b.litIdx + (fl - b.litIdx) + 0 = fl
    omega
  | succ fuel ih =>
    intro t b q fl hc hTB h0 h1 h2 h3 h4 h5 h6 h7 h8 h9
    by_cases hlt : q < N
    · obtain ⟨⟨t1, mi, ml⟩, hf⟩ := findMatch_some t hc buf q (h3 hlt) (by rw [hbuf]; exact hlt)
        hcap4 hB hTB
      obtain ⟨hsame, hkeep⟩ := findMatch_keeps t t1 buf q mi ml hf
      have hc1 := Configured_of_SameCfg t t1 hsame hc
      have hq26 : q < 2 ^ 26 := lt_of_lt_of_le hlt hN
      have hTBn : ∀ n, q < n → t1.TableBelow n := fun n hn =>
        hkeep n hn hq26 (fun i => lt_trans (hTB i) hn)
      by_cases hmi : mi = -1
      · obtain ⟨t2, b2, q2, fl2, cs, e1, e2, e3, e4, e5, e6, e7, e8, e9, e10, e11, e12, e13, e14,
          e15⟩ := ih t1 b (q + 1) fl hc1 (hTBn _ (Nat.lt_succ_self q)) h0 (Nat.le_succ_of_le h1)
            hlt (fun _ => Nat.le_succ_of_le (h3 hlt)) h4 h5 h6 h7 h8 h9
        obtain ⟨m1, m2⟩ := matched_cons_lit ⟨q, t, t1, mi, ml⟩ cs hmi
        refine ⟨t2, b2, q2, fl2, ⟨q, t, t1, mi, ml⟩ :: cs, ?_, ?_, e3, e4, e5, e6,
          fun h => e7 (parse_fuel N q (q + 1) fuel (Nat.lt_succ_self q) h), e8, e9,
          e10, e11, e12, e13, by rw [m1]; exact e14, by rw [m2]; exact e15⟩
        · rw [rolzCodec1.parseLoop, if_pos hlt]
          simp only [hf, bind_eq_bind, Option.some_bind]
          rw [if_pos hmi]
          exact e1
        · rw [rolzCodec1.parseCalls, if_pos hlt]
          simp only [hf, bind_eq_bind, Option.some_bind]
          rw [if_pos hmi]
          simp only [e2, Option.some_bind]
          rfl
      · have hb := findMatch_length_bound1 t buf q (t1, mi, ml) hf hmi
        dsimp only at hb
        obtain ⟨ml0, ml255, -, hmin⟩ := hb
        have hmin2 : ml + 3 ≤ ((N - q : Nat) : Int) := by
          rw [← hbuf]
          exact le_trans hmin (by exact_mod_cast Nat.min_le_right 258 (buf.len - q))
        have hnext : ((q : Int) + ml + (ROLZ_MIN_MATCH : Nat)).toNat = q + ml.toNat + 3 := by
          clear ih hmin2 hkeep hTBn
          simp only [ROLZ_MIN_MATCH]
          omega
        have hM : ml.toNat + 3 ≤ N - q := by
          clear ih hnext hkeep hTBn h8 h9 h6 h7 h5 h4
          omega
        generalize hMd : ml.toNat = M at hM hnext
        obtain ⟨g1, g2, g3⟩ := parse_room N S n0 q fl M b.litIdx b.lenIdx b.mIdx h1 h0 h4 h8 h9
          hM hS hlt
        obtain ⟨bm, he, hle⟩ := emitMatch_some buf b fl q mi ml h1 (le_trans h2 hcapN)
          (by rw [hMd, h6]; exact g1) (le_trans h4 (le_trans h1 (le_trans h2 h5)))
          (by rw [h7]; exact g2)
        obtain ⟨x1, x2, x3, -, -, -, -, -⟩ := emitMatch_spec buf b bm fl q mi ml
          (lt_of_lt_of_le hlt (le_of_lt hN28)) ml0 ml255 (le_trans g3 h5) he
        obtain ⟨y1, y2, y3, -⟩ := x1
        rw [hMd] at hle
        obtain ⟨k1, k2, k3, k4, k5, k6, k7, k8⟩ := parse_next N n0 q fl M b.litIdx b.lenIdx
          b.mIdx bm.lenIdx h1 h0 h4 h8 h9 hM hlt hle
        obtain ⟨t2, b2, q2, fl2, cs, e1, e2, e3, e4, e5, e6, e7, e8, e9, e10, e11, e12, e13, e14,
          e15⟩ := ih t1 bm (q + M + 3) (q + M + 3) hc1 (hTBn _ k7) k1 (le_refl _)
            k2 (fun _ => k8) (by rw [x2]; exact k3) (by rw [y1]; exact h5)
            (by rw [y2]; exact h6) (by rw [y3]; exact h7) k4 (by rw [x3]; exact k5)
        obtain ⟨m1, m2⟩ := matched_cons_match ⟨q, t, t1, mi, ml⟩ cs hmi
        refine ⟨t2, b2, q2, fl2, ⟨q, t, t1, mi, ml⟩ :: cs, ?_, ?_, e3, e4, e5, e6,
          fun h => e7 (parse_fuel N q (q + M + 3) fuel k7 h), e8, by rw [e9, y1], e10, e11, e12,
          e13, ?_, ?_⟩
        · rw [rolzCodec1.parseLoop, if_pos hlt]
          simp only [hf, bind_eq_bind, Option.some_bind]
          rw [if_neg hmi]
          simp only [he, Option.some_bind, hnext]
          exact e1
        · rw [rolzCodec1.parseCalls, if_pos hlt]
          simp only [hf, bind_eq_bind, Option.some_bind]
          rw [if_neg hmi, hnext]
          simp only [e2, Option.some_bind]
          rfl
        · rw [m1]
          show b2.litIdx + (fl - b.litIdx) + (ml.toNat + 3 + matchedBytes cs) = fl2
          rw [x2, k6] at e14
          rw [hMd, ← e14]
          exact parse_acct _ _ _ _
        · rw [m2, e15, x3]
          exact Nat.add_right_comm _ _ _
    · have hq : q = N := by omega
      refine ⟨t, b, q, fl, [], ?_, ?_, hc, h0, h1, h2, fun _ => hq, h4, rfl, h6, h7, h8, h9, ?_,
        rfl⟩
      · rw [rolzCodec1.parseLoop, if_neg hlt]
      · rw [rolzCodec1.parseCalls, if_neg hlt]
      · show b.litIdx + (fl - b.litIdx) + 0 = fl
        omega

theorem Bytes_drop (l : List Nat) (n : Nat) (h : Bytes l) : Bytes (l.drop n) :=
  fun x hx => h x (List.mem_of_mem_drop hx)

theorem chunk_room (N S n0 fl2 ln li : Nat) (h0 : n0 ≤ fl2) (h1 : fl2 ≤ N)
    (h8 : 3 * ln ≤ fl2 - n0) (hS : (N - n0 + 3) / 3 ≤ S) (h4 : li ≤ fl2) :
    ln + ((N - fl2) + 0 + 3) / 3 ≤ S ∧ fl2 + (N - fl2) ≤ N ∧ li + (N - fl2) ≤ N ∧
      (N - n0) / 3 ≤ S := by
  omega

theorem parseChunk_some (src : List Nat) (srcEnd : Int) (s : Fwd1State) (t : rolzCodec1)
    (endChunk N S : Nat) (hB : Bytes src) (hsE : srcEnd = (src.length : Int) - 4)
    (hend : s.startChunk + N = endChunk) (hN1 : 1 ≤ N) (hN26 : N ≤ 2 ^ 26)
    (hE : (endChunk : Int) ≤ srcEnd)
    (h2 : ((s.startChunk + 1 : Nat) : Int) < srcEnd → 2 ≤ N) (hc : t.Configured)
    (hT : t.TableBelow 1) (hlit : N ≤ s.litBuf.length) (hln : s.lenBuf.length = S)
    (hmx : s.mIdxBuf.length = S) (hS : (N + 2) / 3 ≤ S) :
    ∃ t2 b cs, rolzCodec1.parseChunk src srcEnd s t endChunk N = some (t2, b, N) ∧
      rolzCodec1.parseCalls ⟨src.drop s.startChunk, N⟩ N N t
        (if ((s.startChunk + 1 : Nat) : Int) < srcEnd then 2 else 1) = some cs ∧
      t2.Configured ∧ b.litBuf.length = s.litBuf.length ∧ b.lenBuf.length = S ∧
      b.mIdxBuf.length = S ∧ b.litIdx + matchedBytes cs = N ∧ b.mIdx = matchCount cs ∧
      3 * b.lenIdx ≤ N + 2 ∧ 3 * b.mIdx + 1 ≤ N := by
  have hlen : endChunk + 4 ≤ src.length := by omega
  have hsub : (Slice.ofList src).sub s.startChunk endChunk =
      some ⟨src.drop s.startChunk, endChunk - s.startChunk⟩ := by
    unfold Slice.sub Slice.cap Slice.ofList
    rw [if_pos ⟨by omega, by show endChunk ≤ src.length; omega⟩]
  have hNe : endChunk - s.startChunk = N := by omega
  rw [hNe] at hsub
  have hml : (src.drop s.startChunk).length = src.length - s.startChunk := List.length_drop _ _
  have hcap : N + 4 ≤ (src.drop s.startChunk).length := by rw [hml]; omega
  have hg : ∀ i, i < N → ∃ v, (⟨src.drop s.startChunk, N⟩ : Slice).get i = some v := by
    intro i hi
    exact ⟨_, Slice_get_some ⟨src.drop s.startChunk, N⟩ i hi
      (by show i < (src.drop s.startChunk).length; omega)⟩
  obtain ⟨v0, hv0⟩ := hg 0 hN1
  have hw0 : wr s.litBuf 0 v0 = some (s.litBuf.set 0 v0) := if_pos (by omega)
  have hT2 : ∀ n, 1 ≤ n → t.TableBelow n := fun n hn i => lt_of_lt_of_le (hT i) hn
  -- the loop and what follows it, from the buffers after the first literals
  have hrest : ∀ (lb0 : List Nat) (n0 : Nat), lb0.length = s.litBuf.length → 1 ≤ n0 → n0 ≤ 2 →
      n0 ≤ N → (n0 < N → 2 ≤ n0) →
      ∃ t2 b2 fl2 b3 lb cs,
        rolzCodec1.parseLoop ⟨src.drop s.startChunk, N⟩ N N t
          { litBuf := lb0, lenBuf := s.lenBuf, mIdxBuf := s.mIdxBuf, litIdx := n0, lenIdx := 0,
            mIdx := 0 } n0 n0 = some (t2, b2, N, fl2) ∧
        emitLengthsAt b2 (N - fl2) 0 = some b3 ∧
        copyLastLiterals ⟨src.drop s.startChunk, N⟩ fl2 b3.litIdx (N - fl2) (N - fl2) 0
          b3.litBuf = some lb ∧
        rolzCodec1.parseCalls ⟨src.drop s.startChunk, N⟩ N N t n0 = some cs ∧
        t2.Configured ∧ lb.length = s.litBuf.length ∧ b3.lenBuf.length = S ∧
        b3.mIdxBuf.length = S ∧ b3.litIdx + (N - fl2) + matchedBytes cs = N ∧
        b3.mIdx = matchCount cs ∧ 3 * b3.lenIdx ≤ N + 2 ∧ 3 * b3.mIdx + 1 ≤ N := by
    intro lb0 n0 hl0 hn1 hn2 hnN hn3
    obtain ⟨t2, b2, q2, fl2, cs, e1, e2, e3, e4, e5, e6, e7, e8, e9, e10, e11, e12, e13, e14,
      e15⟩ := parseLoop_some ⟨src.drop s.startChunk, N⟩ N S n0 rfl hN26 hcap
        (Bytes_drop src _ hB) (by omega) N t
        { litBuf := lb0, lenBuf := s.lenBuf, mIdxBuf := s.mIdxBuf, litIdx := n0, lenIdx := 0,
          mIdx := 0 } n0 n0 hc (hT2 n0 hn1) (le_refl _) (le_refl _) hnN hn3 (le_refl _)
        (by show N ≤ lb0.length; omega) hln hmx (Nat.zero_le _) (Nat.zero_le _)
    have hq2 : q2 = N := e7 (Nat.sub_le _ _)
    subst hq2
    obtain ⟨g1, g2, g3, g4⟩ := chunk_room q2 S n0 fl2 b2.lenIdx b2.litIdx e4 e5 e12
      (by omega) e8
    obtain ⟨w, n, hel, hn⟩ := emitLengthsAt_some b2 (q2 - fl2) 0 (by rw [e10]; exact g1)
    obtain ⟨z1, z2, z3, z4, z5, -⟩ := emitLengthsAt_spec b2 _ (q2 - fl2) 0 (by omega)
      (by omega) hel
    have hl2 : b2.litBuf.length = s.litBuf.length := by rw [e9]; exact hl0
    obtain ⟨lb, hcl⟩ := copyLastLiterals_some ⟨src.drop s.startChunk, q2⟩ fl2 b2.litIdx
      (q2 - fl2) g2 (by show q2 ≤ (src.drop s.startChunk).length; omega) (q2 - fl2) 0 b2.litBuf
      (by rw [hl2]; omega)
    obtain ⟨c1, -⟩ := copyLastLiterals_spec _ _ _ _ _ _ _ _ hcl (by omega)
    refine ⟨t2, b2, fl2, _, lb, cs, e1, hel, hcl, e2, e3, by rw [c1, hl2], ?_, e11, ?_, ?_, ?_,
      ?_⟩
    · rw [z5]; exact e10
    · show b2.litIdx + (q2 - fl2) + matchedBytes cs = q2
      have : n0 - n0 = 0 := Nat.sub_self _
      rw [show ((⟨lb0, s.lenBuf, s.mIdxBuf, n0, 0, 0⟩ : Fwd1Bufs).litIdx) = n0 from rfl,
        this] at e14
      omega
    · show b2.mIdx = matchCount cs
      rw [e15]
      exact Nat.zero_add _
    · show 3 * (b2.lenIdx + n) ≤ q2 + 2
      omega
    · show 3 * b2.mIdx + 1 ≤ q2
      omega
  by_cases hcond : ((s.startChunk + 1 : Nat) : Int) < srcEnd
  · have hN2 := h2 hcond
    obtain ⟨v1, hv1⟩ := hg 1 hN2
    have hw1 : wr (s.litBuf.set 0 v0) 1 v1 = some ((s.litBuf.set 0 v0).set 1 v1) :=
      if_pos (by rw [List.length_set]; omega)
    obtain ⟨t2, b2, fl2, b3, lb, cs, r1, r2, r3, r4, r5, r6, r7, r8, r9, r10, r11, r12⟩ :=
      hrest ((s.litBuf.set 0 v0).set 1 v1) 2 (by rw [List.length_set, List.length_set])
        (by omega) (le_refl _) hN2 (fun _ => le_refl _)
    refine ⟨t2, { b3 with litBuf := lb, litIdx := b3.litIdx + (N - fl2) }, cs, ?_, ?_, r5, r6, r7,
      r8, r9, r10, r11, r12⟩
    · unfold rolzCodec1.parseChunk
      simp only [hsub, hv0, hw0, hcond, if_true, hv1, hw1, r1, r2, r3, bind_eq_bind,
        Option.some_bind, pure]
    · rw [if_pos hcond]; exact r4
  · obtain ⟨t2, b2, fl2, b3, lb, cs, r1, r2, r3, r4, r5, r6, r7, r8, r9, r10, r11, r12⟩ :=
      hrest (s.litBuf.set 0 v0) 1 (by rw [List.length_set]) (le_refl _) (by omega) hN1
        (fun h => by omega)
    refine ⟨t2, { b3 with litBuf := lb, litIdx := b3.litIdx + (N - fl2) }, cs, ?_, ?_, r5, r6, r7,
      r8, r9, r10, r11, r12⟩
    · unfold rolzCodec1.parseChunk
      simp only [hsub, hv0, hw0, hcond, if_false, r1, r2, r3, bind_eq_bind,
        Option.some_bind, pure]
    · rw [if_neg hcond]; exact r4

theorem MaxEncodedLen_ge (n : Nat) : n ≤ rolzCodec1.MaxEncodedLen n := by
  unfold rolzCodec1.MaxEncodedLen
  split <;> omega

theorem chunk_shape (srcEnd : Int) (len S0 sc N endChunk : Nat) (over : Prop) [Decidable over]
    (hsE : srcEnd = (len : Int) - 4) (h5 : 5 ≤ S0) (h26 : S0 ≤ 2 ^ 26)
    (hlt : (sc : Int) < srcEnd) (hov : over ↔ ((sc + S0 : Nat) : Int) ≥ srcEnd)
    (hend : endChunk = if over then srcEnd.toNat else sc + S0)
    (hN : N = if over then endChunk - sc else S0) :
    sc + N = endChunk ∧ 1 ≤ N ∧ N ≤ 2 ^ 26 ∧ (endChunk : Int) ≤ srcEnd ∧
      (((sc + 1 : Nat) : Int) < srcEnd → 2 ≤ N) ∧ N ≤ S0 ∧ (N + 2) / 3 ≤ S0 / 2 ∧
      (over → (endChunk : Int) = srcEnd) ∧ (¬ over → N = S0) := by
  by_cases h : over
  · rw [if_pos h] at hend hN
    have := hov.1 h
    refine ⟨?_, ?_, ?_, ?_, ?_, ?_, ?_, ?_, fun h2 => absurd h h2⟩ <;> omega
  · rw [if_neg h] at hend hN
    have : ¬ ((sc + S0 : Nat) : Int) ≥ srcEnd := fun h2 => h (hov.2 h2)
    refine ⟨?_, ?_, ?_, ?_, ?_, ?_, ?_, fun h2 => absurd h2 h, fun _ => hN⟩ <;> omega

theorem parseChunk_allocated (src : List Nat) (srcEnd : Int) (S0 : Nat) (hB : Bytes src)
    (hsE : srcEnd = (src.length : Int) - 4) (h5 : 5 ≤ S0) (h26 : S0 ≤ 2 ^ 26) (s : Fwd1State)
    (hs : s.Allocated srcEnd S0) (hlt : (s.startChunk : Int) < srcEnd) (endChunk N : Nat)
    (hend : endChunk = if ((s.startChunk + s.sizeChunk : Nat) : Int) ≥ srcEnd then srcEnd.toNat
      else s.startChunk + s.sizeChunk)
    (hN : N = if ((s.startChunk + s.sizeChunk : Nat) : Int) ≥ srcEnd
      then endChunk - s.startChunk else s.sizeChunk) :
    ∃ t2 b cs, rolzCodec1.parseChunk src srcEnd s
        { s.tabs with matches_ := s.tabs.matches_.fill 0 } endChunk N = some (t2, b, N) ∧
      rolzCodec1.parseCalls ⟨src.drop s.startChunk, N⟩ N N
        { s.tabs with matches_ := s.tabs.matches_.fill 0 }
        (if ((s.startChunk + 1 : Nat) : Int) < srcEnd then 2 else 1) = some cs ∧
      t2.Configured ∧ b.litBuf.length = rolzCodec1.MaxEncodedLen S0 ∧
      b.lenBuf.length = S0 / 2 ∧ b.mIdxBuf.length = S0 / 2 ∧
      b.litIdx ≤ b.litBuf.length ∧ b.lenIdx ≤ b.lenBuf.length ∧ b.mIdx ≤ b.mIdxBuf.length ∧
      b.litIdx + matchedBytes cs = N ∧ b.mIdx = matchCount cs ∧
      (((s.startChunk + s.sizeChunk : Nat) : Int) ≥ srcEnd → (endChunk : Int) = srcEnd) ∧
      (¬ ((s.startChunk + s.sizeChunk : Nat) : Int) ≥ srcEnd → N = S0) := by
  obtain ⟨a1, a2, a3, a4, a5⟩ := hs
  have hsz := a5 hlt
  rw [hsz] at hend hN ⊢
  obtain ⟨k1, k2, k3, k4, k5, k6, k7, k8, k9⟩ := chunk_shape srcEnd src.length S0 s.startChunk N
    endChunk (((s.startChunk + S0 : Nat) : Int) ≥ srcEnd) hsE h5 h26 hlt Iff.rfl hend hN
  have hme := MaxEncodedLen_ge S0
  obtain ⟨t2, b, cs, r1, r2, r3, r4, r5, r6, r7, r8, r9, r10⟩ := parseChunk_some src srcEnd s
    { s.tabs with matches_ := s.tabs.matches_.fill 0 } endChunk N (S0 / 2) hB hsE k1 k2 k3 k4 k5
    ⟨a1.1, a1.2.1, a1.2.2.1, a1.2.2.2.1, a1.2.2.2.2.1, a1.2.2.2.2.2⟩
    (fun i => by show (0 &&& ROLZ_POS_MASK) < 1; decide) (by rw [a2]; omega) a3 a4 k7
  refine ⟨t2, b, cs, r1, r2, r3, by rw [r4, a2], r5, r6, ?_, ?_, ?_, r7, r8, k8, k9⟩
  · rw [r4, a2]; omega
  · rw [r5]; omega
  · rw [r6]; omega

theorem chunkLoop_allocated (E : EntropyStage) (src : List Nat) (srcEnd : Int) (S0 : Nat)
    (hB : Bytes src) (hsE : srcEnd = (src.length : Int) - 4) (h5 : 5 ≤ S0) (h26 : S0 ≤ 2 ^ 26) :
    ∀ fuel (s : Fwd1State), s.Allocated srcEnd S0 →
      ∃ r, rolzCodec1.chunkLoop E src srcEnd fuel s = some r ∧ r.val.tabs.Configured ∧
        r.val.litBuf.length = rolzCodec1.MaxEncodedLen S0 ∧ r.val.lenBuf.length = S0 / 2 ∧
        r.val.mIdxBuf.length = S0 / 2 := by
  intro fuel
  induction fuel with
  | zero =>
    intro s hs
    rw [rolzCodec1.chunkLoop]
    exact ⟨_, rfl, hs.1, hs.2.1, hs.2.2.1, hs.2.2.2.1⟩
  | succ fuel ih =>
    intro s hs
    rw [rolzCodec1.chunkLoop]
    by_cases hlt : (s.startChunk : Int) < srcEnd
    · rw [if_pos hlt]
      dsimp only
      simp only [decide_eq_true_eq]
      obtain ⟨t2, b, cs, r1, -, r3, r4, r5, r6, r7, r8, r9, -, -, r12, r13⟩ :=
        parseChunk_allocated src srcEnd S0 hB hsE h5 h26 s hs hlt _ _ rfl rfl
      simp only [r1, bind_eq_bind, Option.some_bind]
      cases hE : E.encodeChunk b with
      | none => exact ⟨_, rfl, r3, r4, r5, r6⟩
      | some os =>
        dsimp only
        by_cases hd : s.dstIdx + os.length > s.dst.length
        · rw [if_pos hd]
          exact ⟨_, rfl, r3, r4, r5, r6⟩
        · rw [if_neg hd]
          refine ih _ ⟨r3, r4, r5, r6, ?_⟩
          intro hlt2
          by_cases hov : ((s.startChunk + s.sizeChunk : Nat) : Int) ≥ srcEnd
          · have := r12 hov
            exact absurd hlt2 (by
              show ¬ ((if ((s.startChunk + s.sizeChunk : Nat) : Int) ≥ srcEnd then srcEnd.toNat
                else s.startChunk + s.sizeChunk : Nat) : Int) < srcEnd
              rw [this]
              exact lt_irrefl _)
          · exact r13 hov
    · rw [if_neg hlt]
      exact ⟨_, rfl, hs.1, hs.2.1, hs.2.2.1, hs.2.2.2.1⟩

/-- C40: side-buffer capacity in backend 1.  For every `src` of at least 5
bytes, with `S0` the first chunk size (`len(src)`, at most `ROLZ_CHUNK_SIZE`)
and the three buffers allocated as `Forward` does (`MaxEncodedLen(S0)` bytes
of literals, `S0 / 2` bytes of lengths, `S0 / 2` match indices): the state
`Forward` enters its chunk loop with is `Allocated`; from an `Allocated`
state the chunk loop returns after any number of chunks, whatever the entropy
stage does, so no write of the parse falls outside a buffer; and the parse of
every chunk from an `Allocated` state returns with `litIdx`, `lenIdx`
(the bytes `emitLengths` wrote) and `mIdx` within the three sizes, with
`litIdx + sum of (matchLen + 3) = chunk size` and `mIdx` the number of
matches, the `sum` taken over the calls of `findMatch` that reported a match,
and leaves a state that is `Allocated` again. -/
theorem side_buffer_capacity (E : EntropyStage) (src : List Nat) (hB : Bytes src)
    (h5 : 5 ≤ src.length) (S0 : Nat)
    (hS0 : S0 = if src.length > ROLZ_CHUNK_SIZE then ROLZ_CHUNK_SIZE else src.length) :
    (∀ (this : rolzCodec1) (dst : List Nat), this.Configured →
      Fwd1State.Allocated ((src.length : Int) - 4) S0
        { tabs := { this with counters := this.counters.fill 0 }, dst := dst,
          litBuf := List.replicate (rolzCodec1.MaxEncodedLen S0) 0,
          lenBuf := List.replicate (S0 / 2) 0, mIdxBuf := List.replicate (S0 / 2) 0,
          startChunk := 0, sizeChunk := S0, srcIdx := 0, dstIdx := 4 }) ∧
    (∀ fuel (s : Fwd1State), s.Allocated ((src.length : Int) - 4) S0 →
      ∃ r, rolzCodec1.chunkLoop E src ((src.length : Int) - 4) fuel s = some r ∧
        r.val.litBuf.length = rolzCodec1.MaxEncodedLen S0 ∧ r.val.lenBuf.length = S0 / 2 ∧
        r.val.mIdxBuf.length = S0 / 2) ∧
    (∀ (s : Fwd1State), s.Allocated ((src.length : Int) - 4) S0 →
      (s.startChunk : Int) < (src.length : Int) - 4 →
      ∀ endChunk N : Nat,
        endChunk = (if ((s.startChunk + s.sizeChunk : Nat) : Int) ≥ (src.length : Int) - 4
          then ((src.length : Int) - 4).toNat else s.startChunk + s.sizeChunk) →
        N = (if ((s.startChunk + s.sizeChunk : Nat) : Int) ≥ (src.length : Int) - 4
          then endChunk - s.startChunk else s.sizeChunk) →
        ∃ t2 b cs, rolzCodec1.parseChunk src ((src.length : Int) - 4) s
            { s.tabs with matches_ := s.tabs.matches_.fill 0 } endChunk N = some (t2, b, N) ∧
          rolzCodec1.parseCalls ⟨src.drop s.startChunk, N⟩ N N
            { s.tabs with matches_ := s.tabs.matches_.fill 0 }
            (if ((s.startChunk + 1 : Nat) : Int) < (src.length : Int) - 4 then 2 else 1) =
              some cs ∧
          b.litBuf.length = rolzCodec1.MaxEncodedLen S0 ∧ b.lenBuf.length = S0 / 2 ∧
          b.mIdxBuf.length = S0 / 2 ∧ b.litIdx ≤ b.litBuf.length ∧
          b.lenIdx ≤ b.lenBuf.length ∧ b.mIdx ≤ b.mIdxBuf.length ∧
          b.litIdx + matchedBytes cs = N ∧ b.mIdx = matchCount cs ∧
          ∀ (dst : List Nat) (dstIdx : Nat), Fwd1State.Allocated ((src.length : Int) - 4) S0
            { s with tabs := t2, litBuf := b.litBuf, lenBuf := b.lenBuf, mIdxBuf := b.mIdxBuf,
                     sizeChunk := N, srcIdx := N, dst := dst, dstIdx := dstIdx,
                     startChunk := endChunk }) := by
  have h5S : 5 ≤ S0 := by
    rw [hS0]
    split
    · decide
    · exact h5
  have h26 : S0 ≤ 2 ^ 26 := by
    rw [hS0]
    split
    · decide
    · rename_i h
      have : ROLZ_CHUNK_SIZE = 2 ^ 26 := by decide
      omega
  refine ⟨?_, ?_, ?_⟩
  · intro this dst hc
    exact ⟨⟨hc.1, hc.2.1, hc.2.2.1, hc.2.2.2.1, hc.2.2.2.2.1, hc.2.2.2.2.2⟩,
      List.length_replicate _ _, List.length_replicate _ _, List.length_replicate _ _, fun _ => rfl⟩
  · intro fuel s hs
    obtain ⟨r, h1, -, h2, h3, h4⟩ := chunkLoop_allocated E src _ S0 hB rfl h5S h26 fuel s hs
    exact ⟨r, h1, h2, h3, h4⟩
  · intro s hs hlt endChunk N hend hN
    obtain ⟨t2, b, cs, r1, r2, r3, r4, r5, r6, r7, r8, r9, r10, r11, r12, r13⟩ :=
      parseChunk_allocated src _ S0 hB rfl h5S h26 s hs hlt endChunk N hend hN
    refine ⟨t2, b, cs, r1, r2, r4, r5, r6, r7, r8, r9, r10, r11, ?_⟩
    intro dst dstIdx
    refine ⟨r3, r4, r5, r6, ?_⟩
    intro hlt2
    by_cases hov : ((s.startChunk + s.sizeChunk : Nat) : Int) ≥ (src.length : Int) - 4
    · have := r12 hov
      exact absurd hlt2 (by
        show ¬ (endChunk : Int) < (src.length : Int) - 4
        rw [this]
        exact lt_irrefl _)
    · exact r13 hov

/-- Witness of C40: the block `1, 2, 3, 1, 2, 3, 1, 2, 3, 4, 5, 6` with the
plain entropy stage and a new codec: the chunk loop of `Forward` returns. -/
theorem side_buffer_capacity_witness :
    ∃ r, rolzCodec1.chunkLoop plainStage [1, 2, 3, 1, 2, 3, 1, 2, 3, 4, 5, 6]
        (([1, 2, 3, 1, 2, 3, 1, 2, 3, 4, 5, 6] : List Nat).length - 4 : Int) 13
        { tabs := { rolzCodec1.alloc 5 with counters := (rolzCodec1.alloc 5).counters.fill 0 },
          dst := List.replicate 44 0,
          litBuf := List.replicate (rolzCodec1.MaxEncodedLen 12) 0,
          lenBuf := List.replicate (12 / 2) 0, mIdxBuf := List.replicate (12 / 2) 0,
          startChunk := 0, sizeChunk := 12, srcIdx := 0, dstIdx := 4 } = some r ∧
      r.val.litBuf.length = rolzCodec1.MaxEncodedLen 12 ∧ r.val.lenBuf.length = 12 / 2 ∧
      r.val.mIdxBuf.length = 12 / 2 :=
  (side_buffer_capacity plainStage [1, 2, 3, 1, 2, 3, 1, 2, 3, 4, 5, 6]
    (by unfold Bytes; decide) (by decide) 12 (by decide)).2.1 13 _
    ((side_buffer_capacity plainStage [1, 2, 3, 1, 2, 3, 1, 2, 3, 4, 5, 6]
      (by unfold Bytes; decide) (by decide) 12 (by decide)).1 (rolzCodec1.alloc 5)
      (List.replicate 44 0) ⟨by decide, by decide, by decide, by decide, rfl, rfl⟩)

/-! ## The tables of backend 1 at the tokens of a chunk -/

theorem bit_step {σ : Type} (P : Predictor σ) (e e1 : rolzEncoder σ) (p : σ) (g b : Nat)
    (out : List Nat) (hp : e.predictors[e.predictor]? = some p) (hgp : P.Get p = (g : Int))
    (hg : g ≤ 4095) (hb : b ≤ 1) (hI : EncInv e.low e.high) (hB : Bytes e.buf)
    (he1 : e.encodeBit P b = some e1) :
    EncInv e1.low e1.high ∧ Bytes e1.buf ∧
      e1.predictors = e.predictors.set e.predictor (P.Update p b) ∧
      e1.predictor = e.predictor ∧
      (e1.Lands out → e.Lands out ∧
        ∀ d : rolzDecoder σ, d.Follows e out →
          ∃ d1, d.decodeBit P = some (d1, b) ∧ d1.Follows e1 out) := by
  have hn := narrow_facts e.low e.high g b hg hI
  have heq := encodeBit_eq P e p g b hp hgp hg hb hI
  rw [he1] at heq
  have hI2 := hI
  obtain ⟨i1, i2, i3, i4⟩ := hI2
  by_cases hc : (narrowLow e.low e.high g b / 2 ^ 24) % 2 ^ 32 =
      (narrowHigh e.low e.high g b / 2 ^ 24) % 2 ^ 32
  · simp only [hc, if_true] at heq
    cases hput : putUint32BE e.buf e.idx ((narrowHigh e.low e.high g b / 2 ^ 32) % 2 ^ 32) with
    | none => rw [hput] at heq; cases heq
    | some b1 =>
      rw [hput] at heq
      simp only [Option.bind, Option.some.injEq] at heq
      have hbound := putUint32BE_bound hput
      obtain ⟨b2, q1, q2, q3, q4, q5⟩ := putUint32BE_spec e.buf e.idx
        ((narrowHigh e.low e.high g b / 2 ^ 32) % 2 ^ 32) hbound
      rw [hput] at q1
      cases q1
      have hI1 := flushed_inv _ _ hn.2.1 (by omega) hc
      subst heq
      refine ⟨hI1, q5 hB, rfl, rfl, ?_⟩
      intro hL
      obtain ⟨r1, r2, r3, r5, r6, r7⟩ := hL
      simp only at r1 r3 r5 r6 r7
      have hA : beBytes out e.idx 4 = (narrowHigh e.low e.high g b / 2 ^ 32) % 2 ^ 32 := by
        rw [beBytes_congr out b1 e.idx 4 (fun j _ hj => r5 j (by omega)), q4]
        omega
      have hV : beBytes out e.idx 8 =
          beBytes out e.idx 4 * 2 ^ 32 + beBytes out (e.idx + 4) 4 := by
        have := beBytes_add out e.idx 4 4
        norm_num at this ⊢
        exact this
      have hV2 : beBytes out (e.idx + 4) 8 =
          beBytes out (e.idx + 4) 4 * 2 ^ 32 + beBytes out (e.idx + 4 + 4) 4 := by
        have := beBytes_add out (e.idx + 4) 4 4
        norm_num at this ⊢
        exact this
      rw [show e.idx + 4 + 4 = e.idx + 8 by omega] at hV2
      have hCl := beBytes_lt r2 (e.idx + 8) 4
      norm_num at hCl
      rw [hA] at hV
      obtain ⟨hVl, hVh, hVc⟩ := flush_window _ _ _ _ _ _ hn.2.1 (by omega) (by omega) hc
        hV hV2 hCl r6 r7
      refine ⟨⟨by rw [r1, q2], r2, by omega, ?_, by omega, by omega⟩, ?_⟩
      · intro j hj
        rw [r5 j (by omega), q3 j (Or.inl hj)]
      · intro d hd
        obtain ⟨hd1, hd2, hd3, hd4, hd5, hd6, hd7⟩ := hd
        obtain ⟨n1, n2, n3⟩ := narrow_dec e.low e.high g b _ hg hI hb hVl hVh
        have hdeq := decodeBit_eq P d p g (by rw [hd3, hd4]; exact hp) hgp hg
          (by omega) (by omega) (by rw [hd1]; exact r2)
        rw [hd5, hd6, hd7] at hdeq
        have hc2 : (narrowLow e.low e.high g b % 2 ^ 56 / 2 ^ 24) % 2 ^ 32 =
            (narrowHigh e.low e.high g b % 2 ^ 56 / 2 ^ 24) % 2 ^ 32 := (cond_mod _ _).2 hc
        have hsp : d.idx + 4 ≤ d.buf.length := by rw [hd1, hd2]; omega
        simp only [n1, n2, n3, hc2, hsp, if_true] at hdeq
        refine ⟨_, hdeq, ⟨hd1, ?_, ?_, hd4, ?_, ?_, ?_⟩⟩
        · show d.idx + 4 = e.idx + 4 + 8
          omega
        · show d.predictors.set d.predictor (P.Update p b) = _
          rw [hd3, hd4]
        · exact flush_low_mod _
        · exact flush_high_mod _
        · show (beBytes out e.idx 8 % 2 ^ 56 * 2 ^ 32 + beBytes d.buf d.idx 4) % 2 ^ 56 =
            beBytes out (e.idx + 4) 8 % 2 ^ 56
          rw [hd1, hd2]
          exact hVc
  · simp only [hc, if_false, Option.some.injEq] at heq
    have hI1 := narrowed_inv e.low e.high g b hg hI hc
    subst heq
    refine ⟨hI1, hB, rfl, rfl, ?_⟩
    intro hL
    obtain ⟨r1, r2, r3, r5, r6, r7⟩ := hL
    simp only at r1 r3 r5 r6 r7
    refine ⟨⟨r1, r2, r3, r5, by omega, by omega⟩, ?_⟩
    intro d hd
    obtain ⟨hd1, hd2, hd3, hd4, hd5, hd6, hd7⟩ := hd
    obtain ⟨n1, n2, n3⟩ := narrow_dec e.low e.high g b _ hg hI hb r6 r7
    have hdeq := decodeBit_eq P d p g (by rw [hd3, hd4]; exact hp) hgp hg
      (by omega) (by omega) (by rw [hd1]; exact r2)
    rw [hd5, hd6, hd7] at hdeq
    have hc2 : ¬ (narrowLow e.low e.high g b % 2 ^ 56 / 2 ^ 24) % 2 ^ 32 =
        (narrowHigh e.low e.high g b % 2 ^ 56 / 2 ^ 24) % 2 ^ 32 :=
      fun hx => hc ((cond_mod _ _).1 hx)
    simp only [n1, n2, n3, hc2, if_false] at hdeq
    refine ⟨_, hdeq, ⟨hd1, hd2, ?_, hd4, rfl, rfl, rfl⟩⟩
    show d.predictors.set d.predictor (P.Update p b) = _
    rw [hd3, hd4]

theorem Sound_bit (e e1 : rolzEncoder rolzPredictor) (b : Nat) (out : List Nat) (hb : b ≤ 1)
    (hS : e.Sound) (he1 : e.encodeBit RP b = some e1) :
    e1.Sound ∧ e1.predictor = e.predictor ∧
      (e1.Lands out → e.Lands out ∧
        ∀ d : rolzDecoder rolzPredictor, d.Follows e out →
          ∃ d1, d.decodeBit RP = some (d1, b) ∧ d1.Follows e1 out) := by
  obtain ⟨hI, hB, hl, hpi, hC⟩ := hS
  obtain ⟨p, hp⟩ := getElem?_of_lt e.predictors e.predictor (by omega)
  have hpm : p ∈ e.predictors := List.getElem?_mem hp
  have hg := Get_range_of_CellsOk p (hC p hpm)
  obtain ⟨g, hgp⟩ : ∃ g : Nat, RP.Get p = (g : Int) := ⟨p.Get.toNat, by
    show p.Get = _
    omega⟩
  have hg2 : g ≤ 4095 := by
    have : RP.Get p = p.Get := rfl
    omega
  obtain ⟨a1, a2, a3, a4, a5⟩ := bit_step RP e e1 p g b out hp hgp hg2 hb hI hB he1
  refine ⟨⟨a1, a2, by rw [a3, List.length_set]; exact hl, by rw [a4]; exact hpi, ?_⟩, a4, a5⟩
  intro x hx
  rw [a3] at hx
  rcases List.mem_or_eq_of_mem_set hx with h | h
  · exact hC x h
  · rw [h]
    exact CellsOk_Update p b hb (hC p hpm)

theorem Sound_bits (out : List Nat) :
    ∀ (bits : List Nat) (e e2 : rolzEncoder rolzPredictor), (∀ b ∈ bits, b ≤ 1) → e.Sound →
      e.encodeBits RP bits = some e2 →
      e2.Sound ∧ e2.predictor = e.predictor ∧
        (e2.Lands out → e.Lands out ∧
          ∀ d : rolzDecoder rolzPredictor, d.Follows e out →
            ∃ d2, d.decodeBits RP bits.length = some (d2, bits) ∧ d2.Follows e2 out) := by
  intro bits
  induction bits with
  | nil =>
    intro e e2 _ hS h
    cases h
    exact ⟨hS, rfl, fun hL => ⟨hL, fun d hd => ⟨d, rfl, hd⟩⟩⟩
  | cons b bs ih =>
    intro e e2 hbits hS h
    rw [rolzEncoder.encodeBits] at h
    obtain ⟨e1, he1, h⟩ := bind_eq_some_iff.1 h
    obtain ⟨s1, p1, k1⟩ := Sound_bit e e1 b out (hbits b (List.mem_cons_self _ _)) hS he1
    obtain ⟨s2, p2, k2⟩ := ih e1 e2 (fun x hx => hbits x (List.mem_cons_of_mem _ hx)) s1 h
    refine ⟨s2, by rw [p2, p1], ?_⟩
    intro hL
    obtain ⟨l1, f2⟩ := k2 hL
    obtain ⟨l0, f1⟩ := k1 l1
    refine ⟨l0, ?_⟩
    intro d hd
    obtain ⟨d1, g1, g2⟩ := f1 d hd
    obtain ⟨d2, g3, g4⟩ := f2 d1 g2
    refine ⟨d2, ?_, g4⟩
    rw [List.length_cons, rolzDecoder.decodeBits]
    simp only [g1, g3, bind_eq_bind, Option.some_bind]
    rfl

theorem cover_step (cs1 : List FindCall) (ps1 : List Nat) (c : FindCall) (next k : Nat)
    (hmap : cs1.map (fun c => c.pos) = ps1) (hgt : c.pos < next) (hk : next ≤ k)
    (hm : c.idx ≠ -1 → next = c.pos + (c.len.toNat + 3)) (hl : c.idx = -1 → next = c.pos + 1)
    (ih : ∀ x, x ∈ ps1 ↔ next ≤ x ∧ x < k ∧ ¬ Covered cs1 x) :
    ∀ x, x ∈ c.pos :: ps1 ↔ c.pos ≤ x ∧ x < k ∧ ¬ Covered (c :: cs1) x := by
  intro x
  have hpos : ∀ c2 ∈ cs1, next ≤ c2.pos := by
    intro c2 hc2
    have : c2.pos ∈ ps1 := by
      rw [← hmap]
      exact List.mem_map_of_mem _ hc2
    exact ((ih c2.pos).1 this).1
  constructor
  · intro hx
    rcases List.mem_cons.1 hx with e | hx
    · refine ⟨by omega, by omega, ?_⟩
      rintro ⟨c2, hc2, h1, h2, h3⟩
      rcases List.mem_cons.1 hc2 with e2 | hc2
      · rw [e2] at h2
        omega
      · have := hpos c2 hc2
        omega
    · obtain ⟨a1, a2, a3⟩ := (ih x).1 hx
      refine ⟨by omega, a2, ?_⟩
      rintro ⟨c2, hc2, h1, h2, h3⟩
      rcases List.mem_cons.1 hc2 with e2 | hc2
      · rw [e2] at h1 h3
        have := hm h1
        omega
      · exact a3 ⟨c2, hc2, h1, h2, h3⟩
  · rintro ⟨a1, a2, a3⟩
    by_cases e : x = c.pos
    · rw [e]
      exact List.mem_cons_self _ _
    · refine List.mem_cons_of_mem _ ((ih x).2 ⟨?_, a2, ?_⟩)
      · by_cases hi : c.idx = -1
        · have := hl hi
          omega
        · have := hm hi
          by_contra hc
          exact a3 ⟨c, List.mem_cons_self _ _, hi, by omega, by omega⟩
      · rintro ⟨c2, hc2, h⟩
        exact a3 ⟨c2, List.mem_cons_of_mem _ hc2, h⟩

theorem next_eq (q : Nat) (mi ml : Int) (h : (mi = -1 ∧ ml = -1) ∨ 0 ≤ ml) :
    (mi ≠ -1 → (if mi = -1 then q + 1 else ((q : Int) + ml + (ROLZ_MIN_MATCH : Nat)).toNat) =
      q + (ml.toNat + 3)) ∧
    (mi = -1 → (if mi = -1 then q + 1 else ((q : Int) + ml + (ROLZ_MIN_MATCH : Nat)).toNat) =
      q + 1) := by
  have e : ((ROLZ_MIN_MATCH : Nat) : Int) = 3 := rfl
  constructor
  · intro hm
    rw [if_neg hm]
    rcases h with ⟨h1, -⟩ | h
    · exact absurd h1 hm
    · omega
  · intro hm
    rw [if_pos hm]

theorem parseCalls_cover (buf : Slice) (sizeChunk : Nat) (hsz : sizeChunk ≤ 2 ^ 26) :
    ∀ fuel (t : rolzCodec1) (q : Nat) (ps : List Nat) (t2 : rolzCodec1) (k : Nat),
      t.posChecks ≠ 0 →
      rolzCodec1.parseSteps buf sizeChunk fuel t q = some (ps, t2, k) →
      (∀ key, 0 ≤ t.counters.cell key ∧ t.counters.cell key ≤ (q : Int)) →
      ∃ cs, rolzCodec1.parseCalls buf sizeChunk fuel t q = some cs ∧
        cs.map (fun c => c.pos) = ps ∧
        (∀ x, x ∈ ps ↔ q ≤ x ∧ x < k ∧ ¬ Covered cs x) ∧
        ((∀ c ∈ cs, c.idx = -1) → ps = List.range' q (k - q)) ∧
        (∀ c ∈ cs, ∀ key, t.counters.cell key ≤ c.before.counters.cell key ∧
          c.before.counters.cell key ≤ c.after.counters.cell key ∧
          c.after.counters.cell key ≤ t2.counters.cell key) ∧
        cs.Pairwise
          (fun a b => ∀ key, a.after.counters.cell key ≤ b.before.counters.cell key) := by
  intro fuel
  induction fuel with
  | zero =>
    intro t q ps t2 k _ h _
    cases h
    refine ⟨[], rfl, rfl, ?_, fun _ => by simp, fun c hc => absurd hc (List.not_mem_nil c), List.Pairwise.nil⟩
    intro x
    constructor
    · intro hx; cases hx
    · rintro ⟨a1, a2, -⟩; omega
  | succ fuel ih =>
    intro t q ps t2 k hp h hT
    rcases parseSteps_cases buf sizeChunk fuel t t2 q k ps h with
      ⟨rfl, rfl, rfl, hlt⟩ | ⟨t1, mi, ml, ps1, hlt, hfm, hr, rfl⟩
    · refine ⟨[], ?_, rfl, ?_, fun _ => by simp, fun c hc => absurd hc (List.not_mem_nil c), List.Pairwise.nil⟩
      · rw [rolzCodec1.parseCalls, if_neg hlt]
      · intro x
        constructor
        · intro hx; cases hx
        · rintro ⟨a1, a2, -⟩; omega
    · obtain ⟨key0, h32, hkey, -, -, -, -, c1, c3, -, hml⟩ :=
        findMatch_spec t t1 buf q mi ml hp hfm
      have hgt := next_gt q mi ml hml
      obtain ⟨hne, heq⟩ := next_eq q mi ml hml
      have hc0 := hT key0
      have e32 : i32 (t.counters.cell key0 + 1) = t.counters.cell key0 + 1 :=
        i32_of_range _ (by omega) (by omega)
      have hstep : ∀ key, t.counters.cell key ≤ t1.counters.cell key := by
        intro key1
        rw [c3 key1]
        split
        · rename_i e
          rw [e32, e]
          omega
        · exact le_refl _
      have hT1 : ∀ key, 0 ≤ t1.counters.cell key ∧ t1.counters.cell key ≤
          ((if mi = -1 then q + 1 else (q + ml + ROLZ_MIN_MATCH).toNat : Nat) : Int) := by
        intro key1
        rw [c3 key1]
        have := hT key1
        split
        · rw [e32]; omega
        · omega
      have hp1 : t1.posChecks ≠ 0 := by rw [c1.2.2.1]; exact hp
      obtain ⟨-, r1, -, -⟩ := parseSteps_range buf sizeChunk fuel t1 _ ps1 t2 k hp1 hr
      have hfin := parseSteps_counters buf sizeChunk hsz fuel t1 _ ps1 t2 k hp1 hr hT1
      obtain ⟨cs1, g1, g2, g3, g4, g5, g6⟩ := ih t1 _ ps1 t2 k hp1 hr hT1
      have hcalls : rolzCodec1.parseCalls buf sizeChunk (fuel + 1) t q =
          some (⟨q, t, t1, mi, ml⟩ :: cs1) := by
        rw [rolzCodec1.parseCalls, if_pos hlt]
        simp only [hfm, g1, bind_eq_bind, Option.some_bind]
        rfl
      generalize (if mi = -1 then q + 1 else (q + ml + ROLZ_MIN_MATCH).toNat) = next
        at hgt hne heq r1 hr g1 g3 g4 hT1
      refine ⟨⟨q, t, t1, mi, ml⟩ :: cs1, ?_, by rw [List.map_cons, g2], ?_, ?_, ?_, ?_⟩
      · exact hcalls
      · exact cover_step cs1 ps1 ⟨q, t, t1, mi, ml⟩ next k g2 hgt r1 hne heq g3
      · intro hall
        have hmi : mi = -1 := hall ⟨q, t, t1, mi, ml⟩ (List.mem_cons_self _ _)
        have e1 := heq hmi
        rw [g4 (fun c hc => hall c (List.mem_cons_of_mem _ hc)), e1]
        have e2 : k - q = (k - (q + 1)) + 1 := by omega
        rw [e2, List.range'_succ]
      · intro c hc key
        rcases List.mem_cons.1 hc with e | hc
        · rw [e]
          refine ⟨le_refl _, hstep key, ?_⟩
          show t1.counters.cell key ≤ _
          rw [hfin key]
          omega
        · obtain ⟨b1, b2, b3⟩ := g5 c hc key
          exact ⟨le_trans (hstep key) b1, b2, b3⟩
      · refine List.Pairwise.cons ?_ g6
        intro c hc key
        exact (g5 c hc key).1

/-- C25, amended.  In the parse of a chunk `buf` of at most `ROLZ_CHUNK_SIZE`
bytes by either backend, started at position `n` with every counter 0, after
any number `fuel` of iterations of the loop, at position `k`: the calls of
`findMatch` are the ones `parseCalls` lists, at the positions `ps`, which are
in increasing order the positions of `[n..k)` that do not lie inside a match
reported by an earlier call (after a match of `len + 3` bytes at `pos` the
loop resumes at `pos + len + 3`).  For every key, `counters[key]` is the
number of positions of `ps` with that key, hence at most the number of
positions of `[n..k)` with that key, and equal to it when no call has
reported a match.  The counters never decrease: no counter is negative, each
call leaves every counter at least as large as it found it, a later call
finds it at least as large as an earlier call left it, and the final value
is at least what any call left. -/
theorem counters_count_parse_positions (buf : Slice) (sizeChunk : Nat)
    (hsz : sizeChunk ≤ ROLZ_CHUNK_SIZE) (t : rolzCodec1) (hp : t.posChecks ≠ 0)
    (h0 : ∀ key, t.counters.cell key = 0) (n : Nat) :
    (∀ fuel b r, rolzCodec1.parseLoop buf sizeChunk fuel t b n n = some r →
      ∃ ps cs, rolzCodec1.parseSteps buf sizeChunk fuel t n = some (ps, r.1, r.2.2.1) ∧
        rolzCodec1.parseCalls buf sizeChunk fuel t n = some cs ∧
        cs.map (fun c => c.pos) = ps ∧
        ps.Sublist (List.range' n (r.2.2.1 - n)) ∧
        (∀ x, x ∈ ps ↔ n ≤ x ∧ x < r.2.2.1 ∧ ¬ Covered cs x) ∧
        (∀ key, r.1.counters.cell key = (keyCount buf key ps : Nat) ∧
          keyCount buf key ps ≤ keyCount buf key (List.range' n (r.2.2.1 - n))) ∧
        ((∀ c ∈ cs, c.idx = -1) →
          ∀ key, r.1.counters.cell key =
            (keyCount buf key (List.range' n (r.2.2.1 - n)) : Nat)) ∧
        (∀ c ∈ cs, ∀ key, 0 ≤ c.before.counters.cell key ∧
          c.before.counters.cell key ≤ c.after.counters.cell key ∧
          c.after.counters.cell key ≤ r.1.counters.cell key) ∧
        cs.Pairwise
          (fun a b => ∀ key, a.after.counters.cell key ≤ b.before.counters.cell key)) ∧
    (∀ fuel re r, rolzCodec2.parseLoop buf sizeChunk fuel t re n = some r →
      ∃ ps cs, rolzCodec1.parseSteps buf sizeChunk fuel t n = some (ps, r.1, r.2.2) ∧
        rolzCodec1.parseCalls buf sizeChunk fuel t n = some cs ∧
        cs.map (fun c => c.pos) = ps ∧
        ps.Sublist (List.range' n (r.2.2 - n)) ∧
        (∀ x, x ∈ ps ↔ n ≤ x ∧ x < r.2.2 ∧ ¬ Covered cs x) ∧
        (∀ key, r.1.counters.cell key = (keyCount buf key ps : Nat) ∧
          keyCount buf key ps ≤ keyCount buf key (List.range' n (r.2.2 - n))) ∧
        ((∀ c ∈ cs, c.idx = -1) →
          ∀ key, r.1.counters.cell key =
            (keyCount buf key (List.range' n (r.2.2 - n)) : Nat)) ∧
        (∀ c ∈ cs, ∀ key, 0 ≤ c.before.counters.cell key ∧
          c.before.counters.cell key ≤ c.after.counters.cell key ∧
          c.after.counters.cell key ≤ r.1.counters.cell key) ∧
        cs.Pairwise
          (fun a b => ∀ key, a.after.counters.cell key ≤ b.before.counters.cell key)) := by
  have hsz2 : sizeChunk ≤ 2 ^ 26 := hsz
  have hT : ∀ key, 0 ≤ t.counters.cell key ∧ t.counters.cell key ≤ (n : Int) := by
    intro key
    rw [h0 key]
    omega
  have fin : ∀ fuel ps t2 k, rolzCodec1.parseSteps buf sizeChunk fuel t n = some (ps, t2, k) →
      ∃ cs, rolzCodec1.parseCalls buf sizeChunk fuel t n = some cs ∧
        cs.map (fun c => c.pos) = ps ∧
        ps.Sublist (List.range' n (k - n)) ∧
        (∀ x, x ∈ ps ↔ n ≤ x ∧ x < k ∧ ¬ Covered cs x) ∧
        (∀ key, t2.counters.cell key = (keyCount buf key ps : Nat) ∧
          keyCount buf key ps ≤ keyCount buf key (List.range' n (k - n))) ∧
        ((∀ c ∈ cs, c.idx = -1) →
          ∀ key, t2.counters.cell key = (keyCount buf key (List.range' n (k - n)) : Nat)) ∧
        (∀ c ∈ cs, ∀ key, 0 ≤ c.before.counters.cell key ∧
          c.before.counters.cell key ≤ c.after.counters.cell key ∧
          c.after.counters.cell key ≤ t2.counters.cell key) ∧
        cs.Pairwise
          (fun a b => ∀ key, a.after.counters.cell key ≤ b.before.counters.cell key) := by
    intro fuel ps t2 k hps
    obtain ⟨-, -, r2, -⟩ := parseSteps_range buf sizeChunk fuel t n ps t2 k hp hps
    obtain ⟨cs, g1, g2, g3, g4, g5, g6⟩ :=
      parseCalls_cover buf sizeChunk hsz2 fuel t n ps t2 k hp hps hT
    have hcnt : ∀ key, t2.counters.cell key = (keyCount buf key ps : Nat) := by
      intro key
      rw [parseSteps_counters buf sizeChunk hsz2 fuel t n ps t2 k hp hps hT key, h0 key]
      simp
    refine ⟨cs, g1, g2, r2, g3, fun key => ⟨hcnt key, keyCount_sublist buf key _ _ r2⟩, ?_, ?_,
      g6⟩
    · intro hall key
      rw [hcnt key, g4 hall]
    · intro c hc key
      obtain ⟨b1, b2, b3⟩ := g5 c hc key
      rw [h0 key] at b1
      exact ⟨b1, b2, b3⟩
  constructor
  · intro fuel b r h
    obtain ⟨ps, hps⟩ := parseLoop1_steps buf sizeChunk fuel t b n n r.1 r.2.1 r.2.2.1 r.2.2.2 h
    obtain ⟨cs, hcs⟩ := fin fuel ps _ _ hps
    exact ⟨ps, cs, hps, hcs⟩
  · intro fuel re r h
    obtain ⟨ps, hps⟩ := parseLoop2_steps buf sizeChunk fuel t re n r.1 r.2.1 r.2.2 h
    obtain ⟨cs, hcs⟩ := fin fuel ps _ _ hps
    exact ⟨ps, cs, hps, hcs⟩

/-- Witness of C25 (amended): the parse by backend 1 of the chunk
`1, 2, 3, 1, 2, 3, 1, 2` from position 2 on a new codec; the calls are at the
positions 2, 3, 4 and 5, the last one reports a match that covers the
positions 6 and 7, and the counter of the key 513 of the positions 2 and 5
is 2. -/
theorem counters_count_parse_positions_witness :
    ∃ r ps cs, rolzCodec1.parseLoop ⟨[1, 2, 3, 1, 2, 3, 1, 2, 3, 1, 2, 3], 8⟩ 8 8
        (rolzCodec1.alloc 5) sampleBufs 2 2 = some r ∧
      rolzCodec1.parseSteps ⟨[1, 2, 3, 1, 2, 3, 1, 2, 3, 1, 2, 3], 8⟩ 8 8
          (rolzCodec1.alloc 5) 2 = some (ps, r.1, r.2.2.1) ∧
      rolzCodec1.parseCalls ⟨[1, 2, 3, 1, 2, 3, 1, 2, 3, 1, 2, 3], 8⟩ 8 8
          (rolzCodec1.alloc 5) 2 = some cs ∧
      cs.map (fun c => (c.pos, c.idx, c.len)) = [(2, -1, -1), (3, -1, -1), (4, -1, -1), (5, 0, 0)] ∧
      (∀ x, x ∈ ps ↔ 2 ≤ x ∧ x < r.2.2.1 ∧ ¬ Covered cs x) ∧
      (∀ key, r.1.counters.cell key =
          (keyCount ⟨[1, 2, 3, 1, 2, 3, 1, 2, 3, 1, 2, 3], 8⟩ key ps : Nat) ∧
        keyCount ⟨[1, 2, 3, 1, 2, 3, 1, 2, 3, 1, 2, 3], 8⟩ key ps ≤
          keyCount ⟨[1, 2, 3, 1, 2, 3, 1, 2, 3, 1, 2, 3], 8⟩ key
            (List.range' 2 (r.2.2.1 - 2))) ∧
      (∀ c ∈ cs, ∀ key, 0 ≤ c.before.counters.cell key ∧
        c.before.counters.cell key ≤ c.after.counters.cell key ∧
        c.after.counters.cell key ≤ r.1.counters.cell key) := by
  have h := counters_count_parse_positions ⟨[1, 2, 3, 1, 2, 3, 1, 2, 3, 1, 2, 3], 8⟩ 8
    (by decide) (rolzCodec1.alloc 5) (by decide) (fun _ => rfl) 2
  have s1 : (rolzCodec1.parseLoop ⟨[1, 2, 3, 1, 2, 3, 1, 2, 3, 1, 2, 3], 8⟩ 8 8
      (rolzCodec1.alloc 5) sampleBufs 2 2).isSome = true := by decide!
  have s2 : (rolzCodec1.parseCalls ⟨[1, 2, 3, 1, 2, 3, 1, 2, 3, 1, 2, 3], 8⟩ 8 8
      (rolzCodec1.alloc 5) 2).map (fun l => l.map (fun c => (c.pos, c.idx, c.len))) =
      some [(2, -1, -1), (3, -1, -1), (4, -1, -1), (5, 0, 0)] := by decide!
  cases hr : rolzCodec1.parseLoop ⟨[1, 2, 3, 1, 2, 3, 1, 2, 3, 1, 2, 3], 8⟩ 8 8
      (rolzCodec1.alloc 5) sampleBufs 2 2 with
  | none => rw [hr] at s1; cases s1
  | some r =>
    obtain ⟨ps, cs, a1, a2, -, -, a5, a6, -, a8, -⟩ := h.1 8 sampleBufs r hr
    rw [a2] at s2
    exact ⟨r, ps, cs, rfl, a1, a2, Option.some.inj s2, a5, a6, a8⟩

theorem findMatch_zero (t t1 : rolzCodec1) (buf : Slice) (pos : Nat) (mi ml : Int)
    (hp : t.posChecks = 0) (h : t.findMatch buf pos = some (t1, mi, ml)) : t1 = t := by
  unfold rolzCodec1.findMatch at h
  obtain ⟨_, -, h⟩ := bind_eq_some_iff.1 h
  obtain ⟨keyBuf, -, h⟩ := bind_eq_some_iff.1 h
  obtain ⟨key, -, h⟩ := bind_eq_some_iff.1 h
  rw [if_pos hp] at h
  cases h
  rfl

theorem findMatch_entry (t t1 : rolzCodec1) (buf : Slice) (pos : Nat) (mi ml : Int)
    (hpos : pos < 2 ^ 26) (h : t.findMatch buf pos = some (t1, mi, ml)) (S : List Nat)
    (hS : ∀ i, t.matches_.cell i ≠ 0 → (t.matches_.cell i &&& ROLZ_POS_MASK) ∈ S) :
    ∀ i, t1.matches_.cell i ≠ 0 → (t1.matches_.cell i &&& ROLZ_POS_MASK) ∈ S ++ [pos] := by
  intro i hi
  by_cases hp : t.posChecks = 0
  · have := findMatch_zero t t1 buf pos mi ml hp h
    subst this
    exact List.mem_append_left _ (hS i hi)
  · obtain ⟨key, h32, -, -, hidem, -, -, -, -, m3, -⟩ := findMatch_spec t t1 buf pos mi ml hp h
    rw [m3 i] at hi ⊢
    split
    · rw [← hidem, pos_entry _ pos hpos]
      exact List.mem_append_right _ (List.mem_singleton_self _)
    · rename_i hne
      rw [if_neg hne] at hi
      exact List.mem_append_left _ (hS i hi)

theorem parseCalls_entries (buf : Slice) (sizeChunk : Nat) (hsz : sizeChunk ≤ 2 ^ 26) :
    ∀ fuel (t : rolzCodec1) (q : Nat) (ps : List Nat) (t2 : rolzCodec1) (k : Nat)
      (S : List Nat),
      rolzCodec1.parseSteps buf sizeChunk fuel t q = some (ps, t2, k) →
      (∀ i, t.matches_.cell i ≠ 0 → (t.matches_.cell i &&& ROLZ_POS_MASK) ∈ S) →
      ∃ cs, rolzCodec1.parseCalls buf sizeChunk fuel t q = some cs ∧
        cs.map (fun c => c.pos) = ps ∧
        (∀ c ∈ cs, c.pos < sizeChunk ∧
          ∀ i, c.after.matches_.cell i ≠ 0 →
            (c.after.matches_.cell i &&& ROLZ_POS_MASK) ∈ S ++ ps) ∧
        ∀ i, t2.matches_.cell i ≠ 0 → (t2.matches_.cell i &&& ROLZ_POS_MASK) ∈ S ++ ps := by
  intro fuel
  induction fuel with
  | zero =>
    intro t q ps t2 k S h hS
    cases h
    exact ⟨[], rfl, rfl, fun c hc => absurd hc (List.not_mem_nil c),
      fun i hi => List.mem_append_left _ (hS i hi)⟩
  | succ fuel ih =>
    intro t q ps t2 k S h hS
    rcases parseSteps_cases buf sizeChunk fuel t t2 q k ps h with
      ⟨rfl, rfl, rfl, hlt⟩ | ⟨t1, mi, ml, ps1, hlt, hfm, hr, rfl⟩
    · refine ⟨[], ?_, rfl, fun c hc => absurd hc (List.not_mem_nil c),
        fun i hi => List.mem_append_left _ (hS i hi)⟩
      rw [rolzCodec1.parseCalls, if_neg hlt]
    · have hS1 := findMatch_entry t t1 buf q mi ml (by omega) hfm S hS
      obtain ⟨cs1, g1, g2, g3, g4⟩ := ih t1 _ ps1 t2 k (S ++ [q]) hr hS1
      have hcalls : rolzCodec1.parseCalls buf sizeChunk (fuel + 1) t q =
          some (⟨q, t, t1, mi, ml⟩ :: cs1) := by
        rw [rolzCodec1.parseCalls, if_pos hlt]
        simp only [hfm, g1, bind_eq_bind, Option.some_bind]
        rfl
      have happ : S ++ [q] ++ ps1 = S ++ q :: ps1 := by
        rw [List.append_assoc]
        rfl
      rw [happ] at g3 g4
      refine ⟨_, hcalls, by rw [List.map_cons, g2], ?_, g4⟩
      intro c hc
      rcases List.mem_cons.1 hc with e | hc
      · rw [e]
        refine ⟨hlt, ?_⟩
        intro i hi
        have := hS1 i hi
        rw [List.mem_append] at this ⊢
        rcases this with h1 | h1
        · exact Or.inl h1
        · rw [List.mem_singleton] at h1
          exact Or.inr (by rw [h1]; exact List.mem_cons_self _ _)
      · exact g3 c hc

theorem parseChunk_steps (src : List Nat) (srcEnd : Int) (s : Fwd1State) (t : rolzCodec1)
    (endChunk sizeChunk : Nat) (t2 : rolzCodec1) (b : Fwd1Bufs) (k : Nat)
    (h : rolzCodec1.parseChunk src srcEnd s t endChunk sizeChunk = some (t2, b, k)) :
    ∃ buf ps, (Slice.ofList src).sub s.startChunk endChunk = some buf ∧
      rolzCodec1.parseSteps buf sizeChunk sizeChunk t
        (if ((s.startChunk + 1 : Nat) : Int) < srcEnd then 2 else 1) = some (ps, t2, k) := by
  unfold rolzCodec1.parseChunk at h
  obtain ⟨buf, hbuf, h1⟩ := bind_eq_some_iff.1 h
  clear h
  obtain ⟨v, hv, h2⟩ := bind_eq_some_iff.1 h1
  clear h1
  obtain ⟨litBuf, -, h3⟩ := bind_eq_some_iff.1 h2
  clear h2
  have fin : ∀ (y : List Nat × Nat),
      (do
        let d ← rolzCodec1.parseLoop buf sizeChunk sizeChunk t
          { litBuf := y.1, lenBuf := s.lenBuf, mIdxBuf := s.mIdxBuf, litIdx := y.2, lenIdx := 0,
            mIdx := 0 } y.2 y.2
        let b ← emitLengthsAt d.2.1 (d.2.2.1 - d.2.2.2) 0
        let litBuf ← copyLastLiterals buf d.2.2.2 b.litIdx (d.2.2.1 - d.2.2.2)
          (d.2.2.1 - d.2.2.2) 0 b.litBuf
        pure (d.1, { b with litBuf := litBuf, litIdx := b.litIdx + (d.2.2.1 - d.2.2.2) },
          d.2.2.1)) = some (t2, b, k) →
      ∃ ps, rolzCodec1.parseSteps buf sizeChunk sizeChunk t y.2 = some (ps, t2, k) := by
    intro y hx
    obtain ⟨⟨t1, b1, k1, k2⟩, hpl, g1⟩ := bind_eq_some_iff.1 hx
    obtain ⟨b3, -, g2⟩ := bind_eq_some_iff.1 g1
    obtain ⟨lb, -, g3⟩ := bind_eq_some_iff.1 g2
    simp only [pure, Option.some.injEq, Prod.mk.injEq] at g3
    obtain ⟨rfl, -, rfl⟩ := g3
    exact parseLoop1_steps buf sizeChunk _ _ _ _ _ _ _ _ _ hpl
  simp only at h3
  split at h3
  · rename_i hc
    obtain ⟨v2, -, g1⟩ := bind_eq_some_iff.1 h3
    clear h3
    obtain ⟨lb2, -, g2⟩ := bind_eq_some_iff.1 g1
    clear g1
    obtain ⟨y, hy, g3⟩ := bind_eq_some_iff.1 g2
    clear g2
    simp only [pure, Option.some.injEq] at hy
    subst hy
    obtain ⟨ps, hps⟩ := fin _ g3
    exact ⟨buf, ps, hbuf, by rw [if_pos hc]; exact hps⟩
  · rename_i hc
    obtain ⟨y, hy, g3⟩ := bind_eq_some_iff.1 h3
    clear h3
    simp only [pure, Option.some.injEq] at hy
    subst hy
    obtain ⟨ps, hps⟩ := fin _ g3
    exact ⟨buf, ps, hbuf, by rw [if_neg hc]; exact hps⟩

theorem chunkCalls_spec (E : EntropyStage) (src : List Nat) (srcEnd : Int) :
    ∀ fuel (s sf : Fwd1State),
      rolzCodec1.chunkLoop E src srcEnd fuel s = some (.next sf) → s.sizeChunk ≤ 2 ^ 26 →
      ∃ trace, rolzCodec1.chunkCalls E src srcEnd fuel s = some trace ∧
        (∀ e ∈ trace, ∀ c ∈ e.2, ((e.1 + c.pos : Nat) : Int) < srcEnd ∧
          ∀ i, c.after.matches_.cell i ≠ 0 →
            ∃ c2 ∈ e.2, c2.pos = c.after.matches_.cell i &&& ROLZ_POS_MASK) ∧
        ((trace = [] ∧ sf = s ∧ (fuel = 0 ∨ ¬ (s.startChunk : Int) < srcEnd)) ∨
          ∃ e, trace.getLast? = some e ∧
            ∀ i, sf.tabs.matches_.cell i ≠ 0 →
              ∃ c2 ∈ e.2, c2.pos = sf.tabs.matches_.cell i &&& ROLZ_POS_MASK) := by
  intro fuel
  induction fuel with
  | zero =>
    intro s sf h _
    cases h
    exact ⟨[], rfl, fun e he => absurd he (List.not_mem_nil e), Or.inl ⟨rfl, rfl, Or.inl rfl⟩⟩
  | succ fuel ih =>
    intro s sf h hsz
    unfold rolzCodec1.chunkLoop at h
    split at h
    · rename_i hlt
      have step : ∀ (endChunk sizeChunk : Nat), sizeChunk ≤ 2 ^ 26 →
          sizeChunk = endChunk - s.startChunk → (endChunk : Int) ≤ srcEnd →
          (do
            let d ← rolzCodec1.parseChunk src srcEnd s
              { s.tabs with matches_ := s.tabs.matches_.fill 0 } endChunk sizeChunk
            match E.encodeChunk d.2.1 with
            | none =>
              some (Step.stop
                { s with tabs := d.1, litBuf := d.2.1.litBuf, lenBuf := d.2.1.lenBuf,
                         mIdxBuf := d.2.1.mIdxBuf, sizeChunk := sizeChunk, srcIdx := d.2.2 }
                RolzError.entropyFailure)
            | some os =>
              if s.dstIdx + os.length > s.dst.length then
                some (Step.stop
                  { s with tabs := d.1, litBuf := d.2.1.litBuf, lenBuf := d.2.1.lenBuf,
                           mIdxBuf := d.2.1.mIdxBuf, sizeChunk := sizeChunk, srcIdx := d.2.2 }
                  RolzError.destinationTooSmall)
              else
                rolzCodec1.chunkLoop E src srcEnd fuel
                  { s with tabs := d.1, litBuf := d.2.1.litBuf, lenBuf := d.2.1.lenBuf,
                           mIdxBuf := d.2.1.mIdxBuf, sizeChunk := sizeChunk, srcIdx := d.2.2,
                           dst := goCopy s.dst s.dstIdx os, dstIdx := s.dstIdx + os.length,
                           startChunk := endChunk }) = some (.next sf) →
          ∃ trace,
            (do
              let buf ← (Slice.ofList src).sub s.startChunk endChunk
              let cs ← rolzCodec1.parseCalls buf sizeChunk sizeChunk
                { s.tabs with matches_ := s.tabs.matches_.fill 0 }
                (if ((s.startChunk + 1 : Nat) : Int) < srcEnd then 2 else 1)
              let d ← rolzCodec1.parseChunk src srcEnd s
                { s.tabs with matches_ := s.tabs.matches_.fill 0 } endChunk sizeChunk
              match E.encodeChunk d.2.1 with
              | none => some [(s.startChunk, cs)]
              | some os =>
                if s.dstIdx + os.length > s.dst.length then some [(s.startChunk, cs)]
                else do
                  let rest ← rolzCodec1.chunkCalls E src srcEnd fuel
                    { s with tabs := d.1, litBuf := d.2.1.litBuf, lenBuf := d.2.1.lenBuf,
                             mIdxBuf := d.2.1.mIdxBuf, sizeChunk := sizeChunk, srcIdx := d.2.2,
                             dst := goCopy s.dst s.dstIdx os, dstIdx := s.dstIdx + os.length,
                             startChunk := endChunk }
                  pure ((s.startChunk, cs) :: rest)) = some trace ∧
            (∀ e ∈ trace, ∀ c ∈ e.2, ((e.1 + c.pos : Nat) : Int) < srcEnd ∧
              ∀ i, c.after.matches_.cell i ≠ 0 →
                ∃ c2 ∈ e.2, c2.pos = c.after.matches_.cell i &&& ROLZ_POS_MASK) ∧
            ∃ e, trace.getLast? = some e ∧
              ∀ i, sf.tabs.matches_.cell i ≠ 0 →
                ∃ c2 ∈ e.2, c2.pos = sf.tabs.matches_.cell i &&& ROLZ_POS_MASK := by
        intro endChunk sizeChunk hsz2 hsize hend hx
        obtain ⟨⟨t1, b, k⟩, hpc, h1⟩ := bind_eq_some_iff.1 hx
        clear hx
        obtain ⟨buf, ps, hbuf, hps⟩ := parseChunk_steps _ _ _ _ _ _ _ _ _ hpc
        obtain ⟨cs, g1, g2, g3, g4⟩ := parseCalls_entries buf sizeChunk hsz2 sizeChunk _ _ ps t1 k
          [] hps (fun i hi => absurd rfl hi)
        rw [List.nil_append] at g3 g4
        have hmem : ∀ x, x ∈ ps → ∃ c2 ∈ cs, c2.pos = x := by
          intro x hx
          rw [← g2] at hx
          obtain ⟨c2, hc2, e⟩ := List.mem_map.1 hx
          exact ⟨c2, hc2, e⟩
        have hhere : ∀ c ∈ cs, ((s.startChunk + c.pos : Nat) : Int) < srcEnd ∧
            ∀ i, c.after.matches_.cell i ≠ 0 →
              ∃ c2 ∈ cs, c2.pos = c.after.matches_.cell i &&& ROLZ_POS_MASK := by
          intro c hc
          obtain ⟨a1, a2⟩ := g3 c hc
          refine ⟨by omega, fun i hi => hmem _ (a2 i hi)⟩
        simp only at h1
        cases hec : E.encodeChunk b with
        | none =>
          rw [hec] at h1
          cases h1
        | some os =>
          rw [hec] at h1
          simp only at h1
          split at h1
          · cases h1
          · rename_i hfit
            obtain ⟨rest, r1, r2, r3⟩ := ih _ sf h1 hsz2
            refine ⟨(s.startChunk, cs) :: rest, ?_, ?_, ?_⟩
            · simp only [hbuf, g1, hpc, hec, hfit, r1, bind_eq_bind, Option.some_bind,
                if_false]
              rfl
            · intro e he
              rcases List.mem_cons.1 he with e1 | he
              · rw [e1]
                exact hhere
              · exact r2 e he
            · rcases r3 with ⟨e1, e3, -⟩ | ⟨e, e1, e2⟩
              · subst e1
                refine ⟨(s.startChunk, cs), rfl, ?_⟩
                have hsf : sf.tabs = t1 := by rw [e3]
                intro i hi
                rw [hsf] at hi ⊢
                exact hmem _ (g4 i hi)
              · refine ⟨e, ?_, e2⟩
                cases rest with
                | nil => cases e1
                | cons a l =>
                  rw [List.getLast?_cons_cons]
                  exact e1
      refine Exists.elim (step _ _ ?_ ?_ ?_ h) ?_
      · show (if decide (((s.startChunk + s.sizeChunk : Nat) : Int) ≥ srcEnd) = true then _
          else s.sizeChunk) ≤ 2 ^ 26
        split
        · rename_i hov
          simp only [decide_eq_true_eq] at hov
          omega
        · exact hsz
      · show (if decide (((s.startChunk + s.sizeChunk : Nat) : Int) ≥ srcEnd) = true then _
          else s.sizeChunk) = _
        split
        · rfl
        · rename_i hov
          omega
      · show (((if decide (((s.startChunk + s.sizeChunk : Nat) : Int) ≥ srcEnd) = true then
          srcEnd.toNat else s.startChunk + s.sizeChunk : Nat)) : Int) ≤ srcEnd
        split
        · omega
        · rename_i hov
          simp only [decide_eq_true_eq] at hov
          omega
      · rintro trace ⟨t1, t2, t3⟩
        refine ⟨trace, ?_, t2, Or.inr t3⟩
        rw [rolzCodec1.chunkCalls, if_pos hlt]
        exact t1
    · rename_i hge
      cases h
      exact ⟨[], by rw [rolzCodec1.chunkCalls, if_neg hge],
        fun e he => absurd he (List.not_mem_nil e), Or.inl ⟨rfl, rfl, Or.inr hge⟩⟩

theorem Forward1_loop (E : EntropyStage) (this : rolzCodec1) (src dst : List Nat)
    (r : CallResult rolzCodec1) (hsz : rolzCodec1.MaxEncodedLen src.length ≤ dst.length)
    (h : rolzCodec1.Forward E this src dst = some r) (he : r.err = none) :
    ∃ (dst1 : List Nat) (s : Fwd1State), putUint32BE dst 0 (src.length % 2 ^ 32) = some dst1 ∧
      rolzCodec1.chunkLoop E src ((src.length : Int) - 4) (src.length + 1)
        { tabs := { this with counters := this.counters.fill 0 }
          dst := dst1
          litBuf := List.replicate (rolzCodec1.MaxEncodedLen
            (if src.length > ROLZ_CHUNK_SIZE then ROLZ_CHUNK_SIZE else src.length)) 0
          lenBuf := List.replicate
            ((if src.length > ROLZ_CHUNK_SIZE then ROLZ_CHUNK_SIZE else src.length) / 2) 0
          mIdxBuf := List.replicate
            ((if src.length > ROLZ_CHUNK_SIZE then ROLZ_CHUNK_SIZE else src.length) / 2) 0
          startChunk := 0
          sizeChunk := if src.length > ROLZ_CHUNK_SIZE then ROLZ_CHUNK_SIZE else src.length
          srcIdx := 0, dstIdx := 4 } = some (.next s) ∧
      r.this = s.tabs := by
  unfold rolzCodec1.Forward at h
  rw [if_neg (by omega)] at h
  obtain ⟨dst1, hd, h1⟩ := bind_eq_some_iff.1 h
  clear h
  simp only at h1
  obtain ⟨st, hst, h2⟩ := bind_eq_some_iff.1 h1
  clear h1
  cases st with
  | stop s err =>
    simp only [pure, Option.some.injEq] at h2
    subst h2
    cases he
  | next s =>
    simp only at h2
    obtain ⟨dst2, hct, h3⟩ := bind_eq_some_iff.1 h2
    clear h2
    simp only [pure, Option.some.injEq] at h3
    subst h3
    exact ⟨dst1, s, hd, hst, rfl⟩

/-- C15. Verbatim tail, backend 1: when `rolzCodec1.Forward` succeeds on a
block of at least 5 bytes with `n` output bytes, the returned source index is
`len(src)` and the output bytes `dst[n-4..n)` are the last four bytes of
`src`.  No position of the last four bytes is passed to `findMatch` or
inserted in the match table: with `trace` the list, chunk by chunk, of the
calls of `findMatch` that `Forward` makes (`chunkCalls`, the chunk loop of
`Forward` recording them), every call is at a position `start + pos` of `src`
below `len(src) - 4`; after every call each non-zero entry of the match table
holds the position of a call of the same chunk; and each non-zero entry of
the table `Forward` returns holds the position of a call of the last chunk. -/
theorem rolzCodec1_verbatim_tail (E : EntropyStage) (this : rolzCodec1) (src dst : List Nat)
    (r : CallResult rolzCodec1) (h5 : 5 ≤ src.length) (h63 : src.length < 2 ^ 63)
    (h : rolzCodec1.Forward E this src dst = some r) (he : r.err = none) :
    r.srcIdx = src.length ∧ 4 ≤ r.dstIdx ∧ r.dstIdx ≤ r.dst.length ∧
    (r.dst.take r.dstIdx).drop (r.dstIdx - 4) = src.drop (src.length - 4) ∧
    ∃ dst1 trace, putUint32BE dst 0 (src.length % 2 ^ 32) = some dst1 ∧
      rolzCodec1.chunkCalls E src ((src.length : Int) - 4) (src.length + 1)
        { tabs := { this with counters := this.counters.fill 0 }
          dst := dst1
          litBuf := List.replicate (rolzCodec1.MaxEncodedLen
            (if src.length > ROLZ_CHUNK_SIZE then ROLZ_CHUNK_SIZE else src.length)) 0
          lenBuf := List.replicate
            ((if src.length > ROLZ_CHUNK_SIZE then ROLZ_CHUNK_SIZE else src.length) / 2) 0
          mIdxBuf := List.replicate
            ((if src.length > ROLZ_CHUNK_SIZE then ROLZ_CHUNK_SIZE else src.length) / 2) 0
          startChunk := 0
          sizeChunk := if src.length > ROLZ_CHUNK_SIZE then ROLZ_CHUNK_SIZE else src.length
          srcIdx := 0, dstIdx := 4 } = some trace ∧
      (∀ e ∈ trace, ∀ c ∈ e.2, e.1 + c.pos < src.length - 4 ∧
        ∀ i, c.after.matches_.cell i ≠ 0 →
          ∃ c2 ∈ e.2, c2.pos = c.after.matches_.cell i &&& ROLZ_POS_MASK) ∧
      ∃ e, trace.getLast? = some e ∧
        ∀ i, r.this.matches_.cell i ≠ 0 →
          ∃ c2 ∈ e.2, c2.pos = r.this.matches_.cell i &&& ROLZ_POS_MASK := by
  have hfit := Forward1_fits E this src dst r h he
  obtain ⟨-, k⟩ := Forward1_trace E this src dst r hfit h
  obtain ⟨dst1, s, hp, ht, ⟨q1, q2, q3⟩, hd4, hdi, hdl, hl, hsi, -, htail⟩ := k he h5 h63
  obtain ⟨dst2, s2, hp2, hloop, ht2⟩ := Forward1_loop E this src dst r hfit h he
  have hcs : (if src.length > ROLZ_CHUNK_SIZE then ROLZ_CHUNK_SIZE else src.length) ≤ 2 ^ 26 := by
    unfold ROLZ_CHUNK_SIZE
    split <;> norm_num at * <;> omega
  obtain ⟨trace, c1, c2, c3⟩ := chunkCalls_spec E src _ _ _ s2 hloop hcs
  refine ⟨hsi, by omega, hdl, ?_, dst2, trace, hp2, c1, ?_, ?_⟩
  · apply List.ext_getElem?
    intro j
    rw [List.getElem?_drop, List.getElem?_drop]
    by_cases hj : j < 4
    · rw [List.getElem?_take_of_lt (by omega)]
      have := htail j hj
      unfold rd at this
      rw [show r.dstIdx - 4 + j = s.dstIdx + j by omega, this]
    · rw [List.getElem?_eq_none (by simp; omega), List.getElem?_eq_none (by omega)]
  · intro e he c hc
    obtain ⟨a1, a2⟩ := c2 e he c hc
    exact ⟨by omega, a2⟩
  · rcases c3 with ⟨-, -, hz⟩ | ⟨e, e1, e2⟩
    · exfalso
      rcases hz with hz | hz
      · omega
      · apply hz
        show ((0 : Nat) : Int) < (src.length : Int) - 4
        omega
    · refine ⟨e, e1, ?_⟩
      rw [ht2]
      exact e2

/-- Witness of C15: the block `1, 2, 3, 1, 2, 3, 1, 2, 9, 9, 9, 9`, a
destination of 44 bytes and the plain entropy stage.  The chunk is the first
eight bytes; `findMatch` is called at its positions 2, 3, 4 and 5, and the
output ends with `9, 9, 9, 9`. -/
theorem rolzCodec1_verbatim_tail_witness :
    ∃ r dst1 trace,
      rolzCodec1.Forward plainStage (rolzCodec1.alloc 4) [1, 2, 3, 1, 2, 3, 1, 2, 9, 9, 9, 9]
        (List.replicate 44 0) = some r ∧ r.err = none ∧ r.srcIdx = 12 ∧
      (r.dst.take r.dstIdx).drop (r.dstIdx - 4) = [9, 9, 9, 9] ∧
      putUint32BE (List.replicate 44 0) 0 12 = some dst1 ∧
      rolzCodec1.chunkCalls plainStage [1, 2, 3, 1, 2, 3, 1, 2, 9, 9, 9, 9] 8 13
        { tabs := { rolzCodec1.alloc 4 with counters := (rolzCodec1.alloc 4).counters.fill 0 }
          dst := dst1
          litBuf := List.replicate 44 0
          lenBuf := List.replicate 6 0
          mIdxBuf := List.replicate 6 0
          startChunk := 0, sizeChunk := 12, srcIdx := 0, dstIdx := 4 } = some trace ∧
      trace.map (fun e => (e.1, e.2.map (fun c => (c.pos, c.idx, c.len)))) =
        [(0, [(2, -1, -1), (3, -1, -1), (4, -1, -1), (5, 0, 0)])] ∧
      ∀ e ∈ trace, ∀ c ∈ e.2, e.1 + c.pos < 12 - 4 := by
  have e1 : (rolzCodec1.Forward plainStage (rolzCodec1.alloc 4)
      [1, 2, 3, 1, 2, 3, 1, 2, 9, 9, 9, 9] (List.replicate 44 0)).map (fun r => r.err) =
      some none := by decide!
  have e2 : (putUint32BE (List.replicate 44 0) 0 12).bind (fun dst1 =>
      (rolzCodec1.chunkCalls plainStage [1, 2, 3, 1, 2, 3, 1, 2, 9, 9, 9, 9] 8 13
        { tabs := { rolzCodec1.alloc 4 with counters := (rolzCodec1.alloc 4).counters.fill 0 }
          dst := dst1
          litBuf := List.replicate 44 0
          lenBuf := List.replicate 6 0
          mIdxBuf := List.replicate 6 0
          startChunk := 0, sizeChunk := 12, srcIdx := 0, dstIdx := 4 }).map
        (fun t => t.map (fun e => (e.1, e.2.map (fun c => (c.pos, c.idx, c.len)))))) =
      some [(0, [(2, -1, -1), (3, -1, -1), (4, -1, -1), (5, 0, 0)])] := by decide!
  cases hr : rolzCodec1.Forward plainStage (rolzCodec1.alloc 4)
      [1, 2, 3, 1, 2, 3, 1, 2, 9, 9, 9, 9] (List.replicate 44 0) with
  | none => rw [hr] at e1; cases e1
  | some r =>
    rw [hr] at e1
    have he : r.err = none := by simpa using e1
    obtain ⟨a1, -, -, a4, dst1, trace, a5, a6, a7, -⟩ := rolzCodec1_verbatim_tail plainStage
      (rolzCodec1.alloc 4) [1, 2, 3, 1, 2, 3, 1, 2, 9, 9, 9, 9] (List.replicate 44 0) r
      (by decide) (by decide) hr he
    have a5' : putUint32BE (List.replicate 44 0) 0 12 = some dst1 := a5
    have a6' : rolzCodec1.chunkCalls plainStage [1, 2, 3, 1, 2, 3, 1, 2, 9, 9, 9, 9] 8 13
        { tabs := { rolzCodec1.alloc 4 with counters := (rolzCodec1.alloc 4).counters.fill 0 }
          dst := dst1
          litBuf := List.replicate 44 0
          lenBuf := List.replicate 6 0
          mIdxBuf := List.replicate 6 0
          startChunk := 0, sizeChunk := 12, srcIdx := 0, dstIdx := 4 } = some trace := a6
    rw [a5', Option.some_bind, a6', Option.map_some'] at e2
    exact ⟨r, dst1, trace, rfl, he, a1, a4, a5', a6', Option.some.inj e2,
      fun e he c hc => (a7 e he c hc).1⟩

theorem encodeLiteral_bits (re : rolzEncoder rolzPredictor) (v : Nat) :
    encodeLiteral re v = rolzEncoder.encodeBits RP re
      [ROLZ_LITERAL_FLAG, (v >>> 7) &&& 1, (v >>> 6) &&& 1, (v >>> 5) &&& 1, (v >>> 4) &&& 1,
        (v >>> 3) &&& 1, (v >>> 2) &&& 1, (v >>> 1) &&& 1, v &&& 1] := by
  unfold encodeLiteral rolzEncoder.encodeByte
  simp only [rolzEncoder.encodeBits, bind_eq_bind]
  cases re.encodeBit RP ROLZ_LITERAL_FLAG with
  | none => rfl
  | some e0 =>
    simp only [Option.some_bind]
    cases e0.encodeBit RP ((v >>> 7) &&& 1) with
    | none => rfl
    | some e1 =>
      simp only [Option.some_bind]
      cases e1.encodeBit RP ((v >>> 6) &&& 1) with
      | none => rfl
      | some e2 =>
        simp only [Option.some_bind]
        cases e2.encodeBit RP ((v >>> 5) &&& 1) with
        | none => rfl
        | some e3 =>
          simp only [Option.some_bind]
          cases e3.encodeBit RP ((v >>> 4) &&& 1) with
          | none => rfl
          | some e4 =>
            simp only [Option.some_bind]
            cases e4.encodeBit RP ((v >>> 3) &&& 1) with
            | none => rfl
            | some e5 =>
              simp only [Option.some_bind]
              cases e5.encodeBit RP ((v >>> 2) &&& 1) with
              | none => rfl
              | some e6 =>
                simp only [Option.some_bind]
                cases e6.encodeBit RP ((v >>> 1) &&& 1) with
                | none => rfl
                | some e7 =>
                  simp only [Option.some_bind]
                  cases e7.encodeBit RP (v &&& 1) <;> rfl

theorem tailLoop_step (src : List Nat) (fuel : Nat) (re re2 : rolzEncoder rolzPredictor)
    (k : Nat) (z : Int) (hk : 1 ≤ k)
    (h : rolzCodec2.tailLoop src (fuel + 1) re (k : Int) = some (re2, z)) :
    ∃ prev v p e, src[k - 1]? = some prev ∧ src[k]? = some v ∧ re.predictors[0]? = some p ∧
      rolzEncoder.encodeBits RP { re with predictors := re.predictors.set 0 (p.setContext prev) }
        [ROLZ_LITERAL_FLAG, (v >>> 7) &&& 1, (v >>> 6) &&& 1, (v >>> 5) &&& 1, (v >>> 4) &&& 1,
          (v >>> 3) &&& 1, (v >>> 2) &&& 1, (v >>> 1) &&& 1, v &&& 1] = some e ∧
      rolzCodec2.tailLoop src fuel e ((k + 1 : Nat) : Int) = some (re2, z) := by
  unfold rolzCodec2.tailLoop at h
  obtain ⟨prev, h1, ha⟩ := bind_eq_some_iff.1 h
  obtain ⟨ps, h2, hb⟩ := bind_eq_some_iff.1 ha
  obtain ⟨v, h3, hc⟩ := bind_eq_some_iff.1 hb
  obtain ⟨e, h4, hd⟩ := bind_eq_some_iff.1 hc
  clear h ha hb hc
  unfold setPredictorContext at h2
  obtain ⟨p, h5, h2⟩ := bind_eq_some_iff.1 h2
  rw [pure_eq_some, Option.some.injEq] at h2
  subst h2
  rw [encodeLiteral_bits] at h4
  have g1 := (rdI_some h1).2
  have g3 := (rdI_some h3).2
  unfold rd at g1 g3
  rw [show ((k : Int) - 1).toNat = k - 1 by omega] at g1
  rw [Int.toNat_ofNat] at g3
  exact ⟨prev, v, p, e, g1, g3, h5, h4, by rw [Nat.cast_add, Nat.cast_one]; exact hd⟩

theorem tailLoop_zero (src : List Nat) (re re2 : rolzEncoder rolzPredictor) (k z : Int)
    (h : rolzCodec2.tailLoop src 0 re k = some (re2, z)) : re2 = re := by
  unfold rolzCodec2.tailLoop at h
  cases h
  rfl

theorem encodeBits_literal_predictor (e e2 : rolzEncoder rolzPredictor) (v : Nat)
    (h : rolzEncoder.encodeBits RP e
      [ROLZ_LITERAL_FLAG, (v >>> 7) &&& 1, (v >>> 6) &&& 1, (v >>> 5) &&& 1, (v >>> 4) &&& 1,
        (v >>> 3) &&& 1, (v >>> 2) &&& 1, (v >>> 1) &&& 1, v &&& 1] = some e2) :
    e2.predictor = e.predictor := by
  rw [← encodeLiteral_bits] at h
  exact (encodeLiteral_extends e e2 v h).2

/-- C16, amended. When `rolzCodec2.Forward` succeeds the block has at least
five bytes and its last four bytes go through the range coder: after the
chunk loop the coder selects the literal predictor (`setContext`), and with
`es 0` that coder, for `i = 0, 1, 2, 3` the coder `es (i + 1)` is obtained
from `es i` by setting the context of the literal predictor `predictors[0]`
to the byte `src[len-5+i]` and coding nine bits with the selected predictor
`ROLZ_LITERAL_FLAG`: the flag bit `ROLZ_LITERAL_FLAG`, then the eight bits of
`src[len-4+i]`, most significant first.  This is the loop `tailLoop`, which
ends at source index `len(src)`.  `dispose` then appends the eight bytes of
the `low` of the last coder `es 4`; these eight bytes end the output, and the
output before them is the buffer of that coder. -/
theorem rolzCodec2_tail_is_coded (this : rolzCodec2) (src dst : List Nat)
    (r : CallResult rolzCodec2) (h : this.Forward src dst = some r) (he : r.err = none) :
    ∃ (dst1 : List Nat) (s : Fwd2State) (re0 re1 : rolzEncoder rolzPredictor),
      putUint32BE dst 0 (src.length % 2 ^ 32) = some dst1 ∧
      rolzCodec2.chunkLoop src ((src.length : Int) - 4) (src.length + 1)
        { tabs := { this.tabs with counters := this.tabs.counters.fill 0 },
          re := { predictors := [this.litPredictor.reset, this.matchPredictor.reset],
                  predictor := 0, buf := dst1, idx := 4, low := 0, high := ROLZ_TOP },
          startChunk := 0,
          sizeChunk := if src.length > ROLZ_CHUNK_SIZE then ROLZ_CHUNK_SIZE else src.length,
          srcIdx := 0 } = some s ∧
      s.re.setContext ROLZ_LITERAL_FLAG = some re0 ∧
      rolzCodec2.tailLoop src 4 re0 ((src.length : Int) - 4) = some (re1, (src.length : Int)) ∧
      r.dstIdx = re1.idx + 8 ∧ r.dstIdx ≤ r.dst.length ∧
      r.dst.take re1.idx = re1.buf.take re1.idx ∧
      beBytes r.dst re1.idx 8 = re1.low % 2 ^ 64 ∧
      5 ≤ src.length ∧
      ∃ es : Nat → rolzEncoder rolzPredictor,
        es 0 = { s.re with predictor := ROLZ_LITERAL_FLAG } ∧ es 0 = re0 ∧ es 4 = re1 ∧
        ∀ i, i < 4 → ∃ (prev v : Nat) (p : rolzPredictor),
          src[src.length - 5 + i]? = some prev ∧ src[src.length - 4 + i]? = some v ∧
          (es i).predictor = ROLZ_LITERAL_FLAG ∧ (es i).predictors[0]? = some p ∧
          rolzEncoder.encodeBits RP
            { es i with predictors := (es i).predictors.set 0 (p.setContext prev) }
            [ROLZ_LITERAL_FLAG, (v >>> 7) &&& 1, (v >>> 6) &&& 1, (v >>> 5) &&& 1,
              (v >>> 4) &&& 1, (v >>> 3) &&& 1, (v >>> 2) &&& 1, (v >>> 1) &&& 1, v &&& 1] =
            some (es (i + 1)) := by
  have hfit := Forward2_fits this src dst r h he
  obtain ⟨dst1, s, re0, re1, hp, hs, h0, ht, hdi, h4, hdl, hl, hbe, hpre, -, -, hsrc, herr⟩ :=
    Forward2_trace this src dst r hfit h
  have hk : (s.srcIdx : Int) + ((s.startChunk : Int) - (s.sizeChunk : Int)) + 4 =
      (src.length : Int) := by
    by_contra hne
    rw [herr] at he
    simp only [ne_eq, hne, not_false_eq_true, if_true] at he
    cases he
  have hk2 : (s.srcIdx : Int) + ((s.startChunk : Int) - (s.sizeChunk : Int)) =
      (src.length : Int) - 4 := by omega
  rw [hk2] at ht
  have ht2 : rolzCodec2.tailLoop src 4 re0 ((src.length : Int) - 4) =
      some (re1, (src.length : Int)) := by
    rw [ht]; congr 2; omega
  have h5 : 5 ≤ src.length := by
    have hx := ht2
    unfold rolzCodec2.tailLoop at hx
    obtain ⟨prev, h1, -⟩ := bind_eq_some_iff.1 hx
    have := (rdI_some h1).1
    omega
  have hre0 : re0 = { s.re with predictor := ROLZ_LITERAL_FLAG } := by
    unfold rolzEncoder.setContext at h0
    obtain ⟨p, -, hx⟩ := bind_eq_some_iff.1 h0
    rw [pure_eq_some, Option.some.injEq] at hx
    exact hx.symm
  have hp0 : re0.predictor = ROLZ_LITERAL_FLAG := by rw [hre0]
  have hcast : ((src.length : Int) - 4) = ((src.length - 4 : Nat) : Int) := by omega
  rw [hcast] at ht2
  obtain ⟨v0, w0, p0, e1, a1, a2, a3, a4, t1⟩ :=
    tailLoop_step src 3 re0 re1 (src.length - 4) _ (by omega) ht2
  obtain ⟨v1, w1, p1, e2, b1, b2, b3, b4, t2⟩ :=
    tailLoop_step src 2 e1 re1 (src.length - 4 + 1) _ (by omega) t1
  obtain ⟨v2, w2, p2, e3, c1, c2, c3, c4, t3⟩ :=
    tailLoop_step src 1 e2 re1 (src.length - 4 + 1 + 1) _ (by omega) t2
  obtain ⟨v3, w3, p3, e4, d1, d2, d3, d4, t4⟩ :=
    tailLoop_step src 0 e3 re1 (src.length - 4 + 1 + 1 + 1) _ (by omega) t3
  have hlast := tailLoop_zero src e4 re1 _ _ t4
  subst hlast
  have q1 := encodeBits_literal_predictor _ _ _ a4
  have q2 := encodeBits_literal_predictor _ _ _ b4
  have q3 := encodeBits_literal_predictor _ _ _ c4
  simp only at q1 q2 q3
  refine ⟨dst1, s, re0, re1, hp, hs, h0, by rw [hcast]; exact ht2, hdi, hdl, ?_, hbe, h5,
    fun i => match i with
      | 0 => re0
      | 1 => e1
      | 2 => e2
      | 3 => e3
      | _ => re1, hre0, rfl, rfl, ?_⟩
  · apply List.ext_getElem?
    intro j
    by_cases hj : j < re1.idx
    · rw [List.getElem?_take_of_lt hj, List.getElem?_take_of_lt hj]
      exact hpre j hj
    · rw [List.getElem?_eq_none (by simp; omega), List.getElem?_eq_none (by simp; omega)]
  · have ix : ∀ a b : Nat, a = b → src[a]? = src[b]? := fun a b hab => by rw [hab]
    intro i hi
    match i, hi with
    | 0, _ =>
      exact ⟨v0, w0, p0, (ix _ _ (by omega)).trans a1, (ix _ _ (by omega)).trans a2, hp0, a3, a4⟩
    | 1, _ =>
      exact ⟨v1, w1, p1, (ix _ _ (by omega)).trans b1, (ix _ _ (by omega)).trans b2,
        by rw [q1]; exact hp0, b3, b4⟩
    | 2, _ =>
      exact ⟨v2, w2, p2, (ix _ _ (by omega)).trans c1, (ix _ _ (by omega)).trans c2,
        by rw [q2, q1]; exact hp0, c3, c4⟩
    | 3, _ =>
      exact ⟨v3, w3, p3, (ix _ _ (by omega)).trans d1, (ix _ _ (by omega)).trans d2,
        by rw [q3, q2, q1]; exact hp0, d3, d4⟩

/-- Witness of C16 (amended): the block `ABCDE` with a destination of 37
bytes; `Forward` succeeds, the four bytes `B, C, D, E` are coded as literals
with contexts `A, B, C, D`, and the last eight output bytes are the coder's
`low`. -/
theorem rolzCodec2_tail_is_coded_witness :
    ∃ (r : CallResult rolzCodec2) (re0 re1 : rolzEncoder rolzPredictor)
      (es : Nat → rolzEncoder rolzPredictor),
      (rolzCodec2.alloc 5).Forward [65, 66, 67, 68, 69] (List.replicate 37 0) = some r ∧
      r.err = none ∧
      rolzCodec2.tailLoop [65, 66, 67, 68, 69] 4 re0 1 = some (re1, 5) ∧
      r.dstIdx = re1.idx + 8 ∧ beBytes r.dst re1.idx 8 = re1.low % 2 ^ 64 ∧
      es 0 = re0 ∧ es 4 = re1 ∧
      ∀ i, i < 4 → ∃ (prev v : Nat) (p : rolzPredictor),
        [65, 66, 67, 68, 69][[65, 66, 67, 68, 69].length - 5 + i]? = some prev ∧
        [65, 66, 67, 68, 69][[65, 66, 67, 68, 69].length - 4 + i]? = some v ∧
        (es i).predictor = ROLZ_LITERAL_FLAG ∧ (es i).predictors[0]? = some p ∧
        rolzEncoder.encodeBits RP
          { es i with predictors := (es i).predictors.set 0 (p.setContext prev) }
          [ROLZ_LITERAL_FLAG, (v >>> 7) &&& 1, (v >>> 6) &&& 1, (v >>> 5) &&& 1,
            (v >>> 4) &&& 1, (v >>> 3) &&& 1, (v >>> 2) &&& 1, (v >>> 1) &&& 1, v &&& 1] =
          some (es (i + 1)) := by
  have e2 : ((rolzCodec2.alloc 5).Forward [65, 66, 67, 68, 69]
      (List.replicate 37 0)).map (fun r => r.err) = some none := by decide!
  cases hr : (rolzCodec2.alloc 5).Forward [65, 66, 67, 68, 69] (List.replicate 37 0) with
  | none => rw [hr] at e2; cases e2
  | some r =>
    rw [hr] at e2
    have he : r.err = none := by simpa using e2
    obtain ⟨dst1, s, re0, re1, -, -, -, a4, a5, -, -, a8, -, es, -, a10, a11, a12⟩ :=
      rolzCodec2_tail_is_coded (rolzCodec2.alloc 5) [65, 66, 67, 68, 69]
        (List.replicate 37 0) r hr he
    exact ⟨r, re0, re1, es, rfl, he, a4, a5, a8, a10, a11, a12⟩
end Kanzi
